import Mathlib

/-! CPU scheduling simulator (`simulator.cpp`): shallow embedding.

The ten scheduling policies of `simulator.cpp` are embedded as executable Lean
functions.  Conventions of the embedding:

* C++ `int` is `Int`: the clock, the durations and the metrics are computed in
  unbounded arithmetic.  The embedding computes what the program computes as
  long as no `int` of the program overflows (signed overflow is undefined
  behaviour in the source; in practice the value wraps around modulo 2^32).
  The theorems that equate a clock value, a metric, a duration computed from
  the clock or a default deadline with an exact sum assume that these values
  are in the range of `int` (`ClockFits`, `DeadlineFits`, `BagFits`,
  `BusyFits`); under `ClockFits` the
  clock of every policy is between 0 and `INT_MAX` in every state
  (`FCFS_clock_int`, `FCFS_from_clock_int`, `NP_clock_int`, `SRTF_clock_int`, `RR_clock_int`,
  `MLQ_clock_int`, `MLFQ_clock_int`, `Lottery_clock_int`, `CFS_clock_int`,
  `EDF_clock_int`).
* `std::sort` is the stable insertion sort.  The C++ standard does not fix the
  order that `std::sort` gives to elements that compare equal; where that order
  matters the theorems assume pairwise distinct keys, for which every
  implementation returns the same vector (`arrivalSorted_unique`).
* `std::vector<Process>` is `List Process`; a `Process*` into the vector is the
  index of the element, `std::queue<Process*>` is a `List Nat` (front = head).
* every `while` loop of a `schedule` method is `whileLoop cond body fuel`; it
  returns `none` when the fuel is exhausted before the loop condition fails.
* `std::priority_queue::top` is a parameter `sel` (position of the element that
  is handed out), `std::mt19937` is a parameter `draws` (the stream of drawn
  numbers).
-/

namespace Simulator

/-! ## Process model and helpers -/

/-- The `operator<` of `std::string` (lexicographic on the characters). -/
def strLt (a b : String) : Bool := decide (a.data < b.data)

/-- The record `struct Process`; `vruntime` (a `double` in the source) is kept
in exact rational arithmetic. -/
structure Process where
  id : String
  arrival_time : Int
  burst_time : Int
  priority : Int
  remaining_time : Int := 0
  waiting_time : Int := 0
  turnaround_time : Int := 0
  deadline : Int := 0
  vruntime : Rat := 0
deriving DecidableEq, Repr, Inhabited

/-- The timeline `std::vector<std::pair<std::string,int>>`. -/
abbrev Gantt := List (String × Int)

/-- What `schedule` leaves behind: the mutated processes, the timeline and
`total_time`. -/
structure Result where
  ps : List Process
  gantt : Gantt
  total_time : Int
deriving DecidableEq, Repr

def INT_MAX : Int := 2147483647

/-- Element `ps[i]`. -/
def procAt (ps : List Process) (i : Nat) : Process := ps.getD i default

/-- In-place update of `ps[i]`. -/
def modifyAt : List Process → Nat → (Process → Process) → List Process
  | [], _, _ => []
  | p :: rest, 0, f => f p :: rest
  | p :: rest, i + 1, f => p :: modifyAt rest i f

/-- `finalizeBlock(id, start, now, gantt)`. -/
def finalizeBlock (id : String) (start now : Int) (gantt : Gantt) : Gantt :=
  if start ≠ -1 ∧ id ≠ "" ∧ now > start then gantt ++ [(id, now - start)] else gantt

/-- `anyLeft(ps)`. -/
def anyLeft (ps : List Process) : Bool := ps.any (fun p => decide (p.remaining_time > 0))

/-- `initRemaining(ps)`. -/
def initRemaining (ps : List Process) : List Process :=
  ps.map (fun p => { p with remaining_time := p.burst_time })

/-- A `while (cond) body` loop, run with at most `fuel` iterations of the body. -/
def whileLoop {σ : Type} (cond : σ → Bool) (body : σ → σ) : Nat → σ → Option σ
  | 0, s => if cond s then none else some s
  | fuel + 1, s => if cond s then whileLoop cond body fuel (body s) else some s

/-- The indices admitted by `while (idx < ps.size() && ps[idx].arrival_time <= t) push(idx++)`,
in the order in which they are pushed. -/
def arrivalsFrom (ps : List Process) (t : Int) : Nat → Nat → List Nat
  | 0, _ => []
  | fuel + 1, idx =>
    if idx < ps.length ∧ (procAt ps idx).arrival_time ≤ t then
      idx :: arrivalsFrom ps t fuel (idx + 1)
    else []

/-- The admission loop started at `idx`. -/
def newArrivals (ps : List Process) (t : Int) (idx : Nat) : List Nat :=
  arrivalsFrom ps t (ps.length - idx) idx

/-- Writes `turnaround_time` and `waiting_time` of a process that completes at clock `t`. -/
def setMetrics (t : Int) (p : Process) : Process :=
  { p with turnaround_time := t - p.arrival_time,
           waiting_time := (t - p.arrival_time) - p.burst_time }

/-- `p->remaining_time -= slice`. -/
def decRemaining (slice : Int) (p : Process) : Process :=
  { p with remaining_time := p.remaining_time - slice }

/-- The closing loop `for i: ps[i].turnaround_time = comp[i] - arrival; waiting = ...`. -/
def finishWithComp (ps : List Process) (comp : List Int) : List Process :=
  List.zipWith (fun p c => setMetrics c p) ps comp

/-! ## FCFS -/

/-- `std::sort` by `arrival_time`, embedded as the stable insertion sort: equal arrivals keep
their input order.  The C++ standard leaves the order of processes with equal `arrival_time`
open (an implementation of `std::sort` need not be stable, and on long vectors the common
ones are not); on pairwise distinct arrival times every implementation returns the vector
that this function returns (`arrivalSorted_unique`, `sortByArrival_arrivalSorted`), and on
every workload every arrangement by arrival time gives FCFS the metrics relations, the
makespan and the final clock that this one gives (`FCFS_result_from`, `FCFS_from_total`). -/
def sortByArrival (ps : List Process) : List Process :=
  ps.insertionSort (fun a b => a.arrival_time ≤ b.arrival_time)

/-- The `for (auto& p : ps)` loop of `FCFSScheduler::schedule`.  The clock `t` and the metrics
are computed in `Int`; they are the values that the program computes in `int` if the final
clock is at most `INT_MAX` (`ClockFits`, `FCFS_clock_int`, `FCFS_from_clock_int`). -/
def FCFS_loop : List Process → Int → Gantt → List Process × Gantt × Int
  | [], t, g => ([], g, t)
  | p :: rest, t, g =>
    let g1 := if t < p.arrival_time then g ++ [("IDLE", p.arrival_time - t)] else g
    let t1 := if t < p.arrival_time then p.arrival_time else t
    let g2 := g1 ++ [(p.id, p.burst_time)]
    let t2 := t1 + p.burst_time
    let r := FCFS_loop rest t2 g2
    (setMetrics t2 p :: r.1, r.2.1, r.2.2)

/-- `FCFSScheduler::schedule`. -/
def FCFSScheduler_schedule (ps : List Process) : Result :=
  let r := FCFS_loop (sortByArrival (initRemaining ps)) 0 []
  { ps := r.1, gantt := r.2.1, total_time := r.2.2 }

/-! ## SJF and Priority (non-preemptive) -/

/-- The comparator of the `ord` sort: arrival time, then id. -/
def ordBefore (ps : List Process) (a b : Nat) : Bool :=
  if (procAt ps a).arrival_time ≠ (procAt ps b).arrival_time then
    decide ((procAt ps a).arrival_time < (procAt ps b).arrival_time)
  else strLt (procAt ps a).id (procAt ps b).id

/-- The index vector `ord` after `std::sort`. -/
def sortedOrder (ps : List Process) : List Nat :=
  (List.range ps.length).insertionSort (fun a b => ordBefore ps b a = false)

/-- Loop state of the SJF and Priority schedulers. -/
structure NPState where
  ps : List Process
  t : Int
  next : Nat
  rq : List Nat
  gantt : Gantt
deriving DecidableEq, Repr

/-- The lambda `push`: `while (next < ord.size() && ps[ord[next]].arrival_time <= t) rq.push_back(ord[next++])`. -/
def NP_pushLoop (ord : List Nat) (ps : List Process) (t : Int) : Nat → Nat → List Nat → Nat × List Nat
  | 0, next, rq => (next, rq)
  | fuel + 1, next, rq =>
    if next < ord.length ∧ (procAt ps (ord.getD next 0)).arrival_time ≤ t then
      NP_pushLoop ord ps t fuel (next + 1) (rq ++ [ord.getD next 0])
    else (next, rq)

def NP_push (ord : List Nat) (s : NPState) : NPState :=
  let r := NP_pushLoop ord s.ps s.t (ord.length - s.next) s.next s.rq
  { s with next := r.1, rq := r.2 }

/-- The lambda `pick` of `SJFScheduler::schedule` (`-1` when `rq` is empty). -/
def SJF_pick (ps : List Process) (rq : List Nat) : Int :=
  (List.range rq.length).foldl (fun (b : Int) (i : Nat) =>
    if b = -1
        ∨ (procAt ps (rq.getD i 0)).burst_time < (procAt ps (rq.getD b.toNat 0)).burst_time
        ∨ ((procAt ps (rq.getD i 0)).burst_time = (procAt ps (rq.getD b.toNat 0)).burst_time
            ∧ strLt (procAt ps (rq.getD i 0)).id (procAt ps (rq.getD b.toNat 0)).id = true)
    then (i : Int) else b) (-1)

/-- The lambda `pick` of `PriorityScheduler::schedule`. -/
def Priority_pick (ps : List Process) (rq : List Nat) : Int :=
  (List.range' 1 (rq.length - 1)).foldl (fun (b : Int) (i : Nat) =>
    if (procAt ps (rq.getD i 0)).priority < (procAt ps (rq.getD b.toNat 0)).priority
        ∨ ((procAt ps (rq.getD i 0)).priority = (procAt ps (rq.getD b.toNat 0)).priority
            ∧ strLt (procAt ps (rq.getD i 0)).id (procAt ps (rq.getD b.toNat 0)).id = true)
    then (i : Int) else b) 0

/-- One iteration of the `while (next < ord.size() || !rq.empty())` loop. -/
def NP_body (pick : List Process → List Nat → Int) (ord : List Nat) (s : NPState) : NPState :=
  let s1 := NP_push ord s
  let s2 :=
    if s1.rq.isEmpty then
      let na := (procAt s1.ps (ord.getD s1.next 0)).arrival_time
      NP_push ord { s1 with gantt := s1.gantt ++ [("IDLE", na - s1.t)], t := na }
    else s1
  let pos := (pick s2.ps s2.rq).toNat
  let idx := s2.rq.getD pos 0
  let t3 := s2.t + (procAt s2.ps idx).burst_time
  { ps := modifyAt s2.ps idx (setMetrics t3),
    t := t3,
    next := s2.next,
    rq := s2.rq.eraseIdx pos,
    gantt := s2.gantt ++ [((procAt s2.ps idx).id, (procAt s2.ps idx).burst_time)] }

def NP_cond (ord : List Nat) (s : NPState) : Bool :=
  decide (s.next < ord.length) || !s.rq.isEmpty

/-- The common shape of `SJFScheduler::schedule` and `PriorityScheduler::schedule`. -/
def NP_schedule (pick : List Process → List Nat → Int) (fuel : Nat) (ps : List Process) :
    Option Result :=
  let ps0 := initRemaining ps
  let ord := sortedOrder ps0
  (whileLoop (NP_cond ord) (NP_body pick ord) fuel
      { ps := ps0, t := 0, next := 0, rq := [], gantt := [] }).map
    (fun s => { ps := s.ps, gantt := s.gantt, total_time := s.t })

/-- `SJFScheduler::schedule`. -/
def SJFScheduler_schedule (fuel : Nat) (ps : List Process) : Option Result :=
  NP_schedule SJF_pick fuel ps

/-- `PriorityScheduler::schedule`. -/
def PriorityScheduler_schedule (fuel : Nat) (ps : List Process) : Option Result :=
  NP_schedule Priority_pick fuel ps

/-! ## SRTF -/

/-- Loop state of `SRTFScheduler::schedule`. -/
structure SRTFState where
  ps : List Process
  comp : List Int
  t : Int
  last : String
  start : Int
  gantt : Gantt
deriving DecidableEq, Repr

/-- The selection loop over `i` (`none` is `best == -1`). -/
def SRTF_best (ps : List Process) (t : Int) : Option Nat :=
  (List.range ps.length).foldl (fun (best : Option Nat) (i : Nat) =>
    if (procAt ps i).arrival_time ≤ t ∧ (procAt ps i).remaining_time > 0 then
      match best with
      | none => some i
      | some b =>
        if (procAt ps i).remaining_time < (procAt ps b).remaining_time
            ∨ ((procAt ps i).remaining_time = (procAt ps b).remaining_time
                ∧ strLt (procAt ps i).id (procAt ps b).id = true)
        then some i else some b
    else best) none

/-- The loop `na = INT_MAX; for i: if remaining > 0 then na = min(na, arrival)`. -/
def SRTF_nextArrival (ps : List Process) : Int :=
  ps.foldl (fun na p => if p.remaining_time > 0 then min na p.arrival_time else na) INT_MAX

/-- One iteration of `while (!allDone())`.  The clock `t` is computed in `Int`; it is the
value that the program computes in `int` as long as it is at most `INT_MAX` (`ClockFits`,
`SRTF_clock_int`). -/
def SRTF_body (s : SRTFState) : SRTFState :=
  match SRTF_best s.ps s.t with
  | none =>
    let na := SRTF_nextArrival s.ps
    { s with gantt := finalizeBlock s.last s.start s.t s.gantt ++ [("IDLE", na - s.t)], t := na }
  | some best =>
    let bid := (procAt s.ps best).id
    let g1 := if s.last ≠ bid then finalizeBlock s.last s.start s.t s.gantt else s.gantt
    let start1 := if s.last ≠ bid then s.t else s.start
    let ps1 := modifyAt s.ps best (decRemaining 1)
    let t1 := s.t + 1
    { ps := ps1,
      comp := if (procAt ps1 best).remaining_time = 0 then s.comp.set best t1 else s.comp,
      t := t1, last := bid, start := start1, gantt := g1 }

def SRTF_init (ps : List Process) : SRTFState :=
  { ps := initRemaining ps, comp := List.replicate ps.length (-1), t := 0,
    last := "", start := -1, gantt := [] }

/-- `SRTFScheduler::schedule`. -/
def SRTFScheduler_schedule (fuel : Nat) (ps : List Process) : Option Result :=
  (whileLoop (fun s => anyLeft s.ps) SRTF_body fuel (SRTF_init ps)).map
    (fun s => { ps := finishWithComp s.ps s.comp,
                gantt := finalizeBlock s.last s.start s.t s.gantt,
                total_time := s.t })

/-! ## Round Robin -/

/-- Loop state of `RoundRobinScheduler::schedule`. -/
structure RRState where
  ps : List Process
  q : List Nat
  t : Int
  idx : Nat
  last_start : Int
  last : String
  gantt : Gantt
deriving DecidableEq, Repr

/-- One iteration of `while (!q.empty() || idx < ps.size())`.  The clock `t` and
`remaining_time` are computed in `Int`; they are the values that the program computes in
`int` as long as they are in the range of `int` (for a quantum of at least 1: `ClockFits`,
`RR_clock_int`; for quantum 0: `RR_zero_fits`; with a negative quantum `remaining_time`
grows with every dispatch, and the embedding says nothing about the program from the first
state on that is not in `RRFits`). -/
def RR_body (quantum : Int) (s : RRState) : RRState :=
  let adm := newArrivals s.ps s.t s.idx
  let q1 := s.q ++ adm
  let idx1 := s.idx + adm.length
  match q1 with
  | [] =>
    { s with idx := idx1,
             t := if idx1 < s.ps.length then (procAt s.ps idx1).arrival_time else s.t }
  | cur :: q2 =>
    let slice := min quantum (procAt s.ps cur).remaining_time
    let cid := (procAt s.ps cur).id
    let fresh : Bool := decide (s.last ≠ cid ∨ s.last_start = -1)
    let g1 := if fresh then finalizeBlock s.last s.last_start s.t s.gantt else s.gantt
    let last1 := if fresh then cid else s.last
    let start1 := if fresh then s.t else s.last_start
    let ps1 := modifyAt s.ps cur (decRemaining slice)
    let t1 := s.t + slice
    let adm2 := newArrivals ps1 t1 idx1
    let q3 := q2 ++ adm2
    let idx2 := idx1 + adm2.length
    if (procAt ps1 cur).remaining_time > 0 then
      { ps := ps1, q := q3 ++ [cur], t := t1, idx := idx2,
        last_start := start1, last := last1, gantt := g1 }
    else
      { ps := modifyAt ps1 cur (setMetrics t1), q := q3, t := t1, idx := idx2,
        last_start := start1, last := last1, gantt := g1 }

def RR_cond (s : RRState) : Bool := !s.q.isEmpty || decide (s.idx < s.ps.length)

def RR_init (ps : List Process) : RRState :=
  { ps := initRemaining ps, q := [], t := 0, idx := 0, last_start := -1, last := "", gantt := [] }

/-- `RoundRobinScheduler(quantum)::schedule`. -/
def RoundRobinScheduler_schedule (quantum : Int) (fuel : Nat) (ps : List Process) :
    Option Result :=
  (whileLoop RR_cond (RR_body quantum) fuel (RR_init ps)).map
    (fun s => { ps := s.ps,
                gantt := finalizeBlock s.last s.last_start s.t s.gantt,
                total_time := s.t })

/-! ## MLQ -/

/-- Loop state of `MLQScheduler::schedule`. -/
structure MLQState where
  ps : List Process
  high : List Nat
  low : List Nat
  t : Int
  idx : Nat
  gantt : Gantt
deriving DecidableEq, Repr

/-- The lambda `push`: arrivals with `priority < 3` go to `high`, the others to `low`. -/
def MLQ_push (s : MLQState) : MLQState :=
  let adm := newArrivals s.ps s.t s.idx
  { s with high := s.high ++ adm.filter (fun i => decide ((procAt s.ps i).priority < 3)),
           low := s.low ++ adm.filter (fun i => !decide ((procAt s.ps i).priority < 3)),
           idx := s.idx + adm.length }

/-- The inner loop of the low queue:
`while (p->remaining_time > 0) { push(); if (!high.empty()) break; p->remaining_time--; t++; ran++; push(); }`. -/
def MLQ_lowLoop (p : Nat) : Nat → MLQState → Int → MLQState × Int
  | 0, s, ran => (s, ran)
  | fuel + 1, s, ran =>
    if (procAt s.ps p).remaining_time > 0 then
      let s1 := MLQ_push s
      if !s1.high.isEmpty then (s1, ran)
      else
        let s2 := MLQ_push { s1 with ps := modifyAt s1.ps p (decRemaining 1), t := s1.t + 1 }
        MLQ_lowLoop p fuel s2 (ran + 1)
    else (s, ran)

/-- One iteration of `while (anyLeft(ps))` in `MLQScheduler::schedule`. -/
def MLQ_body (s : MLQState) : MLQState :=
  let s1 := MLQ_push s
  match s1.high with
  | p :: high1 =>
    let slice := min 4 (procAt s1.ps p).remaining_time
    let s2 := MLQ_push { s1 with high := high1,
                                 gantt := s1.gantt ++ [((procAt s1.ps p).id, slice)],
                                 t := s1.t + slice,
                                 ps := modifyAt s1.ps p (decRemaining slice) }
    if (procAt s2.ps p).remaining_time > 0 then { s2 with high := s2.high ++ [p] }
    else { s2 with ps := modifyAt s2.ps p (setMetrics s2.t) }
  | [] =>
    match s1.low with
    | p :: low1 =>
      let r := MLQ_lowLoop p (procAt s1.ps p).remaining_time.toNat { s1 with low := low1 } 0
      let s2 := r.1
      let ran := r.2
      let g := if ran > 0 then s2.gantt ++ [((procAt s2.ps p).id, ran)] else s2.gantt
      if (procAt s2.ps p).remaining_time = 0 then
        { s2 with gantt := g, ps := modifyAt s2.ps p (setMetrics s2.t) }
      else { s2 with gantt := g, low := s2.low ++ [p] }
    | [] =>
      if s1.idx < s1.ps.length then
        let na := (procAt s1.ps s1.idx).arrival_time
        { s1 with gantt := s1.gantt ++ [("IDLE", na - s1.t)], t := na }
      else s1

def MLQ_init (ps : List Process) : MLQState :=
  { ps := initRemaining ps, high := [], low := [], t := 0, idx := 0, gantt := [] }

/-- `MLQScheduler::schedule`. -/
def MLQScheduler_schedule (fuel : Nat) (ps : List Process) : Option Result :=
  (whileLoop (fun s => anyLeft s.ps) MLQ_body fuel (MLQ_init ps)).map
    (fun s => { ps := s.ps, gantt := s.gantt, total_time := s.t })

/-! ## MLFQ -/

/-- Loop state of `MLFQScheduler::schedule`; `q0`, `q1`, `q2` are `q[0]`, `q[1]`, `q[2]`. -/
structure MLFQState where
  ps : List Process
  q0 : List Nat
  q1 : List Nat
  q2 : List Nat
  t : Int
  idx : Nat
  last_enq : List Int
  level : List Int
  comp : List Int
  gantt : Gantt
deriving DecidableEq, Repr

/-- The array `quantum[3] = {2,4,8}`. -/
def MLFQ_quantum : Nat → Int
  | 0 => 2
  | 1 => 4
  | _ => 8

def MLFQ_AGE : Int := 10

def MLFQ_getq (s : MLFQState) : Nat → List Nat
  | 0 => s.q0
  | 1 => s.q1
  | _ => s.q2

def MLFQ_setq (s : MLFQState) (lv : Nat) (q : List Nat) : MLFQState :=
  match lv with
  | 0 => { s with q0 := q }
  | 1 => { s with q1 := q }
  | _ => { s with q2 := q }

/-- The lambda `enq(i, lv)`. -/
def MLFQ_enq (s : MLFQState) (i : Nat) (lv : Int) : MLFQState :=
  let l : Int := max 0 (min 2 lv)
  let s1 := { s with level := s.level.set i l }
  let s2 := MLFQ_setq s1 l.toNat (MLFQ_getq s1 l.toNat ++ [i])
  { s2 with last_enq := s2.last_enq.set i s2.t }

/-- The lambda `push`: every arrival is enqueued at level 0. -/
def MLFQ_push (s : MLFQState) : MLFQState :=
  let adm := newArrivals s.ps s.t s.idx
  let s1 := adm.foldl (fun st i => MLFQ_enq st i 0) s
  { s1 with idx := s.idx + adm.length }

/-- The inner loop
`while (ran < quantum[qi] && p->remaining_time > 0) { p->remaining_time--; t++; ran++; push(); if (qi > 0 && !q[0].empty()) break; }`. -/
def MLFQ_runLoop (p qi : Nat) : Nat → MLFQState → Int → MLFQState × Int
  | 0, s, ran => (s, ran)
  | fuel + 1, s, ran =>
    if ran < MLFQ_quantum qi ∧ (procAt s.ps p).remaining_time > 0 then
      let s1 := MLFQ_push { s with ps := modifyAt s.ps p (decRemaining 1), t := s.t + 1 }
      if qi > 0 ∧ !s1.q0.isEmpty then (s1, ran + 1)
      else MLFQ_runLoop p qi fuel s1 (ran + 1)
    else (s, ran)

/-- The scan `for (i = 0; i < 3; ++i) if (!q[i].empty()) { qi = i; break; }`. -/
def MLFQ_firstNonEmpty (s : MLFQState) : Option Nat :=
  if !s.q0.isEmpty then some 0
  else if !s.q1.isEmpty then some 1
  else if !s.q2.isEmpty then some 2
  else none

/-- One iteration of `while (anyLeft(ps))` in `MLFQScheduler::schedule`. -/
def MLFQ_body (s : MLFQState) : MLFQState :=
  let s1 := MLFQ_push s
  match MLFQ_firstNonEmpty s1 with
  | none =>
    if s1.idx < s1.ps.length then
      let na := (procAt s1.ps s1.idx).arrival_time
      { s1 with gantt := s1.gantt ++ [("IDLE", na - s1.t)], t := na }
    else s1
  | some qi =>
    let p := (MLFQ_getq s1 qi).headD 0
    let s2 := MLFQ_setq s1 qi (MLFQ_getq s1 qi).tail
    if qi > 0 ∧ s2.t - s2.last_enq.getD p 0 ≥ MLFQ_AGE then MLFQ_enq s2 p ((qi : Int) - 1)
    else
      let r := MLFQ_runLoop p qi (MLFQ_quantum qi).toNat s2 0
      let s3 := r.1
      let ran := r.2
      let s4 := { s3 with gantt := if ran > 0 then s3.gantt ++ [((procAt s3.ps p).id, ran)]
                                   else s3.gantt }
      if (procAt s4.ps p).remaining_time = 0 then { s4 with comp := s4.comp.set p s4.t }
      else MLFQ_enq s4 p (if ran = MLFQ_quantum qi ∧ qi < 2 then (qi : Int) + 1 else (qi : Int))

def MLFQ_init (ps : List Process) : MLFQState :=
  { ps := initRemaining ps, q0 := [], q1 := [], q2 := [], t := 0, idx := 0,
    last_enq := List.replicate ps.length 0, level := List.replicate ps.length 0,
    comp := List.replicate ps.length (-1), gantt := [] }

/-- The closing loop `total_time = 0; for p: total_time = max(total_time, arrival + turnaround)`.
The sums are computed in `Int`; they are the completion times, values of type `int` if the
clock stays at most `INT_MAX` (`ClockFits`, `MLFQ_clock_int`). -/
def maxCompletion (ps : List Process) : Int :=
  ps.foldl (fun m p => max m (p.arrival_time + p.turnaround_time)) 0

/-- `MLFQScheduler::schedule`. -/
def MLFQScheduler_schedule (fuel : Nat) (ps : List Process) : Option Result :=
  (whileLoop (fun s => anyLeft s.ps) MLFQ_body fuel (MLFQ_init ps)).map
    (fun s => { ps := finishWithComp s.ps s.comp, gantt := s.gantt,
                total_time := maxCompletion (finishWithComp s.ps s.comp) })

/-! ## Lottery -/

/-- Loop state of `LotteryScheduler::schedule`; `k` counts the numbers drawn so far. -/
structure LotteryState where
  ps : List Process
  t : Int
  idx : Nat
  gantt : Gantt
  k : Nat

/-- The vector `tickets`. -/
def Lottery_tickets (ps : List Process) : List Int :=
  ps.map (fun p => max 1 (10 / max 1 p.priority))

/-- The vector `bag` built at clock `t`. -/
def Lottery_bag (tickets : List Int) (ps : List Process) (t : Int) : List Nat :=
  (List.range ps.length).flatMap (fun i =>
    if (procAt ps i).remaining_time > 0 ∧ (procAt ps i).arrival_time ≤ t then
      List.replicate (tickets.getD i 0).toNat i
    else [])

/-- One iteration of `while (anyLeft(ps))` in `LotteryScheduler::schedule`; the
number drawn by `dist(gen)` is `draws k % bag.size()`.  The clock `t` is computed in `Int`; it
is the value that the program computes in `int` as long as it is at most `INT_MAX`
(`ClockFits`, `Lottery_clock_int`), and `(int)bag.size()-1` is the last index of the bag as
long as the bag has at most `INT_MAX` entries (`BagFits`, `Lottery_bag_int`). -/
def Lottery_body (draws : Nat → Nat) (tickets : List Int) (s : LotteryState) : LotteryState :=
  let idx1 := s.idx + (newArrivals s.ps s.t s.idx).length
  let bag := Lottery_bag tickets s.ps s.t
  if bag.isEmpty then
    if idx1 < s.ps.length then
      let tt := (procAt s.ps idx1).arrival_time
      if tt > s.t then { s with idx := idx1, gantt := s.gantt ++ [("IDLE", tt - s.t)], t := tt }
      else { s with idx := idx1 }
    else { s with idx := idx1 }
  else
    let i := bag.getD (draws s.k % bag.length) 0
    let slice := min 4 (procAt s.ps i).remaining_time
    let ps1 := modifyAt s.ps i (decRemaining slice)
    let t1 := s.t + slice
    { ps := if (procAt ps1 i).remaining_time = 0 then modifyAt ps1 i (setMetrics t1) else ps1,
      t := t1, idx := idx1,
      gantt := s.gantt ++ [((procAt s.ps i).id, slice)],
      k := s.k + 1 }

def Lottery_init (ps : List Process) : LotteryState :=
  { ps := initRemaining ps, t := 0, idx := 0, gantt := [], k := 0 }

/-- `LotteryScheduler::schedule` under the stream of draws `draws`. -/
def LotteryScheduler_schedule (draws : Nat → Nat) (fuel : Nat) (ps : List Process) :
    Option Result :=
  (whileLoop (fun s => anyLeft s.ps) (Lottery_body draws (Lottery_tickets (initRemaining ps)))
      fuel (Lottery_init ps)).map
    (fun s => { ps := s.ps, gantt := s.gantt, total_time := s.t })

/-! ## CFS and EDF (priority-queue based) -/

/-- Position of the first element of `rq` whose key is minimal: one admissible
behaviour of `std::priority_queue::top` under a `greater-than` comparator. -/
def pqTopMin {κ : Type} [LinearOrder κ] (key : Nat → κ) (rq : List Nat) : Nat :=
  (List.range rq.length).foldl (fun b i =>
    if key (rq.getD i 0) < key (rq.getD b 0) then i else b) 0

/-- Loop state of `CFSScheduler::schedule`. -/
structure CFSState where
  ps : List Process
  rq : List Nat
  t : Int
  idx : Nat
  comp : List Int
  gantt : Gantt

/-- The lambda `weight` followed by `if (w <= 0) w = 1.0`. -/
def CFS_weight (p : Process) : Rat :=
  let w : Rat := 1 / ((max 1 p.priority : Int) : Rat)
  if w ≤ 0 then 1 else w

/-- The update `p->vruntime += slice / w`. -/
def CFS_charge (slice : Int) (p : Process) : Process :=
  { p with vruntime := p.vruntime + (slice : Rat) / CFS_weight p }

/-- One iteration of `while (anyLeft(ps))` in `CFSScheduler::schedule`; `sel ps rq`
is the position in `rq` of the element returned by `rq.top()`. -/
def CFS_body (sel : List Process → List Nat → Nat) (s : CFSState) : CFSState :=
  let adm := newArrivals s.ps s.t s.idx
  let rq1 := s.rq ++ adm
  let idx1 := s.idx + adm.length
  if rq1.isEmpty then
    if idx1 < s.ps.length then
      let na := (procAt s.ps idx1).arrival_time
      { s with idx := idx1, gantt := s.gantt ++ [("IDLE", na - s.t)], t := na }
    else { s with idx := idx1 }
  else
    let pos := min (sel s.ps rq1) (rq1.length - 1)
    let p := rq1.getD pos 0
    let rq2 := rq1.eraseIdx pos
    let slice := min 2 (procAt s.ps p).remaining_time
    let ps1 := modifyAt (modifyAt s.ps p (decRemaining slice)) p (CFS_charge slice)
    let t1 := s.t + slice
    let adm2 := newArrivals ps1 t1 idx1
    let rq3 := rq2 ++ adm2
    { ps := ps1,
      rq := if (procAt ps1 p).remaining_time = 0 then rq3 else rq3 ++ [p],
      t := t1,
      idx := idx1 + adm2.length,
      comp := if (procAt ps1 p).remaining_time = 0 then s.comp.set p t1 else s.comp,
      gantt := s.gantt ++ [((procAt s.ps p).id, slice)] }

def CFS_init (ps : List Process) : CFSState :=
  { ps := (initRemaining ps).map (fun p => { p with vruntime := 0 }),
    rq := [], t := 0, idx := 0, comp := List.replicate ps.length (-1), gantt := [] }

/-- `CFSScheduler::schedule`. -/
def CFSScheduler_schedule (sel : List Process → List Nat → Nat) (fuel : Nat)
    (ps : List Process) : Option Result :=
  (whileLoop (fun s => anyLeft s.ps) (CFS_body sel) fuel (CFS_init ps)).map
    (fun s => { ps := finishWithComp s.ps s.comp, gantt := s.gantt, total_time := s.t })

/-- The selection of the CFS queue (comparator `a->vruntime > b->vruntime`). -/
def CFS_top (ps : List Process) (rq : List Nat) : Nat :=
  pqTopMin (fun i => (procAt ps i).vruntime) rq

/-- Loop state of `EDFScheduler::schedule`. -/
structure EDFState where
  ps : List Process
  rq : List Nat
  t : Int
  idx : Nat
  comp : List Int
  last : String
  start : Int
  gantt : Gantt
deriving DecidableEq, Repr

/-- The loop `for p: if (p.deadline == 0) p.deadline = p.arrival_time + 2 * p.burst_time`.
The deadline is computed in `Int`; it is the value that the program computes in `int` if
`2 * burst_time` and `arrival_time + 2 * burst_time` are values of type `int`
(`DeadlineFits`). -/
def EDF_setDeadlines (ps : List Process) : List Process :=
  ps.map (fun p => if p.deadline = 0 then { p with deadline := p.arrival_time + 2 * p.burst_time }
                   else p)

/-- One iteration of `while (anyLeft(ps))` in `EDFScheduler::schedule`; `sel ps rq`
is the position in `rq` of the element returned by `rq.top()`.  The clock `t` is computed in
`Int`; it is the value that the program computes in `int` as long as it is at most `INT_MAX`
(`ClockFits`, `EDF_clock_int`). -/
def EDF_body (sel : List Process → List Nat → Nat) (s : EDFState) : EDFState :=
  let adm := newArrivals s.ps s.t s.idx
  let rq1 := s.rq ++ adm
  let idx1 := s.idx + adm.length
  if rq1.isEmpty then
    if idx1 < s.ps.length then
      let na := (procAt s.ps idx1).arrival_time
      { s with idx := idx1,
               gantt := finalizeBlock s.last s.start s.t s.gantt ++ [("IDLE", na - s.t)],
               last := "", start := -1, t := na }
    else { s with idx := idx1 }
  else
    let pos := min (sel s.ps rq1) (rq1.length - 1)
    let p := rq1.getD pos 0
    let rq2 := rq1.eraseIdx pos
    let pid := (procAt s.ps p).id
    let g1 := if s.last ≠ pid then finalizeBlock s.last s.start s.t s.gantt else s.gantt
    let start1 := if s.last ≠ pid then s.t else s.start
    let ps1 := modifyAt s.ps p (decRemaining 1)
    let t1 := s.t + 1
    let adm2 := newArrivals ps1 t1 idx1
    let rq3 := rq2 ++ adm2
    { ps := ps1,
      rq := if (procAt ps1 p).remaining_time = 0 then rq3 else rq3 ++ [p],
      t := t1,
      idx := idx1 + adm2.length,
      comp := if (procAt ps1 p).remaining_time = 0 then s.comp.set p t1 else s.comp,
      last := pid, start := start1, gantt := g1 }

def EDF_init (ps : List Process) : EDFState :=
  { ps := EDF_setDeadlines (initRemaining ps), rq := [], t := 0, idx := 0,
    comp := List.replicate ps.length (-1), last := "", start := -1, gantt := [] }

/-- `EDFScheduler::schedule`. -/
def EDFScheduler_schedule (sel : List Process → List Nat → Nat) (fuel : Nat)
    (ps : List Process) : Option Result :=
  (whileLoop (fun s => anyLeft s.ps) (EDF_body sel) fuel (EDF_init ps)).map
    (fun s => { ps := finishWithComp s.ps s.comp,
                gantt := finalizeBlock s.last s.start s.t s.gantt,
                total_time := s.t })

/-- The selection of the EDF queue (comparator `a->deadline > b->deadline`). -/
def EDF_top (ps : List Process) (rq : List Nat) : Nat :=
  pqTopMin (fun i => (procAt ps i).deadline) rq



/-! ## priority.cpp (the stand-alone priority scheduler with aging) -/

/-- Loop state of `main` in `priority.cpp`. -/
structure PrioState where
  processes : List Process
  aged_steps : List Int
  current_time : Int
  next_i : Nat
  ready : List Nat
  gantt : Gantt
deriving DecidableEq, Repr

/-- The constant `AGE_QUANTUM`. -/
def AGE_QUANTUM : Int := 3

/-- The lambda `push_arrivals` (the loop of the lambda `push` of `SJFScheduler`). -/
def push_arrivals (order : List Nat) (s : PrioState) : PrioState :=
  let r := NP_pushLoop order s.processes s.current_time (order.length - s.next_i) s.next_i
    s.ready
  { s with next_i := r.1, ready := r.2 }

/-- The admission at the head of the loop body: `push_arrivals()`, and if nothing is ready
the jump to the next arrival (with an `IDLE` segment if `idle_len > 0`) followed by
`push_arrivals()`. -/
def Prio_admission (order : List Nat) (s : PrioState) : PrioState :=
  let s1 := push_arrivals order s
  if s1.ready.isEmpty then
    let next_arrival := (procAt s1.processes (order.getD s1.next_i 0)).arrival_time
    let idle_len := next_arrival - s1.current_time
    push_arrivals order
      { s1 with gantt := if idle_len > 0 then s1.gantt ++ [("IDLE", idle_len)] else s1.gantt,
                current_time := next_arrival }
  else s1

/-- The loop `while (aged_steps[idx] < should_have_steps) { if (priority > 0) priority -= 1;
aged_steps[idx] += 1; }` on the pair (priority, aged_steps[idx]). -/
def Prio_ageSteps (should : Int) : Nat → Int → Int → Int × Int
  | 0, prio, aged => (prio, aged)
  | fuel + 1, prio, aged =>
    if aged < should then
      Prio_ageSteps should fuel (if prio > 0 then prio - 1 else prio) (aged + 1)
    else (prio, aged)

/-- The body of `for (int idx : ready)`; `waited / AGE_QUANTUM` is the truncating division of
C++. -/
def Prio_ageOne (s : PrioState) (idx : Nat) : PrioState :=
  let waited := s.current_time - (procAt s.processes idx).arrival_time
  let should_have_steps := max 0 (Int.tdiv waited AGE_QUANTUM)
  let r := Prio_ageSteps should_have_steps
    (should_have_steps - s.aged_steps.getD idx 0).toNat
    (procAt s.processes idx).priority (s.aged_steps.getD idx 0)
  { s with processes := modifyAt s.processes idx (fun p => { p with priority := r.1 }),
           aged_steps := s.aged_steps.set idx r.2 }

/-- The aging step `for (int idx : ready) { ... }`. -/
def Prio_age (s : PrioState) : PrioState := s.ready.foldl Prio_ageOne s

/-- The condition under which the selection loop replaces `best_pos` by `k`: process `a`
(`i_k`) against process `b` (`i_best`). -/
def Prio_less (ps : List Process) (a b : Nat) : Bool :=
  decide ((procAt ps a).priority < (procAt ps b).priority) ||
    (decide ((procAt ps a).priority = (procAt ps b).priority) &&
      (decide ((procAt ps a).arrival_time < (procAt ps b).arrival_time) ||
        (decide ((procAt ps a).arrival_time = (procAt ps b).arrival_time) &&
          strLt (procAt ps a).id (procAt ps b).id)))

/-- The selection loop `best_pos = 0; for (k = 1; k < ready.size(); ++k) ...`. -/
def Prio_best (ps : List Process) (ready : List Nat) : Nat :=
  (List.range' 1 (ready.length - 1)).foldl (fun best k =>
    if Prio_less ps (ready.getD k 0) (ready.getD best 0) then k else best) 0

/-- The dispatch: the selected process leaves `ready` and runs to completion. -/
def Prio_dispatch (s : PrioState) : PrioState :=
  let best_pos := Prio_best s.processes s.ready
  let idx := s.ready.getD best_pos 0
  let t1 := s.current_time + (procAt s.processes idx).burst_time
  { s with ready := s.ready.eraseIdx best_pos,
           processes := modifyAt s.processes idx (fun p =>
             { p with waiting_time := s.current_time - p.arrival_time,
                      turnaround_time := t1 - p.arrival_time,
                      remaining_time := 0 }),
           gantt := s.gantt ++ [((procAt s.processes idx).id, (procAt s.processes idx).burst_time)],
           current_time := t1 }

/-- One iteration of `while (next_i < order.size() || !ready.empty())`. -/
def Prio_body (order : List Nat) (s : PrioState) : PrioState :=
  Prio_dispatch (Prio_age (Prio_admission order s))

def Prio_cond (order : List Nat) (s : PrioState) : Bool :=
  decide (s.next_i < order.length) || !s.ready.isEmpty

def Prio_init (processes : List Process) : PrioState :=
  { processes := processes, aged_steps := List.replicate processes.length 0,
    current_time := 0, next_i := 0, ready := [], gantt := [] }

/-- The scheduling loop of `main` in `priority.cpp` on the vector `processes`. -/
def Prio_run (fuel : Nat) (processes : List Process) : Option PrioState :=
  whileLoop (Prio_cond (sortedOrder processes)) (Prio_body (sortedOrder processes)) fuel
    (Prio_init processes)

/-- The vector `processes` that `main` of `priority.cpp` is compiled with. -/
def priorityWorkload : List Process :=
  [ { id := "P1", arrival_time := 0, burst_time := 8, priority := 2, remaining_time := 8 },
    { id := "P2", arrival_time := 1, burst_time := 4, priority := 1, remaining_time := 4 },
    { id := "P3", arrival_time := 2, burst_time := 9, priority := 3, remaining_time := 9 },
    { id := "P4", arrival_time := 3, burst_time := 5, priority := 4, remaining_time := 5 } ]

/-! ## Specification vocabulary -/

/-- The fields that no scheduler writes agree on `p` and `q`. -/
def Static (p q : Process) : Prop :=
  q.id = p.id ∧ q.arrival_time = p.arrival_time ∧ q.burst_time = p.burst_time ∧
    q.priority = p.priority ∧ q.deadline = p.deadline

/-- The vector `qs` is `ps` after process `i` has received `s` units of CPU:
only `ps[i]` differs, its static fields are kept and its `remaining_time` dropped by `s`. -/
def RunsTo (ps qs : List Process) (i : Nat) (s : Int) : Prop :=
  qs.length = ps.length ∧ i < ps.length ∧
    (∀ j, j ≠ i → procAt qs j = procAt ps j) ∧
    Static (procAt ps i) (procAt qs i) ∧
    (procAt qs i).remaining_time = (procAt ps i).remaining_time - s

/-- Accounting invariant at clock `t`; `c i` is the completion clock recorded for process `i`. -/
def Acct (ps : List Process) (c : Nat → Int) (t : Int) : Prop :=
  0 ≤ t ∧ ∀ i, i < ps.length →
    0 < (procAt ps i).burst_time ∧
    0 ≤ (procAt ps i).remaining_time ∧
    (procAt ps i).remaining_time ≤ (procAt ps i).burst_time ∧
    ((procAt ps i).remaining_time < (procAt ps i).burst_time →
      (procAt ps i).arrival_time + ((procAt ps i).burst_time - (procAt ps i).remaining_time) ≤ t) ∧
    ((procAt ps i).remaining_time = 0 →
      (procAt ps i).arrival_time + (procAt ps i).burst_time ≤ c i ∧ c i ≤ t)

/-- Admission invariant: `members` lists exactly the admitted, unfinished processes. -/
def Adm (ps : List Process) (t : Int) (idx : Nat) (members : List Nat) : Prop :=
  idx ≤ ps.length ∧
    (∀ i, idx ≤ i → i < ps.length → (procAt ps i).remaining_time = (procAt ps i).burst_time) ∧
    (∀ i, i < idx → (procAt ps i).arrival_time ≤ t) ∧
    members.Nodup ∧
    ∀ i, i ∈ members ↔ (i < idx ∧ 0 < (procAt ps i).remaining_time)

/-- Completion clock of the schedulers that write the metrics at completion. -/
def doneClock (ps : List Process) (i : Nat) : Int :=
  (procAt ps i).arrival_time + (procAt ps i).turnaround_time

/-- Completion clock of the schedulers that keep the vector `comp`. -/
def compClock (comp : List Int) (i : Nat) : Int := comp.getD i (-1)

/-- Total remaining CPU demand. -/
def remSum (ps : List Process) : Nat := (ps.map (fun p => p.remaining_time.toNat)).sum

/-- Total CPU demand of a workload. -/
def totalBurst (ps : List Process) : Int := (ps.map (fun p => p.burst_time)).sum

/-- Sum of the durations of the timeline segments labelled `id`. -/
def segSum (id : String) (g : Gantt) : Int :=
  ((g.filter (fun e => decide (e.1 = id))).map (fun e => e.2)).sum

/-- Sum of the durations of the timeline segments not labelled `IDLE`. -/
def nonIdleSum (g : Gantt) : Int :=
  ((g.filter (fun e => !decide (e.1 = "IDLE"))).map (fun e => e.2)).sum

/-- Sum of the durations of all timeline segments. -/
def ganttTotal (g : Gantt) : Int := (g.map (fun e => e.2)).sum

/-- The workload is sorted by non-decreasing `arrival_time`. -/
def SortedByArrival (ps : List Process) : Prop :=
  List.Pairwise (fun a b => a.arrival_time ≤ b.arrival_time) ps

/-- A well-formed workload: sorted by arrival, `0 <= arrival_time` (an `int`),
`burst_time > 0`, identifiers unique, non-empty and different from `IDLE`. -/
def WellFormed (ps : List Process) : Prop :=
  SortedByArrival ps ∧
    (∀ p ∈ ps, 0 ≤ p.arrival_time ∧ p.arrival_time ≤ INT_MAX ∧ 0 < p.burst_time ∧
      p.id ≠ "" ∧ p.id ≠ "IDLE") ∧
    (ps.map (fun p => p.id)).Nodup

instance (ps : List Process) : Decidable (SortedByArrival ps) := by
  unfold SortedByArrival; infer_instance

instance (ps : List Process) : Decidable (WellFormed ps) := by
  unfold WellFormed; infer_instance

/-- What the scheduling loops need of a workload: it is sorted by arrival and every
`burst_time` is positive. -/
def Runnable (ps : List Process) : Prop :=
  SortedByArrival ps ∧ ∀ p ∈ ps, 0 < p.burst_time

instance (ps : List Process) : Decidable (Runnable ps) := by
  unfold Runnable; infer_instance

/-- The `arrival_time` fields are values of the C++ type `int`. -/
def IntArrivals (ps : List Process) : Prop := ∀ p ∈ ps, p.arrival_time ≤ INT_MAX

instance (ps : List Process) : Decidable (IntArrivals ps) := by
  unfold IntArrivals; infer_instance

/-- The identifiers of a process vector are unique, non-empty and different from `IDLE`. -/
def IdsOK (ps : List Process) : Prop :=
  (ps.map (fun p => p.id)).Nodup ∧
    ∀ i, i < ps.length → (procAt ps i).id ≠ "IDLE" ∧ (procAt ps i).id ≠ ""

instance (ps : List Process) : Decidable (IdsOK ps) := by
  unfold IdsOK; infer_instance

/-- Timeline invariant: what a process has received on the timeline plus what it
still needs is its burst time, per process and in total. -/
def GInv (ps : List Process) (g : Gantt) : Prop :=
  (∀ i, i < ps.length →
      segSum (procAt ps i).id g + (procAt ps i).remaining_time = (procAt ps i).burst_time) ∧
    nonIdleSum g + (ps.map (fun p => p.remaining_time)).sum = totalBurst ps

/-- Timeline invariant of a workload with proper identifiers. -/
def TInv (ps : List Process) (g : Gantt) : Prop := IdsOK ps → GInv ps g

/-- Identity and demand of a process: `q` is the same job as `p`. -/
def SameJob (p q : Process) : Prop :=
  q.id = p.id ∧ q.arrival_time = p.arrival_time ∧ q.burst_time = p.burst_time

/-- The vector `ps` holds the jobs of the input `ps0`, position by position. -/
def Frame (ps0 ps : List Process) : Prop :=
  ps.length = ps0.length ∧ ∀ j, j < ps0.length → SameJob (procAt ps0 j) (procAt ps j)

/-- The clock of the last completion is the current clock, once nothing is left. -/
def LastDone (ps : List Process) (c : Nat → Int) (t : Int) : Prop :=
  ps = [] ∨ anyLeft ps = true ∨
    ∃ i, i < ps.length ∧ (procAt ps i).remaining_time = 0 ∧ c i = t

/-- Number of loop iterations that suffices for the loops that run a process or
jump over an idle gap in every iteration. -/
def fuelBound (ps : List Process) : Nat :=
  2 * (ps.map (fun p => p.burst_time.toNat)).sum + 1

/-- Loop invariant of `CFSScheduler::schedule`. -/
structure CFSInv (ps0 : List Process) (s : CFSState) : Prop where
  frame : Frame ps0 s.ps
  acct : Acct s.ps (compClock s.comp) s.t
  adm : Adm s.ps s.t s.idx s.rq
  gi : TInv s.ps s.gantt
  gtot : ganttTotal s.gantt = s.t
  complen : s.comp.length = s.ps.length
  lastd : LastDone s.ps (compClock s.comp) s.t

/-- Termination measure of the loops that either run a process or jump to the next arrival. -/
def idleFlag (ps : List Process) (t : Int) (idx : Nat) (rq : List Nat) : Nat :=
  if rq = [] ∧ newArrivals ps t idx = [] then 1 else 0

def CFS_measure (s : CFSState) : Nat := 2 * remSum s.ps + idleFlag s.ps s.t s.idx s.rq

/-- What one loop iteration may do to the processes: `remaining_time` never grows,
a recorded completion clock is never rewritten, and a process that finishes in this
iteration gets the clock at the end of the iteration. -/
def StepOK (ps qs : List Process) (c d : Nat → Int) (u : Int) : Prop :=
  ∀ i, i < ps.length →
    (procAt qs i).remaining_time ≤ (procAt ps i).remaining_time ∧
    ((procAt ps i).remaining_time = 0 → d i = c i) ∧
    (0 < (procAt ps i).remaining_time → (procAt qs i).remaining_time = 0 → d i = u)

/-- The open block of a coalescing scheduler: either no block is open, or the block of
`last` started at `start`, before the current clock. -/
def BlockOK (last : String) (start t : Int) : Prop :=
  (last = "" ∧ start = -1) ∨ (last ≠ "" ∧ 0 ≤ start ∧ start < t)

/-- Loop invariant of `EDFScheduler::schedule`; the timeline is read with the open block
flushed. -/
structure EDFInv (ps0 : List Process) (s : EDFState) : Prop where
  frame : Frame ps0 s.ps
  acct : Acct s.ps (compClock s.comp) s.t
  adm : Adm s.ps s.t s.idx s.rq
  tl : IdsOK s.ps → BlockOK s.last s.start s.t ∧
    GInv s.ps (finalizeBlock s.last s.start s.t s.gantt) ∧
    ganttTotal (finalizeBlock s.last s.start s.t s.gantt) = s.t
  complen : s.comp.length = s.ps.length
  lastd : LastDone s.ps (compClock s.comp) s.t

def EDF_measure (s : EDFState) : Nat := 2 * remSum s.ps + idleFlag s.ps s.t s.idx s.rq

/-- A finished process carries `waiting_time = turnaround_time - burst_time`. -/
def MetricsOK (ps : List Process) : Prop :=
  ∀ i, i < ps.length → (procAt ps i).remaining_time = 0 →
    (procAt ps i).waiting_time = (procAt ps i).turnaround_time - (procAt ps i).burst_time

/-- Loop invariant of `RoundRobinScheduler::schedule`. -/
structure RRInv (ps0 : List Process) (s : RRState) : Prop where
  frame : Frame ps0 s.ps
  acct : Acct s.ps (doneClock s.ps) s.t
  adm : Adm s.ps s.t s.idx s.q
  met : MetricsOK s.ps
  lastd : LastDone s.ps (doneClock s.ps) s.t

def RR_measure (s : RRState) : Nat := 2 * remSum s.ps + idleFlag s.ps s.t s.idx s.q

/-- Loop invariant of `SRTFScheduler::schedule`. -/
structure SRTFInv (ps0 : List Process) (s : SRTFState) : Prop where
  frame : Frame ps0 s.ps
  acct : Acct s.ps (compClock s.comp) s.t
  complen : s.comp.length = s.ps.length
  lastd : LastDone s.ps (compClock s.comp) s.t
  imax : ∀ i, i < s.ps.length → (procAt s.ps i).arrival_time ≤ INT_MAX

def SRTF_measure (s : SRTFState) : Nat :=
  2 * remSum s.ps + (if SRTF_best s.ps s.t = none then 1 else 0)

/-- Arrival times are non-decreasing along the vector. -/
def SortedIdx (ps : List Process) : Prop :=
  ∀ i j, i ≤ j → j < ps.length → (procAt ps i).arrival_time ≤ (procAt ps j).arrival_time

/-- Loop invariant of `LotteryScheduler::schedule`. -/
structure LotteryInv (ps0 : List Process) (tickets : List Int) (s : LotteryState) : Prop where
  frame : Frame ps0 s.ps
  acct : Acct s.ps (doneClock s.ps) s.t
  met : MetricsOK s.ps
  lastd : LastDone s.ps (doneClock s.ps) s.t
  gi : TInv s.ps s.gantt
  gtot : ganttTotal s.gantt = s.t
  idxle : s.idx ≤ s.ps.length
  arrived : ∀ i, i < s.idx → (procAt s.ps i).arrival_time ≤ s.t
  fresh : ∀ i, s.idx ≤ i → i < s.ps.length →
    (procAt s.ps i).remaining_time = (procAt s.ps i).burst_time
  sorted : SortedIdx s.ps
  tick : ∀ i, i < s.ps.length → 1 ≤ tickets.getD i 0

def Lottery_measure (tickets : List Int) (s : LotteryState) : Nat :=
  2 * remSum s.ps + (if Lottery_bag tickets s.ps s.t = [] then 1 else 0)

/-- Loop invariant of `MLQScheduler::schedule`. -/
structure MLQInv (ps0 : List Process) (s : MLQState) : Prop where
  frame : Frame ps0 s.ps
  acct : Acct s.ps (doneClock s.ps) s.t
  adm : Adm s.ps s.t s.idx (s.high ++ s.low)
  gi : TInv s.ps s.gantt
  gtot : ganttTotal s.gantt = s.t
  met : MetricsOK s.ps
  lastd : LastDone s.ps (doneClock s.ps) s.t

def MLQ_measure (s : MLQState) : Nat :=
  2 * remSum s.ps + idleFlag s.ps s.t s.idx (s.high ++ s.low)

/-- All queued processes of the MLFQ scheduler. -/
def MLFQ_members (s : MLFQState) : List Nat := s.q0 ++ s.q1 ++ s.q2

/-- Sum of the levels of the queued processes. -/
def MLFQ_weight (s : MLFQState) : Nat := s.q1.length + 2 * s.q2.length

/-- Loop invariant of `MLFQScheduler::schedule`. -/
structure MLFQInv (ps0 : List Process) (s : MLFQState) : Prop where
  frame : Frame ps0 s.ps
  acct : Acct s.ps (compClock s.comp) s.t
  adm : Adm s.ps s.t s.idx (MLFQ_members s)
  gi : TInv s.ps s.gantt
  gtot : ganttTotal s.gantt = s.t
  complen : s.comp.length = s.ps.length
  lastd : LastDone s.ps (compClock s.comp) s.t

def MLFQ_measure (s : MLFQState) : Nat :=
  remSum s.ps * (2 * s.ps.length + 3) + MLFQ_weight s
    + idleFlag s.ps s.t s.idx (MLFQ_members s)

/-- Number of loop iterations that suffices for `MLFQScheduler::schedule`. -/
def MLFQ_fuelBound (ps : List Process) : Nat :=
  (ps.map (fun p => p.burst_time.toNat)).sum * (2 * ps.length + 3) + 1

/-- The timeline segments labelled `id`. -/
def segments (id : String) (g : Gantt) : Gantt := g.filter (fun e => decide (e.1 = id))

/-- A `pick` lambda returns a valid position of a non-empty ready list. -/
def PickOK (pick : List Process → List Nat → Int) : Prop :=
  ∀ ps rq, rq ≠ [] → 0 ≤ pick ps rq ∧ (pick ps rq).toNat < rq.length

/-- Process `i` has been dispatched by the non-preemptive loop. -/
def NP_done (ord : List Nat) (s : NPState) (i : Nat) : Prop :=
  i ∈ ord.take s.next ∧ i ∉ s.rq

/-- Identifiers that label the timeline unambiguously: unique and different from `IDLE`. -/
def LabelsOK (ps : List Process) : Prop :=
  (ps.map (fun p => p.id)).Nodup ∧ ∀ i, i < ps.length → (procAt ps i).id ≠ "IDLE"

/-- Loop invariant of `SJFScheduler::schedule` and `PriorityScheduler::schedule`. -/
structure NPInv (ps0 : List Process) (ord : List Nat) (s : NPState) : Prop where
  frame : Frame ps0 s.ps
  bpos : ∀ i, i < s.ps.length → 0 < (procAt s.ps i).burst_time
  ordnd : ord.Nodup
  ordmem : ∀ i, i ∈ ord ↔ i < s.ps.length
  nextle : s.next ≤ ord.length
  tpos : 0 ≤ s.t
  rqnd : s.rq.Nodup
  rqsub : ∀ i, i ∈ s.rq → i ∈ ord.take s.next
  arrived : ∀ i, i ∈ ord.take s.next → (procAt s.ps i).arrival_time ≤ s.t
  done : ∀ i, NP_done ord s i →
    (procAt s.ps i).waiting_time = (procAt s.ps i).turnaround_time - (procAt s.ps i).burst_time ∧
    (procAt s.ps i).arrival_time + (procAt s.ps i).burst_time ≤ doneClock s.ps i ∧
    doneClock s.ps i ≤ s.t ∧
    ∃ g1 g2, s.gantt = g1 ++ [((procAt s.ps i).id, (procAt s.ps i).burst_time)] ++ g2 ∧
      ganttTotal g1 + (procAt s.ps i).burst_time = doneClock s.ps i
  segs : LabelsOK s.ps →
    (∀ i, NP_done ord s i →
      segments (procAt s.ps i).id s.gantt
        = [((procAt s.ps i).id, (procAt s.ps i).burst_time)]) ∧
    ∀ i, i < s.ps.length → ¬ NP_done ord s i → segments (procAt s.ps i).id s.gantt = []
  gtot : ganttTotal s.gantt = s.t
  lastd : s.ps = [] ∨ NP_cond ord s = true ∨ ∃ i, NP_done ord s i ∧ doneClock s.ps i = s.t

def NP_measure (ord : List Nat) (s : NPState) : Nat := (ord.length - s.next) + s.rq.length

/-- A workload whose jobs are valid but not necessarily listed by arrival:
`arrival_time >= 0`, `burst_time > 0`, identifiers unique and different from `IDLE`. -/
def JobsOK (ps : List Process) : Prop :=
  (∀ p ∈ ps, 0 ≤ p.arrival_time ∧ 0 < p.burst_time ∧ p.id ≠ "IDLE") ∧
    (ps.map (fun p => p.id)).Nodup

instance (ps : List Process) : Decidable (JobsOK ps) := by
  unfold JobsOK; infer_instance

/-- A run of a `while` loop from `s0`: it leaves the loop after exactly `K` iterations,
`K` is at most `n`, every visited state satisfies `Inv`, consecutive states are related
by `R`, and any fuel of at least `n` yields the final state. -/
def LoopRun {σ : Type} (cond : σ → Bool) (body : σ → σ) (Inv : σ → Prop) (R : σ → σ → Prop)
    (s0 : σ) (n K : Nat) : Prop :=
  K ≤ n ∧ (∀ k, k < K → cond (Nat.iterate body k s0) = true) ∧
    cond (Nat.iterate body K s0) = false ∧
    (∀ k, k ≤ K → Inv (Nat.iterate body k s0)) ∧
    (∀ k, k < K → R (Nat.iterate body k s0) (Nat.iterate body (k + 1) s0)) ∧
    ∀ fuel, n ≤ fuel → whileLoop cond body fuel s0 = some (Nat.iterate body K s0)

/-- The completion clock `c` of a process read off the timeline: the end of its segment. -/
def TimelineCompletion (g : Gantt) (id : String) (burst c : Int) : Prop :=
  ∃ g1 g2, g = g1 ++ [(id, burst)] ++ g2 ∧ ganttTotal g1 + burst = c

/-- What the claims need from a run of a scheduler loop that consumes `remaining_time`:
`psOf`, `cOf` and `tOf` read the process vector, the recorded completion clocks and the
clock off a loop state; the loop leaves after `K ≤ n` iterations. -/
structure RunSummary {σ : Type} (ps : List Process) (cond : σ → Bool) (body : σ → σ) (s0 : σ)
    (psOf : σ → List Process) (cOf : σ → Nat → Int) (tOf : σ → Int) (n K : Nat) : Prop where
  le : K ≤ n
  conds : ∀ k, k < K → cond (Nat.iterate body k s0) = true
  exit : cond (Nat.iterate body K s0) = false
  fuel : ∀ fuel, n ≤ fuel → whileLoop cond body fuel s0 = some (Nat.iterate body K s0)
  frame : ∀ k, k ≤ K → Frame ps (psOf (Nat.iterate body k s0))
  acct : ∀ k, k ≤ K →
    Acct (psOf (Nat.iterate body k s0)) (cOf (Nat.iterate body k s0)) (tOf (Nat.iterate body k s0))
  step : ∀ k, k < K →
    StepOK (psOf (Nat.iterate body k s0)) (psOf (Nat.iterate body (k + 1) s0))
      (cOf (Nat.iterate body k s0)) (cOf (Nat.iterate body (k + 1) s0))
      (tOf (Nat.iterate body (k + 1) s0))
  start : ∀ i, i < ps.length → (procAt (psOf s0) i).remaining_time = (procAt ps i).burst_time
  done : ∀ i, i < ps.length → (procAt (psOf (Nat.iterate body K s0)) i).remaining_time = 0
  lastd : ps ≠ [] →
    ∃ i, i < ps.length ∧ cOf (Nat.iterate body K s0) i = tOf (Nat.iterate body K s0)

/-- Process `i` completes at clock `c` in the run: some iteration before the exit takes its
`remaining_time` from a positive value to `0` and ends at clock `c`. -/
def CompletesAt {σ : Type} (body : σ → σ) (s0 : σ) (psOf : σ → List Process) (tOf : σ → Int)
    (K i : Nat) (c : Int) : Prop :=
  ∃ k, k < K ∧ 0 < (procAt (psOf (Nat.iterate body k s0)) i).remaining_time ∧
    (procAt (psOf (Nat.iterate body (k + 1) s0)) i).remaining_time = 0 ∧
    tOf (Nat.iterate body (k + 1) s0) = c

/-- The metrics of the finished record `q` against its completion clock `c`. -/
def MetricsAt (q : Process) (c : Int) : Prop :=
  q.waiting_time = q.turnaround_time - q.burst_time ∧
    q.turnaround_time = c - q.arrival_time ∧
    0 ≤ q.turnaround_time ∧ 0 ≤ q.waiting_time ∧
    q.arrival_time + q.burst_time ≤ c

/-- The final process vector `qs` of a run with final clock `T`. -/
def FinalOK {σ : Type} (ps : List Process) (body : σ → σ) (s0 : σ) (psOf : σ → List Process)
    (tOf : σ → Int) (K : Nat) (qs : List Process) (T : Int) : Prop :=
  qs.length = ps.length ∧
    (∀ i, i < ps.length →
      SameJob (procAt ps i) (procAt qs i) ∧ (procAt qs i).remaining_time = 0 ∧
      ∃ c, CompletesAt body s0 psOf tOf K i c ∧ MetricsAt (procAt qs i) c ∧ c ≤ T) ∧
    (ps ≠ [] →
      ∃ i, i < ps.length ∧ (procAt qs i).arrival_time + (procAt qs i).turnaround_time = T)

/-- `total_time` is the makespan: the largest `arrival_time + turnaround_time`. -/
def IsMakespan (r : Result) : Prop :=
  (∀ q ∈ r.ps, q.arrival_time + q.turnaround_time ≤ r.total_time) ∧
    ∃ q ∈ r.ps, q.arrival_time + q.turnaround_time = r.total_time

/-- The timeline accounts for the CPU demand: in total and per process. -/
def TimelineAccounts (ps : List Process) (g : Gantt) : Prop :=
  nonIdleSum g = totalBurst ps ∧ ∀ p ∈ ps, segSum p.id g = p.burst_time

/-- Every process of `ps` has exactly one timeline segment, of duration `burst_time`. -/
def OneSegmentEach (ps : List Process) (g : Gantt) : Prop :=
  ∀ p ∈ ps, segments p.id g = [(p.id, p.burst_time)]

/-- Metrics of a non-preemptive policy: the result holds a record for every process of
`ps`, and every record has the metrics of its completion clock, the end of the process's
segment on the timeline. -/
def TimelineMetrics (ps : List Process) (r : Result) : Prop :=
  r.ps.length = ps.length ∧ (∀ p ∈ ps, ∃ q ∈ r.ps, SameJob p q) ∧
    ∀ q ∈ r.ps, ∃ c, TimelineCompletion r.gantt q.id q.burst_time c ∧ MetricsAt q c

/-- Metrics of a policy whose loop consumes `remaining_time`: the loop leaves after `K`
iterations, `res` returns `r` for every fuel of at least `bound`, and every process has
the metrics of the clock at which its `remaining_time` reached `0`. -/
def LoopMetrics {σ : Type} (ps : List Process) (cond : σ → Bool) (body : σ → σ) (s0 : σ)
    (psOf : σ → List Process) (tOf : σ → Int) (res : Nat → Option Result) (bound : Nat) : Prop :=
  ∃ K r, K ≤ bound ∧ (∀ k, k < K → cond (Nat.iterate body k s0) = true) ∧
    cond (Nat.iterate body K s0) = false ∧
    (∀ fuel, bound ≤ fuel → res fuel = some r) ∧
    r.ps.length = ps.length ∧
    ∀ i, i < ps.length → SameJob (procAt ps i) (procAt r.ps i) ∧
      ∃ c, CompletesAt body s0 psOf tOf K i c ∧ MetricsAt (procAt r.ps i) c

/-- Makespan of a loop policy: `res` returns, for every fuel of at least `bound`, a result
whose `total_time` is the makespan and is the final value `T` of the loop clock. -/
def LoopMakespan {σ : Type} (cond : σ → Bool) (body : σ → σ) (s0 : σ) (tOf : σ → Int)
    (res : Nat → Option Result) (bound : Nat) : Prop :=
  ∃ s r, (∀ fuel, bound ≤ fuel → whileLoop cond body fuel s0 = some s ∧ res fuel = some r) ∧
    IsMakespan r ∧ r.total_time = tOf s

/-- Termination and the life of `remaining_time` in a loop policy. -/
def RemainingRun {σ : Type} (ps : List Process) (cond : σ → Bool) (body : σ → σ) (s0 : σ)
    (psOf : σ → List Process) (res : Nat → Option Result) (bound : Nat) : Prop :=
  ∃ K r, K ≤ bound ∧ (∀ k, k < K → cond (Nat.iterate body k s0) = true) ∧
    cond (Nat.iterate body K s0) = false ∧
    (∀ fuel, bound ≤ fuel →
      whileLoop cond body fuel s0 = some (Nat.iterate body K s0) ∧ res fuel = some r) ∧
    (∀ k, k ≤ K → ∀ i, i < ps.length →
      0 ≤ (procAt (psOf (Nat.iterate body k s0)) i).remaining_time ∧
      (procAt (psOf (Nat.iterate body k s0)) i).remaining_time ≤ (procAt ps i).burst_time) ∧
    (∀ k, k < K → ∀ i, i < ps.length →
      (procAt (psOf (Nat.iterate body (k + 1) s0)) i).remaining_time
        ≤ (procAt (psOf (Nat.iterate body k s0)) i).remaining_time) ∧
    (∀ i, i < ps.length → (procAt (psOf (Nat.iterate body K s0)) i).remaining_time = 0) ∧
    r.ps.length = ps.length ∧ ∀ q ∈ r.ps, q.remaining_time = 0

/-- Number of dispatches among the first `K` iterations of the Lottery loop: the iterations
that find a non-empty bag (each of them draws one number and runs one process). -/
def Lottery_dispatches (draws : Nat → Nat) (tickets : List Int) (s0 : LotteryState)
    (K : Nat) : Nat :=
  ((List.range K).filter (fun j =>
    !(Lottery_bag tickets (Nat.iterate (Lottery_body draws tickets) j s0).ps
        (Nat.iterate (Lottery_body draws tickets) j s0).t).isEmpty)).length

/-- The selection `sel` behaves like `top()` of a `std::priority_queue` ordered by `key`
(smallest key first): on a non-empty queue it returns a position whose element has a
minimal key; which of several minimal elements it returns is left open. -/
def TopMin {κ : Type} [LinearOrder κ] (key : List Process → Nat → κ)
    (sel : List Process → List Nat → Nat) : Prop :=
  ∀ ps rq, rq ≠ [] →
    sel ps rq < rq.length ∧ ∀ j, j ∈ rq → key ps (rq.getD (sel ps rq) 0) ≤ key ps j

/-- The labels of the non-IDLE segments of a timeline, in timeline order: the order in
which the processes are dispatched. -/
def dispatchOrder (g : Gantt) : List String :=
  (g.filter (fun e => decide (e.1 ≠ "IDLE"))).map (fun e => e.1)

/-- State of the Round Robin loop, run with a quantum that no burst time exceeds, after the
first `i` processes of the start vector `qs` have been served: they carry the metrics that
the FCFS loop gives them, the others are untouched, the queue holds the admitted indices
`i, i+1, ...` in order, and the FCFS loop continued from the clock of the state ends like the
FCFS loop run from the start. -/
structure RRSim (qs : List Process) (i : Nat) (s : RRState) : Prop where
  len : s.ps.length = qs.length
  ile : i ≤ s.idx
  idxle : s.idx ≤ qs.length
  tpos : 0 ≤ s.t
  q : s.q = List.range' i (s.idx - i)
  arr : ∀ j, i ≤ j → j < s.idx → (procAt qs j).arrival_time ≤ s.t
  rest : ∀ j, i ≤ j → procAt s.ps j = procAt qs j
  arrival : ∀ j, (procAt s.ps j).arrival_time = (procAt qs j).arrival_time
  done : ∀ j, j < i →
    (procAt s.ps j).id = (procAt (FCFS_loop qs 0 []).1 j).id ∧
    (procAt s.ps j).waiting_time = (procAt (FCFS_loop qs 0 []).1 j).waiting_time ∧
    (procAt s.ps j).turnaround_time = (procAt (FCFS_loop qs 0 []).1 j).turnaround_time ∧
    (procAt s.ps j).remaining_time = 0
  cont1 : (FCFS_loop (qs.drop i) s.t []).1 = (FCFS_loop qs 0 []).1.drop i
  cont2 : (FCFS_loop (qs.drop i) s.t []).2.2 = (FCFS_loop qs 0 []).2.2
  lab : IdsOK qs →
    dispatchOrder (finalizeBlock s.last s.last_start s.t s.gantt)
      = (qs.take i).map (fun p => p.id) ∧
    ((i = 0 ∧ s.last = "" ∧ s.last_start = -1) ∨
      (0 < i ∧ s.last = (procAt qs (i - 1)).id ∧ 0 ≤ s.last_start ∧ s.last_start < s.t))

/-- What every dispatch of the Round Robin loop does, over the whole run from `RR_init ps`:
the loop leaves after `K` iterations, and in every iteration `k < K` whose queue (after the
admission at the top of the iteration) has head `cur`, the clock advances by exactly
`min(quantum, remaining_time)` of `cur`, exactly that much is taken off `cur` and nothing off
any other process, and if `cur` is left unfinished (it is preempted at the new clock) the
new queue ends with `cur`, with every other unfinished process that has arrived by the new
clock, the ones admitted only now included, ahead of it. -/
def RRDispatches (quantum : Int) (ps : List Process) : Prop :=
  ∃ K, (∀ fuel, fuelBound ps ≤ fuel →
      whileLoop RR_cond (RR_body quantum) fuel (RR_init ps)
        = some (Nat.iterate (RR_body quantum) K (RR_init ps))) ∧
    ∀ k, k < K → ∀ cur rest,
      (Nat.iterate (RR_body quantum) k (RR_init ps)).q
          ++ newArrivals (Nat.iterate (RR_body quantum) k (RR_init ps)).ps
            (Nat.iterate (RR_body quantum) k (RR_init ps)).t
            (Nat.iterate (RR_body quantum) k (RR_init ps)).idx = cur :: rest →
      (Nat.iterate (RR_body quantum) (k + 1) (RR_init ps)).t
          = (Nat.iterate (RR_body quantum) k (RR_init ps)).t
            + min quantum (procAt (Nat.iterate (RR_body quantum) k (RR_init ps)).ps
                cur).remaining_time ∧
        (procAt (Nat.iterate (RR_body quantum) (k + 1) (RR_init ps)).ps cur).remaining_time
          = (procAt (Nat.iterate (RR_body quantum) k (RR_init ps)).ps cur).remaining_time
            - min quantum (procAt (Nat.iterate (RR_body quantum) k (RR_init ps)).ps
                cur).remaining_time ∧
        (∀ j, j ≠ cur →
          (procAt (Nat.iterate (RR_body quantum) (k + 1) (RR_init ps)).ps j).remaining_time
            = (procAt (Nat.iterate (RR_body quantum) k (RR_init ps)).ps j).remaining_time) ∧
        (0 < (procAt (Nat.iterate (RR_body quantum) (k + 1) (RR_init ps)).ps
              cur).remaining_time →
          ∃ pre, (Nat.iterate (RR_body quantum) (k + 1) (RR_init ps)).q = pre ++ [cur] ∧
            cur ∉ pre ∧
            ∀ j, j < ps.length → j ≠ cur →
              (procAt ps j).arrival_time
                ≤ (Nat.iterate (RR_body quantum) (k + 1) (RR_init ps)).t →
              0 < (procAt (Nat.iterate (RR_body quantum) k (RR_init ps)).ps j).remaining_time →
              j ∈ pre)

/-- The vector `qs` is `ps` with nothing but scheduling state rewritten: same length, and
position by position the same `id`, `arrival_time`, `burst_time`, `priority`, `deadline`. -/
def Kept (ps qs : List Process) : Prop :=
  qs.length = ps.length ∧ ∀ i, Static (procAt ps i) (procAt qs i)

/-- Identity and demand of a process record. -/
def jobOf (p : Process) : String × Int × Int := (p.id, p.arrival_time, p.burst_time)

/-- The vector `qs` holds the same jobs as `ps`, possibly in another order. -/
def SameJobs (ps qs : List Process) : Prop := List.Perm (qs.map jobOf) (ps.map jobOf)

/-- A loop policy keeps identity and demand: every state that the loop visits from `s0`
holds the jobs of `ps` position by position, and so does every result that `res` returns
(with whatever fuel); in particular the ids and the jobs of the result are those of `ps`. -/
def FramePolicy {σ : Type} (ps : List Process) (body : σ → σ) (s0 : σ)
    (psOf : σ → List Process) (res : Nat → Option Result) : Prop :=
  (∀ k, Frame ps (psOf (Nat.iterate body k s0))) ∧
    ∀ fuel r, res fuel = some r →
      Frame ps r.ps ∧ SameJobs ps r.ps ∧ r.ps.map (fun p => p.id) = ps.map (fun p => p.id)

/-- One loop iteration as the clock sees it, from the vector `ps` at clock `t` to the vector
`qs` at clock `u`.  Either no process runs, and then the clock stays or the CPU idles: the
clock jumps forward to the earliest arrival among the unfinished processes, none of which
has arrived yet.  Or one unfinished process that has arrived receives `k > 0` units of CPU,
no other process receives any, and the clock advances by exactly `k`. -/
def ClockStep (ps qs : List Process) (t u : Int) : Prop :=
  ((∀ i, (procAt qs i).remaining_time = (procAt ps i).remaining_time) ∧
    (u = t ∨
      (t < u ∧
        (∃ j, j < ps.length ∧ 0 < (procAt ps j).remaining_time ∧
          (procAt ps j).arrival_time = u) ∧
        ∀ i, i < ps.length → 0 < (procAt ps i).remaining_time →
          u ≤ (procAt ps i).arrival_time))) ∨
  ∃ i k, i < ps.length ∧ (procAt ps i).arrival_time ≤ t ∧ 0 < k ∧
    k ≤ (procAt ps i).remaining_time ∧ u = t + k ∧
    (procAt qs i).remaining_time = (procAt ps i).remaining_time - k ∧
    ∀ j, j ≠ i → (procAt qs j).remaining_time = (procAt ps j).remaining_time

/-- The result of a policy on the one-process workload `[p]`: the one record returned is
the job `p` with `waiting_time = 0` and `turnaround_time = burst_time`, and `total_time` is
`arrival_time + burst_time`. -/
def SingleResult (p : Process) (r : Result) : Prop :=
  r.total_time = p.arrival_time + p.burst_time ∧
    ∃ q, r.ps = [q] ∧ SameJob p q ∧ q.waiting_time = 0 ∧ q.turnaround_time = p.burst_time

/-- The policy `res` terminates: with any fuel of at least `n` it returns one and the same
result, and that result satisfies `P`. -/
def ReturnsFrom (n : Nat) (res : Nat → Option Result) (P : Result → Prop) : Prop :=
  ∃ r, (∀ fuel, n ≤ fuel → res fuel = some r) ∧ P r

/-- All ten policies handle the one-process workload `[p]`: FCFS returns, and each of the
other nine returns for every fuel from a stated bound on, the result described by
`SingleResult`. -/
def SingleProcessOK (p : Process) (quantum : Int) (draws : Nat → Nat)
    (sel : List Process → List Nat → Nat) : Prop :=
  SingleResult p (FCFSScheduler_schedule [p]) ∧
    ReturnsFrom 1 (fun fuel => SJFScheduler_schedule fuel [p]) (SingleResult p) ∧
    ReturnsFrom 1 (fun fuel => PriorityScheduler_schedule fuel [p]) (SingleResult p) ∧
    ReturnsFrom (fuelBound [p]) (fun fuel => SRTFScheduler_schedule fuel [p])
      (SingleResult p) ∧
    ReturnsFrom (fuelBound [p]) (fun fuel => RoundRobinScheduler_schedule quantum fuel [p])
      (SingleResult p) ∧
    ReturnsFrom (fuelBound [p]) (fun fuel => MLQScheduler_schedule fuel [p])
      (SingleResult p) ∧
    ReturnsFrom (MLFQ_fuelBound [p]) (fun fuel => MLFQScheduler_schedule fuel [p])
      (SingleResult p) ∧
    ReturnsFrom (fuelBound [p]) (fun fuel => LotteryScheduler_schedule draws fuel [p])
      (SingleResult p) ∧
    ReturnsFrom (fuelBound [p]) (fun fuel => CFSScheduler_schedule sel fuel [p])
      (SingleResult p) ∧
    ReturnsFrom (fuelBound [p]) (fun fuel => EDFScheduler_schedule sel fuel [p])
      (SingleResult p)

/-- The loop body of the variant of SRTF that the specification compares with: when no
process is eligible the clock advances by one time unit (an `IDLE` segment of one unit is
recorded) instead of jumping to the next arrival; otherwise it is `SRTF_body`. -/
def SRTF_unitStep_body (s : SRTFState) : SRTFState :=
  match SRTF_best s.ps s.t with
  | none =>
    { s with gantt := finalizeBlock s.last s.start s.t s.gantt ++ [("IDLE", 1)], t := s.t + 1 }
  | some _ => SRTF_body s

/-- The variant of `SRTFScheduler::schedule` that steps through idle time one unit at a
time. -/
def SRTF_unitStep_schedule (fuel : Nat) (ps : List Process) : Option Result :=
  (whileLoop (fun s => anyLeft s.ps) SRTF_unitStep_body fuel (SRTF_init ps)).map
    (fun s => { ps := finishWithComp s.ps s.comp,
                gantt := finalizeBlock s.last s.start s.t s.gantt,
                total_time := s.t })

/-- Two states of the SRTF loop agree on the process vector, the completion clocks and the
clock (they may differ in the timeline and its open block). -/
def SRTFSim (s u : SRTFState) : Prop := u.ps = s.ps ∧ u.comp = s.comp ∧ u.t = s.t

/-- The two queues of the MLQ scheduler hold what their names say: `high` only processes
with `priority < 3`, `low` only processes with `priority >= 3`. -/
def MLQPart (ps : List Process) (high low : List Nat) : Prop :=
  (∀ i, i ∈ high → (procAt ps i).priority < 3) ∧ (∀ i, i ∈ low → 3 ≤ (procAt ps i).priority)

/-- Every timeline segment labelled with the id of a process of `priority < 3` lasts at most
4 time units (read when the ids label the timeline unambiguously). -/
def SegBound (ps : List Process) (g : Gantt) : Prop :=
  LabelsOK ps → ∀ e, e ∈ g → ∀ i, i < ps.length → (procAt ps i).id = e.1 →
    (procAt ps i).priority < 3 → e.2 ≤ 4

/-- What the MLQ loop keeps besides `MLQInv`. -/
structure MLQExtra (s : MLQState) : Prop where
  part : MLQPart s.ps s.high s.low
  seg : SegBound s.ps s.gantt

/-- Absolute precedence of the high queue in one iteration, from the vector `ps` at clock
`t` to the vector `qs` at clock `u`: if a process `i` with `priority >= 3` runs in the
iteration, the iteration consists of that run (`u - t` is what `i` received), and during
each of its time units `[τ, τ + 1)`, `t <= τ < u`, no process with `priority < 3` that has
arrived by `τ` is unfinished. -/
def HighFirst (ps0 ps qs : List Process) (t u : Int) : Prop :=
  ∀ i, i < ps0.length → 3 ≤ (procAt ps0 i).priority →
    (procAt qs i).remaining_time < (procAt ps i).remaining_time →
    u - t = (procAt ps i).remaining_time - (procAt qs i).remaining_time ∧
    ∀ τ, t ≤ τ → τ < u → ∀ j, j < ps0.length → (procAt ps0 j).priority < 3 →
      (procAt ps0 j).arrival_time ≤ τ → (procAt ps j).remaining_time = 0

/-- Absolute precedence of the high queue in `MLQScheduler::schedule` on the workload `ps`:
the loop leaves after `K` iterations and `schedule` returns `r` for every fuel of at least
`fuelBound ps`; every iteration has the property `HighFirst` (priorities and arrival times
read off the input); and if the ids label the timeline unambiguously, every segment of the
returned timeline that carries the id of a process with `priority < 3` lasts at most 4 time
units. -/
def MLQPrecedence (ps : List Process) : Prop :=
  ∃ K r, (∀ fuel, fuelBound ps ≤ fuel → MLQScheduler_schedule fuel ps = some r) ∧
    (∀ k, k < K → anyLeft (Nat.iterate MLQ_body k (MLQ_init ps)).ps = true) ∧
    anyLeft (Nat.iterate MLQ_body K (MLQ_init ps)).ps = false ∧
    (∀ k, k < K →
      HighFirst ps (Nat.iterate MLQ_body k (MLQ_init ps)).ps
        (Nat.iterate MLQ_body (k + 1) (MLQ_init ps)).ps
        (Nat.iterate MLQ_body k (MLQ_init ps)).t
        (Nat.iterate MLQ_body (k + 1) (MLQ_init ps)).t) ∧
    (LabelsOK ps → ∀ e, e ∈ r.gantt → ∀ p, p ∈ ps → p.id = e.1 → p.priority < 3 → e.2 ≤ 4)

/-- The level and the process of the dispatch that the iteration of the MLFQ loop started in
state `s` makes: the head `p` of the first non-empty queue `q[qi]` after the admission,
unless the iteration only promotes `p` (or finds all queues empty). -/
def MLFQ_dispatchOf (s : MLFQState) : Option (Nat × Nat) :=
  let s1 := MLFQ_push s
  match MLFQ_firstNonEmpty s1 with
  | none => none
  | some qi =>
    let p := (MLFQ_getq s1 qi).headD 0
    let s2 := MLFQ_setq s1 qi (MLFQ_getq s1 qi).tail
    if qi > 0 ∧ s2.t - s2.last_enq.getD p 0 ≥ MLFQ_AGE then none else some (qi, p)

/-- What the iteration of the MLFQ loop from state `s` to state `u` adds to the timeline: a
dispatch of `p` from level `qi` adds exactly one segment, labelled with the id of `p`, whose
duration `ran` is positive, at most `quantum[qi]`, and is what `p` has received; an
iteration without dispatch adds nothing or one `IDLE` segment. -/
def MLFQ_segmentOf (s u : MLFQState) : Prop :=
  match MLFQ_dispatchOf s with
  | some (qi, p) =>
    ∃ ran : Int, 0 < ran ∧ ran ≤ MLFQ_quantum qi ∧
      u.gantt = s.gantt ++ [((procAt s.ps p).id, ran)] ∧
      (procAt u.ps p).remaining_time = (procAt s.ps p).remaining_time - ran ∧
      ((procAt s.ps p).remaining_time = (procAt s.ps p).burst_time →
        qi = 0 ∧ ran = min 2 (procAt s.ps p).burst_time)
  | none => u.gantt = s.gantt ∨ ∃ d, u.gantt = s.gantt ++ [("IDLE", d)]

/-- What the MLFQ loop keeps besides `MLFQInv`: a process queued below level 0 has run
before, and (the ids labelling the timeline unambiguously) a process that has not run has no
segment while the first segment of a process that has run lasts `min(2, burst_time)`. -/
structure MLFQExtra (s : MLFQState) : Prop where
  fresh : ∀ i, i ∈ s.q1 ++ s.q2 →
    (procAt s.ps i).remaining_time < (procAt s.ps i).burst_time
  first : LabelsOK s.ps → ∀ i, i < s.ps.length →
    ((procAt s.ps i).remaining_time = (procAt s.ps i).burst_time →
      segments (procAt s.ps i).id s.gantt = []) ∧
    ((procAt s.ps i).remaining_time < (procAt s.ps i).burst_time →
      ∃ rest, segments (procAt s.ps i).id s.gantt
        = ((procAt s.ps i).id, min 2 (procAt s.ps i).burst_time) :: rest)

/-- The first dispatch of every process in `MLFQScheduler::schedule` on the workload `ps`:
the loop leaves after `K` iterations and `schedule` returns `r` for every fuel of at least
`MLFQ_fuelBound ps`; the admission puts every arrival into `q[0]` and leaves the other two
queues alone; every iteration has the property `MLFQ_segmentOf`; and if the ids label the
timeline unambiguously, the first segment of the returned timeline that carries the id of a
process lasts exactly `min(2, burst_time)`. -/
def MLFQFirstDispatch (ps : List Process) : Prop :=
  ∃ K r, (∀ fuel, MLFQ_fuelBound ps ≤ fuel → MLFQScheduler_schedule fuel ps = some r) ∧
    (∀ k, k < K → anyLeft (Nat.iterate MLFQ_body k (MLFQ_init ps)).ps = true) ∧
    anyLeft (Nat.iterate MLFQ_body K (MLFQ_init ps)).ps = false ∧
    (∀ s : MLFQState, (MLFQ_push s).q0 = s.q0 ++ newArrivals s.ps s.t s.idx ∧
      (MLFQ_push s).q1 = s.q1 ∧ (MLFQ_push s).q2 = s.q2) ∧
    (∀ k, k < K →
      MLFQ_segmentOf (Nat.iterate MLFQ_body k (MLFQ_init ps))
        (Nat.iterate MLFQ_body (k + 1) (MLFQ_init ps))) ∧
    (LabelsOK ps → ∀ p, p ∈ ps →
      ∃ rest, segments p.id r.gantt = (p.id, min 2 p.burst_time) :: rest)

/-- State of the Round Robin loop run with a quantum of at most 0: every process still has
work, the queue holds valid indices, and the loop condition holds. -/
structure RRStuck (s : RRState) : Prop where
  idxle : s.idx ≤ s.ps.length
  mem : ∀ i, i ∈ s.q → i < s.ps.length
  left : ∀ i, i < s.ps.length → 0 < (procAt s.ps i).remaining_time
  cond : s.q ≠ [] ∨ s.idx < s.ps.length

/-- Round Robin with a quantum of at most 0 on the workload `ps`: `schedule` returns with no
fuel; in every state that the loop visits the loop condition holds (the queue is non-empty
or a process is not admitted), every process has `remaining_time > 0`, the slice computed for
the head of the queue is at most 0, and the iteration decreases no `remaining_time`. -/
def RRNeverEnds (quantum : Int) (ps : List Process) : Prop :=
  (∀ fuel, RoundRobinScheduler_schedule quantum fuel ps = none) ∧
    ∀ k, RR_cond (Nat.iterate (RR_body quantum) k (RR_init ps)) = true ∧
      (∀ i, i < ps.length →
        0 < (procAt (Nat.iterate (RR_body quantum) k (RR_init ps)).ps i).remaining_time ∧
        min quantum (procAt (Nat.iterate (RR_body quantum) k (RR_init ps)).ps i).remaining_time
          ≤ 0 ∧
        (procAt (Nat.iterate (RR_body quantum) k (RR_init ps)).ps i).remaining_time
          ≤ (procAt (Nat.iterate (RR_body quantum) (k + 1) (RR_init ps)).ps i).remaining_time)

/-- A dispatch of the CFS loop from state `s` to state `s2`: process `i` has arrived, is
unfinished and has the smallest `vruntime` among the processes with `arrival_time <= t` and
`remaining_time > 0`; it runs for `min(2, remaining_time)` units, which are appended to the
timeline under its id, and no other record changes. -/
def CFS_dispatchOf (s s2 : CFSState) (i : Nat) : Prop :=
  i < s.ps.length ∧ (procAt s.ps i).arrival_time ≤ s.t ∧ 0 < (procAt s.ps i).remaining_time ∧
    (∀ j, j < s.ps.length → (procAt s.ps j).arrival_time ≤ s.t →
      0 < (procAt s.ps j).remaining_time →
      (procAt s.ps i).vruntime ≤ (procAt s.ps j).vruntime) ∧
    s2.t = s.t + min 2 (procAt s.ps i).remaining_time ∧
    (procAt s2.ps i).remaining_time
      = (procAt s.ps i).remaining_time - min 2 (procAt s.ps i).remaining_time ∧
    (∀ j, j ≠ i → procAt s2.ps j = procAt s.ps j) ∧
    s2.gantt = s.gantt ++ [((procAt s.ps i).id, min 2 (procAt s.ps i).remaining_time)]

/-- An iteration of the CFS loop without a dispatch: no process with `arrival_time <= t` has
`remaining_time > 0`, and the process vector is unchanged. -/
def CFS_idleOf (s s2 : CFSState) : Prop :=
  (∀ j, j < s.ps.length → (procAt s.ps j).arrival_time ≤ s.t →
    (procAt s.ps j).remaining_time ≤ 0) ∧ s2.ps = s.ps

/-- What one iteration of the CFS loop does to the `vruntime` fields, from the vector `ps` to
the vector `qs`: either none changes, or a process `p` is dispatched for a slice
`sl = min(2, remaining_time) > 0` and its `vruntime` grows by `sl / weight`, which is
`sl * max(1, priority)`, while no other `vruntime` changes. -/
def CFS_charged (ps qs : List Process) : Prop :=
  (∀ j, (procAt qs j).vruntime = (procAt ps j).vruntime) ∨
    ∃ p sl, p < ps.length ∧ sl = min 2 (procAt ps p).remaining_time ∧ 0 < sl ∧
      (procAt qs p).remaining_time = (procAt ps p).remaining_time - sl ∧
      (procAt qs p).vruntime = (procAt ps p).vruntime + (sl : Rat) / CFS_weight (procAt ps p) ∧
      (sl : Rat) / CFS_weight (procAt ps p)
        = (sl : Rat) * ((max 1 (procAt ps p).priority : Int) : Rat) ∧
      ∀ j, j ≠ p → (procAt qs j).vruntime = (procAt ps j).vruntime

/-- The `vruntime` of every process of the vector `qs` is the CPU time it has received so
far, `burst_time - remaining_time`, times `max(1, priority)`, with the burst times and
priorities of the input `ps`. -/
def CFS_vruntimeOK (ps qs : List Process) : Prop :=
  ∀ i, i < ps.length →
    (procAt qs i).vruntime
      = (((procAt ps i).burst_time - (procAt qs i).remaining_time : Int) : Rat)
        * ((max 1 (procAt ps i).priority : Int) : Rat)

/-- The state of the lottery loop on the workload `ps` after `k` iterations, under the stream
of draws `draws`. -/
def Lottery_state (draws : Nat → Nat) (ps : List Process) (k : Nat) : LotteryState :=
  Nat.iterate (Lottery_body draws (Lottery_tickets (initRemaining ps))) k (Lottery_init ps)

/-- The ticket bag built from the vector `ps` at clock `t` holds exactly `tickets[i]` copies
of every index `i` with `arrival_time <= t` and `remaining_time > 0`, and no other entry. -/
def Lottery_bagOK (tickets : List Int) (ps : List Process) (t : Int) : Prop :=
  ∀ i, (Lottery_bag tickets ps t).count i =
    if i < ps.length ∧ (procAt ps i).arrival_time ≤ t ∧ 0 < (procAt ps i).remaining_time then
      (tickets.getD i 0).toNat
    else 0

/-- A dispatch of the lottery loop from state `s` to state `s2`: the drawn index `i` is in
the bag, so it has arrived and is unfinished; it runs for `min(4, remaining_time)` units,
which are appended to the timeline under its id; the other records are unchanged. -/
def Lottery_dispatchOf (tickets : List Int) (s s2 : LotteryState) (i : Nat) : Prop :=
  i ∈ Lottery_bag tickets s.ps s.t ∧ i < s.ps.length ∧ (procAt s.ps i).arrival_time ≤ s.t ∧
    0 < (procAt s.ps i).remaining_time ∧
    s2.t = s.t + min 4 (procAt s.ps i).remaining_time ∧
    (procAt s2.ps i).remaining_time
      = (procAt s.ps i).remaining_time - min 4 (procAt s.ps i).remaining_time ∧
    (∀ j, j ≠ i → procAt s2.ps j = procAt s.ps j) ∧
    s2.gantt = s.gantt ++ [((procAt s.ps i).id, min 4 (procAt s.ps i).remaining_time)]

/-- The level and the process that an iteration of the MLFQ loop takes from the queues: the
head `p` of the first non-empty queue `q[qi]` after the admission. -/
def MLFQ_taken (s : MLFQState) : Option (Nat × Nat) :=
  (MLFQ_firstNonEmpty (MLFQ_push s)).map
    (fun qi => (qi, (MLFQ_getq (MLFQ_push s) qi).headD 0))

/-- The state of the MLFQ loop after the admission and `q[qi].pop()`. -/
def MLFQ_popped (s : MLFQState) (qi : Nat) : MLFQState :=
  MLFQ_setq (MLFQ_push s) qi (MLFQ_getq (MLFQ_push s) qi).tail

/-- The vectors `level` and `last_enq` have `n` entries and every stored level is 0, 1 or 2. -/
def MLFQ_lens (n : Nat) (s : MLFQState) : Prop :=
  s.level.length = n ∧ s.last_enq.length = n ∧ ∀ x, x ∈ s.level → x = 0 ∨ x = 1 ∨ x = 2

/-- Process `p` has just been enqueued at level `X` in state `u`: its stored level is `X`,
its `last_enq` entry is the clock, it is the last element of `q[X]`, and it is in no other
queue. -/
def MLFQ_requeuedAt (u : MLFQState) (p X : Nat) : Prop :=
  u.level.getD p 0 = (X : Int) ∧ u.last_enq.getD p 0 = u.t ∧
    (∃ front, MLFQ_getq u X = front ++ [p]) ∧
    ∀ Y, Y ≤ 2 → Y ≠ X → p ∉ MLFQ_getq u Y

/-- The demotion rule of the MLFQ loop for the iteration from state `s` to state `u`: a
dispatch of `p` from level `L` runs `p` for `r` units, `0 < r <= quantum[L]`, and if `p` is
still unfinished afterwards it is enqueued at level `min(L+1, 2)` when `r = quantum[L]` and
at level `L` when `r < quantum[L]`. -/
def MLFQ_demotionOf (s u : MLFQState) : Prop :=
  ∀ L p, MLFQ_dispatchOf s = some (L, p) →
    L ≤ 2 ∧ 0 < (procAt s.ps p).remaining_time - (procAt u.ps p).remaining_time ∧
    (procAt s.ps p).remaining_time - (procAt u.ps p).remaining_time ≤ MLFQ_quantum L ∧
    (0 < (procAt u.ps p).remaining_time →
      ((procAt s.ps p).remaining_time - (procAt u.ps p).remaining_time = MLFQ_quantum L →
        MLFQ_requeuedAt u p (min (L + 1) 2)) ∧
      ((procAt s.ps p).remaining_time - (procAt u.ps p).remaining_time < MLFQ_quantum L →
        MLFQ_requeuedAt u p L))

/-- The promotion rule of the MLFQ loop for the iteration from state `s` to state `u`: if
the process `p` taken from level `L` in {1, 2} has `t - last_enq[p] >= 10`, then the clock,
the process vector (so every `remaining_time`) and the timeline are unchanged, `p` has left
`q[L]` and is the new last element of `q[L-1]`, with stored level `L - 1` and `last_enq[p]`
set to the clock. -/
def MLFQ_promotionOf (s u : MLFQState) : Prop :=
  ∀ L p, MLFQ_taken s = some (L, p) → 0 < L →
    s.t - (MLFQ_push s).last_enq.getD p 0 ≥ MLFQ_AGE →
    u.t = s.t ∧ u.ps = s.ps ∧ u.gantt = s.gantt ∧
    MLFQ_getq u L = (MLFQ_getq (MLFQ_push s) L).tail ∧
    MLFQ_getq u (L - 1) = MLFQ_getq (MLFQ_push s) (L - 1) ++ [p] ∧
    u.level.getD p 0 = ((L - 1 : Nat) : Int) ∧ u.last_enq.getD p 0 = u.t

/-- Every process that the iteration of the MLFQ loop from state `s` to state `u` runs is
the process taken from the queues, and if it was taken from level 1 or 2 then it has waited
less than 10 time units since its last enqueue. -/
def MLFQ_runsFresh (s u : MLFQState) : Prop :=
  ∀ i, (procAt u.ps i).remaining_time < (procAt s.ps i).remaining_time →
    ∃ L, MLFQ_taken s = some (L, i) ∧ MLFQ_dispatchOf s = some (L, i) ∧
      (0 < L → s.t - (MLFQ_push s).last_enq.getD i 0 < MLFQ_AGE)

/-- The states in which the inner loop of the MLFQ scheduler starts a time unit `[t, t+1)` of
process `p`, dispatched from level `qi`: the loop `MLFQ_runLoop` with the states at the loop
head recorded. -/
def MLFQ_unitStarts (p qi : Nat) : Nat → MLFQState → Int → List MLFQState
  | 0, _, _ => []
  | fuel + 1, s, ran =>
    if ran < MLFQ_quantum qi ∧ (procAt s.ps p).remaining_time > 0 then
      let s1 := MLFQ_push { s with ps := modifyAt s.ps p (decRemaining 1), t := s.t + 1 }
      if qi > 0 ∧ !s1.q0.isEmpty then [s]
      else s :: MLFQ_unitStarts p qi fuel s1 (ran + 1)
    else []

/-- Level 0 preempts the lower levels at one-unit granularity, for the iteration of the MLFQ
loop from state `s` to state `u`: if `p` is dispatched from level `L` in {1, 2}, then the
time units that it executes are those recorded by `MLFQ_unitStarts`, the `j`-th of them
starts at clock `t + j`, and at the start of each of them the level-0 queue is empty and no
arrival is waiting for admission; and if `p` is stopped unfinished before the end of its
quantum, the level-0 queue is not empty. -/
def MLFQ_level0Preempts (s u : MLFQState) : Prop :=
  ∀ L p, MLFQ_dispatchOf s = some (L, p) → 0 < L →
    ((MLFQ_unitStarts p L (MLFQ_quantum L).toNat (MLFQ_popped s L) 0).length : Int)
      = (procAt s.ps p).remaining_time - (procAt u.ps p).remaining_time ∧
    (∀ (j : Nat) (x : MLFQState),
      (MLFQ_unitStarts p L (MLFQ_quantum L).toNat (MLFQ_popped s L) 0)[j]? = some x →
      x.t = s.t + (j : Int) ∧
      (procAt x.ps p).remaining_time = (procAt s.ps p).remaining_time - (j : Int) ∧
      x.q0 = [] ∧ newArrivals x.ps x.t x.idx = []) ∧
    ((procAt s.ps p).remaining_time - (procAt u.ps p).remaining_time < MLFQ_quantum L →
      0 < (procAt u.ps p).remaining_time → u.q0 ≠ [])

/-- The clock at which a CPU that is free at clock `t` runs out of work when it serves the
jobs of the index list in list order without preemption: job `i` arrives at `a i` and still
needs `r i` units (no work if `r i <= 0`). -/
def busyOver (a r : Nat → Int) : Int → List Nat → Int
  | t, [] => t
  | t, i :: rest => busyOver a r (if 0 < r i then max t (a i) + r i else t) rest

/-- The work a process of the non-preemptive loop still needs: nothing once it has been
dispatched, its `burst_time` before. -/
def NP_left (ps0 : List Process) (ord : List Nat) (s : NPState) (i : Nat) : Int :=
  if i ∈ ord.take s.next ∧ i ∉ s.rq then 0 else (procAt ps0 i).burst_time

/-- The makespan of the workload `ps` under any work-conserving policy: the clock at which
the CPU runs out of work when the jobs are served in input order from clock 0. -/
def workEnd (ps : List Process) : Int :=
  busyOver (fun i => (procAt ps i).arrival_time) (fun i => (procAt ps i).burst_time) 0
    (List.range ps.length)

/-- The loop state of `priority.cpp` read as a state of the non-preemptive loop. -/
def Prio_np (s : PrioState) : NPState :=
  { ps := s.processes, t := s.current_time, next := s.next_i, rq := s.ready, gantt := s.gantt }

/-- What the loop of `priority.cpp` keeps for process `i` of the input `ps0`: identity and
demand are those of the input, `aged_steps[i]` is between 0 and `max(0, (t - arrival) / 3)`,
and if the original priority is not negative the priority is the original one minus the
aging steps, but not below 0. -/
def Prio_agedOK (ps0 : List Process) (s : PrioState) (i : Nat) : Prop :=
  SameJob (procAt ps0 i) (procAt s.processes i) ∧
    0 ≤ s.aged_steps.getD i 0 ∧
    s.aged_steps.getD i 0 ≤ max 0 ((s.current_time - (procAt ps0 i).arrival_time) / 3) ∧
    (0 ≤ (procAt ps0 i).priority →
      (procAt s.processes i).priority
        = max 0 ((procAt ps0 i).priority - s.aged_steps.getD i 0))

/-- Loop invariant of `priority.cpp`. -/
structure PrioInv (ps0 : List Process) (ord : List Nat) (s : PrioState) : Prop where
  plen : s.processes.length = ps0.length
  alen : s.aged_steps.length = ps0.length
  bnn : ∀ i, i < ps0.length → 0 ≤ (procAt ps0 i).burst_time
  ordnd : ord.Nodup
  ordmem : ∀ i, i ∈ ord ↔ i < ps0.length
  nextle : s.next_i ≤ ord.length
  rqnd : s.ready.Nodup
  rqsub : ∀ i, i ∈ s.ready → i ∈ ord.take s.next_i
  arrived : ∀ i, i ∈ ord.take s.next_i → (procAt s.processes i).arrival_time ≤ s.current_time
  aged : ∀ i, i < ps0.length → Prio_agedOK ps0 s i

def Prio_measure (ord : List Nat) (s : PrioState) : Nat :=
  (ord.length - s.next_i) + s.ready.length

/-- The state of the loop of `priority.cpp` after the admission and the aging step of the
iteration started in state `s`: the state in which the selection is made. -/
def Prio_aged (order : List Nat) (s : PrioState) : PrioState :=
  Prio_age (Prio_admission order s)

/-- The process that the iteration started in state `s` dispatches. -/
def Prio_chosen (order : List Nat) (s : PrioState) : Nat :=
  (Prio_aged order s).ready.getD
    (Prio_best (Prio_aged order s).processes (Prio_aged order s).ready) 0

/-- The aging and the selection of the iteration of `priority.cpp` started in state `s`, on
the input `ps0`.  After the aging step at the dispatch clock `t` the ready list is not empty,
and every ready process `i`, with arrival time `a` and original priority `p0`, has waited
`t - a >= 0`, has `aged_steps[i] = floor((t - a) / 3)` and, if `p0 >= 0`, has priority
`max(0, p0 - floor((t - a) / 3))`.  The dispatched process is a ready one that no ready
process precedes in the order (priority, arrival time, id), and that precedes every ready
process with a different id; it runs for its burst time. -/
def Prio_agedDispatch (ps0 : List Process) (order : List Nat) (s : PrioState) : Prop :=
  (Prio_aged order s).ready ≠ [] ∧
    (∀ i, i ∈ (Prio_aged order s).ready →
      i < ps0.length ∧
      (procAt ps0 i).arrival_time ≤ (Prio_aged order s).current_time ∧
      (Prio_aged order s).aged_steps.getD i 0
        = ((Prio_aged order s).current_time - (procAt ps0 i).arrival_time) / 3 ∧
      (0 ≤ (procAt ps0 i).priority →
        (procAt (Prio_aged order s).processes i).priority
          = max 0 ((procAt ps0 i).priority
              - ((Prio_aged order s).current_time - (procAt ps0 i).arrival_time) / 3))) ∧
    Prio_chosen order s ∈ (Prio_aged order s).ready ∧
    (∀ j, j ∈ (Prio_aged order s).ready →
      Prio_less (Prio_aged order s).processes j (Prio_chosen order s) = false ∧
      ((procAt ps0 j).id ≠ (procAt ps0 (Prio_chosen order s)).id →
        Prio_less (Prio_aged order s).processes (Prio_chosen order s) j = true)) ∧
    (Prio_body order s).current_time
      = (Prio_aged order s).current_time + (procAt ps0 (Prio_chosen order s)).burst_time ∧
    (Prio_body order s).gantt
      = (Prio_aged order s).gantt
        ++ [((procAt ps0 (Prio_chosen order s)).id,
             (procAt ps0 (Prio_chosen order s)).burst_time)]

/-- The identifiers of the vector `ps` are pairwise different. -/
def IdsInj (ps : List Process) : Prop :=
  ∀ i j, i < ps.length → j < ps.length → (procAt ps i).id = (procAt ps j).id → i = j

/-- Two states of the SRTF loop that differ only in the order of the process vector: clock,
open block and timeline agree, and the two vectors hold the same records with the same
recorded completion clocks. -/
structure SRTFPerm (s u : SRTFState) : Prop where
  t : u.t = s.t
  last : u.last = s.last
  start : u.start = s.start
  gantt : u.gantt = s.gantt
  len : u.ps.length = s.ps.length
  clen : s.comp.length = s.ps.length
  clen2 : u.comp.length = u.ps.length
  fwd : ∀ i, i < u.ps.length → ∃ j, j < s.ps.length ∧ procAt u.ps i = procAt s.ps j ∧
    compClock u.comp i = compClock s.comp j
  bwd : ∀ j, j < s.ps.length → ∃ i, i < u.ps.length ∧ procAt u.ps i = procAt s.ps j ∧
    compClock u.comp i = compClock s.comp j
  ids : IdsInj s.ps
  ids2 : IdsInj u.ps

/-- The result `r2` is the result `r` up to the order of the process vector: same timeline,
same `total_time`, the process vectors are permutations of each other, and a process id has
the same `waiting_time` and `turnaround_time` in both. -/
def SameSchedule (r r2 : Result) : Prop :=
  r2.gantt = r.gantt ∧ r2.total_time = r.total_time ∧ List.Perm r2.ps r.ps ∧
    ∀ p, p ∈ r.ps → ∀ q, q ∈ r2.ps → q.id = p.id →
      q.waiting_time = p.waiting_time ∧ q.turnaround_time = p.turnaround_time

/-! ## The range of `int`

The embedding computes in `Int`.  It computes what the program computes as long as no value
of type `int` leaves the range of that type (signed overflow is undefined behaviour in C++;
in practice the value wraps around).  The predicates of this section describe the workloads
on which that is the case; the theorems whose content depends on the values of the clock
assume them. -/

/-- The least value of a 32-bit `int`. -/
def INT_MIN : Int := -2147483648

/-- The number `x` is a value of the type `int`. -/
def FitsInt (x : Int) : Prop := INT_MIN ≤ x ∧ x ≤ INT_MAX

instance (x : Int) : Decidable (FitsInt x) := by
  unfold FitsInt; infer_instance

/-- The clock of the schedulers stays in the range of `int` on the workload `ps`: no arrival
time is negative, and `workEnd ps`, the clock at which the CPU runs out of work, is at most
`INT_MAX`.  On a workload that is sorted by arrival with positive burst times the clock `t`
of every policy starts at 0, never decreases and never exceeds `workEnd ps`, so that under
`ClockFits` the clock, every completion time, every `turnaround_time`, `waiting_time` and
`IDLE` duration is a number between 0 and `INT_MAX`. -/
def ClockFits (ps : List Process) : Prop :=
  (∀ p ∈ ps, 0 ≤ p.arrival_time) ∧ workEnd ps ≤ INT_MAX

instance (ps : List Process) : Decidable (ClockFits ps) := by
  unfold ClockFits; infer_instance

/-- The default deadlines of EDF can be computed in `int`: for every process with
`deadline == 0` both `2 * burst_time` and `arrival_time + 2 * burst_time` are values of the
type `int`. -/
def DeadlineFits (ps : List Process) : Prop :=
  ∀ p ∈ ps, p.deadline = 0 →
    FitsInt (2 * p.burst_time) ∧ FitsInt (p.arrival_time + 2 * p.burst_time)

instance (ps : List Process) : Decidable (DeadlineFits ps) := by
  unfold DeadlineFits; infer_instance

/-- The bag of the Lottery scheduler can be indexed by an `int`: the tickets of all processes
together, the largest size that `bag` can have, are at most `INT_MAX`, so that
`(int)bag.size()-1` is the index of the last ticket. -/
def BagFits (ps : List Process) : Prop :=
  (Lottery_tickets (initRemaining ps)).sum ≤ INT_MAX

instance (ps : List Process) : Decidable (BagFits ps) := by
  unfold BagFits; infer_instance

/-- The sums of `calculateMetrics` can be computed in `int`: the number of processes and
every partial sum of the burst times that `std::accumulate` forms, from the first process
on, are values of the type `int`. -/
def BusyFits (ps : List Process) : Prop :=
  (ps.length : Int) ≤ INT_MAX ∧ ∀ k, k ≤ ps.length → FitsInt (totalBurst (ps.take k))

instance (ps : List Process) : Decidable (BusyFits ps) := by
  unfold BusyFits; infer_instance

/-- No two processes of the workload arrive at the same time. -/
def DistinctArrivals (ps : List Process) : Prop :=
  List.Pairwise (fun a b => a.arrival_time ≠ b.arrival_time) ps

instance (ps : List Process) : Decidable (DistinctArrivals ps) := by
  unfold DistinctArrivals; infer_instance

/-- What the C++ standard says of the vector `sorted` that the call
`std::sort(ps.begin(), ps.end(), by arrival_time)` leaves behind when it is given the vector
`l`: it is a permutation of `l` in which the arrival times do not decrease.  The order of
processes with equal arrival time is not fixed. -/
def ArrivalSorted (l sorted : List Process) : Prop :=
  List.Perm sorted l ∧ SortedByArrival sorted

/-- `FCFSScheduler::schedule` from the point on at which `std::sort` has left the vector
`sorted` behind. -/
def FCFS_schedule_from (sorted : List Process) : Result :=
  let r := FCFS_loop sorted 0 []
  { ps := r.1, gantt := r.2.1, total_time := r.2.2 }

/-- The clock `tOf` is between 0 and `INT_MAX` in every state that the loop visits from
`s0`. -/
def ClockInt {σ : Type} (cond : σ → Bool) (body : σ → σ) (s0 : σ) (tOf : σ → Int) : Prop :=
  ∀ k, (∀ j, j < k → cond (Nat.iterate body j s0) = true) →
    0 ≤ tOf (Nat.iterate body k s0) ∧ tOf (Nat.iterate body k s0) ≤ INT_MAX

/-- The first `k + 1` states of the Round Robin loop hold values of the type `int`: the
clock and every `remaining_time`. -/
def RRFits (quantum : Int) (ps : List Process) (k : Nat) : Prop :=
  ∀ j, j ≤ k →
    FitsInt (Nat.iterate (RR_body quantum) j (RR_init ps)).t ∧
    ∀ i, i < ps.length →
      FitsInt (procAt (Nat.iterate (RR_body quantum) j (RR_init ps)).ps i).remaining_time

/-! ## Concrete workloads -/

/-- The built-in workload of `main`. -/
def builtinWorkload : List Process :=
  [ { id := "P1", arrival_time := 0, burst_time := 8, priority := 2 },
    { id := "P2", arrival_time := 1, burst_time := 4, priority := 1 },
    { id := "P3", arrival_time := 2, burst_time := 9, priority := 3 },
    { id := "P4", arrival_time := 3, burst_time := 5, priority := 4 } ]

/-- Three long processes that arrive together: at clock 26 the second one has waited 12
units at level 2 of the MLFQ scheduler. -/
def mlfqAgingWorkload : List Process :=
  [ { id := "A", arrival_time := 0, burst_time := 20, priority := 1 },
    { id := "B", arrival_time := 0, burst_time := 20, priority := 1 },
    { id := "C", arrival_time := 0, burst_time := 20, priority := 1 } ]

/-- A long process and a short one that arrives while the long one runs at level 1 of the
MLFQ scheduler. -/
def mlfqPreemptWorkload : List Process :=
  [ { id := "A", arrival_time := 0, burst_time := 10, priority := 1 },
    { id := "B", arrival_time := 5, burst_time := 1, priority := 1 } ]

/-- A workload with an idle gap between two arrivals. -/
def gapWorkload : List Process :=
  [ { id := "P1", arrival_time := 0, burst_time := 2, priority := 1 },
    { id := "P2", arrival_time := 5, burst_time := 3, priority := 1 } ]

/-- A workload whose only process arrives after time 0. -/
def lateWorkload : List Process :=
  [ { id := "P1", arrival_time := 3, burst_time := 2, priority := 1 } ]

/-- Three processes of which `B` (earlier arrival) and `A` (smaller id) tie on `burst_time`
once `C` has run. -/
def sjfTieWorkload : List Process :=
  [ { id := "C", arrival_time := 0, burst_time := 2, priority := 1 },
    { id := "B", arrival_time := 0, burst_time := 3, priority := 1 },
    { id := "A", arrival_time := 1, burst_time := 3, priority := 1 } ]

/-- Two processes that both have `remaining_time` 3 at time 2. -/
def srtfTieWorkload : List Process :=
  [ { id := "B", arrival_time := 0, burst_time := 5, priority := 1 },
    { id := "A", arrival_time := 2, burst_time := 3, priority := 1 } ]

/-- At time 10 `B` has waited 9 units and `C` has waited 1 unit. -/
def agingWorkload : List Process :=
  [ { id := "A", arrival_time := 0, burst_time := 10, priority := 0 },
    { id := "B", arrival_time := 1, burst_time := 1, priority := 5 },
    { id := "C", arrival_time := 9, burst_time := 1, priority := 3 } ]

/-- Two processes that arrive together, listed against the order of their ids. -/
def rrTieWorkload : List Process :=
  [ { id := "B", arrival_time := 0, burst_time := 1, priority := 1 },
    { id := "A", arrival_time := 0, burst_time := 1, priority := 1 } ]

/-! ## Metrics and `main` -/

/-- What `calculateMetrics` writes to its four `double` references.  The values are kept in
exact rational arithmetic; the quotient of a division by zero, which is not a number of the
exact arithmetic (IEEE gives NaN or an infinity), is `none`.  Only the two averages can be
such a quotient: the other two divisions sit behind the test `total_time ? ... : 0.0`. -/
structure Metrics where
  avg_wait : Option Rat
  avg_turn : Option Rat
  cpu_util : Rat
  throughput : Rat
deriving DecidableEq

/-- The statement `x /= n` for a `double x` and an `int n`. -/
def divByCount (x : Rat) (n : Int) : Option Rat :=
  if n = 0 then none else some (x / (n : Rat))

/-- `calculateMetrics(ps, total_time, avg_wait, avg_turn, cpu_util, throughput)`.  The
accumulator `int busy` and the count `int n` are computed in `Int`; they are the values that
the program computes in `int` if every partial sum of the burst times and the number of
processes are in the range of `int` (`BusyFits`). -/
def calculateMetrics (ps : List Process) (total_time : Int) : Metrics :=
  let avg_wait : Rat := ps.foldl (fun s p => s + (p.waiting_time : Rat)) 0
  let avg_turn : Rat := ps.foldl (fun s p => s + (p.turnaround_time : Rat)) 0
  let n : Int := (ps.length : Int)
  let busy : Int := ps.foldl (fun s p => s + p.burst_time) 0
  { avg_wait := divByCount avg_wait n,
    avg_turn := divByCount avg_turn n,
    cpu_util := if total_time ≠ 0 then (busy : Rat) / (total_time : Rat) * 100 else 0,
    throughput := if total_time ≠ 0 then (n : Rat) / (total_time : Rat) else 0 }

/-- The ten scheduler classes. -/
inductive Policy where
  | fcfs | sjf | srtf | priority | rr | mlq | mlfq | lottery | cfs | edf
deriving DecidableEq, Repr

/-- The `if / else if` chain of `main` that creates the scheduler from the value of
`--scheduler`; `none` is the final `else` branch (`Unknown scheduler`, `return 1`). -/
def selectScheduler (sched : String) : Option Policy :=
  if sched = "fcfs" then some Policy.fcfs
  else if sched = "sjf" then some Policy.sjf
  else if sched = "srtf" then some Policy.srtf
  else if sched = "prio" ∨ sched = "priority" then some Policy.priority
  else if sched = "rr" then some Policy.rr
  else if sched = "mlq" then some Policy.mlq
  else if sched = "mlfq" then some Policy.mlfq
  else if sched = "lottery" then some Policy.lottery
  else if sched = "cfs" then some Policy.cfs
  else if sched = "edf" then some Policy.edf
  else none

/-- What a run of `main` does, as far as the claims look at it: the exit status, the
scheduler whose `schedule` is invoked together with the workload handed to it, whether
`printResults` (and through it `calculateMetrics`) is called, and the line written to
`std::cerr`. -/
structure MainRun where
  status : Int
  scheduled : Option (Policy × List Process)
  printed : Bool
  err : Option String
deriving DecidableEq

/-- The function `main`, from the parsed arguments on: `random` is `args.count("--random")`,
`input` and `sched` are the values of `--input` and `--scheduler`, `generated` is what
`generateRandomProcesses(10)` returns and `loaded` what `loadProcesses(input)` returns.
The status `0` is that of a run whose `schedule` call returns. -/
def main_run (random : Bool) (input sched : String) (generated loaded : List Process) :
    MainRun :=
  let processes :=
    if random then generated else if input ≠ "" then loaded else builtinWorkload
  if processes.isEmpty then
    { status := 1, scheduled := none, printed := false, err := some "No processes loaded.\n" }
  else
    match selectScheduler sched with
    | none =>
      { status := 1, scheduled := none, printed := false,
        err := some ("Unknown scheduler: " ++ sched ++ "\n") }
    | some pol => { status := 0, scheduled := some (pol, processes), printed := true, err := none }

/-- The ten scheduler names of the specification. -/
def schedulerNames : List String :=
  ["fcfs", "sjf", "srtf", "priority", "rr", "mlq", "mlfq", "lottery", "cfs", "edf"]

/-! ## Generic facts about loops and about the process vector -/

theorem whileLoop_iterate {σ : Type} (cond : σ → Bool) (body : σ → σ) :
    ∀ (K fuel : Nat) (s : σ), (∀ k, k < K → cond (Nat.iterate body k s) = true) →
      cond (Nat.iterate body K s) = false → K ≤ fuel →
      whileLoop cond body fuel s = some (Nat.iterate body K s) := by
  intro K
  induction K with
  | zero =>
    intro fuel s _ hK _
    cases fuel <;> simp_all [whileLoop]
  | succ K ih =>
    intro fuel s hlt hK hf
    cases fuel with
    | zero => omega
    | succ fuel =>
      have h0 : cond s = true := hlt 0 (Nat.succ_pos K)
      simp only [whileLoop, h0, if_true]
      refine ih fuel (body s) ?_ hK (by omega)
      intro k hk
      exact hlt (k + 1) (by omega)

theorem loop_reach {σ : Type} (cond : σ → Bool) (body : σ → σ) (Inv : σ → Prop) (μ : σ → Nat)
    (hstep : ∀ s, Inv s → cond s = true → Inv (body s) ∧ μ (body s) < μ s) :
    ∀ (n : Nat) (s : σ), Inv s → μ s ≤ n →
      ∃ K, K ≤ n ∧ (∀ k, k < K → cond (Nat.iterate body k s) = true) ∧
        cond (Nat.iterate body K s) = false ∧ ∀ k, k ≤ K → Inv (Nat.iterate body k s) := by
  intro n
  induction n with
  | zero =>
    intro s hI hμ
    refine ⟨0, le_refl _, by simp, ?_, ?_⟩
    · by_contra hc
      have := (hstep s hI (by simpa using hc)).2
      omega
    · intro k hk
      have : k = 0 := by omega
      subst this
      simpa using hI
  | succ n ih =>
    intro s hI hμ
    by_cases hc : cond s = true
    · obtain ⟨hI1, hμ1⟩ := hstep s hI hc
      obtain ⟨K, hK, h1, h2, h3⟩ := ih (body s) hI1 (by omega)
      refine ⟨K + 1, by omega, ?_, ?_, ?_⟩
      · intro k hk
        cases k with
        | zero => simpa using hc
        | succ k => simpa using h1 k (by omega)
      · simpa using h2
      · intro k hk
        cases k with
        | zero => simpa using hI
        | succ k => simpa using h3 k (by omega)
    · refine ⟨0, by omega, by simp, by simpa using hc, ?_⟩
      intro k hk
      have : k = 0 := by omega
      subst this
      simpa using hI

theorem whileLoop_total {σ : Type} (cond : σ → Bool) (body : σ → σ) (Inv : σ → Prop) (μ : σ → Nat)
    (hstep : ∀ s, Inv s → cond s = true → Inv (body s) ∧ μ (body s) < μ s)
    (s : σ) (hI : Inv s) (fuel : Nat) (hf : μ s ≤ fuel) :
    ∃ s1, whileLoop cond body fuel s = some s1 ∧ Inv s1 ∧ cond s1 = false := by
  obtain ⟨K, hK, h1, h2, h3⟩ := loop_reach cond body Inv μ hstep (μ s) s hI (le_refl _)
  exact ⟨_, whileLoop_iterate cond body K fuel s h1 h2 (by omega), h3 K (le_refl _), h2⟩

@[simp] theorem length_modifyAt (ps : List Process) (i : Nat) (f : Process → Process) :
    (modifyAt ps i f).length = ps.length := by
  induction ps generalizing i with
  | nil => simp [modifyAt]
  | cons p rest ih => cases i <;> simp [modifyAt, ih]

theorem procAt_modifyAt (ps : List Process) (i j : Nat) (f : Process → Process) :
    procAt (modifyAt ps i f) j =
      if j = i ∧ i < ps.length then f (procAt ps i) else procAt ps j := by
  induction ps generalizing i j with
  | nil => simp [modifyAt, procAt]
  | cons p rest ih =>
    cases i with
    | zero =>
      cases j with
      | zero => simp [modifyAt, procAt]
      | succ j => simp [modifyAt, procAt]
    | succ i =>
      cases j with
      | zero => simp [modifyAt, procAt]
      | succ j =>
        have := ih i j
        simp only [procAt, modifyAt, List.getD_cons_succ, List.length_cons] at this ⊢
        rw [this]
        simp

theorem procAt_modifyAt_eq (ps : List Process) (i : Nat) (f : Process → Process)
    (h : i < ps.length) : procAt (modifyAt ps i f) i = f (procAt ps i) := by
  simp [procAt_modifyAt, h]

theorem procAt_modifyAt_ne (ps : List Process) (i j : Nat) (f : Process → Process)
    (h : j ≠ i) : procAt (modifyAt ps i f) j = procAt ps j := by
  simp [procAt_modifyAt, h]

theorem procAt_mem (ps : List Process) (i : Nat) (h : i < ps.length) : procAt ps i ∈ ps := by
  unfold procAt
  rw [List.getD_eq_getElem _ _ h]
  exact List.getElem_mem h

theorem exists_procAt_of_mem (ps : List Process) (p : Process) (h : p ∈ ps) :
    ∃ i, i < ps.length ∧ procAt ps i = p := by
  obtain ⟨i, hi, rfl⟩ := List.getElem_of_mem h
  exact ⟨i, hi, by unfold procAt; rw [List.getD_eq_getElem _ _ hi]⟩

theorem list_ext_procAt (ps qs : List Process) (hlen : qs.length = ps.length)
    (h : ∀ j, j < ps.length → procAt qs j = procAt ps j) : qs = ps := by
  apply List.ext_getElem hlen
  intro j h1 h2
  have := h j h2
  unfold procAt at this
  rwa [List.getD_eq_getElem _ _ h1, List.getD_eq_getElem _ _ h2] at this

theorem sum_map_pointwise {M : Type} [AddCommMonoid M] (g : Process → M) :
    ∀ (ps qs : List Process) (i : Nat), qs.length = ps.length → i < ps.length →
      (∀ j, j ≠ i → procAt qs j = procAt ps j) →
      (qs.map g).sum + g (procAt ps i) = (ps.map g).sum + g (procAt qs i) := by
  intro ps
  induction ps with
  | nil => intro qs i _ hi; simp at hi
  | cons p rest ih =>
    intro qs i hlen hi hoth
    cases qs with
    | nil => simp at hlen
    | cons q qrest =>
      simp only [List.length_cons, Nat.add_right_cancel_iff] at hlen
      cases i with
      | zero =>
        have : qrest = rest := by
          apply list_ext_procAt _ _ hlen
          intro j _
          have := hoth (j + 1) (by omega)
          simpa [procAt] using this
        subst this
        simp only [List.map_cons, List.sum_cons, procAt, List.getD_cons_zero]
        rw [add_comm (g q), add_assoc, add_comm (g q), ← add_assoc, add_comm (g p)]
      | succ i =>
        have hq : q = p := by simpa [procAt] using hoth 0 (by omega)
        subst hq
        have := ih qrest i hlen (by simpa using hi) (by
          intro j hj
          have := hoth (j + 1) (by omega)
          simpa [procAt] using this)
        simp only [List.map_cons, List.sum_cons, procAt, List.getD_cons_succ] at this ⊢
        rw [add_assoc, this, add_assoc]

theorem anyLeft_eq_true (ps : List Process) :
    anyLeft ps = true ↔ ∃ i, i < ps.length ∧ 0 < (procAt ps i).remaining_time := by
  unfold anyLeft
  rw [List.any_eq_true]
  constructor
  · rintro ⟨p, hp, h⟩
    obtain ⟨i, hi, rfl⟩ := exists_procAt_of_mem ps p hp
    exact ⟨i, hi, by simpa using h⟩
  · rintro ⟨i, hi, h⟩
    exact ⟨procAt ps i, procAt_mem ps i hi, by simpa using h⟩

theorem anyLeft_eq_false (ps : List Process) :
    anyLeft ps = false ↔ ∀ i, i < ps.length → (procAt ps i).remaining_time ≤ 0 := by
  rw [← Bool.not_eq_true, anyLeft_eq_true]
  push_neg
  rfl

/-! ## Admission -/

theorem arrivalsFrom_spec (ps : List Process) (t : Int) :
    ∀ (fuel idx : Nat), fuel = ps.length - idx →
      ∃ k, arrivalsFrom ps t fuel idx = List.range' idx k ∧ idx + k ≤ max idx ps.length ∧
        (∀ j, idx ≤ j → j < idx + k → (procAt ps j).arrival_time ≤ t) ∧
        (idx + k < ps.length → t < (procAt ps (idx + k)).arrival_time) := by
  intro fuel
  induction fuel with
  | zero =>
    intro idx h
    refine ⟨0, by simp [arrivalsFrom], by simp, ?_, ?_⟩
    · intro j h1 h2; omega
    · intro h1; omega
  | succ fuel ih =>
    intro idx h
    by_cases hc : idx < ps.length ∧ (procAt ps idx).arrival_time ≤ t
    · obtain ⟨k, h1, h2, h3, h4⟩ := ih (idx + 1) (by omega)
      refine ⟨k + 1, ?_, ?_, ?_, ?_⟩
      · simp only [arrivalsFrom, hc, and_self, if_true, h1]
        rfl
      · have := hc.1
        rw [max_eq_right (by omega)] at h2 ⊢
        omega
      · intro j hj1 hj2
        by_cases hj : j = idx
        · subst hj; exact hc.2
        · exact h3 j (by omega) (by omega)
      · intro hlt
        have := h4 (by omega)
        have e : idx + 1 + k = idx + (k + 1) := by omega
        rwa [e] at this
    · refine ⟨0, by simp [arrivalsFrom, hc], by simp, ?_, ?_⟩
      · intro j h1 h2; omega
      · intro hlt
        simp only [Nat.add_zero] at hlt ⊢
        have := not_and.mp hc hlt
        omega

theorem newArrivals_spec (ps : List Process) (t : Int) (idx : Nat) (hidx : idx ≤ ps.length) :
    newArrivals ps t idx = List.range' idx (newArrivals ps t idx).length ∧
      idx + (newArrivals ps t idx).length ≤ ps.length ∧
      (∀ j, idx ≤ j → j < idx + (newArrivals ps t idx).length → (procAt ps j).arrival_time ≤ t) ∧
      (idx + (newArrivals ps t idx).length < ps.length →
        t < (procAt ps (idx + (newArrivals ps t idx).length)).arrival_time) := by
  obtain ⟨k, h1, h2, h3, h4⟩ := arrivalsFrom_spec ps t (ps.length - idx) idx rfl
  have hk : (newArrivals ps t idx).length = k := by
    unfold newArrivals; rw [h1]; simp
  rw [hk]
  refine ⟨h1, ?_, h3, h4⟩
  rw [max_eq_right hidx] at h2
  exact h2

theorem mem_newArrivals (ps : List Process) (t : Int) (idx : Nat) (hidx : idx ≤ ps.length)
    (j : Nat) : j ∈ newArrivals ps t idx ↔ idx ≤ j ∧ j < idx + (newArrivals ps t idx).length := by
  have h := (newArrivals_spec ps t idx hidx).1
  constructor
  · intro hj
    rw [h] at hj
    simpa [List.mem_range'_1] using hj
  · intro hj
    rw [h]
    simpa [List.mem_range'_1] using hj

theorem nodup_newArrivals (ps : List Process) (t : Int) (idx : Nat) (hidx : idx ≤ ps.length) :
    (newArrivals ps t idx).Nodup := by
  rw [(newArrivals_spec ps t idx hidx).1]
  exact List.nodup_range' _ _

theorem newArrivals_ne_nil (ps : List Process) (t : Int) (idx : Nat) (h : idx < ps.length)
    (ht : (procAt ps idx).arrival_time ≤ t) : newArrivals ps t idx ≠ [] := by
  unfold newArrivals
  obtain ⟨f, hf⟩ : ∃ f, ps.length - idx = f + 1 := ⟨ps.length - idx - 1, by omega⟩
  rw [hf]
  simp [arrivalsFrom, h, ht]

theorem newArrivals_eq_nil (ps : List Process) (t : Int) (idx : Nat) (hidx : idx ≤ ps.length)
    (h : newArrivals ps t idx = []) (hlt : idx < ps.length) :
    t < (procAt ps idx).arrival_time := by
  have := (newArrivals_spec ps t idx hidx).2.2.2
  rw [h] at this
  simpa using this (by simpa using hlt)

/-! ## The accounting and admission invariants -/

theorem Static_refl (p : Process) : Static p p := ⟨rfl, rfl, rfl, rfl, rfl⟩

theorem Static_trans {p q r : Process} (h1 : Static p q) (h2 : Static q r) : Static p r := by
  obtain ⟨a1, a2, a3, a4, a5⟩ := h1
  obtain ⟨b1, b2, b3, b4, b5⟩ := h2
  exact ⟨b1.trans a1, b2.trans a2, b3.trans a3, b4.trans a4, b5.trans a5⟩

theorem RunsTo_of_modifyAt (ps : List Process) (i : Nat) (s : Int) (f : Process → Process)
    (hi : i < ps.length) (hst : ∀ p, Static p (f p))
    (hrem : ∀ p, (f p).remaining_time = p.remaining_time - s) :
    RunsTo ps (modifyAt ps i f) i s := by
  refine ⟨by simp, hi, ?_, ?_, ?_⟩
  · intro j hj; exact procAt_modifyAt_ne ps i j f hj
  · rw [procAt_modifyAt_eq ps i f hi]; exact hst _
  · rw [procAt_modifyAt_eq ps i f hi]; exact hrem _

theorem RunsTo_then_modifyAt {ps qs : List Process} {i : Nat} {s : Int} (h : RunsTo ps qs i s)
    (f : Process → Process) (hst : ∀ p, Static p (f p))
    (hrem : ∀ p, (f p).remaining_time = p.remaining_time) :
    RunsTo ps (modifyAt qs i f) i s := by
  obtain ⟨h1, h2, h3, h4, h5⟩ := h
  refine ⟨by simp [h1], h2, ?_, ?_, ?_⟩
  · intro j hj; rw [procAt_modifyAt_ne qs i j f hj]; exact h3 j hj
  · rw [procAt_modifyAt_eq qs i f (by omega)]; exact Static_trans h4 (hst _)
  · rw [procAt_modifyAt_eq qs i f (by omega), hrem]; exact h5

theorem static_decRemaining (s : Int) (p : Process) : Static p (decRemaining s p) :=
  ⟨rfl, rfl, rfl, rfl, rfl⟩

theorem static_setMetrics (t : Int) (p : Process) : Static p (setMetrics t p) :=
  ⟨rfl, rfl, rfl, rfl, rfl⟩

theorem static_CFS_charge (s : Int) (p : Process) : Static p (CFS_charge s p) :=
  ⟨rfl, rfl, rfl, rfl, rfl⟩

theorem RunsTo_dec (ps : List Process) (i : Nat) (s : Int) (hi : i < ps.length) :
    RunsTo ps (modifyAt ps i (decRemaining s)) i s :=
  RunsTo_of_modifyAt ps i s _ hi (static_decRemaining s) (fun _ => rfl)

theorem Acct_mono {ps : List Process} {c : Nat → Int} {t u : Int} (h : Acct ps c t)
    (htu : t ≤ u) : Acct ps c u := by
  refine ⟨le_trans h.1 htu, ?_⟩
  intro i hi
  obtain ⟨a1, a3, a4, a5, a6⟩ := h.2 i hi
  refine ⟨a1, a3, a4, ?_, ?_⟩
  · intro hlt; have := a5 hlt; omega
  · intro h0; have := a6 h0; exact ⟨this.1, by omega⟩

theorem Acct_run {ps qs : List Process} {c d : Nat → Int} {t : Int} {i : Nat} {s : Int}
    (h : Acct ps c t) (hr : RunsTo ps qs i s) (harr : (procAt ps i).arrival_time ≤ t)
    (hs : 0 < s) (hs2 : s ≤ (procAt ps i).remaining_time)
    (hc : ∀ j, j ≠ i → d j = c j)
    (hci : (procAt ps i).remaining_time - s = 0 → d i = t + s) :
    Acct qs d (t + s) := by
  obtain ⟨hlen, hi, hoth, hst, hrem⟩ := hr
  obtain ⟨e1, e2, e3, e4, e5⟩ := hst
  refine ⟨by have := h.1; omega, ?_⟩
  intro j hj
  rw [hlen] at hj
  obtain ⟨a1, a3, a4, a5, a6⟩ := h.2 j hj
  by_cases hji : j = i
  · subst hji
    rw [e2, e3, hrem]
    refine ⟨a1, by omega, by omega, ?_, ?_⟩
    · intro _
      by_cases hlt : (procAt ps j).remaining_time < (procAt ps j).burst_time
      · have := a5 hlt; omega
      · omega
    · intro h0
      rw [hci h0]
      refine ⟨?_, le_refl _⟩
      by_cases hlt : (procAt ps j).remaining_time < (procAt ps j).burst_time
      · have := a5 hlt; omega
      · omega
  · rw [hoth j hji, hc j hji]
    refine ⟨a1, a3, a4, ?_, ?_⟩
    · intro hlt; have := a5 hlt; omega
    · intro h0; have := a6 h0; exact ⟨this.1, by omega⟩

theorem Adm_mono {ps : List Process} {t u : Int} {idx : Nat} {m : List Nat}
    (h : Adm ps t idx m) (htu : t ≤ u) : Adm ps u idx m := by
  obtain ⟨h1, h2, h3, h4, h5⟩ := h
  exact ⟨h1, h2, fun i hi => le_trans (h3 i hi) htu, h4, h5⟩

theorem Adm_perm {ps : List Process} {t : Int} {idx : Nat} {m m2 : List Nat}
    (h : Adm ps t idx m) (hp : List.Perm m m2) : Adm ps t idx m2 := by
  obtain ⟨h1, h2, h3, h4, h5⟩ := h
  exact ⟨h1, h2, h3, hp.nodup_iff.mp h4, fun i => by rw [← hp.mem_iff]; exact h5 i⟩

theorem Adm_admit {ps : List Process} {t : Int} {idx : Nat} {m : List Nat}
    (h : Adm ps t idx m) (hb : ∀ i, i < ps.length → 0 < (procAt ps i).burst_time) :
    Adm ps t (idx + (newArrivals ps t idx).length) (m ++ newArrivals ps t idx) := by
  obtain ⟨h1, h2, h3, h4, h5⟩ := h
  obtain ⟨s1, s2, s3, s4⟩ := newArrivals_spec ps t idx h1
  refine ⟨s2, ?_, ?_, ?_, ?_⟩
  · intro i hi1 hi2; exact h2 i (by omega) hi2
  · intro i hi
    by_cases hlt : i < idx
    · exact h3 i hlt
    · exact s3 i (by omega) hi
  · rw [List.nodup_append]
    refine ⟨h4, nodup_newArrivals ps t idx h1, ?_⟩
    intro a ha hb2
    have := (h5 a).mp ha
    have := (mem_newArrivals ps t idx h1 a).mp hb2
    omega
  · intro i
    rw [List.mem_append, h5, mem_newArrivals ps t idx h1]
    constructor
    · rintro (⟨a, b⟩ | ⟨a, b⟩)
      · exact ⟨by omega, b⟩
      · refine ⟨b, ?_⟩
        rw [h2 i a (by omega)]
        exact hb i (by omega)
    · rintro ⟨a, b⟩
      by_cases hlt : i < idx
      · exact Or.inl ⟨hlt, b⟩
      · exact Or.inr ⟨by omega, a⟩

theorem Adm_run {ps qs : List Process} {t u : Int} {idx i : Nat} {s : Int} {rest : List Nat}
    (h : Adm ps t idx (i :: rest)) (hr : RunsTo ps qs i s) (htu : t ≤ u) :
    Adm qs u idx (if 0 < (procAt ps i).remaining_time - s then i :: rest else rest) := by
  obtain ⟨h1, h2, h3, h4, h5⟩ := h
  obtain ⟨hlen, hi, hoth, hst, hrem⟩ := hr
  obtain ⟨e1, e2, e3, e4, e5⟩ := hst
  have hiidx : i < idx := ((h5 i).mp (List.mem_cons_self i rest)).1
  have hnd := List.nodup_cons.mp h4
  refine ⟨by omega, ?_, ?_, ?_, ?_⟩
  · intro j hj1 hj2
    rw [hoth j (by omega)]
    exact h2 j hj1 (by omega)
  · intro j hj
    by_cases hji : j = i
    · subst hji; rw [e2]; exact le_trans (h3 j hj) htu
    · rw [hoth j hji]; exact le_trans (h3 j hj) htu
  · split
    · exact h4
    · exact hnd.2
  · intro j
    by_cases hji : j = i
    · subst hji
      rw [hrem]
      split
      · rename_i hpos
        simp [hiidx, hpos]
      · rename_i hpos
        simp [hnd.1, hpos]
    · rw [hoth j hji, ← h5 j]
      split <;> simp [hji]

/-! ## Timeline sums -/

@[simp] theorem segSum_nil (id : String) : segSum id [] = 0 := rfl

@[simp] theorem nonIdleSum_nil : nonIdleSum [] = 0 := rfl

theorem segSum_append (id : String) (g h : Gantt) :
    segSum id (g ++ h) = segSum id g + segSum id h := by
  simp [segSum, List.filter_append]

theorem nonIdleSum_append (g h : Gantt) :
    nonIdleSum (g ++ h) = nonIdleSum g + nonIdleSum h := by
  simp [nonIdleSum, List.filter_append]

theorem ganttTotal_append (g h : Gantt) :
    ganttTotal (g ++ h) = ganttTotal g + ganttTotal h := by
  simp [ganttTotal]

theorem segSum_single (id l : String) (d : Int) :
    segSum id [(l, d)] = if l = id then d else 0 := by
  by_cases h : l = id <;> simp [segSum, List.filter, h]

theorem nonIdleSum_single (l : String) (d : Int) :
    nonIdleSum [(l, d)] = if l = "IDLE" then 0 else d := by
  by_cases h : l = "IDLE" <;> simp [nonIdleSum, List.filter, h]

theorem segSum_snoc (id l : String) (d : Int) (g : Gantt) :
    segSum id (g ++ [(l, d)]) = segSum id g + if l = id then d else 0 := by
  rw [segSum_append, segSum_single]

theorem nonIdleSum_snoc (l : String) (d : Int) (g : Gantt) :
    nonIdleSum (g ++ [(l, d)]) = nonIdleSum g + if l = "IDLE" then 0 else d := by
  rw [nonIdleSum_append, nonIdleSum_single]

/-! ## Pointwise facts about process vectors -/

theorem map_eq_of_pointwise {α : Type} (g : Process → α) :
    ∀ (ps qs : List Process), qs.length = ps.length →
      (∀ j, j < ps.length → g (procAt qs j) = g (procAt ps j)) → qs.map g = ps.map g := by
  intro ps
  induction ps with
  | nil => intro qs h _; simp at h; simp [h]
  | cons p rest ih =>
    intro qs hlen h
    cases qs with
    | nil => simp at hlen
    | cons q qrest =>
      simp only [List.length_cons, Nat.add_right_cancel_iff] at hlen
      have h0 := h 0 (by simp)
      simp only [procAt, List.getD_cons_zero] at h0
      have := ih qrest hlen (by
        intro j hj
        have := h (j + 1) (by simpa using hj)
        simpa [procAt] using this)
      simp [h0, this]

theorem procAt_map (ps : List Process) (f : Process → Process) (i : Nat) (h : i < ps.length) :
    procAt (ps.map f) i = f (procAt ps i) := by
  unfold procAt
  rw [List.getD_eq_getElem _ _ (by simpa using h), List.getD_eq_getElem _ _ h]
  simp

theorem ids_injective (ps : List Process) (h : (ps.map (fun p => p.id)).Nodup) (i j : Nat)
    (hi : i < ps.length) (hj : j < ps.length) (he : (procAt ps i).id = (procAt ps j).id) :
    i = j := by
  have hi2 : i < (ps.map (fun p => p.id)).length := by simpa using hi
  have hj2 : j < (ps.map (fun p => p.id)).length := by simpa using hj
  have h1 : (ps.map (fun p => p.id))[i] = (procAt ps i).id := by
    unfold procAt; rw [List.getD_eq_getElem _ _ hi]; simp
  have h2 : (ps.map (fun p => p.id))[j] = (procAt ps j).id := by
    unfold procAt; rw [List.getD_eq_getElem _ _ hj]; simp
  exact (List.Nodup.getElem_inj_iff h).mp (by rw [h1, h2, he])

theorem RunsTo_static_all {ps qs : List Process} {i : Nat} {s : Int} (h : RunsTo ps qs i s) :
    ∀ j, Static (procAt ps j) (procAt qs j) := by
  intro j
  by_cases hj : j = i
  · subst hj; exact h.2.2.2.1
  · rw [h.2.2.1 j hj]; exact Static_refl _

theorem RunsTo_map_id {ps qs : List Process} {i : Nat} {s : Int} (h : RunsTo ps qs i s) :
    qs.map (fun p => p.id) = ps.map (fun p => p.id) :=
  map_eq_of_pointwise _ ps qs h.1 (fun j _ => (RunsTo_static_all h j).1)

theorem RunsTo_map_burst {ps qs : List Process} {i : Nat} {s : Int} (h : RunsTo ps qs i s) :
    qs.map (fun p => p.burst_time) = ps.map (fun p => p.burst_time) :=
  map_eq_of_pointwise _ ps qs h.1 (fun j _ => (RunsTo_static_all h j).2.2.1)

theorem RunsTo_map_arrival {ps qs : List Process} {i : Nat} {s : Int} (h : RunsTo ps qs i s) :
    qs.map (fun p => p.arrival_time) = ps.map (fun p => p.arrival_time) :=
  map_eq_of_pointwise _ ps qs h.1 (fun j _ => (RunsTo_static_all h j).2.1)

theorem RunsTo_sum_rem {ps qs : List Process} {i : Nat} {s : Int} (h : RunsTo ps qs i s) :
    (qs.map (fun p => p.remaining_time)).sum = (ps.map (fun p => p.remaining_time)).sum - s := by
  have := sum_map_pointwise (fun p => p.remaining_time) ps qs i h.1 h.2.1 h.2.2.1
  simp only at this
  rw [h.2.2.2.2] at this
  omega

theorem RunsTo_remSum_lt {ps qs : List Process} {i : Nat} {s : Int} (h : RunsTo ps qs i s)
    (hs : 0 < s) (hs2 : s ≤ (procAt ps i).remaining_time) :
    remSum qs + s.toNat = remSum ps := by
  have := sum_map_pointwise (fun p => p.remaining_time.toNat) ps qs i h.1 h.2.1 h.2.2.1
  simp only at this
  rw [h.2.2.2.2] at this
  unfold remSum
  omega

theorem IdsOK_run {ps qs : List Process} {i : Nat} {s : Int} (h : IdsOK ps)
    (hr : RunsTo ps qs i s) : IdsOK qs := by
  refine ⟨by rw [RunsTo_map_id hr]; exact h.1, ?_⟩
  intro j hj
  rw [(RunsTo_static_all hr j).1]
  exact h.2 j (by rw [← hr.1]; exact hj)

theorem IdsOK_back {ps qs : List Process} {i : Nat} {s : Int} (h : IdsOK qs)
    (hr : RunsTo ps qs i s) : IdsOK ps := by
  refine ⟨by rw [← RunsTo_map_id hr]; exact h.1, ?_⟩
  intro j hj
  rw [← (RunsTo_static_all hr j).1]
  exact h.2 j (by rw [hr.1]; exact hj)

theorem GInv_idle {ps : List Process} {g g2 : Gantt} (h : GInv ps g)
    (h1 : ∀ i, i < ps.length → segSum (procAt ps i).id g2 = segSum (procAt ps i).id g)
    (h2 : nonIdleSum g2 = nonIdleSum g) : GInv ps g2 := by
  refine ⟨fun i hi => ?_, ?_⟩
  · rw [h1 i hi]; exact h.1 i hi
  · rw [h2]; exact h.2

theorem GInv_run {ps qs : List Process} {g g2 : Gantt} {i : Nat} {s : Int} (h : GInv ps g)
    (hids : IdsOK ps) (hr : RunsTo ps qs i s)
    (h1 : ∀ id, segSum id g2 = segSum id g + if (procAt ps i).id = id then s else 0)
    (h2 : nonIdleSum g2 = nonIdleSum g + s) : GInv qs g2 := by
  have hlen := hr.1
  refine ⟨fun j hj => ?_, ?_⟩
  · rw [hlen] at hj
    have hg := h.1 j hj
    by_cases hji : j = i
    · subst hji
      obtain ⟨e1, e2, e3, e4, e5⟩ := hr.2.2.2.1
      rw [e1, e3, hr.2.2.2.2, h1]
      simp only [if_true]
      omega
    · rw [hr.2.2.1 j hji, h1]
      have : (procAt ps i).id ≠ (procAt ps j).id := by
        intro he
        exact hji (ids_injective ps hids.1 i j hr.2.1 hj he).symm
      simp only [this, if_false]
      omega
  · rw [h2, RunsTo_sum_rem hr]
    have := h.2
    unfold totalBurst at this ⊢
    rw [RunsTo_map_burst hr]
    omega

/-! ## Frames, steps and small list facts -/

theorem Frame_run {ps0 ps qs : List Process} {i : Nat} {s : Int} (h : Frame ps0 ps)
    (hr : RunsTo ps qs i s) : Frame ps0 qs := by
  refine ⟨hr.1.trans h.1, ?_⟩
  intro j hj
  obtain ⟨a1, a2, a3⟩ := h.2 j hj
  obtain ⟨b1, b2, b3, _, _⟩ := RunsTo_static_all hr j
  exact ⟨b1.trans a1, b2.trans a2, b3.trans a3⟩

theorem StepOK_same (ps : List Process) (c : Nat → Int) (u : Int) : StepOK ps ps c c u := by
  intro i hi
  refine ⟨le_refl _, fun _ => rfl, ?_⟩
  intro h1 h2
  omega

theorem StepOK_run {ps qs : List Process} {c d : Nat → Int} {t : Int} {i : Nat} {s : Int}
    (hr : RunsTo ps qs i s) (hs : 0 < s) (hs2 : s ≤ (procAt ps i).remaining_time)
    (hc : ∀ j, j ≠ i → d j = c j)
    (hci : (procAt ps i).remaining_time - s = 0 → d i = t + s) :
    StepOK ps qs c d (t + s) := by
  intro j hj
  by_cases hji : j = i
  · subst hji
    rw [hr.2.2.2.2]
    refine ⟨by omega, ?_, ?_⟩
    · intro h0; omega
    · intro _ h0; exact hci h0
  · rw [hr.2.2.1 j hji]
    refine ⟨le_refl _, fun _ => hc j hji, ?_⟩
    intro h1 h2
    omega

theorem perm_cons_eraseIdx (l : List Nat) (pos : Nat) (h : pos < l.length) :
    List.Perm l (l.getD pos 0 :: l.eraseIdx pos) := by
  induction l generalizing pos with
  | nil => simp at h
  | cons a rest ih =>
    cases pos with
    | zero => simp
    | succ pos =>
      have := ih pos (by simpa using h)
      simp only [List.getD_cons_succ, List.eraseIdx_cons_succ]
      exact (List.Perm.cons a this).trans (List.Perm.swap _ _ _)

theorem compClock_set (comp : List Int) (p j : Nat) (v : Int) (hp : p < comp.length) :
    compClock (comp.set p v) j = if j = p then v else compClock comp j := by
  unfold compClock
  by_cases h : j = p
  · subst h
    simp [List.getD_eq_getElem?_getD, hp]
  · simp [List.getD_eq_getElem?_getD, List.getElem?_set, h, Ne.symm h]

theorem remSum_initial (ps qs : List Process) (hlen : qs.length = ps.length)
    (h : ∀ j, j < ps.length → (procAt qs j).remaining_time = (procAt ps j).burst_time) :
    2 * remSum qs + 1 ≤ fuelBound ps := by
  unfold remSum fuelBound
  have : qs.map (fun p => p.remaining_time.toNat) = ps.map (fun p => p.burst_time.toNat) := by
    apply List.ext_getElem (by simpa using hlen)
    intro j h1 h2
    simp only [List.length_map] at h1 h2
    have := h j h2
    unfold procAt at this
    rw [List.getD_eq_getElem _ _ h1, List.getD_eq_getElem _ _ h2] at this
    simp [this]
  rw [this]

theorem idleFlag_le (ps : List Process) (t : Int) (idx : Nat) (rq : List Nat) :
    idleFlag ps t idx rq ≤ 1 := by
  unfold idleFlag; split <;> simp

/-- Facts about a start vector `qs` that copies `burst_time` into `remaining_time`. -/
theorem start_facts (ps qs : List Process) (c : Nat → Int)
    (hb : ∀ p, p ∈ ps → 0 < p.burst_time)
    (hlen : qs.length = ps.length)
    (h : ∀ j, j < ps.length → SameJob (procAt ps j) (procAt qs j) ∧
      (procAt qs j).remaining_time = (procAt ps j).burst_time) :
    Frame ps qs ∧ Acct qs c 0 ∧ Adm qs 0 0 [] ∧ TInv qs [] ∧ LastDone qs c 0 := by
  have hv : ∀ j, j < ps.length → 0 < (procAt ps j).burst_time :=
    fun j hj => hb _ (procAt_mem ps j hj)
  refine ⟨⟨hlen, fun j hj => (h j hj).1⟩, ⟨le_refl _, ?_⟩, ?_, ?_, ?_⟩
  · intro j hj
    rw [hlen] at hj
    obtain ⟨⟨e1, e2, e3⟩, e4⟩ := h j hj
    have v3 := hv j hj
    rw [e2, e3, e4]
    refine ⟨v3, by omega, le_refl _, ?_, ?_⟩
    · intro hlt; omega
    · intro h0; omega
  · refine ⟨Nat.zero_le _, ?_, ?_, List.nodup_nil, ?_⟩
    · intro j _ hj
      rw [hlen] at hj
      obtain ⟨⟨e1, e2, e3⟩, e4⟩ := h j hj
      rw [e3, e4]
    · intro j hj; omega
    · intro j; simp
  · intro _
    refine ⟨?_, ?_⟩
    · intro j hj
      rw [hlen] at hj
      obtain ⟨⟨e1, e2, e3⟩, e4⟩ := h j hj
      rw [e3, e4]; simp
    · unfold totalBurst
      have : qs.map (fun p => p.remaining_time) = qs.map (fun p => p.burst_time) := by
        apply List.map_congr_left
        intro a ha
        obtain ⟨j, hj, rfl⟩ := exists_procAt_of_mem qs a ha
        rw [hlen] at hj
        obtain ⟨⟨e1, e2, e3⟩, e4⟩ := h j hj
        rw [e3, e4]
      rw [this]; simp
  · by_cases hnil : qs = []
    · exact Or.inl hnil
    · right; left
      rw [anyLeft_eq_true]
      have hpos : 0 < qs.length := List.length_pos.mpr hnil
      refine ⟨0, hpos, ?_⟩
      rw [hlen] at hpos
      rw [(h 0 hpos).2]
      exact hv 0 hpos

/-! ## One dispatch, one idle jump -/

theorem LastDone_run {ps qs : List Process} {d : Nat → Int} {t : Int} {i : Nat} {s : Int}
    (hr : RunsTo ps qs i s) (hs2 : s ≤ (procAt ps i).remaining_time)
    (hci : (procAt ps i).remaining_time - s = 0 → d i = t + s) : LastDone qs d (t + s) := by
  right
  by_cases h0 : (procAt ps i).remaining_time - s = 0
  · right
    exact ⟨i, by rw [hr.1]; exact hr.2.1, by rw [hr.2.2.2.2]; exact h0, hci h0⟩
  · left
    rw [anyLeft_eq_true]
    exact ⟨i, by rw [hr.1]; exact hr.2.1, by rw [hr.2.2.2.2]; omega⟩

theorem dispatch_core {ps ps1 : List Process} {c d : Nat → Int} {t : Int} {idx p : Nat}
    {rest m : List Nat} {slice : Int}
    (hacct : Acct ps c t) (hadm : Adm ps t idx (p :: rest)) (hr : RunsTo ps ps1 p slice)
    (hs : 0 < slice) (hs2 : slice ≤ (procAt ps p).remaining_time)
    (hc : ∀ j, j ≠ p → d j = c j)
    (hci : (procAt ps p).remaining_time - slice = 0 → d p = t + slice)
    (hfinal : List.Perm
      ((if 0 < (procAt ps p).remaining_time - slice then p :: rest else rest)
        ++ newArrivals ps1 (t + slice) idx) m) :
    Acct ps1 d (t + slice) ∧
      Adm ps1 (t + slice) (idx + (newArrivals ps1 (t + slice) idx).length) m ∧
      StepOK ps ps1 c d (t + slice) ∧ remSum ps1 + slice.toNat = remSum ps ∧
      LastDone ps1 d (t + slice) := by
  have hp : p < idx ∧ 0 < (procAt ps p).remaining_time :=
    (hadm.2.2.2.2 p).mp (List.mem_cons_self p rest)
  have harr : (procAt ps p).arrival_time ≤ t := hadm.2.2.1 p hp.1
  have hA := Acct_run hacct hr harr hs hs2 hc hci
  have hM := Adm_run hadm hr (show t ≤ t + slice by omega)
  have hM2 := Adm_admit hM (fun i hi => (hA.2 i hi).1)
  exact ⟨hA, Adm_perm hM2 hfinal, StepOK_run hr hs hs2 hc hci, RunsTo_remSum_lt hr hs hs2,
    LastDone_run hr hs2 hci⟩

theorem idx_lt_of_left {ps : List Process} {t : Int} {idx : Nat}
    (hadm : Adm ps t idx []) (hleft : anyLeft ps = true) : idx < ps.length := by
  obtain ⟨i, hi, hrem⟩ := (anyLeft_eq_true ps).mp hleft
  by_contra hcon
  have : i ∈ ([] : List Nat) := (hadm.2.2.2.2 i).mpr ⟨by omega, hrem⟩
  simp at this

theorem idle_core {ps : List Process} {c : Nat → Int} {t : Int} {idx : Nat}
    (hacct : Acct ps c t) (hadm : Adm ps t idx []) (hidx : idx < ps.length)
    (hnew : newArrivals ps t idx = []) :
    t < (procAt ps idx).arrival_time ∧
      Acct ps c (procAt ps idx).arrival_time ∧ Adm ps (procAt ps idx).arrival_time idx [] ∧
      idleFlag ps (procAt ps idx).arrival_time idx [] = 0 ∧ idleFlag ps t idx [] = 1 ∧
      anyLeft ps = true := by
  have hlt := newArrivals_eq_nil ps t idx hadm.1 hnew hidx
  refine ⟨hlt, Acct_mono hacct (le_of_lt hlt), Adm_mono hadm (le_of_lt hlt), ?_, ?_, ?_⟩
  · unfold idleFlag
    have := newArrivals_ne_nil ps (procAt ps idx).arrival_time idx hidx (le_refl _)
    simp [this]
  · unfold idleFlag
    simp [hnew]
  · rw [anyLeft_eq_true]
    refine ⟨idx, hidx, ?_⟩
    rw [hadm.2.1 idx (le_refl _) hidx]
    exact (hacct.2 idx hidx).1

theorem GInv_idle_snoc {ps : List Process} {g : Gantt} (h : GInv ps g) (hids : IdsOK ps)
    (d : Int) : GInv ps (g ++ [("IDLE", d)]) := by
  apply GInv_idle h
  · intro i hi
    rw [segSum_snoc]
    have := (hids.2 i hi).1
    simp [Ne.symm this]
  · rw [nonIdleSum_snoc]; simp

theorem GInv_run_snoc {ps qs : List Process} {g : Gantt} {i : Nat} {s : Int} (h : GInv ps g)
    (hids : IdsOK ps) (hr : RunsTo ps qs i s) :
    GInv qs (g ++ [((procAt ps i).id, s)]) := by
  apply GInv_run h hids hr
  · intro id; rw [segSum_snoc]
  · rw [nonIdleSum_snoc]
    have := (hids.2 i hr.2.1).1
    simp [this]

theorem TInv_idle_snoc {ps : List Process} {g : Gantt} (h : TInv ps g) (d : Int) :
    TInv ps (g ++ [("IDLE", d)]) :=
  fun hq => GInv_idle_snoc (h hq) hq d

theorem TInv_run_snoc {ps qs : List Process} {g : Gantt} {i : Nat} {s : Int} (h : TInv ps g)
    (hr : RunsTo ps qs i s) : TInv qs (g ++ [((procAt ps i).id, s)]) :=
  fun hq => GInv_run_snoc (h (IdsOK_back hq hr)) (IdsOK_back hq hr) hr

/-! ## CFS -/

theorem CFS_step (sel : List Process → List Nat → Nat) (ps0 : List Process) (s : CFSState)
    (h : CFSInv ps0 s) (hc : anyLeft s.ps = true) :
    (CFSInv ps0 (CFS_body sel s) ∧ CFS_measure (CFS_body sel s) < CFS_measure s) ∧
      StepOK s.ps (CFS_body sel s).ps (compClock s.comp) (compClock (CFS_body sel s).comp)
        (CFS_body sel s).t := by
  obtain ⟨hfr, hacct, hadm, hg, hgt, hcl, hld⟩ := h
  have hb : ∀ i, i < s.ps.length → 0 < (procAt s.ps i).burst_time := fun i hi => (hacct.2 i hi).1
  have hadm1 := Adm_admit hadm hb
  by_cases hrq : (s.rq ++ newArrivals s.ps s.t s.idx) = []
  · -- idle gap
    obtain ⟨hrq1, hnew⟩ := List.append_eq_nil.mp hrq
    rw [hrq1] at hadm
    have i1 := idx_lt_of_left hadm hc
    obtain ⟨i2, i3, i4, i5, i6, _⟩ := idle_core hacct hadm i1 hnew
    have hbody : CFS_body sel s =
        { s with gantt := s.gantt ++ [("IDLE", (procAt s.ps s.idx).arrival_time - s.t)],
                 t := (procAt s.ps s.idx).arrival_time } := by
      unfold CFS_body
      simp [hrq1, hnew, i1]
    rw [hbody]
    refine ⟨⟨⟨hfr, i3, by rw [hrq1]; exact i4, TInv_idle_snoc hg _, ?_, hcl,
      Or.inr (Or.inl hc)⟩, ?_⟩, StepOK_same _ _ _⟩
    · simp only [ganttTotal_append, hgt]
      simp [ganttTotal]
    · unfold CFS_measure
      simp only [hrq1, i5, i6]
      omega
  · -- dispatch
    have hne : (s.rq ++ newArrivals s.ps s.t s.idx).isEmpty = false := by
      simpa [List.isEmpty_iff] using hrq
    unfold CFS_body
    simp only [hne, Bool.false_eq_true, if_false]
    generalize hrq1 : s.rq ++ newArrivals s.ps s.t s.idx = rq1 at *
    have hlenpos : 0 < rq1.length := List.length_pos.mpr hrq
    generalize hposd : min (sel s.ps rq1) (rq1.length - 1) = pos at *
    have hpos : pos < rq1.length := by rw [← hposd]; omega
    generalize hpd : rq1.getD pos 0 = p at *
    have hperm : List.Perm rq1 (p :: rq1.eraseIdx pos) := by
      rw [← hpd]; exact perm_cons_eraseIdx rq1 pos hpos
    have hadm2 := Adm_perm hadm1 hperm
    have hp : p < s.idx + (newArrivals s.ps s.t s.idx).length ∧ 0 < (procAt s.ps p).remaining_time :=
      (hadm2.2.2.2.2 p).mp (List.mem_cons_self p _)
    have hpn : p < s.ps.length := lt_of_lt_of_le hp.1 hadm2.1
    generalize hsl : min 2 (procAt s.ps p).remaining_time = slice at *
    have hs : 0 < slice := by rw [← hsl]; omega
    have hs2 : slice ≤ (procAt s.ps p).remaining_time := by rw [← hsl]; omega
    have hr : RunsTo s.ps (modifyAt (modifyAt s.ps p (decRemaining slice)) p (CFS_charge slice))
        p slice :=
      RunsTo_then_modifyAt (RunsTo_dec s.ps p slice hpn) _ (static_CFS_charge slice)
        (fun _ => rfl)
    generalize hps1 : modifyAt (modifyAt s.ps p (decRemaining slice)) p (CFS_charge slice) = ps1 at *
    have hrem1 : (procAt ps1 p).remaining_time = (procAt s.ps p).remaining_time - slice :=
      hr.2.2.2.2
    have hcc : ∀ j, j ≠ p →
        compClock (if (procAt ps1 p).remaining_time = 0 then s.comp.set p (s.t + slice)
          else s.comp) j = compClock s.comp j := by
      intro j hj
      split
      · rw [compClock_set _ _ _ _ (by omega)]; simp [hj]
      · rfl
    have hci : (procAt s.ps p).remaining_time - slice = 0 →
        compClock (if (procAt ps1 p).remaining_time = 0 then s.comp.set p (s.t + slice)
          else s.comp) p = s.t + slice := by
      intro h0
      rw [if_pos (by rw [hrem1]; exact h0), compClock_set _ _ _ _ (by omega)]
      simp
    have hfinal : List.Perm
        ((if 0 < (procAt s.ps p).remaining_time - slice then p :: rq1.eraseIdx pos
            else rq1.eraseIdx pos)
          ++ newArrivals ps1 (s.t + slice) (s.idx + (newArrivals s.ps s.t s.idx).length))
        (if (procAt ps1 p).remaining_time = 0 then
          rq1.eraseIdx pos ++
            newArrivals ps1 (s.t + slice) (s.idx + (newArrivals s.ps s.t s.idx).length)
         else rq1.eraseIdx pos ++
            newArrivals ps1 (s.t + slice) (s.idx + (newArrivals s.ps s.t s.idx).length)
            ++ [p]) := by
      rw [hrem1]
      by_cases h0 : (procAt s.ps p).remaining_time - slice = 0
      · rw [if_neg (by omega), if_pos h0]
      · rw [if_pos (by omega), if_neg h0]
        rw [List.cons_append]
        exact List.perm_append_singleton p _ |>.symm
    obtain ⟨d1, d2, d3, d4, d5⟩ := dispatch_core hacct hadm2 hr hs hs2 hcc hci hfinal
    refine ⟨⟨⟨Frame_run hfr hr, d1, d2, TInv_run_snoc hg hr, ?_, ?_, d5⟩,
      ?_⟩, d3⟩
    · simp only [ganttTotal_append, hgt]
      simp [ganttTotal]
    · show (if (procAt ps1 p).remaining_time = 0 then s.comp.set p (s.t + slice)
          else s.comp).length = ps1.length
      rw [hr.1]
      split <;> simp [hcl]
    · unfold CFS_measure
      have := idleFlag_le ps1 (s.t + slice)
        (s.idx + (newArrivals s.ps s.t s.idx).length +
          (newArrivals ps1 (s.t + slice) (s.idx + (newArrivals s.ps s.t s.idx).length)).length)
        (if (procAt ps1 p).remaining_time = 0 then
          rq1.eraseIdx pos ++
            newArrivals ps1 (s.t + slice) (s.idx + (newArrivals s.ps s.t s.idx).length)
         else rq1.eraseIdx pos ++
            newArrivals ps1 (s.t + slice) (s.idx + (newArrivals s.ps s.t s.idx).length)
            ++ [p])
      simp only
      omega

/-! ## EDF -/

theorem finalizeBlock_closed (start now : Int) (g : Gantt) : finalizeBlock "" start now g = g := by
  simp [finalizeBlock]

theorem finalizeBlock_none (id : String) (now : Int) (g : Gantt) :
    finalizeBlock id (-1) now g = g := by
  simp [finalizeBlock]

theorem finalizeBlock_open (id : String) (start now : Int) (g : Gantt) (h1 : id ≠ "")
    (h2 : 0 ≤ start) (h3 : start < now) :
    finalizeBlock id start now g = g ++ [(id, now - start)] := by
  unfold finalizeBlock
  rw [if_pos]
  exact ⟨by omega, h1, h3⟩

theorem block_extend (last pid : String) (start t : Int) (g : Gantt) (hb : BlockOK last start t)
    (ht : 0 ≤ t) (hpid : pid ≠ "") :
    (∀ id, segSum id (finalizeBlock pid (if last ≠ pid then t else start) (t + 1)
        (if last ≠ pid then finalizeBlock last start t g else g))
      = segSum id (finalizeBlock last start t g) + if pid = id then 1 else 0) ∧
    nonIdleSum (finalizeBlock pid (if last ≠ pid then t else start) (t + 1)
        (if last ≠ pid then finalizeBlock last start t g else g))
      = nonIdleSum (finalizeBlock last start t g) + (if pid = "IDLE" then 0 else 1) ∧
    ganttTotal (finalizeBlock pid (if last ≠ pid then t else start) (t + 1)
        (if last ≠ pid then finalizeBlock last start t g else g))
      = ganttTotal (finalizeBlock last start t g) + 1 ∧
    BlockOK pid (if last ≠ pid then t else start) (t + 1) := by
  by_cases hl : last = pid
  · subst hl
    have hopen : 0 ≤ start ∧ start < t := by
      rcases hb with ⟨h1, _⟩ | ⟨_, h2, h3⟩
      · exact absurd h1 hpid
      · exact ⟨h2, h3⟩
    simp only [ne_eq, not_true_eq_false, if_false]
    rw [finalizeBlock_open _ _ _ _ hpid hopen.1 (by omega),
      finalizeBlock_open _ _ _ _ hpid hopen.1 hopen.2]
    refine ⟨?_, ?_, ?_, Or.inr ⟨hpid, hopen.1, by omega⟩⟩
    · intro id
      rw [segSum_snoc, segSum_snoc]
      by_cases h : last = id
      · simp [h]; omega
      · simp [h]
    · rw [nonIdleSum_snoc, nonIdleSum_snoc]
      by_cases h : last = "IDLE"
      · simp [h]
      · simp [h]; omega
    · rw [ganttTotal_append, ganttTotal_append]
      simp [ganttTotal]; omega
  · simp only [ne_eq, hl, not_false_eq_true, if_true]
    rw [finalizeBlock_open pid t (t + 1) _ hpid ht (by omega)]
    refine ⟨?_, ?_, ?_, Or.inr ⟨hpid, ht, by omega⟩⟩
    · intro id
      rw [segSum_snoc]; simp
    · rw [nonIdleSum_snoc]; simp
    · rw [ganttTotal_append]; simp [ganttTotal]

theorem EDF_step (sel : List Process → List Nat → Nat) (ps0 : List Process) (s : EDFState)
    (h : EDFInv ps0 s) (hc : anyLeft s.ps = true) :
    (EDFInv ps0 (EDF_body sel s) ∧ EDF_measure (EDF_body sel s) < EDF_measure s) ∧
      StepOK s.ps (EDF_body sel s).ps (compClock s.comp) (compClock (EDF_body sel s).comp)
        (EDF_body sel s).t := by
  obtain ⟨hfr, hacct, hadm, htl, hcl, hld⟩ := h
  have hb : ∀ i, i < s.ps.length → 0 < (procAt s.ps i).burst_time := fun i hi => (hacct.2 i hi).1
  have hadm1 := Adm_admit hadm hb
  by_cases hrq : (s.rq ++ newArrivals s.ps s.t s.idx) = []
  · -- idle gap
    obtain ⟨hrq1, hnew⟩ := List.append_eq_nil.mp hrq
    rw [hrq1] at hadm
    have i1 := idx_lt_of_left hadm hc
    obtain ⟨i2, i3, i4, i5, i6, _⟩ := idle_core hacct hadm i1 hnew
    have hbody : EDF_body sel s =
        { s with gantt := finalizeBlock s.last s.start s.t s.gantt
                    ++ [("IDLE", (procAt s.ps s.idx).arrival_time - s.t)],
                 last := "", start := -1,
                 t := (procAt s.ps s.idx).arrival_time } := by
      unfold EDF_body
      simp [hrq1, hnew, i1]
    rw [hbody]
    refine ⟨⟨⟨hfr, i3, by rw [hrq1]; exact i4, ?_, hcl,
      Or.inr (Or.inl hc)⟩, ?_⟩, StepOK_same _ _ _⟩
    · intro hids
      obtain ⟨hblk, hg, hgt⟩ := htl hids
      refine ⟨Or.inl ⟨rfl, rfl⟩, ?_, ?_⟩
      · simp only [finalizeBlock_closed]
        exact GInv_idle_snoc hg hids _
      · simp only [finalizeBlock_closed, ganttTotal_append, hgt]
        simp [ganttTotal]
    · unfold EDF_measure
      simp only [hrq1, i5, i6]
      omega
  · -- dispatch
    have hne : (s.rq ++ newArrivals s.ps s.t s.idx).isEmpty = false := by
      simpa [List.isEmpty_iff] using hrq
    unfold EDF_body
    simp only [hne, Bool.false_eq_true, if_false]
    generalize hrq1 : s.rq ++ newArrivals s.ps s.t s.idx = rq1 at *
    have hlenpos : 0 < rq1.length := List.length_pos.mpr hrq
    generalize hposd : min (sel s.ps rq1) (rq1.length - 1) = pos at *
    have hpos : pos < rq1.length := by rw [← hposd]; omega
    generalize hpd : rq1.getD pos 0 = p at *
    have hperm : List.Perm rq1 (p :: rq1.eraseIdx pos) := by
      rw [← hpd]; exact perm_cons_eraseIdx rq1 pos hpos
    have hadm2 := Adm_perm hadm1 hperm
    have hp : p < s.idx + (newArrivals s.ps s.t s.idx).length ∧ 0 < (procAt s.ps p).remaining_time :=
      (hadm2.2.2.2.2 p).mp (List.mem_cons_self p _)
    have hpn : p < s.ps.length := lt_of_lt_of_le hp.1 hadm2.1
    have hr : RunsTo s.ps (modifyAt s.ps p (decRemaining 1)) p 1 := RunsTo_dec s.ps p 1 hpn
    generalize hps1 : modifyAt s.ps p (decRemaining 1) = ps1 at *
    have hrem1 : (procAt ps1 p).remaining_time = (procAt s.ps p).remaining_time - 1 :=
      hr.2.2.2.2
    have hcc : ∀ j, j ≠ p →
        compClock (if (procAt ps1 p).remaining_time = 0 then s.comp.set p (s.t + 1)
          else s.comp) j = compClock s.comp j := by
      intro j hj
      split
      · rw [compClock_set _ _ _ _ (by omega)]; simp [hj]
      · rfl
    have hci : (procAt s.ps p).remaining_time - 1 = 0 →
        compClock (if (procAt ps1 p).remaining_time = 0 then s.comp.set p (s.t + 1)
          else s.comp) p = s.t + 1 := by
      intro h0
      rw [if_pos (by rw [hrem1]; exact h0), compClock_set _ _ _ _ (by omega)]
      simp
    have hfinal : List.Perm
        ((if 0 < (procAt s.ps p).remaining_time - 1 then p :: rq1.eraseIdx pos
            else rq1.eraseIdx pos)
          ++ newArrivals ps1 (s.t + 1) (s.idx + (newArrivals s.ps s.t s.idx).length))
        (if (procAt ps1 p).remaining_time = 0 then
          rq1.eraseIdx pos ++
            newArrivals ps1 (s.t + 1) (s.idx + (newArrivals s.ps s.t s.idx).length)
         else rq1.eraseIdx pos ++
            newArrivals ps1 (s.t + 1) (s.idx + (newArrivals s.ps s.t s.idx).length)
            ++ [p]) := by
      rw [hrem1]
      by_cases h0 : (procAt s.ps p).remaining_time - 1 = 0
      · rw [if_neg (by omega), if_pos h0]
      · rw [if_pos (by omega), if_neg h0]
        rw [List.cons_append]
        exact List.perm_append_singleton p _ |>.symm
    obtain ⟨d1, d2, d3, d4, d5⟩ :=
      dispatch_core hacct hadm2 hr (by omega) (by omega) hcc hci hfinal
    refine ⟨⟨⟨Frame_run hfr hr, d1, d2, ?_, ?_, d5⟩, ?_⟩, d3⟩
    · intro hq
      have hids : IdsOK s.ps := IdsOK_back hq hr
      obtain ⟨hblk, hg, hgt⟩ := htl hids
      obtain ⟨b1, b2, b3, b4⟩ := block_extend s.last (procAt s.ps p).id s.start s.t s.gantt hblk
        hacct.1 (hids.2 p hpn).2
      refine ⟨b4, ?_, ?_⟩
      · apply GInv_run hg hids hr b1
        rw [b2]; simp [(hids.2 p hpn).1]
      · show ganttTotal (finalizeBlock _ _ _ _) = s.t + 1
        rw [b3, hgt]
    · show (if (procAt ps1 p).remaining_time = 0 then s.comp.set p (s.t + 1)
          else s.comp).length = ps1.length
      rw [hr.1]
      split <;> simp [hcl]
    · unfold EDF_measure
      have := idleFlag_le ps1 (s.t + 1)
        (s.idx + (newArrivals s.ps s.t s.idx).length +
          (newArrivals ps1 (s.t + 1) (s.idx + (newArrivals s.ps s.t s.idx).length)).length)
        (if (procAt ps1 p).remaining_time = 0 then
          rq1.eraseIdx pos ++
            newArrivals ps1 (s.t + 1) (s.idx + (newArrivals s.ps s.t s.idx).length)
         else rq1.eraseIdx pos ++
            newArrivals ps1 (s.t + 1) (s.idx + (newArrivals s.ps s.t s.idx).length)
            ++ [p])
      simp only
      have e : (1 : Int).toNat = 1 := rfl
      rw [e] at d4
      omega

/-! ## Schedulers that write the metrics at completion -/

theorem arrivalsFrom_congr (ps qs : List Process) (t : Int) (hlen : qs.length = ps.length)
    (h : ∀ j, (procAt qs j).arrival_time = (procAt ps j).arrival_time) :
    ∀ (fuel idx : Nat), arrivalsFrom qs t fuel idx = arrivalsFrom ps t fuel idx := by
  intro fuel
  induction fuel with
  | zero => intro idx; rfl
  | succ fuel ih =>
    intro idx
    simp only [arrivalsFrom, hlen, h, ih]

theorem newArrivals_congr (ps qs : List Process) (t : Int) (idx : Nat)
    (hlen : qs.length = ps.length)
    (h : ∀ j, (procAt qs j).arrival_time = (procAt ps j).arrival_time) :
    newArrivals qs t idx = newArrivals ps t idx := by
  unfold newArrivals
  rw [hlen]
  exact arrivalsFrom_congr ps qs t hlen h _ _

theorem newArrivals_run {ps qs : List Process} {i : Nat} {s : Int} (hr : RunsTo ps qs i s)
    (t : Int) (idx : Nat) : newArrivals qs t idx = newArrivals ps t idx :=
  newArrivals_congr ps qs t idx hr.1 (fun j => (RunsTo_static_all hr j).2.1)

theorem static_modifyAt (ps : List Process) (i j : Nat) (f : Process → Process)
    (hst : ∀ p, Static p (f p)) : Static (procAt ps j) (procAt (modifyAt ps i f) j) := by
  rw [procAt_modifyAt]
  split
  · rename_i h; rw [h.1]; exact hst _
  · exact Static_refl _

theorem doneClock_setMetrics (ps : List Process) (p : Nat) (t : Int) (hp : p < ps.length) :
    doneClock (modifyAt ps p (setMetrics t)) p = t := by
  unfold doneClock
  rw [procAt_modifyAt_eq _ _ _ hp]
  simp [setMetrics]

theorem doneClock_modifyAt_ne (ps : List Process) (p j : Nat) (f : Process → Process)
    (h : j ≠ p) : doneClock (modifyAt ps p f) j = doneClock ps j := by
  unfold doneClock
  rw [procAt_modifyAt_ne _ _ _ _ h]

theorem RunsTo_refl (ps : List Process) (i : Nat) (hi : i < ps.length) : RunsTo ps ps i 0 :=
  ⟨rfl, hi, fun _ _ => rfl, Static_refl _, by simp⟩

theorem RunsTo_trans {ps qs rs : List Process} {i : Nat} {a b : Int} (h1 : RunsTo ps qs i a)
    (h2 : RunsTo qs rs i b) : RunsTo ps rs i (a + b) := by
  refine ⟨h2.1.trans h1.1, h1.2.1, ?_, Static_trans h1.2.2.2.1 h2.2.2.2.1, ?_⟩
  · intro j hj; rw [h2.2.2.1 j hj, h1.2.2.1 j hj]
  · rw [h2.2.2.2.2, h1.2.2.2.2]; omega

theorem Adm_touch {ps qs : List Process} {t : Int} {idx i : Nat} {m : List Nat}
    (h : Adm ps t idx m) (hr : RunsTo ps qs i 0) : Adm qs t idx m := by
  obtain ⟨h1, h2, h3, h4, h5⟩ := h
  have hrem : ∀ j, (procAt qs j).remaining_time = (procAt ps j).remaining_time := by
    intro j
    by_cases hj : j = i
    · subst hj; rw [hr.2.2.2.2]; omega
    · rw [hr.2.2.1 j hj]
  have hst := RunsTo_static_all hr
  refine ⟨by rw [hr.1]; exact h1, ?_, ?_, h4, ?_⟩
  · intro j hj1 hj2
    rw [hrem, (hst j).2.2.1]
    exact h2 j hj1 (by rw [← hr.1]; exact hj2)
  · intro j hj; rw [(hst j).2.1]; exact h3 j hj
  · intro j; rw [hrem]; exact h5 j

/-- A process `p` has received `k` units (`psd`); a scheduler that writes the metrics at
completion then stores them if `remaining_time` is `0` (`qs`). -/
theorem direct_finish {ps psd qs : List Process} {t : Int} {p : Nat} {k : Int}
    (hacct : Acct ps (doneClock ps) t) (hmet : MetricsOK ps)
    (hdec : RunsTo ps psd p k) (hk : 0 < k) (hk2 : k ≤ (procAt ps p).remaining_time)
    (harr : (procAt ps p).arrival_time ≤ t)
    (hqs : qs = if (procAt psd p).remaining_time = 0 then modifyAt psd p (setMetrics (t + k))
      else psd) :
    RunsTo ps qs p k ∧ RunsTo psd qs p 0 ∧ Acct qs (doneClock qs) (t + k) ∧ MetricsOK qs ∧
      StepOK ps qs (doneClock ps) (doneClock qs) (t + k) ∧
      remSum qs + k.toNat = remSum ps ∧ LastDone qs (doneClock qs) (t + k) := by
  have hpn : p < ps.length := hdec.2.1
  have hpd : p < psd.length := by rw [hdec.1]; exact hpn
  have h0 : RunsTo psd qs p 0 := by
    rw [hqs]
    split
    · exact RunsTo_of_modifyAt psd p 0 _ hpd (static_setMetrics _) (fun _ => by simp [setMetrics])
    · exact RunsTo_refl psd p hpd
  have hr : RunsTo ps qs p k := by
    have := RunsTo_trans hdec h0
    simpa using this
  have hc : ∀ j, j ≠ p → doneClock qs j = doneClock ps j := by
    intro j hj
    unfold doneClock
    rw [hr.2.2.1 j hj]
  have hci : (procAt ps p).remaining_time - k = 0 → doneClock qs p = t + k := by
    intro hz
    rw [hqs, if_pos (by rw [hdec.2.2.2.2]; exact hz)]
    exact doneClock_setMetrics _ _ _ hpd
  refine ⟨hr, h0, Acct_run hacct hr harr hk hk2 hc hci, ?_, StepOK_run hr hk hk2 hc hci,
    RunsTo_remSum_lt hr hk hk2, LastDone_run hr hk2 hci⟩
  intro j hj hz
  by_cases hjp : j = p
  · subst hjp
    have hz2 : (procAt psd j).remaining_time = 0 := by
      rw [hdec.2.2.2.2, ← hr.2.2.2.2]; exact hz
    rw [hqs, if_pos hz2, procAt_modifyAt_eq _ _ _ hpd]
    simp [setMetrics]
  · rw [hr.2.2.1 j hjp] at hz ⊢
    exact hmet j (by rw [← hr.1]; exact hj) hz

/-- A dispatch of `p` for `slice` units by a scheduler that writes the metrics of `p` as
soon as its `remaining_time` is `0`. -/
theorem dispatch_direct {ps : List Process} {t : Int} {idx p : Nat} {rest m : List Nat}
    {slice : Int}
    (hacct : Acct ps (doneClock ps) t) (hadm : Adm ps t idx (p :: rest)) (hmet : MetricsOK ps)
    (hs : 0 < slice) (hs2 : slice ≤ (procAt ps p).remaining_time)
    (qs : List Process)
    (hqs : qs = if (procAt (modifyAt ps p (decRemaining slice)) p).remaining_time = 0 then
        modifyAt (modifyAt ps p (decRemaining slice)) p (setMetrics (t + slice))
      else modifyAt ps p (decRemaining slice))
    (hfinal : List.Perm
      ((if 0 < (procAt ps p).remaining_time - slice then p :: rest else rest)
        ++ newArrivals qs (t + slice) idx) m) :
    RunsTo ps qs p slice ∧ Acct qs (doneClock qs) (t + slice) ∧
      Adm qs (t + slice) (idx + (newArrivals qs (t + slice) idx).length) m ∧
      MetricsOK qs ∧
      StepOK ps qs (doneClock ps) (doneClock qs) (t + slice) ∧
      remSum qs + slice.toNat = remSum ps ∧ LastDone qs (doneClock qs) (t + slice) := by
  have hp : p < idx ∧ 0 < (procAt ps p).remaining_time :=
    (hadm.2.2.2.2 p).mp (List.mem_cons_self p rest)
  have hpn : p < ps.length := lt_of_lt_of_le hp.1 hadm.1
  obtain ⟨f1, f2, f3, f4, f5, f6, f7⟩ := direct_finish hacct hmet (RunsTo_dec ps p slice hpn)
    hs hs2 (hadm.2.2.1 p hp.1) hqs
  have hM := Adm_run hadm f1 (show t ≤ t + slice by omega)
  have hM2 := Adm_admit hM (fun i hi => (f3.2 i hi).1)
  exact ⟨f1, f3, Adm_perm hM2 hfinal, f4, f5, f6, f7⟩

/-! ## Round Robin -/

theorem RR_step (quantum : Int) (hq : 1 ≤ quantum) (ps0 : List Process) (s : RRState)
    (h : RRInv ps0 s) (hc : RR_cond s = true) :
    (RRInv ps0 (RR_body quantum s) ∧ RR_measure (RR_body quantum s) < RR_measure s) ∧
      StepOK s.ps (RR_body quantum s).ps (doneClock s.ps) (doneClock (RR_body quantum s).ps)
        (RR_body quantum s).t := by
  obtain ⟨hfr, hacct, hadm, hmet, hld⟩ := h
  have hb : ∀ i, i < s.ps.length → 0 < (procAt s.ps i).burst_time := fun i hi => (hacct.2 i hi).1
  have hadm1 := Adm_admit hadm hb
  cases hq1 : s.q ++ newArrivals s.ps s.t s.idx with
  | nil =>
    obtain ⟨hrq1, hnew⟩ := List.append_eq_nil.mp hq1
    have i1 : s.idx < s.ps.length := by
      unfold RR_cond at hc
      simpa [hrq1] using hc
    rw [hrq1] at hadm
    obtain ⟨i2, i3, i4, i5, i6, i7⟩ := idle_core hacct hadm i1 hnew
    have hbody : RR_body quantum s = { s with t := (procAt s.ps s.idx).arrival_time } := by
      unfold RR_body
      simp [hrq1, hnew, i1]
    rw [hbody]
    refine ⟨⟨⟨hfr, i3, by rw [hrq1]; exact i4, hmet, Or.inr (Or.inl i7)⟩, ?_⟩, StepOK_same _ _ _⟩
    unfold RR_measure
    simp only [hrq1, i5, i6]
    omega
  | cons cur q2 =>
    rw [hq1] at hadm1
    have hp : cur < s.idx + (newArrivals s.ps s.t s.idx).length ∧
        0 < (procAt s.ps cur).remaining_time :=
      (hadm1.2.2.2.2 cur).mp (List.mem_cons_self cur _)
    have hpn : cur < s.ps.length := lt_of_lt_of_le hp.1 hadm1.1
    unfold RR_body
    simp only [hq1]
    generalize hsl : min quantum (procAt s.ps cur).remaining_time = slice at *
    have hs : 0 < slice := by rw [← hsl]; omega
    have hs2 : slice ≤ (procAt s.ps cur).remaining_time := by rw [← hsl]; omega
    have hdec := RunsTo_dec s.ps cur slice hpn
    generalize hps1 : modifyAt s.ps cur (decRemaining slice) = ps1 at *
    have hrem1 : (procAt ps1 cur).remaining_time = (procAt s.ps cur).remaining_time - slice :=
      hdec.2.2.2.2
    by_cases h0 : (procAt ps1 cur).remaining_time = 0
    · have hqs : modifyAt ps1 cur (setMetrics (s.t + slice)) =
          if (procAt (modifyAt s.ps cur (decRemaining slice)) cur).remaining_time = 0 then
            modifyAt (modifyAt s.ps cur (decRemaining slice)) cur (setMetrics (s.t + slice))
          else modifyAt s.ps cur (decRemaining slice) := by
        rw [hps1, if_pos h0]
      have hna : newArrivals (modifyAt ps1 cur (setMetrics (s.t + slice))) (s.t + slice)
            (s.idx + (newArrivals s.ps s.t s.idx).length) =
          newArrivals ps1 (s.t + slice) (s.idx + (newArrivals s.ps s.t s.idx).length) :=
        newArrivals_congr _ _ _ _ (by simp)
          (fun j => (static_modifyAt ps1 cur j _ (static_setMetrics _)).2.1)
      obtain ⟨d0, d1, d2, dm, d3, d4, d5⟩ := dispatch_direct hacct hadm1 hmet hs hs2 _ hqs
        (m := q2 ++ newArrivals ps1 (s.t + slice) (s.idx + (newArrivals s.ps s.t s.idx).length))
        (by rw [hna, if_neg (by omega)])
      rw [hna] at d2
      rw [if_neg (by omega)]
      refine ⟨⟨⟨Frame_run hfr d0, d1, d2, dm, d5⟩, ?_⟩, d3⟩
      unfold RR_measure
      have := idleFlag_le (modifyAt ps1 cur (setMetrics (s.t + slice))) (s.t + slice)
        (s.idx + (newArrivals s.ps s.t s.idx).length +
          (newArrivals ps1 (s.t + slice) (s.idx + (newArrivals s.ps s.t s.idx).length)).length)
        (q2 ++ newArrivals ps1 (s.t + slice) (s.idx + (newArrivals s.ps s.t s.idx).length))
      simp only
      omega
    · have hqs : ps1 =
          if (procAt (modifyAt s.ps cur (decRemaining slice)) cur).remaining_time = 0 then
            modifyAt (modifyAt s.ps cur (decRemaining slice)) cur (setMetrics (s.t + slice))
          else modifyAt s.ps cur (decRemaining slice) := by
        rw [hps1, if_neg h0]
      obtain ⟨d0, d1, d2, dm, d3, d4, d5⟩ := dispatch_direct hacct hadm1 hmet hs hs2 _ hqs
        (m := q2 ++ newArrivals ps1 (s.t + slice) (s.idx + (newArrivals s.ps s.t s.idx).length)
          ++ [cur])
        (by
          rw [if_pos (by omega), List.cons_append]
          exact List.perm_append_singleton cur _ |>.symm)
      rw [if_pos (by omega)]
      refine ⟨⟨⟨Frame_run hfr d0, d1, d2, dm, d5⟩, ?_⟩, d3⟩
      unfold RR_measure
      have := idleFlag_le ps1 (s.t + slice)
        (s.idx + (newArrivals s.ps s.t s.idx).length +
          (newArrivals ps1 (s.t + slice) (s.idx + (newArrivals s.ps s.t s.idx).length)).length)
        (q2 ++ newArrivals ps1 (s.t + slice) (s.idx + (newArrivals s.ps s.t s.idx).length)
          ++ [cur])
      simp only
      omega

/-! ## SRTF -/

theorem SRTF_best_foldl (ps : List Process) (t : Int) :
    ∀ (l : List Nat) (acc : Option Nat),
      (∀ b, acc = some b → b < ps.length ∧ (procAt ps b).arrival_time ≤ t ∧
        0 < (procAt ps b).remaining_time) →
      (∀ i, i ∈ l → i < ps.length) →
      (∀ b, l.foldl (fun (best : Option Nat) (i : Nat) =>
          if (procAt ps i).arrival_time ≤ t ∧ (procAt ps i).remaining_time > 0 then
            match best with
            | none => some i
            | some b =>
              if (procAt ps i).remaining_time < (procAt ps b).remaining_time
                  ∨ ((procAt ps i).remaining_time = (procAt ps b).remaining_time
                      ∧ strLt (procAt ps i).id (procAt ps b).id = true)
              then some i else some b
          else best) acc = some b →
        b < ps.length ∧ (procAt ps b).arrival_time ≤ t ∧ 0 < (procAt ps b).remaining_time) ∧
      (l.foldl (fun (best : Option Nat) (i : Nat) =>
          if (procAt ps i).arrival_time ≤ t ∧ (procAt ps i).remaining_time > 0 then
            match best with
            | none => some i
            | some b =>
              if (procAt ps i).remaining_time < (procAt ps b).remaining_time
                  ∨ ((procAt ps i).remaining_time = (procAt ps b).remaining_time
                      ∧ strLt (procAt ps i).id (procAt ps b).id = true)
              then some i else some b
          else best) acc = none →
        acc = none ∧ ∀ i, i ∈ l →
          ¬ ((procAt ps i).arrival_time ≤ t ∧ 0 < (procAt ps i).remaining_time)) := by
  intro l
  induction l with
  | nil =>
    intro acc hacc _
    exact ⟨fun b hb => hacc b hb, fun h => ⟨h, by simp⟩⟩
  | cons a rest ih =>
    intro acc hacc hl
    simp only [List.foldl_cons]
    have ha : a < ps.length := hl a (List.mem_cons_self a rest)
    have hrest : ∀ i, i ∈ rest → i < ps.length := fun i hi => hl i (List.mem_cons_of_mem a hi)
    by_cases he : (procAt ps a).arrival_time ≤ t ∧ (procAt ps a).remaining_time > 0
    · rw [if_pos he]
      cases acc with
      | none =>
        obtain ⟨r1, r2⟩ := ih (some a) (by
          intro b hb
          cases hb
          exact ⟨ha, he.1, he.2⟩) hrest
        refine ⟨r1, ?_⟩
        intro hn
        have := (r2 hn).1
        cases this
      | some b0 =>
        have hb0 := hacc b0 rfl
        simp only
        split
        · obtain ⟨r1, r2⟩ := ih (some a) (by
            intro b hb
            cases hb
            exact ⟨ha, he.1, he.2⟩) hrest
          refine ⟨r1, ?_⟩
          intro hn
          have := (r2 hn).1
          cases this
        · obtain ⟨r1, r2⟩ := ih (some b0) (by
            intro b hb
            cases hb
            exact hb0) hrest
          refine ⟨r1, ?_⟩
          intro hn
          have := (r2 hn).1
          cases this
    · rw [if_neg he]
      obtain ⟨r1, r2⟩ := ih acc hacc hrest
      refine ⟨r1, ?_⟩
      intro hn
      obtain ⟨q1, q2⟩ := r2 hn
      refine ⟨q1, ?_⟩
      intro i hi
      rcases List.mem_cons.mp hi with rfl | hi
      · exact he
      · exact q2 i hi

theorem SRTF_best_some (ps : List Process) (t : Int) (b : Nat) (h : SRTF_best ps t = some b) :
    b < ps.length ∧ (procAt ps b).arrival_time ≤ t ∧ 0 < (procAt ps b).remaining_time :=
  (SRTF_best_foldl ps t (List.range ps.length) none (by intro b hb; cases hb)
    (fun i hi => List.mem_range.mp hi)).1 b h

theorem SRTF_best_none (ps : List Process) (t : Int) (h : SRTF_best ps t = none) (i : Nat)
    (hi : i < ps.length) :
    ¬ ((procAt ps i).arrival_time ≤ t ∧ 0 < (procAt ps i).remaining_time) :=
  ((SRTF_best_foldl ps t (List.range ps.length) none (by intro b hb; cases hb)
    (fun i hi => List.mem_range.mp hi)).2 h).2 i (List.mem_range.mpr hi)

theorem nextArrival_foldl : ∀ (ps : List Process) (acc : Int),
    (ps.foldl (fun na p => if p.remaining_time > 0 then min na p.arrival_time else na) acc = acc
      ∨ ∃ p, p ∈ ps ∧ 0 < p.remaining_time ∧
        ps.foldl (fun na p => if p.remaining_time > 0 then min na p.arrival_time else na) acc
          = p.arrival_time) ∧
    ps.foldl (fun na p => if p.remaining_time > 0 then min na p.arrival_time else na) acc ≤ acc ∧
    ∀ p, p ∈ ps → 0 < p.remaining_time →
      ps.foldl (fun na p => if p.remaining_time > 0 then min na p.arrival_time else na) acc
        ≤ p.arrival_time := by
  intro ps
  induction ps with
  | nil => intro acc; simp
  | cons a rest ih =>
    intro acc
    simp only [List.foldl_cons]
    by_cases ha : a.remaining_time > 0
    · rw [if_pos ha]
      obtain ⟨h1, h2, h3⟩ := ih (min acc a.arrival_time)
      refine ⟨?_, ?_, ?_⟩
      · rcases h1 with h1 | ⟨p, hp, hp2, hp3⟩
        · by_cases hle : acc ≤ a.arrival_time
          · left; rw [h1]; exact min_eq_left hle
          · right
            exact ⟨a, List.mem_cons_self a rest, ha, by rw [h1]; exact min_eq_right (by omega)⟩
        · right
          exact ⟨p, List.mem_cons_of_mem a hp, hp2, hp3⟩
      · exact le_trans h2 (min_le_left _ _)
      · intro p hp hp2
        rcases List.mem_cons.mp hp with rfl | hp
        · exact le_trans h2 (min_le_right _ _)
        · exact h3 p hp hp2
    · rw [if_neg ha]
      obtain ⟨h1, h2, h3⟩ := ih acc
      refine ⟨?_, h2, ?_⟩
      · rcases h1 with h1 | ⟨p, hp, hp2, hp3⟩
        · left; exact h1
        · right; exact ⟨p, List.mem_cons_of_mem a hp, hp2, hp3⟩
      · intro p hp hp2
        rcases List.mem_cons.mp hp with rfl | hp
        · exact absurd hp2 ha
        · exact h3 p hp hp2

theorem SRTF_nextArrival_spec (ps : List Process) (hleft : anyLeft ps = true)
    (hmax : ∀ i, i < ps.length → (procAt ps i).arrival_time ≤ INT_MAX) :
    ∃ j, j < ps.length ∧ 0 < (procAt ps j).remaining_time ∧
      (procAt ps j).arrival_time = SRTF_nextArrival ps := by
  obtain ⟨i, hi, hrem⟩ := (anyLeft_eq_true ps).mp hleft
  obtain ⟨h1, h2, h3⟩ := nextArrival_foldl ps INT_MAX
  rcases h1 with h1 | ⟨p, hp, hp2, hp3⟩
  · refine ⟨i, hi, hrem, ?_⟩
    have a1 := h3 (procAt ps i) (procAt_mem ps i hi) hrem
    have a2 := hmax i hi
    unfold SRTF_nextArrival
    rw [h1] at a1 ⊢
    omega
  · obtain ⟨j, hj, rfl⟩ := exists_procAt_of_mem ps p hp
    exact ⟨j, hj, hp2, hp3.symm⟩

theorem SRTF_step (ps0 : List Process) (s : SRTFState) (h : SRTFInv ps0 s)
    (hc : anyLeft s.ps = true) :
    (SRTFInv ps0 (SRTF_body s) ∧ SRTF_measure (SRTF_body s) < SRTF_measure s) ∧
      StepOK s.ps (SRTF_body s).ps (compClock s.comp) (compClock (SRTF_body s).comp)
        (SRTF_body s).t := by
  obtain ⟨hfr, hacct, hcl, hld, hmax⟩ := h
  cases hb : SRTF_best s.ps s.t with
  | none =>
    obtain ⟨j, hj, hjrem, hjna⟩ := SRTF_nextArrival_spec s.ps hc hmax
    have hlt : s.t < SRTF_nextArrival s.ps := by
      have := SRTF_best_none s.ps s.t hb j hj
      rw [← hjna]
      by_contra hcon
      exact this ⟨by omega, hjrem⟩
    have hbody : SRTF_body s =
        { s with gantt := finalizeBlock s.last s.start s.t s.gantt
                    ++ [("IDLE", SRTF_nextArrival s.ps - s.t)],
                 t := SRTF_nextArrival s.ps } := by
      unfold SRTF_body
      simp only [hb]
    rw [hbody]
    refine ⟨⟨⟨hfr, Acct_mono hacct (le_of_lt hlt), hcl, Or.inr (Or.inl hc), hmax⟩, ?_⟩,
      StepOK_same _ _ _⟩
    unfold SRTF_measure
    simp only [hb, if_true]
    have : SRTF_best s.ps (SRTF_nextArrival s.ps) ≠ none := by
      intro hn
      exact SRTF_best_none s.ps _ hn j hj ⟨by rw [hjna], hjrem⟩
    simp only [this, if_false]
    omega
  | some b =>
    obtain ⟨hbn, hbarr, hbrem⟩ := SRTF_best_some s.ps s.t b hb
    have hr := RunsTo_dec s.ps b 1 hbn
    unfold SRTF_body
    simp only [hb]
    generalize hps1 : modifyAt s.ps b (decRemaining 1) = ps1 at *
    have hrem1 : (procAt ps1 b).remaining_time = (procAt s.ps b).remaining_time - 1 :=
      hr.2.2.2.2
    have hcc : ∀ j, j ≠ b →
        compClock (if (procAt ps1 b).remaining_time = 0 then s.comp.set b (s.t + 1)
          else s.comp) j = compClock s.comp j := by
      intro j hj
      split
      · rw [compClock_set _ _ _ _ (by omega)]; simp [hj]
      · rfl
    have hci : (procAt s.ps b).remaining_time - 1 = 0 →
        compClock (if (procAt ps1 b).remaining_time = 0 then s.comp.set b (s.t + 1)
          else s.comp) b = s.t + 1 := by
      intro h0
      rw [if_pos (by rw [hrem1]; exact h0), compClock_set _ _ _ _ (by omega)]
      simp
    refine ⟨⟨⟨Frame_run hfr hr, Acct_run hacct hr hbarr (by omega) (by omega) hcc hci, ?_,
      LastDone_run hr (by omega) hci, ?_⟩, ?_⟩, StepOK_run hr (by omega) (by omega) hcc hci⟩
    · show (if (procAt ps1 b).remaining_time = 0 then s.comp.set b (s.t + 1)
          else s.comp).length = ps1.length
      rw [hr.1]
      split <;> simp [hcl]
    · intro i hi
      rw [(RunsTo_static_all hr i).2.1]
      exact hmax i (by rw [← hr.1]; exact hi)
    · unfold SRTF_measure
      have d4 := RunsTo_remSum_lt hr (by omega) (by omega)
      have e : (1 : Int).toNat = 1 := rfl
      rw [e] at d4
      simp only [hb]
      split <;> simp <;> omega

/-! ## Lottery -/

theorem mem_Lottery_bag (tickets : List Int) (ps : List Process) (t : Int) (x : Nat) :
    x ∈ Lottery_bag tickets ps t ↔
      x < ps.length ∧ 0 < (procAt ps x).remaining_time ∧ (procAt ps x).arrival_time ≤ t ∧
        0 < (tickets.getD x 0).toNat := by
  unfold Lottery_bag
  rw [List.mem_flatMap]
  constructor
  · rintro ⟨i, hi, hx⟩
    split at hx
    · rename_i hcond
      obtain ⟨h1, h2⟩ := List.mem_replicate.mp hx
      subst h2
      exact ⟨List.mem_range.mp hi, hcond.1, hcond.2, Nat.pos_of_ne_zero h1⟩
    · simp at hx
  · rintro ⟨h1, h2, h3, h4⟩
    refine ⟨x, List.mem_range.mpr h1, ?_⟩
    rw [if_pos ⟨h2, h3⟩]
    exact List.mem_replicate.mpr ⟨by omega, rfl⟩

theorem getD_mem_of_lt (l : List Nat) (i : Nat) (h : i < l.length) : l.getD i 0 ∈ l := by
  rw [List.getD_eq_getElem _ _ h]
  exact List.getElem_mem h

theorem SortedIdx_run {ps qs : List Process} {i : Nat} {s : Int} (h : SortedIdx ps)
    (hr : RunsTo ps qs i s) : SortedIdx qs := by
  intro a b hab hb
  rw [(RunsTo_static_all hr a).2.1, (RunsTo_static_all hr b).2.1]
  exact h a b hab (by rw [← hr.1]; exact hb)

theorem Lottery_step (draws : Nat → Nat) (tickets : List Int) (ps0 : List Process)
    (s : LotteryState) (h : LotteryInv ps0 tickets s) (hc : anyLeft s.ps = true) :
    (LotteryInv ps0 tickets (Lottery_body draws tickets s) ∧
        Lottery_measure tickets (Lottery_body draws tickets s) < Lottery_measure tickets s) ∧
      StepOK s.ps (Lottery_body draws tickets s).ps (doneClock s.ps)
        (doneClock (Lottery_body draws tickets s).ps) (Lottery_body draws tickets s).t := by
  obtain ⟨hfr, hacct, hmet, hld, hg, hgt, hidx, harr, hfresh, hsort, htick⟩ := h
  obtain ⟨s1, s2, s3, s4⟩ := newArrivals_spec s.ps s.t s.idx hidx
  have harr1 : ∀ i, i < s.idx + (newArrivals s.ps s.t s.idx).length →
      (procAt s.ps i).arrival_time ≤ s.t := by
    intro i hi
    by_cases hlt : i < s.idx
    · exact harr i hlt
    · exact s3 i (by omega) hi
  have hfresh1 : ∀ i, s.idx + (newArrivals s.ps s.t s.idx).length ≤ i → i < s.ps.length →
      (procAt s.ps i).remaining_time = (procAt s.ps i).burst_time :=
    fun i hi1 hi2 => hfresh i (by omega) hi2
  by_cases hbag : Lottery_bag tickets s.ps s.t = []
  · -- idle gap
    obtain ⟨i, hi, hrem⟩ := (anyLeft_eq_true s.ps).mp hc
    have hnot : ¬ (procAt s.ps i).arrival_time ≤ s.t := by
      intro hle
      have : i ∈ Lottery_bag tickets s.ps s.t :=
        (mem_Lottery_bag tickets s.ps s.t i).mpr ⟨hi, hrem, hle, by have := htick i hi; omega⟩
      rw [hbag] at this
      simp at this
    have hi1 : s.idx + (newArrivals s.ps s.t s.idx).length ≤ i := by
      by_contra hcon
      exact hnot (harr1 i (by omega))
    have hlt1 : s.idx + (newArrivals s.ps s.t s.idx).length < s.ps.length := by omega
    have htt := s4 hlt1
    have hbody : Lottery_body draws tickets s =
        { s with idx := s.idx + (newArrivals s.ps s.t s.idx).length,
                 gantt := s.gantt ++ [("IDLE",
                   (procAt s.ps (s.idx + (newArrivals s.ps s.t s.idx).length)).arrival_time - s.t)],
                 t := (procAt s.ps (s.idx + (newArrivals s.ps s.t s.idx).length)).arrival_time } := by
      unfold Lottery_body
      simp [hbag, hlt1, htt]
    rw [hbody]
    refine ⟨⟨⟨hfr, Acct_mono hacct (le_of_lt htt), hmet, Or.inr (Or.inl hc),
      TInv_idle_snoc hg _, ?_, s2, ?_, hfresh1, hsort, htick⟩, ?_⟩, StepOK_same _ _ _⟩
    · simp only [ganttTotal_append, hgt]
      simp [ganttTotal]
    · intro j hj
      exact le_trans (harr1 j hj) (le_of_lt htt)
    · unfold Lottery_measure
      simp only [hbag, if_true]
      have : Lottery_bag tickets s.ps
          (procAt s.ps (s.idx + (newArrivals s.ps s.t s.idx).length)).arrival_time ≠ [] := by
        intro hn
        have hm : s.idx + (newArrivals s.ps s.t s.idx).length ∈ Lottery_bag tickets s.ps
            (procAt s.ps (s.idx + (newArrivals s.ps s.t s.idx).length)).arrival_time := by
          rw [mem_Lottery_bag]
          refine ⟨hlt1, ?_, le_refl _, by have := htick _ hlt1; omega⟩
          rw [hfresh1 _ (le_refl _) hlt1]
          exact (hacct.2 _ hlt1).1
        rw [hn] at hm
        simp at hm
      simp only [this, if_false]
      omega
  · -- dispatch
    have hne : (Lottery_bag tickets s.ps s.t).isEmpty = false := by
      simpa [List.isEmpty_iff] using hbag
    have hlen : 0 < (Lottery_bag tickets s.ps s.t).length := List.length_pos.mpr hbag
    have hmem := getD_mem_of_lt (Lottery_bag tickets s.ps s.t)
      (draws s.k % (Lottery_bag tickets s.ps s.t).length) (Nat.mod_lt _ hlen)
    unfold Lottery_body
    simp only [hne, Bool.false_eq_true, if_false]
    generalize (Lottery_bag tickets s.ps s.t).getD
      (draws s.k % (Lottery_bag tickets s.ps s.t).length) 0 = i at *
    obtain ⟨hi, hrem, hari, _⟩ := (mem_Lottery_bag tickets s.ps s.t i).mp hmem
    generalize hsl : min 4 (procAt s.ps i).remaining_time = slice at *
    have hs : 0 < slice := by rw [← hsl]; omega
    have hs2 : slice ≤ (procAt s.ps i).remaining_time := by rw [← hsl]; omega
    generalize hqs : (if (procAt (modifyAt s.ps i (decRemaining slice)) i).remaining_time = 0
        then modifyAt (modifyAt s.ps i (decRemaining slice)) i (setMetrics (s.t + slice))
        else modifyAt s.ps i (decRemaining slice)) = qs
    obtain ⟨f1, f2, f3, f4, f5, f6, f7⟩ := direct_finish hacct hmet (RunsTo_dec s.ps i slice hi)
      hs hs2 hari hqs.symm
    have hilt : i < s.idx + (newArrivals s.ps s.t s.idx).length := by
      by_contra hcon
      have hlt1 : s.idx + (newArrivals s.ps s.t s.idx).length < s.ps.length := by omega
      have := s4 hlt1
      have := hsort (s.idx + (newArrivals s.ps s.t s.idx).length) i (by omega) hi
      omega
    refine ⟨⟨⟨Frame_run hfr f1, f3, f4, f7, TInv_run_snoc hg f1, ?_, ?_,
      ?_, ?_, SortedIdx_run hsort f1, ?_⟩, ?_⟩, f5⟩
    · simp only [ganttTotal_append, hgt]
      simp [ganttTotal]
    · show s.idx + (newArrivals s.ps s.t s.idx).length ≤ _
      rw [f1.1]; exact s2
    · intro j hj
      show (procAt _ j).arrival_time ≤ s.t + slice
      rw [(RunsTo_static_all f1 j).2.1]
      have := harr1 j hj
      omega
    · intro j hj1 hj2
      show (procAt _ j).remaining_time = (procAt _ j).burst_time
      have hji : j ≠ i := by
        intro he; subst he
        have : s.idx + (newArrivals s.ps s.t s.idx).length ≤ j := hj1
        omega
      rw [f1.2.2.1 j hji]
      exact hfresh1 j hj1 (by rw [← f1.1]; exact hj2)
    · intro j hj
      exact htick j (by rw [← f1.1]; exact hj)
    · unfold Lottery_measure
      simp only
      have : (if Lottery_bag tickets qs (s.t + slice) = [] then 1 else 0) ≤ 1 := by
        split <;> simp
      omega

/-! ## MLQ -/

theorem newArrivals_nil_of_gt (ps : List Process) (t : Int) (idx : Nat)
    (h : idx < ps.length → t < (procAt ps idx).arrival_time) : newArrivals ps t idx = [] := by
  unfold newArrivals
  cases hf : ps.length - idx with
  | zero => rfl
  | succ f =>
    have hlt : idx < ps.length := by omega
    have := h hlt
    simp only [arrivalsFrom]
    rw [if_neg]
    intro hcon
    omega

theorem newArrivals_again (ps : List Process) (t : Int) (idx : Nat) (hidx : idx ≤ ps.length) :
    newArrivals ps t (idx + (newArrivals ps t idx).length) = [] :=
  newArrivals_nil_of_gt ps t _ (newArrivals_spec ps t idx hidx).2.2.2

theorem perm_split (a b adm : List Nat) (f : Nat → Bool) :
    List.Perm ((a ++ b) ++ adm) ((a ++ adm.filter f) ++ (b ++ adm.filter (fun i => !f i))) := by
  have h1 : List.Perm adm (adm.filter f ++ adm.filter (fun i => !f i)) :=
    (List.filter_append_perm f adm).symm
  have h2 : List.Perm ((a ++ b) ++ adm) ((a ++ b) ++ (adm.filter f ++ adm.filter (fun i => !f i))) :=
    List.Perm.append_left _ h1
  refine h2.trans ?_
  rw [List.append_assoc, List.append_assoc]
  apply List.Perm.append_left
  rw [← List.append_assoc, ← List.append_assoc]
  apply List.Perm.append_right
  exact List.perm_append_comm

theorem MLQ_push_adm (s : MLQState) (x : List Nat)
    (hb : ∀ i, i < s.ps.length → 0 < (procAt s.ps i).burst_time)
    (h : Adm s.ps s.t s.idx (x ++ (s.high ++ s.low))) :
    Adm (MLQ_push s).ps (MLQ_push s).t (MLQ_push s).idx
      (x ++ ((MLQ_push s).high ++ (MLQ_push s).low)) := by
  have h1 := Adm_admit h hb
  refine Adm_perm h1 ?_
  show List.Perm (x ++ (s.high ++ s.low) ++ newArrivals s.ps s.t s.idx)
    (x ++ ((s.high ++ (newArrivals s.ps s.t s.idx).filter _) ++
      (s.low ++ (newArrivals s.ps s.t s.idx).filter _)))
  rw [List.append_assoc]
  apply List.Perm.append_left
  exact perm_split _ _ _ _

theorem MLQ_lowLoop_spec (p : Nat) : ∀ (fuel : Nat) (s : MLQState) (ran : Int),
    (∀ i, i < s.ps.length → 0 < (procAt s.ps i).burst_time) →
    Adm s.ps s.t s.idx ([p] ++ (s.high ++ s.low)) →
    fuel = (procAt s.ps p).remaining_time.toNat →
    ∃ k : Int, 0 ≤ k ∧ (MLQ_lowLoop p fuel s ran).2 = ran + k ∧
      RunsTo s.ps (MLQ_lowLoop p fuel s ran).1.ps p k ∧
      k ≤ (procAt s.ps p).remaining_time ∧
      (MLQ_lowLoop p fuel s ran).1.t = s.t + k ∧
      (MLQ_lowLoop p fuel s ran).1.gantt = s.gantt ∧
      Adm (MLQ_lowLoop p fuel s ran).1.ps (MLQ_lowLoop p fuel s ran).1.t
        (MLQ_lowLoop p fuel s ran).1.idx
        ((if 0 < (procAt s.ps p).remaining_time - k then [p] else []) ++
          ((MLQ_lowLoop p fuel s ran).1.high ++ (MLQ_lowLoop p fuel s ran).1.low)) ∧
      (k = 0 → (MLQ_push s).high ≠ []) := by
  intro fuel
  induction fuel with
  | zero =>
    intro s ran _ hadm hf
    have := ((hadm.2.2.2.2 p).mp (by simp)).2
    omega
  | succ fuel ih =>
    intro s ran hb hadm hf
    have hp := (hadm.2.2.2.2 p).mp (by simp)
    have hpn : p < s.ps.length := lt_of_lt_of_le hp.1 hadm.1
    have hadm1 := MLQ_push_adm s [p] hb hadm
    simp only [MLQ_lowLoop, hp.2, gt_iff_lt, if_true]
    by_cases hh : (MLQ_push s).high = []
    · have hhe : (!(MLQ_push s).high.isEmpty) = false := by simp [hh]
      simp only [hhe, Bool.false_eq_true, if_false]
      have hr1 : RunsTo (MLQ_push s).ps (modifyAt (MLQ_push s).ps p (decRemaining 1)) p 1 :=
        RunsTo_dec _ p 1 hpn
      have hadm2 := Adm_run hadm1 hr1 (show (MLQ_push s).t ≤ (MLQ_push s).t + 1 by omega)
      generalize he2 : ({ MLQ_push s with ps := modifyAt (MLQ_push s).ps p (decRemaining 1),
                                          t := (MLQ_push s).t + 1 } : MLQState) = e2 at *
      have e2ps : e2.ps = modifyAt s.ps p (decRemaining 1) := by rw [← he2]; rfl
      have e2t : e2.t = s.t + 1 := by rw [← he2]; rfl
      have e2g : e2.gantt = s.gantt := by rw [← he2]; rfl
      have e2h : e2.high = (MLQ_push s).high := by rw [← he2]
      have e2l : e2.low = (MLQ_push s).low := by rw [← he2]
      have e2i : e2.idx = (MLQ_push s).idx := by rw [← he2]
      have hb2 : ∀ i, i < e2.ps.length → 0 < (procAt e2.ps i).burst_time := by
        intro i hi
        rw [e2ps] at hi ⊢
        rw [(static_modifyAt s.ps p i _ (static_decRemaining 1)).2.2.1]
        exact hb i (by simpa using hi)
      have hrem2 : (procAt e2.ps p).remaining_time = (procAt s.ps p).remaining_time - 1 := by
        rw [e2ps]; exact (RunsTo_dec s.ps p 1 hpn).2.2.2.2
      have hadm3 : Adm e2.ps e2.t e2.idx
          ((if 0 < (procAt s.ps p).remaining_time - 1 then [p] else []) ++ (e2.high ++ e2.low)) := by
        rw [e2h, e2l, e2i, e2t, e2ps]
        have := hadm2
        by_cases hpos : 0 < (procAt s.ps p).remaining_time - 1
        · rw [if_pos hpos]
          rw [if_pos (by exact hpos)] at this
          exact this
        · rw [if_neg hpos]
          rw [if_neg (by exact hpos)] at this
          exact this
      have hadm4 := MLQ_push_adm e2 _ hb2 hadm3
      have p2ps : (MLQ_push e2).ps = modifyAt s.ps p (decRemaining 1) := e2ps
      have p2t : (MLQ_push e2).t = s.t + 1 := e2t
      have p2g : (MLQ_push e2).gantt = s.gantt := e2g
      by_cases hpos : 0 < (procAt s.ps p).remaining_time - 1
      · rw [if_pos hpos] at hadm4
        obtain ⟨k, k1, k2, k3, k4, k5, k6, k7, _⟩ := ih (MLQ_push e2) (ran + 1) hb2 hadm4
          (by rw [p2ps, (RunsTo_dec s.ps p 1 hpn).2.2.2.2]; omega)
        refine ⟨1 + k, by omega, by rw [k2]; omega, ?_, ?_, ?_, ?_, ?_, by intro h0; omega⟩
        · have := RunsTo_trans (RunsTo_dec s.ps p 1 hpn) (by rw [← p2ps]; exact k3)
          exact this
        · rw [p2ps, (RunsTo_dec s.ps p 1 hpn).2.2.2.2] at k4; omega
        · rw [k5, p2t]; omega
        · rw [k6, p2g]
        · rw [p2ps, (RunsTo_dec s.ps p 1 hpn).2.2.2.2] at k7
          have e : (procAt s.ps p).remaining_time - (1 + k) =
              (procAt s.ps p).remaining_time - 1 - k := by omega
          rw [e]
          exact k7
      · rw [if_neg hpos] at hadm4
        have hf0 : fuel = 0 := by omega
        subst hf0
        simp only [MLQ_lowLoop]
        refine ⟨1, by omega, rfl, ?_, by omega, p2t, p2g, ?_, by intro h0; omega⟩
        · rw [p2ps]; exact RunsTo_dec s.ps p 1 hpn
        · rw [if_neg hpos]; exact hadm4
    · have hhe : (!(MLQ_push s).high.isEmpty) = true := by simp [hh]
      simp only [hhe, if_true]
      refine ⟨0, le_refl _, by simp, RunsTo_refl _ p hpn, le_of_lt hp.2, by simp [MLQ_push],
        rfl, ?_, fun _ => hh⟩
      rw [if_pos (by omega)]
      exact hadm1

theorem MLQ_step (ps0 : List Process) (s : MLQState) (h : MLQInv ps0 s)
    (hc : anyLeft s.ps = true) :
    (MLQInv ps0 (MLQ_body s) ∧ MLQ_measure (MLQ_body s) < MLQ_measure s) ∧
      StepOK s.ps (MLQ_body s).ps (doneClock s.ps) (doneClock (MLQ_body s).ps)
        (MLQ_body s).t := by
  obtain ⟨hfr, hacct, hadm, hg, hgt, hmet, hld⟩ := h
  have hb : ∀ i, i < s.ps.length → 0 < (procAt s.ps i).burst_time := fun i hi => (hacct.2 i hi).1
  have hadm1 : Adm s.ps s.t (MLQ_push s).idx ((MLQ_push s).high ++ (MLQ_push s).low) := by
    have := MLQ_push_adm s [] hb (by simpa using hadm)
    simpa using this
  have s1ps : (MLQ_push s).ps = s.ps := rfl
  have s1t : (MLQ_push s).t = s.t := rfl
  have s1g : (MLQ_push s).gantt = s.gantt := rfl
  have s1i : (MLQ_push s).idx = s.idx + (newArrivals s.ps s.t s.idx).length := rfl
  cases hh : (MLQ_push s).high with
  | cons p high1 =>
    -- dispatch from the high queue
    rw [hh] at hadm1
    have hadm2 : Adm s.ps s.t (MLQ_push s).idx (p :: (high1 ++ (MLQ_push s).low)) := hadm1
    have hp := (hadm2.2.2.2.2 p).mp (List.mem_cons_self p _)
    have hpn : p < s.ps.length := lt_of_lt_of_le hp.1 hadm2.1
    unfold MLQ_body
    simp only [hh, s1ps, s1t, s1g]
    generalize hsl : min 4 (procAt s.ps p).remaining_time = slice at *
    have hs : 0 < slice := by rw [← hsl]; omega
    have hs2 : slice ≤ (procAt s.ps p).remaining_time := by rw [← hsl]; omega
    generalize he2 : MLQState.mk (modifyAt s.ps p (decRemaining slice)) high1
        (MLQ_push s).low (s.t + slice) (MLQ_push s).idx
        (s.gantt ++ [((procAt s.ps p).id, slice)]) = e2 at *
    have e2ps : e2.ps = modifyAt s.ps p (decRemaining slice) := by rw [← he2]
    have e2t : e2.t = s.t + slice := by rw [← he2]
    have e2g : e2.gantt = s.gantt ++ [((procAt s.ps p).id, slice)] := by rw [← he2]
    have e2h : e2.high = high1 := by rw [← he2]
    have e2l : e2.low = (MLQ_push s).low := by rw [← he2]
    have e2i : e2.idx = (MLQ_push s).idx := by rw [← he2]
    have p2ps : (MLQ_push e2).ps = modifyAt s.ps p (decRemaining slice) := e2ps
    have p2t : (MLQ_push e2).t = s.t + slice := e2t
    have p2g : (MLQ_push e2).gantt = s.gantt ++ [((procAt s.ps p).id, slice)] := e2g
    have hdec := RunsTo_dec s.ps p slice hpn
    generalize hqs : (if (procAt (modifyAt s.ps p (decRemaining slice)) p).remaining_time = 0
        then modifyAt (modifyAt s.ps p (decRemaining slice)) p (setMetrics (s.t + slice))
        else modifyAt s.ps p (decRemaining slice)) = qs
    have hna : newArrivals qs (s.t + slice) (MLQ_push s).idx =
        newArrivals e2.ps e2.t e2.idx := by
      rw [e2ps, e2t, e2i, ← hqs]
      split
      · exact newArrivals_congr _ _ _ _ (by simp)
          (fun j => (static_modifyAt _ p j _ (static_setMetrics _)).2.1)
      · rfl
    have hperm : List.Perm ((high1 ++ (MLQ_push s).low) ++ newArrivals qs (s.t + slice)
        (MLQ_push s).idx) ((MLQ_push e2).high ++ (MLQ_push e2).low) := by
      rw [hna, ← e2h, ← e2l]
      exact perm_split e2.high e2.low (newArrivals e2.ps e2.t e2.idx)
        (fun i => decide ((procAt e2.ps i).priority < 3))
    by_cases h0 : (procAt (modifyAt s.ps p (decRemaining slice)) p).remaining_time = 0
    · obtain ⟨d0, d1, d2, dm, d3, d4, d5⟩ := dispatch_direct hacct hadm2 hmet hs hs2 qs hqs.symm
        (m := (MLQ_push e2).high ++ (MLQ_push e2).low)
        (by rw [if_neg (by rw [hdec.2.2.2.2] at h0; omega)]; exact hperm)
      have hq : qs = modifyAt (modifyAt s.ps p (decRemaining slice)) p (setMetrics (s.t + slice)) := by
        rw [← hqs, if_pos h0]
      rw [p2ps, if_neg (by omega), p2t, ← hq]
      have hidx : (MLQ_push e2).idx = (MLQ_push s).idx +
          (newArrivals qs (s.t + slice) (MLQ_push s).idx).length := by
        rw [hna]; show e2.idx + _ = _; rw [e2i]
      refine ⟨⟨⟨Frame_run hfr d0, d1, by rw [hidx]; exact d2, ?_, ?_, dm,
        d5⟩, ?_⟩, d3⟩
      · show TInv qs (MLQ_push e2).gantt
        rw [p2g]; exact TInv_run_snoc hg d0
      · show ganttTotal (MLQ_push e2).gantt = s.t + slice
        rw [p2g, ganttTotal_append, hgt]; simp [ganttTotal]
      · unfold MLQ_measure
        have := idleFlag_le qs (s.t + slice) (MLQ_push e2).idx
          ((MLQ_push e2).high ++ (MLQ_push e2).low)
        simp only
        omega
    · have hpos : 0 < (procAt s.ps p).remaining_time - slice := by
        rw [hdec.2.2.2.2] at h0; omega
      obtain ⟨d0, d1, d2, dm, d3, d4, d5⟩ := dispatch_direct hacct hadm2 hmet hs hs2 qs hqs.symm
        (m := ((MLQ_push e2).high ++ [p]) ++ (MLQ_push e2).low)
        (by
          rw [if_pos hpos, List.cons_append]
          refine (List.Perm.cons p hperm).trans ?_
          simpa using (@List.perm_middle _ p (MLQ_push e2).high (MLQ_push e2).low).symm)
      have hq : qs = modifyAt s.ps p (decRemaining slice) := by
        rw [← hqs, if_neg h0]
      rw [p2ps, if_pos (by rw [hdec.2.2.2.2]; exact hpos), ← hq]
      have hidx : (MLQ_push e2).idx = (MLQ_push s).idx +
          (newArrivals qs (s.t + slice) (MLQ_push s).idx).length := by
        rw [hna]; show e2.idx + _ = _; rw [e2i]
      refine ⟨⟨⟨Frame_run hfr d0, by rw [p2t]; exact d1, by rw [hidx, p2t]; exact d2,
        ?_, ?_, dm, by rw [p2t]; exact d5⟩, ?_⟩, by rw [p2t]; exact d3⟩
      · show TInv qs (MLQ_push e2).gantt
        rw [p2g]; exact TInv_run_snoc hg d0
      · show ganttTotal (MLQ_push e2).gantt = (MLQ_push e2).t
        rw [p2g, p2t, ganttTotal_append, hgt]; simp [ganttTotal]
      · unfold MLQ_measure
        have := idleFlag_le qs (MLQ_push e2).t (MLQ_push e2).idx
          ((MLQ_push e2).high ++ [p] ++ (MLQ_push e2).low)
        simp only
        omega
  | nil =>
    cases hl : (MLQ_push s).low with
    | cons p low1 =>
      rw [hh, hl] at hadm1
      have hadm2 : Adm s.ps s.t (MLQ_push s).idx ([p] ++ ([] ++ low1)) := by
        simpa using hadm1
      have hp := (hadm2.2.2.2.2 p).mp (by simp)
      have hpn : p < s.ps.length := lt_of_lt_of_le hp.1 hadm2.1
      have hspec := MLQ_lowLoop_spec p (procAt (MLQ_push s).ps p).remaining_time.toNat
        (MLQState.mk (MLQ_push s).ps [] low1 (MLQ_push s).t (MLQ_push s).idx (MLQ_push s).gantt)
        0 hb hadm2 rfl
      have hagain : (MLQ_push (MLQState.mk (MLQ_push s).ps [] low1 (MLQ_push s).t
          (MLQ_push s).idx (MLQ_push s).gantt)).high = [] := by
        show [] ++ List.filter _ (newArrivals s.ps s.t (s.idx + (newArrivals s.ps s.t s.idx).length))
          = []
        rw [newArrivals_again s.ps s.t s.idx hadm.1]
        rfl
      unfold MLQ_body
      simp only [hh, hl]
      generalize MLQ_lowLoop p (procAt (MLQ_push s).ps p).remaining_time.toNat
        (MLQState.mk (MLQ_push s).ps [] low1 (MLQ_push s).t (MLQ_push s).idx (MLQ_push s).gantt)
        0 = r at *
      obtain ⟨k, k1, k2, k3, k4, k5, k6, k7, k8⟩ := hspec
      have hk : 0 < k := by
        rcases lt_or_eq_of_le k1 with h1 | h1
        · exact h1
        · exact absurd hagain (k8 h1.symm)
      have k3b : RunsTo s.ps r.1.ps p k := k3
      have k4b : k ≤ (procAt s.ps p).remaining_time := k4
      have k5b : r.1.t = s.t + k := k5
      have k6b : r.1.gantt = s.gantt := k6
      have k2b : r.2 = k := by rw [k2]; omega
      have k7b : Adm r.1.ps r.1.t r.1.idx
          ((if 0 < (procAt s.ps p).remaining_time - k then [p] else []) ++ (r.1.high ++ r.1.low)) :=
        k7
      generalize hqs : (if (procAt r.1.ps p).remaining_time = 0
          then modifyAt r.1.ps p (setMetrics (s.t + k)) else r.1.ps) = qs
      obtain ⟨f1, f2, f3, f4, f5, f6, f7⟩ := direct_finish hacct hmet k3b hk k4b
        (hadm2.2.2.1 p hp.1) hqs.symm
      have hgantt : (if r.2 > 0 then r.1.gantt ++ [((procAt r.1.ps p).id, r.2)] else r.1.gantt)
          = s.gantt ++ [((procAt s.ps p).id, k)] := by
        rw [k2b, if_pos hk, k6b, k3b.2.2.2.1.1]
      rw [hgantt, k5b]
      have hA := Adm_touch k7b f2
      by_cases h0 : (procAt r.1.ps p).remaining_time = 0
      · have hq : qs = modifyAt r.1.ps p (setMetrics (s.t + k)) := by rw [← hqs, if_pos h0]
        rw [if_pos h0, ← hq]
        rw [if_neg (by rw [k3b.2.2.2.2] at h0; omega)] at hA
        refine ⟨⟨⟨Frame_run hfr f1, f3, by rw [← k5b]; simpa using hA,
          TInv_run_snoc hg f1, ?_, f4, f7⟩, ?_⟩, f5⟩
        · show ganttTotal (s.gantt ++ [((procAt s.ps p).id, k)]) = s.t + k
          rw [ganttTotal_append, hgt]; simp [ganttTotal]
        · unfold MLQ_measure
          have := idleFlag_le qs (s.t + k) r.1.idx (r.1.high ++ r.1.low)
          simp only
          omega
      · have hq : qs = r.1.ps := by rw [← hqs, if_neg h0]
        rw [if_neg h0, ← hq]
        rw [if_pos (by rw [k3b.2.2.2.2] at h0; have := f3.2 p (by rw [f1.1]; exact hpn);
                       rw [f1.2.2.2.2] at this; omega)] at hA
        refine ⟨⟨⟨Frame_run hfr f1, f3, ?_,
          TInv_run_snoc hg f1, ?_, f4, f7⟩, ?_⟩, f5⟩
        · show Adm qs (s.t + k) r.1.idx (r.1.high ++ (r.1.low ++ [p]))
          rw [← k5b]
          refine Adm_perm hA ?_
          have e : r.1.high ++ (r.1.low ++ [p]) = (r.1.high ++ r.1.low) ++ [p] := by simp
          rw [e]
          exact List.perm_append_comm
        · show ganttTotal (s.gantt ++ [((procAt s.ps p).id, k)]) = s.t + k
          rw [ganttTotal_append, hgt]; simp [ganttTotal]
        · unfold MLQ_measure
          have := idleFlag_le qs (s.t + k) r.1.idx (r.1.high ++ (r.1.low ++ [p]))
          simp only
          omega
    | nil =>
      have hnew : newArrivals s.ps s.t s.idx = [] := by
        have h1 : (newArrivals s.ps s.t s.idx).filter
            (fun i => decide ((procAt s.ps i).priority < 3)) = [] :=
          (List.append_eq_nil.mp hh).2
        have h2 : (newArrivals s.ps s.t s.idx).filter
            (fun i => !decide ((procAt s.ps i).priority < 3)) = [] :=
          (List.append_eq_nil.mp hl).2
        have := List.filter_append_perm (fun i => decide ((procAt s.ps i).priority < 3))
          (newArrivals s.ps s.t s.idx)
        rw [h1, h2] at this
        exact List.Perm.nil_eq this |>.symm
      have hhigh : s.high = [] := (List.append_eq_nil.mp hh).1
      have hlow : s.low = [] := (List.append_eq_nil.mp hl).1
      rw [hhigh, hlow] at hadm
      have i1 := idx_lt_of_left (by simpa using hadm) hc
      obtain ⟨i2, i3, i4, i5, i6, _⟩ := idle_core hacct (by simpa using hadm) i1 hnew
      have hidx : (MLQ_push s).idx = s.idx := by rw [s1i, hnew]; rfl
      unfold MLQ_body
      simp only [hh, hl, hidx, s1ps, s1t, s1g, i1, if_true]
      refine ⟨⟨⟨hfr, i3, ?_, TInv_idle_snoc hg _, ?_, hmet, Or.inr (Or.inl hc)⟩, ?_⟩,
        StepOK_same _ _ _⟩
      · simpa using i4
      · show ganttTotal (s.gantt ++ _) = _
        rw [ganttTotal_append, hgt]; simp [ganttTotal]
      · unfold MLQ_measure
        simp only [List.append_nil, i5, i6, hhigh, hlow]
        omega

/-! ## MLFQ -/

theorem MLFQ_enq_fields (s : MLFQState) (i : Nat) (lv : Int) :
    (MLFQ_enq s i lv).ps = s.ps ∧ (MLFQ_enq s i lv).t = s.t ∧ (MLFQ_enq s i lv).idx = s.idx ∧
      (MLFQ_enq s i lv).comp = s.comp ∧ (MLFQ_enq s i lv).gantt = s.gantt := by
  unfold MLFQ_enq MLFQ_setq
  simp only
  split <;> exact ⟨rfl, rfl, rfl, rfl, rfl⟩

theorem MLFQ_enq_zero (s : MLFQState) (i : Nat) :
    (MLFQ_enq s i 0).q0 = s.q0 ++ [i] ∧ (MLFQ_enq s i 0).q1 = s.q1 ∧
      (MLFQ_enq s i 0).q2 = s.q2 := by
  refine ⟨rfl, rfl, rfl⟩

theorem MLFQ_enq_queues (s : MLFQState) (i : Nat) (lv : Int) :
    List.Perm (MLFQ_members (MLFQ_enq s i lv)) (MLFQ_members s ++ [i]) ∧
      MLFQ_weight (MLFQ_enq s i lv) = MLFQ_weight s + (max 0 (min 2 lv)).toNat := by
  have hl : max 0 (min 2 lv) = 0 ∨ max 0 (min 2 lv) = 1 ∨ max 0 (min 2 lv) = 2 := by omega
  have t0 : (0 : Int).toNat = 0 := rfl
  have t1 : (1 : Int).toNat = 1 := rfl
  have t2 : (2 : Int).toNat = 2 := rfl
  unfold MLFQ_enq
  simp only
  rcases hl with h | h | h
  · rw [h, t0]
    refine ⟨?_, ?_⟩
    · simp only [MLFQ_members, MLFQ_setq, MLFQ_getq]
      exact List.perm_iff_count.mpr (fun x => by simp only [List.count_append]; omega)
    · simp only [MLFQ_weight, MLFQ_setq, MLFQ_getq]; omega
  · rw [h, t1]
    refine ⟨?_, ?_⟩
    · simp only [MLFQ_members, MLFQ_setq, MLFQ_getq]
      exact List.perm_iff_count.mpr (fun x => by simp only [List.count_append]; omega)
    · simp only [MLFQ_weight, MLFQ_setq, MLFQ_getq, List.length_append, List.length_singleton]
      omega
  · rw [h, t2]
    refine ⟨?_, ?_⟩
    · simp only [MLFQ_members, MLFQ_setq, MLFQ_getq]
      exact List.perm_iff_count.mpr (fun x => by simp only [List.count_append]; omega)
    · simp only [MLFQ_weight, MLFQ_setq, MLFQ_getq, List.length_append, List.length_singleton]
      omega

theorem MLFQ_foldl_enq (adm : List Nat) : ∀ (s : MLFQState),
    (adm.foldl (fun st i => MLFQ_enq st i 0) s).ps = s.ps ∧
    (adm.foldl (fun st i => MLFQ_enq st i 0) s).q0 = s.q0 ++ adm ∧
    (adm.foldl (fun st i => MLFQ_enq st i 0) s).q1 = s.q1 ∧
    (adm.foldl (fun st i => MLFQ_enq st i 0) s).q2 = s.q2 ∧
    (adm.foldl (fun st i => MLFQ_enq st i 0) s).t = s.t ∧
    (adm.foldl (fun st i => MLFQ_enq st i 0) s).comp = s.comp ∧
    (adm.foldl (fun st i => MLFQ_enq st i 0) s).gantt = s.gantt := by
  induction adm with
  | nil => intro s; simp
  | cons a rest ih =>
    intro s
    simp only [List.foldl_cons]
    obtain ⟨h1, h2, h3, h4, h5, h6, h7⟩ := ih (MLFQ_enq s a 0)
    obtain ⟨e1, e2, e3, e4, e5⟩ := MLFQ_enq_fields s a 0
    obtain ⟨z1, z2, z3⟩ := MLFQ_enq_zero s a
    refine ⟨h1.trans e1, ?_, h3.trans z2, h4.trans z3, h5.trans e2, h6.trans e4, h7.trans e5⟩
    rw [h2, z1]; simp

theorem MLFQ_push_fields (s : MLFQState) :
    (MLFQ_push s).ps = s.ps ∧ (MLFQ_push s).q0 = s.q0 ++ newArrivals s.ps s.t s.idx ∧
      (MLFQ_push s).q1 = s.q1 ∧ (MLFQ_push s).q2 = s.q2 ∧ (MLFQ_push s).t = s.t ∧
      (MLFQ_push s).comp = s.comp ∧ (MLFQ_push s).gantt = s.gantt ∧
      (MLFQ_push s).idx = s.idx + (newArrivals s.ps s.t s.idx).length := by
  obtain ⟨h1, h2, h3, h4, h5, h6, h7⟩ := MLFQ_foldl_enq (newArrivals s.ps s.t s.idx) s
  exact ⟨h1, h2, h3, h4, h5, h6, h7, rfl⟩

theorem MLFQ_push_adm (s : MLFQState) (x : List Nat)
    (hb : ∀ i, i < s.ps.length → 0 < (procAt s.ps i).burst_time)
    (h : Adm s.ps s.t s.idx (x ++ MLFQ_members s)) :
    Adm (MLFQ_push s).ps (MLFQ_push s).t (MLFQ_push s).idx (x ++ MLFQ_members (MLFQ_push s)) := by
  obtain ⟨h1, h2, h3, h4, h5, h6, h7, h8⟩ := MLFQ_push_fields s
  have h0 := Adm_admit h hb
  rw [h1, h5, h8]
  refine Adm_perm h0 ?_
  unfold MLFQ_members
  rw [h2, h3, h4]
  exact List.perm_iff_count.mpr (fun x => by simp only [List.count_append]; omega)

theorem MLFQ_push_weight (s : MLFQState) : MLFQ_weight (MLFQ_push s) = MLFQ_weight s := by
  obtain ⟨h1, h2, h3, h4, h5, h6, h7, h8⟩ := MLFQ_push_fields s
  unfold MLFQ_weight
  rw [h3, h4]

theorem MLFQ_runLoop_done (p qi : Nat) (fuel : Nat) (s : MLFQState) (ran : Int)
    (h : ¬ (ran < MLFQ_quantum qi ∧ (procAt s.ps p).remaining_time > 0)) :
    MLFQ_runLoop p qi fuel s ran = (s, ran) := by
  cases fuel with
  | zero => rfl
  | succ fuel => simp only [MLFQ_runLoop, h, if_false]

theorem MLFQ_runLoop_spec (p qi : Nat) : ∀ (fuel : Nat) (s : MLFQState) (ran : Int),
    (∀ i, i < s.ps.length → 0 < (procAt s.ps i).burst_time) →
    Adm s.ps s.t s.idx ([p] ++ MLFQ_members s) →
    fuel = (MLFQ_quantum qi - ran).toNat →
    ∃ k : Int, 0 ≤ k ∧ (MLFQ_runLoop p qi fuel s ran).2 = ran + k ∧
      RunsTo s.ps (MLFQ_runLoop p qi fuel s ran).1.ps p k ∧
      k ≤ (procAt s.ps p).remaining_time ∧
      (MLFQ_runLoop p qi fuel s ran).1.t = s.t + k ∧
      (MLFQ_runLoop p qi fuel s ran).1.gantt = s.gantt ∧
      (MLFQ_runLoop p qi fuel s ran).1.comp = s.comp ∧
      MLFQ_weight (MLFQ_runLoop p qi fuel s ran).1 = MLFQ_weight s ∧
      Adm (MLFQ_runLoop p qi fuel s ran).1.ps (MLFQ_runLoop p qi fuel s ran).1.t
        (MLFQ_runLoop p qi fuel s ran).1.idx
        ((if 0 < (procAt s.ps p).remaining_time - k then [p] else []) ++
          MLFQ_members (MLFQ_runLoop p qi fuel s ran).1) ∧
      (ran < MLFQ_quantum qi → 0 < k) := by
  intro fuel
  induction fuel with
  | zero =>
    intro s ran _ hadm hf
    have hp := (hadm.2.2.2.2 p).mp (by simp)
    have hpn : p < s.ps.length := lt_of_lt_of_le hp.1 hadm.1
    refine ⟨0, le_refl _, by simp [MLFQ_runLoop], RunsTo_refl _ p hpn, le_of_lt hp.2,
      by simp [MLFQ_runLoop], rfl, rfl, rfl, ?_, by intro h; omega⟩
    rw [if_pos (by omega)]
    exact hadm
  | succ fuel ih =>
    intro s ran hb hadm hf
    have hp := (hadm.2.2.2.2 p).mp (by simp)
    have hpn : p < s.ps.length := lt_of_lt_of_le hp.1 hadm.1
    have hran : ran < MLFQ_quantum qi := by omega
    simp only [MLFQ_runLoop]
    rw [if_pos (show ran < MLFQ_quantum qi ∧ (procAt s.ps p).remaining_time > 0 from
      ⟨hran, hp.2⟩)]
    have hr1 : RunsTo s.ps (modifyAt s.ps p (decRemaining 1)) p 1 := RunsTo_dec _ p 1 hpn
    have hadm2 := @Adm_run _ _ _ _ _ _ _ (MLFQ_members s) hadm hr1 (show s.t ≤ s.t + 1 by omega)
    generalize he2 : ({ s with ps := modifyAt s.ps p (decRemaining 1), t := s.t + 1 } : MLFQState)
      = e2 at *
    have e2ps : e2.ps = modifyAt s.ps p (decRemaining 1) := by rw [← he2]
    have e2t : e2.t = s.t + 1 := by rw [← he2]
    have e2g : e2.gantt = s.gantt := by rw [← he2]
    have e2c : e2.comp = s.comp := by rw [← he2]
    have e2i : e2.idx = s.idx := by rw [← he2]
    have e2m : MLFQ_members e2 = MLFQ_members s := by rw [← he2]; rfl
    have e2w : MLFQ_weight e2 = MLFQ_weight s := by rw [← he2]; rfl
    have hb2 : ∀ i, i < e2.ps.length → 0 < (procAt e2.ps i).burst_time := by
      intro i hi
      rw [e2ps] at hi ⊢
      rw [(static_modifyAt s.ps p i _ (static_decRemaining 1)).2.2.1]
      exact hb i (by simpa using hi)
    have hadm3 : Adm e2.ps e2.t e2.idx
        ((if 0 < (procAt s.ps p).remaining_time - 1 then [p] else []) ++ MLFQ_members e2) := by
      rw [e2m, e2i, e2t, e2ps]
      have := hadm2
      by_cases hpos : 0 < (procAt s.ps p).remaining_time - 1
      · rw [if_pos hpos]
        rw [if_pos (by exact hpos)] at this
        exact this
      · rw [if_neg hpos]
        rw [if_neg (by exact hpos)] at this
        exact this
    have hadm4 := MLFQ_push_adm e2 _ hb2 hadm3
    obtain ⟨f1, f2, f3, f4, f5, f6, f7, f8⟩ := MLFQ_push_fields e2
    have p2ps : (MLFQ_push e2).ps = modifyAt s.ps p (decRemaining 1) := f1.trans e2ps
    have p2t : (MLFQ_push e2).t = s.t + 1 := f5.trans e2t
    have p2g : (MLFQ_push e2).gantt = s.gantt := f7.trans e2g
    have p2c : (MLFQ_push e2).comp = s.comp := f6.trans e2c
    have p2w : MLFQ_weight (MLFQ_push e2) = MLFQ_weight s := (MLFQ_push_weight e2).trans e2w
    have hone : ∃ k : Int, 0 ≤ k ∧ ((MLFQ_push e2, ran + 1) : MLFQState × Int).2 = ran + k ∧
        RunsTo s.ps (MLFQ_push e2).ps p k ∧ k ≤ (procAt s.ps p).remaining_time ∧
        (MLFQ_push e2).t = s.t + k ∧ (MLFQ_push e2).gantt = s.gantt ∧
        (MLFQ_push e2).comp = s.comp ∧ MLFQ_weight (MLFQ_push e2) = MLFQ_weight s ∧
        Adm (MLFQ_push e2).ps (MLFQ_push e2).t (MLFQ_push e2).idx
          ((if 0 < (procAt s.ps p).remaining_time - k then [p] else []) ++
            MLFQ_members (MLFQ_push e2)) ∧
        (ran < MLFQ_quantum qi → 0 < k) :=
      ⟨1, by omega, rfl, by rw [p2ps]; exact hr1, by omega, p2t, p2g, p2c, p2w, hadm4,
        fun _ => by omega⟩
    by_cases hbr : qi > 0 ∧ (!(MLFQ_push e2).q0.isEmpty) = true
    · rw [if_pos hbr]
      exact hone
    · rw [if_neg hbr]
      by_cases hpos : 0 < (procAt s.ps p).remaining_time - 1
      · rw [if_pos hpos] at hadm4
        obtain ⟨k, k1, k2, k3, k4, k5, k6, k6c, k6w, k7, _⟩ := ih (MLFQ_push e2) (ran + 1) (by
            intro i hi; rw [f1] at hi ⊢; exact hb2 i hi) hadm4 (by omega)
        refine ⟨1 + k, by omega, by rw [k2]; omega, ?_, ?_, ?_, ?_, ?_, ?_, ?_, by intro h0; omega⟩
        · exact RunsTo_trans hr1 (by rw [← p2ps]; exact k3)
        · rw [p2ps, hr1.2.2.2.2] at k4; omega
        · rw [k5, p2t]; omega
        · rw [k6, p2g]
        · rw [k6c, p2c]
        · rw [k6w, p2w]
        · rw [p2ps, hr1.2.2.2.2] at k7
          have e : (procAt s.ps p).remaining_time - (1 + k) =
              (procAt s.ps p).remaining_time - 1 - k := by omega
          rw [e]
          exact k7
      · rw [MLFQ_runLoop_done p qi fuel (MLFQ_push e2) (ran + 1) (by
          rw [p2ps, hr1.2.2.2.2]; intro hcon; omega)]
        exact hone

theorem MLFQ_first_none (s : MLFQState) (h : MLFQ_firstNonEmpty s = none) :
    s.q0 = [] ∧ s.q1 = [] ∧ s.q2 = [] := by
  unfold MLFQ_firstNonEmpty at h
  cases h0 : s.q0 <;> cases h1 : s.q1 <;> cases h2 : s.q2 <;> simp_all

theorem MLFQ_first_some (s : MLFQState) (qi : Nat) (h : MLFQ_firstNonEmpty s = some qi) :
    qi ≤ 2 ∧ ∃ p tl, MLFQ_getq s qi = p :: tl := by
  unfold MLFQ_firstNonEmpty at h
  cases h0 : s.q0 with
  | cons a r =>
    simp [h0] at h
    subst h
    exact ⟨by omega, a, r, h0⟩
  | nil =>
    cases h1 : s.q1 with
    | cons a r =>
      simp [h0, h1] at h
      subst h
      exact ⟨by omega, a, r, h1⟩
    | nil =>
      cases h2 : s.q2 with
      | cons a r =>
        simp [h0, h1, h2] at h
        subst h
        exact ⟨by omega, a, r, h2⟩
      | nil => simp [h0, h1, h2] at h

theorem MLFQ_setq_fields (s : MLFQState) (qi : Nat) (q : List Nat) :
    (MLFQ_setq s qi q).ps = s.ps ∧ (MLFQ_setq s qi q).t = s.t ∧ (MLFQ_setq s qi q).idx = s.idx ∧
      (MLFQ_setq s qi q).comp = s.comp ∧ (MLFQ_setq s qi q).gantt = s.gantt ∧
      (MLFQ_setq s qi q).last_enq = s.last_enq := by
  unfold MLFQ_setq
  split <;> exact ⟨rfl, rfl, rfl, rfl, rfl, rfl⟩

theorem MLFQ_pop_queues (s : MLFQState) (qi p : Nat) (tl : List Nat) (hqi : qi ≤ 2)
    (h : MLFQ_getq s qi = p :: tl) :
    List.Perm (MLFQ_members s) (p :: MLFQ_members (MLFQ_setq s qi tl)) ∧
      MLFQ_weight (MLFQ_setq s qi tl) + qi = MLFQ_weight s := by
  have hcases : qi = 0 ∨ qi = 1 ∨ qi = 2 := by omega
  rcases hcases with rfl | rfl | rfl
  · have h0 : s.q0 = p :: tl := h
    refine ⟨?_, ?_⟩
    · simp only [MLFQ_members, MLFQ_setq, h0]
      exact List.perm_iff_count.mpr (fun x => by
        simp only [List.count_append, List.count_cons]; omega)
    · simp only [MLFQ_weight, MLFQ_setq]; omega
  · have h1 : s.q1 = p :: tl := h
    refine ⟨?_, ?_⟩
    · simp only [MLFQ_members, MLFQ_setq, h1]
      exact List.perm_iff_count.mpr (fun x => by
        simp only [List.count_append, List.count_cons]; omega)
    · simp only [MLFQ_weight, MLFQ_setq, h1, List.length_cons]; omega
  · have h2 : s.q2 = p :: tl := h
    refine ⟨?_, ?_⟩
    · simp only [MLFQ_members, MLFQ_setq, h2]
      exact List.perm_iff_count.mpr (fun x => by
        simp only [List.count_append, List.count_cons]; omega)
    · simp only [MLFQ_weight, MLFQ_setq, h2, List.length_cons]; omega

theorem Adm_length_le {ps : List Process} {t : Int} {idx : Nat} {m : List Nat}
    (h : Adm ps t idx m) : m.length ≤ ps.length := by
  have hsub : m ⊆ List.range ps.length := by
    intro x hx
    have := (h.2.2.2.2 x).mp hx
    exact List.mem_range.mpr (lt_of_lt_of_le this.1 h.1)
  have := (List.subperm_of_subset h.2.2.2.1 hsub).length_le
  simpa using this

theorem MLFQ_weight_le (s : MLFQState) : MLFQ_weight s ≤ 2 * (MLFQ_members s).length := by
  unfold MLFQ_weight MLFQ_members
  simp only [List.length_append]
  omega

theorem MLFQ_step (ps0 : List Process) (s : MLFQState) (h : MLFQInv ps0 s)
    (hc : anyLeft s.ps = true) :
    (MLFQInv ps0 (MLFQ_body s) ∧ MLFQ_measure (MLFQ_body s) < MLFQ_measure s) ∧
      StepOK s.ps (MLFQ_body s).ps (compClock s.comp) (compClock (MLFQ_body s).comp)
        (MLFQ_body s).t := by
  obtain ⟨hfr, hacct, hadm, hg, hgt, hcl, hld⟩ := h
  have hb : ∀ i, i < s.ps.length → 0 < (procAt s.ps i).burst_time := fun i hi => (hacct.2 i hi).1
  have hadm1 : Adm (MLFQ_push s).ps (MLFQ_push s).t (MLFQ_push s).idx
      (MLFQ_members (MLFQ_push s)) := by
    have := MLFQ_push_adm s [] hb (by simpa using hadm)
    simpa using this
  obtain ⟨f1, f2, f3, f4, f5, f6, f7, f8⟩ := MLFQ_push_fields s
  have hw1 := MLFQ_push_weight s
  cases hfirst : MLFQ_firstNonEmpty (MLFQ_push s) with
  | none =>
    obtain ⟨z0, z1, z2⟩ := MLFQ_first_none _ hfirst
    have hnew : newArrivals s.ps s.t s.idx = [] := by
      rw [f2] at z0; exact (List.append_eq_nil.mp z0).2
    have hq0 : s.q0 = [] := by rw [f2] at z0; exact (List.append_eq_nil.mp z0).1
    have hq1 : s.q1 = [] := by rw [← f3]; exact z1
    have hq2 : s.q2 = [] := by rw [← f4]; exact z2
    have hm : MLFQ_members s = [] := by simp [MLFQ_members, hq0, hq1, hq2]
    have hm1 : MLFQ_members (MLFQ_push s) = [] := by simp [MLFQ_members, z0, z1, z2]
    rw [hm] at hadm
    have i1 := idx_lt_of_left hadm hc
    obtain ⟨i2, i3, i4, i5, i6, _⟩ := idle_core hacct hadm i1 hnew
    have hidx : (MLFQ_push s).idx = s.idx := by rw [f8, hnew]; rfl
    have hcond : (MLFQ_push s).idx < (MLFQ_push s).ps.length := by rw [hidx, f1]; exact i1
    unfold MLFQ_body
    simp only [hfirst, hcond, if_true]
    refine ⟨⟨⟨?_, ?_, ?_, ?_, ?_, ?_, ?_⟩, ?_⟩, ?_⟩
    · show Frame ps0 (MLFQ_push s).ps
      rw [f1]; exact hfr
    · show Acct (MLFQ_push s).ps (compClock (MLFQ_push s).comp)
        (procAt (MLFQ_push s).ps (MLFQ_push s).idx).arrival_time
      rw [f1, f6, hidx]; exact i3
    · show Adm (MLFQ_push s).ps (procAt (MLFQ_push s).ps (MLFQ_push s).idx).arrival_time
        (MLFQ_push s).idx ((MLFQ_push s).q0 ++ (MLFQ_push s).q1 ++ (MLFQ_push s).q2)
      rw [f1, hidx, z0, z1, z2]
      simpa using i4
    · show TInv (MLFQ_push s).ps ((MLFQ_push s).gantt ++ _)
      rw [f1, f7]; exact TInv_idle_snoc hg _
    · show ganttTotal ((MLFQ_push s).gantt ++ [("IDLE",
        (procAt (MLFQ_push s).ps (MLFQ_push s).idx).arrival_time - (MLFQ_push s).t)]) =
        (procAt (MLFQ_push s).ps (MLFQ_push s).idx).arrival_time
      rw [ganttTotal_append, f7, hgt, f5]; simp [ganttTotal]
    · show (MLFQ_push s).comp.length = (MLFQ_push s).ps.length
      rw [f1, f6]; exact hcl
    · show LastDone (MLFQ_push s).ps (compClock (MLFQ_push s).comp) _
      rw [f1]; exact Or.inr (Or.inl hc)
    · unfold MLFQ_measure
      show remSum (MLFQ_push s).ps * (2 * (MLFQ_push s).ps.length + 3)
          + ((MLFQ_push s).q1.length + 2 * (MLFQ_push s).q2.length)
          + idleFlag (MLFQ_push s).ps (procAt (MLFQ_push s).ps (MLFQ_push s).idx).arrival_time
            (MLFQ_push s).idx
            ((MLFQ_push s).q0 ++ (MLFQ_push s).q1 ++ (MLFQ_push s).q2) < _
      rw [f1, hidx, z0, z1, z2, hm]
      simp only [List.append_nil, i5, i6, MLFQ_weight, hq1, hq2, List.length_nil]
      omega
    · show StepOK s.ps (MLFQ_push s).ps (compClock s.comp) (compClock (MLFQ_push s).comp) _
      rw [f1, f6]; exact StepOK_same _ _ _
  | some qi =>
    obtain ⟨hqi, p, tl, hget⟩ := MLFQ_first_some _ qi hfirst
    obtain ⟨hpermpop, hwpop⟩ := MLFQ_pop_queues (MLFQ_push s) qi p tl hqi hget
    obtain ⟨g1, g2, g3, g4, g5, g6⟩ := MLFQ_setq_fields (MLFQ_push s) qi tl
    have hadm2 : Adm s.ps s.t (MLFQ_push s).idx (p :: MLFQ_members (MLFQ_setq (MLFQ_push s) qi tl)) := by
      have := Adm_perm hadm1 hpermpop
      rwa [f1, f5] at this
    have hp := (hadm2.2.2.2.2 p).mp (List.mem_cons_self p _)
    have hpn : p < s.ps.length := lt_of_lt_of_le hp.1 hadm2.1
    unfold MLFQ_body
    simp only [hfirst, hget, List.headD_cons, List.tail_cons]
    generalize hs2 : MLFQ_setq (MLFQ_push s) qi tl = s2 at *
    have s2ps : s2.ps = s.ps := g1.trans f1
    have s2t : s2.t = s.t := g2.trans f5
    have s2c : s2.comp = s.comp := g4.trans f6
    have s2g : s2.gantt = s.gantt := g5.trans f7
    by_cases hprom : qi > 0 ∧ s2.t - s2.last_enq.getD p 0 ≥ MLFQ_AGE
    · rw [if_pos hprom]
      obtain ⟨e1, e2, e3, e4, e5⟩ := MLFQ_enq_fields s2 p ((qi : Int) - 1)
      obtain ⟨ep, ew⟩ := MLFQ_enq_queues s2 p ((qi : Int) - 1)
      have hmem : List.Perm (p :: MLFQ_members s2) (MLFQ_members (MLFQ_enq s2 p ((qi : Int) - 1))) := by
        refine List.Perm.trans ?_ ep.symm
        exact (List.perm_append_singleton p _).symm
      have hne : MLFQ_members (MLFQ_enq s2 p ((qi : Int) - 1)) ≠ [] := by
        intro hn
        rw [hn] at hmem
        exact List.cons_ne_nil _ _ (List.Perm.eq_nil hmem)
      refine ⟨⟨⟨?_, ?_, ?_, ?_, ?_, ?_, ?_⟩, ?_⟩, ?_⟩
      · rw [e1, s2ps]; exact hfr
      · rw [e1, e4, e2, s2ps, s2c, s2t]; exact hacct
      · rw [e1, e2, e3, s2ps, s2t, g3]; exact Adm_perm hadm2 hmem
      · rw [e1, e5, s2ps, s2g]; exact hg
      · rw [e5, e2, s2g, s2t]; exact hgt
      · rw [e1, e4, s2ps, s2c]; exact hcl
      · rw [e1, e4, e2, s2ps, s2c, s2t]; exact Or.inr (Or.inl hc)
      · unfold MLFQ_measure
        rw [e1, e2, e3, s2ps, s2t, ew]
        have hfl : idleFlag s.ps s.t s2.idx (MLFQ_members (MLFQ_enq s2 p ((qi : Int) - 1))) = 0 := by
          unfold idleFlag; simp [hne]
        rw [hfl]
        have hq : (max 0 (min 2 ((qi : Int) - 1))).toNat + 1 = qi := by omega
        omega
      · rw [e1, e4, e2, s2ps, s2c]; exact StepOK_same _ _ _
    · rw [if_neg hprom]
      have hb2 : ∀ i, i < s2.ps.length → 0 < (procAt s2.ps i).burst_time := by
        rw [s2ps]; exact hb
      have hadm3 : Adm s2.ps s2.t s2.idx ([p] ++ MLFQ_members s2) := by
        rw [s2ps, s2t, g3]; exact hadm2
      have hspec := MLFQ_runLoop_spec p qi (MLFQ_quantum qi).toNat s2 0 hb2 hadm3 (by simp)
      generalize MLFQ_runLoop p qi (MLFQ_quantum qi).toNat s2 0 = r at *
      obtain ⟨k, k1, k2, k3, k4, k5, k6, k6c, k6w, k7, k8⟩ := hspec
      have hk : 0 < k := k8 (by
        have : qi = 0 ∨ qi = 1 ∨ qi = 2 := by omega
        rcases this with rfl | rfl | rfl <;> simp [MLFQ_quantum])
      rw [s2ps] at k3 k4 k7
      rw [s2t] at k5
      rw [s2g] at k6
      rw [s2c] at k6c
      have k2b : r.2 = k := by rw [k2]; omega
      have hgantt : (if r.2 > 0 then r.1.gantt ++ [((procAt r.1.ps p).id, r.2)] else r.1.gantt)
          = s.gantt ++ [((procAt s.ps p).id, k)] := by
        rw [k2b, if_pos hk, k6, k3.2.2.2.1.1]
      rw [hgantt]
      have harr : (procAt s.ps p).arrival_time ≤ s.t := hadm2.2.2.1 p hp.1
      have hgt2 : ganttTotal (s.gantt ++ [((procAt s.ps p).id, k)]) = r.1.t := by
        rw [ganttTotal_append, hgt, k5]; simp [ganttTotal]
      have hR := RunsTo_remSum_lt k3 hk k4
      have hmul : remSum r.1.ps * (2 * r.1.ps.length + 3) + (2 * s.ps.length + 3)
          ≤ remSum s.ps * (2 * s.ps.length + 3) := by
        have h1 : remSum r.1.ps + 1 ≤ remSum s.ps := by omega
        have h2 := Nat.mul_le_mul_right (2 * s.ps.length + 3) h1
        rw [Nat.add_mul, Nat.one_mul] at h2
        rw [k3.1]
        exact h2
      have hws : MLFQ_weight r.1 + qi = MLFQ_weight s := by
        rw [k6w, hwpop, hw1]
      by_cases h0 : (procAt r.1.ps p).remaining_time = 0
      · rw [if_pos h0]
        have hz : (procAt s.ps p).remaining_time - k = 0 := by rw [← k3.2.2.2.2]; exact h0
        have hcc : ∀ j, j ≠ p → compClock (r.1.comp.set p r.1.t) j = compClock s.comp j := by
          intro j hj
          rw [k6c, compClock_set _ _ _ _ (by omega)]; simp [hj]
        have hci : (procAt s.ps p).remaining_time - k = 0 →
            compClock (r.1.comp.set p r.1.t) p = s.t + k := by
          intro _
          rw [k6c, compClock_set _ _ _ _ (by omega), k5]; simp
        rw [if_neg (by omega)] at k7
        refine ⟨⟨⟨Frame_run hfr k3, ?_, ?_, TInv_run_snoc hg k3,
          hgt2, ?_, ?_⟩, ?_⟩, ?_⟩
        · show Acct r.1.ps (compClock (r.1.comp.set p r.1.t)) r.1.t
          have hX := Acct_run hacct k3 harr hk k4 hcc hci
          rw [← k5] at hX; exact hX
        · show Adm r.1.ps r.1.t r.1.idx (MLFQ_members r.1)
          simpa using k7
        · show (r.1.comp.set p r.1.t).length = r.1.ps.length
          rw [List.length_set, k6c, k3.1]; exact hcl
        · show LastDone r.1.ps (compClock (r.1.comp.set p r.1.t)) r.1.t
          have hX := LastDone_run (t := s.t) k3 k4 hci
          rw [← k5] at hX; exact hX
        · unfold MLFQ_measure
          show remSum r.1.ps * (2 * r.1.ps.length + 3) + MLFQ_weight r.1
            + idleFlag r.1.ps r.1.t r.1.idx (MLFQ_members r.1) < _
          have := idleFlag_le r.1.ps r.1.t r.1.idx (MLFQ_members r.1)
          omega
        · show StepOK s.ps r.1.ps (compClock s.comp) (compClock (r.1.comp.set p r.1.t)) r.1.t
          have hX := StepOK_run (t := s.t) k3 hk k4 hcc hci
          rw [← k5] at hX; exact hX
      · rw [if_neg h0]
        have hnz : (procAt s.ps p).remaining_time - k ≠ 0 := by rw [← k3.2.2.2.2]; exact h0
        have hci : (procAt s.ps p).remaining_time - k = 0 → compClock s.comp p = s.t + k :=
          fun hz => absurd hz hnz
        have hA := Acct_run (d := compClock s.comp) hacct k3 harr hk k4 (fun _ _ => rfl) hci
        rw [if_pos (by have := hA.2 p (by rw [k3.1]; exact hpn); rw [k3.2.2.2.2] at this; omega)]
          at k7
        generalize hs4 : MLFQState.mk r.1.ps r.1.q0 r.1.q1 r.1.q2 r.1.t r.1.idx r.1.last_enq
          r.1.level r.1.comp (s.gantt ++ [((procAt s.ps p).id, k)]) = s4
        have s4ps : s4.ps = r.1.ps := by rw [← hs4]
        have s4t : s4.t = r.1.t := by rw [← hs4]
        have s4i : s4.idx = r.1.idx := by rw [← hs4]
        have s4c : s4.comp = s.comp := by rw [← hs4]; exact k6c
        have s4g : s4.gantt = s.gantt ++ [((procAt s.ps p).id, k)] := by rw [← hs4]
        have s4m : MLFQ_members s4 = MLFQ_members r.1 := by rw [← hs4]; rfl
        have s4w : MLFQ_weight s4 = MLFQ_weight r.1 := by rw [← hs4]; rfl
        generalize (if r.2 = MLFQ_quantum qi ∧ qi < 2 then (qi : Int) + 1 else (qi : Int)) = lv
        obtain ⟨e1, e2, e3, e4, e5⟩ := MLFQ_enq_fields s4 p lv
        obtain ⟨ep, ew⟩ := MLFQ_enq_queues s4 p lv
        refine ⟨⟨⟨?_, ?_, ?_, ?_, ?_, ?_, ?_⟩, ?_⟩, ?_⟩
        · rw [e1, s4ps]; exact Frame_run hfr k3
        · rw [e1, e4, e2, s4ps, s4c, s4t, k5]; exact hA
        · rw [e1, e2, e3, s4ps, s4t, s4i]
          refine Adm_perm k7 ?_
          refine List.Perm.trans ?_ ep.symm
          rw [s4m]
          exact List.perm_append_comm
        · rw [e1, e5, s4ps, s4g]; exact TInv_run_snoc hg k3
        · rw [e5, e2, s4g, s4t]; exact hgt2
        · rw [e1, e4, s4ps, s4c, k3.1]; exact hcl
        · rw [e1, e4, e2, s4ps, s4c, s4t, k5]; exact LastDone_run k3 k4 hci
        · unfold MLFQ_measure
          rw [e1, e2, e3, s4ps, s4t, ew, s4w]
          have := idleFlag_le r.1.ps r.1.t s4.idx (MLFQ_members (MLFQ_enq s4 p lv))
          have hl : (max 0 (min 2 lv)).toNat ≤ 2 := by omega
          omega
        · rw [e1, e4, e2, s4ps, s4c, s4t, k5]
          exact StepOK_run k3 hk k4 (fun _ _ => rfl) hci

/-! ## SJF and Priority -/

theorem take_add_range (ord : List Nat) (next : Nat) :
    ∀ k, next + k ≤ ord.length →
      ord.take (next + k) = ord.take next ++ (List.range' next k).map (fun j => ord.getD j 0) := by
  intro k
  induction k with
  | zero => intro _; simp
  | succ k ih =>
    intro hk
    have hlt : next + k < ord.length := by omega
    rw [← Nat.add_assoc, List.take_succ, ih (by omega), List.range'_concat, List.map_append,
      List.append_assoc]
    congr 1
    congr 1
    simp [List.getD_eq_getElem?_getD, List.getElem?_eq_getElem hlt]

theorem NP_pushLoop_spec (ord : List Nat) (ps : List Process) (t : Int) :
    ∀ (fuel next : Nat) (rq : List Nat), fuel = ord.length - next → next ≤ ord.length →
      ∃ k, NP_pushLoop ord ps t fuel next rq
          = (next + k, rq ++ (List.range' next k).map (fun j => ord.getD j 0)) ∧
        next + k ≤ ord.length ∧
        (∀ j, next ≤ j → j < next + k → (procAt ps (ord.getD j 0)).arrival_time ≤ t) ∧
        (next + k < ord.length → t < (procAt ps (ord.getD (next + k) 0)).arrival_time) := by
  intro fuel
  induction fuel with
  | zero =>
    intro next rq hf hle
    refine ⟨0, by simp [NP_pushLoop], by simpa using hle, ?_, ?_⟩
    · intro j h1 h2; omega
    · intro h; omega
  | succ fuel ih =>
    intro next rq hf hle
    by_cases hc : next < ord.length ∧ (procAt ps (ord.getD next 0)).arrival_time ≤ t
    · obtain ⟨k, h1, h2, h3, h4⟩ := ih (next + 1) (rq ++ [ord.getD next 0]) (by omega) (by omega)
      refine ⟨k + 1, ?_, by omega, ?_, ?_⟩
      · simp only [NP_pushLoop, hc, and_self, if_true, h1]
        rw [List.range'_succ, List.map_cons, List.append_assoc]
        simp only [List.singleton_append, Prod.mk.injEq, and_true]
        omega
      · intro j hj1 hj2
        by_cases hj : j = next
        · subst hj; exact hc.2
        · exact h3 j (by omega) (by omega)
      · intro hlt
        have e : next + 1 + k = next + (k + 1) := by omega
        have := h4 (by omega)
        rwa [e] at this
    · refine ⟨0, by simp only [NP_pushLoop, if_neg hc]; simp, by simpa using hle, ?_, ?_⟩
      · intro j h1 h2; omega
      · intro hlt
        simp only [Nat.add_zero] at hlt ⊢
        have := not_and.mp hc hlt
        omega

theorem SJF_pick_foldl (ps : List Process) (rq : List Nat) :
    ∀ (l : List Nat) (b : Int), (∀ i, i ∈ l → i < rq.length) →
      (b = -1 ∨ (0 ≤ b ∧ b.toNat < rq.length)) →
      ((l.foldl (fun (b : Int) (i : Nat) =>
          if b = -1
              ∨ (procAt ps (rq.getD i 0)).burst_time < (procAt ps (rq.getD b.toNat 0)).burst_time
              ∨ ((procAt ps (rq.getD i 0)).burst_time = (procAt ps (rq.getD b.toNat 0)).burst_time
                  ∧ strLt (procAt ps (rq.getD i 0)).id (procAt ps (rq.getD b.toNat 0)).id = true)
          then (i : Int) else b) b = -1 ∧ b = -1 ∧ l = []) ∨
        (0 ≤ l.foldl (fun (b : Int) (i : Nat) =>
          if b = -1
              ∨ (procAt ps (rq.getD i 0)).burst_time < (procAt ps (rq.getD b.toNat 0)).burst_time
              ∨ ((procAt ps (rq.getD i 0)).burst_time = (procAt ps (rq.getD b.toNat 0)).burst_time
                  ∧ strLt (procAt ps (rq.getD i 0)).id (procAt ps (rq.getD b.toNat 0)).id = true)
          then (i : Int) else b) b ∧
         (l.foldl (fun (b : Int) (i : Nat) =>
          if b = -1
              ∨ (procAt ps (rq.getD i 0)).burst_time < (procAt ps (rq.getD b.toNat 0)).burst_time
              ∨ ((procAt ps (rq.getD i 0)).burst_time = (procAt ps (rq.getD b.toNat 0)).burst_time
                  ∧ strLt (procAt ps (rq.getD i 0)).id (procAt ps (rq.getD b.toNat 0)).id = true)
          then (i : Int) else b) b).toNat < rq.length)) := by
  intro l
  induction l with
  | nil =>
    intro b _ hb
    rcases hb with hb | hb
    · left; exact ⟨hb, hb, rfl⟩
    · right; exact hb
  | cons a rest ih =>
    intro b hl hb
    simp only [List.foldl_cons]
    have ha : a < rq.length := hl a (List.mem_cons_self a rest)
    have hrest : ∀ i, i ∈ rest → i < rq.length := fun i hi => hl i (List.mem_cons_of_mem a hi)
    split
    · rcases ih (a : Int) hrest (Or.inr ⟨by omega, by simpa using ha⟩) with ⟨h1, h2, _⟩ | h
      · omega
      · right; exact h
    · rename_i hcond
      have hb1 : b ≠ -1 := fun h => hcond (Or.inl h)
      rcases hb with hb | hb
      · exact absurd hb hb1
      · rcases ih b hrest (Or.inr hb) with ⟨h1, h2, _⟩ | h
        · exact absurd h2 hb1
        · right; exact h

theorem SJF_pick_ok : PickOK SJF_pick := by
  intro ps rq hne
  have hlen : 0 < rq.length := List.length_pos.mpr hne
  rcases SJF_pick_foldl ps rq (List.range rq.length) (-1) (fun i hi => List.mem_range.mp hi)
    (Or.inl rfl) with ⟨_, _, h3⟩ | h
  · have : (List.range rq.length).length = 0 := by rw [h3]; rfl
    rw [List.length_range] at this
    omega
  · exact h

theorem Priority_pick_foldl (ps : List Process) (rq : List Nat) :
    ∀ (l : List Nat) (b : Int), (∀ i, i ∈ l → i < rq.length) →
      (0 ≤ b ∧ b.toNat < rq.length) →
      (0 ≤ l.foldl (fun (b : Int) (i : Nat) =>
          if (procAt ps (rq.getD i 0)).priority < (procAt ps (rq.getD b.toNat 0)).priority
              ∨ ((procAt ps (rq.getD i 0)).priority = (procAt ps (rq.getD b.toNat 0)).priority
                  ∧ strLt (procAt ps (rq.getD i 0)).id (procAt ps (rq.getD b.toNat 0)).id = true)
          then (i : Int) else b) b ∧
        (l.foldl (fun (b : Int) (i : Nat) =>
          if (procAt ps (rq.getD i 0)).priority < (procAt ps (rq.getD b.toNat 0)).priority
              ∨ ((procAt ps (rq.getD i 0)).priority = (procAt ps (rq.getD b.toNat 0)).priority
                  ∧ strLt (procAt ps (rq.getD i 0)).id (procAt ps (rq.getD b.toNat 0)).id = true)
          then (i : Int) else b) b).toNat < rq.length) := by
  intro l
  induction l with
  | nil => intro b _ hb; exact hb
  | cons a rest ih =>
    intro b hl hb
    simp only [List.foldl_cons]
    have ha : a < rq.length := hl a (List.mem_cons_self a rest)
    have hrest : ∀ i, i ∈ rest → i < rq.length := fun i hi => hl i (List.mem_cons_of_mem a hi)
    split
    · exact ih (a : Int) hrest ⟨by omega, by simpa using ha⟩
    · exact ih b hrest hb

theorem Priority_pick_ok : PickOK Priority_pick := by
  intro ps rq hne
  have hlen : 0 < rq.length := List.length_pos.mpr hne
  refine Priority_pick_foldl ps rq (List.range' 1 (rq.length - 1)) 0 ?_ ⟨le_refl _, by simpa using hlen⟩
  intro i hi
  have := List.mem_range'_1.mp hi
  omega

theorem NP_push_spec (ord : List Nat) (s : NPState) (hnd : ord.Nodup)
    (hnext : s.next ≤ ord.length) (hrqnd : s.rq.Nodup)
    (hrqsub : ∀ i, i ∈ s.rq → i ∈ ord.take s.next)
    (harr : ∀ i, i ∈ ord.take s.next → (procAt s.ps i).arrival_time ≤ s.t) :
    (NP_push ord s).ps = s.ps ∧ (NP_push ord s).t = s.t ∧ (NP_push ord s).gantt = s.gantt ∧
      (NP_push ord s).next ≤ ord.length ∧ (NP_push ord s).rq.Nodup ∧
      (∀ i, i ∈ (NP_push ord s).rq → i ∈ ord.take (NP_push ord s).next) ∧
      (∀ i, i ∈ ord.take (NP_push ord s).next → (procAt s.ps i).arrival_time ≤ s.t) ∧
      (∀ i, NP_done ord (NP_push ord s) i ↔ NP_done ord s i) ∧
      ((NP_push ord s).next < ord.length →
        s.t < (procAt s.ps (ord.getD (NP_push ord s).next 0)).arrival_time) ∧
      NP_measure ord (NP_push ord s) = NP_measure ord s ∧
      (s.rq ≠ [] → (NP_push ord s).rq ≠ []) ∧
      (s.next < ord.length → (procAt s.ps (ord.getD s.next 0)).arrival_time ≤ s.t →
        (NP_push ord s).rq ≠ []) := by
  obtain ⟨k, h1, h2, h3, h4⟩ := NP_pushLoop_spec ord s.ps s.t (ord.length - s.next) s.next s.rq
    rfl hnext
  have hn : (NP_push ord s).next = s.next + k := by unfold NP_push; simp only [h1]
  have hr : (NP_push ord s).rq = s.rq ++ (List.range' s.next k).map (fun j => ord.getD j 0) := by
    unfold NP_push; simp only [h1]
  have htake := take_add_range ord s.next k h2
  have hndt : (ord.take s.next ++ (List.range' s.next k).map (fun j => ord.getD j 0)).Nodup := by
    rw [← htake]
    exact List.Nodup.sublist (List.take_sublist _ _) hnd
  obtain ⟨n1, n2, n3⟩ := List.nodup_append.mp hndt
  have hadd : ∀ i, i ∈ (List.range' s.next k).map (fun j => ord.getD j 0) →
      (procAt s.ps i).arrival_time ≤ s.t := by
    intro i hi
    obtain ⟨j, hj, rfl⟩ := List.mem_map.mp hi
    have := List.mem_range'_1.mp hj
    exact h3 j this.1 this.2
  refine ⟨rfl, rfl, rfl, by rw [hn]; exact h2, ?_, ?_, ?_, ?_, ?_, ?_, ?_, ?_⟩
  · rw [hr, List.nodup_append]
    refine ⟨hrqnd, n2, ?_⟩
    intro a ha hb
    exact n3 (hrqsub a ha) hb
  · intro i hi
    rw [hn, htake, List.mem_append]
    rw [hr, List.mem_append] at hi
    rcases hi with hi | hi
    · exact Or.inl (hrqsub i hi)
    · exact Or.inr hi
  · intro i hi
    rw [hn, htake, List.mem_append] at hi
    rcases hi with hi | hi
    · exact harr i hi
    · exact hadd i hi
  · intro i
    unfold NP_done
    rw [hn, htake, hr, List.mem_append, List.mem_append]
    constructor
    · rintro ⟨a, b⟩
      push_neg at b
      rcases a with a | a
      · exact ⟨a, b.1⟩
      · exact absurd a b.2
    · rintro ⟨a, b⟩
      refine ⟨Or.inl a, ?_⟩
      push_neg
      exact ⟨b, fun hcon => n3 a hcon⟩
  · intro hlt
    rw [hn] at hlt ⊢
    exact h4 hlt
  · unfold NP_measure
    rw [hn, hr]
    simp only [List.length_append, List.length_map, List.length_range']
    omega
  · intro hne hcon
    rw [hr] at hcon
    exact hne (List.append_eq_nil.mp hcon).1
  · intro hlt hle hcon
    rw [hr] at hcon
    have hk : k = 0 := by
      have := (List.append_eq_nil.mp hcon).2
      simpa using this
    subst hk
    have := h4 (by simpa using hlt)
    simp only [Nat.add_zero] at this
    omega

theorem segments_append (id : String) (g h : Gantt) :
    segments id (g ++ h) = segments id g ++ segments id h := by
  simp [segments, List.filter_append]

theorem segments_single (id l : String) (d : Int) :
    segments id [(l, d)] = if l = id then [(l, d)] else [] := by
  by_cases h : l = id <;> simp [segments, List.filter, h]

theorem NP_pre (ps0 : List Process) (ord : List Nat) (s : NPState) (h : NPInv ps0 ord s)
    (hc : NP_cond ord s = true) (s2 : NPState)
    (hs2 : s2 = if (NP_push ord s).rq.isEmpty then
        NP_push ord { NP_push ord s with
          gantt := (NP_push ord s).gantt ++ [("IDLE",
            (procAt (NP_push ord s).ps (ord.getD (NP_push ord s).next 0)).arrival_time
              - (NP_push ord s).t)],
          t := (procAt (NP_push ord s).ps (ord.getD (NP_push ord s).next 0)).arrival_time }
      else NP_push ord s) :
    s2.ps = s.ps ∧ s.t ≤ s2.t ∧ s2.rq ≠ [] ∧ s2.next ≤ ord.length ∧ s2.rq.Nodup ∧
      (∀ i, i ∈ s2.rq → i ∈ ord.take s2.next) ∧
      (∀ i, i ∈ ord.take s2.next → (procAt s.ps i).arrival_time ≤ s2.t) ∧
      (∀ i, NP_done ord s2 i ↔ NP_done ord s i) ∧
      (∀ id, id ≠ "IDLE" → segments id s2.gantt = segments id s.gantt) ∧
      ganttTotal s2.gantt = s2.t ∧ NP_measure ord s2 = NP_measure ord s ∧
      ∃ ext, s2.gantt = s.gantt ++ ext := by
  obtain ⟨a1, a2, a3, a4, a5, a6, a7, a8, a9, a10, a11, a12⟩ :=
    NP_push_spec ord s h.ordnd h.nextle h.rqnd h.rqsub h.arrived
  by_cases he : (NP_push ord s).rq = []
  · have hiso : (NP_push ord s).rq.isEmpty = true := by simp [he]
    rw [if_pos hiso] at hs2
    have hsrq : s.rq = [] := by
      by_contra hne
      exact a11 hne he
    have hnlt : (NP_push ord s).next < ord.length := by
      have hm := a10
      unfold NP_measure at hm
      rw [he, hsrq] at hm
      simp only [List.length_nil, Nat.add_zero] at hm
      have : s.next < ord.length := by
        unfold NP_cond at hc
        simpa [hsrq] using hc
      omega
    have hlt := a9 hnlt
    generalize hed : ({ NP_push ord s with
          gantt := (NP_push ord s).gantt ++ [("IDLE",
            (procAt (NP_push ord s).ps (ord.getD (NP_push ord s).next 0)).arrival_time
              - (NP_push ord s).t)],
          t := (procAt (NP_push ord s).ps (ord.getD (NP_push ord s).next 0)).arrival_time }
        : NPState) = e at hs2
    have eps : e.ps = s.ps := by subst hed; rfl
    have et : e.t = (procAt s.ps (ord.getD (NP_push ord s).next 0)).arrival_time := by
      subst hed; rfl
    have en : e.next = (NP_push ord s).next := by subst hed; rfl
    have erq : e.rq = (NP_push ord s).rq := by subst hed; rfl
    have eg : e.gantt = s.gantt ++ [("IDLE",
        (procAt s.ps (ord.getD (NP_push ord s).next 0)).arrival_time - s.t)] := by
      subst hed; rfl
    obtain ⟨b1, b2, b3, b4, b5, b6, b7, b8, b9, b10, b11, b12⟩ :=
      NP_push_spec ord e h.ordnd (by rw [en]; exact a4) (by rw [erq]; exact a5)
        (by rw [erq, en]; exact a6)
        (by
          intro i hi
          rw [en] at hi
          rw [eps, et]
          exact le_trans (a7 i hi) (le_of_lt hlt))
    rw [hs2]
    refine ⟨b1.trans eps, ?_, ?_, b4, b5, b6, ?_, ?_, ?_, ?_, ?_, ⟨_, b3.trans eg⟩⟩
    · rw [b2, et]; exact le_of_lt hlt
    · apply b12
      · rw [en]; exact hnlt
      · rw [eps, et, en]
    · intro i hi
      have := b7 i hi
      rw [eps] at this
      rw [b2]; exact this
    · intro i
      rw [b8 i]
      have : NP_done ord e i ↔ NP_done ord (NP_push ord s) i := by
        unfold NP_done; rw [en, erq]
      rw [this, a8 i]
    · intro id hid
      rw [b3, eg, segments_append, segments_single]
      simp [Ne.symm hid]
    · rw [b3, b2, eg, et, ganttTotal_append, h.gtot]
      simp [ganttTotal]
    · rw [b10]
      have : NP_measure ord e = NP_measure ord (NP_push ord s) := by
        unfold NP_measure; rw [en, erq]
      rw [this, a10]
  · have hiso : ¬ ((NP_push ord s).rq.isEmpty = true) := by simpa using he
    rw [if_neg hiso] at hs2
    rw [hs2]
    refine ⟨a1, by rw [a2], he, a4, a5, a6, ?_, a8, ?_, ?_, a10, ⟨[], by rw [a3]; simp⟩⟩
    · intro i hi; rw [a2]; exact a7 i hi
    · intro i _; rw [a3]
    · rw [a3, a2]; exact h.gtot

theorem NP_step (pick : List Process → List Nat → Int) (hpick : PickOK pick)
    (ps0 : List Process) (ord : List Nat) (s : NPState) (h : NPInv ps0 ord s)
    (hc : NP_cond ord s = true) :
    NPInv ps0 ord (NP_body pick ord s) ∧
      NP_measure ord (NP_body pick ord s) < NP_measure ord s := by
  unfold NP_body
  simp only
  generalize hs2 : (if (NP_push ord s).rq.isEmpty then
        NP_push ord { NP_push ord s with
          gantt := (NP_push ord s).gantt ++ [("IDLE",
            (procAt (NP_push ord s).ps (ord.getD (NP_push ord s).next 0)).arrival_time
              - (NP_push ord s).t)],
          t := (procAt (NP_push ord s).ps (ord.getD (NP_push ord s).next 0)).arrival_time }
      else NP_push ord s) = s2
  obtain ⟨p1, p2, p3, p4, p5, p6, p7, p8, p9, p10, p11, ext, p12⟩ :=
    NP_pre ps0 ord s h hc s2 hs2.symm
  obtain ⟨q1, q2⟩ := hpick s2.ps s2.rq p3
  generalize hposd : (pick s2.ps s2.rq).toNat = pos at *
  have hperm := perm_cons_eraseIdx s2.rq pos q2
  generalize hidxd : s2.rq.getD pos 0 = idx at *
  have hnd2 : (idx :: s2.rq.eraseIdx pos).Nodup := hperm.nodup_iff.mp p5
  obtain ⟨hnotin, hnd3⟩ := List.nodup_cons.mp hnd2
  have hmem : ∀ i, i ∈ s2.rq ↔ i = idx ∨ i ∈ s2.rq.eraseIdx pos := by
    intro i; rw [hperm.mem_iff]; exact List.mem_cons
  have hidxrq : idx ∈ s2.rq := (hmem idx).mpr (Or.inl rfl)
  have hidxtake : idx ∈ ord.take s2.next := p6 idx hidxrq
  have hidxn : idx < s.ps.length := (h.ordmem idx).mp (List.mem_of_mem_take hidxtake)
  rw [p1]
  have hbpos := h.bpos idx hidxn
  have hr : RunsTo s.ps (modifyAt s.ps idx (setMetrics (s2.t + (procAt s.ps idx).burst_time)))
      idx 0 :=
    RunsTo_of_modifyAt s.ps idx 0 _ hidxn (static_setMetrics _) (fun _ => by simp [setMetrics])
  generalize hps3 : modifyAt s.ps idx (setMetrics (s2.t + (procAt s.ps idx).burst_time)) = ps3
    at *
  have hp3idx : procAt ps3 idx = setMetrics (s2.t + (procAt s.ps idx).burst_time)
      (procAt s.ps idx) := by
    rw [← hps3]; exact procAt_modifyAt_eq _ _ _ hidxn
  have hnotdone : ¬ NP_done ord s idx := by
    rw [← p8 idx]
    exact fun hd => hd.2 hidxrq
  have hdone3 : ∀ i, (i ∈ ord.take s2.next ∧ i ∉ s2.rq.eraseIdx pos) ↔
      (i = idx ∨ NP_done ord s i) := by
    intro i
    rw [← p8 i]
    unfold NP_done
    constructor
    · rintro ⟨a, b⟩
      by_cases hi : i = idx
      · exact Or.inl hi
      · refine Or.inr ⟨a, ?_⟩
        intro hcon
        rcases (hmem i).mp hcon with h1 | h1
        · exact hi h1
        · exact b h1
    · rintro (hi | ⟨a, b⟩)
      · subst hi; exact ⟨hidxtake, hnotin⟩
      · exact ⟨a, fun hcon => b ((hmem i).mpr (Or.inr hcon))⟩
  refine ⟨⟨Frame_run h.frame hr, ?_, h.ordnd, ?_, p4,
    ?_, hnd3, ?_, ?_, ?_, ?_, ?_, ?_⟩, ?_⟩
  · intro i hi
    show 0 < (procAt ps3 i).burst_time
    rw [(RunsTo_static_all hr i).2.2.1]
    exact h.bpos i (by rw [← hr.1]; exact hi)
  · intro i
    show i ∈ ord ↔ i < ps3.length
    rw [hr.1]; exact h.ordmem i
  · show 0 ≤ s2.t + (procAt s.ps idx).burst_time
    have := h.tpos
    omega
  · intro i hi
    exact p6 i ((hmem i).mpr (Or.inr hi))
  · intro i hi
    show (procAt ps3 i).arrival_time ≤ s2.t + (procAt s.ps idx).burst_time
    rw [(RunsTo_static_all hr i).2.1]
    have := p7 i hi
    omega
  · intro i hd
    have hd2 := (hdone3 i).mp hd
    show (procAt ps3 i).waiting_time = (procAt ps3 i).turnaround_time - (procAt ps3 i).burst_time ∧
      (procAt ps3 i).arrival_time + (procAt ps3 i).burst_time ≤ doneClock ps3 i ∧
      doneClock ps3 i ≤ s2.t + (procAt s.ps idx).burst_time ∧
      ∃ g1 g2, s2.gantt ++ [((procAt s.ps idx).id, (procAt s.ps idx).burst_time)]
          = g1 ++ [((procAt ps3 i).id, (procAt ps3 i).burst_time)] ++ g2 ∧
        ganttTotal g1 + (procAt ps3 i).burst_time = doneClock ps3 i
    by_cases hi : i = idx
    · subst hi
      unfold doneClock
      rw [hp3idx]
      have harr := p7 i hidxtake
      refine ⟨by simp [setMetrics], by simp [setMetrics]; omega, by simp [setMetrics], ?_⟩
      refine ⟨s2.gantt, [], by simp [setMetrics], ?_⟩
      rw [p10]
      simp [setMetrics]
    · have hds : NP_done ord s i := by
        rcases hd2 with h1 | h1
        · exact absurd h1 hi
        · exact h1
      have hin : i < s.ps.length := (h.ordmem i).mp (List.mem_of_mem_take hds.1)
      obtain ⟨d1, d2, d3, g1, g2, d5, d6⟩ := h.done i hds
      unfold doneClock at d2 d3 d6 ⊢
      rw [hr.2.2.1 i hi]
      refine ⟨d1, d2, by omega, ?_⟩
      refine ⟨g1, g2 ++ ext ++ [((procAt s.ps idx).id, (procAt s.ps idx).burst_time)], ?_, d6⟩
      rw [p12, d5]
      simp
  · intro hq
    have hlab : LabelsOK s.ps :=
      ⟨by rw [← RunsTo_map_id hr]; exact hq.1, fun i hi => by
        rw [← (RunsTo_static_all hr i).1]; exact hq.2 i (by rw [hr.1]; exact hi)⟩
    obtain ⟨sd, sf⟩ := h.segs hlab
    have hsegidx : ∀ i, i < s.ps.length → i ≠ idx →
        segments (procAt s.ps i).id
          (s2.gantt ++ [((procAt s.ps idx).id, (procAt s.ps idx).burst_time)])
          = segments (procAt s.ps i).id s.gantt := by
      intro i hi hne
      rw [segments_append, segments_single, p9 _ (hlab.2 i hi)]
      have : (procAt s.ps idx).id ≠ (procAt s.ps i).id := by
        intro he
        exact hne (ids_injective s.ps hlab.1 idx i hidxn hi he).symm
      simp [this]
    refine ⟨?_, ?_⟩
    · intro i hd
      have hd2 := (hdone3 i).mp hd
      show segments (procAt ps3 i).id
          (s2.gantt ++ [((procAt s.ps idx).id, (procAt s.ps idx).burst_time)])
          = [((procAt ps3 i).id, (procAt ps3 i).burst_time)]
      by_cases hi : i = idx
      · subst hi
        rw [hp3idx]
        show segments (procAt s.ps i).id _ = [((procAt s.ps i).id, (procAt s.ps i).burst_time)]
        rw [segments_append, segments_single, p9 _ (hlab.2 i hidxn), sf i hidxn hnotdone]
        simp
      · have hds : NP_done ord s i := by
          rcases hd2 with h1 | h1
          · exact absurd h1 hi
          · exact h1
        have hin : i < s.ps.length := (h.ordmem i).mp (List.mem_of_mem_take hds.1)
        rw [hr.2.2.1 i hi, hsegidx i hin hi]
        exact sd i hds
    · intro i hi hnd
      show segments (procAt ps3 i).id
          (s2.gantt ++ [((procAt s.ps idx).id, (procAt s.ps idx).burst_time)]) = []
      have hi2 : i < s.ps.length := by rw [← hr.1]; exact hi
      have hne : i ≠ idx := fun he => hnd ((hdone3 i).mpr (Or.inl he))
      have hnds : ¬ NP_done ord s i := fun hd => hnd ((hdone3 i).mpr (Or.inr hd))
      rw [hr.2.2.1 i hne, hsegidx i hi2 hne]
      exact sf i hi2 hnds
  · show ganttTotal (s2.gantt ++ [((procAt s.ps idx).id, (procAt s.ps idx).burst_time)])
      = s2.t + (procAt s.ps idx).burst_time
    rw [ganttTotal_append, p10]
    simp [ganttTotal]
  · right; right
    refine ⟨idx, (hdone3 idx).mpr (Or.inl rfl), ?_⟩
    show doneClock ps3 idx = s2.t + (procAt s.ps idx).burst_time
    unfold doneClock
    rw [hp3idx]
    simp [setMetrics]
  · have hlen : s2.rq.length = (s2.rq.eraseIdx pos).length + 1 := by
      have := hperm.length_eq
      simpa using this
    rw [← p11]
    unfold NP_measure
    show (ord.length - s2.next) + (s2.rq.eraseIdx pos).length < (ord.length - s2.next) + s2.rq.length
    omega

/-! ## Whole runs -/

theorem loop_run {σ : Type} (cond : σ → Bool) (body : σ → σ) (Inv : σ → Prop) (μ : σ → Nat)
    (R : σ → σ → Prop)
    (hstep : ∀ s, Inv s → cond s = true → (Inv (body s) ∧ μ (body s) < μ s) ∧ R s (body s))
    (s0 : σ) (h0 : Inv s0) (n : Nat) (hn : μ s0 ≤ n) :
    ∃ K, LoopRun cond body Inv R s0 n K := by
  obtain ⟨K, hK, h1, h2, h3⟩ := loop_reach cond body Inv μ (fun s hI hc => (hstep s hI hc).1)
    n s0 h0 hn
  refine ⟨K, hK, h1, h2, h3, ?_, ?_⟩
  · intro k hk
    rw [Function.iterate_succ_apply']
    exact (hstep _ (h3 k (le_of_lt hk)) (h1 k hk)).2
  · intro fuel hf
    exact whileLoop_iterate cond body K fuel s0 h1 h2 (by omega)

/-! ## FCFS -/

theorem FCFS_loop_spec : ∀ (qs : List Process) (t : Int) (g : Gantt), 0 ≤ t →
    (∀ p, p ∈ qs → 0 < p.burst_time) →
    (FCFS_loop qs t g).1.length = qs.length ∧ t ≤ (FCFS_loop qs t g).2.2 ∧
    (∀ i, i < qs.length →
      Static (procAt qs i) (procAt (FCFS_loop qs t g).1 i) ∧
      (procAt (FCFS_loop qs t g).1 i).remaining_time = (procAt qs i).remaining_time ∧
      (procAt (FCFS_loop qs t g).1 i).waiting_time =
        (procAt (FCFS_loop qs t g).1 i).turnaround_time - (procAt qs i).burst_time ∧
      (procAt qs i).arrival_time + (procAt qs i).burst_time
        ≤ doneClock (FCFS_loop qs t g).1 i ∧
      doneClock (FCFS_loop qs t g).1 i ≤ (FCFS_loop qs t g).2.2 ∧
      ∃ g1 g2, (FCFS_loop qs t g).2.1 = g ++ g1 ++ [((procAt qs i).id, (procAt qs i).burst_time)]
          ++ g2 ∧
        t + ganttTotal g1 + (procAt qs i).burst_time = doneClock (FCFS_loop qs t g).1 i) ∧
    (qs ≠ [] → ∃ i, i < qs.length ∧ doneClock (FCFS_loop qs t g).1 i = (FCFS_loop qs t g).2.2) ∧
    ∃ G, (FCFS_loop qs t g).2.1 = g ++ G ∧ ganttTotal G = (FCFS_loop qs t g).2.2 - t ∧
      ∀ id, id ≠ "IDLE" →
        segments id G = (qs.filter (fun p => decide (p.id = id))).map
          (fun p => (p.id, p.burst_time)) := by
  intro qs
  induction qs with
  | nil =>
    intro t g _ _
    refine ⟨rfl, le_refl _, ?_, ?_, ⟨[], by simp [FCFS_loop], by simp [FCFS_loop, ganttTotal], ?_⟩⟩
    · intro i hi; simp at hi
    · intro h; exact absurd rfl h
    · intro id _; rfl
  | cons p rest ih =>
    intro t g ht hb
    have hbp : 0 < p.burst_time := hb p (List.mem_cons_self p rest)
    simp only [FCFS_loop]
    generalize hg1 : (if t < p.arrival_time then g ++ [("IDLE", p.arrival_time - t)] else g) = g1
    generalize ht1 : (if t < p.arrival_time then p.arrival_time else t) = t1
    have ht1a : t ≤ t1 ∧ p.arrival_time ≤ t1 := by
      rw [← ht1]; split <;> constructor <;> omega
    obtain ⟨G0, hG0, hG0t, hG0s⟩ : ∃ G0, g1 = g ++ G0 ∧ ganttTotal G0 = t1 - t ∧
        ∀ id, id ≠ "IDLE" → segments id G0 = [] := by
      rw [← hg1, ← ht1]
      by_cases hlt : t < p.arrival_time
      · rw [if_pos hlt, if_pos hlt]
        refine ⟨[("IDLE", p.arrival_time - t)], rfl, by simp [ganttTotal], ?_⟩
        intro id hid
        rw [segments_single]
        simp [Ne.symm hid]
      · rw [if_neg hlt, if_neg hlt]
        exact ⟨[], by simp, by simp [ganttTotal], fun _ _ => rfl⟩
    obtain ⟨i1, i2, i3, i4, G, i5, i6, i7⟩ := ih (t1 + p.burst_time)
      (g1 ++ [(p.id, p.burst_time)]) (by omega)
      (fun q hq => hb q (List.mem_cons_of_mem p hq))
    refine ⟨by simp [i1], by omega, ?_, ?_, ?_⟩
    · intro i hi
      cases i with
      | zero =>
        simp only [procAt, List.getD_cons_zero, doneClock]
        refine ⟨static_setMetrics _ _, rfl, by simp [setMetrics], by simp [setMetrics]; omega,
          by simp [setMetrics]; omega, ?_⟩
        refine ⟨G0, G, ?_, ?_⟩
        · rw [i5, hG0]
        · simp [setMetrics]; omega
      | succ i =>
        have hi2 : i < rest.length := by simpa using hi
        obtain ⟨j1, j2, j3, j4, j5, h1, h2, j6, j7⟩ := i3 i hi2
        simp only [procAt, List.getD_cons_succ, doneClock] at j1 j2 j3 j4 j5 j6 j7 ⊢
        refine ⟨j1, j2, j3, j4, j5, ?_⟩
        refine ⟨G0 ++ [(p.id, p.burst_time)] ++ h1, h2, ?_, ?_⟩
        · rw [j6, hG0]; simp
        · rw [← j7, ganttTotal_append, ganttTotal_append, hG0t]
          simp [ganttTotal]; omega
    · intro _
      by_cases hr : rest = []
      · subst hr
        refine ⟨0, by simp, ?_⟩
        simp [FCFS_loop, doneClock, procAt, setMetrics]
      · obtain ⟨i, hi, hd⟩ := i4 hr
        refine ⟨i + 1, by simpa using hi, ?_⟩
        simp only [doneClock, procAt, List.getD_cons_succ] at hd ⊢
        exact hd
    · refine ⟨G0 ++ [(p.id, p.burst_time)] ++ G, ?_, ?_, ?_⟩
      · rw [i5, hG0]; simp
      · rw [ganttTotal_append, ganttTotal_append, hG0t, i6]
        simp [ganttTotal]; omega
      · intro id hid
        rw [segments_append, segments_append, hG0s id hid, i7 id hid, segments_single]
        by_cases hpid : p.id = id
        · simp [List.filter, hpid]
        · simp [List.filter, hpid]

/-! ## From a run to its summary -/

theorem summary_completes {σ : Type} {ps : List Process} {cond : σ → Bool} {body : σ → σ}
    {s0 : σ} {psOf : σ → List Process} {cOf : σ → Nat → Int} {tOf : σ → Int} {n K : Nat}
    (h : RunSummary ps cond body s0 psOf cOf tOf n K) (hb : ∀ p, p ∈ ps → 0 < p.burst_time)
    (i : Nat) (hi : i < ps.length) :
    CompletesAt body s0 psOf tOf K i (cOf (Nat.iterate body K s0) i) := by
  have hmain : ∀ k, k ≤ K → (procAt (psOf (Nat.iterate body k s0)) i).remaining_time = 0 →
      CompletesAt body s0 psOf tOf k i (cOf (Nat.iterate body k s0) i) := by
    intro k
    induction k with
    | zero =>
      intro _ h0
      have := h.start i hi
      have hpos := hb _ (procAt_mem ps i hi)
      simp only [Function.iterate_zero, id_eq] at h0
      omega
    | succ k ih =>
      intro hk h0
      have hlen : i < (psOf (Nat.iterate body k s0)).length := by
        rw [(h.frame k (by omega)).1]; exact hi
      obtain ⟨s1, s2, s3⟩ := h.step k (by omega) i hlen
      by_cases hz : (procAt (psOf (Nat.iterate body k s0)) i).remaining_time = 0
      · obtain ⟨j, j1, j2, j3, j4⟩ := ih (by omega) hz
        exact ⟨j, by omega, j2, j3, by rw [j4, s2 hz]⟩
      · have hnn := ((h.acct k (by omega)).2 i hlen).2.2.1
        have hpos : 0 < (procAt (psOf (Nat.iterate body k s0)) i).remaining_time := by omega
        exact ⟨k, by omega, hpos, h0, (s3 hpos h0).symm⟩
  exact hmain K (le_refl _) (h.done i hi)

theorem summary_bounds {σ : Type} {ps : List Process} {cond : σ → Bool} {body : σ → σ}
    {s0 : σ} {psOf : σ → List Process} {cOf : σ → Nat → Int} {tOf : σ → Int} {n K : Nat}
    (h : RunSummary ps cond body s0 psOf cOf tOf n K) (i : Nat) (hi : i < ps.length) :
    (procAt ps i).arrival_time + (procAt ps i).burst_time ≤ cOf (Nat.iterate body K s0) i ∧
      cOf (Nat.iterate body K s0) i ≤ tOf (Nat.iterate body K s0) := by
  have hf := h.frame K (le_refl _)
  have hlen : i < (psOf (Nat.iterate body K s0)).length := by rw [hf.1]; exact hi
  obtain ⟨e1, e2, e3⟩ := hf.2 i hi
  have := ((h.acct K (le_refl _)).2 i hlen).2.2.2.2 (h.done i hi)
  rw [e2, e3] at this
  exact this

theorem summary_remaining {σ : Type} {ps : List Process} {cond : σ → Bool} {body : σ → σ}
    {s0 : σ} {psOf : σ → List Process} {cOf : σ → Nat → Int} {tOf : σ → Int} {n K : Nat}
    (h : RunSummary ps cond body s0 psOf cOf tOf n K) :
    (∀ k, k ≤ K → ∀ i, i < ps.length →
      0 ≤ (procAt (psOf (Nat.iterate body k s0)) i).remaining_time ∧
      (procAt (psOf (Nat.iterate body k s0)) i).remaining_time ≤ (procAt ps i).burst_time) ∧
    (∀ k, k < K → ∀ i, i < ps.length →
      (procAt (psOf (Nat.iterate body (k + 1) s0)) i).remaining_time
        ≤ (procAt (psOf (Nat.iterate body k s0)) i).remaining_time) := by
  refine ⟨?_, ?_⟩
  · intro k hk i hi
    have hf := h.frame k hk
    have hlen : i < (psOf (Nat.iterate body k s0)).length := by rw [hf.1]; exact hi
    obtain ⟨a1, a3, a4, _⟩ := (h.acct k hk).2 i hlen
    rw [(hf.2 i hi).2.2] at a4
    exact ⟨a3, a4⟩
  · intro k hk i hi
    have hf := h.frame k (le_of_lt hk)
    have hlen : i < (psOf (Nat.iterate body k s0)).length := by rw [hf.1]; exact hi
    exact (h.step k hk i hlen).1

theorem lastDone_exit {ps : List Process} {c : Nat → Int} {t : Int} (h : LastDone ps c t)
    (hne : ps ≠ []) (hleft : anyLeft ps = false) : ∃ i, i < ps.length ∧ c i = t := by
  rcases h with h | h | ⟨i, hi, _, hc⟩
  · exact absurd h hne
  · rw [hleft] at h; cases h
  · exact ⟨i, hi, hc⟩

theorem done_of_exit {ps : List Process} {c : Nat → Int} {t : Int} (h : Acct ps c t)
    (hleft : anyLeft ps = false) (i : Nat) (hi : i < ps.length) :
    (procAt ps i).remaining_time = 0 := by
  have h1 := (anyLeft_eq_false ps).mp hleft i hi
  have h2 := (h.2 i hi).2.1
  omega

theorem wf_values {ps : List Process} (hwf : WellFormed ps) (i : Nat) (hi : i < ps.length) :
    0 ≤ (procAt ps i).arrival_time ∧ (procAt ps i).arrival_time ≤ INT_MAX ∧
      0 < (procAt ps i).burst_time ∧ (procAt ps i).id ≠ "" ∧ (procAt ps i).id ≠ "IDLE" :=
  hwf.2.1 _ (procAt_mem ps i hi)

theorem procAt_initRemaining (ps : List Process) (i : Nat) (hi : i < ps.length) :
    SameJob (procAt ps i) (procAt (initRemaining ps) i) ∧
      (procAt (initRemaining ps) i).remaining_time = (procAt ps i).burst_time ∧
      (procAt (initRemaining ps) i).priority = (procAt ps i).priority := by
  unfold initRemaining
  rw [procAt_map _ _ _ hi]
  exact ⟨⟨rfl, rfl, rfl⟩, rfl, rfl⟩

theorem length_initRemaining (ps : List Process) : (initRemaining ps).length = ps.length := by
  simp [initRemaining]

/-- A loop run whose condition is `anyLeft` yields a summary. -/
theorem summary_of_run {σ : Type} (ps : List Process) (body : σ → σ) (s0 : σ)
    (psOf : σ → List Process) (cOf : σ → Nat → Int) (tOf : σ → Int) (Inv : σ → Prop)
    (n K : Nat)
    (hrun : LoopRun (fun s => anyLeft (psOf s)) body Inv
      (fun a b => StepOK (psOf a) (psOf b) (cOf a) (cOf b) (tOf b)) s0 n K)
    (hframe : ∀ s, Inv s → Frame ps (psOf s))
    (hacct : ∀ s, Inv s → Acct (psOf s) (cOf s) (tOf s))
    (hlast : ∀ s, Inv s → LastDone (psOf s) (cOf s) (tOf s))
    (hstart : ∀ i, i < ps.length → (procAt (psOf s0) i).remaining_time = (procAt ps i).burst_time) :
    RunSummary ps (fun s => anyLeft (psOf s)) body s0 psOf cOf tOf n K := by
  obtain ⟨r1, r2, r3, r4, r5, r6⟩ := hrun
  have hfK := hframe _ (r4 K (le_refl _))
  refine ⟨r1, r2, r3, r6, fun k hk => hframe _ (r4 k hk), fun k hk => hacct _ (r4 k hk), r5,
    hstart, ?_, ?_⟩
  · intro i hi
    exact done_of_exit (hacct _ (r4 K (le_refl _))) r3 i (by rw [hfK.1]; exact hi)
  · intro hne
    have hne2 : psOf (Nat.iterate body K s0) ≠ [] := by
      intro hcon
      have := hfK.1
      rw [hcon] at this
      exact hne (List.length_eq_zero.mp this.symm)
    obtain ⟨i, hi, hc⟩ := lastDone_exit (hlast _ (r4 K (le_refl _))) hne2 r3
    exact ⟨i, by rw [← hfK.1]; exact hi, hc⟩

/-! ## Runs of the seven loops that consume `remaining_time` -/

theorem init_jobs (ps : List Process) (f : Process → Process)
    (hf : ∀ p, SameJob p (f p) ∧ (f p).remaining_time = p.remaining_time) :
    ((initRemaining ps).map f).length = ps.length ∧
    ∀ j, j < ps.length → SameJob (procAt ps j) (procAt ((initRemaining ps).map f) j) ∧
      (procAt ((initRemaining ps).map f) j).remaining_time = (procAt ps j).burst_time := by
  refine ⟨by simp [initRemaining], ?_⟩
  intro j hj
  rw [procAt_map _ _ _ (by rw [length_initRemaining]; exact hj)]
  obtain ⟨⟨a1, a2, a3⟩, a4, _⟩ := procAt_initRemaining ps j hj
  obtain ⟨⟨b1, b2, b3⟩, b4⟩ := hf (procAt (initRemaining ps) j)
  exact ⟨⟨b1.trans a1, b2.trans a2, b3.trans a3⟩, b4.trans a4⟩

theorem init_jobs_plain (ps : List Process) :
    (initRemaining ps).length = ps.length ∧
    ∀ j, j < ps.length → SameJob (procAt ps j) (procAt (initRemaining ps) j) ∧
      (procAt (initRemaining ps) j).remaining_time = (procAt ps j).burst_time :=
  ⟨length_initRemaining ps, fun j hj =>
    ⟨(procAt_initRemaining ps j hj).1, (procAt_initRemaining ps j hj).2.1⟩⟩

theorem idle_measure_init (ps qs : List Process) (hlen : qs.length = ps.length)
    (h : ∀ j, j < ps.length → (procAt qs j).remaining_time = (procAt ps j).burst_time)
    (f : Nat) (hf : f ≤ 1) : 2 * remSum qs + f ≤ fuelBound ps := by
  have := remSum_initial ps qs hlen h
  omega

theorem CFS_run (sel : List Process → List Nat → Nat) (ps : List Process)
    (hrun : Runnable ps) :
    ∃ K, LoopRun (fun s => anyLeft s.ps) (CFS_body sel) (CFSInv ps)
      (fun a b => StepOK a.ps b.ps (compClock a.comp) (compClock b.comp) b.t)
      (CFS_init ps) (fuelBound ps) K := by
  obtain ⟨hlen, hjob⟩ := init_jobs ps (fun p => { p with vruntime := 0 })
    (fun p => ⟨⟨rfl, rfl, rfl⟩, rfl⟩)
  obtain ⟨s1, s2, s3, s5, s6⟩ := start_facts ps (CFS_init ps).ps
    (compClock (CFS_init ps).comp) hrun.2 hlen hjob
  apply loop_run (fun s => anyLeft s.ps) (CFS_body sel) (CFSInv ps) CFS_measure _
    (fun s hI hc => CFS_step sel ps s hI hc) (CFS_init ps)
  · exact ⟨s1, s2, s3, s5, rfl, by simp [CFS_init, initRemaining], s6⟩
  · exact idle_measure_init ps _ hlen (fun j hj => (hjob j hj).2) _ (idleFlag_le _ _ _ _)

theorem EDF_run (sel : List Process → List Nat → Nat) (ps : List Process)
    (hrun : Runnable ps) :
    ∃ K, LoopRun (fun s => anyLeft s.ps) (EDF_body sel) (EDFInv ps)
      (fun a b => StepOK a.ps b.ps (compClock a.comp) (compClock b.comp) b.t)
      (EDF_init ps) (fuelBound ps) K := by
  obtain ⟨hlen, hjob⟩ := init_jobs ps
    (fun p => if p.deadline = 0 then { p with deadline := p.arrival_time + 2 * p.burst_time }
      else p)
    (fun p => by
      by_cases hd : p.deadline = 0
      · beta_reduce; rw [if_pos hd]; exact ⟨⟨rfl, rfl, rfl⟩, rfl⟩
      · beta_reduce; rw [if_neg hd]; exact ⟨⟨rfl, rfl, rfl⟩, rfl⟩)
  obtain ⟨s1, s2, s3, s5, s6⟩ := start_facts ps (EDF_init ps).ps
    (compClock (EDF_init ps).comp) hrun.2 hlen hjob
  apply loop_run (fun s => anyLeft s.ps) (EDF_body sel) (EDFInv ps) EDF_measure _
    (fun s hI hc => EDF_step sel ps s hI hc) (EDF_init ps)
  · exact ⟨s1, s2, s3, fun hq => ⟨Or.inl ⟨rfl, rfl⟩, s5 hq, rfl⟩,
      by simp [EDF_init, EDF_setDeadlines, initRemaining], s6⟩
  · exact idle_measure_init ps _ hlen (fun j hj => (hjob j hj).2) _ (idleFlag_le _ _ _ _)

theorem SRTF_run (ps : List Process) (hrun : Runnable ps) (hint : IntArrivals ps) :
    ∃ K, LoopRun (fun s => anyLeft s.ps) SRTF_body (SRTFInv ps)
      (fun a b => StepOK a.ps b.ps (compClock a.comp) (compClock b.comp) b.t)
      (SRTF_init ps) (fuelBound ps) K := by
  obtain ⟨hlen, hjob⟩ := init_jobs_plain ps
  obtain ⟨s1, s2, s3, s5, s6⟩ := start_facts ps (SRTF_init ps).ps
    (compClock (SRTF_init ps).comp) hrun.2 hlen hjob
  apply loop_run (fun s => anyLeft s.ps) SRTF_body (SRTFInv ps) SRTF_measure _
    (fun s hI hc => SRTF_step ps s hI hc) (SRTF_init ps)
  · refine ⟨s1, s2, by simp [SRTF_init, initRemaining], s6, ?_⟩
    intro i hi
    have hi2 : i < ps.length := by rw [← hlen]; exact hi
    show (procAt (initRemaining ps) i).arrival_time ≤ INT_MAX
    rw [(hjob i hi2).1.2.1]
    exact hint _ (procAt_mem ps i hi2)
  · exact idle_measure_init ps _ hlen (fun j hj => (hjob j hj).2) _ (by split <;> simp)

theorem MLQ_run (ps : List Process) (hrun : Runnable ps) :
    ∃ K, LoopRun (fun s => anyLeft s.ps) MLQ_body (MLQInv ps)
      (fun a b => StepOK a.ps b.ps (doneClock a.ps) (doneClock b.ps) b.t)
      (MLQ_init ps) (fuelBound ps) K := by
  obtain ⟨hlen, hjob⟩ := init_jobs_plain ps
  obtain ⟨s1, s2, s3, s5, s6⟩ := start_facts ps (MLQ_init ps).ps
    (doneClock (MLQ_init ps).ps) hrun.2 hlen hjob
  apply loop_run (fun s => anyLeft s.ps) MLQ_body (MLQInv ps) MLQ_measure _
    (fun s hI hc => MLQ_step ps s hI hc) (MLQ_init ps)
  · refine ⟨s1, s2, s3, s5, rfl, ?_, s6⟩
    intro i hi h0
    have hi2 : i < ps.length := by rw [← hlen]; exact hi
    have := (hjob i hi2).2
    have := hrun.2 _ (procAt_mem ps i hi2)
    have h0b : (procAt (initRemaining ps) i).remaining_time = 0 := h0
    omega
  · exact idle_measure_init ps _ hlen (fun j hj => (hjob j hj).2) _ (idleFlag_le _ _ _ _)

theorem MLFQ_run (ps : List Process) (hrun : Runnable ps) :
    ∃ K, LoopRun (fun s => anyLeft s.ps) MLFQ_body (MLFQInv ps)
      (fun a b => StepOK a.ps b.ps (compClock a.comp) (compClock b.comp) b.t)
      (MLFQ_init ps) (MLFQ_fuelBound ps) K := by
  obtain ⟨hlen, hjob⟩ := init_jobs_plain ps
  obtain ⟨s1, s2, s3, s5, s6⟩ := start_facts ps (MLFQ_init ps).ps
    (compClock (MLFQ_init ps).comp) hrun.2 hlen hjob
  apply loop_run (fun s => anyLeft s.ps) MLFQ_body (MLFQInv ps) MLFQ_measure _
    (fun s hI hc => MLFQ_step ps s hI hc) (MLFQ_init ps)
  · exact ⟨s1, s2, s3, s5, rfl, by simp [MLFQ_init, initRemaining], s6⟩
  · unfold MLFQ_measure MLFQ_fuelBound
    have h1 : remSum (MLFQ_init ps).ps = (ps.map (fun p => p.burst_time.toNat)).sum := by
      have := remSum_initial ps (initRemaining ps) hlen (fun j hj => (hjob j hj).2)
      have h2 : remSum (initRemaining ps) = (ps.map (fun p => p.burst_time.toNat)).sum := by
        unfold remSum initRemaining
        rw [List.map_map]
        rfl
      exact h2
    have h3 : (MLFQ_init ps).ps.length = ps.length := hlen
    have h4 : MLFQ_weight (MLFQ_init ps) = 0 := rfl
    have h5 := idleFlag_le (MLFQ_init ps).ps (MLFQ_init ps).t (MLFQ_init ps).idx
      (MLFQ_members (MLFQ_init ps))
    rw [h1, h3, h4]
    omega

theorem sortedIdx_of_sorted (ps qs : List Process) (hs : SortedByArrival ps)
    (hlen : qs.length = ps.length)
    (h : ∀ j, j < ps.length → SameJob (procAt ps j) (procAt qs j)) : SortedIdx qs := by
  intro i j hij hj
  rw [hlen] at hj
  rw [(h i (by omega)).2.1, (h j hj).2.1]
  rcases Nat.lt_or_eq_of_le hij with hlt | heq
  · have hp := List.pairwise_iff_getElem.mp hs i j (by omega) hj hlt
    unfold procAt
    rw [List.getD_eq_getElem _ _ (by omega), List.getD_eq_getElem _ _ hj]
    exact hp
  · subst heq; exact le_refl _

theorem Lottery_tickets_pos (qs : List Process) (i : Nat) (hi : i < qs.length) :
    1 ≤ (Lottery_tickets qs).getD i 0 := by
  unfold Lottery_tickets
  rw [List.getD_eq_getElem _ _ (by simpa using hi)]
  simp

theorem Lottery_run (draws : Nat → Nat) (ps : List Process) (hrun : Runnable ps) :
    ∃ K, LoopRun (fun s => anyLeft s.ps)
      (Lottery_body draws (Lottery_tickets (initRemaining ps)))
      (LotteryInv ps (Lottery_tickets (initRemaining ps)))
      (fun a b => StepOK a.ps b.ps (doneClock a.ps) (doneClock b.ps) b.t)
      (Lottery_init ps) (fuelBound ps) K := by
  obtain ⟨hlen, hjob⟩ := init_jobs_plain ps
  obtain ⟨s1, s2, s3, s5, s6⟩ := start_facts ps (Lottery_init ps).ps
    (doneClock (Lottery_init ps).ps) hrun.2 hlen hjob
  apply loop_run (fun s => anyLeft s.ps) (Lottery_body draws (Lottery_tickets (initRemaining ps)))
    (LotteryInv ps (Lottery_tickets (initRemaining ps))) (Lottery_measure _) _
    (fun s hI hc => Lottery_step draws _ ps s hI hc) (Lottery_init ps)
  · refine ⟨s1, s2, ?_, s6, s5, rfl, Nat.zero_le _, ?_, ?_, ?_, ?_⟩
    · intro i hi h0
      have hi2 : i < ps.length := by rw [← hlen]; exact hi
      have := (hjob i hi2).2
      have := hrun.2 _ (procAt_mem ps i hi2)
      have h0b : (procAt (initRemaining ps) i).remaining_time = 0 := h0
      omega
    · intro i hi
      exact absurd hi (Nat.not_lt_zero i)
    · intro i _ hi
      have hi2 : i < ps.length := by rw [← hlen]; exact hi
      show (procAt (initRemaining ps) i).remaining_time = (procAt (initRemaining ps) i).burst_time
      rw [(hjob i hi2).2, (hjob i hi2).1.2.2]
    · exact sortedIdx_of_sorted ps _ hrun.1 hlen (fun j hj => (hjob j hj).1)
    · intro i hi
      exact Lottery_tickets_pos _ i hi
  · exact idle_measure_init ps _ hlen (fun j hj => (hjob j hj).2) _ (by split <;> simp)

theorem RR_run (quantum : Int) (hq : 1 ≤ quantum) (ps : List Process) (hrun : Runnable ps) :
    ∃ K, LoopRun RR_cond (RR_body quantum) (RRInv ps)
      (fun a b => StepOK a.ps b.ps (doneClock a.ps) (doneClock b.ps) b.t)
      (RR_init ps) (fuelBound ps) K := by
  obtain ⟨hlen, hjob⟩ := init_jobs_plain ps
  obtain ⟨s1, s2, s3, s5, s6⟩ := start_facts ps (RR_init ps).ps
    (doneClock (RR_init ps).ps) hrun.2 hlen hjob
  apply loop_run RR_cond (RR_body quantum) (RRInv ps) RR_measure _
    (fun s hI hc => RR_step quantum hq ps s hI hc) (RR_init ps)
  · refine ⟨s1, s2, s3, ?_, s6⟩
    intro i hi h0
    have hi2 : i < ps.length := by rw [← hlen]; exact hi
    have := (hjob i hi2).2
    have := hrun.2 _ (procAt_mem ps i hi2)
    have h0b : (procAt (initRemaining ps) i).remaining_time = 0 := h0
    omega
  · exact idle_measure_init ps _ hlen (fun j hj => (hjob j hj).2) _ (idleFlag_le _ _ _ _)

/-- The Round Robin run as a summary (its loop condition is not `anyLeft`). -/
theorem RR_summary (quantum : Int) (hq : 1 ≤ quantum) (ps : List Process)
    (hrun : Runnable ps) :
    ∃ K, RunSummary ps RR_cond (RR_body quantum) (RR_init ps) (fun s => s.ps)
        (fun s => doneClock s.ps) (fun s => s.t) (fuelBound ps) K ∧
      MetricsOK (Nat.iterate (RR_body quantum) K (RR_init ps)).ps := by
  obtain ⟨K, r1, r2, r3, r4, r5, r6⟩ := RR_run quantum hq ps hrun
  have hK := r4 K (le_refl _)
  have hdone : ∀ i, i < (Nat.iterate (RR_body quantum) K (RR_init ps)).ps.length →
      (procAt (Nat.iterate (RR_body quantum) K (RR_init ps)).ps i).remaining_time = 0 := by
    intro i hi
    unfold RR_cond at r3
    simp only [Bool.or_eq_false_iff, Bool.not_eq_false', List.isEmpty_iff,
      decide_eq_false_iff_not, not_lt] at r3
    have hadm := hK.adm
    rw [r3.1] at hadm
    have hnot : ¬ (i < (Nat.iterate (RR_body quantum) K (RR_init ps)).idx ∧
        0 < (procAt (Nat.iterate (RR_body quantum) K (RR_init ps)).ps i).remaining_time) := by
      intro hcon
      have := (hadm.2.2.2.2 i).mpr hcon
      simp at this
    have hnn := (hK.acct.2 i hi).2.1
    have hidx := hadm.1
    by_contra hne
    exact hnot ⟨by omega, by omega⟩
  refine ⟨K, ⟨r1, r2, r3, r6, fun k hk => (r4 k hk).frame, fun k hk => (r4 k hk).acct, r5,
    fun i hi => (init_jobs_plain ps).2 i hi |>.2, ?_, ?_⟩, hK.met⟩
  · intro i hi
    exact hdone i (by rw [hK.frame.1]; exact hi)
  · intro hne
    rcases hK.lastd with h | h | ⟨i, hi, _, hc⟩
    · have := hK.frame.1
      rw [h] at this
      exact absurd (List.length_eq_zero.mp this.symm) hne
    · obtain ⟨i, hi, hpos⟩ := (anyLeft_eq_true _).mp h
      have := hdone i hi
      omega
    · exact ⟨i, by rw [← hK.frame.1]; exact hi, hc⟩

theorem sortedOrder_spec (qs : List Process) :
    (sortedOrder qs).Nodup ∧ (∀ i, i ∈ sortedOrder qs ↔ i < qs.length) ∧
      (sortedOrder qs).length = qs.length := by
  have hp : List.Perm (sortedOrder qs) (List.range qs.length) := List.perm_insertionSort _ _
  refine ⟨hp.nodup_iff.mpr (List.nodup_range _), ?_, ?_⟩
  · intro i; rw [hp.mem_iff]; exact List.mem_range
  · rw [hp.length_eq]; simp

theorem JobsOK_of_wf {ps : List Process} (hwf : WellFormed ps) : JobsOK ps :=
  ⟨fun p hp => ⟨(hwf.2.1 p hp).1, (hwf.2.1 p hp).2.2.1, (hwf.2.1 p hp).2.2.2.2⟩, hwf.2.2⟩

theorem NP_run (pick : List Process → List Nat → Int) (hpick : PickOK pick)
    (ps : List Process) (hb : ∀ p, p ∈ ps → 0 < p.burst_time) :
    ∃ K, LoopRun (NP_cond (sortedOrder (initRemaining ps)))
      (NP_body pick (sortedOrder (initRemaining ps)))
      (NPInv ps (sortedOrder (initRemaining ps))) (fun _ _ => True)
      { ps := initRemaining ps, t := 0, next := 0, rq := [], gantt := [] } ps.length K := by
  obtain ⟨hlen, hjob⟩ := init_jobs_plain ps
  obtain ⟨o1, o2, o3⟩ := sortedOrder_spec (initRemaining ps)
  apply loop_run (NP_cond (sortedOrder (initRemaining ps)))
    (NP_body pick (sortedOrder (initRemaining ps)))
    (NPInv ps (sortedOrder (initRemaining ps))) (NP_measure (sortedOrder (initRemaining ps)))
    (fun _ _ => True)
    (fun s hI hc => ⟨NP_step pick hpick ps _ s hI hc, trivial⟩)
  · refine ⟨⟨hlen, fun j hj2 => (hjob j hj2).1⟩, ?_, o1, o2, Nat.zero_le _, le_refl _,
      List.nodup_nil, ?_, ?_, ?_, ?_, rfl, ?_⟩
    · intro i hi
      have hi2 : i < ps.length := by rw [← hlen]; exact hi
      show 0 < (procAt (initRemaining ps) i).burst_time
      rw [(hjob i hi2).1.2.2]
      exact hb _ (procAt_mem ps i hi2)
    · intro i hi; simp at hi
    · intro i hi; simp at hi
    · intro i hd
      have := hd.1
      simp at this
    · intro _
      refine ⟨?_, fun i _ _ => rfl⟩
      intro i hd
      have := hd.1
      simp at this
    · by_cases hnil : initRemaining ps = []
      · exact Or.inl hnil
      · right; left
        unfold NP_cond
        have : 0 < (initRemaining ps).length := List.length_pos.mpr hnil
        simp [o3, this]
  · unfold NP_measure
    simp [o3, hlen]

/-! ## Final process vectors -/

theorem procAt_finishWithComp : ∀ (ps : List Process) (comp : List Int) (i : Nat),
    i < ps.length → comp.length = ps.length →
    procAt (finishWithComp ps comp) i = setMetrics (compClock comp i) (procAt ps i) := by
  intro ps
  induction ps with
  | nil => intro comp i hi; simp at hi
  | cons p rest ih =>
    intro comp i hi hlen
    cases comp with
    | nil => simp at hlen
    | cons c crest =>
      cases i with
      | zero => simp [finishWithComp, procAt, compClock]
      | succ i =>
        have := ih crest i (by simpa using hi) (by simpa using hlen)
        simpa [finishWithComp, procAt, compClock] using this

theorem length_finishWithComp (ps : List Process) (comp : List Int)
    (hlen : comp.length = ps.length) : (finishWithComp ps comp).length = ps.length := by
  simp [finishWithComp, hlen]

theorem final_comp {σ : Type} {ps : List Process} {cond : σ → Bool} {body : σ → σ}
    {s0 : σ} {psOf : σ → List Process} {compOf : σ → List Int} {tOf : σ → Int} {n K : Nat}
    (h : RunSummary ps cond body s0 psOf (fun s => compClock (compOf s)) tOf n K)
    (hb : ∀ p, p ∈ ps → 0 < p.burst_time)
    (hlen : (compOf (Nat.iterate body K s0)).length = (psOf (Nat.iterate body K s0)).length) :
    FinalOK ps body s0 psOf tOf K
      (finishWithComp (psOf (Nat.iterate body K s0)) (compOf (Nat.iterate body K s0)))
      (tOf (Nat.iterate body K s0)) := by
  have hf := h.frame K (le_refl _)
  have hq : ∀ i, i < ps.length →
      procAt (finishWithComp (psOf (Nat.iterate body K s0)) (compOf (Nat.iterate body K s0))) i
        = setMetrics (compClock (compOf (Nat.iterate body K s0)) i)
          (procAt (psOf (Nat.iterate body K s0)) i) :=
    fun i hi => procAt_finishWithComp _ _ i (by rw [hf.1]; exact hi) hlen
  refine ⟨by rw [length_finishWithComp _ _ hlen]; exact hf.1, ?_, ?_⟩
  · intro i hi
    obtain ⟨e1, e2, e3⟩ := hf.2 i hi
    obtain ⟨b1, b2⟩ := summary_bounds h i hi
    rw [hq i hi]
    refine ⟨⟨e1, e2, e3⟩, h.done i hi, _, summary_completes h hb i hi, ?_, b2⟩
    refine ⟨?_, ?_, ?_, ?_, ?_⟩
    · simp [setMetrics]
    · simp [setMetrics]
    · simp only [setMetrics]; rw [e2]; have := hb _ (procAt_mem ps i hi); omega
    · simp only [setMetrics]; rw [e2, e3]; omega
    · simp only [setMetrics]; rw [e2, e3]; exact b1
  · intro hne
    obtain ⟨i, hi, hc⟩ := h.lastd hne
    refine ⟨i, hi, ?_⟩
    rw [hq i hi]
    simp only [setMetrics]
    rw [← hc]
    omega

theorem final_direct {σ : Type} {ps : List Process} {cond : σ → Bool} {body : σ → σ}
    {s0 : σ} {psOf : σ → List Process} {tOf : σ → Int} {n K : Nat}
    (h : RunSummary ps cond body s0 psOf (fun s => doneClock (psOf s)) tOf n K)
    (hb : ∀ p, p ∈ ps → 0 < p.burst_time)
    (hmet : MetricsOK (psOf (Nat.iterate body K s0))) :
    FinalOK ps body s0 psOf tOf K (psOf (Nat.iterate body K s0))
      (tOf (Nat.iterate body K s0)) := by
  have hf := h.frame K (le_refl _)
  refine ⟨hf.1, ?_, ?_⟩
  · intro i hi
    obtain ⟨e1, e2, e3⟩ := hf.2 i hi
    obtain ⟨b1, b2⟩ := summary_bounds h i hi
    have hm := hmet i (by rw [hf.1]; exact hi) (h.done i hi)
    have hbp := hb _ (procAt_mem ps i hi)
    refine ⟨⟨e1, e2, e3⟩, h.done i hi, _, summary_completes h hb i hi, ?_, b2⟩
    simp only [doneClock] at b1 b2 ⊢
    refine ⟨hm, by omega, by omega, by omega, by omega⟩
  · intro hne
    obtain ⟨i, hi, hc⟩ := h.lastd hne
    exact ⟨i, hi, hc⟩

theorem FinalOK_metrics {σ : Type} {ps : List Process} {body : σ → σ} {s0 : σ}
    {psOf : σ → List Process} {tOf : σ → Int} {K : Nat} {qs : List Process} {T : Int}
    (h : FinalOK ps body s0 psOf tOf K qs T) (i : Nat) (hi : i < ps.length) :
    SameJob (procAt ps i) (procAt qs i) ∧
      ∃ c, CompletesAt body s0 psOf tOf K i c ∧ MetricsAt (procAt qs i) c := by
  obtain ⟨a, b, c, hc, hm, _⟩ := h.2.1 i hi
  exact ⟨a, c, hc, hm⟩

theorem FinalOK_makespan {σ : Type} {ps : List Process} {body : σ → σ} {s0 : σ}
    {psOf : σ → List Process} {tOf : σ → Int} {K : Nat} {qs : List Process} {T : Int}
    (h : FinalOK ps body s0 psOf tOf K qs T) (hne : ps ≠ []) (g : Gantt) :
    IsMakespan { ps := qs, gantt := g, total_time := T } := by
  refine ⟨?_, ?_⟩
  · intro q hq
    obtain ⟨i, hi, rfl⟩ := exists_procAt_of_mem qs q hq
    rw [h.1] at hi
    obtain ⟨_, _, c, _, hm, hc⟩ := h.2.1 i hi
    show _ ≤ T
    have := hm.2.1
    omega
  · obtain ⟨i, hi, he⟩ := h.2.2 hne
    exact ⟨procAt qs i, procAt_mem qs i (by rw [h.1]; exact hi), he⟩

theorem FinalOK_remaining {σ : Type} {ps : List Process} {body : σ → σ} {s0 : σ}
    {psOf : σ → List Process} {tOf : σ → Int} {K : Nat} {qs : List Process} {T : Int}
    (h : FinalOK ps body s0 psOf tOf K qs T) : ∀ q ∈ qs, q.remaining_time = 0 := by
  intro q hq
  obtain ⟨i, hi, rfl⟩ := exists_procAt_of_mem qs q hq
  rw [h.1] at hi
  exact (h.2.1 i hi).2.1

theorem foldl_max_bounds (v : Process → Int) : ∀ (qs : List Process) (acc : Int),
    acc ≤ qs.foldl (fun m p => max m (v p)) acc ∧
    (∀ q, q ∈ qs → v q ≤ qs.foldl (fun m p => max m (v p)) acc) ∧
    ∀ m, acc ≤ m → (∀ q, q ∈ qs → v q ≤ m) → qs.foldl (fun m p => max m (v p)) acc ≤ m := by
  intro qs
  induction qs with
  | nil =>
    intro acc
    exact ⟨le_refl _, by simp, fun m h _ => h⟩
  | cons a rest ih =>
    intro acc
    simp only [List.foldl_cons]
    obtain ⟨h1, h2, h3⟩ := ih (max acc (v a))
    refine ⟨le_trans (le_max_left _ _) h1, ?_, ?_⟩
    · intro q hq
      rcases List.mem_cons.mp hq with rfl | hq
      · exact le_trans (le_max_right _ _) h1
      · exact h2 q hq
    · intro m hm hall
      apply h3 m (max_le hm (hall a (List.mem_cons_self a rest)))
      intro q hq
      exact hall q (List.mem_cons_of_mem a hq)

theorem maxCompletion_eq (qs : List Process) (T : Int) (hT : 0 ≤ T)
    (h1 : ∀ q, q ∈ qs → q.arrival_time + q.turnaround_time ≤ T)
    (h2 : ∃ q, q ∈ qs ∧ q.arrival_time + q.turnaround_time = T) : maxCompletion qs = T := by
  obtain ⟨b1, b2, b3⟩ := foldl_max_bounds (fun p => p.arrival_time + p.turnaround_time) qs 0
  obtain ⟨q, hq, he⟩ := h2
  have hle := b3 T hT h1
  have hge := b2 q hq
  simp only at hge
  unfold maxCompletion
  omega

/-! ## Summaries of the runs -/

theorem wf_burst_pos {ps : List Process} (hwf : WellFormed ps) :
    ∀ p, p ∈ ps → 0 < p.burst_time := fun p hp => (hwf.2.1 p hp).2.2.1

theorem SRTF_summary (ps : List Process) (hrun : Runnable ps) (hint : IntArrivals ps) :
    ∃ K, RunSummary ps (fun s => anyLeft s.ps) SRTF_body (SRTF_init ps) (fun s => s.ps)
        (fun s => compClock s.comp) (fun s => s.t) (fuelBound ps) K ∧
      SRTFInv ps (Nat.iterate SRTF_body K (SRTF_init ps)) := by
  obtain ⟨K, hrun⟩ := SRTF_run ps hrun hint
  exact ⟨K, summary_of_run ps SRTF_body (SRTF_init ps) (fun s => s.ps)
    (fun s => compClock s.comp) (fun s => s.t) (SRTFInv ps) _ K hrun (fun s h => h.frame)
    (fun s h => h.acct) (fun s h => h.lastd) (fun i hi => ((init_jobs_plain ps).2 i hi).2),
    hrun.2.2.2.1 K (le_refl _)⟩

theorem MLQ_summary (ps : List Process) (hrun : Runnable ps) :
    ∃ K, RunSummary ps (fun s => anyLeft s.ps) MLQ_body (MLQ_init ps) (fun s => s.ps)
        (fun s => doneClock s.ps) (fun s => s.t) (fuelBound ps) K ∧
      MLQInv ps (Nat.iterate MLQ_body K (MLQ_init ps)) := by
  obtain ⟨K, hrun⟩ := MLQ_run ps hrun
  exact ⟨K, summary_of_run ps MLQ_body (MLQ_init ps) (fun s => s.ps)
    (fun s => doneClock s.ps) (fun s => s.t) (MLQInv ps) _ K hrun (fun s h => h.frame)
    (fun s h => h.acct) (fun s h => h.lastd) (fun i hi => ((init_jobs_plain ps).2 i hi).2),
    hrun.2.2.2.1 K (le_refl _)⟩

theorem MLFQ_summary (ps : List Process) (hrun : Runnable ps) :
    ∃ K, RunSummary ps (fun s => anyLeft s.ps) MLFQ_body (MLFQ_init ps) (fun s => s.ps)
        (fun s => compClock s.comp) (fun s => s.t) (MLFQ_fuelBound ps) K ∧
      MLFQInv ps (Nat.iterate MLFQ_body K (MLFQ_init ps)) := by
  obtain ⟨K, hrun⟩ := MLFQ_run ps hrun
  exact ⟨K, summary_of_run ps MLFQ_body (MLFQ_init ps) (fun s => s.ps)
    (fun s => compClock s.comp) (fun s => s.t) (MLFQInv ps) _ K hrun (fun s h => h.frame)
    (fun s h => h.acct) (fun s h => h.lastd) (fun i hi => ((init_jobs_plain ps).2 i hi).2),
    hrun.2.2.2.1 K (le_refl _)⟩

theorem Lottery_summary (draws : Nat → Nat) (ps : List Process) (hrun : Runnable ps) :
    ∃ K, RunSummary ps (fun s => anyLeft s.ps)
        (Lottery_body draws (Lottery_tickets (initRemaining ps))) (Lottery_init ps)
        (fun s => s.ps) (fun s => doneClock s.ps) (fun s => s.t) (fuelBound ps) K ∧
      LotteryInv ps (Lottery_tickets (initRemaining ps))
        (Nat.iterate (Lottery_body draws (Lottery_tickets (initRemaining ps))) K
          (Lottery_init ps)) := by
  obtain ⟨K, hrun⟩ := Lottery_run draws ps hrun
  exact ⟨K, summary_of_run ps _ (Lottery_init ps) (fun s => s.ps)
    (fun s => doneClock s.ps) (fun s => s.t) (LotteryInv ps _) _ K hrun (fun s h => h.frame)
    (fun s h => h.acct) (fun s h => h.lastd) (fun i hi => ((init_jobs_plain ps).2 i hi).2),
    hrun.2.2.2.1 K (le_refl _)⟩

theorem CFS_summary (sel : List Process → List Nat → Nat) (ps : List Process)
    (hrun : Runnable ps) :
    ∃ K, RunSummary ps (fun s => anyLeft s.ps) (CFS_body sel) (CFS_init ps) (fun s => s.ps)
        (fun s => compClock s.comp) (fun s => s.t) (fuelBound ps) K ∧
      CFSInv ps (Nat.iterate (CFS_body sel) K (CFS_init ps)) := by
  obtain ⟨K, hrun⟩ := CFS_run sel ps hrun
  exact ⟨K, summary_of_run ps (CFS_body sel) (CFS_init ps) (fun s => s.ps)
    (fun s => compClock s.comp) (fun s => s.t) (CFSInv ps) _ K hrun (fun s h => h.frame)
    (fun s h => h.acct) (fun s h => h.lastd)
    (fun i hi => ((init_jobs ps (fun p => { p with vruntime := 0 })
      (fun p => ⟨⟨rfl, rfl, rfl⟩, rfl⟩)).2 i hi).2),
    hrun.2.2.2.1 K (le_refl _)⟩

theorem EDF_summary (sel : List Process → List Nat → Nat) (ps : List Process)
    (hrun : Runnable ps) :
    ∃ K, RunSummary ps (fun s => anyLeft s.ps) (EDF_body sel) (EDF_init ps) (fun s => s.ps)
        (fun s => compClock s.comp) (fun s => s.t) (fuelBound ps) K ∧
      EDFInv ps (Nat.iterate (EDF_body sel) K (EDF_init ps)) := by
  obtain ⟨K, hrun⟩ := EDF_run sel ps hrun
  refine ⟨K, summary_of_run ps (EDF_body sel) (EDF_init ps) (fun s => s.ps)
    (fun s => compClock s.comp) (fun s => s.t) (EDFInv ps) _ K hrun (fun s h => h.frame)
    (fun s h => h.acct) (fun s h => h.lastd) ?_, hrun.2.2.2.1 K (le_refl _)⟩
  intro i hi
  exact ((init_jobs ps
    (fun p => if p.deadline = 0 then { p with deadline := p.arrival_time + 2 * p.burst_time }
      else p)
    (fun p => by
      by_cases hd : p.deadline = 0
      · beta_reduce; rw [if_pos hd]; exact ⟨⟨rfl, rfl, rfl⟩, rfl⟩
      · beta_reduce; rw [if_neg hd]; exact ⟨⟨rfl, rfl, rfl⟩, rfl⟩)).2 i hi).2

/-- From the timeline invariant at the exit to the accounts of the input workload. -/
theorem accounts_of_ginv (ps qs : List Process) (g : Gantt) (hf : Frame ps qs) (hg : GInv qs g)
    (hdone : ∀ i, i < ps.length → (procAt qs i).remaining_time = 0) :
    TimelineAccounts ps g := by
  have hb : qs.map (fun p => p.burst_time) = ps.map (fun p => p.burst_time) :=
    map_eq_of_pointwise _ ps qs hf.1 (fun j hj => (hf.2 j hj).2.2)
  have hz : (qs.map (fun p => p.remaining_time)).sum = 0 := by
    apply List.sum_eq_zero
    intro x hx
    obtain ⟨q, hq, rfl⟩ := List.mem_map.mp hx
    obtain ⟨i, hi, rfl⟩ := exists_procAt_of_mem qs q hq
    exact hdone i (by rw [← hf.1]; exact hi)
  refine ⟨?_, ?_⟩
  · have := hg.2
    unfold totalBurst at this ⊢
    rw [hz, hb] at this
    omega
  · intro p hp
    obtain ⟨i, hi, rfl⟩ := exists_procAt_of_mem ps p hp
    have := hg.1 i (by rw [hf.1]; exact hi)
    rw [hdone i hi, (hf.2 i hi).1, (hf.2 i hi).2.2] at this
    omega

/-! ## From the runs to the results of `schedule` -/

theorem runnable_of_wf {ps : List Process} (hwf : WellFormed ps) : Runnable ps :=
  ⟨hwf.1, fun p hp => (hwf.2.1 p hp).2.2.1⟩

theorem intArrivals_of_wf {ps : List Process} (hwf : WellFormed ps) : IntArrivals ps :=
  fun p hp => (hwf.2.1 p hp).2.1

theorem idsOK_of_frame {ps qs : List Process} (hwf : WellFormed ps) (hf : Frame ps qs) :
    IdsOK qs := by
  have hm : qs.map (fun p => p.id) = ps.map (fun p => p.id) :=
    map_eq_of_pointwise _ ps qs hf.1 (fun j hj => (hf.2 j hj).1)
  refine ⟨by rw [hm]; exact hwf.2.2, ?_⟩
  intro i hi
  rw [hf.1] at hi
  rw [(hf.2 i hi).1]
  have := hwf.2.1 _ (procAt_mem ps i hi)
  exact ⟨this.2.2.2.2, this.2.2.2.1⟩

theorem labelsOK_of_frame {ps qs : List Process} (hj : JobsOK ps) (hf : Frame ps qs) :
    LabelsOK qs := by
  have hm : qs.map (fun p => p.id) = ps.map (fun p => p.id) :=
    map_eq_of_pointwise _ ps qs hf.1 (fun j hj => (hf.2 j hj).1)
  refine ⟨by rw [hm]; exact hj.2, ?_⟩
  intro i hi
  rw [hf.1] at hi
  rw [(hf.2 i hi).1]
  exact (hj.1 _ (procAt_mem ps i hi)).2.2

theorem remainingRun_of {σ : Type} {ps : List Process} {cond : σ → Bool} {body : σ → σ}
    {s0 : σ} {psOf : σ → List Process} {cOf : σ → Nat → Int} {tOf : σ → Int} {n K : Nat}
    (h : RunSummary ps cond body s0 psOf cOf tOf n K) (res : Nat → Option Result) (r : Result)
    (hres : ∀ fuel, n ≤ fuel → res fuel = some r) (T : Int)
    (hfin : FinalOK ps body s0 psOf tOf K r.ps T) :
    RemainingRun ps cond body s0 psOf res n :=
  ⟨K, r, h.le, h.conds, h.exit, fun fuel hf => ⟨h.fuel fuel hf, hres fuel hf⟩,
    (summary_remaining h).1, (summary_remaining h).2, h.done, hfin.1, FinalOK_remaining hfin⟩

theorem loopMetrics_of {σ : Type} {ps : List Process} {cond : σ → Bool} {body : σ → σ}
    {s0 : σ} {psOf : σ → List Process} {cOf : σ → Nat → Int} {tOf : σ → Int} {n K : Nat}
    (h : RunSummary ps cond body s0 psOf cOf tOf n K) (res : Nat → Option Result) (r : Result)
    (hres : ∀ fuel, n ≤ fuel → res fuel = some r) (T : Int)
    (hfin : FinalOK ps body s0 psOf tOf K r.ps T) :
    LoopMetrics ps cond body s0 psOf tOf res n :=
  ⟨K, r, h.le, h.conds, h.exit, hres, hfin.1, fun i hi => FinalOK_metrics hfin i hi⟩

theorem loopMakespan_of {σ : Type} {ps : List Process} {cond : σ → Bool} {body : σ → σ}
    {s0 : σ} {psOf : σ → List Process} {cOf : σ → Nat → Int} {tOf : σ → Int} {n K : Nat}
    (h : RunSummary ps cond body s0 psOf cOf tOf n K) (res : Nat → Option Result) (r : Result)
    (hres : ∀ fuel, n ≤ fuel → res fuel = some r)
    (hfin : FinalOK ps body s0 psOf tOf K r.ps (tOf (Nat.iterate body K s0)))
    (htot : r.total_time = tOf (Nat.iterate body K s0)) (hne : ps ≠ []) :
    LoopMakespan cond body s0 tOf res n := by
  refine ⟨Nat.iterate body K s0, r, fun fuel hf => ⟨h.fuel fuel hf, hres fuel hf⟩, ?_, htot⟩
  have hm := FinalOK_makespan hfin hne r.gantt
  unfold IsMakespan at hm ⊢
  rw [htot]
  exact hm

/-! ## Results of the seven loops that consume `remaining_time` -/

theorem SRTF_result (ps : List Process) (hrun : Runnable ps) (hint : IntArrivals ps) :
    ∃ K r, RunSummary ps (fun s => anyLeft s.ps) SRTF_body (SRTF_init ps) (fun s => s.ps)
        (fun s => compClock s.comp) (fun s => s.t) (fuelBound ps) K ∧
      (∀ fuel, fuelBound ps ≤ fuel → SRTFScheduler_schedule fuel ps = some r) ∧
      FinalOK ps SRTF_body (SRTF_init ps) (fun s => s.ps) (fun s => s.t) K r.ps
        (Nat.iterate SRTF_body K (SRTF_init ps)).t ∧
      r.total_time = (Nat.iterate SRTF_body K (SRTF_init ps)).t := by
  obtain ⟨K, hs, hinv⟩ := SRTF_summary ps hrun hint
  refine ⟨K, _, hs, fun fuel hf => by unfold SRTFScheduler_schedule; rw [hs.fuel fuel hf]; rfl,
    final_comp hs hrun.2 hinv.complen, rfl⟩

theorem RR_result (quantum : Int) (hq : 1 ≤ quantum) (ps : List Process) (hrun : Runnable ps) :
    ∃ K r, RunSummary ps RR_cond (RR_body quantum) (RR_init ps) (fun s => s.ps)
        (fun s => doneClock s.ps) (fun s => s.t) (fuelBound ps) K ∧
      (∀ fuel, fuelBound ps ≤ fuel → RoundRobinScheduler_schedule quantum fuel ps = some r) ∧
      FinalOK ps (RR_body quantum) (RR_init ps) (fun s => s.ps) (fun s => s.t) K r.ps
        (Nat.iterate (RR_body quantum) K (RR_init ps)).t ∧
      r.total_time = (Nat.iterate (RR_body quantum) K (RR_init ps)).t := by
  obtain ⟨K, hs, hmet⟩ := RR_summary quantum hq ps hrun
  refine ⟨K, _, hs,
    fun fuel hf => by unfold RoundRobinScheduler_schedule; rw [hs.fuel fuel hf]; rfl,
    final_direct hs hrun.2 hmet, rfl⟩

theorem MLQ_result (ps : List Process) (hrun : Runnable ps) :
    ∃ K r, RunSummary ps (fun s => anyLeft s.ps) MLQ_body (MLQ_init ps) (fun s => s.ps)
        (fun s => doneClock s.ps) (fun s => s.t) (fuelBound ps) K ∧
      (∀ fuel, fuelBound ps ≤ fuel → MLQScheduler_schedule fuel ps = some r) ∧
      FinalOK ps MLQ_body (MLQ_init ps) (fun s => s.ps) (fun s => s.t) K r.ps
        (Nat.iterate MLQ_body K (MLQ_init ps)).t ∧
      r.total_time = (Nat.iterate MLQ_body K (MLQ_init ps)).t := by
  obtain ⟨K, hs, hinv⟩ := MLQ_summary ps hrun
  refine ⟨K, _, hs, fun fuel hf => by unfold MLQScheduler_schedule; rw [hs.fuel fuel hf]; rfl,
    final_direct hs hrun.2 hinv.met, rfl⟩

theorem MLFQ_result (ps : List Process) (hrun : Runnable ps) :
    ∃ K r, RunSummary ps (fun s => anyLeft s.ps) MLFQ_body (MLFQ_init ps) (fun s => s.ps)
        (fun s => compClock s.comp) (fun s => s.t) (MLFQ_fuelBound ps) K ∧
      (∀ fuel, MLFQ_fuelBound ps ≤ fuel → MLFQScheduler_schedule fuel ps = some r) ∧
      FinalOK ps MLFQ_body (MLFQ_init ps) (fun s => s.ps) (fun s => s.t) K r.ps
        (Nat.iterate MLFQ_body K (MLFQ_init ps)).t ∧
      (ps ≠ [] → r.total_time = (Nat.iterate MLFQ_body K (MLFQ_init ps)).t) := by
  obtain ⟨K, hs, hinv⟩ := MLFQ_summary ps hrun
  have hfin := final_comp hs hrun.2 hinv.complen
  refine ⟨K, _, hs, fun fuel hf => by unfold MLFQScheduler_schedule; rw [hs.fuel fuel hf]; rfl,
    hfin, ?_⟩
  intro hne
  have hm := FinalOK_makespan hfin hne []
  exact maxCompletion_eq _ _ (hs.acct K (le_refl _)).1 hm.1 hm.2

theorem Lottery_result (draws : Nat → Nat) (ps : List Process) (hrun : Runnable ps) :
    ∃ K r, RunSummary ps (fun s => anyLeft s.ps)
        (Lottery_body draws (Lottery_tickets (initRemaining ps))) (Lottery_init ps)
        (fun s => s.ps) (fun s => doneClock s.ps) (fun s => s.t) (fuelBound ps) K ∧
      (∀ fuel, fuelBound ps ≤ fuel → LotteryScheduler_schedule draws fuel ps = some r) ∧
      FinalOK ps (Lottery_body draws (Lottery_tickets (initRemaining ps))) (Lottery_init ps)
        (fun s => s.ps) (fun s => s.t) K r.ps
        (Nat.iterate (Lottery_body draws (Lottery_tickets (initRemaining ps))) K
          (Lottery_init ps)).t ∧
      r.total_time = (Nat.iterate (Lottery_body draws (Lottery_tickets (initRemaining ps))) K
          (Lottery_init ps)).t := by
  obtain ⟨K, hs, hinv⟩ := Lottery_summary draws ps hrun
  refine ⟨K, _, hs,
    fun fuel hf => by unfold LotteryScheduler_schedule; rw [hs.fuel fuel hf]; rfl,
    final_direct hs hrun.2 hinv.met, rfl⟩

theorem CFS_result (sel : List Process → List Nat → Nat) (ps : List Process)
    (hrun : Runnable ps) :
    ∃ K r, RunSummary ps (fun s => anyLeft s.ps) (CFS_body sel) (CFS_init ps) (fun s => s.ps)
        (fun s => compClock s.comp) (fun s => s.t) (fuelBound ps) K ∧
      (∀ fuel, fuelBound ps ≤ fuel → CFSScheduler_schedule sel fuel ps = some r) ∧
      FinalOK ps (CFS_body sel) (CFS_init ps) (fun s => s.ps) (fun s => s.t) K r.ps
        (Nat.iterate (CFS_body sel) K (CFS_init ps)).t ∧
      r.total_time = (Nat.iterate (CFS_body sel) K (CFS_init ps)).t := by
  obtain ⟨K, hs, hinv⟩ := CFS_summary sel ps hrun
  refine ⟨K, _, hs, fun fuel hf => by unfold CFSScheduler_schedule; rw [hs.fuel fuel hf]; rfl,
    final_comp hs hrun.2 hinv.complen, rfl⟩

theorem EDF_result (sel : List Process → List Nat → Nat) (ps : List Process)
    (hrun : Runnable ps) :
    ∃ K r, RunSummary ps (fun s => anyLeft s.ps) (EDF_body sel) (EDF_init ps) (fun s => s.ps)
        (fun s => compClock s.comp) (fun s => s.t) (fuelBound ps) K ∧
      (∀ fuel, fuelBound ps ≤ fuel → EDFScheduler_schedule sel fuel ps = some r) ∧
      FinalOK ps (EDF_body sel) (EDF_init ps) (fun s => s.ps) (fun s => s.t) K r.ps
        (Nat.iterate (EDF_body sel) K (EDF_init ps)).t ∧
      r.total_time = (Nat.iterate (EDF_body sel) K (EDF_init ps)).t := by
  obtain ⟨K, hs, hinv⟩ := EDF_summary sel ps hrun
  refine ⟨K, _, hs, fun fuel hf => by unfold EDFScheduler_schedule; rw [hs.fuel fuel hf]; rfl,
    final_comp hs hrun.2 hinv.complen, rfl⟩

/-! ## Results of the non-preemptive policies -/

theorem metricsAt_of_done (q : Process) (hb : 0 < q.burst_time)
    (h1 : q.waiting_time = q.turnaround_time - q.burst_time)
    (h2 : q.arrival_time + q.burst_time ≤ q.arrival_time + q.turnaround_time) :
    MetricsAt q (q.arrival_time + q.turnaround_time) := by
  refine ⟨h1, by omega, by omega, by omega, h2⟩

theorem NP_exit_done {ps0 : List Process} {ord : List Nat} {s : NPState}
    (h : NPInv ps0 ord s) (hc : NP_cond ord s = false) (i : Nat) (hi : i < s.ps.length) :
    NP_done ord s i := by
  unfold NP_cond at hc
  simp only [Bool.or_eq_false_iff, decide_eq_false_iff_not, Bool.not_eq_false_eq_eq_true,
    List.isEmpty_iff] at hc
  obtain ⟨h1, h2⟩ := hc
  have hn : s.next = ord.length := by have := h.nextle; omega
  refine ⟨?_, by rw [h2]; simp⟩
  rw [hn, List.take_length]
  exact (h.ordmem i).mpr hi

theorem NP_result (pick : List Process → List Nat → Int) (hpick : PickOK pick)
    (ps : List Process) (hb : ∀ p, p ∈ ps → 0 < p.burst_time) :
    ∃ r, (∀ fuel, ps.length ≤ fuel → NP_schedule pick fuel ps = some r) ∧
      TimelineMetrics ps r ∧ (ps ≠ [] → IsMakespan r) ∧
      (JobsOK ps → OneSegmentEach ps r.gantt) := by
  obtain ⟨K, k1, k2, k3, k4, k5, k6⟩ := NP_run pick hpick ps hb
  have hinv := k4 K (le_refl _)
  generalize hsK : Nat.iterate (NP_body pick (sortedOrder (initRemaining ps))) K
    { ps := initRemaining ps, t := 0, next := 0, rq := [], gantt := [] } = sK at *
  have hdone := NP_exit_done hinv k3
  have hfr := hinv.frame
  refine ⟨{ ps := sK.ps, gantt := sK.gantt, total_time := sK.t }, ?_, ⟨hfr.1, ?_, ?_⟩, ?_, ?_⟩
  · intro fuel hf
    unfold NP_schedule
    simp only
    rw [k6 fuel hf]
    rfl
  · intro p hp
    obtain ⟨i, hi, rfl⟩ := exists_procAt_of_mem ps p hp
    exact ⟨procAt sK.ps i, procAt_mem _ i (by rw [hfr.1]; exact hi), hfr.2 i hi⟩
  · intro q hq
    obtain ⟨i, hi, rfl⟩ := exists_procAt_of_mem sK.ps q hq
    obtain ⟨d1, d2, d3, g1, g2, d5, d6⟩ := hinv.done i (hdone i hi)
    exact ⟨doneClock sK.ps i, ⟨g1, g2, d5, d6⟩,
      metricsAt_of_done _ (hinv.bpos i hi) d1 d2⟩
  · intro hne
    refine ⟨?_, ?_⟩
    · intro q hq
      obtain ⟨i, hi, rfl⟩ := exists_procAt_of_mem sK.ps q hq
      exact (hinv.done i (hdone i hi)).2.2.1
    · rcases hinv.lastd with h | h | ⟨i, hi, hc⟩
      · have := hfr.1
        rw [h] at this
        exact absurd (List.length_eq_zero.mp this.symm) hne
      · rw [k3] at h; cases h
      · have hi2 : i < sK.ps.length := (hinv.ordmem i).mp (List.mem_of_mem_take hi.1)
        exact ⟨procAt sK.ps i, procAt_mem _ i hi2, hc⟩
  · intro hj p hp
    obtain ⟨i, hi, rfl⟩ := exists_procAt_of_mem ps p hp
    have hi2 : i < sK.ps.length := by rw [hfr.1]; exact hi
    have := (hinv.segs (labelsOK_of_frame hj hfr)).1 i (hdone i hi2)
    rw [(hfr.2 i hi).1, (hfr.2 i hi).2.2] at this
    exact this

theorem filter_id_unique : ∀ (l : List Process) (p : Process),
    (l.map (fun q => q.id)).Nodup → p ∈ l → l.filter (fun q => decide (q.id = p.id)) = [p] := by
  intro l
  induction l with
  | nil => intro p _ hp; cases hp
  | cons a l ih =>
    intro p hnd hp
    rw [List.map_cons, List.nodup_cons] at hnd
    obtain ⟨hna, hnd2⟩ := hnd
    rcases List.mem_cons.mp hp with h | h
    · subst h
      have hnone : l.filter (fun q => decide (q.id = p.id)) = [] := by
        rw [List.filter_eq_nil_iff]
        intro q hq
        simp only [decide_eq_true_eq]
        intro he
        exact hna (List.mem_map.mpr ⟨q, hq, he⟩)
      simp [List.filter, hnone]
    · have hne : a.id ≠ p.id := by
        intro he
        exact hna (List.mem_map.mpr ⟨p, h, he.symm⟩)
      simp only [List.filter, hne, decide_False]
      exact ih p hnd2 h

theorem FCFS_result (ps : List Process) (hb : ∀ p, p ∈ ps → 0 < p.burst_time) :
    TimelineMetrics ps (FCFSScheduler_schedule ps) ∧
      (ps ≠ [] → IsMakespan (FCFSScheduler_schedule ps)) ∧
      (JobsOK ps → OneSegmentEach ps (FCFSScheduler_schedule ps).gantt) := by
  have hperm : List.Perm (sortByArrival (initRemaining ps)) (initRemaining ps) :=
    List.perm_insertionSort _ _
  have hbq : ∀ q, q ∈ sortByArrival (initRemaining ps) → 0 < q.burst_time := by
    intro q hq
    have := hperm.mem_iff.mp hq
    unfold initRemaining at this
    obtain ⟨p, hp, rfl⟩ := List.mem_map.mp this
    exact hb p hp
  obtain ⟨f1, f2, f3, f4, G, f5, f6, f7⟩ := FCFS_loop_spec _ 0 [] (le_refl _) hbq
  have hlen : (sortByArrival (initRemaining ps)).length = ps.length := by
    rw [hperm.length_eq, length_initRemaining]
  unfold FCFSScheduler_schedule
  simp only
  generalize sortByArrival (initRemaining ps) = qs at *
  generalize FCFS_loop qs 0 [] = r at *
  refine ⟨⟨by rw [f1, hlen], ?_, ?_⟩, ?_, ?_⟩
  · intro p hp
    have hm : ({ p with remaining_time := p.burst_time } : Process) ∈ qs :=
      hperm.mem_iff.mpr (by unfold initRemaining; exact List.mem_map.mpr ⟨p, hp, rfl⟩)
    obtain ⟨i, hi, hpi⟩ := exists_procAt_of_mem qs _ hm
    obtain ⟨⟨e1, e2, e3, _⟩, _⟩ := f3 i hi
    refine ⟨procAt r.1 i, procAt_mem _ i (by rw [f1]; exact hi), ?_⟩
    rw [hpi] at e1 e2 e3
    exact ⟨e1, e2, e3⟩
  · intro q hq
    obtain ⟨i, hi, rfl⟩ := exists_procAt_of_mem r.1 q hq
    rw [f1] at hi
    obtain ⟨⟨e1, e2, e3, _⟩, _, w, lo, _, g1, g2, hg, hc⟩ := f3 i hi
    have hbi := hbq _ (procAt_mem qs i hi)
    refine ⟨doneClock r.1 i, ⟨g1, g2, ?_, ?_⟩, metricsAt_of_done _ ?_ ?_ ?_⟩
    · rw [hg, e1, e3]; simp
    · rw [e3]; omega
    · rw [e3]; exact hbi
    · rw [e3]; exact w
    · unfold doneClock at lo
      rw [e3, e2]
      rw [e2] at lo
      exact lo
  · intro hne
    have hqne : qs ≠ [] := by
      intro h0
      rw [h0] at hlen
      exact hne (List.length_eq_zero.mp hlen.symm)
    refine ⟨?_, ?_⟩
    · intro q hq
      obtain ⟨i, hi, rfl⟩ := exists_procAt_of_mem r.1 q hq
      rw [f1] at hi
      exact (f3 i hi).2.2.2.2.1
    · obtain ⟨i, hi, hc⟩ := f4 hqne
      exact ⟨procAt r.1 i, procAt_mem _ i (by rw [f1]; exact hi), hc⟩
  · intro hj p hp
    show segments p.id r.2.1 = [(p.id, p.burst_time)]
    rw [f5, List.nil_append, f7 p.id (hj.1 p hp).2.2]
    have hnd : ((initRemaining ps).map (fun q => q.id)).Nodup := by
      unfold initRemaining
      rw [List.map_map]
      exact hj.2
    have hm : ({ p with remaining_time := p.burst_time } : Process) ∈ initRemaining ps := by
      unfold initRemaining; exact List.mem_map.mpr ⟨p, hp, rfl⟩
    have hfil := filter_id_unique (initRemaining ps) _ hnd hm
    have hp2 := hperm.filter (fun q => decide (q.id = p.id))
    rw [show (fun q : Process => decide (q.id = p.id))
        = (fun q => decide (q.id = ({ p with remaining_time := p.burst_time } : Process).id))
      from rfl] at hp2
    rw [hfil] at hp2
    rw [List.perm_singleton.mp hp2]
    rfl

/-! ## Runs that return -/

theorem whileLoop_some {σ : Type} (cond : σ → Bool) (body : σ → σ) :
    ∀ (fuel : Nat) (s r : σ), whileLoop cond body fuel s = some r →
      ∃ K, K ≤ fuel ∧ r = Nat.iterate body K s ∧ cond r = false ∧
        ∀ k, k < K → cond (Nat.iterate body k s) = true := by
  intro fuel
  induction fuel with
  | zero =>
    intro s r h
    unfold whileLoop at h
    by_cases hc : cond s = true
    · rw [if_pos hc] at h; cases h
    · rw [if_neg hc] at h
      cases h
      exact ⟨0, le_refl _, rfl, by simpa using hc, fun k hk => absurd hk (Nat.not_lt_zero k)⟩
  | succ fuel ih =>
    intro s r h
    unfold whileLoop at h
    by_cases hc : cond s = true
    · rw [if_pos hc] at h
      obtain ⟨K, h1, h2, h3, h4⟩ := ih (body s) r h
      refine ⟨K + 1, by omega, by simpa using h2, h3, ?_⟩
      intro k hk
      cases k with
      | zero => simpa using hc
      | succ k => simpa using h4 k (by omega)
    · rw [if_neg hc] at h
      cases h
      exact ⟨0, Nat.zero_le _, rfl, by simpa using hc, fun k hk => absurd hk (Nat.not_lt_zero k)⟩

/-! ## EDF: the deadlines -/

theorem EDF_body_frame (sel : List Process → List Nat → Nat) (s : EDFState) :
    (EDF_body sel s).ps.length = s.ps.length ∧ (EDF_body sel s).comp.length = s.comp.length ∧
      ∀ i, Static (procAt s.ps i) (procAt (EDF_body sel s).ps i) := by
  unfold EDF_body
  simp only
  split
  · split
    · exact ⟨rfl, rfl, fun i => Static_refl _⟩
    · exact ⟨rfl, rfl, fun i => Static_refl _⟩
  · refine ⟨by simp, ?_, fun i => static_modifyAt _ _ _ _ (static_decRemaining 1)⟩
    split <;> simp

theorem EDF_iterate_frame (sel : List Process → List Nat → Nat) (s : EDFState) :
    ∀ K, (Nat.iterate (EDF_body sel) K s).ps.length = s.ps.length ∧
      (Nat.iterate (EDF_body sel) K s).comp.length = s.comp.length ∧
      ∀ i, Static (procAt s.ps i) (procAt (Nat.iterate (EDF_body sel) K s).ps i) := by
  intro K
  induction K with
  | zero => exact ⟨rfl, rfl, fun i => Static_refl _⟩
  | succ K ih =>
    rw [Function.iterate_succ_apply']
    obtain ⟨a1, a2, a3⟩ := ih
    obtain ⟨b1, b2, b3⟩ := EDF_body_frame sel (Nat.iterate (EDF_body sel) K s)
    exact ⟨b1.trans a1, b2.trans a2, fun i => Static_trans (a3 i) (b3 i)⟩

theorem EDF_init_deadline (ps : List Process) (i : Nat) (hi : i < ps.length) :
    (procAt (EDF_init ps).ps i).deadline =
      if (procAt ps i).deadline = 0 then
        (procAt ps i).arrival_time + 2 * (procAt ps i).burst_time
      else (procAt ps i).deadline := by
  show (procAt (EDF_setDeadlines (initRemaining ps)) i).deadline = _
  unfold EDF_setDeadlines
  rw [procAt_map _ _ _ (by rw [length_initRemaining]; exact hi)]
  unfold initRemaining
  rw [procAt_map _ _ _ hi]
  by_cases hd : (procAt ps i).deadline = 0
  · simp [hd]
  · simp [hd]

/-! ## Lottery: the number of dispatches -/

theorem idsOK_frame {ps qs : List Process} (h : IdsOK ps) (hf : Frame ps qs) : IdsOK qs := by
  have hm : qs.map (fun p => p.id) = ps.map (fun p => p.id) :=
    map_eq_of_pointwise _ ps qs hf.1 (fun j hj => (hf.2 j hj).1)
  refine ⟨by rw [hm]; exact h.1, ?_⟩
  intro i hi
  rw [hf.1] at hi
  rw [(hf.2 i hi).1]
  exact h.2 i hi

theorem sum_toNat_cast : ∀ (ps : List Process), (∀ p, p ∈ ps → 0 ≤ p.burst_time) →
    (((ps.map (fun p => p.burst_time.toNat)).sum : Nat) : Int) = totalBurst ps := by
  intro ps
  induction ps with
  | nil => intro _; simp [totalBurst]
  | cons a l ih =>
    intro h
    have ha := h a (List.mem_cons_self a l)
    have hl := ih (fun p hp => h p (List.mem_cons_of_mem a hp))
    unfold totalBurst at hl ⊢
    simp only [List.map_cons, List.sum_cons, Nat.cast_add]
    rw [hl, Int.toNat_of_nonneg ha]

theorem Lottery_body_idle_ps (draws : Nat → Nat) (tickets : List Int) (s : LotteryState)
    (h : Lottery_bag tickets s.ps s.t = []) : (Lottery_body draws tickets s).ps = s.ps := by
  unfold Lottery_body
  simp only [h, List.isEmpty_nil, if_true]
  split
  · split <;> rfl
  · rfl

theorem Lottery_dispatches_succ (draws : Nat → Nat) (tickets : List Int) (s0 : LotteryState)
    (K : Nat) :
    Lottery_dispatches draws tickets s0 (K + 1) = Lottery_dispatches draws tickets s0 K +
      if Lottery_bag tickets (Nat.iterate (Lottery_body draws tickets) K s0).ps
          (Nat.iterate (Lottery_body draws tickets) K s0).t = [] then 0 else 1 := by
  unfold Lottery_dispatches
  rw [List.range_succ, List.filter_append, List.length_append]
  congr 1
  by_cases h : Lottery_bag tickets (Nat.iterate (Lottery_body draws tickets) K s0).ps
      (Nat.iterate (Lottery_body draws tickets) K s0).t = []
  · simp [h]
  · simp [h, List.isEmpty_iff]

theorem Lottery_dispatch_bound (draws : Nat → Nat) (ps : List Process) (K : Nat)
    (hrun : LoopRun (fun s => anyLeft s.ps)
      (Lottery_body draws (Lottery_tickets (initRemaining ps)))
      (LotteryInv ps (Lottery_tickets (initRemaining ps)))
      (fun a b => StepOK a.ps b.ps (doneClock a.ps) (doneClock b.ps) b.t)
      (Lottery_init ps) (fuelBound ps) K) :
    ∀ j, j ≤ K →
      Lottery_dispatches draws (Lottery_tickets (initRemaining ps)) (Lottery_init ps) j
        + remSum (Nat.iterate (Lottery_body draws (Lottery_tickets (initRemaining ps))) j
            (Lottery_init ps)).ps
        ≤ remSum (Lottery_init ps).ps := by
  obtain ⟨_, hconds, _, hinv, _, _⟩ := hrun
  intro j
  induction j with
  | zero => intro _; simp [Lottery_dispatches]
  | succ j ih =>
    intro hj
    have h1 := ih (by omega)
    have hI := hinv j (by omega)
    have hc := hconds j (by omega)
    rw [Lottery_dispatches_succ, Function.iterate_succ_apply']
    generalize Nat.iterate (Lottery_body draws (Lottery_tickets (initRemaining ps))) j
      (Lottery_init ps) = s at *
    by_cases hb : Lottery_bag (Lottery_tickets (initRemaining ps)) s.ps s.t = []
    · rw [if_pos hb, Lottery_body_idle_ps _ _ _ hb]
      omega
    · rw [if_neg hb]
      have hm := (Lottery_step draws _ ps s hI hc).1.2
      unfold Lottery_measure at hm
      rw [if_neg hb] at hm
      omega

/-! ## Selection by a priority queue -/

theorem pqTopMin_foldl {κ : Type} [LinearOrder κ] (key : Nat → κ) (rq : List Nat) :
    ∀ (n : Nat), n ≤ rq.length → 0 < rq.length →
      (List.range n).foldl (fun b i =>
          if key (rq.getD i 0) < key (rq.getD b 0) then i else b) 0 < rq.length ∧
      ∀ i, i < n →
        key (rq.getD ((List.range n).foldl (fun b i =>
          if key (rq.getD i 0) < key (rq.getD b 0) then i else b) 0) 0) ≤ key (rq.getD i 0) := by
  intro n
  induction n with
  | zero => intro _ hpos; exact ⟨by simpa using hpos, fun i hi => absurd hi (Nat.not_lt_zero i)⟩
  | succ n ih =>
    intro hn hpos
    obtain ⟨h1, h2⟩ := ih (by omega) hpos
    rw [List.range_succ, List.foldl_append]
    simp only [List.foldl_cons, List.foldl_nil]
    generalize (List.range n).foldl (fun b i =>
      if key (rq.getD i 0) < key (rq.getD b 0) then i else b) 0 = b at *
    by_cases hlt : key (rq.getD n 0) < key (rq.getD b 0)
    · rw [if_pos hlt]
      refine ⟨by omega, ?_⟩
      intro i hi
      rcases Nat.lt_or_eq_of_le (Nat.lt_succ_iff.mp hi) with h | h
      · exact le_trans (le_of_lt hlt) (h2 i h)
      · rw [h]
    · rw [if_neg hlt]
      refine ⟨h1, ?_⟩
      intro i hi
      rcases Nat.lt_or_eq_of_le (Nat.lt_succ_iff.mp hi) with h | h
      · exact h2 i h
      · rw [h]; exact not_lt.mp hlt

theorem pqTopMin_spec {κ : Type} [LinearOrder κ] (key : Nat → κ) (rq : List Nat)
    (hne : rq ≠ []) :
    pqTopMin key rq < rq.length ∧ ∀ j, j ∈ rq → key (rq.getD (pqTopMin key rq) 0) ≤ key j := by
  have hpos : 0 < rq.length := List.length_pos.mpr hne
  obtain ⟨h1, h2⟩ := pqTopMin_foldl key rq rq.length (le_refl _) hpos
  refine ⟨h1, ?_⟩
  intro j hj
  obtain ⟨i, hi, rfl⟩ := List.getElem_of_mem hj
  have := h2 i hi
  rw [List.getD_eq_getElem rq 0 hi] at this
  exact this

theorem EDF_top_min : TopMin (fun ps i => (procAt ps i).deadline) EDF_top :=
  fun ps rq hne => pqTopMin_spec (fun i => (procAt ps i).deadline) rq hne

theorem CFS_top_min : TopMin (fun ps i => (procAt ps i).vruntime) CFS_top :=
  fun ps rq hne => pqTopMin_spec (fun i => (procAt ps i).vruntime) rq hne

/-- After the admission step every arrived, unfinished process is in the queue. -/
theorem arrived_mem_admitted {ps : List Process} {t : Int} {idx : Nat} {m : List Nat}
    (hadm : Adm ps t idx m) (hb : ∀ i, i < ps.length → 0 < (procAt ps i).burst_time)
    (hsort : SortedIdx ps) (j : Nat) (hj : j < ps.length) (harr : (procAt ps j).arrival_time ≤ t)
    (hrem : 0 < (procAt ps j).remaining_time) : j ∈ m ++ newArrivals ps t idx := by
  have hadm1 := Adm_admit hadm hb
  obtain ⟨s1, s2, s3, s4⟩ := newArrivals_spec ps t idx hadm.1
  rw [hadm1.2.2.2.2 j]
  refine ⟨?_, hrem⟩
  by_contra hge
  have hlt : idx + (newArrivals ps t idx).length < ps.length := by omega
  have h1 := s4 hlt
  have h2 := hsort (idx + (newArrivals ps t idx).length) j (by omega) hj
  omega

/-! ## EDF: the process that runs has the smallest deadline -/

theorem EDF_select (sel : List Process → List Nat → Nat)
    (hsel : TopMin (fun ps i => (procAt ps i).deadline) sel) (ps0 : List Process)
    (s : EDFState) (h : EDFInv ps0 s) (hsort : SortedIdx s.ps) (i : Nat)
    (hlt : (procAt (EDF_body sel s).ps i).remaining_time < (procAt s.ps i).remaining_time) :
    (EDF_body sel s).t = s.t + 1 ∧
      (procAt (EDF_body sel s).ps i).remaining_time = (procAt s.ps i).remaining_time - 1 ∧
      i < s.ps.length ∧ (procAt s.ps i).arrival_time ≤ s.t ∧
      0 < (procAt s.ps i).remaining_time ∧
      ∀ j, j < s.ps.length → (procAt s.ps j).arrival_time ≤ s.t →
        0 < (procAt s.ps j).remaining_time →
        (procAt s.ps i).deadline ≤ (procAt s.ps j).deadline := by
  obtain ⟨hfr, hacct, hadm, htl, hcl, hld⟩ := h
  have hb : ∀ i, i < s.ps.length → 0 < (procAt s.ps i).burst_time := fun i hi => (hacct.2 i hi).1
  have hadm1 := Adm_admit hadm hb
  by_cases hrq : (s.rq ++ newArrivals s.ps s.t s.idx) = []
  · exfalso
    have hps : (EDF_body sel s).ps = s.ps := by
      unfold EDF_body
      simp only [hrq, List.isEmpty_nil, if_true]
      split <;> rfl
    rw [hps] at hlt
    exact lt_irrefl _ hlt
  · have hne : (s.rq ++ newArrivals s.ps s.t s.idx).isEmpty = false := by
      simpa [List.isEmpty_iff] using hrq
    obtain ⟨t1, t2⟩ := hsel s.ps _ hrq
    have hmem := arrived_mem_admitted hadm hb hsort
    unfold EDF_body at hlt ⊢
    simp only [hne, Bool.false_eq_true, if_false] at hlt ⊢
    generalize hrq1 : s.rq ++ newArrivals s.ps s.t s.idx = rq1 at *
    have hpos : min (sel s.ps rq1) (rq1.length - 1) = sel s.ps rq1 := by omega
    rw [hpos] at hlt ⊢
    generalize hpd : rq1.getD (sel s.ps rq1) 0 = p at *
    have hpin : p ∈ rq1 := by
      rw [← hpd, List.getD_eq_getElem rq1 0 t1]
      exact List.getElem_mem t1
    have hp := (hadm1.2.2.2.2 p).mp hpin
    have hpn : p < s.ps.length := lt_of_lt_of_le hp.1 hadm1.1
    have hip : i = p := by
      by_contra hne2
      rw [procAt_modifyAt_ne _ _ _ _ hne2] at hlt
      exact lt_irrefl _ hlt
    subst hip
    refine ⟨trivial, ?_, hpn, hadm1.2.2.1 i hp.1, hp.2, ?_⟩
    · rw [procAt_modifyAt_eq _ _ _ hpn]; rfl
    · intro j hj harr hrem
      exact t2 j (hmem j hj harr hrem)

/-! ## Round Robin with a quantum that no burst time exceeds -/

theorem FCFS_loop_indep : ∀ (qs : List Process) (t : Int) (g h : Gantt),
    (FCFS_loop qs t g).1 = (FCFS_loop qs t h).1 ∧
      (FCFS_loop qs t g).2.2 = (FCFS_loop qs t h).2.2 := by
  intro qs
  induction qs with
  | nil => intro t g h; exact ⟨rfl, rfl⟩
  | cons p rest ih =>
    intro t g h
    simp only [FCFS_loop]
    exact ⟨by rw [(ih _ _ _).1], (ih _ _ _).2⟩

theorem FCFS_loop_head (p : Process) (rest : List Process) (t : Int) (g : Gantt) :
    (FCFS_loop (p :: rest) t g).1
        = setMetrics ((if t < p.arrival_time then p.arrival_time else t) + p.burst_time) p
          :: (FCFS_loop rest
                ((if t < p.arrival_time then p.arrival_time else t) + p.burst_time) []).1 ∧
      (FCFS_loop (p :: rest) t g).2.2
        = (FCFS_loop rest
            ((if t < p.arrival_time then p.arrival_time else t) + p.burst_time) []).2.2 := by
  simp only [FCFS_loop]
  exact ⟨by rw [(FCFS_loop_indep rest _ _ []).1], (FCFS_loop_indep rest _ _ []).2⟩

theorem dispatchOrder_append (g h : Gantt) :
    dispatchOrder (g ++ h) = dispatchOrder g ++ dispatchOrder h := by
  simp [dispatchOrder, List.filter_append]

theorem dispatchOrder_idle (d : Int) : dispatchOrder [("IDLE", d)] = [] := by
  simp [dispatchOrder]

theorem dispatchOrder_single (id : String) (d : Int) (h : id ≠ "IDLE") :
    dispatchOrder [(id, d)] = [id] := by
  simp [dispatchOrder, h]

theorem FCFS_dispatchOrder : ∀ (qs : List Process) (t : Int) (g : Gantt),
    (∀ p, p ∈ qs → p.id ≠ "IDLE") →
    dispatchOrder (FCFS_loop qs t g).2.1 = dispatchOrder g ++ qs.map (fun p => p.id) := by
  intro qs
  induction qs with
  | nil => intro t g _; simp [FCFS_loop]
  | cons p rest ih =>
    intro t g h
    simp only [FCFS_loop]
    rw [ih _ _ (fun q hq => h q (List.mem_cons_of_mem p hq)), dispatchOrder_append,
      dispatchOrder_single _ _ (h p (List.mem_cons_self p rest))]
    by_cases hlt : t < p.arrival_time
    · rw [if_pos hlt, dispatchOrder_append, dispatchOrder_idle]; simp
    · rw [if_neg hlt]; simp

theorem sortByArrival_sorted (qs : List Process) (h : SortedByArrival qs) :
    sortByArrival qs = qs :=
  List.Sorted.insertionSort_eq h

theorem sorted_initRemaining (ps : List Process) (h : SortedByArrival ps) :
    SortedByArrival (initRemaining ps) := by
  unfold SortedByArrival initRemaining
  rw [List.pairwise_map]
  exact h

theorem drop_eq_procAt_cons (qs : List Process) (i : Nat) (hi : i < qs.length) :
    qs.drop i = procAt qs i :: qs.drop (i + 1) := by
  unfold procAt
  rw [List.getD_eq_getElem _ _ hi]
  exact List.drop_eq_getElem_cons hi

theorem take_succ_map_id (qs : List Process) (i : Nat) (hi : i < qs.length) :
    (qs.take (i + 1)).map (fun p => p.id)
      = (qs.take i).map (fun p => p.id) ++ [(procAt qs i).id] := by
  unfold procAt
  rw [List.getD_eq_getElem _ _ hi, List.take_succ, List.map_append]
  simp [List.getElem?_eq_getElem hi]

theorem length_le_sum_burst : ∀ (ps : List Process), (∀ p, p ∈ ps → 0 < p.burst_time) →
    ps.length ≤ (ps.map (fun p => p.burst_time.toNat)).sum := by
  intro ps
  induction ps with
  | nil => intro _; simp
  | cons a l ih =>
    intro h
    have ha := h a (List.mem_cons_self a l)
    have hl := ih (fun p hp => h p (List.mem_cons_of_mem a hp))
    simp only [List.length_cons, List.map_cons, List.sum_cons]
    have : 1 ≤ a.burst_time.toNat := by omega
    omega

theorem procAt_of_drop (l : List Process) (i : Nat) (a : Process) (r : List Process)
    (h : l.drop i = a :: r) : procAt l i = a ∧ l.drop (i + 1) = r := by
  refine ⟨?_, ?_⟩
  · unfold procAt
    rw [List.getD_eq_getElem?_getD]
    have := List.getElem?_drop l i 0
    rw [h] at this
    simp only [List.getElem?_cons_zero, Nat.add_zero] at this
    rw [← this]
    rfl
  · rw [← List.tail_drop, h]
    rfl

theorem range'_join (i idx k : Nat) (h : i ≤ idx) :
    List.range' i (idx - i) ++ List.range' idx k = List.range' i (idx + k - i) := by
  have h1 : idx = i + (idx - i) := by omega
  have := List.range'_append_1 i (idx - i) k
  rw [← h1] at this
  rw [this]
  congr 1
  omega

/-- The idle iteration: nothing is queued and the next process has not arrived. -/
theorem RRSim_idle (quantum : Int) (qs : List Process) (i : Nat) (s : RRState)
    (h : RRSim qs i s) (hi : i < qs.length)
    (hnil : s.q ++ newArrivals s.ps s.t s.idx = []) :
    RRSim qs i (RR_body quantum s) ∧
      (RR_body quantum s).q ++ newArrivals (RR_body quantum s).ps (RR_body quantum s).t
        (RR_body quantum s).idx ≠ [] := by
  obtain ⟨hlen, hile, hidxle, htpos, hqq, harr, hrest, harrival, hdone, hc1, hc2, hlab⟩ := h
  obtain ⟨hq0, hnew⟩ := List.append_eq_nil.mp hnil
  have hidx : s.idx = i := by
    rw [hqq, List.range'_eq_nil] at hq0
    omega
  have i1 : s.idx < s.ps.length := by rw [hlen, hidx]; exact hi
  have hlate : s.t < (procAt s.ps s.idx).arrival_time :=
    newArrivals_eq_nil s.ps s.t s.idx (le_of_lt i1) hnew i1
  have hbody : RR_body quantum s = { s with t := (procAt s.ps s.idx).arrival_time } := by
    unfold RR_body
    simp [hq0, hnew, i1]
  rw [hbody]
  refine ⟨⟨hlen, hile, hidxle, ?_, hqq, ?_, hrest, harrival, hdone, ?_, ?_, ?_⟩, ?_⟩
  · show 0 ≤ (procAt s.ps s.idx).arrival_time
    omega
  · intro j h1 h2
    have h3 : j < s.idx := h2
    exact absurd h3 (by omega)
  · show (FCFS_loop (qs.drop i) (procAt s.ps s.idx).arrival_time []).1 = _
    rw [← hc1, drop_eq_procAt_cons qs i hi, (FCFS_loop_head _ _ _ _).1,
      (FCFS_loop_head _ _ _ _).1, harrival, hidx]
    rw [harrival, hidx] at hlate
    rw [if_pos hlate, if_neg (lt_irrefl _)]
  · show (FCFS_loop (qs.drop i) (procAt s.ps s.idx).arrival_time []).2.2 = _
    rw [← hc2, drop_eq_procAt_cons qs i hi, (FCFS_loop_head _ _ _ _).2,
      (FCFS_loop_head _ _ _ _).2, harrival, hidx]
    rw [harrival, hidx] at hlate
    rw [if_pos hlate, if_neg (lt_irrefl _)]
  · intro hids
    obtain ⟨l1, l2⟩ := hlab hids
    show dispatchOrder (finalizeBlock s.last s.last_start (procAt s.ps s.idx).arrival_time
        s.gantt) = _ ∧ _
    rcases l2 with ⟨z1, z2, z3⟩ | ⟨z1, z2, z3, z4⟩
    · refine ⟨?_, Or.inl ⟨z1, z2, z3⟩⟩
      rw [z2, finalizeBlock_closed] at l1 ⊢
      exact l1
    · have hne : s.last ≠ "" := by
        rw [z2]; exact (hids.2 (i - 1) (by omega)).2
      have hidle : s.last ≠ "IDLE" := by
        rw [z2]; exact (hids.2 (i - 1) (by omega)).1
      refine ⟨?_, Or.inr ⟨z1, z2, z3, by show s.last_start < (procAt s.ps s.idx).arrival_time; omega⟩⟩
      rw [finalizeBlock_open _ _ _ _ hne z3 z4, dispatchOrder_append,
        dispatchOrder_single _ _ hidle] at l1
      rw [finalizeBlock_open _ _ _ _ hne z3 (by omega), dispatchOrder_append,
        dispatchOrder_single _ _ hidle]
      exact l1
  · show s.q ++ newArrivals s.ps (procAt s.ps s.idx).arrival_time s.idx ≠ []
    intro hcon
    exact newArrivals_ne_nil s.ps _ s.idx i1 (le_refl _) (List.append_eq_nil.mp hcon).2

/-- The dispatch iteration: the head of the queue is process `i`, which runs to completion. -/
theorem RRSim_dispatch (quantum : Int) (qs : List Process)
    (hq : ∀ j, j < qs.length → (procAt qs j).remaining_time = (procAt qs j).burst_time ∧
      0 < (procAt qs j).burst_time ∧ (procAt qs j).burst_time ≤ quantum)
    (i : Nat) (s : RRState) (h : RRSim qs i s) (hi : i < qs.length)
    (hne : s.q ++ newArrivals s.ps s.t s.idx ≠ []) :
    RRSim qs (i + 1) (RR_body quantum s) := by
  obtain ⟨hlen, hile, hidxle, htpos, hqq, harr, hrest, harrival, hdone, hc1, hc2, hlab⟩ := h
  obtain ⟨n1, n2, n3, n4⟩ := newArrivals_spec s.ps s.t s.idx (by rw [hlen]; exact hidxle)
  have hq1 : s.q ++ newArrivals s.ps s.t s.idx
      = List.range' i (s.idx + (newArrivals s.ps s.t s.idx).length - i) := by
    rw [hqq]
    conv_lhs => rw [n1]
    exact range'_join i s.idx _ hile
  have hpos : 0 < s.idx + (newArrivals s.ps s.t s.idx).length - i := by
    by_contra hz
    have hz2 : s.idx + (newArrivals s.ps s.t s.idx).length - i = 0 := by omega
    rw [hz2] at hq1
    exact hne (by simpa using hq1)
  obtain ⟨m, hm⟩ : ∃ m, s.idx + (newArrivals s.ps s.t s.idx).length - i = m + 1 :=
    ⟨s.idx + (newArrivals s.ps s.t s.idx).length - i - 1, by omega⟩
  rw [hm, List.range'_succ] at hq1
  have hiarr : (procAt qs i).arrival_time ≤ s.t := by
    by_cases hlt : i < s.idx
    · exact harr i (le_refl _) hlt
    · have := n3 i (by omega) (by omega)
      rw [harrival] at this
      exact this
  obtain ⟨hrem, hbpos, hble⟩ := hq i hi
  have hpi : procAt s.ps i = procAt qs i := hrest i (le_refl _)
  have hin : i < s.ps.length := by rw [hlen]; exact hi
  have hslice : min quantum (procAt s.ps i).remaining_time = (procAt qs i).burst_time := by
    rw [hpi, hrem]; omega
  unfold RR_body
  simp only [hq1, hslice]
  generalize hps1 : modifyAt s.ps i (decRemaining (procAt qs i).burst_time) = ps1 at *
  have hlen1 : ps1.length = s.ps.length := by rw [← hps1]; simp
  have hp1i : procAt ps1 i = decRemaining (procAt qs i).burst_time (procAt qs i) := by
    rw [← hps1, procAt_modifyAt_eq _ _ _ hin, hpi]
  have hrem1 : (procAt ps1 i).remaining_time = 0 := by
    rw [hp1i]
    show (procAt qs i).remaining_time - (procAt qs i).burst_time = 0
    omega
  rw [if_neg (show ¬ ((procAt ps1 i).remaining_time > 0) by rw [hrem1]; decide)]
  have harr1 : ∀ j, (procAt ps1 j).arrival_time = (procAt s.ps j).arrival_time := by
    intro j
    rw [← hps1]
    exact (static_modifyAt s.ps i j _ (static_decRemaining _)).2.1
  have hna : newArrivals ps1 (s.t + (procAt qs i).burst_time)
        (s.idx + (newArrivals s.ps s.t s.idx).length)
      = newArrivals s.ps (s.t + (procAt qs i).burst_time)
        (s.idx + (newArrivals s.ps s.t s.idx).length) :=
    newArrivals_congr _ _ _ _ hlen1 harr1
  rw [hna]
  obtain ⟨k1, k2, k3, k4⟩ := newArrivals_spec s.ps (s.t + (procAt qs i).burst_time)
    (s.idx + (newArrivals s.ps s.t s.idx).length) n2
  generalize hidx1 : s.idx + (newArrivals s.ps s.t s.idx).length = idx1 at *
  generalize hadm2 : newArrivals s.ps (s.t + (procAt qs i).burst_time) idx1 = adm2 at *
  have hcont := hc1
  rw [drop_eq_procAt_cons qs i hi, (FCFS_loop_head _ _ _ _).1, if_neg (by omega)] at hcont
  obtain ⟨hFi, hFrest⟩ := procAt_of_drop _ i _ _ hcont.symm
  refine ⟨?_, ?_, ?_, ?_, ?_, ?_, ?_, ?_, ?_, ?_, ?_, ?_⟩
  · show (modifyAt ps1 i (setMetrics (s.t + (procAt qs i).burst_time))).length = qs.length
    rw [length_modifyAt, hlen1, hlen]
  · show i + 1 ≤ idx1 + adm2.length
    omega
  · show idx1 + adm2.length ≤ qs.length
    rw [← hlen]; exact k2
  · show 0 ≤ s.t + (procAt qs i).burst_time
    omega
  · show List.range' (i + 1) m ++ adm2 = List.range' (i + 1) (idx1 + adm2.length - (i + 1))
    conv_lhs => rw [k1]
    have hm2 : m = idx1 - (i + 1) := by omega
    rw [hm2]
    exact range'_join (i + 1) idx1 _ (by omega)
  · intro j h1 h2
    show (procAt qs j).arrival_time ≤ s.t + (procAt qs i).burst_time
    have h2b : j < idx1 + adm2.length := h2
    by_cases hlt : j < idx1
    · by_cases hlt2 : j < s.idx
      · have := harr j (by omega) hlt2
        omega
      · have := n3 j (by omega) (by omega)
        rw [harrival] at this
        omega
    · have := k3 j (by omega) h2b
      rw [harrival] at this
      exact this
  · intro j hj
    show procAt (modifyAt ps1 i (setMetrics (s.t + (procAt qs i).burst_time))) j = procAt qs j
    rw [procAt_modifyAt_ne _ _ _ _ (by omega), ← hps1, procAt_modifyAt_ne _ _ _ _ (by omega)]
    exact hrest j (by omega)
  · intro j
    show (procAt (modifyAt ps1 i (setMetrics (s.t + (procAt qs i).burst_time))) j).arrival_time
      = (procAt qs j).arrival_time
    rw [(static_modifyAt ps1 i j _ (static_setMetrics _)).2.1, harr1, harrival]
  · intro j hj
    show (procAt (modifyAt ps1 i (setMetrics (s.t + (procAt qs i).burst_time))) j).id = _ ∧
      (procAt (modifyAt ps1 i (setMetrics (s.t + (procAt qs i).burst_time))) j).waiting_time
        = _ ∧
      (procAt (modifyAt ps1 i (setMetrics (s.t + (procAt qs i).burst_time))) j).turnaround_time
        = _ ∧
      (procAt (modifyAt ps1 i (setMetrics (s.t + (procAt qs i).burst_time))) j).remaining_time
        = 0
    by_cases hji : j = i
    · subst hji
      rw [procAt_modifyAt_eq _ _ _ (by rw [hlen1]; exact hin), hp1i, hFi]
      exact ⟨rfl, rfl, rfl, by show (procAt qs j).remaining_time - (procAt qs j).burst_time = 0; omega⟩
    · rw [procAt_modifyAt_ne _ _ _ _ hji, ← hps1, procAt_modifyAt_ne _ _ _ _ hji]
      exact hdone j (by omega)
  · show (FCFS_loop (qs.drop (i + 1)) (s.t + (procAt qs i).burst_time) []).1 = _
    exact hFrest.symm
  · show (FCFS_loop (qs.drop (i + 1)) (s.t + (procAt qs i).burst_time) []).2.2 = _
    rw [← hc2, drop_eq_procAt_cons qs i hi, (FCFS_loop_head _ _ _ _).2, if_neg (by omega)]
  · intro hids
    obtain ⟨l1, l2⟩ := hlab hids
    have hcid : (procAt qs i).id ≠ "" := (hids.2 i hi).2
    have hcidle : (procAt qs i).id ≠ "IDLE" := (hids.2 i hi).1
    have hfresh : decide (s.last ≠ (procAt s.ps i).id ∨ s.last_start = -1) = true := by
      rw [hpi, decide_eq_true_eq]
      left
      rcases l2 with ⟨_, z2, _⟩ | ⟨z1, z2, _, _⟩
      · rw [z2]; exact Ne.symm hcid
      · rw [z2]
        intro he
        have := ids_injective qs hids.1 (i - 1) i (by omega) hi he
        omega
    simp only [hfresh, if_true]
    rw [hpi, finalizeBlock_open _ _ _ _ hcid htpos (by omega), dispatchOrder_append,
      dispatchOrder_single _ _ hcidle, l1, take_succ_map_id qs i hi]
    exact ⟨rfl, Or.inr ⟨Nat.succ_pos i, rfl, htpos, by omega⟩⟩

theorem RRSim_cond {qs : List Process} {i : Nat} {s : RRState} (h : RRSim qs i s)
    (hi : i < qs.length) : RR_cond s = true := by
  unfold RR_cond
  by_cases hlt : s.idx < s.ps.length
  · simp [hlt]
  · have hidx : s.idx = qs.length := by
      have := h.idxle
      have := h.len
      omega
    obtain ⟨m, hm⟩ : ∃ m, s.idx - i = m + 1 := ⟨s.idx - i - 1, by omega⟩
    rw [h.q, hm, List.range'_succ]
    simp

theorem RRSim_exit {qs : List Process} {s : RRState} (h : RRSim qs qs.length s) :
    RR_cond s = false := by
  unfold RR_cond
  have hidx : s.idx = qs.length := Nat.le_antisymm h.idxle h.ile
  have hq : s.q = [] := by rw [h.q, hidx]; simp
  rw [hq, hidx, h.len]
  simp

theorem RRSim_run (quantum : Int) (qs : List Process)
    (hq : ∀ j, j < qs.length → (procAt qs j).remaining_time = (procAt qs j).burst_time ∧
      0 < (procAt qs j).burst_time ∧ (procAt qs j).burst_time ≤ quantum) :
    ∀ (m i : Nat) (s : RRState), i + m = qs.length → RRSim qs i s →
      ∃ K, K ≤ 2 * m ∧ (∀ k, k < K → RR_cond (Nat.iterate (RR_body quantum) k s) = true) ∧
        RRSim qs qs.length (Nat.iterate (RR_body quantum) K s) := by
  intro m
  induction m with
  | zero =>
    intro i s him h
    have : i = qs.length := by omega
    subst this
    exact ⟨0, le_refl _, fun k hk => absurd hk (Nat.not_lt_zero k), h⟩
  | succ m ih =>
    intro i s him h
    have hi : i < qs.length := by omega
    have hc := RRSim_cond h hi
    by_cases hnil : s.q ++ newArrivals s.ps s.t s.idx = []
    · obtain ⟨h1, hne1⟩ := RRSim_idle quantum qs i s h hi hnil
      have hc1 := RRSim_cond h1 hi
      have h2 := RRSim_dispatch quantum qs hq i _ h1 hi hne1
      obtain ⟨K, hK, hconds, hfin⟩ := ih (i + 1) _ (by omega) h2
      refine ⟨K + 2, by omega, ?_, ?_⟩
      · intro k hk
        match k with
        | 0 => exact hc
        | 1 => exact hc1
        | k + 2 =>
          rw [Function.iterate_succ_apply, Function.iterate_succ_apply]
          exact hconds k (by omega)
      · rw [Function.iterate_succ_apply, Function.iterate_succ_apply]
        exact hfin
    · have h2 := RRSim_dispatch quantum qs hq i s h hi hnil
      obtain ⟨K, hK, hconds, hfin⟩ := ih (i + 1) _ (by omega) h2
      refine ⟨K + 1, by omega, ?_, ?_⟩
      · intro k hk
        match k with
        | 0 => exact hc
        | k + 1 =>
          rw [Function.iterate_succ_apply]
          exact hconds k (by omega)
      · rw [Function.iterate_succ_apply]
        exact hfin

theorem RRSim_init (ps : List Process) : RRSim (initRemaining ps) 0 (RR_init ps) := by
  refine ⟨rfl, Nat.le_refl _, Nat.zero_le _, le_refl _, rfl, ?_, fun j _ => rfl, fun j => rfl,
    ?_, ?_, ?_, ?_⟩
  · intro j _ h2
    exact absurd h2 (Nat.not_lt_zero j)
  · intro j hj
    exact absurd hj (Nat.not_lt_zero j)
  · simp [RR_init]
  · simp [RR_init]
  · intro _
    exact ⟨by simp [RR_init, finalizeBlock, dispatchOrder], Or.inl ⟨rfl, rfl, rfl⟩⟩

/-! ## Metrics -/

theorem foldl_add_rat (f : Process → Rat) (ps : List Process) (a : Rat) :
    ps.foldl (fun s p => s + f p) a = a + (ps.map f).sum := by
  induction ps generalizing a with
  | nil => simp
  | cons p rest ih => simp only [List.foldl_cons, List.map_cons, List.sum_cons, ih]; ring

theorem foldl_add_int (f : Process → Int) (ps : List Process) (a : Int) :
    ps.foldl (fun s p => s + f p) a = a + (ps.map f).sum := by
  induction ps generalizing a with
  | nil => simp
  | cons p rest ih => simp only [List.foldl_cons, List.map_cons, List.sum_cons, ih]; ring

/-! ## Round Robin: what one dispatch does -/

theorem RR_cond_of_head (ps0 : List Process) (s : RRState) (h : RRInv ps0 s) (cur : Nat)
    (rest : List Nat) (hq1 : s.q ++ newArrivals s.ps s.t s.idx = cur :: rest) :
    RR_cond s = true := by
  unfold RR_cond
  cases hq : s.q with
  | cons a l => simp
  | nil =>
    rw [hq, List.nil_append] at hq1
    have h2 := (newArrivals_spec s.ps s.t s.idx h.adm.1).2.1
    rw [hq1] at h2
    simp only [List.length_cons] at h2
    simp only [List.isEmpty_nil, Bool.not_true, Bool.false_or, decide_eq_true_eq]
    omega

theorem RR_dispatch (quantum : Int) (hq : 1 ≤ quantum) (ps0 : List Process) (s : RRState)
    (h : RRInv ps0 s) (hsort : SortedIdx s.ps) (cur : Nat) (rest : List Nat)
    (hq1 : s.q ++ newArrivals s.ps s.t s.idx = cur :: rest) :
    (RR_body quantum s).t = s.t + min quantum (procAt s.ps cur).remaining_time ∧
      (procAt (RR_body quantum s).ps cur).remaining_time
        = (procAt s.ps cur).remaining_time - min quantum (procAt s.ps cur).remaining_time ∧
      (∀ j, j ≠ cur →
        (procAt (RR_body quantum s).ps j).remaining_time = (procAt s.ps j).remaining_time) ∧
      (0 < (procAt (RR_body quantum s).ps cur).remaining_time →
        ∃ pre, (RR_body quantum s).q = pre ++ [cur] ∧ cur ∉ pre ∧
          ∀ j, j < s.ps.length → j ≠ cur →
            (procAt s.ps j).arrival_time ≤ (RR_body quantum s).t →
            0 < (procAt s.ps j).remaining_time → j ∈ pre) := by
  have hc := RR_cond_of_head ps0 s h cur rest hq1
  obtain ⟨⟨hinv, _⟩, _⟩ := RR_step quantum hq ps0 s h hc
  have hb : ∀ i, i < s.ps.length → 0 < (procAt s.ps i).burst_time := fun i hi => (h.acct.2 i hi).1
  have hadm1 := Adm_admit h.adm hb
  rw [hq1] at hadm1
  have hpn : cur < s.ps.length :=
    lt_of_lt_of_le ((hadm1.2.2.2.2 cur).mp (List.mem_cons_self cur _)).1 hadm1.1
  have hlen : (RR_body quantum s).ps.length = s.ps.length := by
    rw [hinv.frame.1, h.frame.1]
  have hd := RunsTo_dec s.ps cur (min quantum (procAt s.ps cur).remaining_time) hpn
  generalize hsl : min quantum (procAt s.ps cur).remaining_time = slice at *
  generalize hps1 : modifyAt s.ps cur (decRemaining slice) = ps1 at *
  have ht : (RR_body quantum s).t = s.t + slice := by
    by_cases h0 : (procAt ps1 cur).remaining_time > 0
    · simp only [RR_body, hq1, hsl, hps1, if_pos h0]
    · simp only [RR_body, hq1, hsl, hps1, if_neg h0]
  have hps : (RR_body quantum s).ps
      = if (procAt ps1 cur).remaining_time > 0 then ps1
        else modifyAt ps1 cur (setMetrics (s.t + slice)) := by
    by_cases h0 : (procAt ps1 cur).remaining_time > 0
    · simp only [RR_body, hq1, hsl, hps1, if_pos h0]
    · simp only [RR_body, hq1, hsl, hps1, if_neg h0]
  have hqq : (RR_body quantum s).q
      = if (procAt ps1 cur).remaining_time > 0 then
          rest ++ newArrivals ps1 (s.t + slice) (s.idx + (newArrivals s.ps s.t s.idx).length)
            ++ [cur]
        else rest ++ newArrivals ps1 (s.t + slice)
          (s.idx + (newArrivals s.ps s.t s.idx).length) := by
    by_cases h0 : (procAt ps1 cur).remaining_time > 0
    · simp only [RR_body, hq1, hsl, hps1, if_pos h0]
    · simp only [RR_body, hq1, hsl, hps1, if_neg h0]
  have hfix : ∀ j, (procAt (RR_body quantum s).ps j).remaining_time
        = (procAt ps1 j).remaining_time ∧
      (procAt (RR_body quantum s).ps j).arrival_time = (procAt s.ps j).arrival_time := by
    intro j
    have e0 := (RunsTo_static_all hd j).2.1
    rw [hps]
    split_ifs
    · exact ⟨rfl, e0⟩
    · rw [procAt_modifyAt]
      split_ifs with hc1
      · rw [hc1.1]; exact ⟨rfl, hc1.1 ▸ e0⟩
      · exact ⟨rfl, e0⟩
  have hrem : ∀ j, (procAt (RR_body quantum s).ps j).remaining_time
      = if j = cur then (procAt s.ps cur).remaining_time - slice
        else (procAt s.ps j).remaining_time := by
    intro j
    rw [(hfix j).1]
    by_cases hj : j = cur
    · rw [if_pos hj, hj]; exact hd.2.2.2.2
    · rw [if_neg hj, hd.2.2.1 j hj]
  have hstat : ∀ j, (procAt (RR_body quantum s).ps j).arrival_time
      = (procAt s.ps j).arrival_time := fun j => (hfix j).2
  refine ⟨ht, by rw [hrem, if_pos rfl], fun j hj => by rw [hrem, if_neg hj], ?_⟩
  intro hpos
  have hq2 : ∃ pre, (RR_body quantum s).q = pre ++ [cur] := by
    rw [(hfix cur).1] at hpos
    rw [hqq, if_pos hpos]
    exact ⟨_, rfl⟩
  obtain ⟨pre, hpre⟩ := hq2
  have hnd := hinv.adm.2.2.2.1
  rw [hpre] at hnd
  have hcur : cur ∉ pre := by
    intro hin
    have := List.nodup_append.mp hnd
    exact this.2.2 hin (List.mem_singleton_self cur) 
  refine ⟨pre, hpre, hcur, ?_⟩
  intro j hj hne harr hrj
  have hmem : j ∈ (RR_body quantum s).q := by
    rw [hinv.adm.2.2.2.2 j, hrem, if_neg hne]
    refine ⟨?_, hrj⟩
    by_contra hge
    have hidx : (RR_body quantum s).idx = s.idx + (newArrivals s.ps s.t s.idx).length
        + (newArrivals ps1 (s.t + slice) (s.idx + (newArrivals s.ps s.t s.idx).length)).length := by
      by_cases h0 : (procAt ps1 cur).remaining_time > 0
      · simp only [RR_body, hq1, hsl, hps1, if_pos h0]
      · simp only [RR_body, hq1, hsl, hps1, if_neg h0]
    have hle1 : s.idx + (newArrivals s.ps s.t s.idx).length ≤ ps1.length := by
      rw [hd.1]; exact hadm1.1
    have hsp := (newArrivals_spec ps1 (s.t + slice) _ hle1).2.2.2
    rw [← hidx, hd.1] at hsp
    have h1 := hsp (by omega)
    rw [(RunsTo_static_all hd _).2.1] at h1
    have h2 := hsort (RR_body quantum s).idx j (by omega) hj
    rw [ht] at harr
    omega
  rw [hpre] at hmem
  rcases List.mem_append.mp hmem with h1 | h1
  · exact h1
  · exact absurd (List.mem_singleton.mp h1) hne

/-! ## No policy rewrites identity or demand -/

theorem Kept_refl (ps : List Process) : Kept ps ps := ⟨rfl, fun _ => Static_refl _⟩

theorem Kept_trans {ps qs rs : List Process} (h1 : Kept ps qs) (h2 : Kept qs rs) :
    Kept ps rs :=
  ⟨h2.1.trans h1.1, fun i => Static_trans (h1.2 i) (h2.2 i)⟩

theorem Kept_modifyAt (ps : List Process) (i : Nat) (f : Process → Process)
    (hst : ∀ p, Static p (f p)) : Kept ps (modifyAt ps i f) :=
  ⟨length_modifyAt ps i f, fun j => static_modifyAt ps i j f hst⟩

theorem Kept_iterate {σ : Type} (body : σ → σ) (psOf : σ → List Process)
    (h : ∀ s, Kept (psOf s) (psOf (body s))) (s : σ) :
    ∀ K, Kept (psOf s) (psOf (Nat.iterate body K s)) := by
  intro K
  induction K with
  | zero => exact Kept_refl _
  | succ K ih =>
    rw [Function.iterate_succ_apply']
    exact Kept_trans ih (h _)

theorem length_iterate {σ : Type} (body : σ → σ) (compOf : σ → List Int)
    (h : ∀ s, (compOf (body s)).length = (compOf s).length) (s : σ) :
    ∀ K, (compOf (Nat.iterate body K s)).length = (compOf s).length := by
  intro K
  induction K with
  | zero => rfl
  | succ K ih =>
    rw [Function.iterate_succ_apply']
    exact (h _).trans ih

theorem Frame_of_kept {ps qs rs : List Process} (h1 : Frame ps qs) (h2 : Kept qs rs) :
    Frame ps rs := by
  refine ⟨h2.1.trans h1.1, fun j hj => ?_⟩
  obtain ⟨a1, a2, a3⟩ := h1.2 j hj
  obtain ⟨b1, b2, b3, _, _⟩ := h2.2 j
  exact ⟨b1.trans a1, b2.trans a2, b3.trans a3⟩

theorem Frame_finish {ps qs : List Process} (h : Frame ps qs) (comp : List Int)
    (hlen : comp.length = qs.length) : Frame ps (finishWithComp qs comp) := by
  refine ⟨(length_finishWithComp qs comp hlen).trans h.1, fun j hj => ?_⟩
  rw [procAt_finishWithComp qs comp j (by rw [h.1]; exact hj) hlen]
  exact h.2 j hj

theorem sameJobs_of_frame {ps qs : List Process} (h : Frame ps qs) :
    SameJobs ps qs ∧ qs.map (fun p => p.id) = ps.map (fun p => p.id) := by
  refine ⟨?_, ?_⟩
  · have : qs.map jobOf = ps.map jobOf := by
      apply map_eq_of_pointwise jobOf ps qs h.1
      intro j hj
      obtain ⟨a1, a2, a3⟩ := h.2 j hj
      simp only [jobOf, a1, a2, a3]
    unfold SameJobs
    rw [this]
  · apply map_eq_of_pointwise (fun p => p.id) ps qs h.1
    intro j hj
    exact (h.2 j hj).1

theorem Frame_init (ps : List Process) : Frame ps (initRemaining ps) :=
  ⟨(init_jobs_plain ps).1, fun j hj => ((init_jobs_plain ps).2 j hj).1⟩

/-- A loop whose body keeps the static fields keeps the jobs of the input in every state it
visits and in every vector it returns. -/
theorem framePolicy_of_kept {σ : Type} (ps : List Process) (cond : σ → Bool) (body : σ → σ)
    (s0 : σ) (psOf : σ → List Process) (out : σ → Result) (hinit : Frame ps (psOf s0))
    (hbody : ∀ s, Kept (psOf s) (psOf (body s)))
    (hout : ∀ K, Frame ps (psOf (Nat.iterate body K s0)) →
      Frame ps (out (Nat.iterate body K s0)).ps) :
    FramePolicy ps body s0 psOf (fun fuel => (whileLoop cond body fuel s0).map out) := by
  have hall : ∀ k, Frame ps (psOf (Nat.iterate body k s0)) :=
    fun k => Frame_of_kept hinit (Kept_iterate body psOf hbody s0 k)
  refine ⟨hall, ?_⟩
  intro fuel r h
  cases hw : whileLoop cond body fuel s0 with
  | none => simp only [hw, Option.map_none'] at h; cases h
  | some s =>
    simp only [hw, Option.map_some', Option.some.injEq] at h
    obtain ⟨K, _, hs, _, _⟩ := whileLoop_some cond body fuel s0 s hw
    have hf : Frame ps r.ps := by
      rw [← h, hs]
      exact hout K (hall K)
    exact ⟨hf, (sameJobs_of_frame hf).1, (sameJobs_of_frame hf).2⟩

theorem NP_body_kept (pick : List Process → List Nat → Int) (ord : List Nat) (s : NPState) :
    Kept s.ps (NP_body pick ord s).ps := by
  unfold NP_body
  simp only
  split
  · exact Kept_modifyAt _ _ _ (static_setMetrics _)
  · exact Kept_modifyAt _ _ _ (static_setMetrics _)

theorem SRTF_body_kept (s : SRTFState) :
    Kept s.ps (SRTF_body s).ps ∧ (SRTF_body s).comp.length = s.comp.length := by
  unfold SRTF_body
  split
  · exact ⟨Kept_refl _, rfl⟩
  · refine ⟨Kept_modifyAt _ _ _ (static_decRemaining 1), ?_⟩
    simp only
    split <;> simp

theorem RR_body_kept (quantum : Int) (s : RRState) : Kept s.ps (RR_body quantum s).ps := by
  unfold RR_body
  simp only
  split
  · exact Kept_refl _
  · split
    · exact Kept_modifyAt _ _ _ (static_decRemaining _)
    · exact Kept_trans (Kept_modifyAt _ _ _ (static_decRemaining _))
        (Kept_modifyAt _ _ _ (static_setMetrics _))

theorem Lottery_body_kept (draws : Nat → Nat) (tickets : List Int) (s : LotteryState) :
    Kept s.ps (Lottery_body draws tickets s).ps := by
  unfold Lottery_body
  simp only
  split
  · split
    · split
      · exact Kept_refl _
      · exact Kept_refl _
    · exact Kept_refl _
  · simp only
    split
    · exact Kept_trans (Kept_modifyAt _ _ _ (static_decRemaining _))
        (Kept_modifyAt _ _ _ (static_setMetrics _))
    · exact Kept_modifyAt _ _ _ (static_decRemaining _)

theorem CFS_body_kept (sel : List Process → List Nat → Nat) (s : CFSState) :
    Kept s.ps (CFS_body sel s).ps ∧ (CFS_body sel s).comp.length = s.comp.length := by
  unfold CFS_body
  simp only
  split
  · split
    · exact ⟨Kept_refl _, rfl⟩
    · exact ⟨Kept_refl _, rfl⟩
  · refine ⟨Kept_trans (Kept_modifyAt _ _ _ (static_decRemaining _))
      (Kept_modifyAt _ _ _ (static_CFS_charge _)), ?_⟩
    simp only
    split <;> simp

theorem MLQ_lowLoop_kept (p : Nat) : ∀ (fuel : Nat) (s : MLQState) (ran : Int),
    Kept s.ps (MLQ_lowLoop p fuel s ran).1.ps := by
  intro fuel
  induction fuel with
  | zero => intro s ran; exact Kept_refl _
  | succ fuel ih =>
    intro s ran
    unfold MLQ_lowLoop
    split
    · simp only
      split
      · exact Kept_refl _
      · exact Kept_trans (Kept_modifyAt s.ps p _ (static_decRemaining 1)) (ih _ _)
    · exact Kept_refl _

theorem MLQ_body_kept (s : MLQState) : Kept s.ps (MLQ_body s).ps := by
  unfold MLQ_body
  simp only
  split
  · split
    · exact Kept_modifyAt s.ps _ _ (static_decRemaining _)
    · exact Kept_trans (Kept_modifyAt s.ps _ _ (static_decRemaining _))
        (Kept_modifyAt _ _ _ (static_setMetrics _))
  · split
    · rename_i p low1 _
      have hk : Kept s.ps (MLQ_lowLoop p (procAt (MLQ_push s).ps p).remaining_time.toNat
          { MLQ_push s with low := low1 } 0).1.ps := MLQ_lowLoop_kept p _ _ 0
      split
      · exact Kept_trans hk (Kept_modifyAt _ _ _ (static_setMetrics _))
      · exact hk
    · split
      · exact Kept_refl _
      · exact Kept_refl _

theorem MLFQ_runLoop_kept (p qi : Nat) : ∀ (fuel : Nat) (s : MLFQState) (ran : Int),
    Kept s.ps (MLFQ_runLoop p qi fuel s ran).1.ps ∧
      (MLFQ_runLoop p qi fuel s ran).1.comp = s.comp := by
  intro fuel
  induction fuel with
  | zero => intro s ran; exact ⟨Kept_refl _, rfl⟩
  | succ fuel ih =>
    intro s ran
    have hp := MLFQ_push_fields
      { s with ps := modifyAt s.ps p (decRemaining 1), t := s.t + 1 }
    have hk : Kept s.ps
        (MLFQ_push { s with ps := modifyAt s.ps p (decRemaining 1), t := s.t + 1 }).ps := by
      rw [hp.1]
      exact Kept_modifyAt s.ps p _ (static_decRemaining 1)
    unfold MLFQ_runLoop
    split
    · simp only
      split
      · exact ⟨hk, hp.2.2.2.2.2.1⟩
      · obtain ⟨a1, a2⟩ := ih
          (MLFQ_push { s with ps := modifyAt s.ps p (decRemaining 1), t := s.t + 1 }) (ran + 1)
        exact ⟨Kept_trans hk a1, a2.trans hp.2.2.2.2.2.1⟩
    · exact ⟨Kept_refl _, rfl⟩

theorem MLFQ_body_kept (s : MLFQState) :
    Kept s.ps (MLFQ_body s).ps ∧ (MLFQ_body s).comp.length = s.comp.length := by
  have hp := MLFQ_push_fields s
  unfold MLFQ_body
  simp only
  split
  · split
    · exact ⟨by rw [hp.1]; exact Kept_refl _, by rw [hp.2.2.2.2.2.1]⟩
    · exact ⟨by rw [hp.1]; exact Kept_refl _, by rw [hp.2.2.2.2.2.1]⟩
  · rename_i qi _
    have hs := MLFQ_setq_fields (MLFQ_push s) qi (MLFQ_getq (MLFQ_push s) qi).tail
    split
    · have he := MLFQ_enq_fields (MLFQ_setq (MLFQ_push s) qi (MLFQ_getq (MLFQ_push s) qi).tail)
        ((MLFQ_getq (MLFQ_push s) qi).headD 0) ((qi : Int) - 1)
      exact ⟨by rw [he.1, hs.1, hp.1]; exact Kept_refl _,
        by rw [he.2.2.2.1, hs.2.2.2.1, hp.2.2.2.2.2.1]⟩
    · obtain ⟨r1, r2⟩ := MLFQ_runLoop_kept ((MLFQ_getq (MLFQ_push s) qi).headD 0) qi
        (MLFQ_quantum qi).toNat
        (MLFQ_setq (MLFQ_push s) qi (MLFQ_getq (MLFQ_push s) qi).tail) 0
      rw [hs.1, hp.1] at r1
      rw [hs.2.2.2.1, hp.2.2.2.2.2.1] at r2
      split
      · exact ⟨r1, by simp only [List.length_set]; rw [r2]⟩
      · rename_i hne
        generalize hlv : (if (MLFQ_runLoop ((MLFQ_getq (MLFQ_push s) qi).headD 0) qi
            (MLFQ_quantum qi).toNat (MLFQ_setq (MLFQ_push s) qi
              (MLFQ_getq (MLFQ_push s) qi).tail) 0).2 = MLFQ_quantum qi ∧ qi < 2
            then (qi : Int) + 1 else (qi : Int)) = lv
        have he := MLFQ_enq_fields
          { (MLFQ_runLoop ((MLFQ_getq (MLFQ_push s) qi).headD 0) qi (MLFQ_quantum qi).toNat
              (MLFQ_setq (MLFQ_push s) qi (MLFQ_getq (MLFQ_push s) qi).tail) 0).1 with
            gantt := if (MLFQ_runLoop ((MLFQ_getq (MLFQ_push s) qi).headD 0) qi
                (MLFQ_quantum qi).toNat (MLFQ_setq (MLFQ_push s) qi
                  (MLFQ_getq (MLFQ_push s) qi).tail) 0).2 > 0
              then (MLFQ_runLoop ((MLFQ_getq (MLFQ_push s) qi).headD 0) qi
                (MLFQ_quantum qi).toNat (MLFQ_setq (MLFQ_push s) qi
                  (MLFQ_getq (MLFQ_push s) qi).tail) 0).1.gantt ++
                [((procAt (MLFQ_runLoop ((MLFQ_getq (MLFQ_push s) qi).headD 0) qi
                    (MLFQ_quantum qi).toNat (MLFQ_setq (MLFQ_push s) qi
                      (MLFQ_getq (MLFQ_push s) qi).tail) 0).1.ps
                    ((MLFQ_getq (MLFQ_push s) qi).headD 0)).id,
                  (MLFQ_runLoop ((MLFQ_getq (MLFQ_push s) qi).headD 0) qi
                    (MLFQ_quantum qi).toNat (MLFQ_setq (MLFQ_push s) qi
                      (MLFQ_getq (MLFQ_push s) qi).tail) 0).2)]
              else (MLFQ_runLoop ((MLFQ_getq (MLFQ_push s) qi).headD 0) qi
                (MLFQ_quantum qi).toNat (MLFQ_setq (MLFQ_push s) qi
                  (MLFQ_getq (MLFQ_push s) qi).tail) 0).1.gantt }
          ((MLFQ_getq (MLFQ_push s) qi).headD 0) lv
        exact ⟨by rw [he.1]; exact r1, by rw [he.2.2.2.1]; exact congrArg List.length r2⟩

theorem FCFS_loop_jobs : ∀ (qs : List Process) (t : Int) (g : Gantt),
    (FCFS_loop qs t g).1.map jobOf = qs.map jobOf := by
  intro qs
  induction qs with
  | nil => intro t g; rfl
  | cons p rest ih =>
    intro t g
    simp only [FCFS_loop, List.map_cons, ih]
    rfl

theorem FCFS_sameJobs (ps : List Process) : SameJobs ps (FCFSScheduler_schedule ps).ps := by
  unfold SameJobs FCFSScheduler_schedule
  simp only
  rw [FCFS_loop_jobs]
  have h1 : List.Perm (sortByArrival (initRemaining ps)) (initRemaining ps) :=
    List.perm_insertionSort _ _
  have h2 : (initRemaining ps).map jobOf = ps.map jobOf := by
    unfold initRemaining
    rw [List.map_map]
    rfl
  rw [← h2]
  exact h1.map jobOf

theorem Frame_CFS_init (ps : List Process) : Frame ps (CFS_init ps).ps := by
  obtain ⟨hlen, hjob⟩ := init_jobs ps (fun p => { p with vruntime := 0 })
    (fun p => ⟨⟨rfl, rfl, rfl⟩, rfl⟩)
  exact ⟨hlen, fun j hj => (hjob j hj).1⟩

theorem Frame_EDF_init (ps : List Process) : Frame ps (EDF_init ps).ps := by
  obtain ⟨hlen, hjob⟩ := init_jobs ps
    (fun p => if p.deadline = 0 then { p with deadline := p.arrival_time + 2 * p.burst_time }
      else p)
    (fun p => by
      by_cases hd : p.deadline = 0
      · beta_reduce; rw [if_pos hd]; exact ⟨⟨rfl, rfl, rfl⟩, rfl⟩
      · beta_reduce; rw [if_neg hd]; exact ⟨⟨rfl, rfl, rfl⟩, rfl⟩)
  exact ⟨hlen, fun j hj => (hjob j hj).1⟩

/-- The `comp` vector of a loop that only overwrites its entries is as long as the process
vector in every visited state. -/
theorem comp_length_iterate {σ : Type} (ps : List Process) (body : σ → σ) (s0 : σ)
    (psOf : σ → List Process) (compOf : σ → List Int)
    (hbody : ∀ s, Kept (psOf s) (psOf (body s)) ∧ (compOf (body s)).length = (compOf s).length)
    (hp : (psOf s0).length = ps.length) (hc : (compOf s0).length = ps.length) (K : Nat) :
    (compOf (Nat.iterate body K s0)).length = (psOf (Nat.iterate body K s0)).length := by
  rw [length_iterate body compOf (fun s => (hbody s).2) s0 K,
    (Kept_iterate body psOf (fun s => (hbody s).1) s0 K).1, hp, hc]

theorem EDF_body_kept2 (sel : List Process → List Nat → Nat) (s : EDFState) :
    Kept s.ps (EDF_body sel s).ps ∧ (EDF_body sel s).comp.length = s.comp.length := by
  obtain ⟨h1, h2, h3⟩ := EDF_body_frame sel s
  exact ⟨⟨h1, h3⟩, h2⟩

/-! ## The clock of one iteration -/

theorem clock_stay (ps : List Process) (t : Int) : ClockStep ps ps t t :=
  Or.inl ⟨fun _ => rfl, Or.inl rfl⟩

theorem clock_run {ps qs : List Process} {i : Nat} {k t : Int} (hr : RunsTo ps qs i k)
    (harr : (procAt ps i).arrival_time ≤ t) (hk : 0 < k)
    (hk2 : k ≤ (procAt ps i).remaining_time) : ClockStep ps qs t (t + k) :=
  Or.inr ⟨i, k, hr.2.1, harr, hk, hk2, rfl, hr.2.2.2.2, fun j hj => by rw [hr.2.2.1 j hj]⟩

theorem clock_idle {ps : List Process} {c : Nat → Int} {t : Int} {idx : Nat}
    (hacct : Acct ps c t) (hadm : Adm ps t idx []) (hidx : idx < ps.length)
    (hnew : newArrivals ps t idx = []) (hsort : SortedIdx ps) :
    ClockStep ps ps t (procAt ps idx).arrival_time := by
  have hlt := newArrivals_eq_nil ps t idx hadm.1 hnew hidx
  refine Or.inl ⟨fun _ => rfl, Or.inr ⟨hlt, ⟨idx, hidx, ?_, rfl⟩, ?_⟩⟩
  · rw [hadm.2.1 idx (le_refl _) hidx]
    exact (hacct.2 idx hidx).1
  · intro i hi hrem
    by_cases hlt2 : i < idx
    · have : i ∈ ([] : List Nat) := (hadm.2.2.2.2 i).mpr ⟨hlt2, hrem⟩
      simp at this
    · exact hsort idx i (by omega) hi

theorem CFS_clock (sel : List Process → List Nat → Nat) (ps0 : List Process) (s : CFSState)
    (h : CFSInv ps0 s) (hc : anyLeft s.ps = true) (hsort : SortedIdx s.ps) :
    ClockStep s.ps (CFS_body sel s).ps s.t (CFS_body sel s).t := by
  obtain ⟨hfr, hacct, hadm, hg, hgt, hcl, hld⟩ := h
  have hb : ∀ i, i < s.ps.length → 0 < (procAt s.ps i).burst_time := fun i hi => (hacct.2 i hi).1
  have hadm1 := Adm_admit hadm hb
  by_cases hrq : (s.rq ++ newArrivals s.ps s.t s.idx) = []
  · obtain ⟨hrq1, hnew⟩ := List.append_eq_nil.mp hrq
    rw [hrq1] at hadm
    have i1 := idx_lt_of_left hadm hc
    have hbody : CFS_body sel s =
        { s with gantt := s.gantt ++ [("IDLE", (procAt s.ps s.idx).arrival_time - s.t)],
                 t := (procAt s.ps s.idx).arrival_time } := by
      unfold CFS_body
      simp [hrq1, hnew, i1]
    rw [hbody]
    exact clock_idle hacct hadm i1 hnew hsort
  · have hne : (s.rq ++ newArrivals s.ps s.t s.idx).isEmpty = false := by
      simpa [List.isEmpty_iff] using hrq
    unfold CFS_body
    simp only [hne, Bool.false_eq_true, if_false]
    generalize hrq1 : s.rq ++ newArrivals s.ps s.t s.idx = rq1 at *
    have hlenpos : 0 < rq1.length := List.length_pos.mpr hrq
    generalize hposd : min (sel s.ps rq1) (rq1.length - 1) = pos at *
    have hpos : pos < rq1.length := by rw [← hposd]; omega
    generalize hpd : rq1.getD pos 0 = p at *
    have hperm : List.Perm rq1 (p :: rq1.eraseIdx pos) := by
      rw [← hpd]; exact perm_cons_eraseIdx rq1 pos hpos
    have hadm2 := Adm_perm hadm1 hperm
    have hp : p < s.idx + (newArrivals s.ps s.t s.idx).length ∧
        0 < (procAt s.ps p).remaining_time :=
      (hadm2.2.2.2.2 p).mp (List.mem_cons_self p _)
    have hpn : p < s.ps.length := lt_of_lt_of_le hp.1 hadm2.1
    have hr : RunsTo s.ps (modifyAt (modifyAt s.ps p
          (decRemaining (min 2 (procAt s.ps p).remaining_time))) p
          (CFS_charge (min 2 (procAt s.ps p).remaining_time)))
        p (min 2 (procAt s.ps p).remaining_time) :=
      RunsTo_then_modifyAt (RunsTo_dec s.ps p _ hpn) _ (static_CFS_charge _) (fun _ => rfl)
    exact clock_run hr (hadm2.2.2.1 p hp.1) (by omega) (by omega)

theorem EDF_clock (sel : List Process → List Nat → Nat) (ps0 : List Process) (s : EDFState)
    (h : EDFInv ps0 s) (hc : anyLeft s.ps = true) (hsort : SortedIdx s.ps) :
    ClockStep s.ps (EDF_body sel s).ps s.t (EDF_body sel s).t := by
  obtain ⟨hfr, hacct, hadm, htl, hcl, hld⟩ := h
  have hb : ∀ i, i < s.ps.length → 0 < (procAt s.ps i).burst_time := fun i hi => (hacct.2 i hi).1
  have hadm1 := Adm_admit hadm hb
  by_cases hrq : (s.rq ++ newArrivals s.ps s.t s.idx) = []
  · obtain ⟨hrq1, hnew⟩ := List.append_eq_nil.mp hrq
    rw [hrq1] at hadm
    have i1 := idx_lt_of_left hadm hc
    have hbody : EDF_body sel s =
        { s with gantt := finalizeBlock s.last s.start s.t s.gantt
                    ++ [("IDLE", (procAt s.ps s.idx).arrival_time - s.t)],
                 last := "", start := -1,
                 t := (procAt s.ps s.idx).arrival_time } := by
      unfold EDF_body
      simp [hrq1, hnew, i1]
    rw [hbody]
    exact clock_idle hacct hadm i1 hnew hsort
  · have hne : (s.rq ++ newArrivals s.ps s.t s.idx).isEmpty = false := by
      simpa [List.isEmpty_iff] using hrq
    unfold EDF_body
    simp only [hne, Bool.false_eq_true, if_false]
    generalize hrq1 : s.rq ++ newArrivals s.ps s.t s.idx = rq1 at *
    have hlenpos : 0 < rq1.length := List.length_pos.mpr hrq
    generalize hposd : min (sel s.ps rq1) (rq1.length - 1) = pos at *
    have hpos : pos < rq1.length := by rw [← hposd]; omega
    generalize hpd : rq1.getD pos 0 = p at *
    have hperm : List.Perm rq1 (p :: rq1.eraseIdx pos) := by
      rw [← hpd]; exact perm_cons_eraseIdx rq1 pos hpos
    have hadm2 := Adm_perm hadm1 hperm
    have hp : p < s.idx + (newArrivals s.ps s.t s.idx).length ∧
        0 < (procAt s.ps p).remaining_time :=
      (hadm2.2.2.2.2 p).mp (List.mem_cons_self p _)
    have hpn : p < s.ps.length := lt_of_lt_of_le hp.1 hadm2.1
    exact clock_run (RunsTo_dec s.ps p 1 hpn) (hadm2.2.2.1 p hp.1) (by omega) (by omega)

theorem RR_clock (quantum : Int) (hq : 1 ≤ quantum) (ps0 : List Process) (s : RRState)
    (h : RRInv ps0 s) (hc : RR_cond s = true) (hsort : SortedIdx s.ps) :
    ClockStep s.ps (RR_body quantum s).ps s.t (RR_body quantum s).t := by
  obtain ⟨hfr, hacct, hadm, hmet, hld⟩ := h
  have hb : ∀ i, i < s.ps.length → 0 < (procAt s.ps i).burst_time := fun i hi => (hacct.2 i hi).1
  have hadm1 := Adm_admit hadm hb
  cases hq1 : s.q ++ newArrivals s.ps s.t s.idx with
  | nil =>
    obtain ⟨hrq1, hnew⟩ := List.append_eq_nil.mp hq1
    have i1 : s.idx < s.ps.length := by
      unfold RR_cond at hc
      simpa [hrq1] using hc
    rw [hrq1] at hadm
    have hbody : RR_body quantum s = { s with t := (procAt s.ps s.idx).arrival_time } := by
      unfold RR_body
      simp [hrq1, hnew, i1]
    rw [hbody]
    exact clock_idle hacct hadm i1 hnew hsort
  | cons cur q2 =>
    rw [hq1] at hadm1
    have hp : cur < s.idx + (newArrivals s.ps s.t s.idx).length ∧
        0 < (procAt s.ps cur).remaining_time :=
      (hadm1.2.2.2.2 cur).mp (List.mem_cons_self cur _)
    have hpn : cur < s.ps.length := lt_of_lt_of_le hp.1 hadm1.1
    have hd := RunsTo_dec s.ps cur (min quantum (procAt s.ps cur).remaining_time) hpn
    have hpd : cur < (modifyAt s.ps cur
        (decRemaining (min quantum (procAt s.ps cur).remaining_time))).length := by
      rw [length_modifyAt]; exact hpn
    unfold RR_body
    simp only [hq1]
    split
    · exact clock_run hd (hadm1.2.2.1 cur hp.1) (by omega) (by omega)
    · have h0 := RunsTo_of_modifyAt _ cur 0
        (setMetrics (s.t + min quantum (procAt s.ps cur).remaining_time)) hpd
        (static_setMetrics _) (fun _ => by simp [setMetrics])
      have hr := RunsTo_trans hd h0
      rw [add_zero] at hr
      exact clock_run hr (hadm1.2.2.1 cur hp.1) (by omega) (by omega)

theorem Lottery_clock (draws : Nat → Nat) (tickets : List Int) (ps0 : List Process)
    (s : LotteryState) (h : LotteryInv ps0 tickets s) (hc : anyLeft s.ps = true) :
    ClockStep s.ps (Lottery_body draws tickets s).ps s.t (Lottery_body draws tickets s).t := by
  obtain ⟨hfr, hacct, hmet, hld, hg, hgt, hidx, harr, hfresh, hsort, htick⟩ := h
  obtain ⟨s1, s2, s3, s4⟩ := newArrivals_spec s.ps s.t s.idx hidx
  have harr1 : ∀ i, i < s.idx + (newArrivals s.ps s.t s.idx).length →
      (procAt s.ps i).arrival_time ≤ s.t := by
    intro i hi
    by_cases hlt : i < s.idx
    · exact harr i hlt
    · exact s3 i (by omega) hi
  by_cases hbag : Lottery_bag tickets s.ps s.t = []
  · obtain ⟨i, hi, hrem⟩ := (anyLeft_eq_true s.ps).mp hc
    have hnotarr : ∀ j, j < s.ps.length → 0 < (procAt s.ps j).remaining_time →
        ¬ (procAt s.ps j).arrival_time ≤ s.t := by
      intro j hj hrj hle
      have : j ∈ Lottery_bag tickets s.ps s.t :=
        (mem_Lottery_bag tickets s.ps s.t j).mpr ⟨hj, hrj, hle, by have := htick j hj; omega⟩
      rw [hbag] at this
      simp at this
    have hi1 : s.idx + (newArrivals s.ps s.t s.idx).length ≤ i := by
      by_contra hcon
      exact hnotarr i hi hrem (harr1 i (by omega))
    have hlt1 : s.idx + (newArrivals s.ps s.t s.idx).length < s.ps.length := by omega
    have htt := s4 hlt1
    have hbody : Lottery_body draws tickets s =
        { s with idx := s.idx + (newArrivals s.ps s.t s.idx).length,
                 gantt := s.gantt ++ [("IDLE",
                   (procAt s.ps (s.idx + (newArrivals s.ps s.t s.idx).length)).arrival_time - s.t)],
                 t := (procAt s.ps (s.idx + (newArrivals s.ps s.t s.idx).length)).arrival_time } := by
      unfold Lottery_body
      simp [hbag, hlt1, htt]
    rw [hbody]
    refine Or.inl ⟨fun _ => rfl, Or.inr ⟨htt, ⟨_, hlt1, ?_, rfl⟩, ?_⟩⟩
    · rw [hfresh _ (by omega) hlt1]
      exact (hacct.2 _ hlt1).1
    · intro j hj hrj
      have hj1 : s.idx + (newArrivals s.ps s.t s.idx).length ≤ j := by
        by_contra hcon
        exact hnotarr j hj hrj (harr1 j (by omega))
      exact hsort _ j hj1 hj
  · have hne : (Lottery_bag tickets s.ps s.t).isEmpty = false := by
      simpa [List.isEmpty_iff] using hbag
    have hlen : 0 < (Lottery_bag tickets s.ps s.t).length := List.length_pos.mpr hbag
    have hmem := getD_mem_of_lt (Lottery_bag tickets s.ps s.t)
      (draws s.k % (Lottery_bag tickets s.ps s.t).length) (Nat.mod_lt _ hlen)
    unfold Lottery_body
    simp only [hne, Bool.false_eq_true, if_false]
    generalize (Lottery_bag tickets s.ps s.t).getD
      (draws s.k % (Lottery_bag tickets s.ps s.t).length) 0 = i at *
    obtain ⟨hi, hrem, hari, _⟩ := (mem_Lottery_bag tickets s.ps s.t i).mp hmem
    generalize hsl : min 4 (procAt s.ps i).remaining_time = slice at *
    have hs : 0 < slice := by rw [← hsl]; omega
    have hs2 : slice ≤ (procAt s.ps i).remaining_time := by rw [← hsl]; omega
    generalize hqs : (if (procAt (modifyAt s.ps i (decRemaining slice)) i).remaining_time = 0
        then modifyAt (modifyAt s.ps i (decRemaining slice)) i (setMetrics (s.t + slice))
        else modifyAt s.ps i (decRemaining slice)) = qs
    obtain ⟨f1, _⟩ := direct_finish hacct hmet (RunsTo_dec s.ps i slice hi)
      hs hs2 hari hqs.symm
    exact clock_run f1 hari hs hs2

theorem SRTF_clock (ps0 : List Process) (s : SRTFState) (h : SRTFInv ps0 s)
    (hc : anyLeft s.ps = true) :
    ClockStep s.ps (SRTF_body s).ps s.t (SRTF_body s).t := by
  obtain ⟨hfr, hacct, hcl, hld, hmax⟩ := h
  cases hb : SRTF_best s.ps s.t with
  | none =>
    obtain ⟨j, hj, hjrem, hjna⟩ := SRTF_nextArrival_spec s.ps hc hmax
    have hlt : s.t < SRTF_nextArrival s.ps := by
      have := SRTF_best_none s.ps s.t hb j hj
      rw [← hjna]
      by_contra hcon
      exact this ⟨by omega, hjrem⟩
    have hbody : SRTF_body s =
        { s with gantt := finalizeBlock s.last s.start s.t s.gantt
                    ++ [("IDLE", SRTF_nextArrival s.ps - s.t)],
                 t := SRTF_nextArrival s.ps } := by
      unfold SRTF_body
      simp only [hb]
    rw [hbody]
    refine Or.inl ⟨fun _ => rfl, Or.inr ⟨hlt, ⟨j, hj, hjrem, hjna⟩, ?_⟩⟩
    intro i hi hrem
    exact (nextArrival_foldl s.ps INT_MAX).2.2 _ (procAt_mem s.ps i hi) hrem
  | some b =>
    obtain ⟨hbn, hbarr, hbrem⟩ := SRTF_best_some s.ps s.t b hb
    unfold SRTF_body
    simp only [hb]
    exact clock_run (RunsTo_dec s.ps b 1 hbn) hbarr (by omega) (by omega)

theorem MLQ_clock (ps0 : List Process) (s : MLQState) (h : MLQInv ps0 s)
    (hc : anyLeft s.ps = true) (hsort : SortedIdx s.ps) :
    ClockStep s.ps (MLQ_body s).ps s.t (MLQ_body s).t := by
  obtain ⟨hfr, hacct, hadm, hg, hgt, hmet, hld⟩ := h
  have hb : ∀ i, i < s.ps.length → 0 < (procAt s.ps i).burst_time := fun i hi => (hacct.2 i hi).1
  have hadm1 : Adm s.ps s.t (MLQ_push s).idx ((MLQ_push s).high ++ (MLQ_push s).low) := by
    have := MLQ_push_adm s [] hb (by simpa using hadm)
    simpa using this
  have s1ps : (MLQ_push s).ps = s.ps := rfl
  have s1t : (MLQ_push s).t = s.t := rfl
  have s1g : (MLQ_push s).gantt = s.gantt := rfl
  have s1i : (MLQ_push s).idx = s.idx + (newArrivals s.ps s.t s.idx).length := rfl
  cases hh : (MLQ_push s).high with
  | cons p high1 =>
    rw [hh] at hadm1
    have hadm2 : Adm s.ps s.t (MLQ_push s).idx (p :: (high1 ++ (MLQ_push s).low)) := hadm1
    have hp := (hadm2.2.2.2.2 p).mp (List.mem_cons_self p _)
    have hpn : p < s.ps.length := lt_of_lt_of_le hp.1 hadm2.1
    have hd := RunsTo_dec s.ps p (min 4 (procAt s.ps p).remaining_time) hpn
    have hpd : p < (modifyAt s.ps p
        (decRemaining (min 4 (procAt s.ps p).remaining_time))).length := by
      rw [length_modifyAt]; exact hpn
    unfold MLQ_body
    simp only [hh, s1ps, s1t, s1g]
    split
    · exact clock_run hd (hadm2.2.2.1 p hp.1) (by omega) (by omega)
    · have h0 := RunsTo_of_modifyAt _ p 0
        (setMetrics (s.t + min 4 (procAt s.ps p).remaining_time)) hpd
        (static_setMetrics _) (fun _ => by simp [setMetrics])
      have hr := RunsTo_trans hd h0
      rw [add_zero] at hr
      exact clock_run hr (hadm2.2.2.1 p hp.1) (by omega) (by omega)
  | nil =>
    cases hl : (MLQ_push s).low with
    | cons p low1 =>
      rw [hh, hl] at hadm1
      have hadm2 : Adm s.ps s.t (MLQ_push s).idx ([p] ++ ([] ++ low1)) := by
        simpa using hadm1
      have hp := (hadm2.2.2.2.2 p).mp (by simp)
      have hpn : p < s.ps.length := lt_of_lt_of_le hp.1 hadm2.1
      have hspec := MLQ_lowLoop_spec p (procAt (MLQ_push s).ps p).remaining_time.toNat
        (MLQState.mk (MLQ_push s).ps [] low1 (MLQ_push s).t (MLQ_push s).idx (MLQ_push s).gantt)
        0 hb hadm2 rfl
      have hagain : (MLQ_push (MLQState.mk (MLQ_push s).ps [] low1 (MLQ_push s).t
          (MLQ_push s).idx (MLQ_push s).gantt)).high = [] := by
        show [] ++ List.filter _ (newArrivals s.ps s.t (s.idx + (newArrivals s.ps s.t s.idx).length))
          = []
        rw [newArrivals_again s.ps s.t s.idx hadm.1]
        rfl
      unfold MLQ_body
      simp only [hh, hl]
      generalize MLQ_lowLoop p (procAt (MLQ_push s).ps p).remaining_time.toNat
        (MLQState.mk (MLQ_push s).ps [] low1 (MLQ_push s).t (MLQ_push s).idx (MLQ_push s).gantt)
        0 = r at *
      obtain ⟨k, k1, k2, k3, k4, k5, k6, k7, k8⟩ := hspec
      have hk : 0 < k := by
        rcases lt_or_eq_of_le k1 with h1 | h1
        · exact h1
        · exact absurd hagain (k8 h1.symm)
      have k3b : RunsTo s.ps r.1.ps p k := k3
      have k4b : k ≤ (procAt s.ps p).remaining_time := k4
      have k5b : r.1.t = s.t + k := k5
      have hpr : p < r.1.ps.length := by rw [k3b.1]; exact hpn
      split
      · have h0 := RunsTo_of_modifyAt r.1.ps p 0 (setMetrics r.1.t) hpr
          (static_setMetrics _) (fun _ => by simp [setMetrics])
        have hr := RunsTo_trans k3b h0
        rw [add_zero] at hr
        show ClockStep s.ps (modifyAt r.1.ps p (setMetrics r.1.t)) s.t r.1.t
        have hcr := clock_run hr (hadm2.2.2.1 p hp.1) hk k4b
        rw [← k5b] at hcr
        exact hcr
      · show ClockStep s.ps r.1.ps s.t r.1.t
        rw [k5b]
        exact clock_run k3b (hadm2.2.2.1 p hp.1) hk k4b
    | nil =>
      have hnew : newArrivals s.ps s.t s.idx = [] := by
        have h1 : (newArrivals s.ps s.t s.idx).filter
            (fun i => decide ((procAt s.ps i).priority < 3)) = [] :=
          (List.append_eq_nil.mp hh).2
        have h2 : (newArrivals s.ps s.t s.idx).filter
            (fun i => !decide ((procAt s.ps i).priority < 3)) = [] :=
          (List.append_eq_nil.mp hl).2
        have := List.filter_append_perm (fun i => decide ((procAt s.ps i).priority < 3))
          (newArrivals s.ps s.t s.idx)
        rw [h1, h2] at this
        exact List.Perm.nil_eq this |>.symm
      have hhigh : s.high = [] := (List.append_eq_nil.mp hh).1
      have hlow : s.low = [] := (List.append_eq_nil.mp hl).1
      rw [hhigh, hlow] at hadm
      have i1 := idx_lt_of_left (by simpa using hadm) hc
      have hidx : (MLQ_push s).idx = s.idx := by rw [s1i, hnew]; rfl
      unfold MLQ_body
      simp only [hh, hl, hidx, s1ps, s1t, s1g, i1, if_true]
      exact clock_idle hacct (by simpa using hadm) i1 hnew hsort

theorem MLFQ_clock (ps0 : List Process) (s : MLFQState) (h : MLFQInv ps0 s)
    (hc : anyLeft s.ps = true) (hsort : SortedIdx s.ps) :
    ClockStep s.ps (MLFQ_body s).ps s.t (MLFQ_body s).t := by
  obtain ⟨hfr, hacct, hadm, hg, hgt, hcl, hld⟩ := h
  have hb : ∀ i, i < s.ps.length → 0 < (procAt s.ps i).burst_time := fun i hi => (hacct.2 i hi).1
  have hadm1 : Adm (MLFQ_push s).ps (MLFQ_push s).t (MLFQ_push s).idx
      (MLFQ_members (MLFQ_push s)) := by
    have := MLFQ_push_adm s [] hb (by simpa using hadm)
    simpa using this
  obtain ⟨f1, f2, f3, f4, f5, f6, f7, f8⟩ := MLFQ_push_fields s
  cases hfirst : MLFQ_firstNonEmpty (MLFQ_push s) with
  | none =>
    obtain ⟨z0, z1, z2⟩ := MLFQ_first_none _ hfirst
    have hnew : newArrivals s.ps s.t s.idx = [] := by
      rw [f2] at z0; exact (List.append_eq_nil.mp z0).2
    have hq0 : s.q0 = [] := by rw [f2] at z0; exact (List.append_eq_nil.mp z0).1
    have hq1 : s.q1 = [] := by rw [← f3]; exact z1
    have hq2 : s.q2 = [] := by rw [← f4]; exact z2
    have hm : MLFQ_members s = [] := by simp [MLFQ_members, hq0, hq1, hq2]
    rw [hm] at hadm
    have i1 := idx_lt_of_left hadm hc
    have hidx : (MLFQ_push s).idx = s.idx := by rw [f8, hnew]; rfl
    have hcond : (MLFQ_push s).idx < (MLFQ_push s).ps.length := by rw [hidx, f1]; exact i1
    unfold MLFQ_body
    simp only [hfirst, hcond, if_true]
    show ClockStep s.ps (MLFQ_push s).ps s.t
      (procAt (MLFQ_push s).ps (MLFQ_push s).idx).arrival_time
    rw [f1, hidx]
    exact clock_idle hacct hadm i1 hnew hsort
  | some qi =>
    obtain ⟨hqi, p, tl, hget⟩ := MLFQ_first_some _ qi hfirst
    obtain ⟨hpermpop, hwpop⟩ := MLFQ_pop_queues (MLFQ_push s) qi p tl hqi hget
    obtain ⟨g1, g2, g3, g4, g5, g6⟩ := MLFQ_setq_fields (MLFQ_push s) qi tl
    have hadm2 : Adm s.ps s.t (MLFQ_push s).idx
        (p :: MLFQ_members (MLFQ_setq (MLFQ_push s) qi tl)) := by
      have := Adm_perm hadm1 hpermpop
      rwa [f1, f5] at this
    have hp := (hadm2.2.2.2.2 p).mp (List.mem_cons_self p _)
    have hpn : p < s.ps.length := lt_of_lt_of_le hp.1 hadm2.1
    unfold MLFQ_body
    simp only [hfirst, hget, List.headD_cons, List.tail_cons]
    generalize hs2 : MLFQ_setq (MLFQ_push s) qi tl = s2 at *
    have s2ps : s2.ps = s.ps := g1.trans f1
    have s2t : s2.t = s.t := g2.trans f5
    by_cases hprom : qi > 0 ∧ s2.t - s2.last_enq.getD p 0 ≥ MLFQ_AGE
    · rw [if_pos hprom]
      obtain ⟨e1, e2, e3, e4, e5⟩ := MLFQ_enq_fields s2 p ((qi : Int) - 1)
      rw [e1, e2, s2ps, s2t]
      exact clock_stay _ _
    · rw [if_neg hprom]
      have hb2 : ∀ i, i < s2.ps.length → 0 < (procAt s2.ps i).burst_time := by
        rw [s2ps]; exact hb
      have hadm3 : Adm s2.ps s2.t s2.idx ([p] ++ MLFQ_members s2) := by
        rw [s2ps, s2t, g3]; exact hadm2
      have hspec := MLFQ_runLoop_spec p qi (MLFQ_quantum qi).toNat s2 0 hb2 hadm3 (by simp)
      generalize MLFQ_runLoop p qi (MLFQ_quantum qi).toNat s2 0 = r at *
      obtain ⟨k, k1, k2, k3, k4, k5, k6, k6c, k6w, k7, k8⟩ := hspec
      have hk : 0 < k := k8 (by
        have : qi = 0 ∨ qi = 1 ∨ qi = 2 := by omega
        rcases this with rfl | rfl | rfl <;> simp [MLFQ_quantum])
      rw [s2ps] at k3 k4
      rw [s2t] at k5
      have harr : (procAt s.ps p).arrival_time ≤ s.t := hadm2.2.2.1 p hp.1
      have hcl2 : ClockStep s.ps r.1.ps s.t r.1.t := by
        rw [k5]; exact clock_run k3 harr hk k4
      split
      · exact hcl2
      · generalize (if r.2 = MLFQ_quantum qi ∧ qi < 2 then (qi : Int) + 1 else (qi : Int)) = lv
        generalize hs4 : MLFQState.mk r.1.ps r.1.q0 r.1.q1 r.1.q2 r.1.t r.1.idx r.1.last_enq
          r.1.level r.1.comp (if r.2 > 0 then r.1.gantt ++ [((procAt r.1.ps p).id, r.2)]
            else r.1.gantt) = s4
        obtain ⟨e1, e2, e3, e4, e5⟩ := MLFQ_enq_fields s4 p lv
        rw [e1, e2, ← hs4]
        exact hcl2

/-! ## One-process workloads -/

theorem clocks_of_run {σ : Type} {cond : σ → Bool} {body : σ → σ} {Inv : σ → Prop}
    {R : σ → σ → Prop} {s0 : σ} {n K0 : Nat} (hrun : LoopRun cond body Inv R s0 n K0)
    (psOf : σ → List Process) (tOf : σ → Int)
    (hstep : ∀ s, Inv s → cond s = true →
      ClockStep (psOf s) (psOf (body s)) (tOf s) (tOf (body s)))
    (K : Nat) (hconds : ∀ k, k < K → cond (Nat.iterate body k s0) = true) :
    ∀ k, k < K → ClockStep (psOf (Nat.iterate body k s0)) (psOf (Nat.iterate body (k + 1) s0))
      (tOf (Nat.iterate body k s0)) (tOf (Nat.iterate body (k + 1) s0)) := by
  obtain ⟨r1, r2, r3, r4, r5, r6⟩ := hrun
  intro k hk
  have hle : k < K0 := by
    by_contra hcon
    have := hconds K0 (by omega)
    rw [r3] at this
    cases this
  rw [Function.iterate_succ_apply']
  exact hstep _ (r4 k (Nat.le_of_lt hle)) (hconds k hk)

/-- With one process in the vector, the clock never runs ahead of the work done: the clock
plus the remaining time of the process stays at most `arrival_time + burst_time`. -/
theorem single_clock_step {ps qs : List Process} {t u a b : Int} (hlen : ps.length = 1)
    (hcs : ClockStep ps qs t u) (hrem : (procAt ps 0).remaining_time ≤ b)
    (harr : (procAt ps 0).arrival_time = a)
    (hU : t + (procAt ps 0).remaining_time ≤ a + b) :
    u + (procAt qs 0).remaining_time ≤ a + b := by
  rcases hcs with ⟨hsame, hu | ⟨_, ⟨j, hj, _, hja⟩, _⟩⟩ | ⟨i, k, hi, _, _, _, hu, hri, _⟩
  · rw [hsame 0, hu]; exact hU
  · have hj0 : j = 0 := by omega
    subst hj0
    rw [hsame 0, ← hja, harr]
    omega
  · have hi0 : i = 0 := by omega
    subst hi0
    rw [hri, hu]
    omega

theorem single_final {σ : Type} (p : Process) {cond : σ → Bool} {body : σ → σ} {s0 : σ}
    {psOf : σ → List Process} {cOf : σ → Nat → Int} {tOf : σ → Int} {n K : Nat}
    {qs : List Process}
    (hs : RunSummary [p] cond body s0 psOf cOf tOf n K)
    (hclock : ∀ k, k < K →
      ClockStep (psOf (Nat.iterate body k s0)) (psOf (Nat.iterate body (k + 1) s0))
        (tOf (Nat.iterate body k s0)) (tOf (Nat.iterate body (k + 1) s0)))
    (ht0 : tOf s0 = 0) (ha : 0 ≤ p.arrival_time)
    (hfin : FinalOK [p] body s0 psOf tOf K qs (tOf (Nat.iterate body K s0))) :
    tOf (Nat.iterate body K s0) = p.arrival_time + p.burst_time ∧
      ∃ q, qs = [q] ∧ SameJob p q ∧ q.waiting_time = 0 ∧ q.turnaround_time = p.burst_time := by
  have hp0 : procAt [p] 0 = p := rfl
  have hU : ∀ k, k ≤ K →
      tOf (Nat.iterate body k s0) + (procAt (psOf (Nat.iterate body k s0)) 0).remaining_time
        ≤ p.arrival_time + p.burst_time := by
    intro k
    induction k with
    | zero =>
      intro _
      have := hs.start 0 (by simp)
      rw [hp0] at this
      simp only [Function.iterate_zero, id_eq]
      rw [ht0, this]
      omega
    | succ k ih =>
      intro hk
      have hf := hs.frame k (by omega)
      have hacc := (hs.acct k (by omega)).2 0 (by rw [hf.1]; simp)
      have hj := hf.2 0 (by simp)
      rw [hp0] at hj
      refine single_clock_step (by rw [hf.1]; rfl) (hclock k (by omega)) ?_ hj.2.1 (ih (by omega))
      rw [← hj.2.2]
      exact hacc.2.2.1
  have hK := hU K (le_refl _)
  rw [hs.done 0 (by simp)] at hK
  obtain ⟨f1, f2, _⟩ := hfin
  obtain ⟨hsj, hr0, c, _, hm, hcT⟩ := f2 0 (by simp)
  rw [hp0] at hsj
  obtain ⟨m1, m2, m3, m4, m5⟩ := hm
  rw [hsj.2.1, hsj.2.2] at m5
  have hc : c = p.arrival_time + p.burst_time := by omega
  have hT : tOf (Nat.iterate body K s0) = p.arrival_time + p.burst_time := by omega
  refine ⟨hT, procAt qs 0, ?_, hsj, ?_, ?_⟩
  · cases qs with
    | nil => simp at f1
    | cons q rest =>
      cases rest with
      | nil => rfl
      | cons q2 rest2 => simp at f1
  · rw [m1, m2, hsj.2.1, hsj.2.2]; omega
  · rw [m2, hsj.2.1]; omega

theorem runnable_single (p : Process) (hb : 0 < p.burst_time) : Runnable [p] := by
  refine ⟨List.pairwise_singleton _ _, ?_⟩
  intro q hq
  rw [List.mem_singleton.mp hq]
  exact hb

theorem sortedIdx_single (p : Process) (hb : 0 < p.burst_time) (qs : List Process)
    (hf : Frame [p] qs) : SortedIdx qs :=
  sortedIdx_of_sorted [p] qs (runnable_single p hb).1 hf.1 hf.2

theorem SRTF_single (p : Process) (ha : 0 ≤ p.arrival_time) (hi : p.arrival_time ≤ INT_MAX)
    (hb : 0 < p.burst_time) :
    ReturnsFrom (fuelBound [p]) (fun fuel => SRTFScheduler_schedule fuel [p])
      (SingleResult p) := by
  have hrun := runnable_single p hb
  have hint : IntArrivals [p] := by
    intro q hq
    rw [List.mem_singleton.mp hq]
    exact hi
  obtain ⟨K, r, hs, hres, hfin, htot⟩ := SRTF_result [p] hrun hint
  obtain ⟨K0, hrun0⟩ := SRTF_run [p] hrun hint
  have hclock := clocks_of_run hrun0 (fun s => s.ps) (fun s => s.t)
    (fun s hI hc => SRTF_clock [p] s hI hc) K hs.conds
  obtain ⟨hT, q, hq, h1, h2, h3⟩ := single_final p hs hclock rfl ha hfin
  exact ⟨r, hres, by rw [htot]; exact hT, q, hq, h1, h2, h3⟩

theorem RR_single (quantum : Int) (hq : 1 ≤ quantum) (p : Process) (ha : 0 ≤ p.arrival_time)
    (hb : 0 < p.burst_time) :
    ReturnsFrom (fuelBound [p]) (fun fuel => RoundRobinScheduler_schedule quantum fuel [p])
      (SingleResult p) := by
  have hrun := runnable_single p hb
  obtain ⟨K, r, hs, hres, hfin, htot⟩ := RR_result quantum hq [p] hrun
  obtain ⟨K0, hrun0⟩ := RR_run quantum hq [p] hrun
  have hclock := clocks_of_run hrun0 (fun s => s.ps) (fun s => s.t)
    (fun s hI hc => RR_clock quantum hq [p] s hI hc (sortedIdx_single p hb _ hI.frame))
    K hs.conds
  obtain ⟨hT, q, hq, h1, h2, h3⟩ := single_final p hs hclock rfl ha hfin
  exact ⟨r, hres, by rw [htot]; exact hT, q, hq, h1, h2, h3⟩

theorem MLQ_single (p : Process) (ha : 0 ≤ p.arrival_time) (hb : 0 < p.burst_time) :
    ReturnsFrom (fuelBound [p]) (fun fuel => MLQScheduler_schedule fuel [p])
      (SingleResult p) := by
  have hrun := runnable_single p hb
  obtain ⟨K, r, hs, hres, hfin, htot⟩ := MLQ_result [p] hrun
  obtain ⟨K0, hrun0⟩ := MLQ_run [p] hrun
  have hclock := clocks_of_run hrun0 (fun s => s.ps) (fun s => s.t)
    (fun s hI hc => MLQ_clock [p] s hI hc (sortedIdx_single p hb _ hI.frame)) K hs.conds
  obtain ⟨hT, q, hq, h1, h2, h3⟩ := single_final p hs hclock rfl ha hfin
  exact ⟨r, hres, by rw [htot]; exact hT, q, hq, h1, h2, h3⟩

theorem MLFQ_single (p : Process) (ha : 0 ≤ p.arrival_time) (hb : 0 < p.burst_time) :
    ReturnsFrom (MLFQ_fuelBound [p]) (fun fuel => MLFQScheduler_schedule fuel [p])
      (SingleResult p) := by
  have hrun := runnable_single p hb
  obtain ⟨K, r, hs, hres, hfin, htot⟩ := MLFQ_result [p] hrun
  obtain ⟨K0, hrun0⟩ := MLFQ_run [p] hrun
  have hclock := clocks_of_run hrun0 (fun s => s.ps) (fun s => s.t)
    (fun s hI hc => MLFQ_clock [p] s hI hc (sortedIdx_single p hb _ hI.frame)) K hs.conds
  obtain ⟨hT, q, hq, h1, h2, h3⟩ := single_final p hs hclock rfl ha hfin
  exact ⟨r, hres, by rw [htot (by simp)]; exact hT, q, hq, h1, h2, h3⟩

theorem Lottery_single (draws : Nat → Nat) (p : Process) (ha : 0 ≤ p.arrival_time)
    (hb : 0 < p.burst_time) :
    ReturnsFrom (fuelBound [p]) (fun fuel => LotteryScheduler_schedule draws fuel [p])
      (SingleResult p) := by
  have hrun := runnable_single p hb
  obtain ⟨K, r, hs, hres, hfin, htot⟩ := Lottery_result draws [p] hrun
  obtain ⟨K0, hrun0⟩ := Lottery_run draws [p] hrun
  have hclock := clocks_of_run hrun0 (fun s => s.ps) (fun s => s.t)
    (fun s hI hc => Lottery_clock draws _ [p] s hI hc) K hs.conds
  obtain ⟨hT, q, hq, h1, h2, h3⟩ := single_final p hs hclock rfl ha hfin
  exact ⟨r, hres, by rw [htot]; exact hT, q, hq, h1, h2, h3⟩

theorem CFS_single (sel : List Process → List Nat → Nat) (p : Process)
    (ha : 0 ≤ p.arrival_time) (hb : 0 < p.burst_time) :
    ReturnsFrom (fuelBound [p]) (fun fuel => CFSScheduler_schedule sel fuel [p])
      (SingleResult p) := by
  have hrun := runnable_single p hb
  obtain ⟨K, r, hs, hres, hfin, htot⟩ := CFS_result sel [p] hrun
  obtain ⟨K0, hrun0⟩ := CFS_run sel [p] hrun
  have hclock := clocks_of_run hrun0 (fun s => s.ps) (fun s => s.t)
    (fun s hI hc => CFS_clock sel [p] s hI hc (sortedIdx_single p hb _ hI.frame)) K hs.conds
  obtain ⟨hT, q, hq, h1, h2, h3⟩ := single_final p hs hclock rfl ha hfin
  exact ⟨r, hres, by rw [htot]; exact hT, q, hq, h1, h2, h3⟩

theorem EDF_single (sel : List Process → List Nat → Nat) (p : Process)
    (ha : 0 ≤ p.arrival_time) (hb : 0 < p.burst_time) :
    ReturnsFrom (fuelBound [p]) (fun fuel => EDFScheduler_schedule sel fuel [p])
      (SingleResult p) := by
  have hrun := runnable_single p hb
  obtain ⟨K, r, hs, hres, hfin, htot⟩ := EDF_result sel [p] hrun
  obtain ⟨K0, hrun0⟩ := EDF_run sel [p] hrun
  have hclock := clocks_of_run hrun0 (fun s => s.ps) (fun s => s.t)
    (fun s hI hc => EDF_clock sel [p] s hI hc (sortedIdx_single p hb _ hI.frame)) K hs.conds
  obtain ⟨hT, q, hq, h1, h2, h3⟩ := single_final p hs hclock rfl ha hfin
  exact ⟨r, hres, by rw [htot]; exact hT, q, hq, h1, h2, h3⟩

theorem FCFS_single (p : Process) (ha : 0 ≤ p.arrival_time) :
    SingleResult p (FCFSScheduler_schedule [p]) := by
  unfold SingleResult FCFSScheduler_schedule
  simp only [initRemaining, sortByArrival, List.map_cons, List.map_nil,
    List.insertionSort, List.orderedInsert, FCFS_loop]
  refine ⟨?_, _, rfl, ⟨rfl, rfl, rfl⟩, ?_, ?_⟩
  · split_ifs <;> omega
  · simp only [setMetrics]
    split_ifs <;> omega
  · simp only [setMetrics]
    split_ifs <;> omega

theorem whileLoop_done {σ : Type} (cond : σ → Bool) (body : σ → σ) (fuel : Nat) (s : σ)
    (h : cond s = false) : whileLoop cond body fuel s = some s := by
  cases fuel with
  | zero => simp [whileLoop, h]
  | succ fuel => simp [whileLoop, h]

theorem NP_single (pick : List Process → List Nat → Int) (hpick : PickOK pick) (p : Process)
    (ha : 0 ≤ p.arrival_time) :
    ReturnsFrom 1 (fun fuel => NP_schedule pick fuel [p]) (SingleResult p) := by
  have hord : ∀ q : Process, sortedOrder [q] = [0] := fun _ => rfl
  have hpos : ∀ ps : List Process, (pick ps [0]).toNat = 0 := by
    intro ps
    have := (hpick ps [0] (by simp)).2
    simpa using this
  generalize hp0 : ({ p with remaining_time := p.burst_time } : Process) = p0
  have hp0a : p0.arrival_time = p.arrival_time := by rw [← hp0]
  have hp0b : p0.burst_time = p.burst_time := by rw [← hp0]
  have hp0i : p0.id = p.id := by rw [← hp0]
  have hinit : initRemaining [p] = [p0] := by rw [← hp0]; rfl
  have hbody : ∃ g, NP_body pick [0] { ps := [p0], t := 0, next := 0, rq := [], gantt := [] }
      = { ps := [setMetrics (p.arrival_time + p.burst_time) p0],
          t := p.arrival_time + p.burst_time, next := 1, rq := [], gantt := g } := by
    by_cases h0 : p.arrival_time ≤ 0
    · have h00 : p.arrival_time = 0 := by omega
      refine ⟨[(p0.id, p0.burst_time)], ?_⟩
      simp [NP_body, NP_push, NP_pushLoop, procAt, hpos, hp0a, hp0b, h00, modifyAt]
    · refine ⟨[("IDLE", p.arrival_time), (p0.id, p0.burst_time)], ?_⟩
      simp [NP_body, NP_push, NP_pushLoop, procAt, hpos, hp0a, hp0b, h0, modifyAt]
  obtain ⟨g, hbody⟩ := hbody
  refine ⟨{ ps := [setMetrics (p.arrival_time + p.burst_time) p0], gantt := g,
            total_time := p.arrival_time + p.burst_time }, ?_, rfl, _, rfl, ?_, ?_, ?_⟩
  · intro fuel hf
    obtain ⟨f, rfl⟩ : ∃ f, fuel = f + 1 := ⟨fuel - 1, by omega⟩
    unfold NP_schedule
    simp only [hinit, hord]
    have hc0 : NP_cond [0] { ps := [p0], t := 0, next := 0, rq := [], gantt := [] } = true := rfl
    rw [whileLoop, if_pos hc0, hbody, whileLoop_done _ _ _ _ rfl]
    rfl
  · exact ⟨hp0i, hp0a, hp0b⟩
  · simp only [setMetrics]; omega
  · simp only [setMetrics]; omega

/-! ## SRTF: jumping over idle time against stepping through it -/

theorem SRTF_best_eq_none (ps : List Process) (t : Int)
    (h : ∀ i, i < ps.length → ¬ ((procAt ps i).arrival_time ≤ t ∧
      0 < (procAt ps i).remaining_time)) : SRTF_best ps t = none := by
  cases hb : SRTF_best ps t with
  | none => rfl
  | some b =>
    obtain ⟨h1, h2, h3⟩ := SRTF_best_some ps t b hb
    exact absurd ⟨h2, h3⟩ (h b h1)

theorem SRTF_sim_run (s u : SRTFState) (h : SRTFSim s u) (b : Nat)
    (hb : SRTF_best s.ps s.t = some b) : SRTFSim (SRTF_body s) (SRTF_unitStep_body u) := by
  obtain ⟨h1, h2, h3⟩ := h
  have hb2 : SRTF_best u.ps u.t = some b := by rw [h1, h3]; exact hb
  unfold SRTFSim SRTF_unitStep_body SRTF_body
  simp only [hb, hb2, h1, h2, h3]
  trivial

theorem SRTF_unit_clock (s : SRTFState) : (SRTF_unitStep_body s).t = s.t + 1 := by
  unfold SRTF_unitStep_body SRTF_body
  cases hb : SRTF_best s.ps s.t <;> rfl

theorem SRTF_unit_clock_iterate (s : SRTFState) :
    ∀ k : Nat, (Nat.iterate SRTF_unitStep_body k s).t = s.t + k := by
  intro k
  induction k with
  | zero => simp
  | succ k ih =>
    rw [Function.iterate_succ_apply', SRTF_unit_clock, ih]
    push_cast
    ring

/-- While no unfinished process has arrived, the unit-step loop changes nothing but the
clock (and the timeline). -/
theorem SRTF_unit_idle (u : SRTFState) (T : Int)
    (hnone : ∀ τ, u.t ≤ τ → τ < T → SRTF_best u.ps τ = none) :
    ∀ d : Nat, u.t + d ≤ T →
      (Nat.iterate SRTF_unitStep_body d u).ps = u.ps ∧
      (Nat.iterate SRTF_unitStep_body d u).comp = u.comp ∧
      (Nat.iterate SRTF_unitStep_body d u).t = u.t + d := by
  intro d
  induction d with
  | zero => intro _; simp
  | succ d ih =>
    intro hd
    obtain ⟨a1, a2, a3⟩ := ih (by push_cast at hd; omega)
    have hb : SRTF_best (Nat.iterate SRTF_unitStep_body d u).ps
        (Nat.iterate SRTF_unitStep_body d u).t = none := by
      rw [a1, a3]
      exact hnone _ (by omega) (by push_cast at hd; omega)
    have hstep : SRTF_unitStep_body (Nat.iterate SRTF_unitStep_body d u) =
        { (Nat.iterate SRTF_unitStep_body d u) with
          gantt := finalizeBlock (Nat.iterate SRTF_unitStep_body d u).last
            (Nat.iterate SRTF_unitStep_body d u).start (Nat.iterate SRTF_unitStep_body d u).t
            (Nat.iterate SRTF_unitStep_body d u).gantt ++ [("IDLE", 1)],
          t := (Nat.iterate SRTF_unitStep_body d u).t + 1 } := by
      rw [SRTF_unitStep_body, hb]
    rw [Function.iterate_succ_apply', hstep]
    refine ⟨a1, a2, ?_⟩
    show (Nat.iterate SRTF_unitStep_body d u).t + 1 = _
    rw [a3]
    push_cast
    ring

/-- One iteration of the jumping loop is matched by one or more iterations of the unit-step
loop, all but the last of which see an unfinished process. -/
theorem SRTF_sim_step (ps0 : List Process) (s u : SRTFState) (h : SRTFInv ps0 s)
    (hc : anyLeft s.ps = true) (hsim : SRTFSim s u) :
    ∃ d : Nat, 0 < d ∧ SRTFSim (SRTF_body s) (Nat.iterate SRTF_unitStep_body d u) ∧
      ∀ j, j < d → anyLeft (Nat.iterate SRTF_unitStep_body j u).ps = true := by
  obtain ⟨h1, h2, h3⟩ := hsim
  cases hb : SRTF_best s.ps s.t with
  | some b =>
    refine ⟨1, Nat.one_pos, SRTF_sim_run s u ⟨h1, h2, h3⟩ b hb, ?_⟩
    intro j hj
    have hj0 : j = 0 := by omega
    subst hj0
    show anyLeft u.ps = true
    rw [h1]; exact hc
  | none =>
    obtain ⟨j, hj, hjrem, hjna⟩ := SRTF_nextArrival_spec s.ps hc h.imax
    have hlt : s.t < SRTF_nextArrival s.ps := by
      have := SRTF_best_none s.ps s.t hb j hj
      rw [← hjna]
      by_contra hcon
      exact this ⟨by omega, hjrem⟩
    have hmin : ∀ i, i < s.ps.length → 0 < (procAt s.ps i).remaining_time →
        SRTF_nextArrival s.ps ≤ (procAt s.ps i).arrival_time :=
      fun i hi hrem => (nextArrival_foldl s.ps INT_MAX).2.2 _ (procAt_mem s.ps i hi) hrem
    have hnone : ∀ τ, u.t ≤ τ → τ < SRTF_nextArrival s.ps → SRTF_best u.ps τ = none := by
      intro τ _ hτ
      rw [h1]
      apply SRTF_best_eq_none
      intro i hi hcon
      have := hmin i hi hcon.2
      omega
    have hd : u.t + ((SRTF_nextArrival s.ps - s.t).toNat : Int) ≤ SRTF_nextArrival s.ps := by
      rw [h3, Int.toNat_of_nonneg (by omega)]
      omega
    have hidle := SRTF_unit_idle u (SRTF_nextArrival s.ps) hnone
    obtain ⟨a1, a2, a3⟩ := hidle (SRTF_nextArrival s.ps - s.t).toNat hd
    have hbody : SRTF_body s =
        { s with gantt := finalizeBlock s.last s.start s.t s.gantt
                    ++ [("IDLE", SRTF_nextArrival s.ps - s.t)],
                 t := SRTF_nextArrival s.ps } := by
      unfold SRTF_body
      simp only [hb]
    refine ⟨(SRTF_nextArrival s.ps - s.t).toNat, by omega, ?_, ?_⟩
    · rw [hbody]
      refine ⟨a1.trans h1, a2.trans h2, ?_⟩
      rw [a3, h3, Int.toNat_of_nonneg (by omega)]
      show _ = SRTF_nextArrival s.ps
      omega
    · intro j hj
      obtain ⟨b1, _, _⟩ := hidle j (by
        have : (j : Int) ≤ ((SRTF_nextArrival s.ps - s.t).toNat : Int) := by omega
        omega)
      rw [b1, h1]
      exact hc

/-- The unit-step loop reaches the final state of the jumping loop, up to the timeline. -/
theorem SRTF_sim_run_all (ps : List Process) (K0 : Nat)
    (hrun : LoopRun (fun s => anyLeft s.ps) SRTF_body (SRTFInv ps)
      (fun a b => StepOK a.ps b.ps (compClock a.comp) (compClock b.comp) b.t)
      (SRTF_init ps) (fuelBound ps) K0) :
    ∀ k, k ≤ K0 → ∃ m : Nat,
      SRTFSim (Nat.iterate SRTF_body k (SRTF_init ps))
        (Nat.iterate SRTF_unitStep_body m (SRTF_init ps)) ∧
      ∀ j, j < m → anyLeft (Nat.iterate SRTF_unitStep_body j (SRTF_init ps)).ps = true := by
  obtain ⟨r1, r2, r3, r4, r5, r6⟩ := hrun
  intro k
  induction k with
  | zero =>
    intro _
    exact ⟨0, ⟨rfl, rfl, rfl⟩, fun j hj => absurd hj (Nat.not_lt_zero j)⟩
  | succ k ih =>
    intro hk
    obtain ⟨m, hsim, hconds⟩ := ih (by omega)
    obtain ⟨d, hd, hsim2, hc2⟩ := SRTF_sim_step ps _ _ (r4 k (by omega)) (r2 k (by omega)) hsim
    refine ⟨m + d, ?_, ?_⟩
    · rw [Function.iterate_succ_apply', Nat.add_comm m d, Function.iterate_add_apply]
      exact hsim2
    · intro j hj
      by_cases hjm : j < m
      · exact hconds j hjm
      · have e : j = (j - m) + m := by omega
        rw [e, Function.iterate_add_apply]
        exact hc2 (j - m) (by omega)

/-! ## MLQ: the high queue comes first -/

theorem extra_inv {σ : Type} {cond : σ → Bool} {body : σ → σ} {Inv : σ → Prop}
    {R : σ → σ → Prop} {s0 : σ} {n K : Nat} (hrun : LoopRun cond body Inv R s0 n K)
    (E : σ → Prop) (h0 : E s0)
    (hstep : ∀ s, Inv s → cond s = true → E s → E (body s)) :
    ∀ k, k ≤ K → E (Nat.iterate body k s0) := by
  obtain ⟨r1, r2, r3, r4, r5, r6⟩ := hrun
  intro k
  induction k with
  | zero => intro _; exact h0
  | succ k ih =>
    intro hk
    rw [Function.iterate_succ_apply']
    exact hstep _ (r4 k (by omega)) (r2 k (by omega)) (ih (by omega))

theorem Kept_of_runs {ps qs : List Process} {i : Nat} {k : Int} (h : RunsTo ps qs i k) :
    Kept ps qs := ⟨h.1, RunsTo_static_all h⟩

theorem Kept_ids {ps qs : List Process} (h : Kept ps qs) :
    qs.map (fun p => p.id) = ps.map (fun p => p.id) :=
  map_eq_of_pointwise (fun p => p.id) ps qs h.1 (fun j _ => (h.2 j).1)

theorem LabelsOK_back {ps qs : List Process} (hk : Kept ps qs) (h : LabelsOK qs) :
    LabelsOK ps := by
  refine ⟨by rw [← Kept_ids hk]; exact h.1, fun i hi => ?_⟩
  rw [← (hk.2 i).1]
  exact h.2 i (by rw [hk.1]; exact hi)

theorem MLQPart_kept {ps qs : List Process} {high low : List Nat} (hk : Kept ps qs)
    (h : MLQPart ps high low) : MLQPart qs high low := by
  refine ⟨fun i hi => ?_, fun i hi => ?_⟩
  · rw [(hk.2 i).2.2.2.1]; exact h.1 i hi
  · rw [(hk.2 i).2.2.2.1]; exact h.2 i hi

theorem MLQ_push_part (s : MLQState) (h : MLQPart s.ps s.high s.low) :
    MLQPart (MLQ_push s).ps (MLQ_push s).high (MLQ_push s).low := by
  refine ⟨fun i hi => ?_, fun i hi => ?_⟩
  · rcases List.mem_append.mp hi with h1 | h1
    · exact h.1 i h1
    · have := (List.mem_filter.mp h1).2
      simpa using this
  · rcases List.mem_append.mp hi with h1 | h1
    · exact h.2 i h1
    · have := (List.mem_filter.mp h1).2
      simp only [Bool.not_eq_true', decide_eq_false_iff_not, not_lt] at this
      exact this

theorem SegBound_kept {ps qs : List Process} {g : Gantt} (hk : Kept ps qs)
    (h : SegBound ps g) : SegBound qs g := by
  intro hl e he i hi hid hpr
  rw [(hk.2 i).1] at hid
  rw [(hk.2 i).2.2.2.1] at hpr
  exact h (LabelsOK_back hk hl) e he i (by rw [← hk.1]; exact hi) hid hpr

theorem SegBound_snoc {ps : List Process} {g : Gantt} (h : SegBound ps g) (l : String)
    (d : Int)
    (hnew : LabelsOK ps → ∀ i, i < ps.length → (procAt ps i).id = l →
      (procAt ps i).priority < 3 → d ≤ 4) : SegBound ps (g ++ [(l, d)]) := by
  intro hl e he i hi hid hpr
  rcases List.mem_append.mp he with h1 | h1
  · exact h hl e h1 i hi hid hpr
  · rw [List.mem_singleton.mp h1] at hid
    rw [List.mem_singleton.mp h1]
    exact hnew hl i hi hid hpr

/-- With the high queue empty after the admission at clock `t`, no unfinished process of
`priority < 3` has arrived by `t`. -/
theorem MLQ_high_empty {ps : List Process} {t : Int} {idx p : Nat} {high low : List Nat}
    (hadm : Adm ps t idx ([p] ++ (high ++ low)))
    (hb : ∀ i, i < ps.length → 0 < (procAt ps i).burst_time) (hsort : SortedIdx ps)
    (hpart : MLQPart ps high low) (hp : 3 ≤ (procAt ps p).priority)
    (hnew : ∀ i, i ∈ newArrivals ps t idx → 3 ≤ (procAt ps i).priority) (hh : high = [])
    (j : Nat) (hj : j < ps.length) (hpr : (procAt ps j).priority < 3)
    (hrem : 0 < (procAt ps j).remaining_time) : t < (procAt ps j).arrival_time := by
  by_contra hcon
  have hmem := arrived_mem_admitted hadm hb hsort j hj (by omega) hrem
  rcases List.mem_append.mp hmem with h1 | h1
  · rcases List.mem_append.mp h1 with h2 | h2
    · rw [List.mem_singleton.mp h2] at hpr; omega
    · rcases List.mem_append.mp h2 with h3 | h3
      · rw [hh] at h3; simp at h3
      · have := hpart.2 j h3; omega
  · have := hnew j h1; omega

theorem MLQ_push_high_nil (s : MLQState) (h : (MLQ_push s).high = []) :
    s.high = [] ∧ ∀ i, i ∈ newArrivals s.ps s.t s.idx → 3 ≤ (procAt s.ps i).priority := by
  have h1 : s.high ++ (newArrivals s.ps s.t s.idx).filter
      (fun i => decide ((procAt s.ps i).priority < 3)) = [] := h
  obtain ⟨a, b⟩ := List.append_eq_nil.mp h1
  refine ⟨a, fun i hi => ?_⟩
  by_contra hcon
  have : i ∈ (newArrivals s.ps s.t s.idx).filter
      (fun i => decide ((procAt s.ps i).priority < 3)) :=
    List.mem_filter.mpr ⟨hi, by simpa using hcon⟩
  rw [b] at this
  simp at this

/-- The inner loop of the low queue keeps the two queues sorted by class, and when it has
run the process for at least one unit, no unfinished process of `priority < 3` has arrived
before the clock at which it stops. -/
theorem MLQ_lowLoop_prec (p : Nat) : ∀ (fuel : Nat) (s : MLQState) (ran : Int),
    (∀ i, i < s.ps.length → 0 < (procAt s.ps i).burst_time) →
    Adm s.ps s.t s.idx ([p] ++ (s.high ++ s.low)) →
    fuel = (procAt s.ps p).remaining_time.toNat →
    MLQPart s.ps s.high s.low → 3 ≤ (procAt s.ps p).priority → SortedIdx s.ps →
    MLQPart (MLQ_lowLoop p fuel s ran).1.ps (MLQ_lowLoop p fuel s ran).1.high
        (MLQ_lowLoop p fuel s ran).1.low ∧
      (ran < (MLQ_lowLoop p fuel s ran).2 →
        ∀ j, j < s.ps.length → (procAt s.ps j).priority < 3 →
          0 < (procAt s.ps j).remaining_time →
          (MLQ_lowLoop p fuel s ran).1.t ≤ (procAt s.ps j).arrival_time) := by
  intro fuel
  induction fuel with
  | zero =>
    intro s ran _ hadm hf
    have := ((hadm.2.2.2.2 p).mp (by simp)).2
    omega
  | succ fuel ih =>
    intro s ran hb hadm hf hpart hpp hsort
    have hp := (hadm.2.2.2.2 p).mp (by simp)
    have hpn : p < s.ps.length := lt_of_lt_of_le hp.1 hadm.1
    have hadm1 := MLQ_push_adm s [p] hb hadm
    have hpart1 := MLQ_push_part s hpart
    simp only [MLQ_lowLoop, hp.2, gt_iff_lt, if_true]
    by_cases hh : (MLQ_push s).high = []
    · have hhe : (!(MLQ_push s).high.isEmpty) = false := by simp [hh]
      simp only [hhe, Bool.false_eq_true, if_false]
      obtain ⟨hh0, hnew⟩ := MLQ_push_high_nil s hh
      have hF : ∀ j, j < s.ps.length → (procAt s.ps j).priority < 3 →
          0 < (procAt s.ps j).remaining_time → s.t + 1 ≤ (procAt s.ps j).arrival_time := by
        intro j hj hpr hrem
        have := MLQ_high_empty hadm hb hsort hpart hpp hnew hh0 j hj hpr hrem
        omega
      have hr1 : RunsTo (MLQ_push s).ps (modifyAt (MLQ_push s).ps p (decRemaining 1)) p 1 :=
        RunsTo_dec _ p 1 hpn
      have hadm2 := Adm_run hadm1 hr1 (show (MLQ_push s).t ≤ (MLQ_push s).t + 1 by omega)
      generalize he2 : ({ MLQ_push s with ps := modifyAt (MLQ_push s).ps p (decRemaining 1),
                                          t := (MLQ_push s).t + 1 } : MLQState) = e2 at *
      have e2ps : e2.ps = modifyAt s.ps p (decRemaining 1) := by rw [← he2]; rfl
      have e2t : e2.t = s.t + 1 := by rw [← he2]; rfl
      have e2h : e2.high = (MLQ_push s).high := by rw [← he2]
      have e2l : e2.low = (MLQ_push s).low := by rw [← he2]
      have e2i : e2.idx = (MLQ_push s).idx := by rw [← he2]
      have hk2 : Kept s.ps e2.ps := by
        rw [e2ps]; exact Kept_modifyAt s.ps p _ (static_decRemaining 1)
      have hb2 : ∀ i, i < e2.ps.length → 0 < (procAt e2.ps i).burst_time := by
        intro i hi
        rw [(hk2.2 i).2.2.1]
        exact hb i (by rw [← hk2.1]; exact hi)
      have hrem2 : (procAt e2.ps p).remaining_time = (procAt s.ps p).remaining_time - 1 := by
        rw [e2ps]; exact (RunsTo_dec s.ps p 1 hpn).2.2.2.2
      have hadm3 : Adm e2.ps e2.t e2.idx
          ((if 0 < (procAt s.ps p).remaining_time - 1 then [p] else []) ++ (e2.high ++ e2.low)) := by
        rw [e2h, e2l, e2i, e2t, e2ps]
        have := hadm2
        by_cases hpos : 0 < (procAt s.ps p).remaining_time - 1
        · rw [if_pos hpos]
          rw [if_pos (by exact hpos)] at this
          exact this
        · rw [if_neg hpos]
          rw [if_neg (by exact hpos)] at this
          exact this
      have hadm4 := MLQ_push_adm e2 _ hb2 hadm3
      have hpart2 : MLQPart e2.ps e2.high e2.low := by
        rw [e2h, e2l]; exact MLQPart_kept hk2 hpart1
      have hpart3 := MLQ_push_part e2 hpart2
      have p2ps : (MLQ_push e2).ps = e2.ps := rfl
      have p2t : (MLQ_push e2).t = s.t + 1 := e2t
      by_cases hpos : 0 < (procAt s.ps p).remaining_time - 1
      · rw [if_pos hpos] at hadm4
        have hf2 : fuel = (procAt (MLQ_push e2).ps p).remaining_time.toNat := by
          rw [p2ps, hrem2]; omega
        have hsort2 : SortedIdx (MLQ_push e2).ps := by
          intro a b hab hb3
          rw [p2ps, (hk2.2 a).2.1, (hk2.2 b).2.1]
          exact hsort a b hab (by rw [← hk2.1]; exact hb3)
        obtain ⟨i1, i2⟩ := ih (MLQ_push e2) (ran + 1) hb2 hadm4 hf2 hpart3
          (by rw [p2ps, (hk2.2 p).2.2.2.1]; exact hpp) hsort2
        obtain ⟨k, k1, k2, _, _, k5, _⟩ := MLQ_lowLoop_spec p fuel (MLQ_push e2) (ran + 1)
          hb2 hadm4 hf2
        refine ⟨i1, fun _ j hj hpr hrem => ?_⟩
        by_cases hk0 : k = 0
        · rw [k5, p2t, hk0]
          have := hF j hj hpr hrem
          omega
        · have hjp : j ≠ p := by
            intro he; rw [he] at hpr; omega
          have hj2 : procAt (MLQ_push e2).ps j = procAt s.ps j := by
            rw [p2ps, e2ps]; exact procAt_modifyAt_ne _ _ _ _ hjp
          have := i2 (by rw [k2]; omega) j (by rw [p2ps, hk2.1]; exact hj)
            (by rw [hj2]; exact hpr) (by rw [hj2]; exact hrem)
          rw [hj2] at this
          exact this
      · have hf0 : fuel = 0 := by omega
        subst hf0
        simp only [MLQ_lowLoop]
        refine ⟨hpart3, fun _ j hj hpr hrem => ?_⟩
        rw [p2t]
        exact hF j hj hpr hrem
    · have hhe : (!(MLQ_push s).high.isEmpty) = true := by simp [hh]
      simp only [hhe, if_true]
      exact ⟨hpart1, fun hlt => absurd hlt (lt_irrefl _)⟩

/-- One iteration of the MLQ loop keeps `MLQExtra`, and if it runs a process of
`priority >= 3`, no unfinished process of `priority < 3` arrives before its end. -/
theorem MLQ_extra_step (ps0 : List Process) (s : MLQState) (h : MLQInv ps0 s)
    (hsort : SortedIdx s.ps) (hx : MLQExtra s) :
    MLQExtra (MLQ_body s) ∧
      ∀ i, i < s.ps.length → 3 ≤ (procAt s.ps i).priority →
        (procAt (MLQ_body s).ps i).remaining_time < (procAt s.ps i).remaining_time →
        ∀ j, j < s.ps.length → (procAt s.ps j).priority < 3 →
          0 < (procAt s.ps j).remaining_time →
          (MLQ_body s).t ≤ (procAt s.ps j).arrival_time := by
  obtain ⟨hfr, hacct, hadm, hg, hgt, hmet, hld⟩ := h
  obtain ⟨hpart, hseg⟩ := hx
  have hb : ∀ i, i < s.ps.length → 0 < (procAt s.ps i).burst_time := fun i hi => (hacct.2 i hi).1
  have hadm1 : Adm s.ps s.t (MLQ_push s).idx ((MLQ_push s).high ++ (MLQ_push s).low) := by
    have := MLQ_push_adm s [] hb (by simpa using hadm)
    simpa using this
  have hpart1 := MLQ_push_part s hpart
  have s1ps : (MLQ_push s).ps = s.ps := rfl
  have s1t : (MLQ_push s).t = s.t := rfl
  have s1g : (MLQ_push s).gantt = s.gantt := rfl
  cases hh : (MLQ_push s).high with
  | cons p high1 =>
    rw [hh] at hadm1 hpart1
    have hadm2 : Adm s.ps s.t (MLQ_push s).idx (p :: (high1 ++ (MLQ_push s).low)) := hadm1
    have hp := (hadm2.2.2.2.2 p).mp (List.mem_cons_self p _)
    have hpn : p < s.ps.length := lt_of_lt_of_le hp.1 hadm2.1
    have hpp : (procAt s.ps p).priority < 3 := hpart1.1 p (List.mem_cons_self p _)
    have hd := RunsTo_dec s.ps p (min 4 (procAt s.ps p).remaining_time) hpn
    have hkd := Kept_of_runs hd
    generalize hsl : min 4 (procAt s.ps p).remaining_time = slice at *
    have hs4 : slice ≤ 4 := by rw [← hsl]; omega
    generalize he2 : MLQState.mk (modifyAt s.ps p (decRemaining slice)) high1
        (MLQ_push s).low (s.t + slice) (MLQ_push s).idx
        (s.gantt ++ [((procAt s.ps p).id, slice)]) = e2
    have e2ps : e2.ps = modifyAt s.ps p (decRemaining slice) := by rw [← he2]
    have e2g : e2.gantt = s.gantt ++ [((procAt s.ps p).id, slice)] := by rw [← he2]
    have e2h : e2.high = high1 := by rw [← he2]
    have e2l : e2.low = (MLQ_push s).low := by rw [← he2]
    have hpart2 : MLQPart e2.ps e2.high e2.low := by
      rw [e2ps, e2h, e2l]
      exact MLQPart_kept hkd ⟨fun i hi => hpart1.1 i (List.mem_cons_of_mem p hi), hpart1.2⟩
    have hpart3 := MLQ_push_part e2 hpart2
    have p2ps : (MLQ_push e2).ps = modifyAt s.ps p (decRemaining slice) := e2ps
    have p2g : (MLQ_push e2).gantt = s.gantt ++ [((procAt s.ps p).id, slice)] := e2g
    have hseg2 : SegBound (MLQ_push e2).ps (MLQ_push e2).gantt := by
      rw [p2ps, p2g]
      exact SegBound_kept hkd (SegBound_snoc hseg _ _ (fun _ _ _ _ _ => hs4))
    have hbody : MLQ_body s =
        if (procAt (MLQ_push e2).ps p).remaining_time > 0 then
          { MLQ_push e2 with high := (MLQ_push e2).high ++ [p] }
        else { MLQ_push e2 with ps := modifyAt (MLQ_push e2).ps p (setMetrics (MLQ_push e2).t) } := by
      unfold MLQ_body
      simp only [hh, s1ps, s1t, s1g, hsl, he2]
    have hpd : p < (MLQ_push e2).ps.length := by rw [p2ps, length_modifyAt]; exact hpn
    have hother : ∀ i, i ≠ p → (procAt (MLQ_body s).ps i).remaining_time
        = (procAt s.ps i).remaining_time := by
      intro i hi
      rw [hbody]
      split
      · show (procAt (MLQ_push e2).ps i).remaining_time = _
        rw [p2ps, procAt_modifyAt_ne _ _ _ _ hi]
      · show (procAt (modifyAt (MLQ_push e2).ps p _) i).remaining_time = _
        rw [procAt_modifyAt_ne _ _ _ _ hi, p2ps, procAt_modifyAt_ne _ _ _ _ hi]
    refine ⟨?_, ?_⟩
    · rw [hbody]
      split
      · refine ⟨⟨fun i hi => ?_, hpart3.2⟩, hseg2⟩
        rcases List.mem_append.mp hi with h1 | h1
        · exact hpart3.1 i h1
        · rw [List.mem_singleton.mp h1]
          show (procAt (MLQ_push e2).ps p).priority < 3
          rw [p2ps, (hkd.2 p).2.2.2.1]
          exact hpp
      · have hk3 := Kept_modifyAt (MLQ_push e2).ps p (setMetrics (MLQ_push e2).t)
          (static_setMetrics _)
        exact ⟨MLQPart_kept hk3 hpart3, SegBound_kept hk3 hseg2⟩
    · intro i hi hpi hlt
      have hne : i ≠ p := by intro he; rw [he] at hpi; omega
      rw [hother i hne] at hlt
      exact absurd hlt (lt_irrefl _)
  | nil =>
    cases hl : (MLQ_push s).low with
    | cons p low1 =>
      rw [hh, hl] at hadm1 hpart1
      have hadm2 : Adm s.ps s.t (MLQ_push s).idx ([p] ++ ([] ++ low1)) := by
        simpa using hadm1
      have hp := (hadm2.2.2.2.2 p).mp (by simp)
      have hpn : p < s.ps.length := lt_of_lt_of_le hp.1 hadm2.1
      have hpp : 3 ≤ (procAt s.ps p).priority := hpart1.2 p (List.mem_cons_self p _)
      have hparte : MLQPart s.ps [] low1 :=
        ⟨fun i hi => by simp at hi, fun i hi => hpart1.2 i (List.mem_cons_of_mem p hi)⟩
      have hspec := MLQ_lowLoop_spec p (procAt (MLQ_push s).ps p).remaining_time.toNat
        (MLQState.mk (MLQ_push s).ps [] low1 (MLQ_push s).t (MLQ_push s).idx (MLQ_push s).gantt)
        0 hb hadm2 rfl
      have hprec := MLQ_lowLoop_prec p (procAt (MLQ_push s).ps p).remaining_time.toNat
        (MLQState.mk (MLQ_push s).ps [] low1 (MLQ_push s).t (MLQ_push s).idx (MLQ_push s).gantt)
        0 hb hadm2 rfl hparte hpp hsort
      have hagain : (MLQ_push (MLQState.mk (MLQ_push s).ps [] low1 (MLQ_push s).t
          (MLQ_push s).idx (MLQ_push s).gantt)).high = [] := by
        show [] ++ List.filter _ (newArrivals s.ps s.t (s.idx + (newArrivals s.ps s.t s.idx).length))
          = []
        rw [newArrivals_again s.ps s.t s.idx hadm.1]
        rfl
      have hbody : MLQ_body s =
          (let r := MLQ_lowLoop p (procAt (MLQ_push s).ps p).remaining_time.toNat
            (MLQState.mk (MLQ_push s).ps [] low1 (MLQ_push s).t (MLQ_push s).idx
              (MLQ_push s).gantt) 0
           if (procAt r.1.ps p).remaining_time = 0 then
             { r.1 with gantt := if r.2 > 0 then r.1.gantt ++ [((procAt r.1.ps p).id, r.2)]
                                 else r.1.gantt,
                        ps := modifyAt r.1.ps p (setMetrics r.1.t) }
           else { r.1 with gantt := if r.2 > 0 then r.1.gantt ++ [((procAt r.1.ps p).id, r.2)]
                                    else r.1.gantt,
                           low := r.1.low ++ [p] }) := by
        unfold MLQ_body
        simp only [hh, hl]
      rw [hbody]
      generalize MLQ_lowLoop p (procAt (MLQ_push s).ps p).remaining_time.toNat
        (MLQState.mk (MLQ_push s).ps [] low1 (MLQ_push s).t (MLQ_push s).idx (MLQ_push s).gantt)
        0 = r at *
      obtain ⟨k, k1, k2, k3, k4, k5, k6, k7, k8⟩ := hspec
      obtain ⟨q1, q2⟩ := hprec
      have hk : 0 < k := by
        rcases lt_or_eq_of_le k1 with h1 | h1
        · exact h1
        · exact absurd hagain (k8 h1.symm)
      have k3b : RunsTo s.ps r.1.ps p k := k3
      have k6b : r.1.gantt = s.gantt := k6
      have k2b : r.2 = k := by rw [k2]; omega
      have hkr := Kept_of_runs k3b
      have hsegr : SegBound r.1.ps
          (if r.2 > 0 then r.1.gantt ++ [((procAt r.1.ps p).id, r.2)] else r.1.gantt) := by
        have h0 : SegBound r.1.ps r.1.gantt := by rw [k6b]; exact SegBound_kept hkr hseg
        split
        · refine SegBound_snoc h0 _ _ (fun hlab i hi hid hpr => ?_)
          have hip : i = p := ids_injective r.1.ps hlab.1 i p hi (by rw [hkr.1]; exact hpn) hid
          rw [hip, (hkr.2 p).2.2.2.1] at hpr
          omega
        · exact h0
      have hpr2 : 3 ≤ (procAt r.1.ps p).priority := by rw [(hkr.2 p).2.2.2.1]; exact hpp
      refine ⟨?_, ?_⟩
      · simp only
        split
        · have hk3 := Kept_modifyAt r.1.ps p (setMetrics r.1.t) (static_setMetrics _)
          exact ⟨MLQPart_kept hk3 q1, SegBound_kept hk3 hsegr⟩
        · refine ⟨⟨q1.1, fun i hi => ?_⟩, hsegr⟩
          rcases List.mem_append.mp hi with h1 | h1
          · exact q1.2 i h1
          · rw [List.mem_singleton.mp h1]; exact hpr2
      · intro i hi hpi hlt j hj hpj hrj
        have ht : r.1.t ≤ (procAt s.ps j).arrival_time := q2 (by rw [k2b]; exact hk) j hj hpj hrj
        simp only
        split
        · exact ht
        · exact ht
    | nil =>
      have hbody : MLQ_body s =
          if (MLQ_push s).idx < (MLQ_push s).ps.length then
            { MLQ_push s with
              gantt := (MLQ_push s).gantt ++ [("IDLE",
                (procAt (MLQ_push s).ps (MLQ_push s).idx).arrival_time - (MLQ_push s).t)],
              t := (procAt (MLQ_push s).ps (MLQ_push s).idx).arrival_time }
          else MLQ_push s := by
        unfold MLQ_body
        simp only [hh, hl]
      rw [hbody]
      refine ⟨?_, ?_⟩
      · split
        · refine ⟨hpart1, ?_⟩
          show SegBound s.ps (s.gantt ++ [("IDLE", _)])
          refine SegBound_snoc hseg _ _ (fun hlab i hi hid _ => ?_)
          exact absurd hid (hlab.2 i hi)
        · exact ⟨hpart1, hseg⟩
      · intro i hi hpi hlt
        have : (procAt (if (MLQ_push s).idx < (MLQ_push s).ps.length then
            { MLQ_push s with
              gantt := (MLQ_push s).gantt ++ [("IDLE",
                (procAt (MLQ_push s).ps (MLQ_push s).idx).arrival_time - (MLQ_push s).t)],
              t := (procAt (MLQ_push s).ps (MLQ_push s).idx).arrival_time }
          else MLQ_push s).ps i) = procAt s.ps i := by
          split <;> rfl
        rw [this] at hlt
        exact absurd hlt (lt_irrefl _)

theorem Kept_init (ps : List Process) : Kept ps (initRemaining ps) := by
  refine ⟨length_initRemaining ps, fun i => ?_⟩
  by_cases hi : i < ps.length
  · unfold initRemaining
    rw [procAt_map _ _ _ hi]
    exact ⟨rfl, rfl, rfl, rfl, rfl⟩
  · have h1 : procAt ps i = default := by
      unfold procAt
      rw [List.getD_eq_default _ _ (by omega)]
    have h2 : procAt (initRemaining ps) i = default := by
      unfold procAt
      rw [List.getD_eq_default _ _ (by rw [length_initRemaining]; omega)]
    rw [h1, h2]
    exact Static_refl _

theorem MLQ_highFirst (ps0 : List Process) (s : MLQState) (h : MLQInv ps0 s)
    (hc : anyLeft s.ps = true) (hsort : SortedIdx s.ps) (hx : MLQExtra s) :
    HighFirst s.ps s.ps (MLQ_body s).ps s.t (MLQ_body s).t := by
  have hclock := MLQ_clock ps0 s h hc hsort
  obtain ⟨_, hprec⟩ := MLQ_extra_step ps0 s h hsort hx
  intro i hi hpi hlt
  refine ⟨?_, ?_⟩
  · rcases hclock with ⟨hsame, _⟩ | ⟨i2, k, _, _, _, _, hu, hri, hoth⟩
    · rw [hsame i] at hlt
      exact absurd hlt (lt_irrefl _)
    · by_cases hii : i = i2
      · subst hii
        rw [hri, hu]
        omega
      · rw [hoth i hii] at hlt
        exact absurd hlt (lt_irrefl _)
  · intro τ _ hτ j hj hpj harr
    by_contra hne
    have h0 := (h.acct.2 j hj).2.1
    have := hprec i hi hpi hlt j hj hpj (by omega)
    omega

/-! ## MLFQ: the first dispatch of a process -/

theorem MLFQ_enq_upper (s : MLFQState) (p : Nat) (lv : Int) (i : Nat)
    (hi : i ∈ (MLFQ_enq s p lv).q1 ++ (MLFQ_enq s p lv).q2) : i ∈ s.q1 ++ s.q2 ∨ i = p := by
  have hl : max 0 (min 2 lv) = 0 ∨ max 0 (min 2 lv) = 1 ∨ max 0 (min 2 lv) = 2 := by omega
  have t0 : (0 : Int).toNat = 0 := rfl
  have t1 : (1 : Int).toNat = 1 := rfl
  have t2 : (2 : Int).toNat = 2 := rfl
  unfold MLFQ_enq at hi
  simp only at hi
  rcases hl with h | h | h
  · rw [h, t0] at hi
    simp only [MLFQ_setq, MLFQ_getq] at hi
    exact Or.inl hi
  · rw [h, t1] at hi
    simp only [MLFQ_setq, MLFQ_getq, List.mem_append, List.mem_singleton] at hi
    simp only [List.mem_append]
    tauto
  · rw [h, t2] at hi
    simp only [MLFQ_setq, MLFQ_getq, List.mem_append, List.mem_singleton] at hi
    simp only [List.mem_append]
    tauto

theorem MLFQ_pop_upper (s : MLFQState) (qi p : Nat) (tl : List Nat) (hqi : qi ≤ 2)
    (h : MLFQ_getq s qi = p :: tl) :
    (∀ i, i ∈ (MLFQ_setq s qi tl).q1 ++ (MLFQ_setq s qi tl).q2 → i ∈ s.q1 ++ s.q2) ∧
      (0 < qi → p ∈ s.q1 ++ s.q2) := by
  have hcases : qi = 0 ∨ qi = 1 ∨ qi = 2 := by omega
  rcases hcases with rfl | rfl | rfl
  · exact ⟨fun i hi => hi, fun h0 => absurd h0 (lt_irrefl _)⟩
  · have h1 : s.q1 = p :: tl := h
    refine ⟨fun i hi => ?_, fun _ => by rw [h1]; simp⟩
    simp only [MLFQ_setq, List.mem_append] at hi
    rw [h1]
    simp only [List.mem_append, List.mem_cons]
    tauto
  · have h2 : s.q2 = p :: tl := h
    refine ⟨fun i hi => ?_, fun _ => by rw [h2]; simp⟩
    simp only [MLFQ_setq, List.mem_append] at hi
    rw [h2]
    simp only [List.mem_append, List.mem_cons]
    tauto

theorem MLFQ_runLoop_upper (p qi : Nat) : ∀ (fuel : Nat) (s : MLFQState) (ran : Int),
    (MLFQ_runLoop p qi fuel s ran).1.q1 = s.q1 ∧ (MLFQ_runLoop p qi fuel s ran).1.q2 = s.q2 ∧
      ran ≤ (MLFQ_runLoop p qi fuel s ran).2 ∧
      (ran ≤ MLFQ_quantum qi → (MLFQ_runLoop p qi fuel s ran).2 ≤ MLFQ_quantum qi) := by
  intro fuel
  induction fuel with
  | zero => intro s ran; exact ⟨rfl, rfl, le_refl _, fun h => h⟩
  | succ fuel ih =>
    intro s ran
    obtain ⟨f1, f2, f3, f4, _⟩ := MLFQ_push_fields
      { s with ps := modifyAt s.ps p (decRemaining 1), t := s.t + 1 }
    unfold MLFQ_runLoop
    split
    · rename_i hcond
      simp only
      split
      · exact ⟨f3, f4, by omega, fun _ => by omega⟩
      · obtain ⟨a1, a2, a3, a4⟩ := ih
          (MLFQ_push { s with ps := modifyAt s.ps p (decRemaining 1), t := s.t + 1 }) (ran + 1)
        exact ⟨a1.trans f3, a2.trans f4, by omega, fun _ => a4 (by omega)⟩
    · exact ⟨rfl, rfl, le_refl _, fun h => h⟩

/-- A dispatch from level 0 is never preempted: it runs `min(2, remaining_time)` units. -/
theorem MLFQ_runLoop_level0 (p : Nat) : ∀ (fuel : Nat) (s : MLFQState) (ran : Int),
    p < s.ps.length → fuel = (2 - ran).toNat →
    (MLFQ_runLoop p 0 fuel s ran).2
      = ran + max 0 (min (2 - ran) (procAt s.ps p).remaining_time) := by
  intro fuel
  induction fuel with
  | zero =>
    intro s ran _ hf
    simp only [MLFQ_runLoop]
    omega
  | succ fuel ih =>
    intro s ran hp hf
    obtain ⟨f1, _⟩ := MLFQ_push_fields
      { s with ps := modifyAt s.ps p (decRemaining 1), t := s.t + 1 }
    have hq : MLFQ_quantum 0 = 2 := rfl
    unfold MLFQ_runLoop
    by_cases hc : ran < MLFQ_quantum 0 ∧ (procAt s.ps p).remaining_time > 0
    · rw [if_pos hc]
      simp only [lt_irrefl, false_and, if_false]
      rw [ih _ (ran + 1) (by rw [f1]; simpa using hp) (by omega), f1]
      show _ = ran + max 0 (min (2 - ran) (procAt s.ps p).remaining_time)
      have : (procAt (modifyAt s.ps p (decRemaining 1)) p).remaining_time
          = (procAt s.ps p).remaining_time - 1 := (RunsTo_dec s.ps p 1 hp).2.2.2.2
      rw [this]
      rw [hq] at hc
      omega
    · rw [if_neg hc]
      rw [hq] at hc
      show ran = _
      omega

theorem segments_snoc_ne (id l : String) (d : Int) (g : Gantt) (h : l ≠ id) :
    segments id (g ++ [(l, d)]) = segments id g := by
  rw [segments_append, segments_single, if_neg h, List.append_nil]

theorem segments_snoc_eq (id : String) (d : Int) (g : Gantt) :
    segments id (g ++ [(id, d)]) = segments id g ++ [(id, d)] := by
  rw [segments_append, segments_single, if_pos rfl]

/-- The first-segment property after process `p` has received `k` units and the segment
`(id of p, k)` has been appended to the timeline. -/
theorem first_after_run {ps qs : List Process} {g : Gantt} {p : Nat} {k : Int}
    (hr : RunsTo ps qs p k) (hk : 0 < k)
    (hacct : ∀ i, i < ps.length →
      (procAt ps i).remaining_time ≤ (procAt ps i).burst_time)
    (hfirst : LabelsOK ps → ∀ i, i < ps.length →
      ((procAt ps i).remaining_time = (procAt ps i).burst_time →
        segments (procAt ps i).id g = []) ∧
      ((procAt ps i).remaining_time < (procAt ps i).burst_time →
        ∃ rest, segments (procAt ps i).id g
          = ((procAt ps i).id, min 2 (procAt ps i).burst_time) :: rest))
    (hk2 : (procAt ps p).remaining_time = (procAt ps p).burst_time →
      k = min 2 (procAt ps p).burst_time) :
    LabelsOK qs → ∀ i, i < qs.length →
      ((procAt qs i).remaining_time = (procAt qs i).burst_time →
        segments (procAt qs i).id (g ++ [((procAt ps p).id, k)]) = []) ∧
      ((procAt qs i).remaining_time < (procAt qs i).burst_time →
        ∃ rest, segments (procAt qs i).id (g ++ [((procAt ps p).id, k)])
          = ((procAt qs i).id, min 2 (procAt qs i).burst_time) :: rest) := by
  intro hlab i hi
  have hkept := Kept_of_runs hr
  have hlab0 := LabelsOK_back hkept hlab
  have hi0 : i < ps.length := by rw [← hr.1]; exact hi
  obtain ⟨a1, a2⟩ := hfirst hlab0 i hi0
  by_cases hip : i = p
  · subst hip
    obtain ⟨s1, _, s3, _, _⟩ := hr.2.2.2.1
    have hrem := hr.2.2.2.2
    have hle := hacct i hi0
    rw [s1, s3, hrem]
    refine ⟨fun h => by omega, fun _ => ?_⟩
    rw [segments_snoc_eq]
    by_cases hfull : (procAt ps i).remaining_time = (procAt ps i).burst_time
    · rw [a1 hfull, hk2 hfull]
      exact ⟨[], rfl⟩
    · obtain ⟨rest, hrest⟩ := a2 (by omega)
      rw [hrest]
      exact ⟨rest ++ [((procAt ps i).id, k)], rfl⟩
  · have hne : (procAt ps p).id ≠ (procAt qs i).id := by
      intro he
      rw [(hkept.2 i).1] at he
      exact hip (ids_injective ps hlab0.1 i p hi0 hr.2.1 he.symm)
    rw [segments_snoc_ne _ _ _ _ hne, hr.2.2.1 i hip]
    exact ⟨a1, a2⟩

theorem first_after_idle {ps : List Process} {g : Gantt} (d : Int)
    (hfirst : LabelsOK ps → ∀ i, i < ps.length →
      ((procAt ps i).remaining_time = (procAt ps i).burst_time →
        segments (procAt ps i).id g = []) ∧
      ((procAt ps i).remaining_time < (procAt ps i).burst_time →
        ∃ rest, segments (procAt ps i).id g
          = ((procAt ps i).id, min 2 (procAt ps i).burst_time) :: rest)) :
    LabelsOK ps → ∀ i, i < ps.length →
      ((procAt ps i).remaining_time = (procAt ps i).burst_time →
        segments (procAt ps i).id (g ++ [("IDLE", d)]) = []) ∧
      ((procAt ps i).remaining_time < (procAt ps i).burst_time →
        ∃ rest, segments (procAt ps i).id (g ++ [("IDLE", d)])
          = ((procAt ps i).id, min 2 (procAt ps i).burst_time) :: rest) := by
  intro hlab i hi
  rw [segments_snoc_ne _ _ _ _ (Ne.symm (hlab.2 i hi))]
  exact hfirst hlab i hi

/-- One iteration of the MLFQ loop keeps `MLFQExtra` and adds to the timeline what
`MLFQ_segmentOf` says. -/
theorem MLFQ_extra_step (ps0 : List Process) (s : MLFQState) (h : MLFQInv ps0 s)
    (hx : MLFQExtra s) : MLFQExtra (MLFQ_body s) ∧ MLFQ_segmentOf s (MLFQ_body s) := by
  obtain ⟨hfr, hacct, hadm, hg, hgt, hcl, hld⟩ := h
  obtain ⟨hfresh, hfirst⟩ := hx
  have hb : ∀ i, i < s.ps.length → 0 < (procAt s.ps i).burst_time := fun i hi => (hacct.2 i hi).1
  have hadm1 : Adm (MLFQ_push s).ps (MLFQ_push s).t (MLFQ_push s).idx
      (MLFQ_members (MLFQ_push s)) := by
    have := MLFQ_push_adm s [] hb (by simpa using hadm)
    simpa using this
  obtain ⟨f1, f2, f3, f4, f5, f6, f7, f8⟩ := MLFQ_push_fields s
  cases hfirstne : MLFQ_firstNonEmpty (MLFQ_push s) with
  | none =>
    have hbody : MLFQ_body s =
        if (MLFQ_push s).idx < (MLFQ_push s).ps.length then
          { MLFQ_push s with
            gantt := (MLFQ_push s).gantt ++ [("IDLE",
              (procAt (MLFQ_push s).ps (MLFQ_push s).idx).arrival_time - (MLFQ_push s).t)],
            t := (procAt (MLFQ_push s).ps (MLFQ_push s).idx).arrival_time }
        else MLFQ_push s := by
      unfold MLFQ_body
      simp only [hfirstne]
    have hdisp : MLFQ_dispatchOf s = none := by
      unfold MLFQ_dispatchOf
      simp only [hfirstne]
    have hfresh1 : ∀ i, i ∈ (MLFQ_push s).q1 ++ (MLFQ_push s).q2 →
        (procAt (MLFQ_push s).ps i).remaining_time < (procAt (MLFQ_push s).ps i).burst_time := by
      rw [f1, f3, f4]; exact hfresh
    refine ⟨?_, ?_⟩
    · rw [hbody]
      split
      · refine ⟨hfresh1, ?_⟩
        show LabelsOK (MLFQ_push s).ps → ∀ i, i < (MLFQ_push s).ps.length → _
        rw [f1, f7]
        exact first_after_idle _ hfirst
      · refine ⟨hfresh1, ?_⟩
        rw [f1, f7]
        exact hfirst
    · unfold MLFQ_segmentOf
      rw [hdisp, hbody]
      simp only
      split
      · exact Or.inr ⟨_, by show (MLFQ_push s).gantt ++ _ = _; rw [f7]⟩
      · exact Or.inl f7
  | some qi =>
    obtain ⟨hqi, p, tl, hget⟩ := MLFQ_first_some _ qi hfirstne
    obtain ⟨hpermpop, hwpop⟩ := MLFQ_pop_queues (MLFQ_push s) qi p tl hqi hget
    obtain ⟨hup1, hup2⟩ := MLFQ_pop_upper (MLFQ_push s) qi p tl hqi hget
    rw [f3, f4] at hup1 hup2
    obtain ⟨g1, g2, g3, g4, g5, g6⟩ := MLFQ_setq_fields (MLFQ_push s) qi tl
    have hadm2 : Adm s.ps s.t (MLFQ_push s).idx
        (p :: MLFQ_members (MLFQ_setq (MLFQ_push s) qi tl)) := by
      have := Adm_perm hadm1 hpermpop
      rwa [f1, f5] at this
    have hp := (hadm2.2.2.2.2 p).mp (List.mem_cons_self p _)
    have hpn : p < s.ps.length := lt_of_lt_of_le hp.1 hadm2.1
    generalize hs2 : MLFQ_setq (MLFQ_push s) qi tl = s2 at *
    have s2ps : s2.ps = s.ps := g1.trans f1
    have s2t : s2.t = s.t := g2.trans f5
    have s2g : s2.gantt = s.gantt := g5.trans f7
    have hbody : MLFQ_body s =
        if qi > 0 ∧ s2.t - s2.last_enq.getD p 0 ≥ MLFQ_AGE then MLFQ_enq s2 p ((qi : Int) - 1)
        else
          (let r := MLFQ_runLoop p qi (MLFQ_quantum qi).toNat s2 0
           if (procAt r.1.ps p).remaining_time = 0 then
             { r.1 with gantt := if r.2 > 0 then r.1.gantt ++ [((procAt r.1.ps p).id, r.2)]
                                 else r.1.gantt,
                        comp := r.1.comp.set p r.1.t }
           else MLFQ_enq { r.1 with gantt := if r.2 > 0 then
                                       r.1.gantt ++ [((procAt r.1.ps p).id, r.2)]
                                     else r.1.gantt } p
             (if r.2 = MLFQ_quantum qi ∧ qi < 2 then (qi : Int) + 1 else (qi : Int))) := by
      unfold MLFQ_body
      simp only [hfirstne, hget, List.headD_cons, List.tail_cons, hs2]
    have hdisp : MLFQ_dispatchOf s =
        if qi > 0 ∧ s2.t - s2.last_enq.getD p 0 ≥ MLFQ_AGE then none else some (qi, p) := by
      unfold MLFQ_dispatchOf
      simp only [hfirstne, hget, List.headD_cons, List.tail_cons, hs2]
    by_cases hprom : qi > 0 ∧ s2.t - s2.last_enq.getD p 0 ≥ MLFQ_AGE
    · rw [if_pos hprom] at hbody hdisp
      obtain ⟨e1, e2, e3, e4, e5⟩ := MLFQ_enq_fields s2 p ((qi : Int) - 1)
      refine ⟨⟨?_, ?_⟩, ?_⟩
      · intro i hi
        rw [hbody] at hi ⊢
        rw [e1, s2ps]
        rcases MLFQ_enq_upper s2 p _ i hi with h1 | h1
        · exact hfresh i (hup1 i h1)
        · rw [h1]; exact hfresh p (hup2 hprom.1)
      · rw [hbody, e1, e5, s2ps, s2g]
        exact hfirst
      · unfold MLFQ_segmentOf
        rw [hdisp, hbody]
        exact Or.inl (e5.trans s2g)
    · rw [if_neg hprom] at hbody hdisp
      have hb2 : ∀ i, i < s2.ps.length → 0 < (procAt s2.ps i).burst_time := by
        rw [s2ps]; exact hb
      have hadm3 : Adm s2.ps s2.t s2.idx ([p] ++ MLFQ_members s2) := by
        rw [s2ps, s2t, g3]; exact hadm2
      have hspec := MLFQ_runLoop_spec p qi (MLFQ_quantum qi).toNat s2 0 hb2 hadm3 (by simp)
      obtain ⟨u1, u2, u3, u4⟩ := MLFQ_runLoop_upper p qi (MLFQ_quantum qi).toNat s2 0
      have hlev0 : qi = 0 → (MLFQ_runLoop p qi (MLFQ_quantum qi).toNat s2 0).2
          = min 2 (procAt s.ps p).remaining_time := by
        intro h0
        subst h0
        have := MLFQ_runLoop_level0 p (MLFQ_quantum 0).toNat s2 0 (by rw [s2ps]; exact hpn) rfl
        rw [this, s2ps]
        omega
      have hq0 : (0 : Int) ≤ MLFQ_quantum qi := by
        have : qi = 0 ∨ qi = 1 ∨ qi = 2 := by omega
        rcases this with rfl | rfl | rfl <;> simp [MLFQ_quantum]
      rw [hbody]
      generalize MLFQ_runLoop p qi (MLFQ_quantum qi).toNat s2 0 = r at *
      obtain ⟨k, k1, k2, k3, k4, k5, k6, k6c, k6w, k7, k8⟩ := hspec
      have hk : 0 < k := k8 (by
        have : qi = 0 ∨ qi = 1 ∨ qi = 2 := by omega
        rcases this with rfl | rfl | rfl <;> simp [MLFQ_quantum])
      rw [s2ps] at k3 k4
      rw [s2g] at k6
      have k2b : r.2 = k := by rw [k2]; omega
      have hgantt : (if r.2 > 0 then r.1.gantt ++ [((procAt r.1.ps p).id, r.2)] else r.1.gantt)
          = s.gantt ++ [((procAt s.ps p).id, k)] := by
        rw [k2b, if_pos hk, k6, k3.2.2.2.1.1]
      have hle : ∀ i, i < s.ps.length →
          (procAt s.ps i).remaining_time ≤ (procAt s.ps i).burst_time :=
        fun i hi => (hacct.2 i hi).2.2.1
      have hfull : (procAt s.ps p).remaining_time = (procAt s.ps p).burst_time →
          qi = 0 ∧ k = min 2 (procAt s.ps p).burst_time := by
        intro hf
        have h0 : qi = 0 := by
          by_contra hne
          have := hfresh p (hup2 (by omega))
          omega
        refine ⟨h0, ?_⟩
        rw [← k2b, hlev0 h0, hf]
      have hfr2 : ∀ i, i ∈ s.q1 ++ s.q2 ∨ i = p →
          (procAt r.1.ps i).remaining_time < (procAt r.1.ps i).burst_time := by
        intro i hi
        by_cases hip : i = p
        · rw [hip, k3.2.2.2.2, k3.2.2.2.1.2.2.1]
          have := hle p hpn
          omega
        · rw [k3.2.2.1 i hip]
          rcases hi with h1 | h1
          · exact hfresh i h1
          · exact absurd h1 hip
      have hfirst2 := first_after_run k3 hk hle hfirst (fun hf => (hfull hf).2)
      simp only []
      rw [hgantt]
      refine ⟨?_, ?_⟩
      · split
        · refine ⟨fun i hi => ?_, hfirst2⟩
          have hi2 : i ∈ r.1.q1 ++ r.1.q2 := hi
          rw [u1, u2] at hi2
          exact hfr2 i (Or.inl (hup1 i hi2))
        · generalize hs4 : MLFQState.mk r.1.ps r.1.q0 r.1.q1 r.1.q2 r.1.t r.1.idx r.1.last_enq
            r.1.level r.1.comp (s.gantt ++ [((procAt s.ps p).id, k)]) = s4
          have s4ps : s4.ps = r.1.ps := by rw [← hs4]
          have s4g : s4.gantt = s.gantt ++ [((procAt s.ps p).id, k)] := by rw [← hs4]
          have s4q1 : s4.q1 = r.1.q1 := by rw [← hs4]
          have s4q2 : s4.q2 = r.1.q2 := by rw [← hs4]
          generalize (if r.2 = MLFQ_quantum qi ∧ qi < 2 then (qi : Int) + 1 else (qi : Int)) = lv
          obtain ⟨e1, e2, e3, e4, e5⟩ := MLFQ_enq_fields s4 p lv
          refine ⟨fun i hi => ?_, ?_⟩
          · rw [e1, s4ps]
            rcases MLFQ_enq_upper s4 p lv i hi with h1 | h1
            · rw [s4q1, s4q2, u1, u2] at h1
              exact hfr2 i (Or.inl (hup1 i h1))
            · exact hfr2 i (Or.inr h1)
          · rw [e1, e5, s4ps, s4g]
            exact hfirst2
      · unfold MLFQ_segmentOf
        rw [hdisp]
        simp only
        refine ⟨k, hk, by rw [← k2b]; exact u4 hq0, ?_, ?_, hfull⟩
        · split
          · rfl
          · generalize (if r.2 = MLFQ_quantum qi ∧ qi < 2 then (qi : Int) + 1 else (qi : Int)) = lv
            exact (MLFQ_enq_fields _ p lv).2.2.2.2
        · split
          · exact k3.2.2.2.2
          · generalize (if r.2 = MLFQ_quantum qi ∧ qi < 2 then (qi : Int) + 1 else (qi : Int)) = lv
            rw [(MLFQ_enq_fields _ p lv).1]
            exact k3.2.2.2.2

/-! ## Round Robin with a quantum that is not positive -/

theorem whileLoop_none {σ : Type} (cond : σ → Bool) (body : σ → σ) :
    ∀ (fuel : Nat) (s : σ), (∀ k, cond (Nat.iterate body k s) = true) →
      whileLoop cond body fuel s = none := by
  intro fuel
  induction fuel with
  | zero =>
    intro s h
    have h0 : cond s = true := h 0
    simp [whileLoop, h0]
  | succ fuel ih =>
    intro s h
    have h0 : cond s = true := h 0
    simp only [whileLoop, h0, if_true]
    exact ih (body s) (fun k => by simpa using h (k + 1))

theorem RR_stuck_step (quantum : Int) (hq : quantum ≤ 0) (s : RRState) (h : RRStuck s) :
    RRStuck (RR_body quantum s) ∧ (RR_body quantum s).ps.length = s.ps.length ∧
      ∀ i, (procAt s.ps i).remaining_time ≤ (procAt (RR_body quantum s).ps i).remaining_time := by
  obtain ⟨h1, h2, h3, h4⟩ := h
  obtain ⟨n1, n2, _, _⟩ := newArrivals_spec s.ps s.t s.idx h1
  cases hq1 : s.q ++ newArrivals s.ps s.t s.idx with
  | nil =>
    obtain ⟨hrq1, hnew⟩ := List.append_eq_nil.mp hq1
    have i1 : s.idx < s.ps.length := by
      rcases h4 with h4 | h4
      · exact absurd hrq1 h4
      · exact h4
    have hbody : RR_body quantum s = { s with t := (procAt s.ps s.idx).arrival_time } := by
      unfold RR_body
      simp [hrq1, hnew, i1]
    rw [hbody]
    exact ⟨⟨h1, h2, h3, Or.inr i1⟩, rfl, fun _ => le_refl _⟩
  | cons cur q2 =>
    have hmem1 : ∀ i, i ∈ s.q ++ newArrivals s.ps s.t s.idx → i < s.ps.length := by
      intro i hi
      rcases List.mem_append.mp hi with a | a
      · exact h2 i a
      · have := (mem_newArrivals s.ps s.t s.idx h1 i).mp a
        omega
    rw [hq1] at hmem1
    have hcur : cur < s.ps.length := hmem1 cur (List.mem_cons_self cur q2)
    have hrc := h3 cur hcur
    generalize hsl : min quantum (procAt s.ps cur).remaining_time = slice at *
    have hs0 : slice ≤ 0 := by rw [← hsl]; omega
    have hd := RunsTo_dec s.ps cur slice hcur
    generalize hps1 : modifyAt s.ps cur (decRemaining slice) = ps1 at *
    have hpos : (procAt ps1 cur).remaining_time > 0 := by rw [hd.2.2.2.2]; omega
    have hbody : RR_body quantum s =
        { ps := ps1,
          q := q2 ++ newArrivals ps1 (s.t + slice) (s.idx + (newArrivals s.ps s.t s.idx).length)
            ++ [cur],
          t := s.t + slice,
          idx := s.idx + (newArrivals s.ps s.t s.idx).length
            + (newArrivals ps1 (s.t + slice)
                (s.idx + (newArrivals s.ps s.t s.idx).length)).length,
          last_start := if decide (s.last ≠ (procAt s.ps cur).id ∨ s.last_start = -1) = true
            then s.t else s.last_start,
          last := if decide (s.last ≠ (procAt s.ps cur).id ∨ s.last_start = -1) = true
            then (procAt s.ps cur).id else s.last,
          gantt := if decide (s.last ≠ (procAt s.ps cur).id ∨ s.last_start = -1) = true
            then finalizeBlock s.last s.last_start s.t s.gantt else s.gantt } := by
      simp only [RR_body, hq1, hsl, hps1, if_pos hpos]
    rw [hbody]
    have hle1 : s.idx + (newArrivals s.ps s.t s.idx).length ≤ ps1.length := by
      rw [hd.1]; exact n2
    obtain ⟨m1, m2, _, _⟩ := newArrivals_spec ps1 (s.t + slice) _ hle1
    have hrem : ∀ i, (procAt s.ps i).remaining_time ≤ (procAt ps1 i).remaining_time := by
      intro i
      by_cases hi : i = cur
      · rw [hi, hd.2.2.2.2]; omega
      · rw [hd.2.2.1 i hi]
    refine ⟨⟨m2, ?_, ?_, Or.inl (by simp)⟩, hd.1, hrem⟩
    · intro i hi
      show i < ps1.length
      rw [hd.1]
      rcases List.mem_append.mp hi with a | a
      · rcases List.mem_append.mp a with b | b
        · exact hmem1 i (List.mem_cons_of_mem cur b)
        · have := (mem_newArrivals ps1 (s.t + slice) _ hle1 i).mp b
          rw [hd.1] at m2
          omega
      · rw [List.mem_singleton.mp a]; exact hcur
    · intro i hi
      have := h3 i (by rw [← hd.1]; exact hi)
      have := hrem i
      show 0 < (procAt ps1 i).remaining_time
      omega

theorem RR_never_ends (quantum : Int) (hq : quantum ≤ 0) (ps : List Process)
    (hb : ∀ p, p ∈ ps → 0 < p.burst_time) (hne : ps ≠ []) : RRNeverEnds quantum ps := by
  have hinit : RRStuck (RR_init ps) := by
    refine ⟨Nat.zero_le _, fun i hi => by simp [RR_init] at hi, fun i hi => ?_, Or.inr ?_⟩
    · have hi2 : i < ps.length := by
        have : (RR_init ps).ps.length = ps.length := length_initRemaining ps
        omega
      obtain ⟨_, b4⟩ := (init_jobs_plain ps).2 i hi2
      show 0 < (procAt (initRemaining ps) i).remaining_time
      rw [b4]
      exact hb _ (procAt_mem ps i hi2)
    · show 0 < (initRemaining ps).length
      rw [length_initRemaining]
      exact List.length_pos.mpr hne
  have hall : ∀ k, RRStuck (Nat.iterate (RR_body quantum) k (RR_init ps)) ∧
      (Nat.iterate (RR_body quantum) k (RR_init ps)).ps.length = ps.length := by
    intro k
    induction k with
    | zero => exact ⟨hinit, length_initRemaining ps⟩
    | succ k ih =>
      rw [Function.iterate_succ_apply']
      obtain ⟨a1, a2, _⟩ := RR_stuck_step quantum hq _ ih.1
      exact ⟨a1, a2.trans ih.2⟩
  have hcond : ∀ k, RR_cond (Nat.iterate (RR_body quantum) k (RR_init ps)) = true := by
    intro k
    obtain ⟨⟨_, _, _, c⟩, _⟩ := hall k
    unfold RR_cond
    rcases c with c | c
    · cases hq2 : (Nat.iterate (RR_body quantum) k (RR_init ps)).q with
      | nil => exact absurd hq2 c
      | cons a l => simp
    · simp [c]
  refine ⟨fun fuel => ?_, fun k => ⟨hcond k, fun i hi => ?_⟩⟩
  · unfold RoundRobinScheduler_schedule
    rw [whileLoop_none RR_cond (RR_body quantum) fuel (RR_init ps) hcond]
    rfl
  · obtain ⟨hst, hlen⟩ := hall k
    have hpos := hst.left i (by rw [hlen]; exact hi)
    refine ⟨hpos, by omega, ?_⟩
    rw [Function.iterate_succ_apply']
    exact (RR_stuck_step quantum hq _ hst).2.2 i

/-! ## CFS: the dispatched process and its virtual runtime -/

theorem CFS_weight_div (sl : Int) (p : Process) :
    (sl : Rat) / CFS_weight p = (sl : Rat) * ((max 1 p.priority : Int) : Rat) := by
  have hm : (0 : Rat) < ((max 1 p.priority : Int) : Rat) := by
    have : (0 : Int) < max 1 p.priority := by omega
    exact_mod_cast this
  have hw : ¬ (1 / ((max 1 p.priority : Int) : Rat) ≤ 0) := by
    rw [not_le]; positivity
  unfold CFS_weight
  simp only [if_neg hw]
  field_simp

theorem CFS_iter (sel : List Process → List Nat → Nat) (ps0 : List Process) (s : CFSState)
    (h : CFSInv ps0 s) (hsort : SortedIdx s.ps) :
    (s.rq ++ newArrivals s.ps s.t s.idx = [] ∧ CFS_idleOf s (CFS_body sel s)) ∨
    (s.rq ++ newArrivals s.ps s.t s.idx ≠ [] ∧
      ∃ p, p = (s.rq ++ newArrivals s.ps s.t s.idx).getD
          (min (sel s.ps (s.rq ++ newArrivals s.ps s.t s.idx))
            ((s.rq ++ newArrivals s.ps s.t s.idx).length - 1)) 0 ∧
        p ∈ s.rq ++ newArrivals s.ps s.t s.idx ∧
        p < s.ps.length ∧ (procAt s.ps p).arrival_time ≤ s.t ∧
        0 < (procAt s.ps p).remaining_time ∧
        (CFS_body sel s).t = s.t + min 2 (procAt s.ps p).remaining_time ∧
        (CFS_body sel s).ps
          = modifyAt (modifyAt s.ps p (decRemaining (min 2 (procAt s.ps p).remaining_time))) p
              (CFS_charge (min 2 (procAt s.ps p).remaining_time)) ∧
        (CFS_body sel s).gantt
          = s.gantt ++ [((procAt s.ps p).id, min 2 (procAt s.ps p).remaining_time)]) := by
  obtain ⟨hfr, hacct, hadm, hg, hgt, hcl, hld⟩ := h
  have hb : ∀ i, i < s.ps.length → 0 < (procAt s.ps i).burst_time := fun i hi => (hacct.2 i hi).1
  have hadm1 := Adm_admit hadm hb
  have hmem := arrived_mem_admitted hadm hb hsort
  by_cases hrq : (s.rq ++ newArrivals s.ps s.t s.idx) = []
  · left
    refine ⟨hrq, ?_, ?_⟩
    · intro j hj harr
      by_contra hpos
      have := hmem j hj harr (by omega)
      rw [hrq] at this
      cases this
    · unfold CFS_body
      simp only [hrq, List.isEmpty_nil, if_true]
      split <;> rfl
  · right
    refine ⟨hrq, ?_⟩
    have hne : (s.rq ++ newArrivals s.ps s.t s.idx).isEmpty = false := by
      simpa [List.isEmpty_iff] using hrq
    have hlenpos : 0 < (s.rq ++ newArrivals s.ps s.t s.idx).length := List.length_pos.mpr hrq
    unfold CFS_body
    simp only [hne, Bool.false_eq_true, if_false]
    generalize hrq1 : s.rq ++ newArrivals s.ps s.t s.idx = rq1 at *
    generalize hpos : min (sel s.ps rq1) (rq1.length - 1) = pos at *
    have hposlt : pos < rq1.length := by omega
    generalize hpd : rq1.getD pos 0 = p at *
    have hpin : p ∈ rq1 := by
      rw [← hpd, List.getD_eq_getElem rq1 0 hposlt]
      exact List.getElem_mem hposlt
    have hp := (hadm1.2.2.2.2 p).mp hpin
    have hpn : p < s.ps.length := lt_of_lt_of_le hp.1 hadm1.1
    exact ⟨p, rfl, hpin, hpn, hadm1.2.2.1 p hp.1, hp.2, rfl, rfl, rfl⟩

theorem CFS_select (sel : List Process → List Nat → Nat)
    (hsel : TopMin (fun ps i => (procAt ps i).vruntime) sel) (ps0 : List Process)
    (s : CFSState) (h : CFSInv ps0 s) (hsort : SortedIdx s.ps) :
    CFS_idleOf s (CFS_body sel s) ∨ ∃ i, CFS_dispatchOf s (CFS_body sel s) i := by
  have hb : ∀ i, i < s.ps.length → 0 < (procAt s.ps i).burst_time :=
    fun i hi => (h.acct.2 i hi).1
  have hmem := arrived_mem_admitted h.adm hb hsort
  rcases CFS_iter sel ps0 s h hsort with ⟨_, hi⟩ | ⟨hrq, p, hp, hpin, hpn, harr, hrem, ht, hps, hgn⟩
  · exact Or.inl hi
  · right
    obtain ⟨t1, t2⟩ := hsel s.ps _ hrq
    have hpos : min (sel s.ps (s.rq ++ newArrivals s.ps s.t s.idx))
        ((s.rq ++ newArrivals s.ps s.t s.idx).length - 1)
        = sel s.ps (s.rq ++ newArrivals s.ps s.t s.idx) := by omega
    rw [hpos] at hp
    refine ⟨p, hpn, harr, hrem, ?_, ht, ?_, ?_, hgn⟩
    · intro j hj ha hr
      rw [hp]
      exact t2 j (hmem j hj ha hr)
    · rw [hps, procAt_modifyAt_eq _ _ _ (by simpa using hpn), procAt_modifyAt_eq _ _ _ hpn]
      rfl
    · intro j hj
      rw [hps, procAt_modifyAt_ne _ _ _ _ hj, procAt_modifyAt_ne _ _ _ _ hj]

theorem CFS_charge_step (sel : List Process → List Nat → Nat) (ps0 : List Process)
    (s : CFSState) (h : CFSInv ps0 s) (hsort : SortedIdx s.ps) :
    CFS_charged s.ps (CFS_body sel s).ps := by
  rcases CFS_iter sel ps0 s h hsort with ⟨_, hi⟩ | ⟨hrq, p, hp, hpin, hpn, harr, hrem, ht, hps, hgn⟩
  · left
    intro j
    rw [hi.2]
  · right
    refine ⟨p, min 2 (procAt s.ps p).remaining_time, hpn, rfl, by omega, ?_, ?_,
      CFS_weight_div _ _, ?_⟩
    · rw [hps, procAt_modifyAt_eq _ _ _ (by simpa using hpn), procAt_modifyAt_eq _ _ _ hpn]
      rfl
    · rw [hps, procAt_modifyAt_eq _ _ _ (by simpa using hpn), procAt_modifyAt_eq _ _ _ hpn]
      rfl
    · intro j hj
      rw [hps, procAt_modifyAt_ne _ _ _ _ hj, procAt_modifyAt_ne _ _ _ _ hj]

theorem CFS_charged_mono {ps qs : List Process} (h : CFS_charged ps qs) (j : Nat) :
    (procAt ps j).vruntime ≤ (procAt qs j).vruntime := by
  rcases h with h | ⟨p, sl, _, _, hsl, _, hv, hw, ho⟩
  · rw [h j]
  · by_cases hj : j = p
    · rw [hj, hv, hw]
      have hm : (0 : Rat) < ((max 1 (procAt ps p).priority : Int) : Rat) := by
        have : (0 : Int) < max 1 (procAt ps p).priority := by omega
        exact_mod_cast this
      have hs : (0 : Rat) < (sl : Rat) := by exact_mod_cast hsl
      have := mul_pos hs hm
      linarith
    · rw [ho j hj]

theorem CFS_vruntime_step (sel : List Process → List Nat → Nat) (ps0 : List Process)
    (s : CFSState) (h : CFSInv ps0 s) (hsort : SortedIdx s.ps) (hk : Kept ps0 s.ps)
    (hv : CFS_vruntimeOK ps0 s.ps) : CFS_vruntimeOK ps0 (CFS_body sel s).ps := by
  intro i hi
  rcases CFS_iter sel ps0 s h hsort with ⟨_, hid⟩ | ⟨hrq, p, hp, hpin, hpn, harr, hrem, ht, hps, hgn⟩
  · rw [hid.2]
    exact hv i hi
  · rw [hps]
    by_cases hip : i = p
    · subst hip
      rw [procAt_modifyAt_eq _ _ _ (by simpa using hpn), procAt_modifyAt_eq _ _ _ hpn]
      show (procAt s.ps i).vruntime + _ / CFS_weight (decRemaining _ (procAt s.ps i))
        = (((procAt ps0 i).burst_time - ((procAt s.ps i).remaining_time - _) : Int) : Rat) * _
      rw [CFS_weight_div, hv i hi]
      show _ + _ * ((max 1 (procAt s.ps i).priority : Int) : Rat) = _
      rw [(hk.2 i).2.2.2.1]
      push_cast
      ring
    · rw [procAt_modifyAt_ne _ _ _ _ hip, procAt_modifyAt_ne _ _ _ _ hip]
      exact hv i hi

theorem CFS_init_kept (ps : List Process) : Kept ps (CFS_init ps).ps := by
  refine Kept_trans (Kept_init ps) ⟨by simp [CFS_init], fun i => ?_⟩
  show Static (procAt (initRemaining ps) i)
    (procAt ((initRemaining ps).map (fun p => { p with vruntime := 0 })) i)
  by_cases hi : i < (initRemaining ps).length
  · rw [procAt_map _ _ _ hi]
    exact ⟨rfl, rfl, rfl, rfl, rfl⟩
  · have h1 : procAt (initRemaining ps) i = default := by
      unfold procAt
      rw [List.getD_eq_default _ _ (by omega)]
    have h2 : procAt ((initRemaining ps).map (fun p => { p with vruntime := 0 })) i
        = default := by
      unfold procAt
      rw [List.getD_eq_default _ _ (by simp; omega)]
    rw [h1, h2]
    exact Static_refl _

theorem CFS_init_vruntime (ps : List Process) (i : Nat) (hi : i < ps.length) :
    (procAt (CFS_init ps).ps i).vruntime = 0 ∧
      (procAt (CFS_init ps).ps i).remaining_time = (procAt ps i).burst_time := by
  show (procAt ((initRemaining ps).map (fun p => { p with vruntime := 0 })) i).vruntime = 0 ∧
    (procAt ((initRemaining ps).map (fun p => { p with vruntime := 0 })) i).remaining_time = _
  rw [procAt_map _ _ _ (by rw [length_initRemaining]; exact hi)]
  exact ⟨rfl, (procAt_initRemaining ps i hi).2.1⟩

theorem CFS_vruntime_run (sel : List Process → List Nat → Nat) (ps : List Process)
    (hrun : Runnable ps) {K : Nat}
    (hr : LoopRun (fun s => anyLeft s.ps) (CFS_body sel) (CFSInv ps)
      (fun a b => StepOK a.ps b.ps (compClock a.comp) (compClock b.comp) b.t)
      (CFS_init ps) (fuelBound ps) K) :
    ∀ k, k ≤ K → Kept ps (Nat.iterate (CFS_body sel) k (CFS_init ps)).ps ∧
      CFS_vruntimeOK ps (Nat.iterate (CFS_body sel) k (CFS_init ps)).ps := by
  apply extra_inv hr (fun s => Kept ps s.ps ∧ CFS_vruntimeOK ps s.ps)
  · refine ⟨CFS_init_kept ps, fun i hi => ?_⟩
    obtain ⟨a, b⟩ := CFS_init_vruntime ps i hi
    rw [a, b]
    simp
  · intro s hI _ ⟨hk, hv⟩
    have hsort : SortedIdx s.ps := sortedIdx_of_sorted ps s.ps hrun.1 hI.frame.1 hI.frame.2
    exact ⟨Kept_trans hk (CFS_body_kept sel s).1, CFS_vruntime_step sel ps s hI hsort hk hv⟩

/-! ## Lottery: the ticket bag -/

theorem count_flatMap_range (f : Nat → List Nat) (i : Nat)
    (hf : ∀ j, j ≠ i → (f j).count i = 0) :
    ∀ n, ((List.range n).flatMap f).count i = if i < n then (f i).count i else 0 := by
  intro n
  induction n with
  | zero => simp
  | succ n ih =>
    rw [List.range_succ, List.flatMap_append, List.count_append, ih]
    simp only [List.flatMap_cons, List.flatMap_nil, List.append_nil]
    by_cases h1 : i < n
    · rw [if_pos h1, if_pos (by omega), hf n (by omega)]
      rfl
    · rw [if_neg h1]
      by_cases h2 : i = n
      · subst h2
        rw [if_pos (by omega)]
        simp
      · rw [if_neg (by omega), hf n (fun h => h2 h.symm)]

theorem Lottery_bag_count (tickets : List Int) (ps : List Process) (t : Int) :
    Lottery_bagOK tickets ps t := by
  intro i
  unfold Lottery_bag
  rw [count_flatMap_range _ i]
  · by_cases hi : i < ps.length
    · rw [if_pos hi]
      by_cases hc : (procAt ps i).remaining_time > 0 ∧ (procAt ps i).arrival_time ≤ t
      · rw [if_pos hc, if_pos ⟨hi, hc.2, hc.1⟩]
        simp
      · rw [if_neg hc, if_neg (fun h => hc ⟨h.2.2, h.2.1⟩)]
        simp
    · rw [if_neg hi, if_neg (fun h => hi h.1)]
  · intro j hj
    split
    · rw [List.count_replicate]
      simp [hj]
    · simp

theorem Lottery_tickets_value (ps : List Process) (i : Nat) (hi : i < ps.length) :
    (Lottery_tickets (initRemaining ps)).getD i 0 = max 1 (10 / max 1 (procAt ps i).priority) ∧
      1 ≤ (Lottery_tickets (initRemaining ps)).getD i 0 ∧
      (Lottery_tickets (initRemaining ps)).getD i 0 ≤ 10 ∧
      (1 ≤ (procAt ps i).priority →
        (Lottery_tickets (initRemaining ps)).getD i 0 = max 1 (10 / (procAt ps i).priority)) := by
  have hi2 : i < (initRemaining ps).length := by rw [length_initRemaining]; exact hi
  have hv : (Lottery_tickets (initRemaining ps)).getD i 0
      = max 1 (10 / max 1 (procAt ps i).priority) := by
    unfold Lottery_tickets
    rw [List.getD_eq_getElem _ _ (by simpa using hi2)]
    simp only [List.getElem_map]
    have : (initRemaining ps)[i] = procAt (initRemaining ps) i := by
      unfold procAt
      rw [List.getD_eq_getElem _ _ hi2]
    rw [this, (procAt_initRemaining ps i hi).2.2]
  have hle : 10 / max 1 (procAt ps i).priority ≤ 10 := Int.ediv_le_self _ (by norm_num)
  refine ⟨hv, by rw [hv]; omega, by rw [hv]; omega, fun h1 => ?_⟩
  rw [hv, max_eq_right h1]

theorem Lottery_iter (draws : Nat → Nat) (tickets : List Int) (s : LotteryState) :
    (Lottery_bag tickets s.ps s.t = [] ∧ (Lottery_body draws tickets s).ps = s.ps) ∨
      ∃ i, i = (Lottery_bag tickets s.ps s.t).getD
          (draws s.k % (Lottery_bag tickets s.ps s.t).length) 0 ∧
        Lottery_dispatchOf tickets s (Lottery_body draws tickets s) i := by
  by_cases hbag : Lottery_bag tickets s.ps s.t = []
  · left
    refine ⟨hbag, ?_⟩
    unfold Lottery_body
    simp only [hbag, List.isEmpty_nil, if_true]
    split
    · split <;> rfl
    · rfl
  · right
    have hne : (Lottery_bag tickets s.ps s.t).isEmpty = false := by
      simpa [List.isEmpty_iff] using hbag
    have hlen : 0 < (Lottery_bag tickets s.ps s.t).length := List.length_pos.mpr hbag
    have hlt : draws s.k % (Lottery_bag tickets s.ps s.t).length
        < (Lottery_bag tickets s.ps s.t).length := Nat.mod_lt _ hlen
    have hin : (Lottery_bag tickets s.ps s.t).getD
        (draws s.k % (Lottery_bag tickets s.ps s.t).length) 0 ∈ Lottery_bag tickets s.ps s.t := by
      rw [List.getD_eq_getElem _ 0 hlt]
      exact List.getElem_mem hlt
    unfold Lottery_body
    simp only [hne, Bool.false_eq_true, if_false]
    generalize (Lottery_bag tickets s.ps s.t).getD
        (draws s.k % (Lottery_bag tickets s.ps s.t).length) 0 = i at *
    obtain ⟨m1, m2, m3, _⟩ := (mem_Lottery_bag tickets s.ps s.t i).mp hin
    refine ⟨i, rfl, hin, m1, m3, m2, rfl, ?_, ?_, rfl⟩
    · show (procAt (if _ then _ else _) i).remaining_time = _
      split
      · rw [procAt_modifyAt_eq _ _ _ (by simpa using m1), procAt_modifyAt_eq _ _ _ m1]
        rfl
      · rw [procAt_modifyAt_eq _ _ _ m1]
        rfl
    · intro j hj
      show procAt (if _ then _ else _) j = _
      split
      · rw [procAt_modifyAt_ne _ _ _ _ hj, procAt_modifyAt_ne _ _ _ _ hj]
      · rw [procAt_modifyAt_ne _ _ _ _ hj]

/-! ## MLFQ: what one iteration does -/

theorem getD_set_eq (l : List Int) (i : Nat) (v : Int) (h : i < l.length) :
    (l.set i v).getD i 0 = v := by
  simp [List.getD_eq_getElem?_getD, h]

theorem getD_set_ne (l : List Int) (i j : Nat) (v : Int) (h : i ≠ j) :
    (l.set i v).getD j 0 = l.getD j 0 := by
  simp [List.getD_eq_getElem?_getD, List.getElem?_set_ne h]

theorem MLFQ_enq_at (s : MLFQState) (i X : Nat) (hX : X ≤ 2) :
    (MLFQ_enq s i (X : Int)).level = s.level.set i (X : Int) ∧
      (MLFQ_enq s i (X : Int)).last_enq = s.last_enq.set i s.t ∧
      MLFQ_getq (MLFQ_enq s i (X : Int)) X = MLFQ_getq s X ++ [i] ∧
      ∀ Y, Y ≤ 2 → Y ≠ X → MLFQ_getq (MLFQ_enq s i (X : Int)) Y = MLFQ_getq s Y := by
  have hx : X = 0 ∨ X = 1 ∨ X = 2 := by omega
  rcases hx with rfl | rfl | rfl
  · refine ⟨rfl, rfl, rfl, fun Y hY hne => ?_⟩
    have hy : Y = 1 ∨ Y = 2 := by omega
    rcases hy with rfl | rfl <;> rfl
  · refine ⟨rfl, rfl, rfl, fun Y hY hne => ?_⟩
    have hy : Y = 0 ∨ Y = 2 := by omega
    rcases hy with rfl | rfl <;> rfl
  · refine ⟨rfl, rfl, rfl, fun Y hY hne => ?_⟩
    have hy : Y = 0 ∨ Y = 1 := by omega
    rcases hy with rfl | rfl <;> rfl

theorem MLFQ_lens_enq (n : Nat) (s : MLFQState) (i : Nat) (lv : Int) (h : MLFQ_lens n s) :
    MLFQ_lens n (MLFQ_enq s i lv) := by
  obtain ⟨h1, h2, h3⟩ := h
  have hl : max 0 (min 2 lv) = 0 ∨ max 0 (min 2 lv) = 1 ∨ max 0 (min 2 lv) = 2 := by omega
  have hlev : (MLFQ_enq s i lv).level = s.level.set i (max 0 (min 2 lv)) := by
    unfold MLFQ_enq MLFQ_setq
    simp only
    split <;> rfl
  have hlast : (MLFQ_enq s i lv).last_enq = s.last_enq.set i s.t := by
    unfold MLFQ_enq MLFQ_setq
    simp only
    split <;> rfl
  refine ⟨by rw [hlev, List.length_set, h1], by rw [hlast, List.length_set, h2], ?_⟩
  intro x hx
  rw [hlev] at hx
  rcases List.mem_or_eq_of_mem_set hx with hx | hx
  · exact h3 x hx
  · rw [hx]; exact hl

theorem MLFQ_lens_foldl (n : Nat) (adm : List Nat) : ∀ (s : MLFQState), MLFQ_lens n s →
    MLFQ_lens n (adm.foldl (fun st i => MLFQ_enq st i 0) s) := by
  induction adm with
  | nil => intro s h; exact h
  | cons a rest ih =>
    intro s h
    simp only [List.foldl_cons]
    exact ih _ (MLFQ_lens_enq n s a 0 h)

theorem MLFQ_lens_push (n : Nat) (s : MLFQState) (h : MLFQ_lens n s) :
    MLFQ_lens n (MLFQ_push s) :=
  MLFQ_lens_foldl n (newArrivals s.ps s.t s.idx) s h

theorem MLFQ_lens_setq (n : Nat) (s : MLFQState) (qi : Nat) (q : List Nat)
    (h : MLFQ_lens n s) : MLFQ_lens n (MLFQ_setq s qi q) := by
  unfold MLFQ_setq
  split <;> exact h

theorem MLFQ_lens_runLoop (n p qi : Nat) : ∀ (fuel : Nat) (s : MLFQState) (ran : Int),
    MLFQ_lens n s → MLFQ_lens n (MLFQ_runLoop p qi fuel s ran).1 := by
  intro fuel
  induction fuel with
  | zero => intro s ran h; exact h
  | succ fuel ih =>
    intro s ran h
    unfold MLFQ_runLoop
    split
    · simp only
      split
      · exact MLFQ_lens_push n _ h
      · exact ih _ _ (MLFQ_lens_push n _ h)
    · exact h

theorem MLFQ_lens_body (n : Nat) (s : MLFQState) (h : MLFQ_lens n s) :
    MLFQ_lens n (MLFQ_body s) := by
  have h1 := MLFQ_lens_push n s h
  unfold MLFQ_body
  simp only
  split
  · split
    · exact h1
    · exact h1
  · rename_i qi _
    have h2 := MLFQ_lens_setq n (MLFQ_push s) qi (MLFQ_getq (MLFQ_push s) qi).tail h1
    split
    · exact MLFQ_lens_enq n _ _ _ h2
    · have h3 := MLFQ_lens_runLoop n ((MLFQ_getq (MLFQ_push s) qi).headD 0) qi
        (MLFQ_quantum qi).toNat _ 0 h2
      split
      · exact h3
      · exact MLFQ_lens_enq n _ _ _ h3

theorem MLFQ_lens_init (ps : List Process) : MLFQ_lens ps.length (MLFQ_init ps) := by
  refine ⟨by simp [MLFQ_init], by simp [MLFQ_init], fun x hx => ?_⟩
  have : x ∈ List.replicate ps.length (0 : Int) := hx
  exact Or.inl (List.eq_of_mem_replicate this)

theorem MLFQ_lens_iterate (ps : List Process) (k : Nat) :
    MLFQ_lens ps.length (Nat.iterate MLFQ_body k (MLFQ_init ps)) := by
  induction k with
  | zero => exact MLFQ_lens_init ps
  | succ k ih =>
    rw [Function.iterate_succ_apply']
    exact MLFQ_lens_body _ _ ih

theorem MLFQ_only_queue (u : MLFQState) (hn : (MLFQ_members u).Nodup) (p X : Nat)
    (hX : X ≤ 2) (hp : p ∈ MLFQ_getq u X) :
    ∀ Y, Y ≤ 2 → Y ≠ X → p ∉ MLFQ_getq u Y := by
  intro Y hY hne
  have hc := List.nodup_iff_count_le_one.mp hn p
  unfold MLFQ_members at hc
  rw [List.count_append, List.count_append] at hc
  have hpos : 0 < (MLFQ_getq u X).count p := List.count_pos_iff.mpr hp
  rw [← List.count_eq_zero]
  have hx : X = 0 ∨ X = 1 ∨ X = 2 := by omega
  have hy : Y = 0 ∨ Y = 1 ∨ Y = 2 := by omega
  rcases hx with rfl | rfl | rfl <;> rcases hy with rfl | rfl | rfl <;>
    simp only [MLFQ_getq] at hpos ⊢ <;> omega

theorem MLFQ_iter (ps0 : List Process) (s : MLFQState) (h : MLFQInv ps0 s) :
    (MLFQ_firstNonEmpty (MLFQ_push s) = none ∧ MLFQ_taken s = none ∧
        MLFQ_dispatchOf s = none ∧ (MLFQ_body s).ps = s.ps) ∨
    ∃ qi p tl, MLFQ_firstNonEmpty (MLFQ_push s) = some qi ∧ qi ≤ 2 ∧
      MLFQ_getq (MLFQ_push s) qi = p :: tl ∧ p < s.ps.length ∧ MLFQ_taken s = some (qi, p) ∧
      MLFQ_popped s qi = MLFQ_setq (MLFQ_push s) qi tl ∧
      ((0 < qi ∧ s.t - (MLFQ_push s).last_enq.getD p 0 ≥ MLFQ_AGE ∧ MLFQ_dispatchOf s = none ∧
          MLFQ_body s = MLFQ_enq (MLFQ_popped s qi) p ((qi : Int) - 1)) ∨
        (¬ (0 < qi ∧ s.t - (MLFQ_push s).last_enq.getD p 0 ≥ MLFQ_AGE) ∧
          MLFQ_dispatchOf s = some (qi, p) ∧
          ∃ r k, r = MLFQ_runLoop p qi (MLFQ_quantum qi).toNat (MLFQ_popped s qi) 0 ∧
            r.2 = k ∧ 0 < k ∧ k ≤ MLFQ_quantum qi ∧ RunsTo s.ps r.1.ps p k ∧
            r.1.t = s.t + k ∧
            MLFQ_body s =
              if (procAt r.1.ps p).remaining_time = 0 then
                { r.1 with gantt := s.gantt ++ [((procAt s.ps p).id, k)],
                           comp := r.1.comp.set p r.1.t }
              else MLFQ_enq { r.1 with gantt := s.gantt ++ [((procAt s.ps p).id, k)] } p
                (if k = MLFQ_quantum qi ∧ qi < 2 then (qi : Int) + 1 else (qi : Int)))) := by
  obtain ⟨hfr, hacct, hadm, hg, hgt, hcl, hld⟩ := h
  have hb : ∀ i, i < s.ps.length → 0 < (procAt s.ps i).burst_time := fun i hi => (hacct.2 i hi).1
  have hadm1 : Adm (MLFQ_push s).ps (MLFQ_push s).t (MLFQ_push s).idx
      (MLFQ_members (MLFQ_push s)) := by
    have := MLFQ_push_adm s [] hb (by simpa using hadm)
    simpa using this
  obtain ⟨f1, f2, f3, f4, f5, f6, f7, f8⟩ := MLFQ_push_fields s
  cases hfirstne : MLFQ_firstNonEmpty (MLFQ_push s) with
  | none =>
    left
    refine ⟨rfl, ?_, ?_, ?_⟩
    · unfold MLFQ_taken
      rw [hfirstne]; rfl
    · unfold MLFQ_dispatchOf
      simp only [hfirstne]
    · unfold MLFQ_body
      simp only [hfirstne]
      split
      · exact f1
      · exact f1
  | some qi =>
    right
    obtain ⟨hqi, p, tl, hget⟩ := MLFQ_first_some _ qi hfirstne
    obtain ⟨hpermpop, hwpop⟩ := MLFQ_pop_queues (MLFQ_push s) qi p tl hqi hget
    obtain ⟨g1, g2, g3, g4, g5, g6⟩ := MLFQ_setq_fields (MLFQ_push s) qi tl
    have hadm2 : Adm s.ps s.t (MLFQ_push s).idx
        (p :: MLFQ_members (MLFQ_setq (MLFQ_push s) qi tl)) := by
      have := Adm_perm hadm1 hpermpop
      rwa [f1, f5] at this
    have hp := (hadm2.2.2.2.2 p).mp (List.mem_cons_self p _)
    have hpn : p < s.ps.length := lt_of_lt_of_le hp.1 hadm2.1
    have hpopped : MLFQ_popped s qi = MLFQ_setq (MLFQ_push s) qi tl := by
      unfold MLFQ_popped
      rw [hget]; rfl
    have htaken : MLFQ_taken s = some (qi, p) := by
      unfold MLFQ_taken
      rw [hfirstne, Option.map_some', hget]; rfl
    refine ⟨qi, p, tl, rfl, hqi, hget, hpn, htaken, hpopped, ?_⟩
    rw [hpopped]
    generalize hs2 : MLFQ_setq (MLFQ_push s) qi tl = s2 at *
    have s2ps : s2.ps = s.ps := g1.trans f1
    have s2t : s2.t = s.t := g2.trans f5
    have s2g : s2.gantt = s.gantt := g5.trans f7
    have hbody : MLFQ_body s =
        if qi > 0 ∧ s2.t - s2.last_enq.getD p 0 ≥ MLFQ_AGE then MLFQ_enq s2 p ((qi : Int) - 1)
        else
          (let r := MLFQ_runLoop p qi (MLFQ_quantum qi).toNat s2 0
           if (procAt r.1.ps p).remaining_time = 0 then
             { r.1 with gantt := if r.2 > 0 then r.1.gantt ++ [((procAt r.1.ps p).id, r.2)]
                                 else r.1.gantt,
                        comp := r.1.comp.set p r.1.t }
           else MLFQ_enq { r.1 with gantt := if r.2 > 0 then
                                       r.1.gantt ++ [((procAt r.1.ps p).id, r.2)]
                                     else r.1.gantt } p
             (if r.2 = MLFQ_quantum qi ∧ qi < 2 then (qi : Int) + 1 else (qi : Int))) := by
      unfold MLFQ_body
      simp only [hfirstne, hget, List.headD_cons, List.tail_cons, hs2]
    have hdisp : MLFQ_dispatchOf s =
        if qi > 0 ∧ s2.t - s2.last_enq.getD p 0 ≥ MLFQ_AGE then none else some (qi, p) := by
      unfold MLFQ_dispatchOf
      simp only [hfirstne, hget, List.headD_cons, List.tail_cons, hs2]
    rw [s2t, g6] at hbody hdisp
    by_cases hprom : qi > 0 ∧ s.t - (MLFQ_push s).last_enq.getD p 0 ≥ MLFQ_AGE
    · rw [if_pos hprom] at hbody hdisp
      exact Or.inl ⟨hprom.1, hprom.2, hdisp, hbody⟩
    · rw [if_neg hprom] at hbody hdisp
      refine Or.inr ⟨hprom, hdisp, ?_⟩
      have hb2 : ∀ i, i < s2.ps.length → 0 < (procAt s2.ps i).burst_time := by
        rw [s2ps]; exact hb
      have hadm3 : Adm s2.ps s2.t s2.idx ([p] ++ MLFQ_members s2) := by
        rw [s2ps, s2t, g3]; exact hadm2
      have hspec := MLFQ_runLoop_spec p qi (MLFQ_quantum qi).toNat s2 0 hb2 hadm3 (by simp)
      obtain ⟨u1, u2, u3, u4⟩ := MLFQ_runLoop_upper p qi (MLFQ_quantum qi).toNat s2 0
      have hq0 : (0 : Int) ≤ MLFQ_quantum qi := by
        have : qi = 0 ∨ qi = 1 ∨ qi = 2 := by omega
        rcases this with rfl | rfl | rfl <;> simp [MLFQ_quantum]
      rw [hbody]
      generalize MLFQ_runLoop p qi (MLFQ_quantum qi).toNat s2 0 = r at *
      obtain ⟨k, k1, k2, k3, k4, k5, k6, k6c, k6w, k7, k8⟩ := hspec
      have hk : 0 < k := k8 (by
        have : qi = 0 ∨ qi = 1 ∨ qi = 2 := by omega
        rcases this with rfl | rfl | rfl <;> simp [MLFQ_quantum])
      rw [s2ps] at k3 k4
      rw [s2g] at k6
      rw [s2t] at k5
      have k2b : r.2 = k := by rw [k2]; omega
      have hgantt : (if r.2 > 0 then r.1.gantt ++ [((procAt r.1.ps p).id, r.2)] else r.1.gantt)
          = s.gantt ++ [((procAt s.ps p).id, k)] := by
        rw [k2b, if_pos hk, k6, k3.2.2.2.1.1]
      refine ⟨r, k, rfl, k2b, hk, by rw [← k2b]; exact u4 hq0, k3, k5, ?_⟩
      simp only []
      rw [hgantt, k2b]

/-! ## MLFQ: demotion, promotion and preemption by level 0 -/

theorem MLFQ_getq_setq (s : MLFQState) (qi Y : Nat) (q : List Nat) (hqi : qi ≤ 2)
    (hY : Y ≤ 2) :
    MLFQ_getq (MLFQ_setq s qi q) Y = if Y = qi then q else MLFQ_getq s Y := by
  have hx : qi = 0 ∨ qi = 1 ∨ qi = 2 := by omega
  have hy : Y = 0 ∨ Y = 1 ∨ Y = 2 := by omega
  rcases hx with rfl | rfl | rfl <;> rcases hy with rfl | rfl | rfl <;> rfl

theorem MLFQ_setq_lists (s : MLFQState) (qi : Nat) (q : List Nat) :
    (MLFQ_setq s qi q).level = s.level ∧ (MLFQ_setq s qi q).last_enq = s.last_enq := by
  unfold MLFQ_setq
  split <;> exact ⟨rfl, rfl⟩

theorem MLFQ_first_pos (s : MLFQState) (qi : Nat) (h : MLFQ_firstNonEmpty s = some qi)
    (hpos : 0 < qi) : s.q0 = [] := by
  unfold MLFQ_firstNonEmpty at h
  by_cases h0 : s.q0.isEmpty = true
  · exact List.isEmpty_iff.mp h0
  · simp only [h0, Bool.not_false, if_true, Bool.false_eq_true, Option.some.injEq] at h
    omega

theorem MLFQ_requeued_of_enq (s : MLFQState) (p X : Nat) (hX : X ≤ 2)
    (h1 : p < s.level.length) (h2 : p < s.last_enq.length)
    (hn : (MLFQ_members (MLFQ_enq s p (X : Int))).Nodup) :
    MLFQ_requeuedAt (MLFQ_enq s p (X : Int)) p X := by
  obtain ⟨a1, a2, a3, a4⟩ := MLFQ_enq_at s p X hX
  refine ⟨by rw [a1, getD_set_eq _ _ _ h1], ?_, ⟨_, a3⟩, ?_⟩
  · rw [a2, getD_set_eq _ _ _ h2, (MLFQ_enq_fields s p (X : Int)).2.1]
  · exact MLFQ_only_queue _ hn p X hX (by rw [a3]; simp)

theorem MLFQ_demotion_step (ps0 : List Process) (s : MLFQState) (h : MLFQInv ps0 s)
    (hc : anyLeft s.ps = true) (hl : MLFQ_lens s.ps.length s) :
    MLFQ_demotionOf s (MLFQ_body s) := by
  have hstep := (MLFQ_step ps0 s h hc).1.1
  have hnd : (MLFQ_members (MLFQ_body s)).Nodup := hstep.adm.2.2.2.1
  intro L p0 hd
  rcases MLFQ_iter ps0 s h with ⟨_, _, hnone, _⟩ |
    ⟨qi, p, tl, hf, hqi, hget, hpn, htk, hpop, hcase⟩
  · rw [hnone] at hd; cases hd
  · rcases hcase with ⟨_, _, hnone, _⟩ | ⟨hnp, hdisp, r, k, hr, hk2, hk, hkq, hruns, ht, hbody⟩
    · rw [hnone] at hd; cases hd
    · rw [hdisp] at hd
      simp only [Option.some.injEq, Prod.mk.injEq] at hd
      obtain ⟨rfl, rfl⟩ := hd
      have hlr : MLFQ_lens s.ps.length r.1 := by
        rw [hr]
        exact MLFQ_lens_runLoop _ _ _ _ _ _
          (MLFQ_lens_setq _ _ _ _ (MLFQ_lens_push _ _ hl))
      have hps : (MLFQ_body s).ps = r.1.ps := by
        rw [hbody]
        split
        · rfl
        · exact (MLFQ_enq_fields _ _ _).1
      have hrem : (procAt (MLFQ_body s).ps p).remaining_time
          = (procAt s.ps p).remaining_time - k := by
        rw [hps]; exact hruns.2.2.2.2
      rw [hrem]
      refine ⟨hqi, by omega, by omega, fun hpos => ?_⟩
      have hne : ¬ (procAt r.1.ps p).remaining_time = 0 := by
        rw [hruns.2.2.2.2]; omega
      rw [if_neg hne] at hbody
      rw [hbody] at hnd ⊢
      have hX : qi = 0 ∨ qi = 1 ∨ qi = 2 := by omega
      refine ⟨fun hfull => ?_, fun hless => ?_⟩
      · have hk3 : k = MLFQ_quantum qi := by omega
        have hlv : (if k = MLFQ_quantum qi ∧ qi < 2 then (qi : Int) + 1 else (qi : Int))
            = ((min (qi + 1) 2 : Nat) : Int) := by
          rcases hX with rfl | rfl | rfl <;> simp [hk3]
        rw [hlv] at hnd ⊢
        exact MLFQ_requeued_of_enq _ p _ (by omega) (by rw [hlr.1]; exact hpn)
          (by rw [hlr.2.1]; exact hpn) hnd
      · have hk3 : ¬ (k = MLFQ_quantum qi ∧ qi < 2) := by omega
        rw [if_neg hk3] at hnd ⊢
        exact MLFQ_requeued_of_enq _ p _ hqi (by rw [hlr.1]; exact hpn)
          (by rw [hlr.2.1]; exact hpn) hnd

theorem MLFQ_promotion_step (ps0 : List Process) (s : MLFQState) (h : MLFQInv ps0 s)
    (hl : MLFQ_lens s.ps.length s) :
    MLFQ_promotionOf s (MLFQ_body s) ∧ MLFQ_runsFresh s (MLFQ_body s) := by
  obtain ⟨f1, f2, f3, f4, f5, f6, f7, f8⟩ := MLFQ_push_fields s
  refine ⟨?_, ?_⟩
  · intro L p0 htaken hL hage
    rcases MLFQ_iter ps0 s h with ⟨_, hnone, _, _⟩ |
      ⟨qi, p, tl, hf, hqi, hget, hpn, htk, hpop, hcase⟩
    · rw [hnone] at htaken; cases htaken
    · rw [htk] at htaken
      simp only [Option.some.injEq, Prod.mk.injEq] at htaken
      obtain ⟨rfl, rfl⟩ := htaken
      rcases hcase with ⟨_, _, _, hbody⟩ | ⟨hnp, _⟩
      · obtain ⟨g1, g2, g3, g4, g5, g6⟩ := MLFQ_setq_fields (MLFQ_push s) qi tl
        have hlv : (qi : Int) - 1 = ((qi - 1 : Nat) : Int) := by omega
        rw [hlv] at hbody
        obtain ⟨e1, e2, e3, e4, e5⟩ := MLFQ_enq_fields (MLFQ_popped s qi) p ((qi - 1 : Nat) : Int)
        obtain ⟨a1, a2, a3, a4⟩ := MLFQ_enq_at (MLFQ_popped s qi) p (qi - 1) (by omega)
        have hlp : MLFQ_lens s.ps.length (MLFQ_popped s qi) := by
          rw [hpop]
          exact MLFQ_lens_setq _ _ _ _ (MLFQ_lens_push _ _ hl)
        rw [hbody]
        refine ⟨?_, ?_, ?_, ?_, ?_, ?_, ?_⟩
        · rw [e2, hpop, g2, f5]
        · rw [e1, hpop, g1, f1]
        · rw [e5, hpop, g5, f7]
        · rw [a4 qi hqi (by omega), hpop, MLFQ_getq_setq _ _ _ _ hqi hqi, if_pos rfl, hget]
          rfl
        · rw [a3, hpop, MLFQ_getq_setq _ _ _ _ hqi (by omega), if_neg (by omega)]
        · rw [a1, getD_set_eq _ _ _ (by rw [hlp.1]; exact hpn)]
        · rw [a2, getD_set_eq _ _ _ (by rw [hlp.2.1]; exact hpn), e2]
      · exact absurd ⟨hL, hage⟩ hnp
  · intro i hlt
    rcases MLFQ_iter ps0 s h with ⟨_, _, _, hps⟩ |
      ⟨qi, p, tl, hf, hqi, hget, hpn, htk, hpop, hcase⟩
    · rw [hps] at hlt; exact absurd hlt (lt_irrefl _)
    · rcases hcase with ⟨_, _, _, hbody⟩ | ⟨hnp, hdisp, r, k, hr, hk2, hk, hkq, hruns, ht, hbody⟩
      · obtain ⟨g1, g2, g3, g4, g5, g6⟩ := MLFQ_setq_fields (MLFQ_push s) qi tl
        rw [hbody, (MLFQ_enq_fields _ _ _).1, hpop, g1, f1] at hlt
        exact absurd hlt (lt_irrefl _)
      · have hps : (MLFQ_body s).ps = r.1.ps := by
          rw [hbody]
          split
          · rfl
          · exact (MLFQ_enq_fields _ _ _).1
        rw [hps] at hlt
        have hip : i = p := by
          by_contra hne
          rw [hruns.2.2.1 i hne] at hlt
          exact lt_irrefl _ hlt
        subst hip
        refine ⟨qi, htk, hdisp, fun hpos => ?_⟩
        by_contra hcon
        exact hnp ⟨hpos, by omega⟩

theorem MLFQ_unit_state (s : MLFQState) (p : Nat) (hidx : s.idx ≤ s.ps.length)
    (hp : p < s.ps.length) (u : MLFQState)
    (hu : u = MLFQ_push (MLFQState.mk (modifyAt s.ps p (decRemaining 1)) s.q0 s.q1 s.q2
      (s.t + 1) s.idx s.last_enq s.level s.comp s.gantt)) :
    u.t = s.t + 1 ∧
      (procAt u.ps p).remaining_time = (procAt s.ps p).remaining_time - 1 ∧
      u.ps.length = s.ps.length ∧ u.idx ≤ u.ps.length ∧
      newArrivals u.ps u.t u.idx = [] ∧
      (s.q0 = [] → u.q0 = newArrivals u.ps u.t s.idx) := by
  obtain ⟨f1, f2, f3, f4, f5, f6, f7, f8⟩ := MLFQ_push_fields
    (MLFQState.mk (modifyAt s.ps p (decRemaining 1)) s.q0 s.q1 s.q2
      (s.t + 1) s.idx s.last_enq s.level s.comp s.gantt)
  simp only at f1 f2 f3 f4 f5 f6 f7 f8
  rw [← hu] at f1 f2 f3 f4 f5 f6 f7 f8
  have hlen : (modifyAt s.ps p (decRemaining 1)).length = s.ps.length := length_modifyAt _ _ _
  have hspec := newArrivals_spec (modifyAt s.ps p (decRemaining 1)) (s.t + 1) s.idx
    (by rw [hlen]; exact hidx)
  refine ⟨f5, ?_, by rw [f1, hlen], ?_, ?_, ?_⟩
  · rw [f1, procAt_modifyAt_eq _ _ _ hp]; rfl
  · rw [f1, f8]; exact hspec.2.1
  · rw [f1, f5, f8]
    exact newArrivals_again _ _ _ (by rw [hlen]; exact hidx)
  · intro h0
    rw [f2, h0, f1, f5]; rfl

theorem MLFQ_trace (p qi : Nat) (hqi : 0 < qi) : ∀ (fuel : Nat) (s : MLFQState) (ran : Int),
    s.q0 = [] → newArrivals s.ps s.t s.idx = [] → s.idx ≤ s.ps.length → p < s.ps.length →
    fuel = (MLFQ_quantum qi - ran).toNat →
    ((MLFQ_unitStarts p qi fuel s ran).length : Int) = (MLFQ_runLoop p qi fuel s ran).2 - ran ∧
      (∀ (j : Nat) (x : MLFQState), (MLFQ_unitStarts p qi fuel s ran)[j]? = some x →
        x.t = s.t + (j : Int) ∧
        (procAt x.ps p).remaining_time = (procAt s.ps p).remaining_time - (j : Int) ∧
        x.q0 = [] ∧ newArrivals x.ps x.t x.idx = []) ∧
      ((MLFQ_runLoop p qi fuel s ran).2 < MLFQ_quantum qi →
        0 < (procAt (MLFQ_runLoop p qi fuel s ran).1.ps p).remaining_time →
        (MLFQ_runLoop p qi fuel s ran).1.q0 ≠ []) := by
  intro fuel
  induction fuel with
  | zero =>
    intro s ran h0 hnew hidx hp hfuel
    refine ⟨by simp [MLFQ_unitStarts, MLFQ_runLoop], fun j x hx => ?_, fun hlt _ => ?_⟩
    · simp [MLFQ_unitStarts] at hx
    · exfalso
      have : (MLFQ_runLoop p qi 0 s ran).2 = ran := rfl
      rw [this] at hlt
      omega
  | succ fuel ih =>
    intro s ran h0 hnew hidx hp hfuel
    by_cases hcond : ran < MLFQ_quantum qi ∧ (procAt s.ps p).remaining_time > 0
    · generalize hu : MLFQ_push (MLFQState.mk (modifyAt s.ps p (decRemaining 1)) s.q0 s.q1 s.q2
        (s.t + 1) s.idx s.last_enq s.level s.comp s.gantt) = u
      obtain ⟨u1, u2, u3, u4, u5, u6⟩ := MLFQ_unit_state s p hidx hp u hu.symm
      have hU : MLFQ_unitStarts p qi (fuel + 1) s ran
          = if qi > 0 ∧ (!u.q0.isEmpty) = true then [s]
            else s :: MLFQ_unitStarts p qi fuel u (ran + 1) := by
        rw [MLFQ_unitStarts, if_pos hcond]
        simp only []
        rw [hu]
      have hR : MLFQ_runLoop p qi (fuel + 1) s ran
          = if qi > 0 ∧ (!u.q0.isEmpty) = true then (u, ran + 1)
            else MLFQ_runLoop p qi fuel u (ran + 1) := by
        rw [MLFQ_runLoop, if_pos hcond]
        simp only []
        rw [hu]
      by_cases hbrk : qi > 0 ∧ (!u.q0.isEmpty) = true
      · rw [hU, hR, if_pos hbrk, if_pos hbrk]
        refine ⟨by simp, fun j x hx => ?_, fun _ _ => ?_⟩
        · cases j with
          | zero =>
            simp only [List.getElem?_cons_zero, Option.some.injEq] at hx
            subst hx
            exact ⟨by simp, by simp, h0, hnew⟩
          | succ j => simp at hx
        · intro hcon
          have := hbrk.2
          rw [show (u, ran + 1).1 = u from rfl] at hcon
          simp [hcon] at this
      · rw [hU, hR, if_neg hbrk, if_neg hbrk]
        have hu0 : u.q0 = [] := by
          by_contra hne
          apply hbrk
          refine ⟨hqi, ?_⟩
          simp [List.isEmpty_iff, hne]
        obtain ⟨i1, i2, i3⟩ := ih u (ran + 1) hu0 u5 u4 (by rw [u3]; exact hp) (by omega)
        refine ⟨?_, fun j x hx => ?_, i3⟩
        · rw [List.length_cons]
          push_cast
          rw [i1]
          ring
        · cases j with
          | zero =>
            simp only [List.getElem?_cons_zero, Option.some.injEq] at hx
            subst hx
            exact ⟨by simp, by simp, h0, hnew⟩
          | succ j =>
            rw [List.getElem?_cons_succ] at hx
            obtain ⟨j1, j2, j3, j4⟩ := i2 j x hx
            refine ⟨?_, ?_, j3, j4⟩
            · rw [j1, u1]; push_cast; ring
            · rw [j2, u2]; push_cast; ring
    · have hU : MLFQ_unitStarts p qi (fuel + 1) s ran = [] := by
        rw [MLFQ_unitStarts, if_neg hcond]
      have hR : MLFQ_runLoop p qi (fuel + 1) s ran = (s, ran) := by
        rw [MLFQ_runLoop, if_neg hcond]
      rw [hU, hR]
      refine ⟨by simp, fun j x hx => by simp at hx, fun hlt hpos => ?_⟩
      exact absurd ⟨hlt, hpos⟩ hcond

theorem MLFQ_preempt_step (ps0 : List Process) (s : MLFQState) (h : MLFQInv ps0 s) :
    MLFQ_level0Preempts s (MLFQ_body s) := by
  obtain ⟨f1, f2, f3, f4, f5, f6, f7, f8⟩ := MLFQ_push_fields s
  intro L p0 hd hL
  rcases MLFQ_iter ps0 s h with ⟨_, _, hnone, _⟩ |
    ⟨qi, p, tl, hf, hqi, hget, hpn, htk, hpop, hcase⟩
  · rw [hnone] at hd; cases hd
  · rcases hcase with ⟨_, _, hnone, _⟩ | ⟨hnp, hdisp, r, k, hr, hk2, hk, hkq, hruns, ht, hbody⟩
    · rw [hnone] at hd; cases hd
    · rw [hdisp] at hd
      simp only [Option.some.injEq, Prod.mk.injEq] at hd
      obtain ⟨rfl, rfl⟩ := hd
      obtain ⟨g1, g2, g3, g4, g5, g6⟩ := MLFQ_setq_fields (MLFQ_push s) qi tl
      have hq0 : (MLFQ_popped s qi).q0 = [] := by
        have h1 := MLFQ_getq_setq (MLFQ_push s) qi 0 tl hqi (by omega)
        rw [if_neg (by omega)] at h1
        rw [hpop]
        exact h1.trans (MLFQ_first_pos _ qi hf hL)
      have hps2 : (MLFQ_popped s qi).ps = s.ps := by rw [hpop, g1, f1]
      have ht2 : (MLFQ_popped s qi).t = s.t := by rw [hpop, g2, f5]
      have hidx2 : (MLFQ_popped s qi).idx = s.idx + (newArrivals s.ps s.t s.idx).length := by
        rw [hpop, g3, f8]
      have hnew : newArrivals (MLFQ_popped s qi).ps (MLFQ_popped s qi).t (MLFQ_popped s qi).idx
          = [] := by
        rw [hps2, ht2, hidx2]
        exact newArrivals_again _ _ _ h.adm.1
      have hidxle : (MLFQ_popped s qi).idx ≤ (MLFQ_popped s qi).ps.length := by
        rw [hps2, hidx2]
        exact (newArrivals_spec s.ps s.t s.idx h.adm.1).2.1
      have hq : (0 : Int) ≤ MLFQ_quantum qi := by
        have : qi = 0 ∨ qi = 1 ∨ qi = 2 := by omega
        rcases this with rfl | rfl | rfl <;> simp [MLFQ_quantum]
      obtain ⟨t1, t2, t3⟩ := MLFQ_trace p qi hL (MLFQ_quantum qi).toNat (MLFQ_popped s qi) 0 hq0
        hnew hidxle (by rw [hps2]; exact hpn) (by simp)
      rw [← hr] at t1 t3
      have hps : (MLFQ_body s).ps = r.1.ps := by
        rw [hbody]
        split
        · rfl
        · exact (MLFQ_enq_fields _ _ _).1
      have hrem : (procAt (MLFQ_body s).ps p).remaining_time
          = (procAt s.ps p).remaining_time - k := by
        rw [hps]; exact hruns.2.2.2.2
      rw [hrem]
      refine ⟨by rw [t1, hk2]; ring, fun j x hx => ?_, fun hless hpos => ?_⟩
      · obtain ⟨j1, j2, j3, j4⟩ := t2 j x hx
        rw [ht2] at j1
        rw [hps2] at j2
        exact ⟨j1, j2, j3, j4⟩
      · have hne : ¬ (procAt r.1.ps p).remaining_time = 0 := by
          rw [hruns.2.2.2.2]; omega
        have hk3 : ¬ (k = MLFQ_quantum qi ∧ qi < 2) := by omega
        rw [if_neg hne, if_neg hk3] at hbody
        have hr0 := t3 (by rw [hk2]; omega) (by rw [hruns.2.2.2.2]; exact hpos)
        obtain ⟨a1, a2, a3, a4⟩ := MLFQ_enq_at
          (MLFQState.mk r.1.ps r.1.q0 r.1.q1 r.1.q2 r.1.t r.1.idx r.1.last_enq r.1.level
            r.1.comp (s.gantt ++ [((procAt s.ps p).id, k)])) p qi hqi
        have := a4 0 (by omega) (by omega)
        rw [hbody]
        intro hcon
        apply hr0
        exact this.symm.trans hcon

/-! ## Work conservation: the makespan does not depend on the policy -/

theorem busy_congr (a a2 r r2 : Nat → Int) : ∀ (l : List Nat) (t : Int),
    (∀ i, i ∈ l → a2 i = a i ∧ r2 i = r i) → busyOver a2 r2 t l = busyOver a r t l := by
  intro l
  induction l with
  | nil => intro t _; rfl
  | cons j rest ih =>
    intro t h
    obtain ⟨h1, h2⟩ := h j (List.mem_cons_self j rest)
    simp only [busyOver, h1, h2]
    exact ih _ (fun i hi => h i (List.mem_cons_of_mem j hi))

theorem busy_done (a r : Nat → Int) : ∀ (l : List Nat) (t : Int),
    (∀ i, i ∈ l → r i ≤ 0) → busyOver a r t l = t := by
  intro l
  induction l with
  | nil => intro t _; rfl
  | cons j rest ih =>
    intro t h
    have hj := h j (List.mem_cons_self j rest)
    simp only [busyOver, if_neg (not_lt.mpr hj)]
    exact ih t (fun i hi => h i (List.mem_cons_of_mem j hi))

theorem busy_idle (a r : Nat → Int) (u : Int) : ∀ (l : List Nat) (t : Int),
    (∃ i, i ∈ l ∧ 0 < r i) → (∀ i, i ∈ l → 0 < r i → u ≤ a i) → t ≤ u →
    busyOver a r t l = busyOver a r u l := by
  intro l
  induction l with
  | nil => intro t ⟨i, hi, _⟩; cases hi
  | cons j rest ih =>
    intro t hex hall htu
    by_cases hj : 0 < r j
    · have := hall j (List.mem_cons_self j rest) hj
      simp only [busyOver, if_pos hj]
      rw [max_eq_right (by omega : t ≤ a j), max_eq_right this]
    · simp only [busyOver, if_neg hj]
      refine ih t ?_ (fun i hi => hall i (List.mem_cons_of_mem j hi)) htu
      obtain ⟨i, hi, hpos⟩ := hex
      rcases List.mem_cons.mp hi with h1 | h1
      · subst h1; exact absurd hpos hj
      · exact ⟨i, h1, hpos⟩

theorem busy_run (a r r2 : Nat → Int) (i : Nat) (k : Int) (hk : 0 < k) (hkr : k ≤ r i)
    (hi2 : r2 i = r i - k) : ∀ (l : List Nat) (t : Int),
    l.Nodup → l.Pairwise (fun x y => a x ≤ a y) → i ∈ l → a i ≤ t →
    (∀ j, j ∈ l → j ≠ i → r2 j = r j) →
    busyOver a r2 (t + k) l = busyOver a r t l := by
  intro l
  induction l with
  | nil => intro t _ _ hi; cases hi
  | cons j rest ih =>
    intro t hnd hpw hi hat hoth
    obtain ⟨hjn, hnd2⟩ := List.nodup_cons.mp hnd
    obtain ⟨hj1, hpw2⟩ := List.pairwise_cons.mp hpw
    by_cases hji : j = i
    · subst hji
      have hrest : ∀ x, x ∈ rest → a x = a x ∧ r2 x = r x := by
        intro x hx
        refine ⟨rfl, hoth x (List.mem_cons_of_mem j hx) ?_⟩
        intro hcon
        subst hcon
        exact hjn hx
      have hpos : 0 < r j := by omega
      simp only [busyOver, if_pos hpos, hi2]
      rw [max_eq_left hat]
      by_cases h0 : 0 < r j - k
      · rw [if_pos h0, max_eq_left (by omega : a j ≤ t + k)]
        rw [busy_congr a a r r2 rest _ hrest]
        congr 1
        ring
      · rw [if_neg h0]
        rw [busy_congr a a r r2 rest _ hrest]
        congr 1
        omega
    · have hir : i ∈ rest := by
        rcases List.mem_cons.mp hi with h1 | h1
        · exact absurd h1.symm hji
        · exact h1
      have haj : a j ≤ t := le_trans (hj1 i hir) hat
      have hoth2 : ∀ x, x ∈ rest → x ≠ i → r2 x = r x :=
        fun x hx hne => hoth x (List.mem_cons_of_mem j hx) hne
      have hrj := hoth j (List.mem_cons_self j rest) hji
      by_cases hpos : 0 < r j
      · simp only [busyOver, hrj, if_pos hpos]
        rw [max_eq_left haj, max_eq_left (by omega : a j ≤ t + k)]
        have := ih (t + r j) hnd2 hpw2 hir (by omega) hoth2
        rw [← this]
        congr 1
        ring
      · simp only [busyOver, hrj, if_neg hpos]
        exact ih t hnd2 hpw2 hir hat hoth2

theorem busy_map (a r : Nat → Int) (f : Nat → Nat) : ∀ (l : List Nat) (t : Int),
    busyOver a r t (l.map f) = busyOver (fun i => a (f i)) (fun i => r (f i)) t l := by
  intro l
  induction l with
  | nil => intro t; rfl
  | cons j rest ih =>
    intro t
    simp only [List.map_cons, busyOver]
    exact ih _

theorem FCFS_loop_total : ∀ (qs : List Process) (t : Int) (g : Gantt),
    (∀ p, p ∈ qs → 0 < p.burst_time) →
    (FCFS_loop qs t g).2.2
      = busyOver (fun i => (procAt qs i).arrival_time) (fun i => (procAt qs i).burst_time) t
          (List.range qs.length) := by
  intro qs
  induction qs with
  | nil => intro t g _; rfl
  | cons p rest ih =>
    intro t g hb
    have hp := hb p (List.mem_cons_self p rest)
    rw [List.length_cons, List.range_succ_eq_map]
    simp only [FCFS_loop, busyOver]
    rw [busy_map, ih _ _ (fun q hq => hb q (List.mem_cons_of_mem p hq))]
    have h0 : (procAt (p :: rest) 0) = p := rfl
    have hs : ∀ i, procAt (p :: rest) (i + 1) = procAt rest i := fun i => rfl
    simp only [h0, hs, if_pos hp]
    congr 1
    by_cases hlt : t < p.arrival_time
    · rw [if_pos hlt, max_eq_right (le_of_lt hlt)]
    · rw [if_neg hlt, max_eq_left (not_lt.mp hlt)]

theorem FCFS_total_workEnd (ps : List Process) (hrun : Runnable ps) :
    (FCFSScheduler_schedule ps).total_time = workEnd ps := by
  have hs : sortByArrival (initRemaining ps) = initRemaining ps :=
    sortByArrival_sorted _ (sorted_initRemaining ps hrun.1)
  show (FCFS_loop (sortByArrival (initRemaining ps)) 0 []).2.2 = _
  rw [hs, FCFS_loop_total]
  · unfold workEnd
    rw [length_initRemaining]
    apply busy_congr
    intro i hi
    have hi2 := List.mem_range.mp hi
    exact ⟨(procAt_initRemaining ps i hi2).1.2.1, (procAt_initRemaining ps i hi2).1.2.2⟩
  · intro p hp
    obtain ⟨i, hi, rfl⟩ := exists_procAt_of_mem _ p hp
    rw [length_initRemaining] at hi
    rw [(procAt_initRemaining ps i hi).1.2.2]
    exact hrun.2 _ (procAt_mem ps i hi)

theorem range_sorted_arrival (ps : List Process) (hs : SortedIdx ps) :
    (List.range ps.length).Pairwise
      (fun x y => (procAt ps x).arrival_time ≤ (procAt ps y).arrival_time) := by
  have h := List.pairwise_lt_range ps.length
  refine List.Pairwise.imp_of_mem ?_ h
  intro x y _ hy hlt
  exact hs x y (le_of_lt hlt) (List.mem_range.mp hy)

theorem busy_clock {ps qs : List Process} {t u : Int} (hc : ClockStep ps qs t u)
    (hk : Kept ps qs) (hs : SortedIdx ps) :
    busyOver (fun i => (procAt qs i).arrival_time) (fun i => (procAt qs i).remaining_time) u
        (List.range ps.length)
      = busyOver (fun i => (procAt ps i).arrival_time) (fun i => (procAt ps i).remaining_time) t
        (List.range ps.length) := by
  have harr : ∀ i, (procAt qs i).arrival_time = (procAt ps i).arrival_time :=
    fun i => (hk.2 i).2.1
  rcases hc with ⟨hrem, hcase⟩ | ⟨i, k, hi, hat, hk0, hkr, hu, hri, hoth⟩
  · rw [busy_congr _ _ _ _ (List.range ps.length) u (fun i _ => ⟨harr i, hrem i⟩)]
    rcases hcase with h1 | ⟨h1, ⟨j, hj, hjr, hja⟩, h3⟩
    · rw [h1]
    · symm
      exact busy_idle _ _ u _ t ⟨j, List.mem_range.mpr hj, hjr⟩
        (fun i hi hpos => h3 i (List.mem_range.mp hi) hpos) (le_of_lt h1)
  · rw [hu]
    rw [busy_congr (fun i => (procAt ps i).arrival_time) (fun i => (procAt qs i).arrival_time)
      (fun i => (procAt qs i).remaining_time) (fun i => (procAt qs i).remaining_time)
      (List.range ps.length) (t + k) (fun i _ => ⟨harr i, rfl⟩)]
    exact busy_run _ _ _ i k hk0 hkr hri _ t (List.nodup_range _) (range_sorted_arrival ps hs)
      (List.mem_range.mpr hi) hat (fun j _ hne => hoth j hne)

theorem sortedIdx_of_kept {ps qs : List Process} (hs : SortedByArrival ps) (hk : Kept ps qs) :
    SortedIdx qs :=
  sortedIdx_of_sorted ps qs hs hk.1 (fun j _ => ⟨(hk.2 j).1, (hk.2 j).2.1, (hk.2 j).2.2.1⟩)

theorem workEnd_of_run {σ : Type} {cond : σ → Bool} {body : σ → σ} {Inv : σ → Prop}
    {R : σ → σ → Prop} {s0 : σ} {n K : Nat} (hrun : LoopRun cond body Inv R s0 n K)
    (ps : List Process) (hsorted : SortedByArrival ps) (psOf : σ → List Process)
    (tOf : σ → Int) (h0 : psOf s0 = initRemaining ps) (ht0 : tOf s0 = 0)
    (hstep : ∀ s, Inv s → cond s = true → SortedIdx (psOf s) →
      Kept (psOf s) (psOf (body s)) ∧
        ClockStep (psOf s) (psOf (body s)) (tOf s) (tOf (body s)))
    (hdone : ∀ i, i < ps.length → (procAt (psOf (Nat.iterate body K s0)) i).remaining_time = 0) :
    tOf (Nat.iterate body K s0) = workEnd ps := by
  have hE := extra_inv hrun
    (fun s => Kept ps (psOf s) ∧
      busyOver (fun i => (procAt (psOf s) i).arrival_time)
        (fun i => (procAt (psOf s) i).remaining_time) (tOf s) (List.range ps.length)
        = workEnd ps) ?_ ?_ K (le_refl _)
  · obtain ⟨_, hb⟩ := hE
    rw [← hb]
    symm
    apply busy_done
    intro i hi
    rw [hdone i (List.mem_range.mp hi)]
  · refine ⟨by rw [h0]; exact Kept_init ps, ?_⟩
    rw [h0, ht0]
    unfold workEnd
    apply busy_congr
    intro i hi
    have hi2 := List.mem_range.mp hi
    exact ⟨(procAt_initRemaining ps i hi2).1.2.1, (procAt_initRemaining ps i hi2).2.1⟩
  · intro s hI hc ⟨hk, hb⟩
    have hs := sortedIdx_of_kept hsorted hk
    obtain ⟨hk2, hcl⟩ := hstep s hI hc hs
    refine ⟨Kept_trans hk hk2, ?_⟩
    have := busy_clock hcl hk2 hs
    rw [hk.1] at this
    rw [this]
    exact hb

theorem SRTF_total (ps : List Process) (hrun : Runnable ps) (hint : IntArrivals ps) :
    ∃ r, (∀ fuel, fuelBound ps ≤ fuel → SRTFScheduler_schedule fuel ps = some r) ∧
      r.total_time = workEnd ps := by
  obtain ⟨K, hr⟩ := SRTF_run ps hrun hint
  have ht := workEnd_of_run hr ps hrun.1 (fun s => s.ps) (fun s => s.t) rfl rfl
    (fun s hI hc _ => ⟨(SRTF_body_kept s).1, SRTF_clock ps s hI hc⟩)
    (fun i hi => by
      have hIK := hr.2.2.2.1 K (le_refl _)
      exact done_of_exit hIK.acct hr.2.2.1 i (by rw [hIK.frame.1]; exact hi))
  refine ⟨{ ps := finishWithComp (Nat.iterate SRTF_body K (SRTF_init ps)).ps
                (Nat.iterate SRTF_body K (SRTF_init ps)).comp,
            gantt := finalizeBlock (Nat.iterate SRTF_body K (SRTF_init ps)).last
                (Nat.iterate SRTF_body K (SRTF_init ps)).start
                (Nat.iterate SRTF_body K (SRTF_init ps)).t
                (Nat.iterate SRTF_body K (SRTF_init ps)).gantt,
            total_time := (Nat.iterate SRTF_body K (SRTF_init ps)).t }, fun fuel hf => ?_, ht⟩
  unfold SRTFScheduler_schedule
  rw [hr.2.2.2.2.2 fuel hf]
  rfl

theorem RR_done_exit (ps0 : List Process) (s : RRState) (hK : RRInv ps0 s)
    (r3 : RR_cond s = false) (i : Nat) (hi : i < s.ps.length) :
    (procAt s.ps i).remaining_time = 0 := by
  unfold RR_cond at r3
  simp only [Bool.or_eq_false_iff, Bool.not_eq_false', List.isEmpty_iff,
    decide_eq_false_iff_not, not_lt] at r3
  have hadm := hK.adm
  rw [r3.1] at hadm
  have hnot : ¬ (i < s.idx ∧ 0 < (procAt s.ps i).remaining_time) := by
    intro hcon
    have := (hadm.2.2.2.2 i).mpr hcon
    simp at this
  have hnn := (hK.acct.2 i hi).2.1
  have hidx := hadm.1
  by_contra hne
  exact hnot ⟨by omega, by omega⟩

theorem RR_total (quantum : Int) (hq : 1 ≤ quantum) (ps : List Process) (hrun : Runnable ps) :
    ∃ r, (∀ fuel, fuelBound ps ≤ fuel →
        RoundRobinScheduler_schedule quantum fuel ps = some r) ∧
      r.total_time = workEnd ps := by
  obtain ⟨K, hr⟩ := RR_run quantum hq ps hrun
  have ht := workEnd_of_run hr ps hrun.1 (fun s => s.ps) (fun s => s.t) rfl rfl
    (fun s hI hc hs => ⟨RR_body_kept quantum s, RR_clock quantum hq ps s hI hc hs⟩)
    (fun i hi => by
      have hIK := hr.2.2.2.1 K (le_refl _)
      exact RR_done_exit ps _ hIK hr.2.2.1 i (by rw [hIK.frame.1]; exact hi))
  refine ⟨{ ps := (Nat.iterate (RR_body quantum) K (RR_init ps)).ps,
            gantt := finalizeBlock (Nat.iterate (RR_body quantum) K (RR_init ps)).last
                (Nat.iterate (RR_body quantum) K (RR_init ps)).last_start
                (Nat.iterate (RR_body quantum) K (RR_init ps)).t
                (Nat.iterate (RR_body quantum) K (RR_init ps)).gantt,
            total_time := (Nat.iterate (RR_body quantum) K (RR_init ps)).t },
    fun fuel hf => ?_, ht⟩
  unfold RoundRobinScheduler_schedule
  rw [hr.2.2.2.2.2 fuel hf]
  rfl

/-! ## The order of the identifiers and the index vector `ord` -/

theorem strLt_iff (a b : String) : strLt a b = true ↔ a < b := by
  unfold strLt
  rw [decide_eq_true_iff, String.lt_iff_toList_lt]
  rfl

theorem ordBefore_iff (ps : List Process) (x y : Nat) :
    ordBefore ps x y = true ↔
      toLex ((procAt ps x).arrival_time, (procAt ps x).id)
        < toLex ((procAt ps y).arrival_time, (procAt ps y).id) := by
  unfold ordBefore
  rw [Prod.Lex.lt_iff]
  by_cases heq : (procAt ps x).arrival_time = (procAt ps y).arrival_time
  · simp only [heq, ne_eq, not_true_eq_false, if_false, lt_self_iff_false, false_or, true_and]
    exact strLt_iff _ _
  · simp only [ne_eq, heq, not_false_eq_true, if_true, decide_eq_true_eq, false_and, or_false]

theorem ordBefore_false_iff (ps : List Process) (x y : Nat) :
    ordBefore ps y x = false ↔
      toLex ((procAt ps x).arrival_time, (procAt ps x).id)
        ≤ toLex ((procAt ps y).arrival_time, (procAt ps y).id) := by
  rw [← not_lt, ← ordBefore_iff]
  simp

theorem sortedOrder_sorted (ps : List Process) :
    (sortedOrder ps).Pairwise (fun x y =>
      toLex ((procAt ps x).arrival_time, (procAt ps x).id)
        ≤ toLex ((procAt ps y).arrival_time, (procAt ps y).id)) := by
  have htot : IsTotal Nat (fun a b => ordBefore ps b a = false) :=
    ⟨fun a b => by
      simp only [ordBefore_false_iff]
      exact le_total _ _⟩
  have htr : IsTrans Nat (fun a b => ordBefore ps b a = false) :=
    ⟨fun a b c => by
      simp only [ordBefore_false_iff]
      exact le_trans⟩
  have h := List.sorted_insertionSort (fun a b => ordBefore ps b a = false)
    (List.range ps.length)
  unfold sortedOrder
  refine List.Pairwise.imp ?_ h
  intro a b hab
  exact (ordBefore_false_iff ps a b).mp hab

theorem sortedOrder_arrival (ps : List Process) :
    (sortedOrder ps).Pairwise (fun x y =>
      (procAt ps x).arrival_time ≤ (procAt ps y).arrival_time) := by
  refine List.Pairwise.imp ?_ (sortedOrder_sorted ps)
  intro a b hab
  rcases (Prod.Lex.le_iff _ _).mp hab with h | h
  · exact le_of_lt h
  · exact le_of_eq h.1

/-! ## SJF is work-conserving -/

theorem getD_not_mem_take (l : List Nat) (n : Nat) (hnd : l.Nodup) (hn : n < l.length) :
    l.getD n 0 ∉ l.take n ∧ l.drop n = l.getD n 0 :: l.drop (n + 1) := by
  have hd : l.drop n = l.getD n 0 :: l.drop (n + 1) := by
    rw [List.getD_eq_getElem l 0 hn]
    exact List.drop_eq_getElem_cons hn
  refine ⟨?_, hd⟩
  have h := hnd
  rw [← List.take_append_drop n l, hd] at h
  intro hmem
  exact (List.nodup_append.mp h).2.2 hmem (List.mem_cons_self _ _)

theorem NP_pre_clock (ps0 : List Process) (ord : List Nat) (s : NPState) (h : NPInv ps0 ord s)
    (hc : NP_cond ord s = true)
    (hsorted : ord.Pairwise
      (fun x y => (procAt s.ps x).arrival_time ≤ (procAt s.ps y).arrival_time))
    (s2 : NPState)
    (hs2 : s2 = if (NP_push ord s).rq.isEmpty then
        NP_push ord { NP_push ord s with
          gantt := (NP_push ord s).gantt ++ [("IDLE",
            (procAt (NP_push ord s).ps (ord.getD (NP_push ord s).next 0)).arrival_time
              - (NP_push ord s).t)],
          t := (procAt (NP_push ord s).ps (ord.getD (NP_push ord s).next 0)).arrival_time }
      else NP_push ord s) :
    s2.t = s.t ∨
      (s.t < s2.t ∧
        (∃ j, j < s.ps.length ∧ ¬ NP_done ord s j ∧ (procAt s.ps j).arrival_time = s2.t) ∧
        ∀ i, i < s.ps.length → ¬ NP_done ord s i → s2.t ≤ (procAt s.ps i).arrival_time) := by
  obtain ⟨a1, a2, a3, a4, a5, a6, a7, a8, a9, a10, a11, a12⟩ :=
    NP_push_spec ord s h.ordnd h.nextle h.rqnd h.rqsub h.arrived
  by_cases he : (NP_push ord s).rq = []
  · right
    have hiso : (NP_push ord s).rq.isEmpty = true := by simp [he]
    rw [if_pos hiso] at hs2
    have hsrq : s.rq = [] := by
      by_contra hne
      exact a11 hne he
    have hnlt : (NP_push ord s).next < ord.length := by
      have hm := a10
      unfold NP_measure at hm
      rw [he, hsrq] at hm
      simp only [List.length_nil, Nat.add_zero] at hm
      have : s.next < ord.length := by
        unfold NP_cond at hc
        simpa [hsrq] using hc
      omega
    have hlt := a9 hnlt
    generalize hed : ({ NP_push ord s with
          gantt := (NP_push ord s).gantt ++ [("IDLE",
            (procAt (NP_push ord s).ps (ord.getD (NP_push ord s).next 0)).arrival_time
              - (NP_push ord s).t)],
          t := (procAt (NP_push ord s).ps (ord.getD (NP_push ord s).next 0)).arrival_time }
        : NPState) = e at hs2
    have eps : e.ps = s.ps := by subst hed; rfl
    have et : e.t = (procAt s.ps (ord.getD (NP_push ord s).next 0)).arrival_time := by
      subst hed; rfl
    have en : e.next = (NP_push ord s).next := by subst hed; rfl
    have erq : e.rq = (NP_push ord s).rq := by subst hed; rfl
    obtain ⟨b1, b2, b3, b4, b5, b6, b7, b8, b9, b10, b11, b12⟩ :=
      NP_push_spec ord e h.ordnd (by rw [en]; exact a4) (by rw [erq]; exact a5)
        (by rw [erq, en]; exact a6)
        (by
          intro i hi
          rw [en] at hi
          rw [eps, et]
          exact le_trans (a7 i hi) (le_of_lt hlt))
    have ht2 : s2.t = (procAt s.ps (ord.getD (NP_push ord s).next 0)).arrival_time := by
      rw [hs2, b2, et]
    obtain ⟨hnt, hdrop⟩ := getD_not_mem_take ord (NP_push ord s).next h.ordnd hnlt
    generalize hj0 : ord.getD (NP_push ord s).next 0 = j0 at *
    have hj0mem : j0 ∈ ord := by
      rw [← hj0, List.getD_eq_getElem ord 0 hnlt]
      exact List.getElem_mem hnlt
    have hnd0 : ∀ i, ¬ NP_done ord s i → i ∉ ord.take (NP_push ord s).next := by
      intro i hnd hmem
      apply hnd
      rw [← a8 i]
      exact ⟨hmem, by rw [he]; simp⟩
    refine ⟨by rw [ht2]; exact hlt, ⟨j0, (h.ordmem j0).mp hj0mem, ?_, ht2.symm⟩, ?_⟩
    · rw [← a8 j0]
      exact fun hd => hnt hd.1
    · intro i hi hnd
      have hio : i ∈ ord := (h.ordmem i).mpr hi
      rw [← List.take_append_drop (NP_push ord s).next ord] at hio hsorted
      rw [hdrop] at hio hsorted
      rcases List.mem_append.mp hio with h1 | h1
      · exact absurd h1 (hnd0 i hnd)
      · rw [ht2]
        rcases List.mem_cons.mp h1 with h2 | h2
        · rw [h2]
        · exact (List.pairwise_cons.mp (List.pairwise_append.mp hsorted).2.1).1 i h2
  · left
    have hiso : ¬ ((NP_push ord s).rq.isEmpty = true) := by simpa using he
    rw [if_neg hiso] at hs2
    rw [hs2, a2]

theorem NP_left_eq (ps0 : List Process) (ord : List Nat) (s u : NPState)
    (h : ∀ i, NP_done ord u i ↔ NP_done ord s i) (i : Nat) :
    NP_left ps0 ord u i = NP_left ps0 ord s i := by
  unfold NP_left
  have := h i
  unfold NP_done at this
  by_cases hd : i ∈ ord.take s.next ∧ i ∉ s.rq
  · rw [if_pos hd, if_pos (this.mpr hd)]
  · rw [if_neg hd, if_neg (fun hcon => hd (this.mp hcon))]

theorem NP_left_done (ps0 : List Process) (ord : List Nat) (s : NPState) (i : Nat)
    (h : NP_done ord s i) : NP_left ps0 ord s i = 0 := by
  unfold NP_left
  exact if_pos h

theorem NP_left_not (ps0 : List Process) (ord : List Nat) (s : NPState) (i : Nat)
    (h : ¬ NP_done ord s i) : NP_left ps0 ord s i = (procAt ps0 i).burst_time := by
  unfold NP_left
  exact if_neg h

theorem NP_busy_step (pick : List Process → List Nat → Int) (hpick : PickOK pick)
    (ps0 : List Process) (hs0 : SortedIdx ps0) (ord : List Nat) (s : NPState)
    (h : NPInv ps0 ord s) (hc : NP_cond ord s = true)
    (hsorted : ord.Pairwise
      (fun x y => (procAt ps0 x).arrival_time ≤ (procAt ps0 y).arrival_time)) :
    busyOver (fun i => (procAt ps0 i).arrival_time) (NP_left ps0 ord (NP_body pick ord s))
        (NP_body pick ord s).t (List.range ps0.length)
      = busyOver (fun i => (procAt ps0 i).arrival_time) (NP_left ps0 ord s) s.t
        (List.range ps0.length) := by
  have hlen : s.ps.length = ps0.length := h.frame.1
  have harr : ∀ i, i < ps0.length →
      (procAt s.ps i).arrival_time = (procAt ps0 i).arrival_time :=
    fun i hi => (h.frame.2 i hi).2.1
  have hbur : ∀ i, i < ps0.length →
      (procAt s.ps i).burst_time = (procAt ps0 i).burst_time :=
    fun i hi => (h.frame.2 i hi).2.2
  have hsorted2 : ord.Pairwise
      (fun x y => (procAt s.ps x).arrival_time ≤ (procAt s.ps y).arrival_time) := by
    refine List.Pairwise.imp_of_mem ?_ hsorted
    intro a b ha hb hab
    rw [harr a (by rw [← hlen]; exact (h.ordmem a).mp ha),
      harr b (by rw [← hlen]; exact (h.ordmem b).mp hb)]
    exact hab
  have hstep : ∀ (u : NPState), u = NP_body pick ord s →
      busyOver (fun i => (procAt ps0 i).arrival_time) (NP_left ps0 ord u) u.t
        (List.range ps0.length)
      = busyOver (fun i => (procAt ps0 i).arrival_time) (NP_left ps0 ord s) s.t
        (List.range ps0.length) := by
    intro u hu
    unfold NP_body at hu
    simp only at hu
    generalize hs2 : (if (NP_push ord s).rq.isEmpty then
          NP_push ord { NP_push ord s with
            gantt := (NP_push ord s).gantt ++ [("IDLE",
              (procAt (NP_push ord s).ps (ord.getD (NP_push ord s).next 0)).arrival_time
                - (NP_push ord s).t)],
            t := (procAt (NP_push ord s).ps (ord.getD (NP_push ord s).next 0)).arrival_time }
        else NP_push ord s) = s2 at hu
    obtain ⟨p1, p2, p3, p4, p5, p6, p7, p8, p9, p10, p11, ext, p12⟩ :=
      NP_pre ps0 ord s h hc s2 hs2.symm
    have hclock := NP_pre_clock ps0 ord s h hc hsorted2 s2 hs2.symm
    obtain ⟨q1, q2⟩ := hpick s2.ps s2.rq p3
    generalize hposd : (pick s2.ps s2.rq).toNat = pos at *
    have hperm := perm_cons_eraseIdx s2.rq pos q2
    generalize hidxd : s2.rq.getD pos 0 = idx at *
    have hnd2 : (idx :: s2.rq.eraseIdx pos).Nodup := hperm.nodup_iff.mp p5
    obtain ⟨hnotin, hnd3⟩ := List.nodup_cons.mp hnd2
    have hmem : ∀ i, i ∈ s2.rq ↔ i = idx ∨ i ∈ s2.rq.eraseIdx pos := by
      intro i; rw [hperm.mem_iff]; exact List.mem_cons
    have hidxrq : idx ∈ s2.rq := (hmem idx).mpr (Or.inl rfl)
    have hidxtake : idx ∈ ord.take s2.next := p6 idx hidxrq
    have hidxn : idx < s.ps.length := (h.ordmem idx).mp (List.mem_of_mem_take hidxtake)
    have hidxn0 : idx < ps0.length := by rw [← hlen]; exact hidxn
    have hnotdone2 : ¬ (idx ∈ ord.take s2.next ∧ idx ∉ s2.rq) := fun hd => hd.2 hidxrq
    -- the clock before the dispatch
    have hpre : busyOver (fun i => (procAt ps0 i).arrival_time) (NP_left ps0 ord s2) s2.t
          (List.range ps0.length)
        = busyOver (fun i => (procAt ps0 i).arrival_time) (NP_left ps0 ord s) s.t
          (List.range ps0.length) := by
      rw [busy_congr _ _ (NP_left ps0 ord s) (NP_left ps0 ord s2) (List.range ps0.length) s2.t
        (fun i _ => ⟨rfl, NP_left_eq ps0 ord s s2 p8 i⟩)]
      rcases hclock with h1 | ⟨h1, ⟨j, hj, hjd, hja⟩, h3⟩
      · rw [h1]
      · symm
        refine busy_idle _ _ s2.t _ s.t ⟨j, List.mem_range.mpr (by rw [← hlen]; exact hj), ?_⟩
          ?_ (le_of_lt h1)
        · rw [NP_left_not ps0 ord s j hjd, ← hbur j (by rw [← hlen]; exact hj)]
          exact h.bpos j hj
        · intro i hi hpos
          have hi2 := List.mem_range.mp hi
          have hnd : ¬ NP_done ord s i := by
            intro hd
            rw [NP_left_done ps0 ord s i hd] at hpos
            exact lt_irrefl _ hpos
          have := h3 i (by rw [hlen]; exact hi2) hnd
          rw [harr i hi2] at this
          exact this
    rw [← hpre, hu]
    simp only
    rw [p1]
    have hk : (procAt s.ps idx).burst_time = NP_left ps0 ord s2 idx := by
      unfold NP_left
      rw [if_neg hnotdone2, hbur idx hidxn0]
    have hkpos : 0 < (procAt s.ps idx).burst_time := h.bpos idx hidxn
    refine busy_run _ (NP_left ps0 ord s2) _ idx (procAt s.ps idx).burst_time hkpos
      (le_of_eq hk) ?_ _ s2.t (List.nodup_range _) (range_sorted_arrival ps0 hs0)
      (List.mem_range.mpr hidxn0) ?_ ?_
    · rw [← hk]
      unfold NP_left
      simp only
      rw [if_pos ⟨hidxtake, hnotin⟩]
      omega
    · rw [← harr idx hidxn0]
      exact p7 idx hidxtake
    · intro j _ hne
      unfold NP_left
      simp only
      by_cases hd : j ∈ ord.take s2.next ∧ j ∉ s2.rq
      · rw [if_pos hd, if_pos ⟨hd.1, fun hcon => hd.2 ((hmem j).mpr (Or.inr hcon))⟩]
      · rw [if_neg hd, if_neg]
        rintro ⟨c1, c2⟩
        apply hd
        refine ⟨c1, fun hcon => ?_⟩
        rcases (hmem j).mp hcon with h1 | h1
        · exact hne h1
        · exact c2 h1
  exact hstep _ rfl

theorem SJF_total (ps : List Process) (hrun : Runnable ps) :
    ∃ r, (∀ fuel, ps.length ≤ fuel → SJFScheduler_schedule fuel ps = some r) ∧
      r.total_time = workEnd ps := by
  obtain ⟨K, hr⟩ := NP_run SJF_pick SJF_pick_ok ps hrun.2
  have hs0 : SortedIdx ps := sortedIdx_of_kept hrun.1 (Kept_refl ps)
  have hord : (sortedOrder (initRemaining ps)).Pairwise
      (fun x y => (procAt ps x).arrival_time ≤ (procAt ps y).arrival_time) := by
    have hk := Kept_init ps
    refine List.Pairwise.imp ?_ (sortedOrder_arrival (initRemaining ps))
    intro a b hab
    rw [← (hk.2 a).2.1, ← (hk.2 b).2.1]
    exact hab
  have hE := extra_inv hr
    (fun s => busyOver (fun i => (procAt ps i).arrival_time)
        (NP_left ps (sortedOrder (initRemaining ps)) s) s.t (List.range ps.length)
      = workEnd ps) ?_ ?_ K (le_refl _)
  · obtain ⟨hK, _, hexit, hinv, _, hfuel⟩ := hr
    generalize hsK : Nat.iterate (NP_body SJF_pick (sortedOrder (initRemaining ps))) K
      { ps := initRemaining ps, t := 0, next := 0, rq := [], gantt := [] } = sK at *
    refine ⟨{ ps := sK.ps, gantt := sK.gantt, total_time := sK.t }, fun fuel hf => ?_, ?_⟩
    · unfold SJFScheduler_schedule NP_schedule
      simp only
      rw [hfuel fuel hf]
      rfl
    · show sK.t = workEnd ps
      rw [← hE]
      symm
      apply busy_done
      intro i hi
      have hI := hinv K (le_refl _)
      rw [hsK] at hI
      have hi2 : i < sK.ps.length := by rw [hI.frame.1]; exact List.mem_range.mp hi
      unfold NP_cond at hexit
      simp only [Bool.or_eq_false_iff, Bool.not_eq_false', List.isEmpty_iff,
        decide_eq_false_iff_not, not_lt] at hexit
      have hnext : sK.next = (sortedOrder (initRemaining ps)).length :=
        le_antisymm hI.nextle hexit.1
      unfold NP_left
      rw [if_pos]
      refine ⟨?_, by rw [hexit.2]; simp⟩
      rw [hnext, List.take_length]
      exact (hI.ordmem i).mpr hi2
  · show busyOver _ (NP_left ps (sortedOrder (initRemaining ps))
      { ps := initRemaining ps, t := 0, next := 0, rq := [], gantt := [] }) 0 _ = workEnd ps
    unfold workEnd
    apply busy_congr
    intro i _
    refine ⟨rfl, ?_⟩
    unfold NP_left
    simp
  · intro s hI hc hb
    rw [NP_busy_step SJF_pick SJF_pick_ok ps hs0 _ s hI hc hord]
    exact hb

/-! ## priority.cpp: the aging step -/

theorem max_tdiv_three (x : Int) : max 0 (Int.tdiv x AGE_QUANTUM) = max 0 (x / 3) := by
  unfold AGE_QUANTUM
  by_cases h : 0 ≤ x
  · rw [Int.tdiv_eq_ediv h (by norm_num)]
  · have h1 : Int.tdiv x 3 = - ((-x) / 3) := by
      have h2 : x = - (-x) := by omega
      rw [h2, Int.neg_tdiv, Int.tdiv_eq_ediv (by omega) (by norm_num)]
      simp
    rw [h1]
    omega

theorem Prio_ageSteps_spec (should : Int) : ∀ (fuel : Nat) (prio aged : Int),
    fuel = (should - aged).toNat →
    (Prio_ageSteps should fuel prio aged).2 = max aged should ∧
      ∀ p0 : Int, 0 ≤ p0 → prio = max 0 (p0 - aged) →
        (Prio_ageSteps should fuel prio aged).1 = max 0 (p0 - max aged should) := by
  intro fuel
  induction fuel with
  | zero =>
    intro prio aged hf
    have hle : should ≤ aged := by omega
    refine ⟨by simp [Prio_ageSteps, max_eq_left hle], fun p0 _ hp => ?_⟩
    simp only [Prio_ageSteps]
    rw [max_eq_left hle]
    exact hp
  | succ fuel ih =>
    intro prio aged hf
    have hlt : aged < should := by omega
    obtain ⟨i1, i2⟩ := ih (if prio > 0 then prio - 1 else prio) (aged + 1) (by omega)
    simp only [Prio_ageSteps, if_pos hlt]
    refine ⟨by rw [i1]; omega, fun p0 hp0 hp => ?_⟩
    have := i2 p0 hp0 (by
      by_cases hpos : prio > 0
      · rw [if_pos hpos]; omega
      · rw [if_neg hpos]; omega)
    rw [this]
    omega

theorem Prio_ageOne_fields (s : PrioState) (idx : Nat) :
    (Prio_ageOne s idx).current_time = s.current_time ∧
      (Prio_ageOne s idx).next_i = s.next_i ∧ (Prio_ageOne s idx).ready = s.ready ∧
      (Prio_ageOne s idx).gantt = s.gantt ∧
      (Prio_ageOne s idx).processes.length = s.processes.length ∧
      (Prio_ageOne s idx).aged_steps.length = s.aged_steps.length ∧
      (∀ j, j ≠ idx → procAt (Prio_ageOne s idx).processes j = procAt s.processes j ∧
        (Prio_ageOne s idx).aged_steps.getD j 0 = s.aged_steps.getD j 0) ∧
      (∀ j, (procAt (Prio_ageOne s idx).processes j).arrival_time
        = (procAt s.processes j).arrival_time) := by
  refine ⟨rfl, rfl, rfl, rfl, by simp [Prio_ageOne], by simp [Prio_ageOne], fun j hj => ?_,
    fun j => ?_⟩
  · refine ⟨procAt_modifyAt_ne _ _ _ _ hj, ?_⟩
    exact getD_set_ne _ _ _ _ (fun h => hj h.symm)
  · show (procAt (modifyAt s.processes idx _) j).arrival_time = _
    rw [procAt_modifyAt]
    split
    · rename_i h; rw [h.1]
    · rfl

theorem Prio_ageOne_ok (ps0 : List Process) (s : PrioState) (idx : Nat)
    (hpl : s.processes.length = ps0.length) (hal : s.aged_steps.length = ps0.length)
    (hidx : idx < ps0.length) (i : Nat) (hq : Prio_agedOK ps0 s i) :
    Prio_agedOK ps0 (Prio_ageOne s idx) i ∧
      ((i = idx ∨ s.aged_steps.getD i 0
          = max 0 ((s.current_time - (procAt ps0 i).arrival_time) / 3)) →
        (Prio_ageOne s idx).aged_steps.getD i 0
          = max 0 ((s.current_time - (procAt ps0 i).arrival_time) / 3)) := by
  obtain ⟨f1, f2, f3, f4, f5, f6, f7, f8⟩ := Prio_ageOne_fields s idx
  obtain ⟨q1, q2, q3, q4⟩ := hq
  by_cases hi : i = idx
  · subst hi
    have hsh : max 0 (Int.tdiv (s.current_time - (procAt s.processes i).arrival_time)
        AGE_QUANTUM) = max 0 ((s.current_time - (procAt ps0 i).arrival_time) / 3) := by
      rw [max_tdiv_three, q1.2.1]
    obtain ⟨a1, a2⟩ := Prio_ageSteps_spec
      (max 0 (Int.tdiv (s.current_time - (procAt s.processes i).arrival_time) AGE_QUANTUM))
      (max 0 (Int.tdiv (s.current_time - (procAt s.processes i).arrival_time) AGE_QUANTUM)
        - s.aged_steps.getD i 0).toNat
      (procAt s.processes i).priority (s.aged_steps.getD i 0) rfl
    have hp : procAt (Prio_ageOne s i).processes i
        = { procAt s.processes i with priority := (Prio_ageSteps
          (max 0 (Int.tdiv (s.current_time - (procAt s.processes i).arrival_time) AGE_QUANTUM))
          (max 0 (Int.tdiv (s.current_time - (procAt s.processes i).arrival_time) AGE_QUANTUM)
            - s.aged_steps.getD i 0).toNat
          (procAt s.processes i).priority (s.aged_steps.getD i 0)).1 } := by
      show procAt (modifyAt s.processes i _) i = _
      rw [procAt_modifyAt_eq _ _ _ (by rw [hpl]; exact hidx)]
    have ha : (Prio_ageOne s i).aged_steps.getD i 0
        = max 0 ((s.current_time - (procAt ps0 i).arrival_time) / 3) := by
      show (s.aged_steps.set i _).getD i 0 = _
      rw [getD_set_eq _ _ _ (by rw [hal]; exact hidx), a1, hsh]
      omega
    refine ⟨⟨?_, ?_, ?_, ?_⟩, fun _ => ha⟩
    · rw [hp]; exact q1
    · rw [ha]; omega
    · rw [ha, f1]
    · intro hp0
      rw [hp, ha]
      show (Prio_ageSteps _ _ _ _).1 = _
      rw [a2 _ hp0 (q4 hp0), hsh]
      congr 2
      omega
  · obtain ⟨g1, g2⟩ := f7 i hi
    refine ⟨⟨by rw [g1]; exact q1, by rw [g2]; exact q2, by rw [g2, f1]; exact q3, ?_⟩, ?_⟩
    · intro hp0
      rw [g1, g2]
      exact q4 hp0
    · intro h
      rcases h with h | h
      · exact absurd h hi
      · rw [g2]; exact h

theorem Prio_age_fold (ps0 : List Process) : ∀ (l : List Nat) (s : PrioState),
    (∀ x, x ∈ l → x < ps0.length) →
    s.processes.length = ps0.length → s.aged_steps.length = ps0.length →
    (l.foldl Prio_ageOne s).current_time = s.current_time ∧
      (l.foldl Prio_ageOne s).next_i = s.next_i ∧ (l.foldl Prio_ageOne s).ready = s.ready ∧
      (l.foldl Prio_ageOne s).gantt = s.gantt ∧
      (l.foldl Prio_ageOne s).processes.length = ps0.length ∧
      (l.foldl Prio_ageOne s).aged_steps.length = ps0.length ∧
      (∀ j, (procAt (l.foldl Prio_ageOne s).processes j).arrival_time
        = (procAt s.processes j).arrival_time) ∧
      ∀ i, Prio_agedOK ps0 s i →
        Prio_agedOK ps0 (l.foldl Prio_ageOne s) i ∧
        ((i ∈ l ∨ s.aged_steps.getD i 0
            = max 0 ((s.current_time - (procAt ps0 i).arrival_time) / 3)) →
          (l.foldl Prio_ageOne s).aged_steps.getD i 0
            = max 0 ((s.current_time - (procAt ps0 i).arrival_time) / 3)) := by
  intro l
  induction l with
  | nil =>
    intro s _ hpl hal
    exact ⟨rfl, rfl, rfl, rfl, hpl, hal, fun _ => rfl, fun i hq => ⟨hq, fun h => by
      rcases h with h | h
      · cases h
      · exact h⟩⟩
  | cons a rest ih =>
    intro s hl hpl hal
    obtain ⟨f1, f2, f3, f4, f5, f6, f7, f8⟩ := Prio_ageOne_fields s a
    have ha : a < ps0.length := hl a (List.mem_cons_self a rest)
    obtain ⟨i1, i2, i3, i4, i5, i6, i7, i8⟩ := ih (Prio_ageOne s a)
      (fun x hx => hl x (List.mem_cons_of_mem a hx)) (f5.trans hpl) (f6.trans hal)
    simp only [List.foldl_cons]
    refine ⟨i1.trans f1, i2.trans f2, i3.trans f3, i4.trans f4, i5, i6,
      fun j => (i7 j).trans (f8 j), fun i hq => ?_⟩
    obtain ⟨o1, o2⟩ := Prio_ageOne_ok ps0 s a hpl hal ha i hq
    obtain ⟨r1, r2⟩ := i8 i o1
    rw [f1] at r2
    refine ⟨r1, fun h => ?_⟩
    apply r2
    rcases h with h | h
    · rcases List.mem_cons.mp h with h1 | h1
      · exact Or.inr (o2 (Or.inl h1))
      · exact Or.inl h1
    · exact Or.inr (o2 (Or.inr h))

/-! ## priority.cpp: the selection and the loop -/

theorem Prio_less_iff (ps : List Process) (a b : Nat) :
    Prio_less ps a b = true ↔
      toLex ((procAt ps a).priority, toLex ((procAt ps a).arrival_time, (procAt ps a).id))
        < toLex ((procAt ps b).priority, toLex ((procAt ps b).arrival_time, (procAt ps b).id)) := by
  unfold Prio_less
  rw [Prod.Lex.lt_iff]
  simp only [Bool.or_eq_true, Bool.and_eq_true, decide_eq_true_eq, strLt_iff]
  constructor
  · rintro (h | ⟨h1, h2⟩)
    · exact Or.inl h
    · refine Or.inr ⟨h1, ?_⟩
      show toLex _ < toLex _
      rw [Prod.Lex.lt_iff]
      exact h2
  · rintro (h | ⟨h1, h2⟩)
    · exact Or.inl h
    · refine Or.inr ⟨h1, ?_⟩
      have h3 : toLex ((procAt ps a).arrival_time, (procAt ps a).id)
          < toLex ((procAt ps b).arrival_time, (procAt ps b).id) := h2
      rw [Prod.Lex.lt_iff] at h3
      exact h3

theorem Prio_best_fold (ps : List Process) (ready : List Nat) : ∀ (ks : List Nat) (b0 : Nat),
    (∀ k, k ∈ ks → k < ready.length) → b0 < ready.length →
    ks.foldl (fun best k =>
        if Prio_less ps (ready.getD k 0) (ready.getD best 0) then k else best) b0 < ready.length ∧
      (Prio_less ps (ready.getD b0 0) (ready.getD (ks.foldl (fun best k =>
        if Prio_less ps (ready.getD k 0) (ready.getD best 0) then k else best) b0) 0) = false) ∧
      ∀ k, k ∈ ks → Prio_less ps (ready.getD k 0) (ready.getD (ks.foldl (fun best k =>
        if Prio_less ps (ready.getD k 0) (ready.getD best 0) then k else best) b0) 0) = false := by
  intro ks
  induction ks with
  | nil =>
    intro b0 _ hb
    refine ⟨hb, ?_, fun k hk => by cases hk⟩
    rw [Bool.eq_false_iff, Ne, Prio_less_iff]
    exact lt_irrefl _
  | cons a rest ih =>
    intro b0 hks hb
    simp only [List.foldl_cons]
    have ha : a < ready.length := hks a (List.mem_cons_self a rest)
    have hrest : ∀ k, k ∈ rest → k < ready.length := fun k hk => hks k (List.mem_cons_of_mem a hk)
    by_cases hlt : Prio_less ps (ready.getD a 0) (ready.getD b0 0) = true
    · rw [if_pos hlt]
      obtain ⟨i1, i2, i3⟩ := ih a hrest ha
      refine ⟨i1, ?_, fun k hk => ?_⟩
      · rw [Bool.eq_false_iff, Ne, Prio_less_iff] at i2 ⊢
        rw [Prio_less_iff] at hlt
        exact fun hcon => i2 (lt_trans hlt hcon)
      · rcases List.mem_cons.mp hk with h1 | h1
        · rw [h1]; exact i2
        · exact i3 k h1
    · rw [if_neg hlt]
      obtain ⟨i1, i2, i3⟩ := ih b0 hrest hb
      refine ⟨i1, i2, fun k hk => ?_⟩
      rcases List.mem_cons.mp hk with h1 | h1
      · rw [h1]
        rw [Bool.eq_false_iff, Ne, Prio_less_iff] at i2 ⊢
        rw [Prio_less_iff] at hlt
        intro hcon
        exact hlt (lt_of_lt_of_le hcon (not_lt.mp i2))
      · exact i3 k h1

theorem Prio_best_spec (ps : List Process) (ready : List Nat) (hne : ready ≠ []) :
    Prio_best ps ready < ready.length ∧
      ∀ j, j ∈ ready →
        Prio_less ps j (ready.getD (Prio_best ps ready) 0) = false ∧
        ((procAt ps j).id ≠ (procAt ps (ready.getD (Prio_best ps ready) 0)).id →
          Prio_less ps (ready.getD (Prio_best ps ready) 0) j = true) := by
  have hpos : 0 < ready.length := List.length_pos.mpr hne
  obtain ⟨i1, i2, i3⟩ := Prio_best_fold ps ready (List.range' 1 (ready.length - 1)) 0
    (fun k hk => by have := List.mem_range'_1.mp hk; omega) hpos
  have hbest : Prio_best ps ready = (List.range' 1 (ready.length - 1)).foldl (fun best k =>
      if Prio_less ps (ready.getD k 0) (ready.getD best 0) then k else best) 0 := rfl
  rw [← hbest] at i1 i2 i3
  refine ⟨i1, fun j hj => ?_⟩
  obtain ⟨m, hm, rfl⟩ := List.getElem_of_mem hj
  have hget : ready.getD m 0 = ready[m] := List.getD_eq_getElem ready 0 hm
  rw [← hget]
  have hfalse : Prio_less ps (ready.getD m 0) (ready.getD (Prio_best ps ready) 0) = false := by
    by_cases h0 : m = 0
    · rw [h0]; exact i2
    · exact i3 m (List.mem_range'_1.mpr (by omega))
  refine ⟨hfalse, fun hid => ?_⟩
  rw [Bool.eq_false_iff, Ne, Prio_less_iff] at hfalse
  rw [Prio_less_iff]
  refine lt_of_le_of_ne (not_lt.mp hfalse) ?_
  intro hcon
  apply hid
  have h1 := congrArg (fun x => (ofLex (ofLex x).2).2) hcon
  exact h1.symm

theorem Prio_admission_spec (ps0 : List Process) (ord : List Nat) (s : PrioState)
    (h : PrioInv ps0 ord s) (hc : Prio_cond ord s = true) :
    (Prio_admission ord s).processes = s.processes ∧
      (Prio_admission ord s).aged_steps = s.aged_steps ∧
      s.current_time ≤ (Prio_admission ord s).current_time ∧
      (Prio_admission ord s).ready ≠ [] ∧ (Prio_admission ord s).next_i ≤ ord.length ∧
      (Prio_admission ord s).ready.Nodup ∧
      (∀ i, i ∈ (Prio_admission ord s).ready → i ∈ ord.take (Prio_admission ord s).next_i) ∧
      (∀ i, i ∈ ord.take (Prio_admission ord s).next_i →
        (procAt s.processes i).arrival_time ≤ (Prio_admission ord s).current_time) ∧
      Prio_measure ord (Prio_admission ord s) = Prio_measure ord s := by
  obtain ⟨a1, a2, a3, a4, a5, a6, a7, a8, a9, a10, a11, a12⟩ :=
    NP_push_spec ord (Prio_np s) h.ordnd h.nextle h.rqnd h.rqsub h.arrived
  have hpush : Prio_np (push_arrivals ord s) = NP_push ord (Prio_np s) := rfl
  have hready : (push_arrivals ord s).ready = (NP_push ord (Prio_np s)).rq := rfl
  have hnext : (push_arrivals ord s).next_i = (NP_push ord (Prio_np s)).next := rfl
  by_cases he : (push_arrivals ord s).ready = []
  · have hiso : (push_arrivals ord s).ready.isEmpty = true := by simp [he]
    have hsrq : s.ready = [] := by
      by_contra hne
      exact a11 hne he
    have hnlt : (NP_push ord (Prio_np s)).next < ord.length := by
      have hm := a10
      unfold NP_measure at hm
      rw [← hready, he] at hm
      have hrq0 : (Prio_np s).rq = [] := hsrq
      rw [hrq0] at hm
      simp only [List.length_nil, Nat.add_zero] at hm
      have : s.next_i < ord.length := by
        unfold Prio_cond at hc
        simpa [hsrq] using hc
      have hn0 : (Prio_np s).next = s.next_i := rfl
      omega
    have hlt := a9 hnlt
    generalize hed : ({ push_arrivals ord s with
          gantt := if (procAt (push_arrivals ord s).processes
              (ord.getD (push_arrivals ord s).next_i 0)).arrival_time
                - (push_arrivals ord s).current_time > 0 then
              (push_arrivals ord s).gantt ++ [("IDLE",
                (procAt (push_arrivals ord s).processes
                  (ord.getD (push_arrivals ord s).next_i 0)).arrival_time
                  - (push_arrivals ord s).current_time)]
            else (push_arrivals ord s).gantt,
          current_time := (procAt (push_arrivals ord s).processes
            (ord.getD (push_arrivals ord s).next_i 0)).arrival_time } : PrioState) = e
    have hadm : Prio_admission ord s = push_arrivals ord e := by
      unfold Prio_admission
      simp only [hiso, if_true]
      rw [hed]
    have eps : e.processes = s.processes := by subst hed; rfl
    have eag : e.aged_steps = s.aged_steps := by subst hed; rfl
    have et : e.current_time
        = (procAt s.processes (ord.getD (NP_push ord (Prio_np s)).next 0)).arrival_time := by
      subst hed; rfl
    have en : e.next_i = (NP_push ord (Prio_np s)).next := by subst hed; rfl
    have erq : e.ready = (NP_push ord (Prio_np s)).rq := by subst hed; rfl
    obtain ⟨b1, b2, b3, b4, b5, b6, b7, b8, b9, b10, b11, b12⟩ :=
      NP_push_spec ord (Prio_np e) h.ordnd (by show e.next_i ≤ _; rw [en]; exact a4)
        (by show e.ready.Nodup; rw [erq]; exact a5)
        (by show ∀ i, i ∈ e.ready → i ∈ ord.take e.next_i; rw [erq, en]; exact a6)
        (by
          intro i hi
          have hi2 : i ∈ ord.take e.next_i := hi
          rw [en] at hi2
          show (procAt e.processes i).arrival_time ≤ e.current_time
          rw [eps, et]
          exact le_trans (a7 i hi2) (le_of_lt hlt))
    rw [hadm]
    have hm1 : NP_measure ord (Prio_np e) = NP_measure ord (NP_push ord (Prio_np s)) := by
      unfold NP_measure
      show (ord.length - e.next_i) + e.ready.length = _
      rw [en, erq]
    refine ⟨eps, eag, ?_, ?_, b4, b5, b6, ?_, ?_⟩
    · show s.current_time ≤ e.current_time
      rw [et]; exact le_of_lt hlt
    · apply b12
      · show e.next_i < ord.length
        rw [en]; exact hnlt
      · show (procAt e.processes (ord.getD e.next_i 0)).arrival_time ≤ e.current_time
        rw [eps, et, en]
    · intro i hi
      have := b7 i hi
      have h2 : (procAt e.processes i).arrival_time ≤ e.current_time := this
      rw [eps] at h2
      exact h2
    · show NP_measure ord (NP_push ord (Prio_np e)) = NP_measure ord (Prio_np s)
      rw [b10, hm1, a10]
  · have hiso : ¬ ((push_arrivals ord s).ready.isEmpty = true) := by simpa using he
    have hadm : Prio_admission ord s = push_arrivals ord s := by
      unfold Prio_admission
      simp only [hiso, Bool.false_eq_true, if_false]
    rw [hadm]
    exact ⟨rfl, rfl, le_refl _, he, a4, a5, a6, a7, a10⟩

theorem Prio_step (ps0 : List Process) (ord : List Nat) (s : PrioState)
    (h : PrioInv ps0 ord s) (hc : Prio_cond ord s = true) :
    (PrioInv ps0 ord (Prio_body ord s) ∧
        Prio_measure ord (Prio_body ord s) < Prio_measure ord s) ∧
      Prio_agedDispatch ps0 ord s := by
  obtain ⟨m1, m2, m3, m4, m5, m6, m7, m8, m9⟩ := Prio_admission_spec ps0 ord s h hc
  have hmemn : ∀ x, x ∈ (Prio_admission ord s).ready → x < ps0.length := fun x hx =>
    (h.ordmem x).mp (List.mem_of_mem_take (m7 x hx))
  have hok1 : ∀ i, i < ps0.length → Prio_agedOK ps0 (Prio_admission ord s) i := by
    intro i hi
    obtain ⟨q1, q2, q3, q4⟩ := h.aged i hi
    refine ⟨by rw [m1]; exact q1, by rw [m2]; exact q2, ?_, ?_⟩
    · rw [m2]
      omega
    · intro hp
      rw [m1, m2]
      exact q4 hp
  obtain ⟨i1, i2, i3, i4, i5, i6, i7, i8⟩ := Prio_age_fold ps0 (Prio_admission ord s).ready
    (Prio_admission ord s) hmemn (m1 ▸ h.plen) (m2 ▸ h.alen)
  have hu2 : Prio_aged ord s = (Prio_admission ord s).ready.foldl Prio_ageOne (Prio_admission ord s) :=
    rfl
  rw [← hu2] at i1 i2 i3 i4 i5 i6 i7 i8
  generalize hu : Prio_aged ord s = u at *
  have hne : u.ready ≠ [] := by rw [i3]; exact m4
  have hmemu : ∀ x, x ∈ u.ready → x < ps0.length := by rw [i3]; exact hmemn
  have hoku : ∀ i, i < ps0.length → Prio_agedOK ps0 u i := fun i hi => (i8 i (hok1 i hi)).1
  have harru : ∀ i, i ∈ u.ready → (procAt ps0 i).arrival_time ≤ u.current_time := by
    intro i hi
    rw [i3] at hi
    have := m8 i (m7 i hi)
    rw [← (h.aged i (hmemn i hi)).1.2.1, i1]
    exact this
  obtain ⟨b1, b2⟩ := Prio_best_spec u.processes u.ready hne
  have hch : Prio_chosen ord s = u.ready.getD (Prio_best u.processes u.ready) 0 := by
    unfold Prio_chosen
    rw [hu]
  generalize hbest : Prio_best u.processes u.ready = best at *
  generalize hidx : u.ready.getD best 0 = idx at *
  have hidxmem : idx ∈ u.ready := by
    rw [← hidx, List.getD_eq_getElem u.ready 0 b1]
    exact List.getElem_mem b1
  have hidxn : idx < ps0.length := hmemu idx hidxmem
  have hbody : Prio_body ord s = Prio_dispatch u := by
    unfold Prio_body
    rw [← hu]
    rfl
  have hdt : (Prio_dispatch u).current_time = u.current_time + (procAt ps0 idx).burst_time := by
    show u.current_time + (procAt u.processes (u.ready.getD (Prio_best u.processes u.ready) 0)
      ).burst_time = _
    rw [hbest, hidx, (hoku idx hidxn).1.2.2]
  have hdg : (Prio_dispatch u).gantt
      = u.gantt ++ [((procAt ps0 idx).id, (procAt ps0 idx).burst_time)] := by
    show u.gantt ++ [((procAt u.processes (u.ready.getD (Prio_best u.processes u.ready) 0)).id,
      (procAt u.processes (u.ready.getD (Prio_best u.processes u.ready) 0)).burst_time)] = _
    rw [hbest, hidx, (hoku idx hidxn).1.2.2, (hoku idx hidxn).1.1]
  have hdr : (Prio_dispatch u).ready = u.ready.eraseIdx best := by
    show u.ready.eraseIdx (Prio_best u.processes u.ready) = _
    rw [hbest]
  have hdn : (Prio_dispatch u).next_i = u.next_i := rfl
  have hda : (Prio_dispatch u).aged_steps = u.aged_steps := rfl
  have hdp : ∀ j, (procAt (Prio_dispatch u).processes j).id = (procAt u.processes j).id ∧
      (procAt (Prio_dispatch u).processes j).arrival_time
        = (procAt u.processes j).arrival_time ∧
      (procAt (Prio_dispatch u).processes j).burst_time = (procAt u.processes j).burst_time ∧
      (procAt (Prio_dispatch u).processes j).priority = (procAt u.processes j).priority := by
    intro j
    show (procAt (modifyAt u.processes _ _) j).id = _ ∧
      (procAt (modifyAt u.processes _ _) j).arrival_time = _ ∧
      (procAt (modifyAt u.processes _ _) j).burst_time = _ ∧
      (procAt (modifyAt u.processes _ _) j).priority = _
    rw [procAt_modifyAt]
    split
    · rename_i hj
      rw [hj.1]
      exact ⟨rfl, rfl, rfl, rfl⟩
    · exact ⟨rfl, rfl, rfl, rfl⟩
  have hdl : (Prio_dispatch u).processes.length = u.processes.length := by
    show (modifyAt u.processes _ _).length = _
    exact length_modifyAt _ _ _
  have hbnn := h.bnn idx hidxn
  have hperm := perm_cons_eraseIdx u.ready best b1
  rw [hidx] at hperm
  have hnd2 : (idx :: u.ready.eraseIdx best).Nodup :=
    hperm.nodup_iff.mp (by rw [i3]; exact m6)
  refine ⟨⟨⟨?_, ?_, h.bnn, h.ordnd, h.ordmem, ?_, ?_, ?_, ?_, ?_⟩, ?_⟩, ?_⟩
  · rw [hbody, hdl]; exact i5
  · rw [hbody, hda]; exact i6
  · rw [hbody, hdn, i2]; exact m5
  · rw [hbody, hdr]; exact (List.nodup_cons.mp hnd2).2
  · intro i hi
    rw [hbody, hdr] at hi
    rw [hbody, hdn, i2]
    exact m7 i (by rw [← i3]; exact hperm.mem_iff.mpr (List.mem_cons_of_mem idx hi))
  · intro i hi
    rw [hbody, hdn, i2] at hi
    rw [hbody, (hdp i).2.1, hdt, i7 i, i1]
    have := m8 i hi
    rw [m1]
    omega
  · intro i hi
    obtain ⟨q1, q2, q3, q4⟩ := hoku i hi
    rw [hbody]
    refine ⟨⟨(hdp i).1.trans q1.1, (hdp i).2.1.trans q1.2.1, (hdp i).2.2.1.trans q1.2.2⟩,
      by rw [hda]; exact q2, ?_, ?_⟩
    · rw [hda, hdt]
      omega
    · intro hp
      rw [(hdp i).2.2.2, hda]
      exact q4 hp
  · rw [hbody]
    have hm := m9
    unfold Prio_measure at hm ⊢
    rw [hdr, hdn, i2]
    have hl := hperm.length_eq
    rw [List.length_cons] at hl
    have hl3 : u.ready.length = (Prio_admission ord s).ready.length := by rw [i3]
    omega
  · unfold Prio_agedDispatch
    rw [hu, hch, hbody, hdt, hdg]
    refine ⟨hne, fun i hi => ?_, hidxmem, fun j hj => ?_, rfl, rfl⟩
    · have hin := hmemu i hi
      have ha := harru i hi
      obtain ⟨q1, q2, q3, q4⟩ := hoku i hin
      have hag : u.aged_steps.getD i 0 = (u.current_time - (procAt ps0 i).arrival_time) / 3 := by
        have := (i8 i (hok1 i hin)).2 (Or.inl (by rw [← i3]; exact hi))
        rw [this, i1]
        omega
      refine ⟨hin, ha, hag, fun hp => ?_⟩
      rw [q4 hp, hag]
    · obtain ⟨c1, c2⟩ := b2 j hj
      refine ⟨c1, fun hid => c2 ?_⟩
      rw [(hoku j (hmemu j hj)).1.1, (hoku idx hidxn).1.1]
      exact hid

theorem Prio_loop_run (ps : List Process) (hb : ∀ p, p ∈ ps → 0 ≤ p.burst_time) :
    ∃ K, LoopRun (Prio_cond (sortedOrder ps)) (Prio_body (sortedOrder ps))
      (PrioInv ps (sortedOrder ps)) (fun s _ => Prio_agedDispatch ps (sortedOrder ps) s)
      (Prio_init ps) ps.length K := by
  obtain ⟨o1, o2, o3⟩ := sortedOrder_spec ps
  apply loop_run (Prio_cond (sortedOrder ps)) (Prio_body (sortedOrder ps))
    (PrioInv ps (sortedOrder ps)) (Prio_measure (sortedOrder ps))
    (fun s _ => Prio_agedDispatch ps (sortedOrder ps) s)
    (fun s hI hc => Prio_step ps _ s hI hc)
  · refine ⟨rfl, by simp [Prio_init], fun i hi => hb _ (procAt_mem ps i hi), o1, o2,
      Nat.zero_le _, List.nodup_nil, ?_, ?_, ?_⟩
    · intro i hi; simp [Prio_init] at hi
    · intro i hi; simp [Prio_init] at hi
    · intro i hi
      have hget : (Prio_init ps).aged_steps.getD i 0 = 0 := by
        show (List.replicate ps.length (0 : Int)).getD i 0 = 0
        rw [List.getD_eq_getElem _ _ (by simpa using hi)]
        simp
      refine ⟨⟨rfl, rfl, rfl⟩, by rw [hget], by rw [hget]; omega, fun hp => ?_⟩
      rw [hget]
      show (procAt ps i).priority = _
      omega
  · show (sortedOrder ps).length - 0 + 0 ≤ ps.length
    rw [o3]
    omega

/-! ## SRTF does not depend on the order of the input -/

theorem SRTF_run_any (ps : List Process) (hb : ∀ p, p ∈ ps → 0 < p.burst_time)
    (hint : IntArrivals ps) :
    ∃ K, LoopRun (fun s => anyLeft s.ps) SRTF_body (SRTFInv ps)
      (fun a b => StepOK a.ps b.ps (compClock a.comp) (compClock b.comp) b.t)
      (SRTF_init ps) (fuelBound ps) K := by
  obtain ⟨hlen, hjob⟩ := init_jobs_plain ps
  obtain ⟨s1, s2, s3, s5, s6⟩ := start_facts ps (SRTF_init ps).ps
    (compClock (SRTF_init ps).comp) hb hlen hjob
  apply loop_run (fun s => anyLeft s.ps) SRTF_body (SRTFInv ps) SRTF_measure _
    (fun s hI hc => SRTF_step ps s hI hc) (SRTF_init ps)
  · refine ⟨s1, s2, by simp [SRTF_init, initRemaining], s6, ?_⟩
    intro i hi
    have hi2 : i < ps.length := by rw [← hlen]; exact hi
    show (procAt (initRemaining ps) i).arrival_time ≤ INT_MAX
    rw [(hjob i hi2).1.2.1]
    exact hint _ (procAt_mem ps i hi2)
  · exact idle_measure_init ps _ hlen (fun j hj => (hjob j hj).2) _ (by split <;> simp)

/-- The selection of SRTF is minimal in the order (remaining_time, id). -/
theorem SRTF_best_min_foldl (ps : List Process) (t : Int) :
    ∀ (l : List Nat) (acc : Option Nat) (b : Nat),
      l.foldl (fun (best : Option Nat) (i : Nat) =>
          if (procAt ps i).arrival_time ≤ t ∧ (procAt ps i).remaining_time > 0 then
            match best with
            | none => some i
            | some b =>
              if (procAt ps i).remaining_time < (procAt ps b).remaining_time
                  ∨ ((procAt ps i).remaining_time = (procAt ps b).remaining_time
                      ∧ strLt (procAt ps i).id (procAt ps b).id = true)
              then some i else some b
          else best) acc = some b →
      (∀ a, acc = some a →
        toLex ((procAt ps b).remaining_time, (procAt ps b).id)
          ≤ toLex ((procAt ps a).remaining_time, (procAt ps a).id)) ∧
      ∀ i, i ∈ l → (procAt ps i).arrival_time ≤ t → 0 < (procAt ps i).remaining_time →
        toLex ((procAt ps b).remaining_time, (procAt ps b).id)
          ≤ toLex ((procAt ps i).remaining_time, (procAt ps i).id) := by
  intro l
  induction l with
  | nil =>
    intro acc b h
    simp only [List.foldl_nil] at h
    refine ⟨fun a ha => ?_, fun i hi => by cases hi⟩
    rw [h] at ha
    cases ha
    exact le_refl _
  | cons x rest ih =>
    intro acc b h
    simp only [List.foldl_cons] at h
    have hlt_iff : ∀ a : Nat,
        ((procAt ps x).remaining_time < (procAt ps a).remaining_time
          ∨ ((procAt ps x).remaining_time = (procAt ps a).remaining_time
              ∧ strLt (procAt ps x).id (procAt ps a).id = true)) ↔
        toLex ((procAt ps x).remaining_time, (procAt ps x).id)
          < toLex ((procAt ps a).remaining_time, (procAt ps a).id) := by
      intro a
      rw [Prod.Lex.lt_iff, strLt_iff]
    by_cases he : (procAt ps x).arrival_time ≤ t ∧ (procAt ps x).remaining_time > 0
    · rw [if_pos he] at h
      cases acc with
      | none =>
        obtain ⟨r1, r2⟩ := ih (some x) b h
        refine ⟨fun a ha => (by cases ha), fun i hi ha hr => ?_⟩
        rcases List.mem_cons.mp hi with h1 | h1
        · rw [h1]; exact r1 x rfl
        · exact r2 i h1 ha hr
      | some a0 =>
        simp only at h
        by_cases hlt : (procAt ps x).remaining_time < (procAt ps a0).remaining_time
            ∨ ((procAt ps x).remaining_time = (procAt ps a0).remaining_time
                ∧ strLt (procAt ps x).id (procAt ps a0).id = true)
        · rw [if_pos hlt] at h
          obtain ⟨r1, r2⟩ := ih (some x) b h
          have hx := r1 x rfl
          refine ⟨fun a ha => ?_, fun i hi ha hr => ?_⟩
          · cases ha
            exact le_trans hx (le_of_lt ((hlt_iff a0).mp hlt))
          · rcases List.mem_cons.mp hi with h1 | h1
            · rw [h1]; exact hx
            · exact r2 i h1 ha hr
        · rw [if_neg hlt] at h
          obtain ⟨r1, r2⟩ := ih (some a0) b h
          have ha0 := r1 a0 rfl
          refine ⟨fun a ha => ?_, fun i hi ha hr => ?_⟩
          · cases ha
            exact ha0
          · rcases List.mem_cons.mp hi with h1 | h1
            · rw [h1]
              have := not_lt.mp (fun hc => hlt ((hlt_iff a0).mpr hc))
              exact le_trans ha0 this
            · exact r2 i h1 ha hr
    · rw [if_neg he] at h
      obtain ⟨r1, r2⟩ := ih acc b h
      refine ⟨r1, fun i hi ha hr => ?_⟩
      rcases List.mem_cons.mp hi with h1 | h1
      · rw [h1] at ha hr
        exact absurd ⟨ha, hr⟩ he
      · exact r2 i h1 ha hr

theorem SRTF_best_min (ps : List Process) (t : Int) (b : Nat) (h : SRTF_best ps t = some b)
    (i : Nat) (hi : i < ps.length) (ha : (procAt ps i).arrival_time ≤ t)
    (hr : 0 < (procAt ps i).remaining_time) :
    toLex ((procAt ps b).remaining_time, (procAt ps b).id)
      ≤ toLex ((procAt ps i).remaining_time, (procAt ps i).id) :=
  (SRTF_best_min_foldl ps t (List.range ps.length) none b h).2 i (List.mem_range.mpr hi) ha hr

theorem SRTF_best_ne_none (ps : List Process) (t : Int) (i : Nat) (hi : i < ps.length)
    (ha : (procAt ps i).arrival_time ≤ t) (hr : 0 < (procAt ps i).remaining_time) :
    ∃ b, SRTF_best ps t = some b := by
  cases h : SRTF_best ps t with
  | none => exact absurd ⟨ha, hr⟩ (SRTF_best_none ps t h i hi)
  | some b => exact ⟨b, rfl⟩

theorem nextArrival_perm (ps qs : List Process) (h : ∀ p, p ∈ qs ↔ p ∈ ps) :
    SRTF_nextArrival qs = SRTF_nextArrival ps := by
  obtain ⟨a1, a2, a3⟩ := nextArrival_foldl ps INT_MAX
  obtain ⟨b1, b2, b3⟩ := nextArrival_foldl qs INT_MAX
  unfold SRTF_nextArrival
  apply le_antisymm
  · rcases a1 with a1 | ⟨p, hp, hp2, hp3⟩
    · rw [a1]; exact b2
    · rw [hp3]; exact b3 p ((h p).mpr hp) hp2
  · rcases b1 with b1 | ⟨p, hp, hp2, hp3⟩
    · rw [b1]; exact a2
    · rw [hp3]; exact a3 p ((h p).mp hp) hp2

theorem IdsInj_kept {ps qs : List Process} (hk : Kept ps qs) (h : IdsInj ps) : IdsInj qs := by
  intro i j hi hj he
  rw [hk.1] at hi hj
  rw [(hk.2 i).1, (hk.2 j).1] at he
  exact h i j hi hj he

theorem SRTFPerm_mem {s u : SRTFState} (h : SRTFPerm s u) (p : Process) :
    p ∈ u.ps ↔ p ∈ s.ps := by
  constructor
  · intro hp
    obtain ⟨i, hi, rfl⟩ := exists_procAt_of_mem _ p hp
    obtain ⟨j, hj, hr, _⟩ := h.fwd i hi
    rw [hr]
    exact procAt_mem _ j hj
  · intro hp
    obtain ⟨j, hj, rfl⟩ := exists_procAt_of_mem _ p hp
    obtain ⟨i, hi, hr, _⟩ := h.bwd j hj
    rw [← hr]
    exact procAt_mem _ i hi

theorem SRTFPerm_best {s u : SRTFState} (h : SRTFPerm s u) (b : Nat)
    (hb : SRTF_best s.ps s.t = some b) :
    ∃ b2, SRTF_best u.ps u.t = some b2 ∧ b2 < u.ps.length ∧ b < s.ps.length ∧
      procAt u.ps b2 = procAt s.ps b ∧ compClock u.comp b2 = compClock s.comp b := by
  obtain ⟨e1, e2, e3⟩ := SRTF_best_some s.ps s.t b hb
  obtain ⟨i0, hi0, hr0, _⟩ := h.bwd b e1
  obtain ⟨b2, hb2⟩ := SRTF_best_ne_none u.ps u.t i0 hi0 (by rw [hr0, h.t]; exact e2)
    (by rw [hr0]; exact e3)
  obtain ⟨f1, f2, f3⟩ := SRTF_best_some u.ps u.t b2 hb2
  obtain ⟨j, hj, hrj, hcj⟩ := h.fwd b2 f1
  have k1 := SRTF_best_min s.ps s.t b hb j hj (by rw [← hrj, ← h.t]; exact f2)
    (by rw [← hrj]; exact f3)
  have k2 := SRTF_best_min u.ps u.t b2 hb2 i0 hi0 (by rw [hr0, h.t]; exact e2)
    (by rw [hr0]; exact e3)
  rw [hr0, hrj] at k2
  have hkey := le_antisymm k2 k1
  have hid : (procAt s.ps j).id = (procAt s.ps b).id := by
    have := congrArg (fun x => (ofLex x).2) hkey
    exact this
  have hjb : j = b := h.ids j b hj e1 hid
  subst hjb
  exact ⟨b2, hb2, f1, e1, hrj, hcj⟩

theorem SRTFPerm_step (s u : SRTFState) (h : SRTFPerm s u) :
    SRTFPerm (SRTF_body s) (SRTF_body u) := by
  have hids := IdsInj_kept (SRTF_body_kept s).1 h.ids
  have hids2 := IdsInj_kept (SRTF_body_kept u).1 h.ids2
  cases hb : SRTF_best s.ps s.t with
  | none =>
    have hb2 : SRTF_best u.ps u.t = none := by
      cases hbu : SRTF_best u.ps u.t with
      | none => rfl
      | some b2 =>
        exfalso
        obtain ⟨f1, f2, f3⟩ := SRTF_best_some u.ps u.t b2 hbu
        obtain ⟨j, hj, hrj, _⟩ := h.fwd b2 f1
        exact SRTF_best_none s.ps s.t hb j hj
          ⟨by rw [← hrj, ← h.t]; exact f2, by rw [← hrj]; exact f3⟩
    have hna := nextArrival_perm s.ps u.ps (SRTFPerm_mem h)
    have hs : SRTF_body s = { s with
        gantt := finalizeBlock s.last s.start s.t s.gantt
          ++ [("IDLE", SRTF_nextArrival s.ps - s.t)],
        t := SRTF_nextArrival s.ps } := by
      unfold SRTF_body
      simp only [hb]
    have hu : SRTF_body u = { u with
        gantt := finalizeBlock u.last u.start u.t u.gantt
          ++ [("IDLE", SRTF_nextArrival u.ps - u.t)],
        t := SRTF_nextArrival u.ps } := by
      unfold SRTF_body
      simp only [hb2]
    rw [hs, hu]
    exact ⟨hna, h.last, h.start, by
      show finalizeBlock u.last u.start u.t u.gantt ++ [("IDLE", SRTF_nextArrival u.ps - u.t)]
        = finalizeBlock s.last s.start s.t s.gantt ++ [("IDLE", SRTF_nextArrival s.ps - s.t)]
      rw [h.last, h.start, h.t, h.gantt, hna], h.len, h.clen, h.clen2, h.fwd, h.bwd, h.ids,
      h.ids2⟩
  | some b =>
    obtain ⟨b2, hb2, hb2n, hbn, hrec, hcomp⟩ := SRTFPerm_best h b hb
    have hs : SRTF_body s =
        { ps := modifyAt s.ps b (decRemaining 1),
          comp := if (procAt (modifyAt s.ps b (decRemaining 1)) b).remaining_time = 0
            then s.comp.set b (s.t + 1) else s.comp,
          t := s.t + 1, last := (procAt s.ps b).id,
          start := if s.last ≠ (procAt s.ps b).id then s.t else s.start,
          gantt := if s.last ≠ (procAt s.ps b).id then finalizeBlock s.last s.start s.t s.gantt
            else s.gantt } := by
      unfold SRTF_body
      simp only [hb]
    have hu : SRTF_body u =
        { ps := modifyAt u.ps b2 (decRemaining 1),
          comp := if (procAt (modifyAt u.ps b2 (decRemaining 1)) b2).remaining_time = 0
            then u.comp.set b2 (u.t + 1) else u.comp,
          t := u.t + 1, last := (procAt u.ps b2).id,
          start := if u.last ≠ (procAt u.ps b2).id then u.t else u.start,
          gantt := if u.last ≠ (procAt u.ps b2).id then finalizeBlock u.last u.start u.t u.gantt
            else u.gantt } := by
      unfold SRTF_body
      simp only [hb2]
    rw [hs] at hids
    rw [hu] at hids2
    rw [hs, hu]
    have hnew : procAt (modifyAt u.ps b2 (decRemaining 1)) b2
        = procAt (modifyAt s.ps b (decRemaining 1)) b := by
      rw [procAt_modifyAt_eq _ _ _ hb2n, procAt_modifyAt_eq _ _ _ hbn, hrec]
    have hcs : ∀ j, compClock (if (procAt (modifyAt s.ps b (decRemaining 1)) b).remaining_time = 0
          then s.comp.set b (s.t + 1) else s.comp) j
        = if (procAt (modifyAt s.ps b (decRemaining 1)) b).remaining_time = 0 ∧ j = b
          then s.t + 1 else compClock s.comp j := by
      intro j
      by_cases h0 : (procAt (modifyAt s.ps b (decRemaining 1)) b).remaining_time = 0
      · rw [if_pos h0, compClock_set _ _ _ _ (by rw [h.clen]; exact hbn)]
        by_cases hj : j = b
        · rw [if_pos hj, if_pos ⟨h0, hj⟩]
        · rw [if_neg hj, if_neg (fun hc => hj hc.2)]
      · rw [if_neg h0, if_neg (fun hc => h0 hc.1)]
    have hcu : ∀ i, compClock (if (procAt (modifyAt u.ps b2 (decRemaining 1)) b2).remaining_time
          = 0 then u.comp.set b2 (u.t + 1) else u.comp) i
        = if (procAt (modifyAt s.ps b (decRemaining 1)) b).remaining_time = 0 ∧ i = b2
          then s.t + 1 else compClock u.comp i := by
      intro i
      rw [hnew, h.t]
      by_cases h0 : (procAt (modifyAt s.ps b (decRemaining 1)) b).remaining_time = 0
      · rw [if_pos h0, compClock_set _ _ _ _ (by rw [h.clen2]; exact hb2n)]
        by_cases hi : i = b2
        · rw [if_pos hi, if_pos ⟨h0, hi⟩]
        · rw [if_neg hi, if_neg (fun hc => hi hc.2)]
      · rw [if_neg h0, if_neg (fun hc => h0 hc.1)]
    refine ⟨by show u.t + 1 = s.t + 1; rw [h.t], by show (procAt u.ps b2).id = _; rw [hrec],
      ?_, ?_, ?_, ?_, ?_, ?_, ?_, hids, hids2⟩
    · show (if u.last ≠ (procAt u.ps b2).id then u.t else u.start) = _
      rw [hrec, h.last, h.t, h.start]
    · show (if u.last ≠ (procAt u.ps b2).id then finalizeBlock u.last u.start u.t u.gantt
        else u.gantt) = _
      rw [hrec, h.last, h.t, h.start, h.gantt]
    · show (modifyAt u.ps b2 _).length = (modifyAt s.ps b _).length
      rw [length_modifyAt, length_modifyAt]; exact h.len
    · show (if _ then s.comp.set b (s.t + 1) else s.comp).length = (modifyAt s.ps b _).length
      rw [length_modifyAt]
      split
      · rw [List.length_set]; exact h.clen
      · exact h.clen
    · show (if _ then u.comp.set b2 (u.t + 1) else u.comp).length = (modifyAt u.ps b2 _).length
      rw [length_modifyAt]
      split
      · rw [List.length_set]; exact h.clen2
      · exact h.clen2
    · intro i hi
      have hi2 : i < u.ps.length := by
        have : i < (modifyAt u.ps b2 (decRemaining 1)).length := hi
        rwa [length_modifyAt] at this
      show ∃ j, j < (modifyAt s.ps b _).length ∧
        procAt (modifyAt u.ps b2 _) i = procAt (modifyAt s.ps b _) j ∧ compClock _ i = compClock _ j
      by_cases hib : i = b2
      · subst hib
        refine ⟨b, by rw [length_modifyAt]; exact hbn, hnew, ?_⟩
        rw [hcs, hcu]
        by_cases h0 : (procAt (modifyAt s.ps b (decRemaining 1)) b).remaining_time = 0
        · rw [if_pos ⟨h0, rfl⟩, if_pos ⟨h0, rfl⟩]
        · rw [if_neg (fun hc => h0 hc.1), if_neg (fun hc => h0 hc.1)]
          exact hcomp
      · obtain ⟨j, hj, hrj, hcj⟩ := h.fwd i hi2
        have hjb : j ≠ b := by
          intro hcon
          apply hib
          apply h.ids2 i b2 hi2 hb2n
          rw [hrj, hrec, hcon]
        refine ⟨j, by rw [length_modifyAt]; exact hj, ?_, ?_⟩
        · rw [procAt_modifyAt_ne _ _ _ _ hib, procAt_modifyAt_ne _ _ _ _ hjb]
          exact hrj
        · rw [hcs, hcu, if_neg (fun hc => hib hc.2), if_neg (fun hc => hjb hc.2)]
          exact hcj
    · intro j hj
      have hj2 : j < s.ps.length := by
        have : j < (modifyAt s.ps b (decRemaining 1)).length := hj
        rwa [length_modifyAt] at this
      show ∃ i, i < (modifyAt u.ps b2 _).length ∧
        procAt (modifyAt u.ps b2 _) i = procAt (modifyAt s.ps b _) j ∧ compClock _ i = compClock _ j
      by_cases hjb : j = b
      · subst hjb
        refine ⟨b2, by rw [length_modifyAt]; exact hb2n, hnew, ?_⟩
        rw [hcs, hcu]
        by_cases h0 : (procAt (modifyAt s.ps j (decRemaining 1)) j).remaining_time = 0
        · rw [if_pos ⟨h0, rfl⟩, if_pos ⟨h0, rfl⟩]
        · rw [if_neg (fun hc => h0 hc.1), if_neg (fun hc => h0 hc.1)]
          exact hcomp
      · obtain ⟨i, hi, hri, hci⟩ := h.bwd j hj2
        have hib : i ≠ b2 := by
          intro hcon
          apply hjb
          apply h.ids j b hj2 hbn
          rw [← hri, hcon, hrec]
        refine ⟨i, by rw [length_modifyAt]; exact hi, ?_, ?_⟩
        · rw [procAt_modifyAt_ne _ _ _ _ hib, procAt_modifyAt_ne _ _ _ _ hjb]
          exact hri
        · rw [hcs, hcu, if_neg (fun hc => hib hc.2), if_neg (fun hc => hjb hc.2)]
          exact hci

theorem IdsInj_of_nodup (ps : List Process) (h : (ps.map (fun p => p.id)).Nodup) : IdsInj ps :=
  fun i j hi hj he => ids_injective ps h i j hi hj he

theorem SRTFPerm_init (ps qs : List Process) (hperm : List.Perm qs ps)
    (hids : (ps.map (fun p => p.id)).Nodup) : SRTFPerm (SRTF_init ps) (SRTF_init qs) := by
  have hids2 : (qs.map (fun p => p.id)).Nodup := (hperm.map _).nodup_iff.mpr hids
  have hlen := hperm.length_eq
  have hcomp : ∀ (n i : Nat), compClock (List.replicate n (-1 : Int)) i = -1 := by
    intro n i
    unfold compClock
    by_cases hi : i < n
    · rw [List.getD_eq_getElem _ _ (by simpa using hi)]
      simp
    · rw [List.getD_eq_default _ _ (by simpa using hi)]
  have hrec : ∀ l : List Process, ∀ i, i < l.length →
      procAt (initRemaining l) i = { procAt l i with remaining_time := (procAt l i).burst_time } := by
    intro l i hi
    unfold initRemaining
    rw [procAt_map _ _ _ hi]
  refine ⟨rfl, rfl, rfl, rfl, ?_, ?_, ?_, ?_, ?_, ?_, ?_⟩
  · show (initRemaining qs).length = (initRemaining ps).length
    rw [length_initRemaining, length_initRemaining, hlen]
  · show (List.replicate ps.length (-1 : Int)).length = (initRemaining ps).length
    rw [length_initRemaining]; simp
  · show (List.replicate qs.length (-1 : Int)).length = (initRemaining qs).length
    rw [length_initRemaining]; simp
  · intro i hi
    have hi2 : i < qs.length := by
      have : i < (initRemaining qs).length := hi
      rwa [length_initRemaining] at this
    obtain ⟨j, hj, hj2⟩ := exists_procAt_of_mem ps _ (hperm.mem_iff.mp (procAt_mem qs i hi2))
    refine ⟨j, by show j < (initRemaining ps).length; rw [length_initRemaining]; exact hj, ?_, ?_⟩
    · show procAt (initRemaining qs) i = procAt (initRemaining ps) j
      rw [hrec qs i hi2, hrec ps j hj, hj2]
    · show compClock (List.replicate qs.length (-1 : Int)) i
        = compClock (List.replicate ps.length (-1 : Int)) j
      rw [hcomp, hcomp]
  · intro j hj
    have hj2 : j < ps.length := by
      have : j < (initRemaining ps).length := hj
      rwa [length_initRemaining] at this
    obtain ⟨i, hi, hi2⟩ := exists_procAt_of_mem qs _ (hperm.mem_iff.mpr (procAt_mem ps j hj2))
    refine ⟨i, by show i < (initRemaining qs).length; rw [length_initRemaining]; exact hi, ?_, ?_⟩
    · show procAt (initRemaining qs) i = procAt (initRemaining ps) j
      rw [hrec qs i hi, hrec ps j hj2, hi2]
    · show compClock (List.replicate qs.length (-1 : Int)) i
        = compClock (List.replicate ps.length (-1 : Int)) j
      rw [hcomp, hcomp]
  · exact IdsInj_kept (Kept_init ps) (IdsInj_of_nodup ps hids)
  · exact IdsInj_kept (Kept_init qs) (IdsInj_of_nodup qs hids2)

theorem SRTFPerm_iterate (s u : SRTFState) (h : SRTFPerm s u) :
    ∀ k, SRTFPerm (Nat.iterate SRTF_body k s) (Nat.iterate SRTF_body k u) := by
  intro k
  induction k with
  | zero => exact h
  | succ k ih =>
    rw [Function.iterate_succ_apply', Function.iterate_succ_apply']
    exact SRTFPerm_step _ _ ih

theorem SRTFPerm_anyLeft {s u : SRTFState} (h : SRTFPerm s u) :
    anyLeft u.ps = anyLeft s.ps := by
  rw [Bool.eq_iff_iff, anyLeft_eq_true, anyLeft_eq_true]
  constructor
  · rintro ⟨i, hi, hr⟩
    obtain ⟨j, hj, hrj, _⟩ := h.fwd i hi
    exact ⟨j, hj, by rw [← hrj]; exact hr⟩
  · rintro ⟨j, hj, hr⟩
    obtain ⟨i, hi, hri, _⟩ := h.bwd j hj
    exact ⟨i, hi, by rw [hri]; exact hr⟩

theorem SRTF_order_independent (ps qs : List Process) (hperm : List.Perm qs ps)
    (hids : (ps.map (fun p => p.id)).Nodup) (hb : ∀ p, p ∈ ps → 0 < p.burst_time)
    (hint : IntArrivals ps) :
    ∃ r r2, (∀ fuel, fuelBound ps ≤ fuel → SRTFScheduler_schedule fuel ps = some r) ∧
      (∀ fuel, fuelBound ps ≤ fuel → SRTFScheduler_schedule fuel qs = some r2) ∧
      SameSchedule r r2 := by
  obtain ⟨K, hK, hc, hexit, hinv, _, hfuel⟩ := SRTF_run_any ps hb hint
  have hall := SRTFPerm_iterate _ _ (SRTFPerm_init ps qs hperm hids)
  have hfuel2 : ∀ fuel, fuelBound ps ≤ fuel →
      whileLoop (fun s => anyLeft s.ps) SRTF_body fuel (SRTF_init qs)
        = some (Nat.iterate SRTF_body K (SRTF_init qs)) := by
    intro fuel hf
    apply whileLoop_iterate (fun s : SRTFState => anyLeft s.ps) SRTF_body K fuel (SRTF_init qs)
    · intro k hk
      show anyLeft (Nat.iterate SRTF_body k (SRTF_init qs)).ps = true
      rw [SRTFPerm_anyLeft (hall k)]
      exact hc k hk
    · show anyLeft (Nat.iterate SRTF_body K (SRTF_init qs)).ps = false
      rw [SRTFPerm_anyLeft (hall K)]
      exact hexit
    · omega
  have hP := hall K
  have hkept : Kept ps (Nat.iterate SRTF_body K (SRTF_init ps)).ps :=
    Kept_trans (Kept_init ps) (Kept_iterate SRTF_body (fun s : SRTFState => s.ps)
      (fun s => (SRTF_body_kept s).1) (SRTF_init ps) K)
  generalize Nat.iterate SRTF_body K (SRTF_init ps) = sK at *
  generalize Nat.iterate SRTF_body K (SRTF_init qs) = uK at *
  have hfin : ∀ i, i < sK.ps.length →
      procAt (finishWithComp sK.ps sK.comp) i = setMetrics (compClock sK.comp i) (procAt sK.ps i) :=
    fun i hi => procAt_finishWithComp _ _ i hi hP.clen
  have hfin2 : ∀ i, i < uK.ps.length →
      procAt (finishWithComp uK.ps uK.comp) i = setMetrics (compClock uK.comp i) (procAt uK.ps i) :=
    fun i hi => procAt_finishWithComp _ _ i hi hP.clen2
  have hl1 := length_finishWithComp sK.ps sK.comp hP.clen
  have hl2 := length_finishWithComp uK.ps uK.comp hP.clen2
  have hmem : ∀ q, q ∈ finishWithComp uK.ps uK.comp ↔ q ∈ finishWithComp sK.ps sK.comp := by
    intro q
    constructor
    · intro hq
      obtain ⟨i, hi, rfl⟩ := exists_procAt_of_mem _ q hq
      rw [hl2] at hi
      obtain ⟨j, hj, hrj, hcj⟩ := hP.fwd i hi
      rw [hfin2 i hi, hrj, hcj, ← hfin j hj]
      exact procAt_mem _ j (by rw [hl1]; exact hj)
    · intro hq
      obtain ⟨j, hj, rfl⟩ := exists_procAt_of_mem _ q hq
      rw [hl1] at hj
      obtain ⟨i, hi, hri, hci⟩ := hP.bwd j hj
      rw [hfin j hj, ← hri, ← hci, ← hfin2 i hi]
      exact procAt_mem _ i (by rw [hl2]; exact hi)
  have hidsr : ((finishWithComp sK.ps sK.comp).map (fun p => p.id)).Nodup := by
    have hk2 : Kept ps (finishWithComp sK.ps sK.comp) := by
      refine ⟨hl1.trans hkept.1, fun i => ?_⟩
      by_cases hi : i < sK.ps.length
      · rw [hfin i hi]
        exact Static_trans (hkept.2 i) (static_setMetrics _ _)
      · have h1 : procAt ps i = default := by
          unfold procAt
          rw [List.getD_eq_default _ _ (by rw [← hkept.1]; omega)]
        have h2 : procAt (finishWithComp sK.ps sK.comp) i = default := by
          unfold procAt
          rw [List.getD_eq_default _ _ (by rw [hl1]; omega)]
        rw [h1, h2]
        exact Static_refl _
    rw [Kept_ids hk2]
    exact hids
  have hnd1 : (finishWithComp sK.ps sK.comp).Nodup := List.Nodup.of_map _ hidsr
  have hperm2 : List.Perm (finishWithComp uK.ps uK.comp) (finishWithComp sK.ps sK.comp) := by
    have hidsInj : IdsInj (finishWithComp uK.ps uK.comp) := by
      intro i j hi hj he
      rw [hl2] at hi hj
      rw [hfin2 i hi, hfin2 j hj] at he
      exact hP.ids2 i j hi hj he
    have hnd2 : (finishWithComp uK.ps uK.comp).Nodup := by
      rw [List.nodup_iff_injective_get]
      intro a b hab
      apply Fin.ext
      apply hidsInj a.1 b.1 a.2 b.2
      have ha : procAt (finishWithComp uK.ps uK.comp) a.1 = (finishWithComp uK.ps uK.comp).get a := by
        unfold procAt
        rw [List.getD_eq_getElem _ _ a.2]
        rfl
      have hb2 : procAt (finishWithComp uK.ps uK.comp) b.1 = (finishWithComp uK.ps uK.comp).get b := by
        unfold procAt
        rw [List.getD_eq_getElem _ _ b.2]
        rfl
      rw [ha, hb2, hab]
    exact (List.perm_ext_iff_of_nodup hnd2 hnd1).mpr hmem
  refine ⟨{ ps := finishWithComp sK.ps sK.comp,
            gantt := finalizeBlock sK.last sK.start sK.t sK.gantt, total_time := sK.t },
    { ps := finishWithComp uK.ps uK.comp,
      gantt := finalizeBlock uK.last uK.start uK.t uK.gantt, total_time := uK.t },
    fun fuel hf => ?_, fun fuel hf => ?_, ?_, hP.t, hperm2, ?_⟩
  · unfold SRTFScheduler_schedule
    rw [hfuel fuel hf]
    rfl
  · unfold SRTFScheduler_schedule
    rw [hfuel2 fuel hf]
    rfl
  · show finalizeBlock uK.last uK.start uK.t uK.gantt = finalizeBlock sK.last sK.start sK.t sK.gantt
    rw [hP.last, hP.start, hP.t, hP.gantt]
  · intro p hp q hq hid
    have hq2 : q ∈ finishWithComp sK.ps sK.comp := (hmem q).mp hq
    have := List.inj_on_of_nodup_map hidsr hq2 hp hid
    rw [this]
    exact ⟨rfl, rfl⟩
/-! ## The clock stays in the range of `int` -/

theorem busy_ge (a r : Nat → Int) : ∀ (l : List Nat) (t : Int), t ≤ busyOver a r t l := by
  intro l
  induction l with
  | nil => intro t; exact le_refl _
  | cons j rest ih =>
    intro t
    simp only [busyOver]
    by_cases hj : 0 < r j
    · rw [if_pos hj]
      have h1 := ih (max t (a j) + r j)
      have h2 := le_max_left t (a j)
      omega
    · rw [if_neg hj]
      exact ih t

theorem busy_arrival (a r : Nat → Int) : ∀ (l : List Nat) (t : Int) (i : Nat),
    i ∈ l → 0 < r i → a i + r i ≤ busyOver a r t l := by
  intro l
  induction l with
  | nil => intro t i hi; cases hi
  | cons j rest ih =>
    intro t i hi hpos
    simp only [busyOver]
    rcases List.mem_cons.mp hi with h1 | h1
    · subst h1
      rw [if_pos hpos]
      have h1 := busy_ge a r rest (max t (a i) + r i)
      have h2 := le_max_right t (a i)
      omega
    · exact ih _ i h1 hpos

theorem workEnd_nonneg (ps : List Process) : 0 ≤ workEnd ps := busy_ge _ _ _ 0

theorem completion_le_workEnd (ps : List Process) (hb : ∀ p, p ∈ ps → 0 < p.burst_time)
    (p : Process) (hp : p ∈ ps) : p.arrival_time + p.burst_time ≤ workEnd ps := by
  obtain ⟨i, hi, rfl⟩ := exists_procAt_of_mem ps p hp
  exact busy_arrival (fun i => (procAt ps i).arrival_time) (fun i => (procAt ps i).burst_time)
    (List.range ps.length) 0 i (List.mem_range.mpr hi) (hb _ hp)

theorem intArrivals_of_clockFits (ps : List Process) (hrun : Runnable ps) (hfit : ClockFits ps) :
    IntArrivals ps := by
  intro p hp
  have h1 := completion_le_workEnd ps hrun.2 p hp
  have h2 := hrun.2 p hp
  have h3 := hfit.2
  omega

theorem clock_range_of_run {σ : Type} {cond : σ → Bool} {body : σ → σ} {Inv : σ → Prop}
    {R : σ → σ → Prop} {s0 : σ} {n K : Nat} (hrun : LoopRun cond body Inv R s0 n K)
    (ps : List Process) (hsorted : SortedByArrival ps) (psOf : σ → List Process)
    (tOf : σ → Int) (hframe : ∀ s, Inv s → Frame ps (psOf s)) (hpos : ∀ s, Inv s → 0 ≤ tOf s)
    (hrem0 : ∀ i, i < ps.length →
      (procAt (psOf s0) i).remaining_time = (procAt ps i).burst_time)
    (ht0 : tOf s0 = 0)
    (hstep : ∀ s, Inv s → cond s = true → SortedIdx (psOf s) →
      Kept (psOf s) (psOf (body s)) ∧
        ClockStep (psOf s) (psOf (body s)) (tOf s) (tOf (body s))) :
    ∀ k, k ≤ K →
      0 ≤ tOf (Nat.iterate body k s0) ∧ tOf (Nat.iterate body k s0) ≤ workEnd ps := by
  have hE := extra_inv hrun
    (fun s => busyOver (fun i => (procAt (psOf s) i).arrival_time)
        (fun i => (procAt (psOf s) i).remaining_time) (tOf s) (List.range ps.length)
      = workEnd ps) ?_ ?_
  · intro k hk
    refine ⟨hpos _ (hrun.2.2.2.1 k hk), ?_⟩
    rw [← hE k hk]
    exact busy_ge _ _ _ _
  · have hf := hframe s0 (hrun.2.2.2.1 0 (Nat.zero_le _))
    show busyOver _ _ (tOf s0) _ = workEnd ps
    rw [ht0]
    unfold workEnd
    apply busy_congr
    intro i hi
    have hi2 := List.mem_range.mp hi
    exact ⟨(hf.2 i hi2).2.1, hrem0 i hi2⟩
  · intro s hI hc hb
    have hf := hframe s hI
    have hs : SortedIdx (psOf s) := sortedIdx_of_sorted ps _ hsorted hf.1 hf.2
    obtain ⟨hk2, hcl⟩ := hstep s hI hc hs
    have := busy_clock hcl hk2 hs
    rw [hf.1] at this
    show busyOver _ _ (tOf (body s)) _ = workEnd ps
    rw [this]
    exact hb

theorem clockInt_of_run {σ : Type} {cond : σ → Bool} {body : σ → σ} {Inv : σ → Prop}
    {R : σ → σ → Prop} {s0 : σ} {n K : Nat} (hrun : LoopRun cond body Inv R s0 n K)
    (ps : List Process) (hsorted : SortedByArrival ps) (psOf : σ → List Process)
    (tOf : σ → Int) (hframe : ∀ s, Inv s → Frame ps (psOf s)) (hpos : ∀ s, Inv s → 0 ≤ tOf s)
    (hrem0 : ∀ i, i < ps.length →
      (procAt (psOf s0) i).remaining_time = (procAt ps i).burst_time)
    (ht0 : tOf s0 = 0)
    (hstep : ∀ s, Inv s → cond s = true → SortedIdx (psOf s) →
      Kept (psOf s) (psOf (body s)) ∧
        ClockStep (psOf s) (psOf (body s)) (tOf s) (tOf (body s)))
    (hfit : workEnd ps ≤ INT_MAX) : ClockInt cond body s0 tOf := by
  intro k hk
  have hkK : k ≤ K := by
    by_contra hcon
    have := hk K (by omega)
    rw [hrun.2.2.1] at this
    cases this
  obtain ⟨h1, h2⟩ :=
    clock_range_of_run hrun ps hsorted psOf tOf hframe hpos hrem0 ht0 hstep k hkK
  exact ⟨h1, le_trans h2 hfit⟩

/-- On a workload with `ClockFits` the clock of the SRTF loop is a value of type `int` in
every state that the loop visits. -/
theorem SRTF_clock_int (ps : List Process) (hrun : Runnable ps) (hfit : ClockFits ps) :
    ClockInt (fun s => anyLeft s.ps) SRTF_body (SRTF_init ps) (fun s => s.t) := by
  obtain ⟨K, hr⟩ := SRTF_run ps hrun (intArrivals_of_clockFits ps hrun hfit)
  exact clockInt_of_run hr ps hrun.1 (fun s => s.ps) (fun s => s.t) (fun s h => h.frame)
    (fun s h => h.acct.1) (fun i hi => ((init_jobs_plain ps).2 i hi).2) rfl
    (fun s hI hc _ => ⟨(SRTF_body_kept s).1, SRTF_clock ps s hI hc⟩) hfit.2

/-- The same for the Round Robin loop, run with a quantum of at least 1. -/
theorem RR_clock_int (quantum : Int) (hq : 1 ≤ quantum) (ps : List Process)
    (hrun : Runnable ps) (hfit : ClockFits ps) :
    ClockInt RR_cond (RR_body quantum) (RR_init ps) (fun s => s.t) := by
  obtain ⟨K, hr⟩ := RR_run quantum hq ps hrun
  exact clockInt_of_run hr ps hrun.1 (fun s => s.ps) (fun s => s.t) (fun s h => h.frame)
    (fun s h => h.acct.1) (fun i hi => ((init_jobs_plain ps).2 i hi).2) rfl
    (fun s hI hc hs => ⟨RR_body_kept quantum s, RR_clock quantum hq ps s hI hc hs⟩) hfit.2

/-- The same for the MLQ loop. -/
theorem MLQ_clock_int (ps : List Process) (hrun : Runnable ps) (hfit : ClockFits ps) :
    ClockInt (fun s => anyLeft s.ps) MLQ_body (MLQ_init ps) (fun s => s.t) := by
  obtain ⟨K, hr⟩ := MLQ_run ps hrun
  exact clockInt_of_run hr ps hrun.1 (fun s => s.ps) (fun s => s.t) (fun s h => h.frame)
    (fun s h => h.acct.1) (fun i hi => ((init_jobs_plain ps).2 i hi).2) rfl
    (fun s hI hc hs => ⟨MLQ_body_kept s, MLQ_clock ps s hI hc hs⟩) hfit.2

/-- The same for the MLFQ loop. -/
theorem MLFQ_clock_int (ps : List Process) (hrun : Runnable ps) (hfit : ClockFits ps) :
    ClockInt (fun s => anyLeft s.ps) MLFQ_body (MLFQ_init ps) (fun s => s.t) := by
  obtain ⟨K, hr⟩ := MLFQ_run ps hrun
  exact clockInt_of_run hr ps hrun.1 (fun s => s.ps) (fun s => s.t) (fun s h => h.frame)
    (fun s h => h.acct.1) (fun i hi => ((init_jobs_plain ps).2 i hi).2) rfl
    (fun s hI hc hs => ⟨(MLFQ_body_kept s).1, MLFQ_clock ps s hI hc hs⟩) hfit.2

/-- The same for the Lottery loop, whatever is drawn. -/
theorem Lottery_clock_int (draws : Nat → Nat) (ps : List Process) (hrun : Runnable ps)
    (hfit : ClockFits ps) :
    ClockInt (fun s => anyLeft s.ps) (Lottery_body draws (Lottery_tickets (initRemaining ps)))
      (Lottery_init ps) (fun s => s.t) := by
  obtain ⟨K, hr⟩ := Lottery_run draws ps hrun
  exact clockInt_of_run hr ps hrun.1 (fun s => s.ps) (fun s => s.t) (fun s h => h.frame)
    (fun s h => h.acct.1) (fun i hi => ((init_jobs_plain ps).2 i hi).2) rfl
    (fun s hI hc _ => ⟨Lottery_body_kept draws _ s, Lottery_clock draws _ ps s hI hc⟩) hfit.2

/-- The same for the CFS loop, whatever the priority queue hands out. -/
theorem CFS_clock_int (sel : List Process → List Nat → Nat) (ps : List Process)
    (hrun : Runnable ps) (hfit : ClockFits ps) :
    ClockInt (fun s => anyLeft s.ps) (CFS_body sel) (CFS_init ps) (fun s => s.t) := by
  obtain ⟨K, hr⟩ := CFS_run sel ps hrun
  exact clockInt_of_run hr ps hrun.1 (fun s => s.ps) (fun s => s.t) (fun s h => h.frame)
    (fun s h => h.acct.1)
    (fun i hi => ((init_jobs ps (fun p => { p with vruntime := 0 })
      (fun p => ⟨⟨rfl, rfl, rfl⟩, rfl⟩)).2 i hi).2) rfl
    (fun s hI hc hs => ⟨(CFS_body_kept sel s).1, CFS_clock sel ps s hI hc hs⟩) hfit.2

/-- The same for the EDF loop, whatever the priority queue hands out. -/
theorem EDF_clock_int (sel : List Process → List Nat → Nat) (ps : List Process)
    (hrun : Runnable ps) (hfit : ClockFits ps) :
    ClockInt (fun s => anyLeft s.ps) (EDF_body sel) (EDF_init ps) (fun s => s.t) := by
  obtain ⟨K, hr⟩ := EDF_run sel ps hrun
  have h0 : ∀ i, i < ps.length →
      (procAt (EDF_init ps).ps i).remaining_time = (procAt ps i).burst_time := by
    intro i hi
    have := (init_jobs ps
      (fun p => if p.deadline = 0 then { p with deadline := p.arrival_time + 2 * p.burst_time }
        else p)
      (fun p => by by_cases h : p.deadline = 0 <;> simp [h, SameJob])).2 i hi
    exact this.2
  exact clockInt_of_run hr ps hrun.1 (fun s => s.ps) (fun s => s.t) (fun s h => h.frame)
    (fun s h => h.acct.1) h0 rfl
    (fun s hI hc hs => ⟨(EDF_body_kept2 sel s).1, EDF_clock sel ps s hI hc hs⟩) hfit.2

/-- The same for the loop of SJF and Priority, whatever valid position `pick` returns. -/
theorem NP_clock_int (pick : List Process → List Nat → Int) (hpick : PickOK pick)
    (ps : List Process) (hrun : Runnable ps) (hfit : ClockFits ps) :
    ClockInt (NP_cond (sortedOrder (initRemaining ps)))
      (NP_body pick (sortedOrder (initRemaining ps)))
      { ps := initRemaining ps, t := 0, next := 0, rq := [], gantt := [] } (fun s => s.t) := by
  obtain ⟨K, hr⟩ := NP_run pick hpick ps hrun.2
  have hs0 : SortedIdx ps := sortedIdx_of_kept hrun.1 (Kept_refl ps)
  have hord : (sortedOrder (initRemaining ps)).Pairwise
      (fun x y => (procAt ps x).arrival_time ≤ (procAt ps y).arrival_time) := by
    have hk := Kept_init ps
    refine List.Pairwise.imp ?_ (sortedOrder_arrival (initRemaining ps))
    intro a b hab
    rw [← (hk.2 a).2.1, ← (hk.2 b).2.1]
    exact hab
  have hE := extra_inv hr
    (fun s => busyOver (fun i => (procAt ps i).arrival_time)
        (NP_left ps (sortedOrder (initRemaining ps)) s) s.t (List.range ps.length)
      = workEnd ps) ?_ ?_
  · intro k hk
    have hkK : k ≤ K := by
      by_contra hcon
      have := hk K (by omega)
      rw [hr.2.2.1] at this
      cases this
    refine ⟨(hr.2.2.2.1 k hkK).tpos, ?_⟩
    refine le_trans ?_ hfit.2
    rw [← hE k hkK]
    exact busy_ge _ _ _ _
  · show busyOver _ (NP_left ps (sortedOrder (initRemaining ps))
      { ps := initRemaining ps, t := 0, next := 0, rq := [], gantt := [] }) 0 _ = workEnd ps
    unfold workEnd
    apply busy_congr
    intro i _
    refine ⟨rfl, ?_⟩
    unfold NP_left
    simp
  · intro s hI hc hb
    rw [NP_busy_step pick hpick ps hs0 _ s hI hc hord]
    exact hb

/-- On a workload with `ClockFits` the clock of the FCFS loop ends at `workEnd`, a value of
type `int`, and so is every completion time `arrival_time + turnaround_time`. -/
theorem FCFS_clock_int (ps : List Process) (hrun : Runnable ps) (hfit : ClockFits ps) :
    0 ≤ (FCFSScheduler_schedule ps).total_time ∧
      (FCFSScheduler_schedule ps).total_time ≤ INT_MAX ∧
      ∀ q, q ∈ (FCFSScheduler_schedule ps).ps → q.arrival_time + q.turnaround_time ≤ INT_MAX := by
  have ht := FCFS_total_workEnd ps hrun
  have h0 := workEnd_nonneg ps
  have h1 := hfit.2
  refine ⟨by omega, by omega, ?_⟩
  intro q hq
  by_cases hne : ps = []
  · subst hne
    simp [FCFSScheduler_schedule, initRemaining, sortByArrival, FCFS_loop] at hq
  · have := ((FCFS_result ps hrun.2).2.1 hne).1 q hq
    omega

/-! ## `std::sort` on pairwise distinct arrival times -/

/-- A vector with pairwise distinct arrival times has one arrangement by non-decreasing
arrival time only: whatever `std::sort` leaves behind, it is that arrangement. -/
theorem arrivalSorted_unique (l sorted : List Process) (hd : DistinctArrivals l)
    (hs : SortedByArrival l) (h : ArrivalSorted l sorted) : sorted = l := by
  have hlt : ∀ m : List Process, SortedByArrival m → DistinctArrivals m →
      List.Sorted (fun a b : Process => a.arrival_time < b.arrival_time) m := by
    intro m h1 h2
    have := List.Pairwise.and h1 h2
    exact List.Pairwise.imp (fun hab => lt_of_le_of_ne hab.1 hab.2) this
  have hd2 : DistinctArrivals sorted :=
    (List.Perm.pairwise_iff (fun hxy => fun heq => hxy heq.symm) h.1).mpr hd
  haveI : IsAntisymm Process (fun a b : Process => a.arrival_time < b.arrival_time) :=
    ⟨fun a b h1 h2 => absurd h1 (not_lt.mpr (le_of_lt h2))⟩
  exact List.eq_of_perm_of_sorted h.1 (hlt sorted h.2 hd2) (hlt l hs hd)

theorem distinct_initRemaining (ps : List Process) (hd : DistinctArrivals ps) :
    DistinctArrivals (initRemaining ps) := by
  unfold DistinctArrivals initRemaining
  rw [List.pairwise_map]
  exact hd

/-- The stable sort of the embedding meets the requirements that the standard puts on
`std::sort`. -/
theorem sortByArrival_arrivalSorted (l : List Process) : ArrivalSorted l (sortByArrival l) := by
  refine ⟨List.perm_insertionSort _ l, ?_⟩
  haveI : IsTotal Process (fun a b : Process => a.arrival_time ≤ b.arrival_time) :=
    ⟨fun a b => le_total a.arrival_time b.arrival_time⟩
  haveI : IsTrans Process (fun a b : Process => a.arrival_time ≤ b.arrival_time) :=
    ⟨fun a b c h1 h2 => le_trans h1 h2⟩
  exact List.sorted_insertionSort _ l
/-! ## The size of the Lottery bag -/

theorem length_flatMap_range_le (f : Nat → List Nat) (c : Nat → Int)
    (h : ∀ j, ((f j).length : Int) ≤ c j) :
    ∀ n, (((List.range n).flatMap f).length : Int) ≤ ((List.range n).map c).sum := by
  intro n
  induction n with
  | zero => simp
  | succ n ih =>
    rw [List.range_succ, List.flatMap_append, List.length_append, List.map_append,
      List.sum_append]
    simp only [List.flatMap_cons, List.flatMap_nil, List.append_nil, List.map_cons,
      List.map_nil, List.sum_cons, List.sum_nil, add_zero]
    have := h n
    push_cast
    omega

theorem sum_map_getD_range (l : List Int) :
    ∀ n, n ≤ l.length → ((List.range n).map (fun i => l.getD i 0)).sum = (l.take n).sum := by
  intro n
  induction n with
  | zero => intro _; simp
  | succ n ih =>
    intro hn
    rw [List.range_succ, List.map_append, List.sum_append, ih (by omega)]
    have ht : l.take (n + 1) = l.take n ++ [l.getD n 0] := by
      rw [List.take_succ, List.getD_eq_getElem l 0 (by omega)]
      simp [List.getElem?_eq_getElem (show n < l.length by omega)]
    rw [ht, List.sum_append]
    simp

/-- The bag holds at most as many entries as there are tickets. -/
theorem Lottery_bag_length (tickets : List Int) (ps : List Process) (t : Int)
    (hlen : tickets.length = ps.length) (hpos : ∀ i, i < ps.length → 0 ≤ tickets.getD i 0) :
    ((Lottery_bag tickets ps t).length : Int) ≤ tickets.sum := by
  unfold Lottery_bag
  have h1 := length_flatMap_range_le
    (fun i => if (procAt ps i).remaining_time > 0 ∧ (procAt ps i).arrival_time ≤ t then
      List.replicate (tickets.getD i 0).toNat i else [])
    (fun i => max 0 (tickets.getD i 0)) (fun j => by
      show ((if (procAt ps j).remaining_time > 0 ∧ (procAt ps j).arrival_time ≤ t then
        List.replicate (tickets.getD j 0).toNat j else []).length : Int)
          ≤ max 0 (tickets.getD j 0)
      split
      · rw [List.length_replicate]
        omega
      · simp) ps.length
  refine le_trans h1 (le_of_eq ?_)
  have h2 : (List.range ps.length).map (fun i => max 0 (tickets.getD i 0))
      = (List.range ps.length).map (fun i => tickets.getD i 0) := by
    apply List.map_congr_left
    intro i hi
    exact max_eq_right (hpos i (List.mem_range.mp hi))
  rw [h2, sum_map_getD_range tickets ps.length (by omega), ← hlen, List.take_length]

/-- Under `BagFits` the bag of every state of the Lottery loop can be indexed by an `int`. -/
theorem Lottery_bag_int (draws : Nat → Nat) (ps : List Process) (hbag : BagFits ps) (k : Nat) :
    ((Lottery_bag (Lottery_tickets (initRemaining ps))
        (Nat.iterate (Lottery_body draws (Lottery_tickets (initRemaining ps))) k
          (Lottery_init ps)).ps
        (Nat.iterate (Lottery_body draws (Lottery_tickets (initRemaining ps))) k
          (Lottery_init ps)).t).length : Int) ≤ INT_MAX := by
  have hk : Kept ps (Nat.iterate (Lottery_body draws (Lottery_tickets (initRemaining ps))) k
      (Lottery_init ps)).ps := by
    induction k with
    | zero => exact Kept_init ps
    | succ k ih =>
      rw [Function.iterate_succ_apply']
      exact Kept_trans ih (Lottery_body_kept draws _ _)
  refine le_trans (Lottery_bag_length _ _ _ ?_ ?_) hbag
  · rw [hk.1]
    simp [Lottery_tickets, initRemaining]
  · intro i hi
    rw [hk.1] at hi
    have := (Lottery_tickets_value ps i hi).2.1
    omega
/-! ## Round Robin with quantum 0 changes no value -/

theorem RR_zero_step (s : RRState) (h : RRStuck s) :
    (∀ i, (procAt (RR_body 0 s).ps i).remaining_time = (procAt s.ps i).remaining_time) ∧
    ((RR_body 0 s).t = s.t ∨
      ∃ j, j < s.ps.length ∧ (RR_body 0 s).t = (procAt s.ps j).arrival_time) := by
  obtain ⟨h1, h2, h3, h4⟩ := h
  obtain ⟨n1, n2, _, _⟩ := newArrivals_spec s.ps s.t s.idx h1
  cases hq1 : s.q ++ newArrivals s.ps s.t s.idx with
  | nil =>
    obtain ⟨hrq1, hnew⟩ := List.append_eq_nil.mp hq1
    have i1 : s.idx < s.ps.length := by
      rcases h4 with h4 | h4
      · exact absurd hrq1 h4
      · exact h4
    have hbody : RR_body 0 s = { s with t := (procAt s.ps s.idx).arrival_time } := by
      unfold RR_body
      simp [hrq1, hnew, i1]
    rw [hbody]
    exact ⟨fun _ => rfl, Or.inr ⟨s.idx, i1, rfl⟩⟩
  | cons cur q2 =>
    have hmem1 : ∀ i, i ∈ s.q ++ newArrivals s.ps s.t s.idx → i < s.ps.length := by
      intro i hi
      rcases List.mem_append.mp hi with a | a
      · exact h2 i a
      · have := (mem_newArrivals s.ps s.t s.idx h1 i).mp a
        omega
    rw [hq1] at hmem1
    have hcur : cur < s.ps.length := hmem1 cur (List.mem_cons_self cur q2)
    have hrc := h3 cur hcur
    have hsl : min 0 (procAt s.ps cur).remaining_time = 0 := min_eq_left (le_of_lt hrc)
    have hd := RunsTo_dec s.ps cur 0 hcur
    generalize hps1 : modifyAt s.ps cur (decRemaining 0) = ps1 at *
    have hpos : (procAt ps1 cur).remaining_time > 0 := by rw [hd.2.2.2.2]; omega
    have hps : (RR_body 0 s).ps = ps1 ∧ (RR_body 0 s).t = s.t + 0 := by
      simp only [RR_body, hq1, hsl, hps1, if_pos hpos, and_self]
    rw [hps.1, hps.2]
    refine ⟨fun i => ?_, Or.inl (add_zero _)⟩
    by_cases hi : i = cur
    · rw [hi, hd.2.2.2.2]; omega
    · rw [hd.2.2.1 i hi]

/-- Round Robin with quantum 0 on processes whose arrival and burst times are values of type
`int`: the clock and every `remaining_time` are values of type `int` in every state. -/
theorem RR_zero_fits (ps : List Process) (hb : ∀ p, p ∈ ps → 0 < p.burst_time)
    (hne : ps ≠ [])
    (hint : ∀ p, p ∈ ps → FitsInt p.arrival_time ∧ FitsInt p.burst_time) :
    ∀ k, RRFits 0 ps k := by
  have hinit : RRStuck (RR_init ps) := by
    refine ⟨Nat.zero_le _, fun i hi => by simp [RR_init] at hi, fun i hi => ?_, Or.inr ?_⟩
    · have hi2 : i < ps.length := by
        have : (RR_init ps).ps.length = ps.length := length_initRemaining ps
        omega
      obtain ⟨_, b4⟩ := (init_jobs_plain ps).2 i hi2
      show 0 < (procAt (initRemaining ps) i).remaining_time
      rw [b4]
      exact hb _ (procAt_mem ps i hi2)
    · show 0 < (initRemaining ps).length
      rw [length_initRemaining]
      exact List.length_pos.mpr hne
  have hall : ∀ k, RRStuck (Nat.iterate (RR_body 0) k (RR_init ps)) ∧
      Kept ps (Nat.iterate (RR_body 0) k (RR_init ps)).ps ∧
      (∀ i, (procAt (Nat.iterate (RR_body 0) k (RR_init ps)).ps i).remaining_time
        = (procAt (initRemaining ps) i).remaining_time) ∧
      ((Nat.iterate (RR_body 0) k (RR_init ps)).t = 0 ∨
        ∃ j, j < ps.length ∧
          (Nat.iterate (RR_body 0) k (RR_init ps)).t = (procAt ps j).arrival_time) := by
    intro k
    induction k with
    | zero => exact ⟨hinit, Kept_init ps, fun _ => rfl, Or.inl rfl⟩
    | succ k ih =>
      rw [Function.iterate_succ_apply']
      obtain ⟨a1, a2, a3, a4⟩ := ih
      obtain ⟨b1, _, _⟩ := RR_stuck_step 0 (le_refl _) _ a1
      obtain ⟨c1, c2⟩ := RR_zero_step _ a1
      refine ⟨b1, Kept_trans a2 (RR_body_kept 0 _), fun i => (c1 i).trans (a3 i), ?_⟩
      rcases c2 with c2 | ⟨j, hj, c2⟩
      · rw [c2]; exact a4
      · right
        refine ⟨j, by rw [← a2.1]; exact hj, ?_⟩
        rw [c2, (a2.2 j).2.1]
  intro k j _
  obtain ⟨_, a2, a3, a4⟩ := hall j
  refine ⟨?_, fun i hi => ?_⟩
  · rcases a4 with a4 | ⟨m, hm, a4⟩
    · rw [a4]; decide
    · rw [a4]; exact (hint _ (procAt_mem ps m hm)).1
  · rw [a3 i, ((init_jobs_plain ps).2 i hi).2]
    exact (hint _ (procAt_mem ps i hi)).2
/-! ## FCFS after any `std::sort` -/

/-- The metrics and the makespan of FCFS, whatever arrangement of the processes by arrival
time `std::sort` has left behind. -/
theorem FCFS_result_from (ps sorted : List Process) (hb : ∀ p, p ∈ ps → 0 < p.burst_time)
    (hsort : ArrivalSorted (initRemaining ps) sorted) :
    TimelineMetrics ps (FCFS_schedule_from sorted) ∧
      (ps ≠ [] → IsMakespan (FCFS_schedule_from sorted)) ∧
      (JobsOK ps → OneSegmentEach ps (FCFS_schedule_from sorted).gantt) := by
  have hperm : List.Perm sorted (initRemaining ps) := hsort.1
  clear hsort
  have hbq : ∀ q, q ∈ sorted → 0 < q.burst_time := by
    intro q hq
    have := hperm.mem_iff.mp hq
    unfold initRemaining at this
    obtain ⟨p, hp, rfl⟩ := List.mem_map.mp this
    exact hb p hp
  obtain ⟨f1, f2, f3, f4, G, f5, f6, f7⟩ := FCFS_loop_spec _ 0 [] (le_refl _) hbq
  have hlen : (sorted).length = ps.length := by
    rw [hperm.length_eq, length_initRemaining]
  unfold FCFS_schedule_from
  simp only
  generalize sorted = qs at *
  generalize FCFS_loop qs 0 [] = r at *
  refine ⟨⟨by rw [f1, hlen], ?_, ?_⟩, ?_, ?_⟩
  · intro p hp
    have hm : ({ p with remaining_time := p.burst_time } : Process) ∈ qs :=
      hperm.mem_iff.mpr (by unfold initRemaining; exact List.mem_map.mpr ⟨p, hp, rfl⟩)
    obtain ⟨i, hi, hpi⟩ := exists_procAt_of_mem qs _ hm
    obtain ⟨⟨e1, e2, e3, _⟩, _⟩ := f3 i hi
    refine ⟨procAt r.1 i, procAt_mem _ i (by rw [f1]; exact hi), ?_⟩
    rw [hpi] at e1 e2 e3
    exact ⟨e1, e2, e3⟩
  · intro q hq
    obtain ⟨i, hi, rfl⟩ := exists_procAt_of_mem r.1 q hq
    rw [f1] at hi
    obtain ⟨⟨e1, e2, e3, _⟩, _, w, lo, _, g1, g2, hg, hc⟩ := f3 i hi
    have hbi := hbq _ (procAt_mem qs i hi)
    refine ⟨doneClock r.1 i, ⟨g1, g2, ?_, ?_⟩, metricsAt_of_done _ ?_ ?_ ?_⟩
    · rw [hg, e1, e3]; simp
    · rw [e3]; omega
    · rw [e3]; exact hbi
    · rw [e3]; exact w
    · unfold doneClock at lo
      rw [e3, e2]
      rw [e2] at lo
      exact lo
  · intro hne
    have hqne : qs ≠ [] := by
      intro h0
      rw [h0] at hlen
      exact hne (List.length_eq_zero.mp hlen.symm)
    refine ⟨?_, ?_⟩
    · intro q hq
      obtain ⟨i, hi, rfl⟩ := exists_procAt_of_mem r.1 q hq
      rw [f1] at hi
      exact (f3 i hi).2.2.2.2.1
    · obtain ⟨i, hi, hc⟩ := f4 hqne
      exact ⟨procAt r.1 i, procAt_mem _ i (by rw [f1]; exact hi), hc⟩
  · intro hj p hp
    show segments p.id r.2.1 = [(p.id, p.burst_time)]
    rw [f5, List.nil_append, f7 p.id (hj.1 p hp).2.2]
    have hnd : ((initRemaining ps).map (fun q => q.id)).Nodup := by
      unfold initRemaining
      rw [List.map_map]
      exact hj.2
    have hm : ({ p with remaining_time := p.burst_time } : Process) ∈ initRemaining ps := by
      unfold initRemaining; exact List.mem_map.mpr ⟨p, hp, rfl⟩
    have hfil := filter_id_unique (initRemaining ps) _ hnd hm
    have hp2 := hperm.filter (fun q => decide (q.id = p.id))
    rw [show (fun q : Process => decide (q.id = p.id))
        = (fun q => decide (q.id = ({ p with remaining_time := p.burst_time } : Process).id))
      from rfl] at hp2
    rw [hfil] at hp2
    rw [List.perm_singleton.mp hp2]
    rfl
/-! ## The clock at which FCFS ends does not depend on the order of equal arrivals -/

/-- The burst times of the processes of `l` that arrive at `x` or later. -/
theorem lateWork_le (l : List Process) (hb : ∀ p, p ∈ l → 0 < p.burst_time) (x : Int) :
    ((l.filter (fun q => decide (x ≤ q.arrival_time))).map (fun q => q.burst_time)).sum
      ≤ (l.map (fun q => q.burst_time)).sum := by
  induction l with
  | nil => simp
  | cons p rest ih =>
    have hp := hb p (List.mem_cons_self p rest)
    have ih2 := ih (fun q hq => hb q (List.mem_cons_of_mem p hq))
    by_cases hx : x ≤ p.arrival_time
    · simp only [List.filter_cons, hx, decide_True, if_true, List.map_cons, List.sum_cons]
      omega
    · simp only [List.filter_cons, hx, decide_False, Bool.false_eq_true, if_false,
        List.map_cons, List.sum_cons]
      omega

theorem lateWork_all (l : List Process) (x : Int) (h : ∀ q, q ∈ l → x ≤ q.arrival_time) :
    ((l.filter (fun q => decide (x ≤ q.arrival_time))).map (fun q => q.burst_time)).sum
      = (l.map (fun q => q.burst_time)).sum := by
  rw [List.filter_eq_self.mpr (fun q hq => by simpa using h q hq)]

/-- The final clock of the FCFS loop on a vector ordered by arrival time, as a bound: it is
at most `c` if and only if the start clock plus all work is at most `c` and, for every
process, its arrival time plus the work that arrives at that time or later is at most `c`. -/
theorem FCFS_total_le_iff : ∀ (l : List Process) (t : Int) (g : Gantt) (c : Int),
    SortedByArrival l → (∀ p, p ∈ l → 0 < p.burst_time) →
    ((FCFS_loop l t g).2.2 ≤ c ↔
      (t + (l.map (fun q => q.burst_time)).sum ≤ c ∧
        ∀ p, p ∈ l → p.arrival_time
          + ((l.filter (fun q => decide (p.arrival_time ≤ q.arrival_time))).map
              (fun q => q.burst_time)).sum ≤ c)) := by
  intro l
  induction l with
  | nil =>
    intro t g c _ _
    simp [FCFS_loop]
  | cons p rest ih =>
    intro t g c hs hb
    have hp := hb p (List.mem_cons_self p rest)
    have hb2 : ∀ q, q ∈ rest → 0 < q.burst_time := fun q hq => hb q (List.mem_cons_of_mem p hq)
    obtain ⟨hp1, hs2⟩ := List.pairwise_cons.mp hs
    have hstep : (FCFS_loop (p :: rest) t g).2.2
        = (FCFS_loop rest ((if t < p.arrival_time then p.arrival_time else t) + p.burst_time)
            ((if t < p.arrival_time then g ++ [("IDLE", p.arrival_time - t)] else g)
              ++ [(p.id, p.burst_time)])).2.2 := rfl
    rw [hstep, ih _ _ c hs2 hb2]
    have hall := lateWork_all rest p.arrival_time hp1
    have ht1 : (if t < p.arrival_time then p.arrival_time else t) = max t p.arrival_time := by
      split
      · rw [max_eq_right (by omega)]
      · rw [max_eq_left (by omega)]
    rw [ht1]
    simp only [List.map_cons, List.sum_cons, List.mem_cons, forall_eq_or_imp, List.filter_cons,
      le_refl, decide_True, if_true]
    rw [hall]
    constructor
    · rintro ⟨h1, h2⟩
      have hm1 := le_max_left t p.arrival_time
      have hm2 := le_max_right t p.arrival_time
      refine ⟨by omega, by omega, fun q hq => ?_⟩
      have hq1 := hp1 q hq
      have hq2 := h2 q hq
      have hq3 := lateWork_le rest hb2 q.arrival_time
      by_cases hpq : q.arrival_time ≤ p.arrival_time
      · simp only [hpq, decide_True, if_true, List.map_cons, List.sum_cons]
        omega
      · simp only [hpq, decide_False, Bool.false_eq_true, if_false]
        exact hq2
    · rintro ⟨h1, h2, h3⟩
      refine ⟨?_, fun q hq => ?_⟩
      · rcases le_total t p.arrival_time with h | h
        · rw [max_eq_right h]; omega
        · rw [max_eq_left h]; omega
      · have hq3 := h3 q hq
        by_cases hpq : q.arrival_time ≤ p.arrival_time
        · simp only [hpq, decide_True, if_true, List.map_cons, List.sum_cons] at hq3
          omega
        · simp only [hpq, decide_False, Bool.false_eq_true, if_false] at hq3
          exact hq3

/-- Two arrangements of the same processes by arrival time end at the same clock. -/
theorem FCFS_total_perm (l1 l2 : List Process) (t : Int) (g1 g2 : Gantt)
    (hperm : List.Perm l1 l2) (hs1 : SortedByArrival l1) (hs2 : SortedByArrival l2)
    (hb : ∀ p, p ∈ l2 → 0 < p.burst_time) :
    (FCFS_loop l1 t g1).2.2 = (FCFS_loop l2 t g2).2.2 := by
  have hb1 : ∀ p, p ∈ l1 → 0 < p.burst_time := fun p hp => hb p (hperm.mem_iff.mp hp)
  have key : ∀ c, (FCFS_loop l1 t g1).2.2 ≤ c ↔ (FCFS_loop l2 t g2).2.2 ≤ c := by
    intro c
    rw [FCFS_total_le_iff l1 t g1 c hs1 hb1, FCFS_total_le_iff l2 t g2 c hs2 hb]
    have hsum : (l1.map (fun q => q.burst_time)).sum = (l2.map (fun q => q.burst_time)).sum :=
      (hperm.map _).sum_eq
    have hw : ∀ x : Int,
        ((l1.filter (fun q => decide (x ≤ q.arrival_time))).map (fun q => q.burst_time)).sum
          = ((l2.filter (fun q => decide (x ≤ q.arrival_time))).map
              (fun q => q.burst_time)).sum :=
      fun x => ((hperm.filter _).map _).sum_eq
    rw [hsum]
    constructor
    · rintro ⟨h1, h2⟩
      exact ⟨h1, fun p hp => by rw [← hw]; exact h2 p (hperm.mem_iff.mpr hp)⟩
    · rintro ⟨h1, h2⟩
      exact ⟨h1, fun p hp => by rw [hw]; exact h2 p (hperm.mem_iff.mp hp)⟩
  exact le_antisymm ((key _).mpr (le_refl _)) ((key _).mp (le_refl _))

/-- Whatever arrangement by arrival time `std::sort` leaves behind, FCFS ends at `workEnd`. -/
theorem FCFS_from_total (ps sorted : List Process) (hrun : Runnable ps)
    (hsort : ArrivalSorted (initRemaining ps) sorted) :
    (FCFS_schedule_from sorted).total_time = workEnd ps := by
  rw [← FCFS_total_workEnd ps hrun]
  have hs : sortByArrival (initRemaining ps) = initRemaining ps :=
    sortByArrival_sorted _ (sorted_initRemaining ps hrun.1)
  show (FCFS_loop sorted 0 []).2.2 = (FCFS_loop (sortByArrival (initRemaining ps)) 0 []).2.2
  rw [hs]
  refine FCFS_total_perm _ _ 0 [] [] hsort.1 hsort.2 (sorted_initRemaining ps hrun.1) ?_
  intro p hp
  obtain ⟨i, hi, rfl⟩ := exists_procAt_of_mem _ p hp
  rw [length_initRemaining] at hi
  rw [(procAt_initRemaining ps i hi).1.2.2]
  exact hrun.2 _ (procAt_mem ps i hi)

/-- On a workload with `ClockFits`, whatever arrangement by arrival time `std::sort` leaves
behind, the clock of the FCFS loop ends at a value of type `int`, and so is every completion
time `arrival_time + turnaround_time`. -/
theorem FCFS_from_clock_int (ps sorted : List Process) (hrun : Runnable ps)
    (hfit : ClockFits ps) (hsort : ArrivalSorted (initRemaining ps) sorted) :
    0 ≤ (FCFS_schedule_from sorted).total_time ∧
      (FCFS_schedule_from sorted).total_time ≤ INT_MAX ∧
      ∀ q, q ∈ (FCFS_schedule_from sorted).ps → q.arrival_time + q.turnaround_time ≤ INT_MAX := by
  have ht := FCFS_from_total ps sorted hrun hsort
  have h0 := workEnd_nonneg ps
  have h1 := hfit.2
  refine ⟨by omega, by omega, ?_⟩
  intro q hq
  by_cases hne : ps = []
  · subst hne
    have hnil : sorted = [] := by
      have := hsort.1.length_eq
      simpa [initRemaining] using this
    subst hnil
    simp [FCFS_schedule_from, FCFS_loop] at hq
  · have := ((FCFS_result_from ps sorted hrun.2 hsort).2.1 hne).1 q hq
    omega

/-! ## The claims -/

/-- Claim C1 (evaluation of the code): on the well-formed workload
[(P1,0,2),(P2,5,3)], whose total burst time is 5, `SRTFScheduler::schedule` returns the
timeline [(P1,2),(IDLE,3),(P1,5),(P2,3)]: the block of P1 is emitted a second time after
the idle gap, and the non-IDLE durations sum to 10. -/
theorem C1_srtf_gap_timeline :
    WellFormed gapWorkload ∧ totalBurst gapWorkload = 5 ∧
      (SRTFScheduler_schedule (fuelBound gapWorkload) gapWorkload).map
          (fun r => (r.gantt, nonIdleSum r.gantt, r.total_time))
        = some ([("P1", 2), ("IDLE", 3), ("P1", 5), ("P2", 3)], 10, 8) := by
  decide


/-- Claim C2 (evaluation of the code): on the well-formed workload
[(P1,0,2),(P2,5,3)] with quantum 4, `RoundRobinScheduler::schedule` returns the timeline
[(P1,5),(P2,3)]: the block of P1 is closed only when P2 is dispatched at time 5, and the
non-IDLE durations sum to 8 while the total burst time is 5. -/
theorem C2_rr_gap_timeline :
    WellFormed gapWorkload ∧ totalBurst gapWorkload = 5 ∧
      (RoundRobinScheduler_schedule 4 (fuelBound gapWorkload) gapWorkload).map
          (fun r => (r.gantt, nonIdleSum r.gantt, r.total_time))
        = some ([("P1", 5), ("P2", 3)], 8, 8) := by
  decide

/-- Claim C3: for every well-formed workload the MLQ, MLFQ, CFS and EDF schedulers return
(for every fuel of at least the stated bound, and for every selection made by the priority
queue of CFS and EDF) a timeline whose non-IDLE durations sum to the total burst time and
in which the segments labelled with a process id sum to the burst time of that process.
MLQ, MLFQ and CFS put the slice that they take off `remaining_time` on the timeline.  EDF
computes the duration of a segment from the clock, as `now - start` in `finalizeBlock`; its
part is stated for the workloads on which the clock stays in the range of `int`
(`ClockFits`: no arrival time is negative and the last completion is at most `INT_MAX`), and
on those the clock of every visited state is between 0 and `INT_MAX`. -/
theorem C3_timeline_accounts (ps : List Process) (hwf : WellFormed ps)
    (selC selE : List Process → List Nat → Nat) :
    (∀ fuel, fuelBound ps ≤ fuel →
      ∃ r, MLQScheduler_schedule fuel ps = some r ∧ TimelineAccounts ps r.gantt) ∧
    (∀ fuel, MLFQ_fuelBound ps ≤ fuel →
      ∃ r, MLFQScheduler_schedule fuel ps = some r ∧ TimelineAccounts ps r.gantt) ∧
    (∀ fuel, fuelBound ps ≤ fuel →
      ∃ r, CFSScheduler_schedule selC fuel ps = some r ∧ TimelineAccounts ps r.gantt) ∧
    (ClockFits ps →
      ClockInt (fun s => anyLeft s.ps) (EDF_body selE) (EDF_init ps) (fun s => s.t) ∧
      ∀ fuel, fuelBound ps ≤ fuel →
        ∃ r, EDFScheduler_schedule selE fuel ps = some r ∧ TimelineAccounts ps r.gantt) := by
  refine ⟨?_, ?_, ?_, fun hfit => ⟨EDF_clock_int selE ps (runnable_of_wf hwf) hfit, ?_⟩⟩
  · obtain ⟨K, hs, hinv⟩ := MLQ_summary ps (runnable_of_wf hwf)
    intro fuel hf
    refine ⟨_, by unfold MLQScheduler_schedule; rw [hs.fuel fuel hf]; rfl, ?_⟩
    exact accounts_of_ginv ps _ _ hinv.frame (hinv.gi (idsOK_of_frame hwf hinv.frame))
      hs.done
  · obtain ⟨K, hs, hinv⟩ := MLFQ_summary ps (runnable_of_wf hwf)
    intro fuel hf
    refine ⟨_, by unfold MLFQScheduler_schedule; rw [hs.fuel fuel hf]; rfl, ?_⟩
    exact accounts_of_ginv ps _ _ hinv.frame (hinv.gi (idsOK_of_frame hwf hinv.frame))
      hs.done
  · obtain ⟨K, hs, hinv⟩ := CFS_summary selC ps (runnable_of_wf hwf)
    intro fuel hf
    refine ⟨_, by unfold CFSScheduler_schedule; rw [hs.fuel fuel hf]; rfl, ?_⟩
    exact accounts_of_ginv ps _ _ hinv.frame (hinv.gi (idsOK_of_frame hwf hinv.frame))
      hs.done
  · obtain ⟨K, hs, hinv⟩ := EDF_summary selE ps (runnable_of_wf hwf)
    intro fuel hf
    refine ⟨_, by unfold EDFScheduler_schedule; rw [hs.fuel fuel hf]; rfl, ?_⟩
    exact accounts_of_ginv ps _ _ hinv.frame
      (hinv.tl (idsOK_of_frame hwf hinv.frame)).2.1 hs.done

/-- Claim C3 at the built-in workload, with the priority queues handing out the first
minimal element. -/
theorem C3_timeline_accounts_witness :
    WellFormed builtinWorkload ∧
    ((∀ fuel, fuelBound builtinWorkload ≤ fuel →
      ∃ r, MLQScheduler_schedule fuel builtinWorkload = some r ∧
        TimelineAccounts builtinWorkload r.gantt) ∧
    (∀ fuel, MLFQ_fuelBound builtinWorkload ≤ fuel →
      ∃ r, MLFQScheduler_schedule fuel builtinWorkload = some r ∧
        TimelineAccounts builtinWorkload r.gantt) ∧
    (∀ fuel, fuelBound builtinWorkload ≤ fuel →
      ∃ r, CFSScheduler_schedule CFS_top fuel builtinWorkload = some r ∧
        TimelineAccounts builtinWorkload r.gantt) ∧
    (ClockFits builtinWorkload →
      ClockInt (fun s => anyLeft s.ps) (EDF_body EDF_top) (EDF_init builtinWorkload)
        (fun s => s.t) ∧
      ∀ fuel, fuelBound builtinWorkload ≤ fuel →
        ∃ r, EDFScheduler_schedule EDF_top fuel builtinWorkload = some r ∧
          TimelineAccounts builtinWorkload r.gantt)) ∧
    ClockFits builtinWorkload :=
  ⟨by decide, C3_timeline_accounts builtinWorkload (by decide) CFS_top EDF_top, by decide⟩

/-- Claim C4: for every workload that is sorted by arrival and has positive burst times and
on which the clock stays in the range of `int` (`ClockFits`: no arrival time is negative and
the last completion, `workEnd`, is at most `INT_MAX`), for every quantum of at least 1,
every sequence of draws of the Lottery and every selection made by the priority queues of
CFS and EDF, each of the ten schedulers returns (the looping ones for every fuel of at least
the stated bound) a process vector in which every process has waiting_time =
turnaround_time - burst_time, turnaround_time = completion_time - arrival_time >= 0,
waiting_time >= 0 and completion_time >= arrival_time + burst_time.  The completion time is
the end of the segment of the process on the timeline for FCFS, SJF and Priority, and the
clock at the end of the loop iteration that takes remaining_time to 0 for the other seven.
The part of FCFS holds for every vector `sorted` that its `std::sort` call may leave behind
(`ArrivalSorted`: a permutation ordered by arrival time).
The part of the Lottery is stated for the workloads whose tickets can be counted in an `int`
(`BagFits`).  Without `ClockFits` the clock of the program overflows and the metrics, which
are differences of clock values, do not satisfy the claim. -/
theorem C4_metrics (ps : List Process) (hrun : Runnable ps) (hfit : ClockFits ps)
    (quantum : Int) (hq : 1 ≤ quantum) (draws : Nat → Nat)
    (selC selE : List Process → List Nat → Nat) :
    (∀ sorted, ArrivalSorted (initRemaining ps) sorted →
      TimelineMetrics ps (FCFS_schedule_from sorted)) ∧
    (∃ r, (∀ fuel, ps.length ≤ fuel → SJFScheduler_schedule fuel ps = some r) ∧ TimelineMetrics ps r) ∧
    (∃ r, (∀ fuel, ps.length ≤ fuel → PriorityScheduler_schedule fuel ps = some r) ∧ TimelineMetrics ps r) ∧
    LoopMetrics ps (fun s => anyLeft s.ps) SRTF_body (SRTF_init ps)
      (fun s => s.ps) (fun s => s.t) (fun fuel => SRTFScheduler_schedule fuel ps)
      (fuelBound ps) ∧
    LoopMetrics ps RR_cond (RR_body quantum) (RR_init ps)
      (fun s => s.ps) (fun s => s.t) (fun fuel => RoundRobinScheduler_schedule quantum fuel ps)
      (fuelBound ps) ∧
    LoopMetrics ps (fun s => anyLeft s.ps) MLQ_body (MLQ_init ps)
      (fun s => s.ps) (fun s => s.t) (fun fuel => MLQScheduler_schedule fuel ps)
      (fuelBound ps) ∧
    LoopMetrics ps (fun s => anyLeft s.ps) MLFQ_body (MLFQ_init ps)
      (fun s => s.ps) (fun s => s.t) (fun fuel => MLFQScheduler_schedule fuel ps)
      (MLFQ_fuelBound ps) ∧
    (BagFits ps →
      LoopMetrics ps (fun s => anyLeft s.ps)
        (Lottery_body draws (Lottery_tickets (initRemaining ps))) (Lottery_init ps)
        (fun s => s.ps) (fun s => s.t) (fun fuel => LotteryScheduler_schedule draws fuel ps)
        (fuelBound ps)) ∧
    LoopMetrics ps (fun s => anyLeft s.ps) (CFS_body selC) (CFS_init ps)
      (fun s => s.ps) (fun s => s.t) (fun fuel => CFSScheduler_schedule selC fuel ps)
      (fuelBound ps) ∧
    LoopMetrics ps (fun s => anyLeft s.ps) (EDF_body selE) (EDF_init ps)
      (fun s => s.ps) (fun s => s.t) (fun fuel => EDFScheduler_schedule selE fuel ps)
      (fuelBound ps) := by
  obtain ⟨rs, s1, s2, _⟩ := NP_result SJF_pick SJF_pick_ok ps hrun.2
  obtain ⟨rp, p1, p2, _⟩ := NP_result Priority_pick Priority_pick_ok ps hrun.2
  refine ⟨fun sorted hs => (FCFS_result_from ps sorted hrun.2 hs).1, ⟨rs, s1, s2⟩, ⟨rp, p1, p2⟩, ?_, ?_, ?_, ?_, ?_, ?_, ?_⟩
  · obtain ⟨K, r, hs, hres, hfin, _⟩ :=
      SRTF_result ps hrun (intArrivals_of_clockFits ps hrun hfit)
    exact loopMetrics_of hs _ r hres _ hfin
  · obtain ⟨K, r, hs, hres, hfin, _⟩ := RR_result quantum hq ps hrun
    exact loopMetrics_of hs _ r hres _ hfin
  · obtain ⟨K, r, hs, hres, hfin, _⟩ := MLQ_result ps hrun
    exact loopMetrics_of hs _ r hres _ hfin
  · obtain ⟨K, r, hs, hres, hfin, _⟩ := MLFQ_result ps hrun
    exact loopMetrics_of hs _ r hres _ hfin
  · intro _
    obtain ⟨K, r, hs, hres, hfin, _⟩ := Lottery_result draws ps hrun
    exact loopMetrics_of hs _ r hres _ hfin
  · obtain ⟨K, r, hs, hres, hfin, _⟩ := CFS_result selC ps hrun
    exact loopMetrics_of hs _ r hres _ hfin
  · obtain ⟨K, r, hs, hres, hfin, _⟩ := EDF_result selE ps hrun
    exact loopMetrics_of hs _ r hres _ hfin

/-- Claim C4 at the built-in workload, with quantum 4, the draws 0, 1, 2, ... and the
priority queues handing out the first minimal element. -/
theorem C4_metrics_witness :
    Runnable builtinWorkload ∧ ClockFits builtinWorkload ∧ (1 : Int) ≤ 4 ∧
    BagFits builtinWorkload ∧
    ((∀ sorted, ArrivalSorted (initRemaining builtinWorkload) sorted →
      TimelineMetrics builtinWorkload (FCFS_schedule_from sorted)) ∧
    (∃ r, (∀ fuel, builtinWorkload.length ≤ fuel → SJFScheduler_schedule fuel builtinWorkload = some r) ∧ TimelineMetrics builtinWorkload r) ∧
    (∃ r, (∀ fuel, builtinWorkload.length ≤ fuel → PriorityScheduler_schedule fuel builtinWorkload = some r) ∧ TimelineMetrics builtinWorkload r) ∧
    LoopMetrics builtinWorkload (fun s => anyLeft s.ps) SRTF_body (SRTF_init builtinWorkload)
      (fun s => s.ps) (fun s => s.t) (fun fuel => SRTFScheduler_schedule fuel builtinWorkload)
      (fuelBound builtinWorkload) ∧
    LoopMetrics builtinWorkload RR_cond (RR_body 4) (RR_init builtinWorkload)
      (fun s => s.ps) (fun s => s.t) (fun fuel => RoundRobinScheduler_schedule 4 fuel builtinWorkload)
      (fuelBound builtinWorkload) ∧
    LoopMetrics builtinWorkload (fun s => anyLeft s.ps) MLQ_body (MLQ_init builtinWorkload)
      (fun s => s.ps) (fun s => s.t) (fun fuel => MLQScheduler_schedule fuel builtinWorkload)
      (fuelBound builtinWorkload) ∧
    LoopMetrics builtinWorkload (fun s => anyLeft s.ps) MLFQ_body (MLFQ_init builtinWorkload)
      (fun s => s.ps) (fun s => s.t) (fun fuel => MLFQScheduler_schedule fuel builtinWorkload)
      (MLFQ_fuelBound builtinWorkload) ∧
    (BagFits builtinWorkload →
      LoopMetrics builtinWorkload (fun s => anyLeft s.ps)
        (Lottery_body (fun k => k) (Lottery_tickets (initRemaining builtinWorkload)))
        (Lottery_init builtinWorkload)
        (fun s => s.ps) (fun s => s.t)
        (fun fuel => LotteryScheduler_schedule (fun k => k) fuel builtinWorkload)
        (fuelBound builtinWorkload)) ∧
    LoopMetrics builtinWorkload (fun s => anyLeft s.ps) (CFS_body CFS_top) (CFS_init builtinWorkload)
      (fun s => s.ps) (fun s => s.t) (fun fuel => CFSScheduler_schedule CFS_top fuel builtinWorkload)
      (fuelBound builtinWorkload) ∧
    LoopMetrics builtinWorkload (fun s => anyLeft s.ps) (EDF_body EDF_top) (EDF_init builtinWorkload)
      (fun s => s.ps) (fun s => s.t) (fun fuel => EDFScheduler_schedule EDF_top fuel builtinWorkload)
      (fuelBound builtinWorkload)) :=
  ⟨by decide, by decide, by decide, by decide,
    C4_metrics builtinWorkload (by decide) (by decide) 4 (by decide) (fun k => k)
      CFS_top EDF_top⟩

/-- Claim C5: on the built-in workload [(P1,0,8,2),(P2,1,4,1),(P3,2,9,3),(P4,3,5,4)]
`FCFSScheduler::schedule` returns the timeline [(P1,8),(P2,4),(P3,9),(P4,5)] and
total_time 26; the waiting times are 0 for P1 and 7 for P2 (and 10 for P3, 18 for P4). -/
theorem C5_fcfs_builtin :
    (FCFSScheduler_schedule builtinWorkload).gantt
        = [("P1", 8), ("P2", 4), ("P3", 9), ("P4", 5)] ∧
      (FCFSScheduler_schedule builtinWorkload).total_time = 26 ∧
      (FCFSScheduler_schedule builtinWorkload).ps.map (fun p => (p.id, p.waiting_time))
        = [("P1", 0), ("P2", 7), ("P3", 10), ("P4", 18)] := by
  decide

/-- Claim C6: on the built-in workload `SRTFScheduler::schedule` preempts P1 at time 1 in
favour of P2.  After the first loop iteration the clock is 1 and the remaining times are
7 (P1) and 4 (P2); the selection at that state is P2 (index 1); after the second iteration
the block of P1 is closed as (P1,1) and the open block is that of P2, started at 1.  The
returned timeline is [(P1,1),(P2,4),(P4,5),(P1,7),(P3,9)]: its first segment is (P1,1) and
its second segment is labelled P2. -/
theorem C6_srtf_builtin_preemption :
    ((SRTF_body (SRTF_init builtinWorkload)).t = 1 ∧
      (SRTF_body (SRTF_init builtinWorkload)).ps.map (fun p => (p.id, p.remaining_time))
        = [("P1", 7), ("P2", 4), ("P3", 9), ("P4", 5)] ∧
      SRTF_best (SRTF_body (SRTF_init builtinWorkload)).ps 1 = some 1) ∧
    ((SRTF_body (SRTF_body (SRTF_init builtinWorkload))).gantt = [("P1", 1)] ∧
      (SRTF_body (SRTF_body (SRTF_init builtinWorkload))).last = "P2" ∧
      (SRTF_body (SRTF_body (SRTF_init builtinWorkload))).start = 1) ∧
    (SRTFScheduler_schedule (fuelBound builtinWorkload) builtinWorkload).map
        (fun r => r.gantt)
      = some [("P1", 1), ("P2", 4), ("P4", 5), ("P1", 7), ("P3", 9)] := by
  decide

/-- Claim C7: for every workload with arrival_time >= 0, burst_time > 0 and unique
identifiers different from IDLE, the timelines returned by the FCFS, SJF and Priority
schedulers (the latter two for every fuel of at least the number of processes) hold, for
each process, exactly one segment labelled with its id, and the duration of that segment is
the burst time of the process. -/
theorem C7_one_segment (ps : List Process) (hj : JobsOK ps) :
    OneSegmentEach ps (FCFSScheduler_schedule ps).gantt ∧
    (∃ r, (∀ fuel, ps.length ≤ fuel → SJFScheduler_schedule fuel ps = some r) ∧ OneSegmentEach ps r.gantt) ∧
    (∃ r, (∀ fuel, ps.length ≤ fuel → PriorityScheduler_schedule fuel ps = some r) ∧ OneSegmentEach ps r.gantt) := by
  have hb : ∀ p, p ∈ ps → 0 < p.burst_time := fun p hp => (hj.1 p hp).2.1
  obtain ⟨rs, s1, _, _, s4⟩ := NP_result SJF_pick SJF_pick_ok ps hb
  obtain ⟨rp, p1, _, _, p4⟩ := NP_result Priority_pick Priority_pick_ok ps hb
  exact ⟨(FCFS_result ps hb).2.2 hj, ⟨rs, s1, s4 hj⟩, ⟨rp, p1, p4 hj⟩⟩

/-- Claim C7 at the built-in workload. -/
theorem C7_one_segment_witness :
    JobsOK builtinWorkload ∧
    (OneSegmentEach builtinWorkload (FCFSScheduler_schedule builtinWorkload).gantt ∧
    (∃ r, (∀ fuel, builtinWorkload.length ≤ fuel → SJFScheduler_schedule fuel builtinWorkload = some r) ∧ OneSegmentEach builtinWorkload r.gantt) ∧
    (∃ r, (∀ fuel, builtinWorkload.length ≤ fuel → PriorityScheduler_schedule fuel builtinWorkload = some r) ∧ OneSegmentEach builtinWorkload r.gantt)) :=
  ⟨by decide, C7_one_segment builtinWorkload (by decide)⟩

/-- Claim C8 (evaluation of the code): `RoundRobinScheduler::schedule` with quantum 4 records
no idle gap.  On [(P1,3,2)] the queue is empty at time 0 and the next arrival is at 3, yet the
timeline is [(P1,2)]: its durations sum to 2 while total_time is 5.  On [(P1,0,2),(P2,5,3)]
the timeline is [(P1,5),(P2,3)] and holds no IDLE segment for the gap from 2 to 5. -/
theorem C8_rr_idle_not_recorded :
    WellFormed lateWorkload ∧ WellFormed gapWorkload ∧
      (RoundRobinScheduler_schedule 4 (fuelBound lateWorkload) lateWorkload).map
          (fun r => (r.gantt, ganttTotal r.gantt, r.total_time))
        = some ([("P1", 2)], 2, 5) ∧
      (RoundRobinScheduler_schedule 4 (fuelBound gapWorkload) gapWorkload).map
          (fun r => (segments "IDLE" r.gantt, ganttTotal r.gantt, r.total_time))
        = some ([], 8, 8) := by
  decide


/-- Claim C9: for every non-empty workload that is sorted by arrival and has positive burst
times and on which the clock stays in the range of `int` (`ClockFits`: no arrival time is
negative and the last completion, `workEnd`, is at most `INT_MAX`), for every quantum of at
least 1, every sequence of draws of the Lottery and every selection made by the priority
queues, the total_time returned by each of the ten schedulers is the makespan: no process
has arrival_time + turnaround_time above it and some process attains it.  For the seven
looping schedulers it is moreover the final value of the loop clock t; in particular the
total_time that MLFQ recomputes as the maximum of arrival_time + turnaround_time is the
final value of its loop clock.  The part of FCFS holds for every vector `sorted` that its
`std::sort` call may leave behind (`ArrivalSorted`: a permutation ordered by arrival time).
The part of the Lottery is stated for the workloads whose tickets can be counted in an `int`
(`BagFits`).  Without `ClockFits` the clock of the program overflows and `total_time` is not
the last completion time. -/
theorem C9_makespan (ps : List Process) (hrun : Runnable ps) (hfit : ClockFits ps)
    (hne : ps ≠ []) (quantum : Int) (hq : 1 ≤ quantum) (draws : Nat → Nat)
    (selC selE : List Process → List Nat → Nat) :
    (∀ sorted, ArrivalSorted (initRemaining ps) sorted →
      IsMakespan (FCFS_schedule_from sorted)) ∧
    (∃ r, (∀ fuel, ps.length ≤ fuel → SJFScheduler_schedule fuel ps = some r) ∧ IsMakespan r) ∧
    (∃ r, (∀ fuel, ps.length ≤ fuel → PriorityScheduler_schedule fuel ps = some r) ∧ IsMakespan r) ∧
    LoopMakespan (fun s => anyLeft s.ps) SRTF_body (SRTF_init ps)
      (fun s => s.t) (fun fuel => SRTFScheduler_schedule fuel ps)
      (fuelBound ps) ∧
    LoopMakespan RR_cond (RR_body quantum) (RR_init ps)
      (fun s => s.t) (fun fuel => RoundRobinScheduler_schedule quantum fuel ps)
      (fuelBound ps) ∧
    LoopMakespan (fun s => anyLeft s.ps) MLQ_body (MLQ_init ps)
      (fun s => s.t) (fun fuel => MLQScheduler_schedule fuel ps)
      (fuelBound ps) ∧
    LoopMakespan (fun s => anyLeft s.ps) MLFQ_body (MLFQ_init ps)
      (fun s => s.t) (fun fuel => MLFQScheduler_schedule fuel ps)
      (MLFQ_fuelBound ps) ∧
    (BagFits ps →
      LoopMakespan (fun s => anyLeft s.ps)
        (Lottery_body draws (Lottery_tickets (initRemaining ps))) (Lottery_init ps)
        (fun s => s.t) (fun fuel => LotteryScheduler_schedule draws fuel ps)
        (fuelBound ps)) ∧
    LoopMakespan (fun s => anyLeft s.ps) (CFS_body selC) (CFS_init ps)
      (fun s => s.t) (fun fuel => CFSScheduler_schedule selC fuel ps)
      (fuelBound ps) ∧
    LoopMakespan (fun s => anyLeft s.ps) (EDF_body selE) (EDF_init ps)
      (fun s => s.t) (fun fuel => EDFScheduler_schedule selE fuel ps)
      (fuelBound ps) := by
  obtain ⟨rs, s1, _, s3, _⟩ := NP_result SJF_pick SJF_pick_ok ps hrun.2
  obtain ⟨rp, p1, _, p3, _⟩ := NP_result Priority_pick Priority_pick_ok ps hrun.2
  refine ⟨fun sorted hs => (FCFS_result_from ps sorted hrun.2 hs).2.1 hne, ⟨rs, s1, s3 hne⟩, ⟨rp, p1, p3 hne⟩,
    ?_, ?_, ?_, ?_, ?_, ?_, ?_⟩
  · obtain ⟨K, r, hs, hres, hfin, htot⟩ :=
      SRTF_result ps hrun (intArrivals_of_clockFits ps hrun hfit)
    exact loopMakespan_of hs _ r hres hfin htot hne
  · obtain ⟨K, r, hs, hres, hfin, htot⟩ := RR_result quantum hq ps hrun
    exact loopMakespan_of hs _ r hres hfin htot hne
  · obtain ⟨K, r, hs, hres, hfin, htot⟩ := MLQ_result ps hrun
    exact loopMakespan_of hs _ r hres hfin htot hne
  · obtain ⟨K, r, hs, hres, hfin, htot⟩ := MLFQ_result ps hrun
    exact loopMakespan_of hs _ r hres hfin (htot hne) hne
  · intro _
    obtain ⟨K, r, hs, hres, hfin, htot⟩ := Lottery_result draws ps hrun
    exact loopMakespan_of hs _ r hres hfin htot hne
  · obtain ⟨K, r, hs, hres, hfin, htot⟩ := CFS_result selC ps hrun
    exact loopMakespan_of hs _ r hres hfin htot hne
  · obtain ⟨K, r, hs, hres, hfin, htot⟩ := EDF_result selE ps hrun
    exact loopMakespan_of hs _ r hres hfin htot hne

/-- Claim C9 at the built-in workload, with quantum 4, the draws 0, 1, 2, ... and the
priority queues handing out the first minimal element. -/
theorem C9_makespan_witness :
    Runnable builtinWorkload ∧ ClockFits builtinWorkload ∧ builtinWorkload ≠ [] ∧
    (1 : Int) ≤ 4 ∧ BagFits builtinWorkload ∧
    ((∀ sorted, ArrivalSorted (initRemaining builtinWorkload) sorted →
      IsMakespan (FCFS_schedule_from sorted)) ∧
    (∃ r, (∀ fuel, builtinWorkload.length ≤ fuel → SJFScheduler_schedule fuel builtinWorkload = some r) ∧ IsMakespan r) ∧
    (∃ r, (∀ fuel, builtinWorkload.length ≤ fuel → PriorityScheduler_schedule fuel builtinWorkload = some r) ∧ IsMakespan r) ∧
    LoopMakespan (fun s => anyLeft s.ps) SRTF_body (SRTF_init builtinWorkload)
      (fun s => s.t) (fun fuel => SRTFScheduler_schedule fuel builtinWorkload)
      (fuelBound builtinWorkload) ∧
    LoopMakespan RR_cond (RR_body 4) (RR_init builtinWorkload)
      (fun s => s.t) (fun fuel => RoundRobinScheduler_schedule 4 fuel builtinWorkload)
      (fuelBound builtinWorkload) ∧
    LoopMakespan (fun s => anyLeft s.ps) MLQ_body (MLQ_init builtinWorkload)
      (fun s => s.t) (fun fuel => MLQScheduler_schedule fuel builtinWorkload)
      (fuelBound builtinWorkload) ∧
    LoopMakespan (fun s => anyLeft s.ps) MLFQ_body (MLFQ_init builtinWorkload)
      (fun s => s.t) (fun fuel => MLFQScheduler_schedule fuel builtinWorkload)
      (MLFQ_fuelBound builtinWorkload) ∧
    (BagFits builtinWorkload →
      LoopMakespan (fun s => anyLeft s.ps)
        (Lottery_body (fun k => k) (Lottery_tickets (initRemaining builtinWorkload)))
        (Lottery_init builtinWorkload)
        (fun s => s.t) (fun fuel => LotteryScheduler_schedule (fun k => k) fuel builtinWorkload)
        (fuelBound builtinWorkload)) ∧
    LoopMakespan (fun s => anyLeft s.ps) (CFS_body CFS_top) (CFS_init builtinWorkload)
      (fun s => s.t) (fun fuel => CFSScheduler_schedule CFS_top fuel builtinWorkload)
      (fuelBound builtinWorkload) ∧
    LoopMakespan (fun s => anyLeft s.ps) (EDF_body EDF_top) (EDF_init builtinWorkload)
      (fun s => s.t) (fun fuel => EDFScheduler_schedule EDF_top fuel builtinWorkload)
      (fuelBound builtinWorkload)) :=
  ⟨by decide, by decide, by decide, by decide, by decide,
    C9_makespan builtinWorkload (by decide) (by decide) (by decide) 4 (by decide)
      (fun k => k) CFS_top EDF_top⟩

/-- Claim C10: for every workload that is sorted by arrival and has positive burst times
(arrival times being values of an int), the scheduling loops of SRTF, MLQ, MLFQ, CFS and
EDF terminate: the loop condition fails after K iterations, K at most the stated bound, and
with any fuel of at least the bound the loop and the scheduler return.  In every state of
the run 0 <= remaining_time <= burst_time holds for every process, no iteration increases a
remaining_time, and in the final state and in the returned vector every remaining_time
is 0. -/
theorem C10_remaining (ps : List Process) (hrun : Runnable ps) (hint : IntArrivals ps)
    (selC selE : List Process → List Nat → Nat) :
    RemainingRun ps (fun s => anyLeft s.ps) SRTF_body (SRTF_init ps)
      (fun s => s.ps) (fun fuel => SRTFScheduler_schedule fuel ps)
      (fuelBound ps) ∧
    RemainingRun ps (fun s => anyLeft s.ps) MLQ_body (MLQ_init ps)
      (fun s => s.ps) (fun fuel => MLQScheduler_schedule fuel ps)
      (fuelBound ps) ∧
    RemainingRun ps (fun s => anyLeft s.ps) MLFQ_body (MLFQ_init ps)
      (fun s => s.ps) (fun fuel => MLFQScheduler_schedule fuel ps)
      (MLFQ_fuelBound ps) ∧
    RemainingRun ps (fun s => anyLeft s.ps) (CFS_body selC) (CFS_init ps)
      (fun s => s.ps) (fun fuel => CFSScheduler_schedule selC fuel ps)
      (fuelBound ps) ∧
    RemainingRun ps (fun s => anyLeft s.ps) (EDF_body selE) (EDF_init ps)
      (fun s => s.ps) (fun fuel => EDFScheduler_schedule selE fuel ps)
      (fuelBound ps) := by
  refine ⟨?_, ?_, ?_, ?_, ?_⟩
  · obtain ⟨K, r, hs, hres, hfin, _⟩ := SRTF_result ps hrun hint
    exact remainingRun_of hs _ r hres _ hfin
  · obtain ⟨K, r, hs, hres, hfin, _⟩ := MLQ_result ps hrun
    exact remainingRun_of hs _ r hres _ hfin
  · obtain ⟨K, r, hs, hres, hfin, _⟩ := MLFQ_result ps hrun
    exact remainingRun_of hs _ r hres _ hfin
  · obtain ⟨K, r, hs, hres, hfin, _⟩ := CFS_result selC ps hrun
    exact remainingRun_of hs _ r hres _ hfin
  · obtain ⟨K, r, hs, hres, hfin, _⟩ := EDF_result selE ps hrun
    exact remainingRun_of hs _ r hres _ hfin

/-- Claim C10 at the built-in workload, the priority queues handing out the first minimal
element. -/
theorem C10_remaining_witness :
    Runnable builtinWorkload ∧ IntArrivals builtinWorkload ∧
    (RemainingRun builtinWorkload (fun s => anyLeft s.ps) SRTF_body (SRTF_init builtinWorkload)
      (fun s => s.ps) (fun fuel => SRTFScheduler_schedule fuel builtinWorkload)
      (fuelBound builtinWorkload) ∧
    RemainingRun builtinWorkload (fun s => anyLeft s.ps) MLQ_body (MLQ_init builtinWorkload)
      (fun s => s.ps) (fun fuel => MLQScheduler_schedule fuel builtinWorkload)
      (fuelBound builtinWorkload) ∧
    RemainingRun builtinWorkload (fun s => anyLeft s.ps) MLFQ_body (MLFQ_init builtinWorkload)
      (fun s => s.ps) (fun fuel => MLFQScheduler_schedule fuel builtinWorkload)
      (MLFQ_fuelBound builtinWorkload) ∧
    RemainingRun builtinWorkload (fun s => anyLeft s.ps) (CFS_body CFS_top) (CFS_init builtinWorkload)
      (fun s => s.ps) (fun fuel => CFSScheduler_schedule CFS_top fuel builtinWorkload)
      (fuelBound builtinWorkload) ∧
    RemainingRun builtinWorkload (fun s => anyLeft s.ps) (EDF_body EDF_top) (EDF_init builtinWorkload)
      (fun s => s.ps) (fun fuel => EDFScheduler_schedule EDF_top fuel builtinWorkload)
      (fuelBound builtinWorkload)) :=
  ⟨by decide, by decide,
    C10_remaining builtinWorkload (by decide) (by decide) CFS_top EDF_top⟩

/-- Claim C11: for every workload that is sorted by arrival and has positive burst times, on
which the clock stays in the range of `int` (`ClockFits`: no arrival time is negative and
the last completion, `workEnd`, is at most `INT_MAX`) and whose tickets can be counted in an
`int` (`BagFits`), and for every stream of draws, the loop of `LotteryScheduler::schedule`
leaves after K iterations, K at most `fuelBound`, and the scheduler returns for every fuel of
at least that bound; at most (sum of burst_time) of the K iterations are dispatches; every
returned process has remaining_time 0; if the identifiers are unique, non-empty and
different from IDLE, the timeline segments of each process sum to its burst time (and all
non-IDLE segments to the total burst time); the bag never holds more than `INT_MAX`
entries; and the clock of every visited state is between 0 and `INT_MAX`.  Without
`ClockFits` the clock of the program overflows, after which the test `arrival_time <= t`
that fills the bag fails for a process that has arrived. -/
theorem C11_lottery_terminates (draws : Nat → Nat) (ps : List Process) (hrun : Runnable ps)
    (hfit : ClockFits ps) (hbag : BagFits ps) :
    (∀ k, ((Lottery_bag (Lottery_tickets (initRemaining ps))
        (Nat.iterate (Lottery_body draws (Lottery_tickets (initRemaining ps))) k
          (Lottery_init ps)).ps
        (Nat.iterate (Lottery_body draws (Lottery_tickets (initRemaining ps))) k
          (Lottery_init ps)).t).length : Int) ≤ INT_MAX) ∧
    ClockInt (fun s => anyLeft s.ps) (Lottery_body draws (Lottery_tickets (initRemaining ps)))
      (Lottery_init ps) (fun s => s.t) ∧
    ∃ K r, K ≤ fuelBound ps ∧
      (∀ k, k < K →
        anyLeft (Nat.iterate (Lottery_body draws (Lottery_tickets (initRemaining ps))) k
          (Lottery_init ps)).ps = true) ∧
      anyLeft (Nat.iterate (Lottery_body draws (Lottery_tickets (initRemaining ps))) K
          (Lottery_init ps)).ps = false ∧
      (∀ fuel, fuelBound ps ≤ fuel → LotteryScheduler_schedule draws fuel ps = some r) ∧
      ((Lottery_dispatches draws (Lottery_tickets (initRemaining ps)) (Lottery_init ps) K
          : Nat) : Int) ≤ totalBurst ps ∧
      r.ps.length = ps.length ∧ (∀ q ∈ r.ps, q.remaining_time = 0) ∧
      (IdsOK ps → TimelineAccounts ps r.gantt) := by
  obtain ⟨K, hloop⟩ := Lottery_run draws ps hrun
  have hinv := hloop.2.2.2.1 K (le_refl _)
  have hs := summary_of_run ps _ (Lottery_init ps) (fun s => s.ps)
    (fun s => doneClock s.ps) (fun s => s.t) (LotteryInv ps _) _ K hloop (fun s h => h.frame)
    (fun s h => h.acct) (fun s h => h.lastd) (fun i hi => ((init_jobs_plain ps).2 i hi).2)
  have hfin := final_direct hs hrun.2 hinv.met
  refine ⟨Lottery_bag_int draws ps hbag, Lottery_clock_int draws ps hrun hfit, K, _, hs.le,
    hs.conds, hs.exit,
    fun fuel hf => by unfold LotteryScheduler_schedule; rw [hs.fuel fuel hf]; rfl,
    ?_, hfin.1, FinalOK_remaining hfin, ?_⟩
  · have hb := Lottery_dispatch_bound draws ps K hloop K (le_refl _)
    have h0 := remSum_initial ps (Lottery_init ps).ps (init_jobs_plain ps).1
      (fun j hj => ((init_jobs_plain ps).2 j hj).2)
    unfold fuelBound at h0
    have hc := sum_toNat_cast ps (fun p hp => le_of_lt (hrun.2 p hp))
    rw [← hc]
    have : Lottery_dispatches draws (Lottery_tickets (initRemaining ps)) (Lottery_init ps) K
        ≤ (ps.map (fun p => p.burst_time.toNat)).sum := by omega
    exact_mod_cast this
  · intro hids
    exact accounts_of_ginv ps _ _ hinv.frame (hinv.gi (idsOK_frame hids hinv.frame)) hs.done

/-- Claim C11 at the built-in workload with the draws 0, 1, 2, ... -/
theorem C11_lottery_terminates_witness :
    Runnable builtinWorkload ∧ ClockFits builtinWorkload ∧ BagFits builtinWorkload ∧
    IdsOK builtinWorkload ∧
    (∀ k, ((Lottery_bag (Lottery_tickets (initRemaining builtinWorkload))
        (Nat.iterate
          (Lottery_body (fun k => k) (Lottery_tickets (initRemaining builtinWorkload))) k
          (Lottery_init builtinWorkload)).ps
        (Nat.iterate
          (Lottery_body (fun k => k) (Lottery_tickets (initRemaining builtinWorkload))) k
          (Lottery_init builtinWorkload)).t).length : Int) ≤ INT_MAX) ∧
    ClockInt (fun s => anyLeft s.ps)
      (Lottery_body (fun k => k) (Lottery_tickets (initRemaining builtinWorkload)))
      (Lottery_init builtinWorkload) (fun s => s.t) ∧
    ∃ K r, K ≤ fuelBound builtinWorkload ∧
      (∀ k, k < K →
        anyLeft (Nat.iterate
          (Lottery_body (fun k => k) (Lottery_tickets (initRemaining builtinWorkload))) k
          (Lottery_init builtinWorkload)).ps = true) ∧
      anyLeft (Nat.iterate
          (Lottery_body (fun k => k) (Lottery_tickets (initRemaining builtinWorkload))) K
          (Lottery_init builtinWorkload)).ps = false ∧
      (∀ fuel, fuelBound builtinWorkload ≤ fuel →
        LotteryScheduler_schedule (fun k => k) fuel builtinWorkload = some r) ∧
      ((Lottery_dispatches (fun k => k) (Lottery_tickets (initRemaining builtinWorkload))
          (Lottery_init builtinWorkload) K : Nat) : Int) ≤ totalBurst builtinWorkload ∧
      r.ps.length = builtinWorkload.length ∧ (∀ q ∈ r.ps, q.remaining_time = 0) ∧
      (IdsOK builtinWorkload → TimelineAccounts builtinWorkload r.gantt) :=
  ⟨by decide, by decide, by decide, by decide,
    C11_lottery_terminates (fun k => k) builtinWorkload (by decide) (by decide) (by decide)⟩

/-- Claim C12 (evaluation of the code): on the built-in workload the FCFS, SJF and Priority
schedulers return process records whose remaining_time is still the burst time (8, 4, 9, 5):
`initRemaining` sets it and the three loops never decrease it. -/
theorem C12_nonpreemptive_remaining :
    (FCFSScheduler_schedule builtinWorkload).ps.map (fun p => (p.id, p.remaining_time))
        = [("P1", 8), ("P2", 4), ("P3", 9), ("P4", 5)] ∧
      (SJFScheduler_schedule builtinWorkload.length builtinWorkload).map
          (fun r => r.ps.map (fun p => (p.id, p.remaining_time)))
        = some [("P1", 8), ("P2", 4), ("P3", 9), ("P4", 5)] ∧
      (PriorityScheduler_schedule builtinWorkload.length builtinWorkload).map
          (fun r => r.ps.map (fun p => (p.id, p.remaining_time)))
        = some [("P1", 8), ("P2", 4), ("P3", 9), ("P4", 5)] := by
  decide

/-- Claim C14 (evaluation of the code): on the well-formed workload
[(C,0,2),(B,0,3),(A,1,3)] `SJFScheduler::schedule` runs C first; at time 2 the ready list
holds B (index 1) and A (index 2), which tie on burst_time 3, and `pick` returns position 1,
that is A, although B arrived earlier.  The returned timeline is [(C,2),(A,3),(B,3)]. -/
theorem C14_sjf_tie_by_id_only :
    WellFormed sjfTieWorkload ∧
      (NP_push (sortedOrder (initRemaining sjfTieWorkload))
        (NP_body SJF_pick (sortedOrder (initRemaining sjfTieWorkload))
          { ps := initRemaining sjfTieWorkload, t := 0, next := 0, rq := [], gantt := [] })).t
        = 2 ∧
      (NP_push (sortedOrder (initRemaining sjfTieWorkload))
        (NP_body SJF_pick (sortedOrder (initRemaining sjfTieWorkload))
          { ps := initRemaining sjfTieWorkload, t := 0, next := 0, rq := [], gantt := [] })).rq
        = [1, 2] ∧
      SJF_pick (initRemaining sjfTieWorkload) [1, 2] = 1 ∧
      (SJFScheduler_schedule sjfTieWorkload.length sjfTieWorkload).map (fun r => r.gantt)
        = some [("C", 2), ("A", 3), ("B", 3)] := by
  decide

/-- Claim C15 (evaluation of the code): on the well-formed workload [(B,0,5),(A,2,3)]
`SRTFScheduler::schedule` has, after two iterations, the clock at 2 and remaining_time 3 for
both processes; the selection at that state is A (index 1), although B arrived earlier.  The
returned timeline is [(B,2),(A,3),(B,3)]. -/
theorem C15_srtf_tie_by_id_only :
    WellFormed srtfTieWorkload ∧
      (SRTF_body (SRTF_body (SRTF_init srtfTieWorkload))).t = 2 ∧
      (SRTF_body (SRTF_body (SRTF_init srtfTieWorkload))).ps.map
          (fun p => (p.id, p.arrival_time, p.remaining_time))
        = [("B", 0, 3), ("A", 2, 3)] ∧
      SRTF_best (SRTF_body (SRTF_body (SRTF_init srtfTieWorkload))).ps 2 = some 1 ∧
      (SRTFScheduler_schedule (fuelBound srtfTieWorkload) srtfTieWorkload).map
          (fun r => r.gantt)
        = some [("B", 2), ("A", 3), ("B", 3)] := by
  decide

/-- Claim C16 (evaluation of the code): on the well-formed workload
[(A,0,10,0),(B,1,1,5),(C,9,1,3)] `PriorityScheduler::schedule` returns the timeline
[(A,10),(C,1),(B,1)]: at time 10 it compares the unchanged priority values 5 (B) and 3 (C)
and runs C before B; the priority fields of the returned records are still 0, 5 and 3. -/
theorem C16_priority_no_aging :
    WellFormed agingWorkload ∧
      (PriorityScheduler_schedule agingWorkload.length agingWorkload).map
          (fun r => (r.gantt, r.ps.map (fun p => (p.id, p.priority, p.waiting_time))))
        = some ([("A", 10), ("C", 1), ("B", 1)], [("A", 0, 0), ("B", 5, 10), ("C", 3, 1)]) := by
  decide

/-- Claim C17: for every workload that is sorted by arrival and has positive burst times,
and for every behaviour of the priority queue that hands out an element of minimal
deadline, the loop of `EDFScheduler::schedule` leaves after K iterations (K at most
`fuelBound`), and every iteration k < K that decreases the remaining_time of a process i
runs it for exactly the time unit from t to t + 1 (t the clock before the iteration), where
i has arrived, is unfinished, and has the smallest deadline among all processes j with
arrival_time <= t and remaining_time > 0. -/
theorem C17_edf_min_deadline (sel : List Process → List Nat → Nat)
    (hsel : TopMin (fun ps i => (procAt ps i).deadline) sel) (ps : List Process)
    (hrun : Runnable ps) :
    ∃ K, K ≤ fuelBound ps ∧
      (∀ fuel, fuelBound ps ≤ fuel →
        whileLoop (fun s => anyLeft s.ps) (EDF_body sel) fuel (EDF_init ps)
          = some (Nat.iterate (EDF_body sel) K (EDF_init ps))) ∧
      ∀ k, k < K → ∀ i,
        (procAt (Nat.iterate (EDF_body sel) (k + 1) (EDF_init ps)).ps i).remaining_time
          < (procAt (Nat.iterate (EDF_body sel) k (EDF_init ps)).ps i).remaining_time →
        (Nat.iterate (EDF_body sel) (k + 1) (EDF_init ps)).t
          = (Nat.iterate (EDF_body sel) k (EDF_init ps)).t + 1 ∧
        (procAt (Nat.iterate (EDF_body sel) (k + 1) (EDF_init ps)).ps i).remaining_time
          = (procAt (Nat.iterate (EDF_body sel) k (EDF_init ps)).ps i).remaining_time - 1 ∧
        i < ps.length ∧
        (procAt (Nat.iterate (EDF_body sel) k (EDF_init ps)).ps i).arrival_time
          ≤ (Nat.iterate (EDF_body sel) k (EDF_init ps)).t ∧
        0 < (procAt (Nat.iterate (EDF_body sel) k (EDF_init ps)).ps i).remaining_time ∧
        ∀ j, j < ps.length →
          (procAt (Nat.iterate (EDF_body sel) k (EDF_init ps)).ps j).arrival_time
            ≤ (Nat.iterate (EDF_body sel) k (EDF_init ps)).t →
          0 < (procAt (Nat.iterate (EDF_body sel) k (EDF_init ps)).ps j).remaining_time →
          (procAt (Nat.iterate (EDF_body sel) k (EDF_init ps)).ps i).deadline
            ≤ (procAt (Nat.iterate (EDF_body sel) k (EDF_init ps)).ps j).deadline := by
  obtain ⟨K, hK, _, _, hinv, _, hfuel⟩ := EDF_run sel ps hrun
  refine ⟨K, hK, hfuel, ?_⟩
  intro k hk i hlt
  have hI := hinv k (le_of_lt hk)
  rw [Function.iterate_succ_apply'] at hlt ⊢
  generalize Nat.iterate (EDF_body sel) k (EDF_init ps) = s at *
  have hsort : SortedIdx s.ps := sortedIdx_of_sorted ps s.ps hrun.1 hI.frame.1 hI.frame.2
  obtain ⟨a1, a2, a3, a4, a5, a6⟩ := EDF_select sel hsel ps s hI hsort i hlt
  rw [hI.frame.1] at a3 a6
  exact ⟨a1, a2, a3, a4, a5, a6⟩

/-- Claim C17 at the built-in workload, the priority queue handing out the first element of
minimal deadline. -/
theorem C17_edf_min_deadline_witness :
    TopMin (fun ps i => (procAt ps i).deadline) EDF_top ∧ Runnable builtinWorkload ∧
    ∃ K, K ≤ fuelBound builtinWorkload ∧
      (∀ fuel, fuelBound builtinWorkload ≤ fuel →
        whileLoop (fun s => anyLeft s.ps) (EDF_body EDF_top) fuel (EDF_init builtinWorkload)
          = some (Nat.iterate (EDF_body EDF_top) K (EDF_init builtinWorkload))) ∧
      ∀ k, k < K → ∀ i,
        (procAt (Nat.iterate (EDF_body EDF_top) (k + 1)
            (EDF_init builtinWorkload)).ps i).remaining_time
          < (procAt (Nat.iterate (EDF_body EDF_top) k
              (EDF_init builtinWorkload)).ps i).remaining_time →
        (Nat.iterate (EDF_body EDF_top) (k + 1) (EDF_init builtinWorkload)).t
          = (Nat.iterate (EDF_body EDF_top) k (EDF_init builtinWorkload)).t + 1 ∧
        (procAt (Nat.iterate (EDF_body EDF_top) (k + 1)
            (EDF_init builtinWorkload)).ps i).remaining_time
          = (procAt (Nat.iterate (EDF_body EDF_top) k
              (EDF_init builtinWorkload)).ps i).remaining_time - 1 ∧
        i < builtinWorkload.length ∧
        (procAt (Nat.iterate (EDF_body EDF_top) k (EDF_init builtinWorkload)).ps i).arrival_time
          ≤ (Nat.iterate (EDF_body EDF_top) k (EDF_init builtinWorkload)).t ∧
        0 < (procAt (Nat.iterate (EDF_body EDF_top) k
              (EDF_init builtinWorkload)).ps i).remaining_time ∧
        ∀ j, j < builtinWorkload.length →
          (procAt (Nat.iterate (EDF_body EDF_top) k
              (EDF_init builtinWorkload)).ps j).arrival_time
            ≤ (Nat.iterate (EDF_body EDF_top) k (EDF_init builtinWorkload)).t →
          0 < (procAt (Nat.iterate (EDF_body EDF_top) k
              (EDF_init builtinWorkload)).ps j).remaining_time →
          (procAt (Nat.iterate (EDF_body EDF_top) k (EDF_init builtinWorkload)).ps i).deadline
            ≤ (procAt (Nat.iterate (EDF_body EDF_top) k
                (EDF_init builtinWorkload)).ps j).deadline :=
  ⟨EDF_top_min, by decide,
    C17_edf_min_deadline EDF_top EDF_top_min builtinWorkload (by decide)⟩

/-- Claim C18: `EDFScheduler::schedule` returns for every workload that is sorted by arrival
and has positive burst times (for every fuel of at least `fuelBound`, whatever the priority
queue hands out), and whenever it returns on a workload whose default deadlines can be
computed in `int` (`DeadlineFits`: for every process with input deadline 0 both
`2 * burst_time` and `arrival_time + 2 * burst_time` are values of type `int`), the returned
vector holds one record per input process, in the input order, in which the deadline is
arrival_time + 2 * burst_time, a value of type `int`, if the input deadline was 0, and the
input deadline otherwise.  Without `DeadlineFits` the sum overflows in the program and the
stored deadline is not arrival_time + 2 * burst_time. -/
theorem C18_edf_deadlines (sel : List Process → List Nat → Nat) (ps : List Process)
    (hrun : Runnable ps) (hdl : DeadlineFits ps) :
    (∃ r, ∀ fuel, fuelBound ps ≤ fuel → EDFScheduler_schedule sel fuel ps = some r) ∧
    ∀ fuel r, EDFScheduler_schedule sel fuel ps = some r →
      r.ps.length = ps.length ∧
      ∀ i, i < ps.length →
        SameJob (procAt ps i) (procAt r.ps i) ∧
        ((procAt ps i).deadline = 0 →
          (procAt r.ps i).deadline
            = (procAt ps i).arrival_time + 2 * (procAt ps i).burst_time ∧
          FitsInt (procAt r.ps i).deadline) ∧
        ((procAt ps i).deadline ≠ 0 → (procAt r.ps i).deadline = (procAt ps i).deadline) := by
  refine ⟨?_, ?_⟩
  · obtain ⟨K, r, _, hres, _, _⟩ := EDF_result sel ps hrun
    exact ⟨r, hres⟩
  · intro fuel r h
    unfold EDFScheduler_schedule at h
    cases hw : whileLoop (fun s => anyLeft s.ps) (EDF_body sel) fuel (EDF_init ps) with
    | none => rw [hw] at h; cases h
    | some s =>
      rw [hw] at h
      simp only [Option.map_some', Option.some.injEq] at h
      obtain ⟨K, _, hs, _, _⟩ := whileLoop_some _ _ fuel _ _ hw
      obtain ⟨f1, f2, f3⟩ := EDF_iterate_frame sel (EDF_init ps) K
      rw [← hs] at f1 f2 f3
      have l0 : (EDF_init ps).ps.length = ps.length := by
        simp [EDF_init, EDF_setDeadlines, initRemaining]
      have c0 : (EDF_init ps).comp.length = ps.length := by simp [EDF_init]
      have hlen : s.comp.length = s.ps.length := by rw [f1, f2, l0, c0]
      rw [← h]
      refine ⟨by rw [length_finishWithComp _ _ hlen, f1, l0], ?_⟩
      intro i hi
      have hi2 : i < s.ps.length := by rw [f1, l0]; exact hi
      show SameJob (procAt ps i) (procAt (finishWithComp s.ps s.comp) i) ∧
        ((procAt ps i).deadline = 0 →
          (procAt (finishWithComp s.ps s.comp) i).deadline = _ ∧
          FitsInt (procAt (finishWithComp s.ps s.comp) i).deadline) ∧
        ((procAt ps i).deadline ≠ 0 → (procAt (finishWithComp s.ps s.comp) i).deadline = _)
      rw [procAt_finishWithComp _ _ i hi2 hlen]
      obtain ⟨e1, e2, e3, _, e5⟩ := f3 i
      have hd := EDF_init_deadline ps i hi
      have hjob : SameJob (procAt ps i) (procAt (EDF_init ps).ps i) := by
        show SameJob _ (procAt (EDF_setDeadlines (initRemaining ps)) i)
        unfold EDF_setDeadlines
        rw [procAt_map _ _ _ (by rw [length_initRemaining]; exact hi)]
        obtain ⟨j1, j2, j3⟩ := (procAt_initRemaining ps i hi).1
        by_cases h0 : (procAt (initRemaining ps) i).deadline = 0
        · rw [if_pos h0]; exact ⟨j1, j2, j3⟩
        · rw [if_neg h0]; exact ⟨j1, j2, j3⟩
      refine ⟨⟨?_, ?_, ?_⟩, ?_, ?_⟩
      · show (procAt s.ps i).id = _
        rw [e1]; exact hjob.1
      · show (procAt s.ps i).arrival_time = _
        rw [e2]; exact hjob.2.1
      · show (procAt s.ps i).burst_time = _
        rw [e3]; exact hjob.2.2
      · intro h0
        have heq : (procAt s.ps i).deadline
            = (procAt ps i).arrival_time + 2 * (procAt ps i).burst_time := by
          rw [e5, hd, if_pos h0]
        refine ⟨heq, ?_⟩
        show FitsInt (procAt s.ps i).deadline
        rw [heq]
        exact (hdl _ (procAt_mem ps i hi) h0).2
      · intro h0
        show (procAt s.ps i).deadline = _
        rw [e5, hd, if_neg h0]

/-- Claim C18 at the built-in workload (all input deadlines are 0), the priority queue
handing out the first element of minimal deadline. -/
theorem C18_edf_deadlines_witness :
    Runnable builtinWorkload ∧ DeadlineFits builtinWorkload ∧
    ((∃ r, ∀ fuel, fuelBound builtinWorkload ≤ fuel →
        EDFScheduler_schedule EDF_top fuel builtinWorkload = some r) ∧
    ∀ fuel r, EDFScheduler_schedule EDF_top fuel builtinWorkload = some r →
      r.ps.length = builtinWorkload.length ∧
      ∀ i, i < builtinWorkload.length →
        SameJob (procAt builtinWorkload i) (procAt r.ps i) ∧
        ((procAt builtinWorkload i).deadline = 0 →
          (procAt r.ps i).deadline
            = (procAt builtinWorkload i).arrival_time
              + 2 * (procAt builtinWorkload i).burst_time ∧
          FitsInt (procAt r.ps i).deadline) ∧
        ((procAt builtinWorkload i).deadline ≠ 0 →
          (procAt r.ps i).deadline = (procAt builtinWorkload i).deadline)) :=
  ⟨by decide, by decide, C18_edf_deadlines EDF_top builtinWorkload (by decide) (by decide)⟩

/-- Claim C19 (evaluation of the code): on the input [(B,0,1),(A,0,1)], sorted by
arrival_time, the first admission step of `RoundRobinScheduler::schedule` (quantum 4) queues
index 0 (B) before index 1 (A); B is run first and the returned timeline is [(B,1),(A,1)],
with waiting times 0 for B and 1 for A. -/
theorem C19_rr_admission_input_order :
    WellFormed rrTieWorkload ∧
      newArrivals (RR_init rrTieWorkload).ps 0 0 = [0, 1] ∧
      (RR_body 4 (RR_init rrTieWorkload)).last = "B" ∧
      (RR_body 4 (RR_init rrTieWorkload)).q = [1] ∧
      (RoundRobinScheduler_schedule 4 (fuelBound rrTieWorkload) rrTieWorkload).map
          (fun r => (r.gantt, r.ps.map (fun p => (p.id, p.waiting_time))))
        = some ([("B", 1), ("A", 1)], [("B", 0), ("A", 1)]) := by
  decide

/-- Claim C20 (evaluation of the code): on the well-formed workload [(P1,0,2),(P2,5,3)]
`SRTFScheduler::schedule` returns total_time 8 and the timeline
[(P1,2),(IDLE,3),(P1,5),(P2,3)], whose durations sum to 13: the last segment, of P2, ends at
13 on the timeline and not at total_time. -/
theorem C20_srtf_last_segment_end :
    WellFormed gapWorkload ∧
      (SRTFScheduler_schedule (fuelBound gapWorkload) gapWorkload).map
          (fun r => (r.gantt, r.gantt.getLast?, ganttTotal r.gantt, r.total_time))
        = some ([("P1", 2), ("IDLE", 3), ("P1", 5), ("P2", 3)], some ("P2", 3), 13, 8) := by
  decide

/-- Claim C21: in SRTF, jumping the clock to the next arrival when no process is eligible is a
refinement of stepping through the idle time.  For every workload that is sorted by arrival
with positive burst times (arrival times being values of type `int`), `SRTFScheduler::schedule`
and the variant whose loop advances the clock by one unit while nothing is eligible both
terminate, and they return the same process records (hence the same `waiting_time` and
`turnaround_time` for every process) and the same `total_time`. -/
theorem C21_srtf_idle_jump (ps : List Process) (hrun : Runnable ps) (hint : IntArrivals ps) :
    ∃ r r2, (∀ fuel, fuelBound ps ≤ fuel → SRTFScheduler_schedule fuel ps = some r) ∧
      (∀ fuel, r.total_time.toNat ≤ fuel → SRTF_unitStep_schedule fuel ps = some r2) ∧
      r2.ps = r.ps ∧ r2.total_time = r.total_time := by
  obtain ⟨K0, hloop⟩ := SRTF_run ps hrun hint
  obtain ⟨m, hsim, hconds⟩ := SRTF_sim_run_all ps K0 hloop K0 (le_refl _)
  obtain ⟨r1, r2, r3, r4, r5, r6⟩ := hloop
  obtain ⟨s1, s2, s3⟩ := hsim
  have hexit : anyLeft (Nat.iterate SRTF_unitStep_body m (SRTF_init ps)).ps = false := by
    rw [s1]; exact r3
  have hm : (Nat.iterate SRTF_body K0 (SRTF_init ps)).t = (m : Int) := by
    rw [← s3, SRTF_unit_clock_iterate]
    show (0 : Int) + m = m
    omega
  refine ⟨{ ps := finishWithComp (Nat.iterate SRTF_body K0 (SRTF_init ps)).ps
                    (Nat.iterate SRTF_body K0 (SRTF_init ps)).comp,
            gantt := finalizeBlock (Nat.iterate SRTF_body K0 (SRTF_init ps)).last
                    (Nat.iterate SRTF_body K0 (SRTF_init ps)).start
                    (Nat.iterate SRTF_body K0 (SRTF_init ps)).t
                    (Nat.iterate SRTF_body K0 (SRTF_init ps)).gantt,
            total_time := (Nat.iterate SRTF_body K0 (SRTF_init ps)).t },
    { ps := finishWithComp (Nat.iterate SRTF_unitStep_body m (SRTF_init ps)).ps
                    (Nat.iterate SRTF_unitStep_body m (SRTF_init ps)).comp,
      gantt := finalizeBlock (Nat.iterate SRTF_unitStep_body m (SRTF_init ps)).last
                    (Nat.iterate SRTF_unitStep_body m (SRTF_init ps)).start
                    (Nat.iterate SRTF_unitStep_body m (SRTF_init ps)).t
                    (Nat.iterate SRTF_unitStep_body m (SRTF_init ps)).gantt,
      total_time := (Nat.iterate SRTF_unitStep_body m (SRTF_init ps)).t },
    fun fuel hf => by unfold SRTFScheduler_schedule; rw [r6 fuel hf]; rfl,
    fun fuel hf => ?_, ?_, ?_⟩
  · unfold SRTF_unitStep_schedule
    rw [whileLoop_iterate (fun s => anyLeft s.ps) SRTF_unitStep_body m fuel (SRTF_init ps)
      hconds hexit (by
        have hf2 : (Nat.iterate SRTF_body K0 (SRTF_init ps)).t.toNat ≤ fuel := hf
        rw [hm] at hf2
        simpa using hf2)]
    rfl
  · show finishWithComp _ _ = finishWithComp _ _
    rw [s1, s2]
  · exact s3

theorem C21_srtf_idle_jump_witness :
    Runnable gapWorkload ∧ IntArrivals gapWorkload ∧
      ∃ r r2, (∀ fuel, fuelBound gapWorkload ≤ fuel →
          SRTFScheduler_schedule fuel gapWorkload = some r) ∧
        (∀ fuel, r.total_time.toNat ≤ fuel →
          SRTF_unitStep_schedule fuel gapWorkload = some r2) ∧
        r2.ps = r.ps ∧ r2.total_time = r.total_time :=
  ⟨by decide, by decide, C21_srtf_idle_jump gapWorkload (by decide) (by decide)⟩

/-- Claim C22: on a process set whose sums can be computed in `int` (`BusyFits`: the number of
processes and every partial sum of the burst times that `std::accumulate` forms are values of
type `int`), `calculateMetrics`, in exact arithmetic, computes
`cpu_util = (sum of burst_time) / total_time * 100` and `throughput = n / total_time` when
`total_time` is not `0`, returns `0` for both when `total_time = 0`, and for a non-empty
process set `avg_wait` and `avg_turn` are the arithmetic means of `waiting_time` and
`turnaround_time`.  Without `BusyFits` the accumulator `int busy` of the program overflows
and `cpu_util` is not computed from the sum of the burst times. -/
theorem C22_metrics_exact (ps : List Process) (total_time : Int) (hfit : BusyFits ps) :
    FitsInt (totalBurst ps) ∧
    (total_time ≠ 0 →
      (calculateMetrics ps total_time).cpu_util
          = ((totalBurst ps : Int) : Rat) / (total_time : Rat) * 100 ∧
        (calculateMetrics ps total_time).throughput = (ps.length : Rat) / (total_time : Rat)) ∧
    (total_time = 0 →
      (calculateMetrics ps total_time).cpu_util = 0 ∧
        (calculateMetrics ps total_time).throughput = 0) ∧
    (ps ≠ [] →
      (calculateMetrics ps total_time).avg_wait
          = some ((ps.map (fun p => (p.waiting_time : Rat))).sum / (ps.length : Rat)) ∧
        (calculateMetrics ps total_time).avg_turn
          = some ((ps.map (fun p => (p.turnaround_time : Rat))).sum / (ps.length : Rat))) := by
  refine ⟨by have := hfit.2 ps.length (le_refl _); rwa [List.take_length] at this,
    fun h => ?_, fun h => ?_, fun h => ?_⟩
  · simp only [calculateMetrics, if_pos h, foldl_add_int, totalBurst, zero_add, Int.cast_natCast,
      and_self]
  · simp [calculateMetrics, h]
  · have hn : ((ps.length : Nat) : Int) ≠ 0 := by
      have := List.length_pos.mpr h
      omega
    simp only [calculateMetrics, divByCount, if_neg hn, foldl_add_rat, zero_add,
      Int.cast_natCast, and_self]

/-- Claim C22 at the built-in workload with `total_time = 26`. -/
theorem C22_metrics_exact_witness :
    BusyFits builtinWorkload ∧
    (FitsInt (totalBurst builtinWorkload) ∧
    ((26 : Int) ≠ 0 →
      (calculateMetrics builtinWorkload 26).cpu_util
          = ((totalBurst builtinWorkload : Int) : Rat) / ((26 : Int) : Rat) * 100 ∧
        (calculateMetrics builtinWorkload 26).throughput
          = (builtinWorkload.length : Rat) / ((26 : Int) : Rat)) ∧
    ((26 : Int) = 0 →
      (calculateMetrics builtinWorkload 26).cpu_util = 0 ∧
        (calculateMetrics builtinWorkload 26).throughput = 0) ∧
    (builtinWorkload ≠ [] →
      (calculateMetrics builtinWorkload 26).avg_wait
          = some ((builtinWorkload.map (fun p => (p.waiting_time : Rat))).sum
              / (builtinWorkload.length : Rat)) ∧
        (calculateMetrics builtinWorkload 26).avg_turn
          = some ((builtinWorkload.map (fun p => (p.turnaround_time : Rat))).sum
              / (builtinWorkload.length : Rat)))) :=
  ⟨by decide, C22_metrics_exact builtinWorkload 26 (by decide)⟩

/-- Claim C23, as stated, fails: on the empty process set (with `total_time = 0`) the two
averages that `calculateMetrics` returns are not `0`; the division by the process count is
not guarded and yields the undefined quotient `0 / 0`. -/
theorem C23_empty_average_not_zero :
    (calculateMetrics [] 0).avg_wait ≠ some 0 ∧ (calculateMetrics [] 0).avg_turn ≠ some 0 := by
  constructor <;> simp [calculateMetrics, divByCount]

/-- Claim C23 (amended): `calculateMetrics` divides by the process count without a guard.  On
the empty process set it does not fail, both averages are the undefined quotient `0 / 0`
(not a number, and not `0`), and `cpu_util` and `throughput` are `0` for every
`total_time`. -/
theorem C23_empty_metrics (total_time : Int) :
    calculateMetrics [] total_time
      = { avg_wait := none, avg_turn := none, cpu_util := 0, throughput := 0 } := by
  simp [calculateMetrics, divByCount]

/-- Claim C24, as stated, fails: `main` accepts the name `prio`, which is none of the ten
names of the claim, and runs the Priority scheduler on the built-in workload. -/
theorem C24_prio_accepted :
    "prio" ∉ schedulerNames ∧ selectScheduler "prio" = some Policy.priority ∧
      main_run false "" "prio" [] []
        = { status := 0, scheduled := some (Policy.priority, builtinWorkload),
            printed := true, err := none } := by
  refine ⟨by simp [schedulerNames], by simp [selectScheduler], ?_⟩
  simp [main_run, selectScheduler, builtinWorkload]

/-- Claim C24 (amended): `main` accepts a scheduler name if and only if it is one of
`fcfs, sjf, srtf, prio, priority, rr, mlq, mlfq, lottery, cfs, edf` (`prio` is a second name
of the Priority scheduler); with a non-empty workload every other string, the empty string
included, is rejected with exit status 1, no scheduler is run and no results are printed. -/
theorem C24_scheduler_names (sched input : String) (random : Bool)
    (generated loaded : List Process) :
    ((selectScheduler sched).isSome = true ↔ sched ∈ "prio" :: schedulerNames) ∧
      (sched ∉ "prio" :: schedulerNames →
        (main_run random input sched generated loaded).status = 1 ∧
        (main_run random input sched generated loaded).scheduled = none ∧
        (main_run random input sched generated loaded).printed = false) ∧
      "" ∉ "prio" :: schedulerNames := by
  have key : (selectScheduler sched).isSome = true ↔ sched ∈ "prio" :: schedulerNames := by
    constructor
    · intro h
      by_contra hne
      simp only [schedulerNames, List.mem_cons, List.mem_singleton, List.not_mem_nil, or_false,
        not_or] at hne
      obtain ⟨h1, h2, h3, h4, h5, h6, h7, h8, h9, h10, h11⟩ := hne
      simp [selectScheduler, h1, h2, h3, h4, h5, h6, h7, h8, h9, h10, h11] at h
    · intro h
      simp only [schedulerNames, List.mem_cons, List.mem_singleton, List.not_mem_nil,
        or_false] at h
      rcases h with h | h | h | h | h | h | h | h | h | h | h <;> subst h <;>
        simp [selectScheduler]
  refine ⟨key, fun h => ?_, by simp [schedulerNames]⟩
  have hn : selectScheduler sched = none := by
    cases hs : selectScheduler sched with
    | none => rfl
    | some p => exact absurd (key.mp (by rw [hs]; rfl)) h
  unfold main_run
  simp only [hn]
  split_ifs <;> exact ⟨rfl, rfl, rfl⟩

/-- Claim C25: when the workload that `loadProcesses` returns for the given input file is
empty, `main` writes `No processes loaded.` to the error stream and returns exit status 1;
no scheduler's `schedule` is invoked and `printResults` (hence `calculateMetrics`) is not
called, whatever scheduler name was given. -/
theorem C25_empty_workload (input sched : String) (generated : List Process)
    (hin : input ≠ "") :
    main_run false input sched generated []
      = { status := 1, scheduled := none, printed := false,
          err := some "No processes loaded.\n" } := by
  simp [main_run, hin]

theorem C25_empty_workload_witness :
    "empty.txt" ≠ "" ∧
      main_run false "empty.txt" "fcfs" [] []
        = { status := 1, scheduled := none, printed := false,
            err := some "No processes loaded.\n" } :=
  ⟨by decide, C25_empty_workload "empty.txt" "fcfs" [] (by decide)⟩

/-- Claim C26: every policy tolerates a one-process workload.  For a single process with
arrival_time `a >= 0` and burst_time `b > 0` whose completion time `a + b` is a value of type
`int` (`a + b <= INT_MAX`), under each of the ten policies (Round Robin with any quantum of at
least 1, Lottery with any draws, CFS and EDF with any behaviour of the priority queue)
`schedule` terminates with `waiting_time = 0`, `turnaround_time = b` and
`total_time = a + b`.  With `a + b > INT_MAX` the clock of the program overflows and
`total_time` is not `a + b`. -/
theorem C26_single_process (p : Process) (ha : 0 ≤ p.arrival_time) (hb : 0 < p.burst_time)
    (hfit : p.arrival_time + p.burst_time ≤ INT_MAX) (quantum : Int)
    (hq : 1 ≤ quantum) (draws : Nat → Nat) (sel : List Process → List Nat → Nat) :
    ClockFits [p] ∧ SingleProcessOK p quantum draws sel := by
  have hi : p.arrival_time ≤ INT_MAX := by omega
  have hw : workEnd [p] = p.arrival_time + p.burst_time := by
    show busyOver (fun i => (procAt [p] i).arrival_time)
      (fun i => (procAt [p] i).burst_time) 0 [0] = _
    have h0 : procAt [p] 0 = p := rfl
    simp only [busyOver, h0, if_pos hb, max_eq_right ha]
  refine ⟨⟨fun q hq2 => ?_, by rw [hw]; exact hfit⟩, ?_⟩
  · rw [List.mem_singleton.mp hq2]
    exact ha
  · exact ⟨FCFS_single p ha, NP_single SJF_pick SJF_pick_ok p ha,
      NP_single Priority_pick Priority_pick_ok p ha, SRTF_single p ha hi hb,
      RR_single quantum hq p ha hb, MLQ_single p ha hb, MLFQ_single p ha hb,
      Lottery_single draws p ha hb, CFS_single sel p ha hb, EDF_single sel p ha hb⟩

/-- Claim C26 at the process `P1` with arrival time 3 and burst time 2, quantum 4, the draws
0, 1, 2, ... and the priority queues handing out the first minimal element. -/
theorem C26_single_process_witness :
    (0 : Int) ≤ 3 ∧ (0 : Int) < 2 ∧ (3 : Int) + 2 ≤ INT_MAX ∧ (1 : Int) ≤ 4 ∧
      ClockFits [{ id := "P1", arrival_time := 3, burst_time := 2, priority := 1 }] ∧
      SingleProcessOK { id := "P1", arrival_time := 3, burst_time := 2, priority := 1 } 4
        (fun k => k) CFS_top :=
  ⟨by decide, by decide, by decide, by decide,
    C26_single_process { id := "P1", arrival_time := 3, burst_time := 2, priority := 1 }
      (by decide) (by decide) (by decide) 4 (by decide) (fun k => k) CFS_top⟩

/-- Claim C27: no policy alters identity or demand.  For every input whatsoever, FCFS returns
the same jobs (id, arrival_time, burst_time), possibly reordered; each of the other nine
policies, in every state its loop visits and in every result it returns, holds at every
position the process of the input with the same id, arrival_time and burst_time, so that the
ids of the result are the ids of the input (Round Robin with any quantum, Lottery with any
draws, CFS and EDF with any behaviour of the priority queue). -/
theorem C27_frame (ps : List Process) (quantum : Int) (draws : Nat → Nat)
    (sel : List Process → List Nat → Nat) :
    SameJobs ps (FCFSScheduler_schedule ps).ps ∧
    FramePolicy ps (NP_body SJF_pick (sortedOrder (initRemaining ps)))
      { ps := initRemaining ps, t := 0, next := 0, rq := [], gantt := [] } (fun s => s.ps)
      (fun fuel => SJFScheduler_schedule fuel ps) ∧
    FramePolicy ps (NP_body Priority_pick (sortedOrder (initRemaining ps)))
      { ps := initRemaining ps, t := 0, next := 0, rq := [], gantt := [] } (fun s => s.ps)
      (fun fuel => PriorityScheduler_schedule fuel ps) ∧
    FramePolicy ps SRTF_body (SRTF_init ps) (fun s => s.ps)
      (fun fuel => SRTFScheduler_schedule fuel ps) ∧
    FramePolicy ps (RR_body quantum) (RR_init ps) (fun s => s.ps)
      (fun fuel => RoundRobinScheduler_schedule quantum fuel ps) ∧
    FramePolicy ps MLQ_body (MLQ_init ps) (fun s => s.ps)
      (fun fuel => MLQScheduler_schedule fuel ps) ∧
    FramePolicy ps MLFQ_body (MLFQ_init ps) (fun s => s.ps)
      (fun fuel => MLFQScheduler_schedule fuel ps) ∧
    FramePolicy ps (Lottery_body draws (Lottery_tickets (initRemaining ps))) (Lottery_init ps)
      (fun s => s.ps) (fun fuel => LotteryScheduler_schedule draws fuel ps) ∧
    FramePolicy ps (CFS_body sel) (CFS_init ps) (fun s => s.ps)
      (fun fuel => CFSScheduler_schedule sel fuel ps) ∧
    FramePolicy ps (EDF_body sel) (EDF_init ps) (fun s => s.ps)
      (fun fuel => EDFScheduler_schedule sel fuel ps) := by
  refine ⟨FCFS_sameJobs ps, ?_, ?_, ?_, ?_, ?_, ?_, ?_, ?_, ?_⟩
  · exact framePolicy_of_kept ps (NP_cond (sortedOrder (initRemaining ps)))
      (NP_body SJF_pick (sortedOrder (initRemaining ps))) _ (fun s : NPState => s.ps)
      (fun s : NPState => { ps := s.ps, gantt := s.gantt, total_time := s.t })
      (Frame_init ps) (NP_body_kept SJF_pick _) (fun K h => h)
  · exact framePolicy_of_kept ps (NP_cond (sortedOrder (initRemaining ps)))
      (NP_body Priority_pick (sortedOrder (initRemaining ps))) _ (fun s : NPState => s.ps)
      (fun s : NPState => { ps := s.ps, gantt := s.gantt, total_time := s.t })
      (Frame_init ps) (NP_body_kept Priority_pick _) (fun K h => h)
  · exact framePolicy_of_kept ps (fun s : SRTFState => anyLeft s.ps) SRTF_body (SRTF_init ps)
      (fun s : SRTFState => s.ps)
      (fun s : SRTFState => { ps := finishWithComp s.ps s.comp,
                              gantt := finalizeBlock s.last s.start s.t s.gantt,
                              total_time := s.t })
      (Frame_init ps) (fun s => (SRTF_body_kept s).1)
      (fun K h => Frame_finish h _ (comp_length_iterate ps SRTF_body (SRTF_init ps)
        (fun s => s.ps) (fun s => s.comp) SRTF_body_kept (Frame_init ps).1
        (by simp [SRTF_init]) K))
  · exact framePolicy_of_kept ps RR_cond (RR_body quantum) (RR_init ps)
      (fun s : RRState => s.ps)
      (fun s : RRState => { ps := s.ps,
                            gantt := finalizeBlock s.last s.last_start s.t s.gantt,
                            total_time := s.t })
      (Frame_init ps) (RR_body_kept quantum) (fun K h => h)
  · exact framePolicy_of_kept ps (fun s : MLQState => anyLeft s.ps) MLQ_body (MLQ_init ps)
      (fun s : MLQState => s.ps)
      (fun s : MLQState => { ps := s.ps, gantt := s.gantt, total_time := s.t })
      (Frame_init ps) MLQ_body_kept (fun K h => h)
  · exact framePolicy_of_kept ps (fun s : MLFQState => anyLeft s.ps) MLFQ_body (MLFQ_init ps)
      (fun s : MLFQState => s.ps)
      (fun s : MLFQState => { ps := finishWithComp s.ps s.comp, gantt := s.gantt,
                              total_time := maxCompletion (finishWithComp s.ps s.comp) })
      (Frame_init ps) (fun s => (MLFQ_body_kept s).1)
      (fun K h => Frame_finish h _ (comp_length_iterate ps MLFQ_body (MLFQ_init ps)
        (fun s => s.ps) (fun s => s.comp) MLFQ_body_kept (Frame_init ps).1
        (by simp [MLFQ_init]) K))
  · exact framePolicy_of_kept ps (fun s : LotteryState => anyLeft s.ps)
      (Lottery_body draws (Lottery_tickets (initRemaining ps))) (Lottery_init ps)
      (fun s : LotteryState => s.ps)
      (fun s : LotteryState => { ps := s.ps, gantt := s.gantt, total_time := s.t })
      (Frame_init ps) (Lottery_body_kept draws _) (fun K h => h)
  · exact framePolicy_of_kept ps (fun s : CFSState => anyLeft s.ps) (CFS_body sel)
      (CFS_init ps) (fun s : CFSState => s.ps)
      (fun s : CFSState => { ps := finishWithComp s.ps s.comp, gantt := s.gantt,
                             total_time := s.t })
      (Frame_CFS_init ps) (fun s => (CFS_body_kept sel s).1)
      (fun K h => Frame_finish h _ (comp_length_iterate ps (CFS_body sel) (CFS_init ps)
        (fun s => s.ps) (fun s => s.comp) (CFS_body_kept sel) (Frame_CFS_init ps).1
        (by simp [CFS_init]) K))
  · exact framePolicy_of_kept ps (fun s : EDFState => anyLeft s.ps) (EDF_body sel)
      (EDF_init ps) (fun s : EDFState => s.ps)
      (fun s : EDFState => { ps := finishWithComp s.ps s.comp,
                             gantt := finalizeBlock s.last s.start s.t s.gantt,
                             total_time := s.t })
      (Frame_EDF_init ps) (fun s => (EDF_body_kept2 sel s).1)
      (fun K h => Frame_finish h _ (comp_length_iterate ps (EDF_body sel) (EDF_init ps)
        (fun s => s.ps) (fun s => s.comp) (EDF_body_kept2 sel) (Frame_EDF_init ps).1
        (by simp [EDF_init]) K))

/-- Claim C28: in Round Robin (quantum at least 1, workload sorted by arrival with positive
burst times) every dispatch runs the head of the queue for exactly
`min(quantum, remaining_time)` time units, and when that process is preempted at clock `t`
with `remaining_time > 0` it is queued behind every other unfinished process that has arrived
by `t`, in particular behind every process admitted only at `t`. -/
theorem C28_rr_dispatch (quantum : Int) (hq : 1 ≤ quantum) (ps : List Process)
    (hrun : Runnable ps) : RRDispatches quantum ps := by
  obtain ⟨K, hK, hc, hx, hinv, hstep, hfuel⟩ := RR_run quantum hq ps hrun
  refine ⟨K, hfuel, ?_⟩
  intro k hk cur rest hq1
  have hI := hinv k (Nat.le_of_lt hk)
  have hsort : SortedIdx (Nat.iterate (RR_body quantum) k (RR_init ps)).ps :=
    sortedIdx_of_sorted ps _ hrun.1 hI.frame.1 hI.frame.2
  obtain ⟨h1, h2, h3, h4⟩ := RR_dispatch quantum hq ps _ hI hsort cur rest hq1
  rw [Function.iterate_succ_apply']
  refine ⟨h1, h2, h3, fun hpos => ?_⟩
  obtain ⟨pre, p1, p2, p3⟩ := h4 hpos
  refine ⟨pre, p1, p2, fun j hj hne harr hrem => ?_⟩
  refine p3 j (by rw [hI.frame.1]; exact hj) hne ?_ hrem
  rw [(hI.frame.2 j hj).2.1]
  exact harr

/-- On the built-in workload with quantum 4, after `P1` has run over `[0, 4)` the queue is
`P2, P3, P4, P1`. -/
theorem C28_rr_dispatch_witness :
    (1 : Int) ≤ 4 ∧ Runnable builtinWorkload ∧ RRDispatches 4 builtinWorkload ∧
      (RR_body 4 (RR_init builtinWorkload)).t = 4 ∧
      (RR_body 4 (RR_init builtinWorkload)).q = [1, 2, 3, 0] ∧
      (RR_body 4 (RR_init builtinWorkload)).ps.map (fun p => p.remaining_time) = [4, 4, 9, 5] :=
  ⟨by decide, by decide, C28_rr_dispatch 4 (by decide) builtinWorkload (by decide),
    by decide, by decide, by decide⟩

/-- Claim C29: in MLQ the high queue has absolute precedence.  For every workload sorted by
arrival (with positive burst times) the scheduler terminates, a process with `priority >= 3`
executes during `[t, t + 1)` only if no process with `priority < 3` has `arrival_time <= t`
and `remaining_time > 0`, and (the ids being unique and different from `IDLE`, so that a
segment names its process) every timeline segment of a process with `priority < 3` has
duration at most 4. -/
theorem C29_mlq_high_first (ps : List Process) (hrun : Runnable ps) : MLQPrecedence ps := by
  obtain ⟨K, hloop⟩ := MLQ_run ps hrun
  have hkept : ∀ k, Kept ps (Nat.iterate MLQ_body k (MLQ_init ps)).ps := fun k =>
    Kept_trans (Kept_init ps) (Kept_iterate MLQ_body (fun s => s.ps) MLQ_body_kept (MLQ_init ps) k)
  have hsorted : ∀ s, MLQInv ps s → SortedIdx s.ps := fun s hI =>
    sortedIdx_of_sorted ps _ hrun.1 hI.frame.1 hI.frame.2
  have hextra := extra_inv hloop MLQExtra
    ⟨⟨fun i hi => by simp [MLQ_init] at hi, fun i hi => by simp [MLQ_init] at hi⟩,
      fun _ e he => by simp [MLQ_init] at he⟩
    (fun s hI _ hx => (MLQ_extra_step ps s hI (hsorted s hI) hx).1)
  obtain ⟨r1, r2, r3, r4, r5, r6⟩ := hloop
  refine ⟨K, { ps := (Nat.iterate MLQ_body K (MLQ_init ps)).ps,
               gantt := (Nat.iterate MLQ_body K (MLQ_init ps)).gantt,
               total_time := (Nat.iterate MLQ_body K (MLQ_init ps)).t },
    fun fuel hf => by unfold MLQScheduler_schedule; rw [r6 fuel hf]; rfl, r2, r3, ?_, ?_⟩
  · intro k hk
    have hI := r4 k (Nat.le_of_lt hk)
    have hhf := MLQ_highFirst ps _ hI (r2 k hk) (hsorted _ hI) (hextra k (Nat.le_of_lt hk))
    rw [← Function.iterate_succ_apply' MLQ_body k (MLQ_init ps)] at hhf
    have hk1 := hkept k
    intro i hi hpi hlt
    obtain ⟨a1, a2⟩ := hhf i (by rw [hk1.1]; exact hi) (by rw [(hk1.2 i).2.2.2.1]; exact hpi) hlt
    refine ⟨a1, fun τ h1 h2 j hj hpj harr => ?_⟩
    exact a2 τ h1 h2 j (by rw [hk1.1]; exact hj) (by rw [(hk1.2 j).2.2.2.1]; exact hpj)
      (by rw [(hk1.2 j).2.1]; exact harr)
  · intro hlab e he p hp hid hpr
    obtain ⟨i, hi, rfl⟩ := exists_procAt_of_mem ps p hp
    have hkK := hkept K
    have hlabK : LabelsOK (Nat.iterate MLQ_body K (MLQ_init ps)).ps := by
      refine ⟨by rw [Kept_ids hkK]; exact hlab.1, fun j hj => ?_⟩
      rw [(hkK.2 j).1]
      exact hlab.2 j (by rw [← hkK.1]; exact hj)
    exact (hextra K (le_refl _)).seg hlabK e he i (by rw [hkK.1]; exact hi)
      (by rw [(hkK.2 i).1]; exact hid) (by rw [(hkK.2 i).2.2.2.1]; exact hpr)

theorem C29_mlq_high_first_witness : Runnable builtinWorkload ∧ MLQPrecedence builtinWorkload :=
  ⟨by decide, C29_mlq_high_first builtinWorkload (by decide)⟩

/-- Claim C30: in MLFQ every arriving process enters level 0 and its first dispatch is a
level-0 dispatch that cannot be preempted.  For every workload sorted by arrival with positive
burst times the scheduler terminates; the admission appends every arrival to `q[0]`; a
dispatch of a process that has not run before is made from level 0 and lasts
`min(2, burst_time)`; every segment produced by a dispatch from level `L` has duration at
most `quantum[L]` (2, 4, 8); and (the ids being unique and different from `IDLE`) the first
timeline segment labelled with a process's id has duration exactly `min(2, burst_time)`. -/
theorem C30_mlfq_first_dispatch (ps : List Process) (hrun : Runnable ps) :
    MLFQFirstDispatch ps := by
  obtain ⟨K, hloop⟩ := MLFQ_run ps hrun
  have hkept : ∀ k, Kept ps (Nat.iterate MLFQ_body k (MLFQ_init ps)).ps := fun k =>
    Kept_trans (Kept_init ps)
      (Kept_iterate MLFQ_body (fun s => s.ps) (fun s => (MLFQ_body_kept s).1) (MLFQ_init ps) k)
  have hinit : MLFQExtra (MLFQ_init ps) := by
    refine ⟨fun i hi => by simp [MLFQ_init] at hi, fun _ i hi => ?_⟩
    have hi2 : i < ps.length := by
      have : (MLFQ_init ps).ps.length = ps.length := length_initRemaining ps
      omega
    obtain ⟨⟨_, _, b3⟩, b4⟩ := (init_jobs_plain ps).2 i hi2
    have hfull : (procAt (MLFQ_init ps).ps i).remaining_time
        = (procAt (MLFQ_init ps).ps i).burst_time := b4.trans b3.symm
    exact ⟨fun _ => rfl, fun hlt => by omega⟩
  have hextra := extra_inv hloop MLFQExtra hinit
    (fun s hI _ hx => (MLFQ_extra_step ps s hI hx).1)
  obtain ⟨r1, r2, r3, r4, r5, r6⟩ := hloop
  refine ⟨K, { ps := finishWithComp (Nat.iterate MLFQ_body K (MLFQ_init ps)).ps
                 (Nat.iterate MLFQ_body K (MLFQ_init ps)).comp,
               gantt := (Nat.iterate MLFQ_body K (MLFQ_init ps)).gantt,
               total_time := maxCompletion
                 (finishWithComp (Nat.iterate MLFQ_body K (MLFQ_init ps)).ps
                   (Nat.iterate MLFQ_body K (MLFQ_init ps)).comp) },
    fun fuel hf => by unfold MLFQScheduler_schedule; rw [r6 fuel hf]; rfl, r2, r3,
    fun s => ⟨(MLFQ_push_fields s).2.1, (MLFQ_push_fields s).2.2.1,
      (MLFQ_push_fields s).2.2.2.1⟩, ?_, ?_⟩
  · intro k hk
    rw [Function.iterate_succ_apply']
    exact (MLFQ_extra_step ps _ (r4 k (Nat.le_of_lt hk)) (hextra k (Nat.le_of_lt hk))).2
  · intro hlab p hp
    obtain ⟨i, hi, rfl⟩ := exists_procAt_of_mem ps p hp
    have hkK := hkept K
    have hI := r4 K (le_refl _)
    have hlabK : LabelsOK (Nat.iterate MLFQ_body K (MLFQ_init ps)).ps := by
      refine ⟨by rw [Kept_ids hkK]; exact hlab.1, fun j hj => ?_⟩
      rw [(hkK.2 j).1]
      exact hlab.2 j (by rw [← hkK.1]; exact hj)
    have hiK : i < (Nat.iterate MLFQ_body K (MLFQ_init ps)).ps.length := by
      rw [hkK.1]; exact hi
    have hdone := done_of_exit hI.acct r3 i hiK
    have hbpos := (hI.acct.2 i hiK).1
    obtain ⟨rest, hrest⟩ := ((hextra K (le_refl _)).first hlabK i hiK).2 (by omega)
    rw [(hkK.2 i).1, (hkK.2 i).2.2.1] at hrest
    exact ⟨rest, hrest⟩

theorem C30_mlfq_first_dispatch_witness :
    Runnable builtinWorkload ∧ MLFQFirstDispatch builtinWorkload :=
  ⟨by decide, C30_mlfq_first_dispatch builtinWorkload (by decide)⟩

/-- Claim C31: for every workload that is sorted by arrival and has positive burst times, the
loop of `MLFQScheduler::schedule` leaves after K iterations (K at most `MLFQ_fuelBound`),
and every iteration k < K obeys the demotion rule `MLFQ_demotionOf`: a dispatch of p from
level L runs p for r units with 0 < r <= quantum[L], and if p still has remaining_time > 0
it is re-enqueued (stored level, last element of that queue, in no other queue, last_enq set
to the clock) at level min(L+1, 2) if r = quantum[L] and at level L if r < quantum[L]; and in
every state that the loop visits every stored level is 0, 1 or 2. -/
theorem C31_mlfq_demotion (ps : List Process) (hrun : Runnable ps) :
    ∃ K, K ≤ MLFQ_fuelBound ps ∧
      (∀ fuel, MLFQ_fuelBound ps ≤ fuel →
        whileLoop (fun s => anyLeft s.ps) MLFQ_body fuel (MLFQ_init ps)
          = some (Nat.iterate MLFQ_body K (MLFQ_init ps))) ∧
      (∀ k, k < K →
        MLFQ_demotionOf (Nat.iterate MLFQ_body k (MLFQ_init ps))
          (Nat.iterate MLFQ_body (k + 1) (MLFQ_init ps))) ∧
      ∀ k, MLFQ_lens ps.length (Nat.iterate MLFQ_body k (MLFQ_init ps)) := by
  obtain ⟨K, hK, hc, _, hinv, _, hfuel⟩ := MLFQ_run ps hrun
  refine ⟨K, hK, hfuel, ?_, MLFQ_lens_iterate ps⟩
  intro k hk
  have hI := hinv k (le_of_lt hk)
  have hl := MLFQ_lens_iterate ps k
  rw [← hI.frame.1] at hl
  rw [Function.iterate_succ_apply']
  exact MLFQ_demotion_step ps _ hI (hc k hk) hl

/-- Claim C31 at the built-in workload: the first iteration runs `P1` from level 0 for the
full quantum of 2 units and re-enqueues it at level 1. -/
theorem C31_mlfq_demotion_witness :
    Runnable builtinWorkload ∧
    (∃ K, K ≤ MLFQ_fuelBound builtinWorkload ∧
      (∀ fuel, MLFQ_fuelBound builtinWorkload ≤ fuel →
        whileLoop (fun s => anyLeft s.ps) MLFQ_body fuel (MLFQ_init builtinWorkload)
          = some (Nat.iterate MLFQ_body K (MLFQ_init builtinWorkload))) ∧
      (∀ k, k < K →
        MLFQ_demotionOf (Nat.iterate MLFQ_body k (MLFQ_init builtinWorkload))
          (Nat.iterate MLFQ_body (k + 1) (MLFQ_init builtinWorkload))) ∧
      ∀ k, MLFQ_lens builtinWorkload.length
        (Nat.iterate MLFQ_body k (MLFQ_init builtinWorkload))) ∧
    MLFQ_dispatchOf (MLFQ_init builtinWorkload) = some (0, 0) ∧
    (MLFQ_body (MLFQ_init builtinWorkload)).level = [1, 0, 0, 0] ∧
    (MLFQ_body (MLFQ_init builtinWorkload)).q1 = [0] :=
  ⟨by decide, C31_mlfq_demotion builtinWorkload (by decide), by decide, by decide, by decide⟩

/-- Claim C32: for every workload that is sorted by arrival and has positive burst times, the
loop of `MLFQScheduler::schedule` leaves after K iterations (K at most `MLFQ_fuelBound`),
and every iteration k < K obeys the promotion rule `MLFQ_promotionOf`: when the process p
taken from level L in {1, 2} at clock t has t - last_enq[p] >= 10, it is moved to the back
of level L - 1 instead of being run, and the clock, the process vector (so every
remaining_time) and the timeline are unchanged; consequently (`MLFQ_runsFresh`) every process
whose remaining_time the iteration decreases is the one taken from the queues, and if it was
taken from level 1 or 2 then t - last_enq[p] < 10. -/
theorem C32_mlfq_promotion (ps : List Process) (hrun : Runnable ps) :
    ∃ K, K ≤ MLFQ_fuelBound ps ∧
      (∀ fuel, MLFQ_fuelBound ps ≤ fuel →
        whileLoop (fun s => anyLeft s.ps) MLFQ_body fuel (MLFQ_init ps)
          = some (Nat.iterate MLFQ_body K (MLFQ_init ps))) ∧
      ∀ k, k < K →
        MLFQ_promotionOf (Nat.iterate MLFQ_body k (MLFQ_init ps))
          (Nat.iterate MLFQ_body (k + 1) (MLFQ_init ps)) ∧
        MLFQ_runsFresh (Nat.iterate MLFQ_body k (MLFQ_init ps))
          (Nat.iterate MLFQ_body (k + 1) (MLFQ_init ps)) := by
  obtain ⟨K, hK, hc, _, hinv, _, hfuel⟩ := MLFQ_run ps hrun
  refine ⟨K, hK, hfuel, ?_⟩
  intro k hk
  have hI := hinv k (le_of_lt hk)
  have hl := MLFQ_lens_iterate ps k
  rw [← hI.frame.1] at hl
  rw [Function.iterate_succ_apply']
  exact MLFQ_promotion_step ps _ hI hl

/-- Claim C32 at the workload of three processes with burst time 20 arriving at 0: the
eighth iteration takes process 1 from level 2 at clock 26, 12 units after its last enqueue
at clock 14, and moves it to level 1 without running it. -/
theorem C32_mlfq_promotion_witness :
    Runnable mlfqAgingWorkload ∧
    (∃ K, K ≤ MLFQ_fuelBound mlfqAgingWorkload ∧
      (∀ fuel, MLFQ_fuelBound mlfqAgingWorkload ≤ fuel →
        whileLoop (fun s => anyLeft s.ps) MLFQ_body fuel (MLFQ_init mlfqAgingWorkload)
          = some (Nat.iterate MLFQ_body K (MLFQ_init mlfqAgingWorkload))) ∧
      ∀ k, k < K →
        MLFQ_promotionOf (Nat.iterate MLFQ_body k (MLFQ_init mlfqAgingWorkload))
          (Nat.iterate MLFQ_body (k + 1) (MLFQ_init mlfqAgingWorkload)) ∧
        MLFQ_runsFresh (Nat.iterate MLFQ_body k (MLFQ_init mlfqAgingWorkload))
          (Nat.iterate MLFQ_body (k + 1) (MLFQ_init mlfqAgingWorkload))) ∧
    MLFQ_taken (Nat.iterate MLFQ_body 7 (MLFQ_init mlfqAgingWorkload)) = some (2, 1) ∧
    (Nat.iterate MLFQ_body 7 (MLFQ_init mlfqAgingWorkload)).t = 26 ∧
    (Nat.iterate MLFQ_body 7 (MLFQ_init mlfqAgingWorkload)).last_enq = [26, 14, 18] ∧
    (Nat.iterate MLFQ_body 8 (MLFQ_init mlfqAgingWorkload)).t = 26 ∧
    (Nat.iterate MLFQ_body 8 (MLFQ_init mlfqAgingWorkload)).q1 = [1] ∧
    (Nat.iterate MLFQ_body 8 (MLFQ_init mlfqAgingWorkload)).level = [2, 1, 2] :=
  ⟨by decide, C32_mlfq_promotion mlfqAgingWorkload (by decide),
    by decide, by decide, by decide, by decide, by decide, by decide⟩

/-- Claim C33: for every workload that is sorted by arrival and has positive burst times, the
loop of `MLFQScheduler::schedule` leaves after K iterations (K at most `MLFQ_fuelBound`),
and in every iteration k < K level 0 preempts the lower levels at one-unit granularity
(`MLFQ_level0Preempts`): when a process p is dispatched from level 1 or 2 at clock t, the
j-th time unit that it executes starts at clock t + j in a state whose level-0 queue is
empty and in which no arrived process waits for admission, and if p is stopped with
remaining_time > 0 before its quantum is used up, the level-0 queue is non-empty (an arrival
occurred during the last unit). -/
theorem C33_mlfq_level0_preempts (ps : List Process) (hrun : Runnable ps) :
    ∃ K, K ≤ MLFQ_fuelBound ps ∧
      (∀ fuel, MLFQ_fuelBound ps ≤ fuel →
        whileLoop (fun s => anyLeft s.ps) MLFQ_body fuel (MLFQ_init ps)
          = some (Nat.iterate MLFQ_body K (MLFQ_init ps))) ∧
      ∀ k, k < K →
        MLFQ_level0Preempts (Nat.iterate MLFQ_body k (MLFQ_init ps))
          (Nat.iterate MLFQ_body (k + 1) (MLFQ_init ps)) := by
  obtain ⟨K, hK, hc, _, hinv, _, hfuel⟩ := MLFQ_run ps hrun
  refine ⟨K, hK, hfuel, ?_⟩
  intro k hk
  have hI := hinv k (le_of_lt hk)
  rw [Function.iterate_succ_apply']
  exact MLFQ_preempt_step ps _ hI

/-- Claim C33 at the workload with a long process arriving at 0 and a short one arriving at
5: the third iteration dispatches process 0 from level 1 at clock 2 (quantum 4); it is
stopped at clock 5, after 3 units, with process 1 in the level-0 queue. -/
theorem C33_mlfq_level0_preempts_witness :
    Runnable mlfqPreemptWorkload ∧
    (∃ K, K ≤ MLFQ_fuelBound mlfqPreemptWorkload ∧
      (∀ fuel, MLFQ_fuelBound mlfqPreemptWorkload ≤ fuel →
        whileLoop (fun s => anyLeft s.ps) MLFQ_body fuel (MLFQ_init mlfqPreemptWorkload)
          = some (Nat.iterate MLFQ_body K (MLFQ_init mlfqPreemptWorkload))) ∧
      ∀ k, k < K →
        MLFQ_level0Preempts (Nat.iterate MLFQ_body k (MLFQ_init mlfqPreemptWorkload))
          (Nat.iterate MLFQ_body (k + 1) (MLFQ_init mlfqPreemptWorkload))) ∧
    MLFQ_dispatchOf (Nat.iterate MLFQ_body 1 (MLFQ_init mlfqPreemptWorkload)) = some (1, 0) ∧
    (Nat.iterate MLFQ_body 1 (MLFQ_init mlfqPreemptWorkload)).t = 2 ∧
    (Nat.iterate MLFQ_body 2 (MLFQ_init mlfqPreemptWorkload)).t = 5 ∧
    (Nat.iterate MLFQ_body 2 (MLFQ_init mlfqPreemptWorkload)).q0 = [1] ∧
    (Nat.iterate MLFQ_body 2 (MLFQ_init mlfqPreemptWorkload)).q1 = [0] :=
  ⟨by decide, C33_mlfq_level0_preempts mlfqPreemptWorkload (by decide),
    by decide, by decide, by decide, by decide, by decide⟩

/-- Claim C34: in `LotteryScheduler::schedule` the ticket count of process i is fixed before
the loop as max(1, 10 div max(1, priority_i)), which lies between 1 and 10 and equals
max(1, 10 div priority_i) when priority_i >= 1; in every state that the loop visits (clock
t), the ticket bag holds exactly tickets_i copies of i for every process with
arrival_time <= t and remaining_time > 0 and no other entry; and an iteration with a
non-empty bag dispatches the drawn element of the bag for min(4, remaining_time) units,
while an iteration with an empty bag changes no process record. -/
theorem C34_lottery_bag (draws : Nat → Nat) (ps : List Process) :
    (∀ i, i < ps.length →
      (Lottery_tickets (initRemaining ps)).getD i 0
        = max 1 (10 / max 1 (procAt ps i).priority) ∧
      1 ≤ (Lottery_tickets (initRemaining ps)).getD i 0 ∧
      (Lottery_tickets (initRemaining ps)).getD i 0 ≤ 10 ∧
      (1 ≤ (procAt ps i).priority →
        (Lottery_tickets (initRemaining ps)).getD i 0
          = max 1 (10 / (procAt ps i).priority))) ∧
    ∀ k, (Lottery_state draws ps k).ps.length = ps.length ∧
      Lottery_bagOK (Lottery_tickets (initRemaining ps)) (Lottery_state draws ps k).ps
        (Lottery_state draws ps k).t ∧
      ((Lottery_bag (Lottery_tickets (initRemaining ps)) (Lottery_state draws ps k).ps
            (Lottery_state draws ps k).t = [] ∧
          (Lottery_state draws ps (k + 1)).ps = (Lottery_state draws ps k).ps) ∨
        ∃ i, i = (Lottery_bag (Lottery_tickets (initRemaining ps)) (Lottery_state draws ps k).ps
              (Lottery_state draws ps k).t).getD
            ((draws (Lottery_state draws ps k).k) %
              (Lottery_bag (Lottery_tickets (initRemaining ps)) (Lottery_state draws ps k).ps
                (Lottery_state draws ps k).t).length) 0 ∧
          Lottery_dispatchOf (Lottery_tickets (initRemaining ps)) (Lottery_state draws ps k)
            (Lottery_state draws ps (k + 1)) i) := by
  refine ⟨fun i hi => Lottery_tickets_value ps i hi, fun k => ⟨?_, Lottery_bag_count _ _ _, ?_⟩⟩
  · have h := (Kept_iterate (Lottery_body draws (Lottery_tickets (initRemaining ps)))
      (fun s : LotteryState => s.ps) (fun s => Lottery_body_kept draws _ s)
      (Lottery_init ps) k).1
    exact h.trans (length_initRemaining ps)
  · have hs : Lottery_state draws ps (k + 1)
        = Lottery_body draws (Lottery_tickets (initRemaining ps)) (Lottery_state draws ps k) := by
      unfold Lottery_state
      rw [Function.iterate_succ_apply']
    rw [hs]
    exact Lottery_iter draws _ _

/-- Claim C35: for every workload that is sorted by arrival and has positive burst times,
and for every behaviour of the priority queue that hands out an element of minimal vruntime
(vruntime modelled in exact arithmetic), the loop of `CFSScheduler::schedule` leaves after
K iterations (K at most `fuelBound`), and every iteration k < K either finds no process with
arrival_time <= t and remaining_time > 0 and leaves the process vector unchanged, or is a
dispatch: it runs a process i that has arrived, is unfinished and has the smallest vruntime
among the processes with arrival_time <= t and remaining_time > 0, for exactly
min(2, remaining_time) time units (clock, remaining_time and timeline change by that slice,
and no other record changes). -/
theorem C35_cfs_min_vruntime (sel : List Process → List Nat → Nat)
    (hsel : TopMin (fun ps i => (procAt ps i).vruntime) sel) (ps : List Process)
    (hrun : Runnable ps) :
    ∃ K, K ≤ fuelBound ps ∧
      (∀ fuel, fuelBound ps ≤ fuel →
        whileLoop (fun s => anyLeft s.ps) (CFS_body sel) fuel (CFS_init ps)
          = some (Nat.iterate (CFS_body sel) K (CFS_init ps))) ∧
      ∀ k, k < K →
        (Nat.iterate (CFS_body sel) k (CFS_init ps)).ps.length = ps.length ∧
        (CFS_idleOf (Nat.iterate (CFS_body sel) k (CFS_init ps))
            (Nat.iterate (CFS_body sel) (k + 1) (CFS_init ps)) ∨
          ∃ i, CFS_dispatchOf (Nat.iterate (CFS_body sel) k (CFS_init ps))
            (Nat.iterate (CFS_body sel) (k + 1) (CFS_init ps)) i) := by
  obtain ⟨K, hK, _, _, hinv, _, hfuel⟩ := CFS_run sel ps hrun
  refine ⟨K, hK, hfuel, ?_⟩
  intro k hk
  have hI := hinv k (le_of_lt hk)
  rw [Function.iterate_succ_apply']
  generalize Nat.iterate (CFS_body sel) k (CFS_init ps) = s at *
  have hsort : SortedIdx s.ps := sortedIdx_of_sorted ps s.ps hrun.1 hI.frame.1 hI.frame.2
  exact ⟨hI.frame.1, CFS_select sel hsel ps s hI hsort⟩

/-- Claim C35 at the built-in workload, the priority queue handing out the first element of
minimal vruntime. -/
theorem C35_cfs_min_vruntime_witness :
    TopMin (fun ps i => (procAt ps i).vruntime) CFS_top ∧ Runnable builtinWorkload ∧
    ∃ K, K ≤ fuelBound builtinWorkload ∧
      (∀ fuel, fuelBound builtinWorkload ≤ fuel →
        whileLoop (fun s => anyLeft s.ps) (CFS_body CFS_top) fuel (CFS_init builtinWorkload)
          = some (Nat.iterate (CFS_body CFS_top) K (CFS_init builtinWorkload))) ∧
      ∀ k, k < K →
        (Nat.iterate (CFS_body CFS_top) k (CFS_init builtinWorkload)).ps.length
          = builtinWorkload.length ∧
        (CFS_idleOf (Nat.iterate (CFS_body CFS_top) k (CFS_init builtinWorkload))
            (Nat.iterate (CFS_body CFS_top) (k + 1) (CFS_init builtinWorkload)) ∨
          ∃ i, CFS_dispatchOf (Nat.iterate (CFS_body CFS_top) k (CFS_init builtinWorkload))
            (Nat.iterate (CFS_body CFS_top) (k + 1) (CFS_init builtinWorkload)) i) :=
  ⟨CFS_top_min, by decide,
    C35_cfs_min_vruntime CFS_top CFS_top_min builtinWorkload (by decide)⟩

/-- Claim C36: in exact (rational) arithmetic, for every workload that is sorted by arrival
and has positive burst times and whatever the priority queue hands out, the loop of
`CFSScheduler::schedule` leaves after K iterations (K at most `fuelBound`) and
`schedule` returns a result r such that: every vruntime starts at 0; every iteration either
changes no vruntime or dispatches one process p for a slice sl = min(2, remaining_time) > 0,
adding exactly sl / weight = sl * max(1, priority) to the vruntime of p and changing no
other vruntime; so no vruntime ever decreases; in every visited state the vruntime of a
process is (burst_time - remaining_time) * max(1, priority); and in the result, where every
process is complete, it is burst_time * max(1, priority). -/
theorem C36_cfs_vruntime (sel : List Process → List Nat → Nat) (ps : List Process)
    (hrun : Runnable ps) :
    ∃ K r, K ≤ fuelBound ps ∧
      (∀ fuel, fuelBound ps ≤ fuel → CFSScheduler_schedule sel fuel ps = some r) ∧
      (∀ i, i < ps.length → (procAt (CFS_init ps).ps i).vruntime = 0) ∧
      (∀ k, k < K →
        CFS_charged (Nat.iterate (CFS_body sel) k (CFS_init ps)).ps
          (Nat.iterate (CFS_body sel) (k + 1) (CFS_init ps)).ps ∧
        ∀ i, (procAt (Nat.iterate (CFS_body sel) k (CFS_init ps)).ps i).vruntime
          ≤ (procAt (Nat.iterate (CFS_body sel) (k + 1) (CFS_init ps)).ps i).vruntime) ∧
      (∀ k, k ≤ K → CFS_vruntimeOK ps (Nat.iterate (CFS_body sel) k (CFS_init ps)).ps) ∧
      r.ps.length = ps.length ∧
      ∀ i, i < ps.length →
        (procAt r.ps i).remaining_time = 0 ∧
        (procAt r.ps i).vruntime
          = ((procAt ps i).burst_time : Rat) * ((max 1 (procAt ps i).priority : Int) : Rat) := by
  obtain ⟨K, hr⟩ := CFS_run sel ps hrun
  have hv := CFS_vruntime_run sel ps hrun hr
  obtain ⟨hK, _, hexit, hinv, _, hfuel⟩ := hr
  have hIK := hinv K (le_refl _)
  have hlenK : (Nat.iterate (CFS_body sel) K (CFS_init ps)).ps.length = ps.length :=
    hIK.frame.1
  refine ⟨K, { ps := finishWithComp (Nat.iterate (CFS_body sel) K (CFS_init ps)).ps
                 (Nat.iterate (CFS_body sel) K (CFS_init ps)).comp,
               gantt := (Nat.iterate (CFS_body sel) K (CFS_init ps)).gantt,
               total_time := (Nat.iterate (CFS_body sel) K (CFS_init ps)).t }, hK, ?_,
    fun i hi => (CFS_init_vruntime ps i hi).1, ?_, fun k hk => (hv k hk).2, ?_, ?_⟩
  · intro fuel hf
    unfold CFSScheduler_schedule
    rw [hfuel fuel hf]
    rfl
  · intro k hk
    have hI := hinv k (le_of_lt hk)
    rw [Function.iterate_succ_apply']
    generalize Nat.iterate (CFS_body sel) k (CFS_init ps) = s at *
    have hsort : SortedIdx s.ps := sortedIdx_of_sorted ps s.ps hrun.1 hI.frame.1 hI.frame.2
    have hc := CFS_charge_step sel ps s hI hsort
    exact ⟨hc, CFS_charged_mono hc⟩
  · show (finishWithComp _ _).length = ps.length
    rw [length_finishWithComp _ _ hIK.complen, hlenK]
  · intro i hi
    show (procAt (finishWithComp _ _) i).remaining_time = 0 ∧
      (procAt (finishWithComp _ _) i).vruntime = _
    rw [procAt_finishWithComp _ _ i (by rw [hlenK]; exact hi) hIK.complen]
    have hd := done_of_exit hIK.acct hexit i (by rw [hlenK]; exact hi)
    refine ⟨hd, ?_⟩
    show (procAt (Nat.iterate (CFS_body sel) K (CFS_init ps)).ps i).vruntime = _
    rw [(hv K (le_refl _)).2 i hi, hd]
    simp

/-- Claim C36 at the built-in workload, the priority queue handing out the first element of
minimal vruntime. -/
theorem C36_cfs_vruntime_witness :
    Runnable builtinWorkload ∧
    ∃ K r, K ≤ fuelBound builtinWorkload ∧
      (∀ fuel, fuelBound builtinWorkload ≤ fuel →
        CFSScheduler_schedule CFS_top fuel builtinWorkload = some r) ∧
      (∀ i, i < builtinWorkload.length →
        (procAt (CFS_init builtinWorkload).ps i).vruntime = 0) ∧
      (∀ k, k < K →
        CFS_charged (Nat.iterate (CFS_body CFS_top) k (CFS_init builtinWorkload)).ps
          (Nat.iterate (CFS_body CFS_top) (k + 1) (CFS_init builtinWorkload)).ps ∧
        ∀ i, (procAt (Nat.iterate (CFS_body CFS_top) k (CFS_init builtinWorkload)).ps i).vruntime
          ≤ (procAt (Nat.iterate (CFS_body CFS_top) (k + 1)
              (CFS_init builtinWorkload)).ps i).vruntime) ∧
      (∀ k, k ≤ K →
        CFS_vruntimeOK builtinWorkload
          (Nat.iterate (CFS_body CFS_top) k (CFS_init builtinWorkload)).ps) ∧
      r.ps.length = builtinWorkload.length ∧
      ∀ i, i < builtinWorkload.length →
        (procAt r.ps i).remaining_time = 0 ∧
        (procAt r.ps i).vruntime
          = ((procAt builtinWorkload i).burst_time : Rat)
            * ((max 1 (procAt builtinWorkload i).priority : Int) : Rat) :=
  ⟨by decide, C36_cfs_vruntime CFS_top builtinWorkload (by decide)⟩

/-- Claim C37: the scheduling loop of `priority.cpp`, run on a vector of processes with
non-negative burst times (as the vector that `main` is compiled with), leaves after K
iterations (K at most the number of processes, for every fuel of at least that number), and
every iteration k < K has the property `Prio_agedDispatch`: after the aging step performed
at the dispatch clock t, every process in the ready list, with arrival time a and original
priority p0, has aged_steps = floor((t - a) / 3) and, if p0 >= 0, priority exactly
max(0, p0 - floor((t - a) / 3)); and the process dispatched is a ready process that no ready
process precedes in the order (aged priority, arrival_time, id) and that precedes every
ready process with another id. -/
theorem C37_priority_aging (ps : List Process) (hb : ∀ p, p ∈ ps → 0 ≤ p.burst_time) :
    ∃ K, K ≤ ps.length ∧
      (∀ fuel, ps.length ≤ fuel →
        Prio_run fuel ps
          = some (Nat.iterate (Prio_body (sortedOrder ps)) K (Prio_init ps))) ∧
      ∀ k, k < K →
        Prio_agedDispatch ps (sortedOrder ps)
          (Nat.iterate (Prio_body (sortedOrder ps)) k (Prio_init ps)) := by
  obtain ⟨K, hK, _, _, _, hstep, hfuel⟩ := Prio_loop_run ps hb
  exact ⟨K, hK, fun fuel hf => by unfold Prio_run; exact hfuel fuel hf, fun k hk => hstep k hk⟩

/-- Claim C37 at the vector of processes of `priority.cpp`: at the second dispatch the clock
is 8, the ready processes P2, P3, P4 have been aged 2, 2 and 1 steps, their priorities are
0, 1 and 3, and P2 is dispatched. -/
theorem C37_priority_aging_witness :
    (∀ p, p ∈ priorityWorkload → 0 ≤ p.burst_time) ∧
    (∃ K, K ≤ priorityWorkload.length ∧
      (∀ fuel, priorityWorkload.length ≤ fuel →
        Prio_run fuel priorityWorkload
          = some (Nat.iterate (Prio_body (sortedOrder priorityWorkload)) K
              (Prio_init priorityWorkload))) ∧
      ∀ k, k < K →
        Prio_agedDispatch priorityWorkload (sortedOrder priorityWorkload)
          (Nat.iterate (Prio_body (sortedOrder priorityWorkload)) k
            (Prio_init priorityWorkload))) ∧
    (Prio_aged (sortedOrder priorityWorkload)
      (Prio_body (sortedOrder priorityWorkload) (Prio_init priorityWorkload))).current_time = 8 ∧
    (Prio_aged (sortedOrder priorityWorkload)
      (Prio_body (sortedOrder priorityWorkload) (Prio_init priorityWorkload))).ready
        = [1, 2, 3] ∧
    (Prio_aged (sortedOrder priorityWorkload)
      (Prio_body (sortedOrder priorityWorkload) (Prio_init priorityWorkload))).aged_steps
        = [0, 2, 2, 1] ∧
    (Prio_aged (sortedOrder priorityWorkload)
      (Prio_body (sortedOrder priorityWorkload) (Prio_init priorityWorkload))).processes.map
        (fun p => p.priority) = [2, 0, 1, 3] ∧
    Prio_chosen (sortedOrder priorityWorkload)
      (Prio_body (sortedOrder priorityWorkload) (Prio_init priorityWorkload)) = 1 :=
  ⟨by decide, C37_priority_aging priorityWorkload (by decide),
    by decide, by decide, by decide, by decide, by decide⟩

/-- Claim C38: `SRTFScheduler::schedule` is independent of the order of its input list: for
every workload ps with unique ids and positive burst times (arrival times being values of
type `int`) and every permutation qs of ps, `schedule` returns on both (for every fuel of at
least `fuelBound ps`), the two results have the same timeline and the same `total_time`,
their process vectors are permutations of each other, and every process id has the same
`waiting_time` and `turnaround_time` in both. -/
theorem C38_srtf_order_independent (ps qs : List Process) (hperm : List.Perm qs ps)
    (hids : (ps.map (fun p => p.id)).Nodup) (hb : ∀ p, p ∈ ps → 0 < p.burst_time)
    (hint : IntArrivals ps) :
    ∃ r r2, (∀ fuel, fuelBound ps ≤ fuel → SRTFScheduler_schedule fuel ps = some r) ∧
      (∀ fuel, fuelBound ps ≤ fuel → SRTFScheduler_schedule fuel qs = some r2) ∧
      SameSchedule r r2 :=
  SRTF_order_independent ps qs hperm hids hb hint

/-- Claim C38 at the workload [(B,0,5),(A,2,3)] and its reversal: both orders give the
timeline [(B,2),(A,3),(B,3)]. -/
theorem C38_srtf_order_independent_witness :
    List.Perm srtfTieWorkload.reverse srtfTieWorkload ∧
    (srtfTieWorkload.map (fun p => p.id)).Nodup ∧
    (∀ p, p ∈ srtfTieWorkload → 0 < p.burst_time) ∧ IntArrivals srtfTieWorkload ∧
    (∃ r r2,
      (∀ fuel, fuelBound srtfTieWorkload ≤ fuel →
        SRTFScheduler_schedule fuel srtfTieWorkload = some r) ∧
      (∀ fuel, fuelBound srtfTieWorkload ≤ fuel →
        SRTFScheduler_schedule fuel srtfTieWorkload.reverse = some r2) ∧
      SameSchedule r r2) ∧
    (SRTFScheduler_schedule (fuelBound srtfTieWorkload) srtfTieWorkload.reverse).map
        (fun r => (r.gantt, r.total_time, r.ps.map (fun p => (p.id, p.waiting_time))))
      = some ([("B", 2), ("A", 3), ("B", 3)], 8, [("A", 0), ("B", 3)]) :=
  ⟨List.reverse_perm _, by decide, by decide, by decide,
    C38_srtf_order_independent srtfTieWorkload srtfTieWorkload.reverse (List.reverse_perm _)
      (by decide) (by decide) (by decide),
    by decide⟩

/-- Claim C40: the schedulers are work-conserving, so the makespan does not depend on the
policy: for every workload that is sorted by arrival with positive burst times and on which
the clock stays in the range of `int` (`ClockFits`: no arrival time is negative and the last
completion, `workEnd`, is at most `INT_MAX`) and every quantum >= 1, `SJFScheduler`,
`SRTFScheduler` and `RoundRobinScheduler` return (for every sufficient fuel) results whose
`total_time` is the `total_time` of `FCFSScheduler`, namely the clock `workEnd` at which a
CPU that serves the jobs in input order runs out of work, a value between 0 and `INT_MAX`.
The `total_time` of FCFS is taken for the stable sort of `FCFSScheduler_schedule` and for
every other vector `sorted` that the `std::sort` call of FCFS may leave behind
(`ArrivalSorted`: a permutation ordered by arrival time).  Without `ClockFits` the clocks of
the program overflow, and they do so at different points under different policies. -/
theorem C40_same_makespan (quantum : Int) (hq : 1 ≤ quantum) (ps : List Process)
    (hrun : Runnable ps) (hfit : ClockFits ps) :
    ∃ r1 r2 r3,
      (∀ fuel, ps.length ≤ fuel → SJFScheduler_schedule fuel ps = some r1) ∧
      (∀ fuel, fuelBound ps ≤ fuel → SRTFScheduler_schedule fuel ps = some r2) ∧
      (∀ fuel, fuelBound ps ≤ fuel → RoundRobinScheduler_schedule quantum fuel ps = some r3) ∧
      r1.total_time = (FCFSScheduler_schedule ps).total_time ∧
      r2.total_time = (FCFSScheduler_schedule ps).total_time ∧
      r3.total_time = (FCFSScheduler_schedule ps).total_time ∧
      (FCFSScheduler_schedule ps).total_time = workEnd ps ∧
      (∀ sorted, ArrivalSorted (initRemaining ps) sorted →
        (FCFS_schedule_from sorted).total_time = (FCFSScheduler_schedule ps).total_time) ∧
      0 ≤ workEnd ps ∧ workEnd ps ≤ INT_MAX := by
  obtain ⟨r1, h1, e1⟩ := SJF_total ps hrun
  obtain ⟨r2, h2, e2⟩ := SRTF_total ps hrun (intArrivals_of_clockFits ps hrun hfit)
  obtain ⟨r3, h3, e3⟩ := RR_total quantum hq ps hrun
  have hf := FCFS_total_workEnd ps hrun
  exact ⟨r1, r2, r3, h1, h2, h3, by rw [e1, hf], by rw [e2, hf], by rw [e3, hf], hf,
    fun sorted hs => by rw [hf]; exact FCFS_from_total ps sorted hrun hs,
    workEnd_nonneg ps, hfit.2⟩

/-- Claim C40 at the built-in workload with quantum 4: every policy ends at clock 26. -/
theorem C40_same_makespan_witness :
    (1 : Int) ≤ 4 ∧ Runnable builtinWorkload ∧ ClockFits builtinWorkload ∧
    (∃ r1 r2 r3,
      (∀ fuel, builtinWorkload.length ≤ fuel →
        SJFScheduler_schedule fuel builtinWorkload = some r1) ∧
      (∀ fuel, fuelBound builtinWorkload ≤ fuel →
        SRTFScheduler_schedule fuel builtinWorkload = some r2) ∧
      (∀ fuel, fuelBound builtinWorkload ≤ fuel →
        RoundRobinScheduler_schedule 4 fuel builtinWorkload = some r3) ∧
      r1.total_time = (FCFSScheduler_schedule builtinWorkload).total_time ∧
      r2.total_time = (FCFSScheduler_schedule builtinWorkload).total_time ∧
      r3.total_time = (FCFSScheduler_schedule builtinWorkload).total_time ∧
      (FCFSScheduler_schedule builtinWorkload).total_time = workEnd builtinWorkload ∧
      (∀ sorted, ArrivalSorted (initRemaining builtinWorkload) sorted →
        (FCFS_schedule_from sorted).total_time
          = (FCFSScheduler_schedule builtinWorkload).total_time) ∧
      0 ≤ workEnd builtinWorkload ∧ workEnd builtinWorkload ≤ INT_MAX) ∧
    workEnd builtinWorkload = 26 :=
  ⟨by decide, by decide, by decide,
    C40_same_makespan 4 (by decide) builtinWorkload (by decide) (by decide), by decide⟩

end Simulator
